import Mathlib

/-!
kvcache: FIFO, LRU and Segment shards

A shallow embedding of the cache shards of `src/cache` (`fifo_cache.h`,
`lru_cache.h`, `segment_cache.h`) for sequential executions, and theorems
about them.

Modelling conventions.

* Keys are natural numbers, values are an arbitrary type `V` (the classes are
  templates over both).
* `tbb::concurrent_hash_map` is an association list; only `find`, `insert`,
  `erase` and the write through an accessor are used by the shards.
* The intrusive doubly linked list between the two sentinels is the list of
  the keys of the linked nodes, first node after the head sentinel first.  A
  list node is identified by its key: a node is created by the `Insert` that
  adds its key to the hash map and is deleted together with that hash map
  entry, so two live nodes never carry the same key.
* `uint64_t` and `uint32_t` counters wrap (`u64`, `u32`).
* An execution that dereferences the out-of-list marker, a null pointer or a
  freed object has no defined result; the model returns a `Fault` for it.
* The statistics tickers (`Cache::stats`) are not part of the modelled state.
-/

namespace kvcache

/-! ## Machine integers and faults -/

/-- Wrap-around of a `uint64_t`. -/
def u64 (n : Nat) : Nat := n % 2 ^ 64

/-- Wrap-around of a `uint32_t`. -/
def u32 (n : Nat) : Nat := n % 2 ^ 32

/-- Ways in which an execution leaves defined behaviour, or fails to finish
within the fuel given to a loop. -/
inductive Fault where
  /-- A dereference of `out_of_list_marker` (the pointer value -1). -/
  | wildPointer
  /-- A dereference of `nullptr`. -/
  | nullDeref
  /-- A dereference of a deleted object. -/
  | useAfterFree
  /-- An `assert` that does not hold. -/
  | assertFailed
  /-- A loop did not finish within its fuel. -/
  | outOfFuel
  /-- An index past the end of a `std::vector` (`at` throws `std::out_of_range`). -/
  | outOfRange
  /-- An integer division or remainder by zero. -/
  | divByZero
  /-- `unlock` on a `std::unique_lock` that does not own its mutex (it throws
  `std::system_error`). -/
  | notLocked
  deriving DecidableEq, Repr

deriving instance DecidableEq for Except

/-! ## The concurrent hash map, sequentially -/

/-- Sequential content of a `tbb::concurrent_hash_map<Key, β>`. -/
abbrev HashMap (β : Type) := List (Nat × β)

namespace HashMap

variable {β : Type}

/-- The call `find(accessor, key)`: the mapped value when the key is present. -/
def find : HashMap β → Nat → Option β
  | [], _ => none
  | (k', b) :: m, k => if k' = k then some b else find m k

/-- The call `insert(accessor, (key, b))` when the key is absent: the pair is
added. (When the key is present `insert` adds nothing and returns false;
the callers test this with `find`.) -/
def add (m : HashMap β) (key : Nat) (b : β) : HashMap β := (key, b) :: m

/-- A write `accessor->second = b` through an accessor on `key`. -/
def update (m : HashMap β) (key : Nat) (b : β) : HashMap β :=
  m.map fun p => if p.1 = key then (p.1, b) else p

/-- The call `erase(accessor)` with the accessor on `key`. -/
def erase (m : HashMap β) (key : Nat) : HashMap β :=
  m.filter fun p => decide (p.1 ≠ key)

end HashMap

/-! ## Operations and their results -/

/-- A call on a shard. `Lookup` carries the content of its out parameter
before the call. -/
inductive Op (V : Type) where
  | Insert (key : Nat) (value : V)
  | Lookup (key : Nat) (value : V)
  | Erase (key : Nat)
  deriving DecidableEq, Repr

/-- What a call returns: its boolean result and, for `Lookup`, the content of
the out parameter after the call. -/
structure Ret (V : Type) where
  ret : Bool
  out : Option V
  deriving DecidableEq, Repr

/-! ## FIFO shard (`fifo_cache.h`) -/

/-- State of a `FifoCache`. -/
structure FifoCache (V : Type) where
  capacity_ : Nat
  usage_ : Nat
  /-- Key ↦ `m_value`; `m_list_node` is the node of that key. -/
  m_map : HashMap V
  /-- Keys of the nodes linked between `m_head` and `m_tail`. -/
  m_list : List Nat
  deriving DecidableEq, Repr

namespace FifoCache

variable {V : Type}

/-- The constructor `FifoCache(capacity)`. -/
def new (capacity : Nat) : FifoCache V :=
  { capacity_ := capacity, usage_ := 0, m_map := [], m_list := [] }

/-- The method `get_size`. -/
def get_size (s : FifoCache V) : Nat := s.usage_

/-- The method `is_full`. -/
def is_full (s : FifoCache V) : Bool := decide (s.usage_ ≥ s.capacity_)

/-- The method `ListPushFront`. -/
def ListPushFront (s : FifoCache V) (node : Nat) : FifoCache V :=
  { s with m_list := node :: s.m_list }

/-- The method `ListRemove`, for a linked node. -/
def ListRemove (s : FifoCache V) (node : Nat) : FifoCache V :=
  { s with m_list := s.m_list.erase node }

/-- The method `EvictOne`: unlink `m_tail.m_prev` unless the list is empty,
then erase its key from the hash map when it is there. -/
def EvictOne (s : FifoCache V) : FifoCache V :=
  match s.m_list.getLast? with
  | none => s
  | some node =>
    let s1 := { s with m_list := s.m_list.dropLast }
    match HashMap.find s1.m_map node with
    | none => s1
    | some _ => { s1 with m_map := HashMap.erase s1.m_map node }

/-- The method `Lookup`; `value` is the out parameter. -/
def Lookup (s : FifoCache V) (key : Nat) (value : V) : Bool × V × FifoCache V :=
  match HashMap.find s.m_map key with
  | none => (false, value, s)
  | some v => (true, v, s)

/-- The method `Insert`. -/
def Insert (s : FifoCache V) (key : Nat) (value : V) : Bool × FifoCache V :=
  match HashMap.find s.m_map key with
  | some _ => (false, { s with m_map := HashMap.update s.m_map key value })
  | none =>
    let s1 := { s with m_map := HashMap.add s.m_map key value }
    let s0 := s1.usage_
    let done := decide (s0 ≥ s1.capacity_)
    let s2 := if done then EvictOne s1 else s1
    let s3 := ListPushFront s2 key
    let s4 := if done then s3 else { s3 with usage_ := u64 (s3.usage_ + 1) }
    let s0 := if done then s0 else s4.usage_
    let s5 :=
      if s0 > s4.capacity_ then
        -- compare_exchange_strong(s, s - 1)
        if s4.usage_ = s0 then EvictOne { s4 with usage_ := s0 - 1 } else s4
      else s4
    (true, s5)

/-- The method `Erase`. Unlinking a node that is not linked dereferences the
out-of-list marker. -/
def Erase (s : FifoCache V) (key : Nat) : Except Fault (Bool × FifoCache V) :=
  match HashMap.find s.m_map key with
  | none => .ok (false, s)
  | some _ =>
    if key ∈ s.m_list then
      let s1 := ListRemove s key
      let s2 := { s1 with m_map := HashMap.erase s1.m_map key }
      .ok (true, { s2 with usage_ := u64 (2 ^ 64 - 1 + s2.usage_) })
    else .error .wildPointer

/-- One call on the shard. -/
def step (s : FifoCache V) : Op V → Except Fault (Ret V × FifoCache V)
  | .Insert key value =>
    let r := Insert s key value
    .ok (⟨r.1, none⟩, r.2)
  | .Lookup key value =>
    let r := Lookup s key value
    .ok (⟨r.1, some r.2.1⟩, r.2.2)
  | .Erase key =>
    match Erase s key with
    | .ok r => .ok (⟨r.1, none⟩, r.2)
    | .error e => .error e

/-- A sequence of calls, one after the other; the results are listed in call
order. -/
def run (s : FifoCache V) : List (Op V) → Except Fault (List (Ret V) × FifoCache V)
  | [] => .ok ([], s)
  | op :: ops =>
    match step s op with
    | .error e => .error e
    | .ok (r, s1) =>
      match run s1 ops with
      | .error e => .error e
      | .ok (rs, s2) => .ok (r :: rs, s2)

/-- States a shard of the given capacity can be in between two calls of a
sequential execution. -/
def Reachable (capacity : Nat) (s : FifoCache V) : Prop :=
  ∃ ops rs, run (new capacity) ops = .ok (rs, s)

end FifoCache

/-! ## LRU shard (`lru_cache.h`) -/

/-- State of an `LruCache`. -/
structure LruCache (V : Type) where
  capacity_ : Nat
  usage_ : Nat
  /-- Key ↦ the `value` field of the node the hash map points to. -/
  hash_map_ : HashMap V
  /-- Keys of the nodes linked between `head_` and `tail_`. -/
  list_ : List Nat
  deriving DecidableEq, Repr

namespace LruCache

variable {V : Type}

/-- The constructor `LruCache(capacity)`. -/
def new (capacity : Nat) : LruCache V :=
  { capacity_ := capacity, usage_ := 0, hash_map_ := [], list_ := [] }

/-- The method `get_size`. -/
def get_size (s : LruCache V) : Nat := s.usage_

/-- The method `is_full`. -/
def is_full (s : LruCache V) : Bool := decide (s.usage_ ≥ s.capacity_)

/-- The method `LruAppend`: link the node right after `head_`. -/
def LruAppend (s : LruCache V) (node : Nat) : LruCache V :=
  { s with list_ := node :: s.list_ }

/-- The method `LruRemove`, for a linked node. -/
def LruRemove (s : LruCache V) (node : Nat) : LruCache V :=
  { s with list_ := s.list_.erase node }

/-- The method `EvictOne`. There is no test for an empty list: then
`tail_.prev` is `head_`, whose `prev` is the out-of-list marker. -/
def EvictOne (s : LruCache V) : Except Fault (LruCache V) :=
  match s.list_.getLast? with
  | none => .error .wildPointer
  | some node =>
    let s1 := { s with list_ := s.list_.dropLast }
    match HashMap.find s1.hash_map_ node with
    | none => .ok s1
    | some _ => .ok { s1 with hash_map_ := HashMap.erase s1.hash_map_ node }

/-- The method `Lookup`; `value` is the out parameter and `list_lock` the outcome
of the `try_to_lock` on the list mutex. -/
def Lookup (s : LruCache V) (key : Nat) (value : V) (list_lock : Bool) :
    Bool × V × LruCache V :=
  match HashMap.find s.hash_map_ key with
  | none => (false, value, s)
  | some v =>
    if list_lock then
      if key ∈ s.list_ then (true, v, LruAppend (LruRemove s key) key)
      else (true, v, s)
    else (true, value, s)

/-- The method `Insert`. -/
def Insert (s : LruCache V) (key : Nat) (value : V) : Except Fault (Bool × LruCache V) :=
  match HashMap.find s.hash_map_ key with
  | some _ => .ok (false, { s with hash_map_ := HashMap.update s.hash_map_ key value })
  | none =>
    let s1 := { s with hash_map_ := HashMap.add s.hash_map_ key value }
    let s0 := s1.usage_
    let done := decide (s0 ≥ s1.capacity_)
    match (if done then EvictOne s1 else .ok s1) with
    | .error e => .error e
    | .ok s2 =>
      let s3 := LruAppend s2 key
      let s4 := if done then s3 else { s3 with usage_ := u64 (s3.usage_ + 1) }
      let s0 := if done then s0 else s4.usage_
      if s0 > s4.capacity_ then
        -- compare_exchange_strong(s, s - 1)
        if s4.usage_ = s0 then
          match EvictOne { s4 with usage_ := s0 - 1 } with
          | .error e => .error e
          | .ok s5 => .ok (true, s5)
        else .ok (true, s4)
      else .ok (true, s4)

/-- The method `Erase`. Unlinking a node that is not linked dereferences the
out-of-list marker. -/
def Erase (s : LruCache V) (key : Nat) : Except Fault (Bool × LruCache V) :=
  match HashMap.find s.hash_map_ key with
  | none => .ok (false, s)
  | some _ =>
    if key ∈ s.list_ then
      let s1 := LruRemove s key
      let s2 := { s1 with hash_map_ := HashMap.erase s1.hash_map_ key }
      .ok (true, { s2 with usage_ := u64 (2 ^ 64 - 1 + s2.usage_) })
    else .error .wildPointer

/-- One call on the shard in a sequential execution: the `try_to_lock` of
`Lookup` succeeds. -/
def step (s : LruCache V) : Op V → Except Fault (Ret V × LruCache V)
  | .Insert key value =>
    match Insert s key value with
    | .ok r => .ok (⟨r.1, none⟩, r.2)
    | .error e => .error e
  | .Lookup key value =>
    let r := Lookup s key value true
    .ok (⟨r.1, some r.2.1⟩, r.2.2)
  | .Erase key =>
    match Erase s key with
    | .ok r => .ok (⟨r.1, none⟩, r.2)
    | .error e => .error e

/-- A sequence of calls, one after the other; the results are listed in call
order. -/
def run (s : LruCache V) : List (Op V) → Except Fault (List (Ret V) × LruCache V)
  | [] => .ok ([], s)
  | op :: ops =>
    match step s op with
    | .error e => .error e
    | .ok (r, s1) =>
      match run s1 ops with
      | .error e => .error e
      | .ok (rs, s2) => .ok (r :: rs, s2)

/-- States a shard of the given capacity can be in between two calls of a
sequential execution. -/
def Reachable (capacity : Nat) (s : LruCache V) : Prop :=
  ∃ ops rs, run (new capacity) ops = .ok (rs, s)

end LruCache

/-! ## Reference recency list

The bounded recency list the LRU shard is compared with: the most recently
used key is at the front. -/

namespace RecencyList

variable {V : Type}

/-- A hit moves the key to the front; a miss changes nothing. -/
def Lookup (l : List (Nat × V)) (key : Nat) (value : V) : Bool × V × List (Nat × V) :=
  match HashMap.find l key with
  | none => (false, value, l)
  | some v => (true, v, (key, v) :: HashMap.erase l key)

/-- A resident key has its value overwritten in place; a new key is pushed
to the front, after the back element is dropped when the list already holds
`C` keys. -/
def Insert (C : Nat) (l : List (Nat × V)) (key : Nat) (value : V) : Bool × List (Nat × V) :=
  match HashMap.find l key with
  | some _ => (false, HashMap.update l key value)
  | none => (true, (key, value) :: (if l.length = C then l.dropLast else l))

/-- A resident key is removed. -/
def Erase (l : List (Nat × V)) (key : Nat) : Bool × List (Nat × V) :=
  match HashMap.find l key with
  | none => (false, l)
  | some _ => (true, HashMap.erase l key)

/-- One call on the reference list. -/
def step (C : Nat) (l : List (Nat × V)) : Op V → Ret V × List (Nat × V)
  | .Insert key value =>
    let r := Insert C l key value
    (⟨r.1, none⟩, r.2)
  | .Lookup key value =>
    let r := Lookup l key value
    (⟨r.1, some r.2.1⟩, r.2.2)
  | .Erase key =>
    let r := Erase l key
    (⟨r.1, none⟩, r.2)

/-- A sequence of calls on the reference list. -/
def run (C : Nat) (l : List (Nat × V)) : List (Op V) → List (Ret V) × List (Nat × V)
  | [] => ([], l)
  | op :: ops =>
    let r := step C l op
    let rs := run C r.2 ops
    (r.1 :: rs.1, rs.2)

end RecencyList

/-- The hash map `map`, the linked list `list` and the counter `usage` of a
shard of capacity `cap` represent the bounded list `a` of resident pairs. -/
def Rep {V : Type} (C cap usage : Nat) (map : HashMap V) (list : List Nat)
    (a : List (Nat × V)) : Prop :=
  cap = C ∧ list = a.map Prod.fst ∧ (∀ k, HashMap.find map k = HashMap.find a k) ∧
    usage = a.length ∧ (a.map Prod.fst).Nodup ∧ a.length ≤ C

/-- The calls `Insert(k, v)` for the pairs of a list, in order. -/
def insertOps {V : Type} (kvs : List (Nat × V)) : List (Op V) :=
  kvs.map fun p => Op.Insert p.1 p.2

/-- The calls `Lookup(k, value)` for the keys of a list, in order, each with
`value` in the out parameter before the call. -/
def lookupOps {V : Type} (value : V) (ks : List Nat) : List (Op V) :=
  ks.map fun k => Op.Lookup k value

/-- The recency scenario at capacity `C` with `m` lookups: insert the keys
`0..C-1`, look up the keys `0..m-1`, insert the keys `C..C+m-1`; key `k` is
inserted with the value `f k`. -/
def lruRecencyOps {V : Type} (f : Nat → V) (value : V) (C m : Nat) : List (Op V) :=
  insertOps ((List.range C).map fun k => (k, f k)) ++ lookupOps value (List.range m) ++
    insertOps ((List.range' C m).map fun k => (k, f k))

/-! ## Segment shard (`segment_cache.h`)

Entries and segments are heap objects; an entry is named by the number of the
`new Entry()` that made it and a segment by the number of the `new Segment()`
that made it, so an address is never used twice. `S` stands for the constant
`kNumSlotsPerSegment`. Loops that need not end (`goto Retry` in
`SegmentList::Add`, `while (usage_ > capacity_)` in `Insert`) take fuel. A
failed `assert` ends the execution with a fault. -/

/-- An `Entry`; `belong` is the segment it points to, `none` for `nullptr`. -/
structure Entry (V : Type) where
  key : Nat
  value : V
  version : Nat
  refs : Nat
  belong : Option Nat
  charge : Nat
  deriving DecidableEq, Repr

/-- A `Slot`; `entry` is the entry it points to, `none` for `nullptr`. -/
structure Slot where
  entry : Option Nat
  version : Nat
  deriving DecidableEq, Repr

/-- A `Segment`; `id` stands for its address, `next` and `prev` are its
neighbours in `SegmentList.segments`. -/
structure Segment where
  id : Nat
  slot_array : List Slot
  used : Nat
  deriving DecidableEq, Repr

namespace Segment

/-- The constructor `Segment()`. -/
def new (S : Nat) (id : Nat) : Segment :=
  { id := id, slot_array := List.replicate S ⟨none, 0⟩, used := 0 }

/-- The method `Append`. -/
def Append (S : Nat) (seg : Segment) (entry : Nat) (new_version : Nat) : Bool × Segment :=
  let slot_id := seg.used
  let seg1 := { seg with used := u32 (seg.used + 1) }
  if slot_id < S then
    (true, { seg1 with slot_array := seg1.slot_array.set slot_id ⟨some entry, new_version⟩ })
  else (false, seg1)

/-- The method `IsFull`. -/
def IsFull (S : Nat) (seg : Segment) : Bool := decide (seg.used ≥ S)

end Segment

/-- A `SegmentList`: the segments from `head_segment` to `tail_segment`, the
counter `count`, and the number of segments allocated so far. -/
structure SegmentList where
  segments : List Segment
  count : Nat
  allocated : Nat
  deriving DecidableEq, Repr

namespace SegmentList

/-- The constructor `SegmentList()`. -/
def new (S : Nat) : SegmentList :=
  { segments := [Segment.new S 0], count := 0, allocated := 1 }

/-- The pointer `head_segment.load()`. -/
def head_segment (sl : SegmentList) : Option Nat := sl.segments.head?.map Segment.id

/-- The method `Add`; each pass through the label `Retry` takes one unit of
fuel. -/
def Add (S : Nat) : Nat → SegmentList → Nat → Nat → Except Fault SegmentList
  | 0, _, _, _ => .error .outOfFuel
  | fuel + 1, sl, entry, new_version =>
    match sl.segments with
    | [] => .error .nullDeref
    | head :: rest =>
      match Segment.Append S head entry new_version with
      | (true, head1) => .ok { sl with segments := head1 :: rest }
      | (false, head1) =>
        let sl1 := { sl with segments := head1 :: rest }
        let sl2 :=
          if Segment.IsFull S head1 then
            { sl1 with
              segments := Segment.new S sl1.allocated :: sl1.segments
              count := u64 (sl1.count + 1)
              allocated := sl1.allocated + 1 }
          else sl1
        Add S fuel sl2 entry new_version

/-- The method `Evict`: the victim, when there is one, and the list without
it. -/
def Evict (sl : SegmentList) : Except Fault (Option Segment × SegmentList) :=
  if sl.count > 4 then
    match sl.segments.getLast? with
    | none => .error .nullDeref
    | some victim =>
      .ok (some victim,
        { sl with segments := sl.segments.dropLast, count := u64 (2 ^ 64 - 1 + sl.count) })
  else .ok (none, sl)

/-- The method `get_count`. -/
def get_count (sl : SegmentList) : Nat := sl.count

end SegmentList

/-- State of a `SegmentCache`: `hash_map_` maps a key to the name of its entry
and `entries` holds the entries that are allocated and not deleted. -/
structure SegmentCache (V : Type) where
  capacity_ : Nat
  usage_ : Nat
  hash_map_ : HashMap Nat
  entries : HashMap (Entry V)
  allocated : Nat
  segment_list_ : SegmentList
  deriving DecidableEq, Repr

namespace SegmentCache

variable {V : Type}

/-- The constructor `SegmentCache(capacity)`; `usage_` starts at 0. -/
def new (S : Nat) (capacity : Nat) : SegmentCache V :=
  { capacity_ := capacity, usage_ := 0, hash_map_ := [], entries := [], allocated := 0,
    segment_list_ := SegmentList.new S }

/-- The method `get_size`. -/
def get_size (s : SegmentCache V) : Nat := s.usage_

/-- The method `is_full`. -/
def is_full (s : SegmentCache V) : Bool := decide (s.usage_ ≥ s.capacity_)

/-- The method `TryFreeEntry`. -/
def TryFreeEntry (s : SegmentCache V) (entry : Nat) : Except Fault (SegmentCache V) :=
  match HashMap.find s.entries entry with
  | none => .error .useAfterFree
  | some e =>
    let old_ref := e.refs
    let s1 := { s with
      entries := HashMap.update s.entries entry { e with refs := u32 (2 ^ 32 - 1 + e.refs) } }
    if old_ref = 1 then
      .ok { s1 with
        usage_ := u64 (2 ^ 64 - e.charge + s1.usage_)
        entries := HashMap.erase s1.entries entry }
    else .ok s1

/-- The body of the loop of `EvictOne` for one slot of the victim. -/
def evictSlot (s : SegmentCache V) (slot : Slot) : Except Fault (SegmentCache V) :=
  match slot.entry with
  | none => .error .nullDeref
  | some entry =>
    match HashMap.find s.entries entry with
    | none => .error .useAfterFree
    | some e =>
      if e.refs > 0 then
        if e.version = slot.version then
          match HashMap.find s.hash_map_ e.key with
          | none => TryFreeEntry s entry
          | some p =>
            if p = entry then
              if e.refs > 1 then
                TryFreeEntry
                  { s with
                    entries := HashMap.update s.entries entry
                      { e with refs := u32 (2 ^ 32 - 1 + e.refs) }
                    hash_map_ := HashMap.erase s.hash_map_ e.key }
                  entry
              else .error .assertFailed
            else TryFreeEntry s entry
        else TryFreeEntry s entry
      else .error .assertFailed

/-- The loop of `EvictOne` over the slots of the victim. -/
def evictSlots : SegmentCache V → List Slot → Except Fault (SegmentCache V)
  | s, [] => .ok s
  | s, slot :: slots =>
    match evictSlot s slot with
    | .error e => .error e
    | .ok s1 => evictSlots s1 slots

/-- The method `EvictOne`. -/
def EvictOne (s : SegmentCache V) : Except Fault (SegmentCache V) :=
  match SegmentList.Evict s.segment_list_ with
  | .error e => .error e
  | .ok (none, _) => .ok s
  | .ok (some segment, sl) => evictSlots { s with segment_list_ := sl } segment.slot_array

/-- The loop `while (usage_.load() > capacity_) EvictOne()` of `Insert`; each
pass takes one unit of fuel. -/
def evictLoop : Nat → SegmentCache V → Except Fault (SegmentCache V)
  | 0, s => if s.usage_ > s.capacity_ then .error .outOfFuel else .ok s
  | fuel + 1, s =>
    if s.usage_ > s.capacity_ then
      match EvictOne s with
      | .error e => .error e
      | .ok s1 => evictLoop fuel s1
    else .ok s

/-- The method `Lookup`; `value` is the out parameter. -/
def Lookup (S fuel : Nat) (s : SegmentCache V) (key : Nat) (value : V) :
    Except Fault (Bool × V × SegmentCache V) :=
  match HashMap.find s.hash_map_ key with
  | none => .ok (false, value, s)
  | some entry =>
    match HashMap.find s.entries entry with
    | none => .error .useAfterFree
    | some e =>
      if e.belong ≠ s.segment_list_.head_segment then
        let old_version := e.version
        let s1 := { s with
          entries := HashMap.update s.entries entry
            { e with refs := u32 (e.refs + 1), version := u32 (e.version + 1) } }
        match SegmentList.Add S fuel s1.segment_list_ entry (u32 (old_version + 1)) with
        | .error f => .error f
        | .ok sl => .ok (true, e.value, { s1 with segment_list_ := sl })
      else .ok (true, e.value, s)

/-- The method `Insert`. -/
def Insert (S fuel : Nat) (s : SegmentCache V) (key : Nat) (value : V) :
    Except Fault (Bool × SegmentCache V) :=
  match HashMap.find s.hash_map_ key with
  | some p =>
    match HashMap.find s.entries p with
    | none => .error .useAfterFree
    | some e =>
      .ok (false, { s with entries := HashMap.update s.entries p { e with value := value } })
  | none =>
    let entry := s.allocated
    let e : Entry V :=
      { key := key, value := value, version := 1, belong := s.segment_list_.head_segment,
        charge := 1, refs := 1 }
    let s1 := { s with
      allocated := s.allocated + 1
      hash_map_ := HashMap.add s.hash_map_ key entry
      entries := HashMap.add s.entries entry { e with refs := u32 (e.refs + 1) } }
    match SegmentList.Add S fuel s1.segment_list_ entry e.version with
    | .error f => .error f
    | .ok sl =>
      let s2 := { s1 with segment_list_ := sl, usage_ := u64 (s1.usage_ + e.charge) }
      match evictLoop fuel s2 with
      | .error f => .error f
      | .ok s3 => .ok (true, s3)

/-- The method `Erase`. -/
def Erase (s : SegmentCache V) (key : Nat) : Except Fault (Bool × SegmentCache V) :=
  match HashMap.find s.hash_map_ key with
  | none => .ok (false, s)
  | some entry =>
    match TryFreeEntry s entry with
    | .error f => .error f
    | .ok s1 => .ok (true, { s1 with hash_map_ := HashMap.erase s1.hash_map_ key })

/-- One call on the shard. -/
def step (S fuel : Nat) (s : SegmentCache V) : Op V → Except Fault (Ret V × SegmentCache V)
  | .Insert key value =>
    match Insert S fuel s key value with
    | .ok r => .ok (⟨r.1, none⟩, r.2)
    | .error e => .error e
  | .Lookup key value =>
    match Lookup S fuel s key value with
    | .ok r => .ok (⟨r.1, some r.2.1⟩, r.2.2)
    | .error e => .error e
  | .Erase key =>
    match Erase s key with
    | .ok r => .ok (⟨r.1, none⟩, r.2)
    | .error e => .error e

/-- A sequence of calls, one after the other; the results are listed in call
order. -/
def run (S fuel : Nat) (s : SegmentCache V) :
    List (Op V) → Except Fault (List (Ret V) × SegmentCache V)
  | [] => .ok ([], s)
  | op :: ops =>
    match step S fuel s op with
    | .error e => .error e
    | .ok (r, s1) =>
      match run S fuel s1 ops with
      | .error e => .error e
      | .ok (rs, s2) => .ok (r :: rs, s2)

/-- The index points to entries that are allocated and carry the key they are
indexed under. -/
def IndexOk (s : SegmentCache V) : Prop :=
  ∀ key entry, HashMap.find s.hash_map_ key = some entry →
    ∃ e, HashMap.find s.entries entry = some e ∧ e.key = key

end SegmentCache

/-- The state of a Segment shard of capacity `C` in which exactly the keys
`ks` are indexed, each under a live entry that holds the value `f k`, and
every one of them is counted in `usage_`; `count` is at most their number. -/
def SegmentCache.Holds {V : Type} (f : Nat → V) (C : Nat) (ks : List Nat)
    (s : SegmentCache V) : Prop :=
  s.capacity_ = C ∧ s.usage_ = ks.length ∧
    (s.segment_list_.segments ≠ [] ∧ s.segment_list_.count ≤ ks.length) ∧
    (∀ k, k ∉ ks → HashMap.find s.hash_map_ k = none) ∧
    (∀ k, k ∈ ks → ∃ p e, HashMap.find s.hash_map_ k = some p ∧
      HashMap.find s.entries p = some e ∧ e.value = f k ∧ p < s.allocated)

/-! ## Reference counting in the Segment shard -/

/-- Number of the slots of a slot array that point to entry `p`. -/
def slotRefs (slots : List Slot) (p : Nat) : Nat :=
  slots.countP fun slot => decide (slot.entry = some p)

/-- Number of the slots of the segments of the log that point to entry `p`. -/
def logRefs : List Segment → Nat → Nat
  | [], _ => 0
  | seg :: segs, p => slotRefs seg.slot_array p + logRefs segs p

namespace SegmentCache

variable {V : Type}

/-- 1 when the index maps the key of entry `e`, allocated under the name `p`,
to `p`; 0 otherwise. -/
def indexRef (s : SegmentCache V) (p : Nat) (e : Entry V) : Nat :=
  if HashMap.find s.hash_map_ e.key = some p then 1 else 0

/-- Invariant of the shard while the slots `pending` of an evicted segment
are still to be released: the index points to live entries; every live entry
has at least as many references as the index, the log and the pending slots
hold on it, and at most `N`; names not yet allocated are referenced nowhere;
the log has more segments than `count` says, and at most `N`; the capacity
is a `uint64_t`. -/
def LoopInv (N : Nat) (s : SegmentCache V) (pending : List Slot) : Prop :=
  s.IndexOk ∧
    (∀ p e, HashMap.find s.entries p = some e →
      s.indexRef p e + logRefs s.segment_list_.segments p + slotRefs pending p ≤ e.refs ∧
        e.refs ≤ N) ∧
    (∀ p, s.allocated ≤ p → HashMap.find s.entries p = none ∧
      logRefs s.segment_list_.segments p = 0 ∧ slotRefs pending p = 0) ∧
    (s.segment_list_.segments ≠ [] ∧
      s.segment_list_.count + 1 ≤ s.segment_list_.segments.length ∧
      s.segment_list_.segments.length ≤ N ∧ s.capacity_ < 2 ^ 64)

/-- Invariant of the shard between two calls. -/
def Inv (N : Nat) (s : SegmentCache V) : Prop := LoopInv N s []

/-- States a shard can be in after a sequential execution of `n` calls that
all returned. -/
def Reachable (S fuel capacity n : Nat) (s : SegmentCache V) : Prop :=
  ∃ ops rs, ops.length = n ∧ run S fuel (new S capacity) ops = .ok (rs, s)

end SegmentCache

/-! ## Sample states -/

/-- A FIFO shard of capacity 2 after `Insert(1, 10)` and `Insert(2, 20)`. -/
def FifoCache.sample : FifoCache Nat :=
  { capacity_ := 2, usage_ := 2, m_map := [(2, 20), (1, 10)], m_list := [2, 1] }

/-- An LRU shard of capacity 2 after `Insert(1, 10)` and `Insert(2, 20)`. -/
def LruCache.sample : LruCache Nat :=
  { capacity_ := 2, usage_ := 2, hash_map_ := [(2, 20), (1, 10)], list_ := [2, 1] }

/-- A Segment shard of capacity 2, with 2 slots per segment, after
`Insert(1, 10)`. -/
def SegmentCache.sample : SegmentCache Nat :=
  { capacity_ := 2, usage_ := 1, hash_map_ := [(1, 0)],
    entries := [(0, ⟨1, 10, 1, 2, some 0, 1⟩)], allocated := 1,
    segment_list_ := ⟨[⟨0, [⟨some 0, 1⟩, ⟨none, 0⟩], 1⟩], 0, 1⟩ }

/-! ## Sharded dispatcher (`scalable_cache.h`) -/

/-- The key a call is about. -/
def Op.key {V : Type} : Op V → Nat
  | .Insert key _ => key
  | .Lookup key _ => key
  | .Erase key => key

/-- Whether a call is a `Lookup`. -/
def Op.isLookup {V : Type} : Op V → Bool
  | .Lookup _ _ => true
  | _ => false

/-- The results of the calls of `ops` that are not a `Lookup`, picked from the
results `rs` of all the calls. -/
def dropLookups {V : Type} (ops : List (Op V)) (rs : List (Ret V)) : List (Ret V) :=
  ((ops.zip rs).filter fun p => !p.1.isLookup).map Prod.snd

/-- The enumeration `CacheType`. -/
inductive CacheType where
  | ASYNC
  | LRU
  | FIFO
  | FROZENHOT
  | GROUP
  | SEGMENT
  deriving DecidableEq, Repr

/-- A shard behind the interface `Cache<Key, Value>`: an object of one of the
classes the constructor of the dispatcher instantiates. An `AsyncCache` has
the fields `capacity_` and `usage_` only, a `GroupCache` has none. -/
inductive Shard (V : Type) where
  | fifo (c : FifoCache V)
  | lru (c : LruCache V)
  | group
  | async (capacity_ usage_ : Nat)
  | segment (c : SegmentCache V)
  deriving DecidableEq, Repr

namespace Shard

variable {V : Type}

/-- The virtual call of `Lookup`, `Insert` or `Erase` on a shard. The three
methods of `GroupCache` and of `AsyncCache` return true and do nothing else. -/
def step (S fuel : Nat) : Shard V → Op V → Except Fault (Ret V × Shard V)
  | fifo c, op =>
    match FifoCache.step c op with
    | .ok (r, c1) => .ok (r, fifo c1)
    | .error e => .error e
  | lru c, op =>
    match LruCache.step c op with
    | .ok (r, c1) => .ok (r, lru c1)
    | .error e => .error e
  | segment c, op =>
    match SegmentCache.step S fuel c op with
    | .ok (r, c1) => .ok (r, segment c1)
    | .error e => .error e
  | group, .Lookup _ value => .ok (⟨true, some value⟩, group)
  | group, _ => .ok (⟨true, none⟩, group)
  | async capacity_ usage_, .Lookup _ value => .ok (⟨true, some value⟩, async capacity_ usage_)
  | async capacity_ usage_, _ => .ok (⟨true, none⟩, async capacity_ usage_)

/-- The type the constructor of the dispatcher makes the shard for. -/
def kind : Shard V → CacheType
  | fifo _ => .FIFO
  | lru _ => .LRU
  | segment _ => .SEGMENT
  | group => .GROUP
  | async _ _ => .ASYNC

/-- A FIFO or LRU shard of capacity `c0` that holds some list of at most `c0`
entries. -/
def Fits (c0 : Nat) : Shard V → Prop
  | fifo s => ∃ a, Rep c0 s.capacity_ s.usage_ s.m_map s.m_list a
  | lru s => ∃ a, Rep c0 s.capacity_ s.usage_ s.hash_map_ s.list_ a
  | _ => False

/-- The virtual call of `get_size`; `GroupCache` inherits `Cache::get_size`,
which returns 0. -/
def get_size : Shard V → Nat
  | fifo c => c.get_size
  | lru c => c.get_size
  | segment c => c.get_size
  | group => 0
  | async _ usage_ => usage_

end Shard

/-- State of a `ConcurrentScalableCache` (the fields the operations use). -/
structure ConcurrentScalableCache (V : Type) where
  num_shards_ : Nat
  shards_ : List (Shard V)
  max_size_ : Nat
  deriving DecidableEq, Repr

namespace ConcurrentScalableCache

variable {V : Type}

/-- The body of the loop of the constructor: the chain of `if`s on `type`,
with `s = max_size_ / num_shards_`. No branch is taken for `FROZENHOT`. -/
def emplace (S : Nat) (type : CacheType) (s : Nat) (shards : List (Shard V)) :
    List (Shard V) :=
  if type = .FIFO then shards ++ [.fifo (FifoCache.new s)]
  else if type = .LRU then shards ++ [.lru (LruCache.new s)]
  else if type = .GROUP then shards ++ [.group]
  else if type = .ASYNC then shards ++ [.async (u32 s) 0]
  else if type = .SEGMENT then shards ++ [.segment (SegmentCache.new S s)]
  else shards

/-- The loop `for (i = 0; i < num_shards_; i++)` of the constructor, with the
number of passes still to make. -/
def construct (S : Nat) (type : CacheType) (max_size num_shards : Nat) :
    Nat → List (Shard V) → List (Shard V)
  | 0, shards => shards
  | n + 1, shards =>
    construct S type max_size num_shards n (emplace S type (max_size / num_shards) shards)

/-- The constructor `ConcurrentScalableCache(capacity, num_shards, type)`; `S`
is the number of slots of a segment of a `SegmentCache`. -/
def new (S : Nat) (capacity num_shards : Nat) (type : CacheType) :
    ConcurrentScalableCache V :=
  { num_shards_ := num_shards
    max_size_ := capacity
    shards_ := construct S type capacity num_shards num_shards [] }

/-- The method `get_shard`: the index `key % num_shards_` and the shard
`shards_.at(h)`. -/
def get_shard (c : ConcurrentScalableCache V) (key : Nat) : Except Fault (Nat × Shard V) :=
  if c.num_shards_ = 0 then .error .divByZero
  else
    let h := key % c.num_shards_
    match c.shards_[h]? with
    | none => .error .outOfRange
    | some shard => .ok (h, shard)

/-- The methods `Lookup`, `Insert` and `Erase`: the call is made on
`get_shard(key)`. -/
def step (S fuel : Nat) (c : ConcurrentScalableCache V) (op : Op V) :
    Except Fault (Ret V × ConcurrentScalableCache V) :=
  match get_shard c op.key with
  | .error e => .error e
  | .ok (h, shard) =>
    match Shard.step S fuel shard op with
    | .error e => .error e
    | .ok (r, shard1) => .ok (r, { c with shards_ := c.shards_.set h shard1 })

/-- The loop of `get_size` after `n` passes: the value of the `uint64_t`
accumulator `size`. -/
def sizeLoop (c : ConcurrentScalableCache V) : Nat → Except Fault Nat
  | 0 => .ok 0
  | n + 1 =>
    match sizeLoop c n with
    | .error e => .error e
    | .ok size =>
      match c.shards_[n]? with
      | none => .error .outOfRange
      | some shard => .ok (u64 (size + shard.get_size))

/-- The method `get_size`: the accumulator after `num_shards_` passes. (The
method returns it converted to `double`, which changes no value below
`2 ^ 53`.) -/
def get_size (c : ConcurrentScalableCache V) : Except Fault Nat := sizeLoop c c.num_shards_

/-- The vector `shards_` has `num_shards_` elements. -/
def Sized (N : Nat) (c : ConcurrentScalableCache V) : Prop :=
  c.num_shards_ = N ∧ c.shards_.length = N

/-- A sequence of calls, one after the other; the results are listed in call
order. -/
def run (S fuel : Nat) (c : ConcurrentScalableCache V) :
    List (Op V) → Except Fault (List (Ret V) × ConcurrentScalableCache V)
  | [] => .ok ([], c)
  | op :: ops =>
    match step S fuel c op with
    | .error e => .error e
    | .ok (r, c1) =>
      match run S fuel c1 ops with
      | .error e => .error e
      | .ok (rs, c2) => .ok (r :: rs, c2)

/-- States a dispatcher can be in between two calls of a sequential
execution. -/
def Reachable (S fuel capacity num_shards : Nat) (type : CacheType)
    (c : ConcurrentScalableCache V) : Prop :=
  ∃ ops rs, run S fuel (new S capacity num_shards type) ops = .ok (rs, c)

end ConcurrentScalableCache

/-- A dispatcher of capacity 8 with 4 FIFO shards after `Insert(5, 50)`. -/
def ConcurrentScalableCache.sample : ConcurrentScalableCache Nat :=
  { num_shards_ := 4
    max_size_ := 8
    shards_ :=
      [.fifo (FifoCache.new 2),
        .fifo { capacity_ := 2, usage_ := 1, m_map := [(5, 50)], m_list := [5] },
        .fifo (FifoCache.new 2), .fifo (FifoCache.new 2)] }

/-! ## Segment shard: a run of inserts of distinct keys -/

/-- The slot array of a segment of `S` slots whose first `u` slots took the
entries `a, a + 1, ..., a + u - 1` at version 1; the other slots are unused. -/
def filledSlots (S a u : Nat) : List Slot :=
  (List.range u).map (fun i => (⟨some (a + i), 1⟩ : Slot)) ++ List.replicate (S - u) ⟨none, 0⟩

/-- The log of a shard that took the entries `0, ..., n - 1`, one slot each,
after the segments with the entries below `E` have been evicted: `count` full
segments behind a head segment with at least one slot in use. -/
def SegmentList.Window (S E n : Nat) (sl : SegmentList) : Prop :=
  ∃ (u : Nat) (head : Segment) (rest : List Segment),
    n = E + sl.count * S + u ∧ u ≤ S ∧ (0 < n → 0 < u) ∧
    sl.segments = head :: rest ∧ head.used = u ∧
    head.slot_array = filledSlots S (E + sl.count * S) u ∧
    rest.map Segment.slot_array
      = (List.range sl.count).reverse.map fun i => filledSlots S (E + i * S) S

namespace SegmentCache

variable {V : Type}

/-- Index and entries of a shard that took the distinct keys `ks` by `Insert`,
key `k` with value `f k`, and has evicted the first `E` of them: the key at
position `j ≥ E` is indexed under entry `j`, which has the version 1 and the
two references of index and slot. -/
def Contents (f : Nat → V) (ks : List Nat) (E : Nat) (s : SegmentCache V) : Prop :=
  s.allocated = ks.length ∧ s.usage_ = ks.length - E ∧ E ≤ ks.length ∧
  (∀ j k, ks[j]? = some k → HashMap.find s.hash_map_ k = if E ≤ j then some j else none) ∧
  (∀ k, k ∉ ks → HashMap.find s.hash_map_ k = none) ∧
  (∀ j k, ks[j]? = some k → E ≤ j →
    ∃ b, HashMap.find s.entries j = some ⟨k, f k, 1, 2, b, 1⟩) ∧
  (∀ j, j < E ∨ ks.length ≤ j → HashMap.find s.entries j = none)

/-- State of a shard of capacity `C` with `S` slots per segment after the
inserts of the distinct keys `ks`, of which the first `E` have been evicted, a
segment at a time. -/
def Distinct (f : Nat → V) (S C : Nat) (ks : List Nat) (E : Nat) (s : SegmentCache V) : Prop :=
  s.capacity_ = C ∧ Contents f ks E s ∧ SegmentList.Window S E ks.length s.segment_list_ ∧
  ks.length - E ≤ C ∧ (E = 0 ∨ C + 1 ≤ ks.length - E + S) ∧ S ∣ E

end SegmentCache

/-! ## FrozenHot shard (`frozenhot_cache_null.h`)

The two lists of a `FrozenHotCache` are modelled with their pointers: the
claims about it are about the splices the class makes by hand. A `ListNode`
lives either in the cache object (the four sentinels) or on the heap, where a
node allocated by `new ListNode` has a number. The clock `NowMicros()` is an
input of the calls that read it. -/

/-- A value of type `ListNode*`. -/
inductive Ptr where
  /-- The pointer `nullptr`. -/
  | null
  /-- The pointer `out_of_list_marker_`, the value -1. -/
  | marker
  /-- The address `&m_head`. -/
  | head
  /-- The address `&m_tail`. -/
  | tail
  /-- The address `&m_fast_head`. -/
  | fast_head
  /-- The address `&m_fast_tail`. -/
  | fast_tail
  /-- The address of the node with this number, allocated by `new ListNode`. -/
  | node (id : Nat)
  deriving DecidableEq, Repr

/-- A `ListNode`. -/
structure ListNode where
  m_key : Nat
  m_prev : Ptr
  m_next : Ptr
  m_time : Nat
  deriving DecidableEq, Repr

/-- A `HashMapValue`. -/
structure HashMapValue (V : Type) where
  m_value : V
  m_list_node : Ptr
  deriving DecidableEq, Repr

/-- State of a `FrozenHotCache`; `nodes` holds the list nodes that are
allocated and not deleted, `allocated` is the number of `new ListNode` so
far. -/
structure FrozenHotCache (V : Type) where
  m_max_size : Nat
  m_size : Nat
  m_map : HashMap (HashMapValue V)
  /-- Modelled from the spec: the class `fast_hash::ClhtTable` (header
  `fast_hash/clht_table.h`) is not among the sources. The spec calls it the
  fast hash table, a table from keys to values that `Insert` fills, `Find`
  probes and `Clear` empties; it is modelled as the list of the pairs
  inserted, the latest first. -/
  m_fast_hash : HashMap V
  m_fast_head : ListNode
  m_fast_tail : ListNode
  m_marker : Ptr
  m_head : ListNode
  m_tail : ListNode
  nodes : HashMap ListNode
  allocated : Nat
  fast_cache_ready : Bool
  frozen_all : Bool
  fast_cache_construct : Bool
  enable_insert : Bool
  curve_flag : Bool
  movement_counter : Nat
  eviction_counter : Nat
  deriving DecidableEq, Repr

namespace FrozenHotCache

variable {V : Type}

/-- The constant `kNullKey`. -/
def kNullKey : Nat := 0

/-- The constant `kTombKey`. -/
def kTombKey : Nat := 1

/-- The constant `kMarkerKey`. -/
def kMarkerKey : Nat := 2

/-- The constructor `ListNode()`. -/
def ListNode.default : ListNode :=
  { m_key := kNullKey, m_prev := .marker, m_next := .null, m_time := 0 }

/-- The constructor `FrozenHotCache(capacity)`. -/
def new (capacity : Nat) : FrozenHotCache V :=
  { m_max_size := capacity
    m_size := 0
    m_map := []
    m_fast_hash := []
    m_head := { ListNode.default with m_prev := .null, m_next := .tail }
    m_tail := { ListNode.default with m_prev := .head }
    m_fast_head := { ListNode.default with m_prev := .null, m_next := .fast_tail }
    m_fast_tail := { ListNode.default with m_prev := .fast_head }
    m_marker := .null
    nodes := []
    allocated := 0
    fast_cache_ready := false
    frozen_all := false
    fast_cache_construct := false
    enable_insert := true
    curve_flag := false
    movement_counter := 0
    eviction_counter := 0 }

/-- Modelled from the spec: `fast_hash::ClhtTable::Find(key, value)`, whose
source is missing: the value stored under the key, if any. -/
def fastFind (s : FrozenHotCache V) (key : Nat) : Option V := HashMap.find s.m_fast_hash key

/-- Modelled from the spec: `fast_hash::ClhtTable::Insert(key, value)`, whose
source is missing. -/
def fastInsert (s : FrozenHotCache V) (key : Nat) (value : V) : FrozenHotCache V :=
  { s with m_fast_hash := HashMap.add s.m_fast_hash key value }

/-- Modelled from the spec: `fast_hash::ClhtTable::Clear()`, whose source is
missing. -/
def fastClear (s : FrozenHotCache V) : FrozenHotCache V := { s with m_fast_hash := [] }

/-- The method `get_size`. -/
def get_size (s : FrozenHotCache V) : Nat := s.m_size

/-- The method `is_full`. -/
def is_full (s : FrozenHotCache V) : Bool := decide (s.m_size ≥ s.m_max_size)

/-- The object a pointer points to. -/
def deref (s : FrozenHotCache V) : Ptr → Except Fault ListNode
  | .null => .error .nullDeref
  | .marker => .error .wildPointer
  | .head => .ok s.m_head
  | .tail => .ok s.m_tail
  | .fast_head => .ok s.m_fast_head
  | .fast_tail => .ok s.m_fast_tail
  | .node id =>
    match HashMap.find s.nodes id with
    | some n => .ok n
    | none => .error .useAfterFree

/-- The state with the object at a pointer replaced. -/
def put (s : FrozenHotCache V) : Ptr → ListNode → FrozenHotCache V
  | .head, n => { s with m_head := n }
  | .tail, n => { s with m_tail := n }
  | .fast_head, n => { s with m_fast_head := n }
  | .fast_tail, n => { s with m_fast_tail := n }
  | .node id, n => { s with nodes := HashMap.update s.nodes id n }
  | _, _ => s

/-- The assignment `p->m_prev = q`. -/
def setPrev (s : FrozenHotCache V) (p q : Ptr) : Except Fault (FrozenHotCache V) :=
  match deref s p with
  | .error e => .error e
  | .ok n => .ok (put s p { n with m_prev := q })

/-- The assignment `p->m_next = q`. -/
def setNext (s : FrozenHotCache V) (p q : Ptr) : Except Fault (FrozenHotCache V) :=
  match deref s p with
  | .error e => .error e
  | .ok n => .ok (put s p { n with m_next := q })

/-- The assignment `p->m_time = t`. -/
def setTime (s : FrozenHotCache V) (p : Ptr) (t : Nat) : Except Fault (FrozenHotCache V) :=
  match deref s p with
  | .error e => .error e
  | .ok n => .ok (put s p { n with m_time := t })

/-- The expression `new ListNode(key)`; `now` is what `NowMicros()` returns. -/
def newNode (s : FrozenHotCache V) (key now : Nat) : Ptr × FrozenHotCache V :=
  (.node s.allocated,
    { s with
      nodes := HashMap.add s.nodes s.allocated
        { m_key := key, m_prev := .marker, m_next := .null, m_time := now }
      allocated := s.allocated + 1 })

/-- The statement `delete p`. Only a node allocated by `new` and not yet
deleted can be deleted; `delete nullptr` does nothing. -/
def delete (s : FrozenHotCache V) : Ptr → Except Fault (FrozenHotCache V)
  | .null => .ok s
  | .node id =>
    match HashMap.find s.nodes id with
    | some _ => .ok { s with nodes := HashMap.erase s.nodes id }
    | none => .error .useAfterFree
  | _ => .error .wildPointer

/-- The method `ListNode::is_in_list` on `*p`. -/
def is_in_list (s : FrozenHotCache V) (p : Ptr) : Except Fault Bool :=
  match deref s p with
  | .error e => .error e
  | .ok n => .ok (decide (n.m_prev ≠ .marker))

/-- The method `LruPushFront`. -/
def LruPushFront (s : FrozenHotCache V) (node : Ptr) : Except Fault (FrozenHotCache V) := do
  let old_real_head := s.m_head.m_next
  let s ← setPrev s node .head
  let s ← setNext s node old_real_head
  let s ← setPrev s old_real_head node
  setNext s .head node

/-- The method `LruRemove`. -/
def LruRemove (s : FrozenHotCache V) (node : Ptr) : Except Fault (FrozenHotCache V) :=
  if node = .null then .error .assertFailed
  else do
    let n ← deref s node
    let prev := n.m_prev
    let next := n.m_next
    let s ← setNext s prev next
    let s ← setPrev s next prev
    setPrev s node .marker

/-- The method `LruPushAfterMarker`. -/
def LruPushAfterMarker (s : FrozenHotCache V) (node : Ptr) :
    Except Fault (FrozenHotCache V) :=
  if s.m_marker = .null then .error .assertFailed
  else do
    let s ← setPrev s node s.m_marker
    let m ← deref s s.m_marker
    let s ← setNext s node m.m_next
    let m ← deref s s.m_marker
    let s ← setPrev s m.m_next node
    setNext s s.m_marker node

/-- The loop `while (node->m_key == kTombKey)` of `Evict`; each pass takes one
unit of fuel. It returns the node it stops at. -/
def evictTombs : Nat → FrozenHotCache V → Except Fault (Ptr × FrozenHotCache V)
  | 0, _ => .error .outOfFuel
  | fuel + 1, s => do
    let node := s.m_tail.m_prev
    let n ← deref s node
    if n.m_key = kTombKey then
      let s ← LruRemove s node
      let s ← delete s node
      evictTombs fuel s
    else pure (node, s)

/-- The method `Evict`. -/
def Evict (fuel : Nat) (s : FrozenHotCache V) : Except Fault (Bool × FrozenHotCache V) := do
  let r ← evictTombs fuel s
  let node := r.1
  let s := r.2
  if node = .head then pure (false, s)
  else do
    let s ← LruRemove s node
    let n ← deref s node
    match HashMap.find s.m_map n.m_key with
    | none => pure (false, s)
    | some _ =>
      let s := { s with m_map := HashMap.erase s.m_map n.m_key }
      let s ← delete s node
      pure (true, s)

/-- The method `Lookup`; `value` is the out parameter, `list_lock` the outcome
of the `try_to_lock` on the list mutex and `now` what `NowMicros()` returns. -/
def Lookup (s : FrozenHotCache V) (key : Nat) (value : V) (list_lock : Bool) (now : Nat) :
    Except Fault (Bool × V × FrozenHotCache V) :=
  let probe : Option (Bool × V) :=
    if s.fast_cache_ready || s.frozen_all then
      match fastFind s key with
      | some v => some (true, v)
      | none => if s.frozen_all then some (false, value) else none
    else none
  match probe with
  | some r => pure (r.1, r.2, s)
  | none =>
    if s.frozen_all then .error .assertFailed
    else
      match HashMap.find s.m_map key with
      | none => pure (false, value, s)
      | some hv =>
        let value := hv.m_value
        if !s.fast_cache_construct then
          let node := hv.m_list_node
          if s.curve_flag then do
            let n ← deref s node
            let last_update := n.m_time
            if s.m_marker ≠ .null then do
              let m ← deref s s.m_marker
              if last_update ≤ m.m_time then do
                let s := { s with movement_counter := u64 (s.movement_counter + 1) }
                let s ← setTime s node now
                let linked ← is_in_list s node
                if linked then do
                  let s ← LruRemove s node
                  let s ← LruPushFront s node
                  pure (true, value, s)
                else pure (true, value, s)
              else pure (true, value, s)
            else pure (true, value, s)
          else if list_lock then do
            let linked ← is_in_list s node
            if linked then do
              let s ← LruRemove s node
              let s ← LruPushFront s node
              pure (true, value, s)
            else pure (true, value, s)
          else .error .notLocked
        else pure (true, value, s)

/-- The method `Insert`; `now` is what `NowMicros()` returns and `fuel` the
fuel of each call of `Evict`. -/
def Insert (fuel : Nat) (s : FrozenHotCache V) (key : Nat) (value : V) (now : Nat) :
    Except Fault (Bool × FrozenHotCache V) :=
  if !s.enable_insert then .ok (false, s)
  else
    let node := (newNode s key now).1
    let s := (newNode s key now).2
    match HashMap.find s.m_map key with
    | some _ =>
      .ok (false, { s with m_map := HashMap.update s.m_map key ⟨value, node⟩ })
    | none =>
      let s := { s with m_map := HashMap.add s.m_map key ⟨value, node⟩ }
      let s :=
        if s.fast_cache_construct then
          { s with eviction_counter := u64 (s.eviction_counter + 1) }
        else s
      let size := s.m_size
      do
      let r ← (if size ≥ s.m_max_size then Evict fuel s else pure (false, s))
      let done := r.1
      let s := r.2
      if !s.enable_insert then do
        let s := { s with m_map := HashMap.erase s.m_map key }
        let s ← delete s node
        pure (false, s)
      else do
        let s ←
          (if !s.curve_flag then LruPushFront s node
          else do
            let m ← deref s s.m_marker
            let s ← setTime s node m.m_time
            LruPushAfterMarker s node)
        let size := if !done then s.m_size else size
        let s := if !done then { s with m_size := u64 (s.m_size + 1) } else s
        if size > s.m_max_size then do
          let r ← Evict fuel s
          if r.1 then pure (true, { r.2 with m_size := u64 (2 ^ 64 - 1 + r.2.m_size) })
          else pure (true, r.2)
        else pure (true, s)

/-- The method `Erase`: it returns false and does nothing. -/
def Erase (s : FrozenHotCache V) (_key : Nat) : Bool × FrozenHotCache V := (false, s)

/-- The loop of `ConstructTier` over the fast list, from `temp_node` on; each
pass takes one unit of fuel. -/
def tierLoop : Nat → FrozenHotCache V → Ptr → Except Fault (FrozenHotCache V)
  | 0, _, _ => .error .outOfFuel
  | fuel + 1, s, temp_node =>
    if temp_node = .fast_tail then .ok s
    else do
      let n ← deref s temp_node
      if n.m_key = kTombKey then
        let delete_node := temp_node
        let temp_node := n.m_next
        let s ← LruRemove s delete_node
        let s ← delete s delete_node
        tierLoop fuel s temp_node
      else
        match HashMap.find s.m_map n.m_key with
        | none =>
          let delete_node := temp_node
          let temp_node := n.m_next
          let linked ← is_in_list s delete_node
          let s ← (if linked then LruRemove s delete_node else pure s)
          let s ← delete s delete_node
          tierLoop fuel s temp_node
        | some hv =>
          let s := fastInsert s n.m_key hv.m_value
          tierLoop fuel s n.m_next

/-- The method `ConstructTier`; it returns false. -/
def ConstructTier (fuel : Nat) (s : FrozenHotCache V) :
    Except Fault (Bool × FrozenHotCache V) :=
  let s := { s with fast_cache_construct := true, enable_insert := false }
  if s.m_fast_head.m_next ≠ .fast_tail then .error .assertFailed
  else if s.m_fast_tail.m_prev ≠ .fast_head then .error .assertFailed
  else do
    let s ← setNext s .fast_head s.m_head.m_next
    let s ← setPrev s s.m_head.m_next .fast_head
    let s ← setPrev s .fast_tail s.m_tail.m_prev
    let s ← setNext s s.m_tail.m_prev .fast_tail
    let s ← setNext s .head .tail
    let s ← setPrev s .tail .head
    let s ← tierLoop fuel s s.m_fast_head.m_next
    pure (false, { s with fast_cache_construct := false })

/-- The loop of `ConstructFastCache`, from `temp_node` on, with the values of
`count` and `first_pass_flag`; each pass takes one unit of fuel. The
comparisons with `FC_size - 20` and `DC_size - 20` are made in `uint64_t`. -/
def fastLoop (FC_size DC_size : Nat) :
    Nat → FrozenHotCache V → Ptr → Nat → Bool → Except Fault (FrozenHotCache V)
  | 0, _, _, _, _ => .error .outOfFuel
  | fuel + 1, s, temp_node, count, first_pass_flag =>
    if temp_node = .fast_tail then .ok s
    else do
      let count := count + 1
      let eviction_num := s.eviction_counter
      let n ← deref s temp_node
      match HashMap.find s.m_map n.m_key with
      | none =>
        let deleted_node := temp_node
        let temp_node := n.m_next
        let linked ← is_in_list s deleted_node
        let s ← (if linked then LruRemove s deleted_node else pure s)
        let s ← delete s deleted_node
        fastLoop FC_size DC_size fuel s temp_node count first_pass_flag
      | some hv =>
        let s := fastInsert s n.m_key hv.m_value
        let temp_node := n.m_next
        if count > u64 (2 ^ 64 - 20 + FC_size) ∧ first_pass_flag then
          let first ← deref s s.m_fast_head.m_next
          let node_before := first.m_prev
          let node_after := temp_node
          let t ← deref s temp_node
          let s ← setPrev s .fast_tail t.m_prev
          let s ← setNext s t.m_prev .fast_tail
          let s ← setPrev s s.m_fast_head.m_next .fast_head
          let s ← setNext s node_before node_after
          setPrev s node_after node_before
        else if eviction_num > u64 (2 ^ 64 - 20 + DC_size) ∧ first_pass_flag then
          let node := s.m_fast_head.m_next
          let s ← setPrev s .fast_tail s.m_tail.m_prev
          let s ← setNext s s.m_tail.m_prev .fast_tail
          let nd ← deref s node
          let s ← setPrev s .tail nd.m_prev
          let s ← setNext s s.m_tail.m_prev .tail
          let s ← setPrev s node .fast_head
          fastLoop FC_size DC_size fuel s temp_node count false
        else fastLoop FC_size DC_size fuel s temp_node count first_pass_flag

/-- The method `ConstructFastCache`; it returns true. The parameter `FC_size`
is the value the method computes first, `FC_ratio * m_max_size` (a product of
a `double`) converted to `uint64_t`; the assertion `0 ≤ FC_ratio ≤ 1` makes it
at most `m_max_size`. -/
def ConstructFastCache (fuel : Nat) (s : FrozenHotCache V) (FC_size : Nat) :
    Except Fault (Bool × FrozenHotCache V) :=
  if FC_size > s.m_max_size then .error .assertFailed
  else if s.m_fast_head.m_next ≠ .fast_tail then .error .assertFailed
  else if s.m_fast_tail.m_prev ≠ .fast_head then .error .assertFailed
  else do
    let s := if s.eviction_counter > 0 then { s with eviction_counter := 0 } else s
    let s ← setNext s .fast_head s.m_head.m_next
    let s := { s with fast_cache_construct := true }
    let DC_size := s.m_max_size - FC_size
    let s ← fastLoop FC_size DC_size fuel s s.m_fast_head.m_next 0 true
    pure (true,
      { s with fast_cache_ready := true, fast_cache_construct := false, eviction_counter := 0 })

/-- The method `DeleteFastCache`. -/
def DeleteFastCache (s : FrozenHotCache V) : Except Fault (FrozenHotCache V) := do
  let node := s.m_head.m_next
  let s ← setPrev s s.m_fast_head.m_next .head
  let s ← setNext s s.m_fast_tail.m_prev node
  let s ← setNext s .head s.m_fast_head.m_next
  let s ← setPrev s node s.m_fast_tail.m_prev
  let s ← setNext s .fast_head .fast_tail
  let s ← setPrev s .fast_tail .fast_head
  let s := if s.fast_cache_ready then { s with fast_cache_ready := false } else s
  pure (fastClear s)

end FrozenHotCache

/-- A call on a FrozenHot shard: one of the three calls of a client, with the
clock value the call reads, or one of the calls of the monitor. -/
inductive Call (V : Type) where
  | Insert (key : Nat) (value : V) (now : Nat)
  | Lookup (key : Nat) (value : V) (now : Nat)
  | Erase (key : Nat)
  | ConstructTier
  | ConstructFastCache (FC_size : Nat)
  | DeleteFastCache
  deriving DecidableEq, Repr

namespace FrozenHotCache

variable {V : Type}

/-- One call on the shard in a sequential execution: the `try_to_lock` of
`Lookup` succeeds. `DeleteFastCache` returns nothing; the model lists true
for it. -/
def step (fuel : Nat) (s : FrozenHotCache V) : Call V → Except Fault (Ret V × FrozenHotCache V)
  | .Insert key value now =>
    match Insert fuel s key value now with
    | .ok r => .ok (⟨r.1, none⟩, r.2)
    | .error e => .error e
  | .Lookup key value now =>
    match Lookup s key value true now with
    | .ok r => .ok (⟨r.1, some r.2.1⟩, r.2.2)
    | .error e => .error e
  | .Erase key => .ok (⟨(Erase s key).1, none⟩, (Erase s key).2)
  | .ConstructTier =>
    match ConstructTier fuel s with
    | .ok r => .ok (⟨r.1, none⟩, r.2)
    | .error e => .error e
  | .ConstructFastCache FC_size =>
    match ConstructFastCache fuel s FC_size with
    | .ok r => .ok (⟨r.1, none⟩, r.2)
    | .error e => .error e
  | .DeleteFastCache =>
    match DeleteFastCache s with
    | .ok s1 => .ok (⟨true, none⟩, s1)
    | .error e => .error e

/-- A sequence of calls, one after the other; the results are listed in call
order. -/
def run (fuel : Nat) (s : FrozenHotCache V) :
    List (Call V) → Except Fault (List (Ret V) × FrozenHotCache V)
  | [] => .ok ([], s)
  | c :: cs =>
    match step fuel s c with
    | .error e => .error e
    | .ok (r, s1) =>
      match run fuel s1 cs with
      | .error e => .error e
      | .ok (rs, s2) => .ok (r :: rs, s2)

end FrozenHotCache

namespace FrozenHotCache

variable {V : Type}

/-- Two states with the same index, fast hash table, sizes, flags and
counters: they differ in the list nodes only. -/
def SameData (s s' : FrozenHotCache V) : Prop :=
  s'.m_max_size = s.m_max_size ∧ s'.m_size = s.m_size ∧ s'.m_map = s.m_map ∧
  s'.m_fast_hash = s.m_fast_hash ∧ s'.m_marker = s.m_marker ∧
  s'.fast_cache_ready = s.fast_cache_ready ∧ s'.frozen_all = s.frozen_all ∧
  s'.fast_cache_construct = s.fast_cache_construct ∧ s'.enable_insert = s.enable_insert ∧
  s'.curve_flag = s.curve_flag ∧ s'.movement_counter = s.movement_counter ∧
  s'.eviction_counter = s.eviction_counter

/-- Every value of the fast hash table is the value the index has for the
key. -/
def FastFromIndex (s : FrozenHotCache V) : Prop :=
  ∀ key v, fastFind s key = some v → ∃ p, HashMap.find s.m_map key = some ⟨v, p⟩

/-- The frozen-all scenario of the spec: capacity 100, `Insert` of the keys
`1..100` (key `k` with value `k`), `ConstructTier`, then `Insert(101, 7)`,
`Lookup(101)` and `Lookup(50)`. -/
def frozenAllScenario : List (Call Nat) :=
  (List.range 100).map (fun i => Call.Insert (i + 1) (i + 1) 0) ++
    [.ConstructTier, .Insert 101 7 0, .Lookup 101 0 0, .Lookup 50 0 0]

/-- A shard of capacity 2 after `Insert(5, 50)` and `ConstructTier()`. -/
def sampleTier : FrozenHotCache Nat :=
  { (new 2 : FrozenHotCache Nat) with
    m_size := 1
    m_map := [(5, ⟨50, .node 0⟩)]
    m_fast_hash := [(5, 50)]
    m_fast_head := { m_key := 0, m_prev := .null, m_next := .node 0, m_time := 0 }
    m_fast_tail := { m_key := 0, m_prev := .node 0, m_next := .null, m_time := 0 }
    nodes := [(0, { m_key := 5, m_prev := .fast_head, m_next := .fast_tail, m_time := 0 })]
    allocated := 1
    enable_insert := false }

end FrozenHotCache

/-- Two states with the same index, sizes, marker and flags: they differ in
the list nodes, the fast hash table and the eviction counter only. -/
def FrozenHotCache.SameIndex {V : Type} (s s' : FrozenHotCache V) : Prop :=
  s'.m_max_size = s.m_max_size ∧ s'.m_size = s.m_size ∧ s'.m_map = s.m_map ∧
  s'.m_marker = s.m_marker ∧
  s'.fast_cache_ready = s.fast_cache_ready ∧ s'.frozen_all = s.frozen_all ∧
  s'.fast_cache_construct = s.fast_cache_construct ∧ s'.enable_insert = s.enable_insert ∧
  s'.curve_flag = s.curve_flag ∧ s'.movement_counter = s.movement_counter

/-! ### The two lists of a FrozenHot shard -/

namespace FrozenHotCache

variable {V : Type}

/-- The address of the first of the nodes `ids`; `b` when there is none. -/
def firstPtr : List Nat → Ptr → Ptr
  | [], b => b
  | i :: _, _ => .node i

/-- The address of the last of the nodes `ids`; `a` when there is none. -/
def lastPtr : Ptr → List Nat → Ptr
  | a, [] => a
  | _, i :: rest => lastPtr (.node i) rest

/-- The nodes `ids` are linked in this order between `a` and `b`: each is
allocated, its `m_prev` is the node before it (`a` for the first) and its
`m_next` the node after it (`b` for the last). -/
def Chain (s : FrozenHotCache V) : Ptr → List Nat → Ptr → Prop
  | _, [], _ => True
  | a, i :: rest, b =>
    (HashMap.find s.nodes i).map (fun n => (n.m_prev, n.m_next)) = some (a, firstPtr rest b) ∧
      Chain s (.node i) rest b

instance Chain.instDecidable (s : FrozenHotCache V) :
    ∀ (a : Ptr) (ids : List Nat) (b : Ptr), Decidable (Chain s a ids b)
  | _, [], _ => isTrue trivial
  | _, i :: rest, _ =>
    @instDecidableAnd _ _ _ (Chain.instDecidable s (.node i) rest _)

/-- The main list holds the nodes `ids`, the most recently used first. -/
def MainList (s : FrozenHotCache V) (ids : List Nat) : Prop :=
  s.m_head.m_next = firstPtr ids .tail ∧ s.m_tail.m_prev = lastPtr .head ids ∧
    Chain s .head ids .tail

instance MainList.instDecidable (s : FrozenHotCache V) (ids : List Nat) :
    Decidable (MainList s ids) :=
  inferInstanceAs (Decidable (_ ∧ _ ∧ _))

/-- The fast list holds the nodes `ids`, in this order. -/
def FastList (s : FrozenHotCache V) (ids : List Nat) : Prop :=
  s.m_fast_head.m_next = firstPtr ids .fast_tail ∧
    s.m_fast_tail.m_prev = lastPtr .fast_head ids ∧ Chain s .fast_head ids .fast_tail

instance FastList.instDecidable (s : FrozenHotCache V) (ids : List Nat) :
    Decidable (FastList s ids) :=
  inferInstanceAs (Decidable (_ ∧ _ ∧ _))

/-- Each of the nodes `ids` is allocated and carries a key of the index. -/
def Keyed (s : FrozenHotCache V) (ids : List Nat) : Prop :=
  ∀ i ∈ ids,
    ((HashMap.find s.nodes i).bind fun n => HashMap.find s.m_map n.m_key).isSome = true

instance Keyed.instDecidable (s : FrozenHotCache V) (ids : List Nat) :
    Decidable (Keyed s ids) :=
  inferInstanceAs (Decidable (∀ i ∈ ids, _))

/-- The pairs of key and value that the index holds for the keys of the nodes
`ids`, in the order of the nodes. -/
def entries (s : FrozenHotCache V) (ids : List Nat) : List (Nat × V) :=
  ids.filterMap fun i =>
    (HashMap.find s.nodes i).bind fun n =>
      (HashMap.find s.m_map n.m_key).map fun hv => (n.m_key, hv.m_value)

/-- A quiescent shard in the Dynamic state whose main list holds the nodes
`ids`, the most recently used first: the nodes are distinct, each carries a
key of the index, the size counts them, and the fast list is empty. -/
def Dynamic (s : FrozenHotCache V) (ids : List Nat) : Prop :=
  MainList s ids ∧ ids.Nodup ∧ Keyed s ids ∧ s.m_size = ids.length ∧
    s.m_fast_head.m_next = .fast_tail ∧ s.m_fast_tail.m_prev = .fast_head

instance Dynamic.instDecidable (s : FrozenHotCache V) (ids : List Nat) :
    Decidable (Dynamic s ids) :=
  inferInstanceAs (Decidable (_ ∧ _ ∧ _ ∧ _ ∧ _ ∧ _))

/-- The calls `Insert(k, k)` for the keys `k = lo, ..., lo + n - 1`, in this
order. -/
def insertRange (lo n : Nat) : List (Call Nat) :=
  (List.range n).map fun i => Call.Insert (lo + i) (lo + i) 0

/-- The shard a sequence of calls leaves, from a new shard of the given
capacity; the new shard itself when a call faults. -/
def after (capacity : Nat) (calls : List (Call Nat)) : FrozenHotCache Nat :=
  match run (capacity + 1) (new capacity) calls with
  | .ok r => r.2
  | .error _ => new capacity

/-- A shard of capacity 20 after `Insert(5, 50)` and `Insert(6, 60)`. -/
def sampleDynamic : FrozenHotCache Nat :=
  { (new 20 : FrozenHotCache Nat) with
    m_size := 2
    m_map := [(6, ⟨60, .node 1⟩), (5, ⟨50, .node 0⟩)]
    m_head := { m_key := 0, m_prev := .null, m_next := .node 1, m_time := 0 }
    m_tail := { m_key := 0, m_prev := .node 0, m_next := .null, m_time := 0 }
    nodes := [(1, { m_key := 6, m_prev := .head, m_next := .node 0, m_time := 0 }),
      (0, { m_key := 5, m_prev := .node 1, m_next := .tail, m_time := 0 })]
    allocated := 2 }

/-- The shard `sampleDynamic` after `ConstructFastCache` with `FC_size = 20`. -/
def sampleFast : FrozenHotCache Nat :=
  { sampleDynamic with
    m_fast_hash := [(6, 60)]
    m_fast_head := { m_key := 0, m_prev := .null, m_next := .node 1, m_time := 0 }
    m_fast_tail := { m_key := 0, m_prev := .node 1, m_next := .null, m_time := 0 }
    m_head := { m_key := 0, m_prev := .null, m_next := .node 0, m_time := 0 }
    nodes := [(1, { m_key := 6, m_prev := .fast_head, m_next := .fast_tail, m_time := 0 }),
      (0, { m_key := 5, m_prev := .head, m_next := .tail, m_time := 0 })]
    fast_cache_ready := true }

end FrozenHotCache

namespace FrozenHotCache

variable {V : Type}

/-- A shard in the Dynamic state that has seen only calls of `Insert`, with
main list `ids`: inserts are enabled, no curve is sampled, no fast tier is
under construction, and the nodes allocated so far are numbered below
`allocated`. -/
def Filling (s : FrozenHotCache V) (ids : List Nat) : Prop :=
  Dynamic s ids ∧ (∀ i ∈ ids, i < s.allocated) ∧
    (∀ i, s.allocated ≤ i → HashMap.find s.nodes i = none) ∧
    s.enable_insert = true ∧ s.fast_cache_construct = false ∧ s.curve_flag = false

end FrozenHotCache

/-- The calls `Insert(k, v)` for a list of keys with a value and a clock
value each, in this order. -/
def FrozenHotCache.insertCalls {V : Type} (kts : List (Nat × V × Nat)) : List (Call V) :=
  kts.map fun p => Call.Insert p.1 p.2.1 p.2.2

/-! ## Exact reference counts and live slots in the Segment shard -/

/-- The slots of the segments of the log, from the head segment to the tail. -/
def logSlots : List Segment → List Slot
  | [] => []
  | seg :: segs => seg.slot_array ++ logSlots segs

/-- Number of the slots of a list that point to entry `p` with the version
`v`. -/
def slotLive (slots : List Slot) (p v : Nat) : Nat :=
  slots.countP fun slot => decide (slot.entry = some p ∧ slot.version = v)

/-- Every slot of the list that points to entry `p` has a version of at most
`v`. -/
def slotsBelow (slots : List Slot) (p v : Nat) : Prop :=
  ∀ slot ∈ slots, slot.entry = some p → slot.version ≤ v

namespace SegmentList

/-- Shape of the log: `count` is the number of segments behind the head; the
head segment has `S` slots, of which the first `used` point to an entry and
the others were never written; every slot of the segments behind the head
points to an entry. -/
def Shape (S : Nat) (sl : SegmentList) : Prop :=
  ∃ head rest, sl.segments = head :: rest ∧ sl.count = rest.length ∧ head.used ≤ S ∧
    head.slot_array.length = S ∧
    (∀ i slot, head.slot_array[i]? = some slot →
      (head.used ≤ i → slot.entry = none) ∧ (i < head.used → slot.entry ≠ none)) ∧
    (∀ seg ∈ rest, ∀ slot ∈ seg.slot_array, slot.entry ≠ none)

/-- A call on the log. -/
inductive Call where
  | Add (entry new_version : Nat)
  | Evict
  deriving DecidableEq, Repr

/-- One call on the log; the victim that `Evict` returns is dropped. -/
def step (S fuel : Nat) (sl : SegmentList) : Call → Except Fault SegmentList
  | .Add entry new_version => Add S fuel sl entry new_version
  | .Evict =>
    match Evict sl with
    | .ok r => .ok r.2
    | .error e => .error e

/-- A sequence of calls on the log, one after the other. -/
def run (S fuel : Nat) (sl : SegmentList) : List Call → Except Fault SegmentList
  | [] => .ok sl
  | c :: cs =>
    match step S fuel sl c with
    | .error e => .error e
    | .ok sl1 => run S fuel sl1 cs

end SegmentList

namespace SegmentCache

variable {V : Type}

/-- Whether the index maps `key` to an entry that has a slot of its current
version among `slots`. -/
def liveIn (s : SegmentCache V) (slots : List Slot) (key : Nat) : Bool :=
  match HashMap.find s.hash_map_ key with
  | none => false
  | some p =>
    match HashMap.find s.entries p with
    | none => false
    | some e => decide ((⟨some p, e.version⟩ : Slot) ∈ slots)

/-- The slots that hold a reference: those of the log and those of an evicted
segment that are still to be released. -/
def heldSlots (s : SegmentCache V) (pending : List Slot) : List Slot :=
  logSlots s.segment_list_.segments ++ pending

/-- Invariant of the shard while the slots `pending` of an evicted segment are
still to be released. The index points to live entries. Every live entry has
as many references as the index and the slots hold on it, at least one and
at most `N`; its version is at most `N`; no slot that points to it has a
larger version, and when the index points to it exactly one slot has its
version. No slot points to an entry that is not live. Names from `allocated`
on are not live. The log has its shape and at most `N` segments; the
capacity is a `uint64_t`; the pending slots point to entries. -/
def Exact (S N : Nat) (s : SegmentCache V) (pending : List Slot) : Prop :=
  s.IndexOk ∧
    (∀ p e, HashMap.find s.entries p = some e →
      e.refs = s.indexRef p e + slotRefs (s.heldSlots pending) p ∧ 1 ≤ e.refs ∧ e.refs ≤ N ∧
        e.version ≤ N ∧ slotsBelow (s.heldSlots pending) p e.version ∧
        (s.indexRef p e = 1 → slotLive (s.heldSlots pending) p e.version = 1)) ∧
    (∀ p, HashMap.find s.entries p = none → slotRefs (s.heldSlots pending) p = 0) ∧
    (∀ p, s.allocated ≤ p → HashMap.find s.entries p = none) ∧
    s.segment_list_.Shape S ∧ s.segment_list_.segments.length ≤ N ∧ s.capacity_ < 2 ^ 64 ∧
    (∀ slot ∈ pending, slot.entry ≠ none)

/-- The live-slot property: for every entry the index points to, exactly one
slot of the log points to it with its version, and no slot of the log that
points to it has a larger version. -/
def LiveSlots (s : SegmentCache V) : Prop :=
  ∀ key p e, HashMap.find s.hash_map_ key = some p → HashMap.find s.entries p = some e →
    slotLive (logSlots s.segment_list_.segments) p e.version = 1 ∧
      slotsBelow (logSlots s.segment_list_.segments) p e.version

/-- The reference-count property: the references of every live entry are those
of the index and of the slots of the log, and there is at least one; nothing
points to a name that is not live. -/
def RefsExact (s : SegmentCache V) : Prop :=
  (∀ p e, HashMap.find s.entries p = some e →
    e.refs = s.indexRef p e + slotRefs (logSlots s.segment_list_.segments) p ∧ 1 ≤ e.refs) ∧
  ∀ p, HashMap.find s.entries p = none →
    slotRefs (logSlots s.segment_list_.segments) p = 0 ∧
      ∀ key, HashMap.find s.hash_map_ key ≠ some p

/-- A Segment shard of capacity 10, with one slot per segment, after
`Insert(1, 10)`, `Insert(2, 20)`, `Lookup(1)`, `Insert(3, 30)`, `Insert(4, 40)`
and `Insert(5, 50)`: the tail segment holds the stale slot of key 1, which
`Lookup` promoted into the segment with the id 2. -/
def sampleLog : SegmentCache Nat :=
  { capacity_ := 10, usage_ := 5,
    hash_map_ := [(5, 4), (4, 3), (3, 2), (2, 1), (1, 0)],
    entries := [(4, ⟨5, 50, 1, 2, some 4, 1⟩), (3, ⟨4, 40, 1, 2, some 3, 1⟩),
      (2, ⟨3, 30, 1, 2, some 2, 1⟩), (1, ⟨2, 20, 1, 2, some 0, 1⟩),
      (0, ⟨1, 10, 2, 3, some 0, 1⟩)],
    allocated := 5,
    segment_list_ :=
      ⟨[⟨5, [⟨some 4, 1⟩], 1⟩, ⟨4, [⟨some 3, 1⟩], 2⟩, ⟨3, [⟨some 2, 1⟩], 2⟩,
        ⟨2, [⟨some 0, 2⟩], 2⟩, ⟨1, [⟨some 1, 1⟩], 2⟩, ⟨0, [⟨some 0, 1⟩], 2⟩], 5, 6⟩ }

end SegmentCache

/-! ## Statistics (`statistics.h`, `statistics.cc`) -/

/-- The enum `Tickers`, without its last value `TICKER_ENUM_MAX`, which is the
number of tickers. -/
inductive Tickers where
  | FAST_CACHE_HIT
  | CACHE_HIT
  | CACHE_MISS
  | INSERT
  deriving DecidableEq, Repr

namespace Tickers

/-- The value `static_cast<int>(ticker_type)`. -/
def toNat : Tickers → Nat
  | FAST_CACHE_HIT => 0
  | CACHE_HIT => 1
  | CACHE_MISS => 2
  | INSERT => 3

/-- The value `TICKER_ENUM_MAX`. -/
def TICKER_ENUM_MAX : Nat := 4

end Tickers

/-- The counters `tickers_` of a `Statistics`. -/
structure Statistics where
  tickers_ : List Nat
  deriving DecidableEq, Repr

namespace Statistics

/-- The counters after `ResetStat`. -/
def ResetStat : Statistics := { tickers_ := List.replicate Tickers.TICKER_ENUM_MAX 0 }

/-- The method `GetTickerCount`. -/
def GetTickerCount (st : Statistics) (ticker_type : Tickers) : Nat :=
  st.tickers_.getD ticker_type.toNat 0

/-- The method `RecordTick`: a `fetch_add` on a `uint64_t`. -/
def RecordTick (st : Statistics) (ticker_type : Tickers) (count : Nat) : Statistics :=
  { tickers_ := st.tickers_.set ticker_type.toNat
      (u64 (st.tickers_.getD ticker_type.toNat 0 + count)) }

end Statistics

namespace FrozenHotCache

variable {V : Type}

/-- The private method `FrozenHotCache::sample_generator`, which hides the one
of the base class `Cache`: its body is commented out and it returns false. -/
def sample_generator : Bool := false

/-- The statement `if (stat_yes) stats.RecordTick(ticker_type)`. -/
def tick (stat_yes : Bool) (st : Statistics) (ticker_type : Tickers) : Statistics :=
  if stat_yes then st.RecordTick ticker_type 1 else st

/-- The method `Lookup` with the statistics `stats` of the base class. -/
def LookupStat (s : FrozenHotCache V) (st : Statistics) (key : Nat) (value : V)
    (list_lock : Bool) (now : Nat) : Except Fault (Bool × V × FrozenHotCache V × Statistics) :=
  let stat_yes := sample_generator
  let probe : Option (Bool × V × Statistics) :=
    if s.fast_cache_ready || s.frozen_all then
      match fastFind s key with
      | some v => some (true, v, tick stat_yes st .FAST_CACHE_HIT)
      | none =>
        if s.frozen_all then some (false, value, tick stat_yes st .CACHE_MISS) else none
    else none
  match probe with
  | some r => pure (r.1, r.2.1, s, r.2.2)
  | none =>
    if s.frozen_all then .error .assertFailed
    else
      match HashMap.find s.m_map key with
      | none => pure (false, value, s, tick stat_yes st .CACHE_MISS)
      | some hv =>
        let value := hv.m_value
        if !s.fast_cache_construct then
          let node := hv.m_list_node
          if s.curve_flag then do
            let n ← deref s node
            let last_update := n.m_time
            if s.m_marker ≠ .null then do
              let m ← deref s s.m_marker
              if last_update ≤ m.m_time then do
                let st := tick stat_yes st .CACHE_HIT
                let s := { s with movement_counter := u64 (s.movement_counter + 1) }
                let s ← setTime s node now
                let linked ← is_in_list s node
                if linked then do
                  let s ← LruRemove s node
                  let s ← LruPushFront s node
                  pure (true, value, s, st)
                else pure (true, value, s, st)
              else pure (true, value, s, tick stat_yes st .FAST_CACHE_HIT)
            else pure (true, value, s, tick stat_yes st .FAST_CACHE_HIT)
          else if list_lock then do
            let linked ← is_in_list s node
            if linked then do
              let s ← LruRemove s node
              let s ← LruPushFront s node
              pure (true, value, s, tick stat_yes st .CACHE_HIT)
            else pure (true, value, s, tick stat_yes st .CACHE_HIT)
          else .error .notLocked
        else pure (true, value, s, tick stat_yes st .CACHE_HIT)

/-- The method `Insert` with the statistics `stats` of the base class. -/
def InsertStat (fuel : Nat) (s : FrozenHotCache V) (st : Statistics) (key : Nat) (value : V)
    (now : Nat) : Except Fault (Bool × FrozenHotCache V × Statistics) :=
  let stat_yes := sample_generator
  let st := tick stat_yes st .INSERT
  match Insert fuel s key value now with
  | .ok r => .ok (r.1, r.2, st)
  | .error e => .error e

/-- One call on the shard in a sequential execution, with the statistics; the
calls other than `Insert` and `Lookup` record nothing. -/
def stepStat (fuel : Nat) (s : FrozenHotCache V) (st : Statistics) :
    Call V → Except Fault (Ret V × FrozenHotCache V × Statistics)
  | .Insert key value now =>
    match InsertStat fuel s st key value now with
    | .ok r => .ok (⟨r.1, none⟩, r.2.1, r.2.2)
    | .error e => .error e
  | .Lookup key value now =>
    match LookupStat s st key value true now with
    | .ok r => .ok (⟨r.1, some r.2.1⟩, r.2.2.1, r.2.2.2)
    | .error e => .error e
  | c =>
    match step fuel s c with
    | .ok r => .ok (r.1, r.2, st)
    | .error e => .error e

/-- A sequence of calls with the statistics, one after the other; the results
are listed in call order. -/
def runStat (fuel : Nat) (s : FrozenHotCache V) (st : Statistics) :
    List (Call V) → Except Fault (List (Ret V) × FrozenHotCache V × Statistics)
  | [] => .ok ([], s, st)
  | c :: cs =>
    match stepStat fuel s st c with
    | .error e => .error e
    | .ok (r, s1, st1) =>
      match runStat fuel s1 st1 cs with
      | .error e => .error e
      | .ok (rs, s2, st2) => .ok (r :: rs, s2, st2)

/-- The calls `Lookup(k, value)` for a list of keys with the content of the
out parameter before the call and a clock value each, in this order. -/
def lookupCalls (lks : List (Nat × V × Nat)) : List (Call V) :=
  lks.map fun p => Call.Lookup p.1 p.2.1 p.2.2

/-- The calls `Lookup(k)` for the keys `k = lo, ..., lo + n - 1`, in this
order. -/
def lookupRange (lo n : Nat) : List (Call Nat) :=
  (List.range n).map fun i => Call.Lookup (lo + i) 0 0

/-- The keys `k = lo, ..., lo + n - 1`, each with the value `k` and the clock
value 0, in this order. -/
def rangePairs (lo n : Nat) : List (Nat × Nat × Nat) :=
  (List.range n).map fun i => (lo + i, lo + i, 0)

/-- The partial-construct scenario of the spec: capacity 100, `Insert` of the
keys `1..100` (key `k` with value `k`), `ConstructFastCache(0.5)`, which makes
`FC_size = 50`, then `Lookup` of the keys `51..100`, twice. -/
def fastTierScenario : List (Call Nat) :=
  insertRange 1 100 ++ [.ConstructFastCache 50] ++ lookupRange 51 50 ++ lookupRange 51 50

/-- Every entry of the index points to a node of `ids` that carries the key of
the entry. -/
def IndexIn (s : FrozenHotCache V) (ids : List Nat) : Prop :=
  ∀ p ∈ s.m_map, ∃ i ∈ ids, p.2.m_list_node = .node i ∧
    (HashMap.find s.nodes i).map ListNode.m_key = some p.1

/-- A quiescent shard in the Frozen-partial state with the fast list `fs` and
the main list `ms`: the fast tier is ready, nothing is under construction, no
curve is sampled, the fast hash table holds values of the index, and the
index entry of every key that is not in the fast hash table points to a node
of the main list. -/
def Partial (s : FrozenHotCache V) (fs ms : List Nat) : Prop :=
  FastList s fs ∧ MainList s ms ∧ (fs ++ ms).Nodup ∧ s.fast_cache_ready = true ∧
    s.frozen_all = false ∧ s.fast_cache_construct = false ∧ s.curve_flag = false ∧
    FastFromIndex s ∧
    ∀ p ∈ s.m_map, fastFind s p.1 = none → ∃ i ∈ ms, p.2.m_list_node = .node i

end FrozenHotCache

/-! ## The latency reservoir `MySet` (`utils.h`)

The samples are `double`s; a sample is a value of an arbitrary type `α` here,
and the average that `print_from_last_end` prints and returns is left out: its
result is the list of the samples it sums, or nothing when it returns the
constant 100. -/

/-- State of a `MySet`: `data_` holds the cells `data_[0]`, ..., `data_[size_ - 1]`. -/
structure MySet (α : Type) where
  size_ : Nat
  cursor_ : Nat
  data_ : List α
  sorted_ : Bool
  deriving DecidableEq, Repr

namespace MySet

variable {α : Type}

/-- The constant `max_size_`. -/
def max_size_ : Nat := 2 ^ 30

/-- The constructor `MySet()`; `sorted_` is not initialised, the model starts
it at false. -/
def new : MySet α := { size_ := 0, cursor_ := 0, data_ := [], sorted_ := false }

/-- The method `insert`. -/
def insert (s : MySet α) (value : α) : Except Fault (MySet α) :=
  let index := s.size_
  let s1 := { s with size_ := u64 (s.size_ + 1) }
  if index < max_size_ then
    .ok { s1 with data_ := s1.data_.take index ++ [value], sorted_ := false }
  else .error .assertFailed

/-- The method `size`. -/
def size (s : MySet α) : Nat := s.size_

/-- The method `print_from_last_end`; `step` is the out parameter. The result
is the list of the samples that are summed (`none` when the method returns
100 and leaves `step` as it was), the out parameter after the call, and the
state. -/
def print_from_last_end (s : MySet α) (step : Nat) : Option (List α) × Nat × MySet α :=
  if s.size_ = 0 ∨ s.cursor_ ≥ s.size_ then (none, step, s)
  else
    let size := s.size_
    let summed := (s.data_.take size).drop s.cursor_
    let step := u64 (size + (2 ^ 64 - s.cursor_))
    (some summed, step, { s with cursor_ := u64 (size + 1) })

/-- The method `size_from_last_end`. -/
def size_from_last_end (s : MySet α) : Nat :=
  let size := s.size_
  if size = 0 ∨ s.cursor_ ≥ size then 0 else u64 (size + (2 ^ 64 - s.cursor_))

/-- A call on the reservoir. -/
inductive Call (α : Type) where
  | insert (value : α)
  | print_from_last_end
  deriving DecidableEq, Repr

/-- One call on the reservoir. A `print_from_last_end` is called as
`PrintStepLat` does, with the out parameter `step` set to 0 before the call;
the result is `none` for an `insert` and the samples summed and the step for a
`print_from_last_end`. -/
def step (s : MySet α) : Call α → Except Fault (Option (Option (List α) × Nat) × MySet α)
  | .insert value =>
    match insert s value with
    | .ok s1 => .ok (none, s1)
    | .error e => .error e
  | .print_from_last_end =>
    let r := print_from_last_end s 0
    .ok (some (r.1, r.2.1), r.2.2)

/-- A sequence of calls by one thread, one after the other; the results are
listed in call order. -/
def run (s : MySet α) :
    List (Call α) → Except Fault (List (Option (Option (List α) × Nat)) × MySet α)
  | [] => .ok ([], s)
  | c :: cs =>
    match step s c with
    | .error e => .error e
    | .ok (r, s1) =>
      match run s1 cs with
      | .error e => .error e
      | .ok (rs, s2) => .ok (r :: rs, s2)

/-- The sum of the steps that the `print_from_last_end` calls of a run
reported. -/
def steps (rs : List (Option (Option (List α) × Nat))) : Nat :=
  (rs.map fun r => match r with
    | some (_, n) => n
    | none => 0).sum

/-- The number of `print_from_last_end` calls of a run that summed samples. -/
def prints (rs : List (Option (Option (List α) × Nat))) : Nat :=
  rs.countP fun r => match r with
    | some (some _, _) => true
    | _ => false

/-- The samples that the `print_from_last_end` calls of a run summed, in call
order. -/
def summed (rs : List (Option (Option (List α) × Nat))) : List α :=
  (rs.map fun r => match r with
    | some (some l, _) => l
    | _ => []).flatten

/-- The number of `insert` calls in a sequence of calls. -/
def inserts (cs : List (Call α)) : Nat :=
  cs.countP fun c => match c with
    | .insert _ => true
    | .print_from_last_end => false

end MySet

/-! ## The warm-up loop of `Monitor` (`scalable_cache.h`)

The loop reads two things per pass: the miss ratio, which `PrintMissRatio`
writes into `miss_ratio` unless no request was counted, and, at the end of a
pass that does not leave the loop, the size `get_size()`. Both are inputs of
the model. A miss ratio is the quotient of two counters, a rational number, and
`<=` on `double`s that are not NaN orders them as the rationals they are. The
flag `should_stop_` is set by another thread; the model runs the loop over the
samples that are taken before it is set. -/

/-- The constant `wait_stable_threshold`. -/
def wait_stable_threshold : Nat := 2

/-- The local variables of `Monitor` that the warm-up loop uses. -/
structure Monitor where
  last_miss_ratio : Rat
  miss_ratio : Rat
  last_size : Nat
  size : Nat
  wait_count : Nat
  deriving DecidableEq, Repr

namespace Monitor

/-- What one pass of the warm-up loop reads: the miss ratio that
`PrintMissRatio` writes (`none` when it writes nothing) and the value of
`get_size()`. -/
structure Sample where
  miss_ratio : Option Rat
  size : Nat
  deriving DecidableEq, Repr

/-- The variables before the loop. -/
def new : Monitor :=
  { last_miss_ratio := 1, miss_ratio := 0, last_size := 0, size := 0, wait_count := 0 }

/-- The call `PrintMissRatio(miss_ratio)` of a pass. -/
def PrintMissRatio (m : Monitor) (x : Sample) : Monitor :=
  match x.miss_ratio with
  | some r => { m with miss_ratio := r }
  | none => m

/-- The condition that a pass of the loop counts, after `PrintMissRatio`:
`last_size >= size` and `last_miss_ratio <= miss_ratio`. -/
def stable (m : Monitor) : Bool :=
  decide (m.last_size ≥ m.size) && decide (m.last_miss_ratio ≤ m.miss_ratio)

/-- One pass of the warm-up loop: whether it leaves the loop by `break`, and
the variables after it. -/
def pass (m : Monitor) (x : Sample) : Bool × Monitor :=
  let m := PrintMissRatio m x
  let m1 :=
    if m.last_size ≥ m.size then
      if m.last_miss_ratio ≤ m.miss_ratio then { m with wait_count := u32 (m.wait_count + 1) }
      else m
    else m
  if m.last_size ≥ m.size ∧ m1.wait_count ≥ wait_stable_threshold then (true, m1)
  else
    (false, { m1 with last_size := m1.size, size := x.size, last_miss_ratio := m1.miss_ratio })

/-- The warm-up loop over the samples of its passes: the number of the pass
that leaves the loop by `break`, counted from 0, or `none` when no pass does. -/
def warmUp (m : Monitor) : List Sample → Option Nat
  | [] => none
  | x :: xs =>
    match pass m x with
    | (true, _) => some 0
    | (false, m1) => (warmUp m1 xs).map (· + 1)

/-- For each pass, whether its condition holds: the sizes read by the two
passes before it did not grow and the miss ratio did not fall against the
pass before it. It does not depend on `wait_count`. -/
def stables (m : Monitor) : List Sample → List Bool
  | [] => []
  | x :: xs =>
    let m1 := PrintMissRatio m x
    stable m1 ::
      stables { m1 with last_size := m1.size, size := x.size, last_miss_ratio := m1.miss_ratio }
        xs

end Monitor

/-! ## The size of the Segment shard -/

namespace SegmentCache

variable {V : Type}

/-- Invariant of the size counter: `usage_` is the number of the entries that
are allocated and not deleted, each of which has its own name and the charge
1; the names of the entries are below `allocated`, which is at most `N`. -/
def Counted (N : Nat) (s : SegmentCache V) : Prop :=
  s.usage_ = s.entries.length ∧ (s.entries.map Prod.fst).Nodup ∧
    (∀ p e, HashMap.find s.entries p = some e → e.charge = 1) ∧
    (∀ p ∈ s.entries.map Prod.fst, p < s.allocated) ∧ s.allocated ≤ N

/-- The size property: `get_size()` is the number of the entries that are
allocated and not deleted, and these are the entries that the index or a slot
of the log points to. -/
def SizeExact (s : SegmentCache V) : Prop :=
  s.get_size = s.entries.length ∧ (s.entries.map Prod.fst).Nodup ∧
    (∀ p e, HashMap.find s.entries p = some e → e.charge = 1) ∧
    ∀ p, (HashMap.find s.entries p).isSome = true ↔
      ((∃ key, HashMap.find s.hash_map_ key = some p) ∨
        1 ≤ slotRefs (logSlots s.segment_list_.segments) p)

end SegmentCache

/-- Every segment of the log has `S` slots. -/
def SegmentList.Slots (S : Nat) (sl : SegmentList) : Prop :=
  ∀ seg ∈ sl.segments, seg.slot_array.length = S

/-! ### Curve profiling on a FrozenHot shard -/

namespace FrozenHotCache

variable {V : Type}

/-- The method `GetCurve` up to its first `list_lock.unlock()`: it asserts
that inserts are enabled, allocates the marker node, pushes it to the head of
the main list and sets `curve_flag`; `now` is what `NowMicros()` returns in
the constructor of the marker. The passes that follow sleep and read the
statistics; the end of the method takes the marker out again. -/
def GetCurve_begin (s : FrozenHotCache V) (now : Nat) : Except Fault (FrozenHotCache V) :=
  if !s.enable_insert then .error .assertFailed
  else
    let r := newNode s kMarkerKey now
    let s := { r.2 with m_marker := r.1 }
    match LruPushFront s s.m_marker with
    | .error e => .error e
    | .ok s => .ok { s with curve_flag := true }

/-- Every node of `s'` is a node of `s` with the same key and the same time. -/
def TimesFrom (s s' : FrozenHotCache V) : Prop :=
  ∀ j n', HashMap.find s'.nodes j = some n' →
    ∃ n, HashMap.find s.nodes j = some n ∧ n.m_time = n'.m_time ∧ n.m_key = n'.m_key

/-- A quiescent shard on which a curve is sampled: the main list holds the
nodes `xs`, then the marker node `mk`, then the nodes `ys`; `curve_flag` is
set, inserts are enabled, no fast tier is ready or under construction, and
the nodes allocated so far are numbered below `allocated`. -/
def Profiling (s : FrozenHotCache V) (xs : List Nat) (mk : Nat) (ys : List Nat) : Prop :=
  MainList s (xs ++ mk :: ys) ∧ (xs ++ mk :: ys).Nodup ∧ s.m_marker = .node mk ∧
    s.curve_flag = true ∧ s.enable_insert = true ∧ s.fast_cache_ready = false ∧
    s.frozen_all = false ∧ s.fast_cache_construct = false ∧
    (∀ i ∈ xs ++ mk :: ys, i < s.allocated) ∧
    (∀ i, s.allocated ≤ i → HashMap.find s.nodes i = none)

/-- A shard of capacity 3 that holds the keys 5 and 6, after the start of
`GetCurve` at the time 10: the marker is the node 2, at the head of the main
list. -/
def sampleCurve : FrozenHotCache Nat :=
  { (new 3 : FrozenHotCache Nat) with
    m_size := 2
    m_map := [(6, ⟨60, .node 1⟩), (5, ⟨50, .node 0⟩)]
    m_marker := .node 2
    m_head := { m_key := 0, m_prev := .null, m_next := .node 2, m_time := 0 }
    m_tail := { m_key := 0, m_prev := .node 0, m_next := .null, m_time := 0 }
    nodes := [(2, { m_key := 2, m_prev := .head, m_next := .node 1, m_time := 10 }),
      (1, { m_key := 6, m_prev := .node 2, m_next := .node 0, m_time := 0 }),
      (0, { m_key := 5, m_prev := .node 1, m_next := .tail, m_time := 0 })]
    allocated := 3
    curve_flag := true }

end FrozenHotCache

namespace FrozenHotCache

variable {V : Type}

/-- What an `Insert` of a new key needs to go through while the nodes `ys`
are behind the marker: the shard has room for one more entry; or it is
exactly full, the last node of the main list is one of `ys` and carries a key
of the index other than the tomb key, which `Evict` evicts, and there is fuel
for one pass of the loop of `Evict`. -/
def CanInsert (fuel : Nat) (s : FrozenHotCache V) (ys : List Nat) : Prop :=
  s.m_size < s.m_max_size ∨
    (s.m_size = s.m_max_size ∧ 1 ≤ fuel ∧
      ∃ t nt hvt, ys.getLast? = some t ∧ HashMap.find s.nodes t = some nt ∧
        nt.m_key ≠ kTombKey ∧ HashMap.find s.m_map nt.m_key = some hvt)

/-- The nodes behind the marker after an `Insert` of a new key: those before
it, without the last one when the shard was full. -/
def afterInsert (s : FrozenHotCache V) (ys : List Nat) : List Nat :=
  if s.m_size < s.m_max_size then ys else ys.dropLast

end FrozenHotCache

/-! ## FIFO and LRU shards with their list nodes (`fifo_cache.h`, `lru_cache.h`)

The models `FifoCache` and `LruCache` above identify a list node with its
key. The models below keep the list nodes as objects with their two pointers:
the two sentinels live in the cache object, a node made by `new ListNode` has
a number, and a pointer that is null, the out-of-list marker or dangling cannot
be dereferenced. The two classes declare the same intrusive list; what differs
is what a node carries besides its two pointers. -/

/-- A value of type `ListNode*` of a FIFO or LRU shard. -/
inductive NodePtr where
  /-- The pointer `nullptr`. -/
  | null
  /-- The pointer `out_of_list_marker`, the value -1. -/
  | marker
  /-- The address of the head sentinel (`&m_head`, `&head_`). -/
  | head
  /-- The address of the tail sentinel (`&m_tail`, `&tail_`). -/
  | tail
  /-- The address of the node with this number, made by `new ListNode`. -/
  | node (id : Nat)
  deriving DecidableEq, Repr

/-- A `ListNode` of a FIFO or LRU shard: the pointers `prev` and `next`
(`m_prev`, `m_next`) and the other fields `item` (`m_key` in `FifoCache`;
`key`, `value` and `charge` in `LruCache`). -/
structure NodeHeap.ListNode (P : Type) where
  item : P
  prev : NodePtr
  next : NodePtr
  deriving DecidableEq, Repr

/-- The list nodes of a FIFO or LRU shard: the two sentinels, the nodes made by
`new ListNode` and not deleted, and the number of nodes made so far. -/
structure NodeHeap (P : Type) where
  head : NodeHeap.ListNode P
  tail : NodeHeap.ListNode P
  nodes : HashMap (NodeHeap.ListNode P)
  allocated : Nat
  deriving DecidableEq, Repr

namespace NodeHeap

variable {P : Type}

/-- The two sentinels after the constructor of the cache: `ListNode()` sets
`prev` to the out-of-list marker and `next` to null, then the constructor links
the sentinels to each other. `item` stands for the fields that `ListNode()`
leaves as they are. -/
def new (item : P) : NodeHeap P :=
  { head := { item := item, prev := .marker, next := .tail }
    tail := { item := item, prev := .head, next := .null }
    nodes := []
    allocated := 0 }

/-- The object a pointer points to. -/
def deref (h : NodeHeap P) : NodePtr → Except Fault (ListNode P)
  | .null => .error .nullDeref
  | .marker => .error .wildPointer
  | .head => .ok h.head
  | .tail => .ok h.tail
  | .node id =>
    match HashMap.find h.nodes id with
    | some n => .ok n
    | none => .error .useAfterFree

/-- The heap with the object at a pointer replaced. -/
def put (h : NodeHeap P) : NodePtr → ListNode P → NodeHeap P
  | .head, n => { h with head := n }
  | .tail, n => { h with tail := n }
  | .node id, n => { h with nodes := HashMap.update h.nodes id n }
  | _, _ => h

/-- The assignment `p->prev = q`. -/
def setPrev (h : NodeHeap P) (p q : NodePtr) : Except Fault (NodeHeap P) :=
  match deref h p with
  | .error e => .error e
  | .ok n => .ok (put h p { n with prev := q })

/-- The assignment `p->next = q`. -/
def setNext (h : NodeHeap P) (p q : NodePtr) : Except Fault (NodeHeap P) :=
  match deref h p with
  | .error e => .error e
  | .ok n => .ok (put h p { n with next := q })

/-- The expression `new ListNode` followed by the assignments that give the
node its fields `item`: the node is not linked. -/
def newNode (h : NodeHeap P) (item : P) : NodePtr × NodeHeap P :=
  (.node h.allocated,
    { h with
      nodes := HashMap.add h.nodes h.allocated { item := item, prev := .marker, next := .null }
      allocated := h.allocated + 1 })

/-- The statement `delete p`. Only a node made by `new` and not yet deleted
can be deleted; `delete nullptr` does nothing. -/
def delete (h : NodeHeap P) : NodePtr → Except Fault (NodeHeap P)
  | .null => .ok h
  | .node id =>
    match HashMap.find h.nodes id with
    | some _ => .ok { h with nodes := HashMap.erase h.nodes id }
    | none => .error .useAfterFree
  | _ => .error .wildPointer

/-- The method `FifoCache::ListPushFront`. -/
def ListPushFront (h : NodeHeap P) (node : NodePtr) : Except Fault (NodeHeap P) := do
  let old_real_head := h.head.next
  let h ← setPrev h node .head
  let h ← setNext h .head node
  let h ← setNext h node old_real_head
  setPrev h old_real_head node

/-- The method `FifoCache::ListRemove`. -/
def ListRemove (h : NodeHeap P) (node : NodePtr) : Except Fault (NodeHeap P) := do
  let n ← deref h node
  let prev := n.prev
  let next := n.next
  let h ← setNext h prev next
  let h ← setPrev h next prev
  setPrev h node .marker

/-- The method `LruCache::LruAppend`. -/
def LruAppend (h : NodeHeap P) (node : NodePtr) : Except Fault (NodeHeap P) := do
  let old_real_head := h.head.next
  let h ← setPrev h node .head
  let h ← setNext h node old_real_head
  let h ← setPrev h old_real_head node
  setNext h .head node

/-- The method `LruCache::LruRemove`. -/
def LruRemove (h : NodeHeap P) (node : NodePtr) : Except Fault (NodeHeap P) := do
  let n ← deref h node
  let prev_node := n.prev
  let next_node := n.next
  let h ← setNext h prev_node next_node
  let h ← setPrev h next_node prev_node
  setPrev h node .marker

/-- The two pointers of the node with the number `i`, when it is allocated. -/
def links (h : NodeHeap P) (i : Nat) : Option (NodePtr × NodePtr) :=
  (HashMap.find h.nodes i).map fun n => (n.prev, n.next)

/-- The address of the first of the nodes `ids`; `b` when there is none. -/
def firstPtr : List Nat → NodePtr → NodePtr
  | [], b => b
  | i :: _, _ => .node i

/-- The address of the last of the nodes `ids`; `a` when there is none. -/
def lastPtr : NodePtr → List Nat → NodePtr
  | a, [] => a
  | _, i :: rest => lastPtr (.node i) rest

/-- The nodes `ids` are linked in this order between `a` and `b`: each is
allocated, its `prev` is the node before it (`a` for the first) and its `next`
the node after it (`b` for the last). -/
def Chain (h : NodeHeap P) : NodePtr → List Nat → NodePtr → Prop
  | _, [], _ => True
  | a, i :: rest, b => links h i = some (a, firstPtr rest b) ∧ Chain h (.node i) rest b

/-- The list between the two sentinels is a well-formed doubly linked chain of
the nodes `ids`, first node after the head sentinel first: the `next` of the
head sentinel is the first node, the `prev` of the tail sentinel is the last
node, the nodes are linked to their neighbours in both directions, no node
occurs twice, and the outer pointers of the sentinels are as the constructor
left them. -/
def Linked (h : NodeHeap P) (ids : List Nat) : Prop :=
  h.head.next = firstPtr ids .tail ∧ h.tail.prev = lastPtr .head ids ∧
    Chain h .head ids .tail ∧ ids.Nodup ∧ h.head.prev = .marker ∧ h.tail.next = .null

/-- No node has a number that `new ListNode` has not given out yet. -/
def Fresh (h : NodeHeap P) : Prop :=
  ∀ j, h.allocated ≤ j → HashMap.find h.nodes j = none

/-- The fields `item` of the nodes `ids`, in the order of the nodes. -/
def items (h : NodeHeap P) (ids : List Nat) : List P :=
  ids.filterMap fun i => (HashMap.find h.nodes i).map fun n => n.item

/-- An index `fm` from keys to node pointers and the nodes `ids`, of which `it`
gives the keys, hold the same entries: an index entry points to a node of
`ids` that carries its key, and the key of a node of `ids` has an index entry
that points to this node. -/
def Indexes (fm : Nat → Option NodePtr) (it : Nat → Option Nat) (ids : List Nat) : Prop :=
  (∀ key p, fm key = some p → ∃ i, i ∈ ids ∧ p = .node i ∧ it i = some key) ∧
  (∀ i, i ∈ ids → ∃ key, it i = some key ∧ fm key = some (.node i))

end NodeHeap

/-! ### FIFO shard -/

/-- A `HashMapValue` of a `FifoCache`. -/
structure LinkedFifo.HashMapValue (V : Type) where
  m_value : V
  m_list_node : NodePtr
  deriving DecidableEq, Repr

/-- State of a `FifoCache` with its list nodes: `heap` holds `m_head`, `m_tail`
and the nodes, whose `item` is the field `m_key`. -/
structure LinkedFifo (V : Type) where
  capacity_ : Nat
  usage_ : Nat
  m_map : HashMap (LinkedFifo.HashMapValue V)
  heap : NodeHeap Nat
  deriving DecidableEq, Repr

namespace LinkedFifo

variable {V : Type}

/-- The constructor `FifoCache(capacity)`. The field `m_key` of the sentinels is
not initialised; the model holds 0 there. -/
def new (capacity : Nat) : LinkedFifo V :=
  { capacity_ := capacity, usage_ := 0, m_map := [], heap := NodeHeap.new 0 }

/-- The method `get_size`. -/
def get_size (s : LinkedFifo V) : Nat := s.usage_

/-- The method `is_full`. -/
def is_full (s : LinkedFifo V) : Bool := decide (s.usage_ ≥ s.capacity_)

/-- The method `EvictOne`: unlink `m_tail.m_prev` unless the list is empty,
then erase its key from the hash map and delete it when the key is there. -/
def EvictOne (s : LinkedFifo V) : Except Fault (LinkedFifo V) :=
  let node := s.heap.tail.prev
  if node = .head then .ok s
  else do
    let h ← NodeHeap.ListRemove s.heap node
    let n ← NodeHeap.deref h node
    match HashMap.find s.m_map n.item with
    | none => .ok { s with heap := h }
    | some _ => do
      let h ← NodeHeap.delete h node
      .ok { s with m_map := HashMap.erase s.m_map n.item, heap := h }

/-- The method `Lookup`; `value` is the out parameter. -/
def Lookup (s : LinkedFifo V) (key : Nat) (value : V) : Bool × V × LinkedFifo V :=
  match HashMap.find s.m_map key with
  | none => (false, value, s)
  | some hv => (true, hv.m_value, s)

/-- The method `Insert`. -/
def Insert (s : LinkedFifo V) (key : Nat) (value : V) : Except Fault (Bool × LinkedFifo V) :=
  let node := (NodeHeap.newNode s.heap key).1
  let s1 := { s with heap := (NodeHeap.newNode s.heap key).2 }
  match HashMap.find s1.m_map key with
  | some hv => do
    let h ← NodeHeap.delete s1.heap node
    .ok (false,
      { s1 with m_map := HashMap.update s1.m_map key { hv with m_value := value }, heap := h })
  | none => do
    let s2 := { s1 with m_map := HashMap.add s1.m_map key ⟨value, node⟩ }
    let s0 := s2.usage_
    let done := decide (s0 ≥ s2.capacity_)
    let s3 ← (if done then EvictOne s2 else .ok s2)
    let h ← NodeHeap.ListPushFront s3.heap node
    let s4 := { s3 with heap := h }
    let s5 := if done then s4 else { s4 with usage_ := u64 (s4.usage_ + 1) }
    let s0 := if done then s0 else s5.usage_
    if s0 > s5.capacity_ then
      -- compare_exchange_strong(s, s - 1)
      if s5.usage_ = s0 then do
        let s6 ← EvictOne { s5 with usage_ := s0 - 1 }
        .ok (true, s6)
      else .ok (true, s5)
    else .ok (true, s5)

/-- The method `Erase`. -/
def Erase (s : LinkedFifo V) (key : Nat) : Except Fault (Bool × LinkedFifo V) :=
  match HashMap.find s.m_map key with
  | none => .ok (false, s)
  | some hv => do
    let node := hv.m_list_node
    let h ← NodeHeap.ListRemove s.heap node
    let h ← NodeHeap.delete h node
    .ok (true,
      { s with
        m_map := HashMap.erase s.m_map key
        heap := h
        usage_ := u64 (2 ^ 64 - 1 + s.usage_) })

/-- One call on the shard. -/
def step (s : LinkedFifo V) : Op V → Except Fault (Ret V × LinkedFifo V)
  | .Insert key value =>
    match Insert s key value with
    | .ok r => .ok (⟨r.1, none⟩, r.2)
    | .error e => .error e
  | .Lookup key value =>
    let r := Lookup s key value
    .ok (⟨r.1, some r.2.1⟩, r.2.2)
  | .Erase key =>
    match Erase s key with
    | .ok r => .ok (⟨r.1, none⟩, r.2)
    | .error e => .error e

/-- A sequence of calls, one after the other; the results are listed in call
order. -/
def run (s : LinkedFifo V) : List (Op V) → Except Fault (List (Ret V) × LinkedFifo V)
  | [] => .ok ([], s)
  | op :: ops =>
    match step s op with
    | .error e => .error e
    | .ok (r, s1) =>
      match run s1 ops with
      | .error e => .error e
      | .ok (rs, s2) => .ok (r :: rs, s2)

/-- States a shard of the given capacity can be in between two calls of a
sequential execution. -/
def Reachable (capacity : Nat) (s : LinkedFifo V) : Prop :=
  ∃ ops rs, run (new capacity) ops = .ok (rs, s)

/-- The keys of the nodes `ids`, in the order of the nodes. -/
def keys (s : LinkedFifo V) (ids : List Nat) : List Nat := NodeHeap.items s.heap ids

/-- The hash index and the list of the nodes `ids` hold the same entries: an
index entry points to a node of the list that carries its key, and the key of a
node of the list has an index entry that points to this node. -/
def Indexed (s : LinkedFifo V) (ids : List Nat) : Prop :=
  (∀ key hv, HashMap.find s.m_map key = some hv →
    ∃ i, i ∈ ids ∧ hv.m_list_node = .node i ∧
      (HashMap.find s.heap.nodes i).map (fun n => n.item) = some key) ∧
  (∀ i, i ∈ ids → ∃ key hv, (HashMap.find s.heap.nodes i).map (fun n => n.item) = some key ∧
    HashMap.find s.m_map key = some hv ∧ hv.m_list_node = .node i)

/-- The invariant of a FIFO shard between two calls, with the nodes `ids`
linked between the sentinels. -/
def Inv (s : LinkedFifo V) (ids : List Nat) : Prop :=
  NodeHeap.Linked s.heap ids ∧ NodeHeap.Fresh s.heap ∧ Indexed s ids ∧
    s.usage_ = ids.length ∧ ids.length ≤ s.capacity_

end LinkedFifo

/-! ### LRU shard -/

/-- The fields of a `ListNode` of an `LruCache` other than its two pointers. -/
structure LinkedLru.Item (V : Type) where
  key : Nat
  value : V
  charge : Nat
  deriving DecidableEq, Repr

/-- State of an `LruCache` with its list nodes: `heap` holds `head_`, `tail_`
and the nodes; the hash map holds a pointer to the node of a key. -/
structure LinkedLru (V : Type) where
  capacity_ : Nat
  usage_ : Nat
  hash_map_ : HashMap NodePtr
  heap : NodeHeap (LinkedLru.Item V)
  deriving DecidableEq, Repr

namespace LinkedLru

variable {V : Type}

/-- The constructor `LruCache(capacity)`. `ListNode()` sets `charge` to 0 and
default-constructs `value`; the field `key` of the sentinels is not
initialised, the model holds 0 there. -/
def new [Inhabited V] (capacity : Nat) : LinkedLru V :=
  { capacity_ := capacity, usage_ := 0, hash_map_ := []
    heap := NodeHeap.new { key := 0, value := default, charge := 0 } }

/-- The method `get_size`. -/
def get_size (s : LinkedLru V) : Nat := s.usage_

/-- The method `is_full`. -/
def is_full (s : LinkedLru V) : Bool := decide (s.usage_ ≥ s.capacity_)

/-- The method `EvictOne`: unlink `tail_.prev`, then erase its key from the hash
map and delete it when the key is there. There is no test for an empty
list. -/
def EvictOne (s : LinkedLru V) : Except Fault (LinkedLru V) := do
  let node := s.heap.tail.prev
  let h ← NodeHeap.LruRemove s.heap node
  let n ← NodeHeap.deref h node
  match HashMap.find s.hash_map_ n.item.key with
  | none => .ok { s with heap := h }
  | some _ => do
    let h ← NodeHeap.delete h node
    .ok { s with hash_map_ := HashMap.erase s.hash_map_ n.item.key, heap := h }

/-- The method `Lookup`; `value` is the out parameter and `list_lock` the outcome
of the `try_to_lock` on the list mutex. -/
def Lookup (s : LinkedLru V) (key : Nat) (value : V) (list_lock : Bool) :
    Except Fault (Bool × V × LinkedLru V) :=
  match HashMap.find s.hash_map_ key with
  | none => .ok (false, value, s)
  | some node =>
    if list_lock then do
      let n ← NodeHeap.deref s.heap node
      if n.prev ≠ .marker then do
        let h ← NodeHeap.LruRemove s.heap node
        let h ← NodeHeap.LruAppend h node
        .ok (true, n.item.value, { s with heap := h })
      else .ok (true, n.item.value, s)
    else .ok (true, value, s)

/-- The method `Insert`. -/
def Insert (s : LinkedLru V) (key : Nat) (value : V) : Except Fault (Bool × LinkedLru V) :=
  let node := (NodeHeap.newNode s.heap { key := key, value := value, charge := 1 }).1
  let s1 := { s with heap := (NodeHeap.newNode s.heap { key := key, value := value, charge := 1 }).2 }
  match HashMap.find s1.hash_map_ key with
  | some p => do
    -- accessor->second->value = value
    let n ← NodeHeap.deref s1.heap p
    let h := NodeHeap.put s1.heap p { n with item := { n.item with value := value } }
    let h ← NodeHeap.delete h node
    .ok (false, { s1 with heap := h })
  | none => do
    let s2 := { s1 with hash_map_ := HashMap.add s1.hash_map_ key node }
    let s0 := s2.usage_
    let done := decide (s0 ≥ s2.capacity_)
    let s3 ← (if done then EvictOne s2 else .ok s2)
    let h ← NodeHeap.LruAppend s3.heap node
    let s4 := { s3 with heap := h }
    let s5 := if done then s4 else { s4 with usage_ := u64 (s4.usage_ + 1) }
    let s0 := if done then s0 else s5.usage_
    if s0 > s5.capacity_ then
      -- compare_exchange_strong(s, s - 1)
      if s5.usage_ = s0 then do
        let s6 ← EvictOne { s5 with usage_ := s0 - 1 }
        .ok (true, s6)
      else .ok (true, s5)
    else .ok (true, s5)

/-- The method `Erase`. -/
def Erase (s : LinkedLru V) (key : Nat) : Except Fault (Bool × LinkedLru V) :=
  match HashMap.find s.hash_map_ key with
  | none => .ok (false, s)
  | some node => do
    let h ← NodeHeap.LruRemove s.heap node
    let h ← NodeHeap.delete h node
    .ok (true,
      { s with
        hash_map_ := HashMap.erase s.hash_map_ key
        heap := h
        usage_ := u64 (2 ^ 64 - 1 + s.usage_) })

/-- One call on the shard in a sequential execution: the `try_to_lock` of
`Lookup` succeeds. -/
def step (s : LinkedLru V) : Op V → Except Fault (Ret V × LinkedLru V)
  | .Insert key value =>
    match Insert s key value with
    | .ok r => .ok (⟨r.1, none⟩, r.2)
    | .error e => .error e
  | .Lookup key value =>
    match Lookup s key value true with
    | .ok r => .ok (⟨r.1, some r.2.1⟩, r.2.2)
    | .error e => .error e
  | .Erase key =>
    match Erase s key with
    | .ok r => .ok (⟨r.1, none⟩, r.2)
    | .error e => .error e

/-- A sequence of calls, one after the other; the results are listed in call
order. -/
def run (s : LinkedLru V) : List (Op V) → Except Fault (List (Ret V) × LinkedLru V)
  | [] => .ok ([], s)
  | op :: ops =>
    match step s op with
    | .error e => .error e
    | .ok (r, s1) =>
      match run s1 ops with
      | .error e => .error e
      | .ok (rs, s2) => .ok (r :: rs, s2)

/-- States a shard of the given capacity can be in between two calls of a
sequential execution. -/
def Reachable [Inhabited V] (capacity : Nat) (s : LinkedLru V) : Prop :=
  ∃ ops rs, run (new capacity) ops = .ok (rs, s)

/-- The keys of the nodes `ids`, in the order of the nodes. -/
def keys (s : LinkedLru V) (ids : List Nat) : List Nat :=
  (NodeHeap.items s.heap ids).map fun x => x.key

/-- The hash index and the list of the nodes `ids` hold the same entries: an
index entry points to a node of the list that carries its key, and the key of a
node of the list has an index entry that points to this node. -/
def Indexed (s : LinkedLru V) (ids : List Nat) : Prop :=
  (∀ key p, HashMap.find s.hash_map_ key = some p →
    ∃ i, i ∈ ids ∧ p = .node i ∧
      (HashMap.find s.heap.nodes i).map (fun n => n.item.key) = some key) ∧
  (∀ i, i ∈ ids → ∃ key, (HashMap.find s.heap.nodes i).map (fun n => n.item.key) = some key ∧
    HashMap.find s.hash_map_ key = some (.node i))

/-- The invariant of an LRU shard between two calls, with the nodes `ids`
linked between the sentinels. -/
def Inv (s : LinkedLru V) (ids : List Nat) : Prop :=
  NodeHeap.Linked s.heap ids ∧ NodeHeap.Fresh s.heap ∧ Indexed s ids ∧
    s.usage_ = ids.length ∧ ids.length ≤ s.capacity_

end LinkedLru

/-- A FIFO shard of capacity 2 after `Insert(5, 50)`, `Insert(6, 60)` and
`Insert(7, 70)`: the node 0 of the key 5 was evicted. -/
def LinkedFifo.sample : LinkedFifo Nat :=
  { capacity_ := 2
    usage_ := 2
    m_map := [(7, ⟨70, .node 2⟩), (6, ⟨60, .node 1⟩)]
    heap :=
      { head := { item := 0, prev := .marker, next := .node 2 }
        tail := { item := 0, prev := .node 1, next := .null }
        nodes := [(2, { item := 7, prev := .head, next := .node 1 }),
          (1, { item := 6, prev := .node 2, next := .tail })]
        allocated := 3 } }

/-- An LRU shard of capacity 2 after `Insert(5, 50)`, `Insert(6, 60)`,
`Lookup(5)` and `Insert(7, 70)`: the node 1 of the key 6 was evicted. -/
def LinkedLru.sample : LinkedLru Nat :=
  { capacity_ := 2
    usage_ := 2
    hash_map_ := [(7, .node 2), (5, .node 0)]
    heap :=
      { head := { item := ⟨0, 0, 0⟩, prev := .marker, next := .node 2 }
        tail := { item := ⟨0, 0, 0⟩, prev := .node 0, next := .null }
        nodes := [(2, { item := ⟨7, 70, 1⟩, prev := .head, next := .node 0 }),
          (0, { item := ⟨5, 50, 1⟩, prev := .node 2, next := .tail })]
        allocated := 3 } }

/-! ## Segment shard: a run that wraps the 32-bit counters of an entry

The fields `version` and `refs` of an `Entry` are `std::atomic<uint32_t>`, and
`Lookup` never writes `belong`: once the head segment has changed, every hit
on the entry adds a slot and increments both counters. The run below inserts
the keys `0, ..., S`, which fills the first segment and opens a second one,
and then looks key 0 up again and again. -/

namespace SegmentCache

/-- The calls of the run on a shard with `S` slots per segment: the inserts of
the keys `0, ..., S`, key `k` with the value `k`, and then `N` times
`Lookup(0)`. -/
def hotOps (S N : Nat) : List (Op Nat) :=
  insertOps ((List.range (S + 1)).map fun k => (k, k)) ++ List.replicate N (Op.Lookup 0 0)

/-- The index after the inserts of the keys `0, ..., n - 1`: key `k` is under
the entry `k`. -/
def hotIndex (n : Nat) : HashMap Nat := ((List.range n).map fun k => (k, k)).reverse

/-- The entries after the inserts of the keys `0, ..., n - 1` with `n ≤ S + 1`:
each has the version 1, the two references of index and slot, and points to
the first segment, which was the head when `Insert` read `head_segment`. -/
def hotEntries (n : Nat) : HashMap (Entry Nat) :=
  ((List.range n).map fun k => (k, (⟨k, k, 1, 2, some 0, 1⟩ : Entry Nat))).reverse

/-- The slots that `N` lookups of key 0 append to the log: the lookup number
`i` writes the version `2 + i`, cut to 32 bits. -/
def hotSlots (N : Nat) : List Slot := (List.range N).map fun i => ⟨some 0, u32 (2 + i)⟩

/-- The shard of capacity `C` after the inserts of the keys `0, ..., n - 1`
with `n ≤ S`: all slots are in the first segment. -/
def hotFill (S C n : Nat) : SegmentCache Nat :=
  { capacity_ := C, usage_ := n, hash_map_ := hotIndex n, entries := hotEntries n,
    allocated := n, segment_list_ := ⟨[⟨0, filledSlots S 0 n, n⟩], 0, 1⟩ }

/-- The shard of capacity `C` after the inserts of the keys `0, ..., S`: the
slot of key `S` is the first of a second segment. -/
def hotBase (S C : Nat) : SegmentCache Nat :=
  { capacity_ := C, usage_ := S + 1, hash_map_ := hotIndex (S + 1),
    entries := hotEntries (S + 1), allocated := S + 1,
    segment_list_ := ⟨[⟨1, filledSlots S S 1, 1⟩, ⟨0, filledSlots S 0 S, S + 1⟩], 1, 2⟩ }

/-- State of the shard of capacity `C` after `hotOps S N`. Index, size and the
entries of the keys `1, ..., S` are those of `hotBase`; the entry of key 0 has
the version `1 + N` and `2 + N` references, both cut to 32 bits. The log has
its shape, its tail is still the first segment, its head is a later segment,
it has taken `S + 1 + N` slots, and its slots are those of the inserts and
those of the lookups. -/
def Hot (S C N : Nat) (s : SegmentCache Nat) : Prop :=
  s.capacity_ = C ∧ s.usage_ = S + 1 ∧ s.allocated = S + 1 ∧ s.hash_map_ = hotIndex (S + 1) ∧
    s.entries = HashMap.update (hotEntries (S + 1)) 0
      ⟨0, 0, u32 (1 + N), u32 (2 + N), some 0, 1⟩ ∧
    s.segment_list_.Shape S ∧
    (∃ head mid, s.segment_list_.segments = head :: (mid ++ [⟨0, filledSlots S 0 S, S + 1⟩]) ∧
      head.id + 1 = s.segment_list_.allocated ∧ 1 ≤ head.id ∧
      s.segment_list_.count * S + head.used = S + 1 + N) ∧
    ∀ f : Slot → Bool, (∀ slot, slot.entry = none → f slot = false) →
      (logSlots s.segment_list_.segments).countP f =
        ((List.range (S + 1)).map fun j => (⟨some j, 1⟩ : Slot)).countP f +
          (hotSlots N).countP f

end SegmentCache

namespace SegmentCache

/-- A Segment shard of capacity 5, with one slot per segment, after
`Insert(1, 10)`, `Insert(2, 20)`, `Insert(3, 30)`, `Insert(4, 40)` and
`Insert(5, 50)`: the shard is full and the log has four segments behind the
head. -/
def sampleFull : SegmentCache Nat :=
  { capacity_ := 5, usage_ := 5,
    hash_map_ := [(5, 4), (4, 3), (3, 2), (2, 1), (1, 0)],
    entries := [(4, ⟨5, 50, 1, 2, some 3, 1⟩), (3, ⟨4, 40, 1, 2, some 2, 1⟩),
      (2, ⟨3, 30, 1, 2, some 1, 1⟩), (1, ⟨2, 20, 1, 2, some 0, 1⟩),
      (0, ⟨1, 10, 1, 2, some 0, 1⟩)],
    allocated := 5,
    segment_list_ :=
      ⟨[⟨4, [⟨some 4, 1⟩], 1⟩, ⟨3, [⟨some 3, 1⟩], 2⟩, ⟨2, [⟨some 2, 1⟩], 2⟩,
        ⟨1, [⟨some 1, 1⟩], 2⟩, ⟨0, [⟨some 0, 1⟩], 2⟩], 4, 5⟩ }

end SegmentCache

namespace FrozenHotCache

/-- A shard of capacity 2 that holds the keys 5 and 6, after the start of
`GetCurve` at the time 10 and the calls `Lookup(5)` at the time 20 and
`Lookup(6)` at the time 30, which moved both nodes in front of the marker:
the shard is full, and the marker, the node 2, is the last node of the main
list. -/
def sampleMarkerLast : FrozenHotCache Nat :=
  { (new 2 : FrozenHotCache Nat) with
    m_size := 2
    m_map := [(6, ⟨60, .node 1⟩), (5, ⟨50, .node 0⟩)]
    m_marker := .node 2
    m_head := { m_key := 0, m_prev := .null, m_next := .node 1, m_time := 0 }
    m_tail := { m_key := 0, m_prev := .node 2, m_next := .null, m_time := 0 }
    nodes := [(2, { m_key := 2, m_prev := .node 0, m_next := .tail, m_time := 10 }),
      (1, { m_key := 6, m_prev := .head, m_next := .node 0, m_time := 30 }),
      (0, { m_key := 5, m_prev := .node 1, m_next := .node 2, m_time := 20 })]
    allocated := 3
    curve_flag := true
    movement_counter := 2 }

end FrozenHotCache

/-! ## Facts about the hash map model -/

namespace HashMap

variable {β : Type}

theorem find_nil (k : Nat) : find ([] : HashMap β) k = none := rfl

theorem find_cons (q : Nat) (c : β) (m : HashMap β) (k : Nat) :
    find ((q, c) :: m) k = if q = k then some c else find m k := rfl

theorem find_add (m : HashMap β) (k : Nat) (b : β) (k' : Nat) :
    find (add m k b) k' = if k = k' then some b else find m k' := rfl

theorem update_cons (q : Nat) (c : β) (m : HashMap β) (k : Nat) (b : β) :
    update ((q, c) :: m) k b = (if q = k then (q, b) else (q, c)) :: update m k b := rfl

theorem find_update (m : HashMap β) (k : Nat) (b : β) (k' : Nat) :
    find (update m k b) k' = if k' = k then (find m k').map (fun _ => b) else find m k' := by
  induction m with
  | nil => simp [update, find]
  | cons p m ih =>
    obtain ⟨q, c⟩ := p
    rw [update_cons]
    by_cases hq : q = k
    · rw [if_pos hq, find_cons, find_cons, ih]
      by_cases hk : k' = k
      · simp [hk, hq]
      · have hk2 : ¬ q = k' := fun h => hk (h ▸ hq)
        simp [hk, hk2]
    · rw [if_neg hq, find_cons, find_cons, ih]
      by_cases hk : k' = k
      · have hk2 : ¬ q = k' := fun h => hq (h.trans hk)
        simp [hk2]
      · simp [hk]

theorem find_erase (m : HashMap β) (k k' : Nat) :
    find (erase m k) k' = if k' = k then none else find m k' := by
  induction m with
  | nil => simp [erase, find]
  | cons p m ih =>
    obtain ⟨q, c⟩ := p
    simp only [erase] at ih ⊢
    by_cases hq : q = k
    · subst hq
      rw [List.filter_cons_of_neg (by simp)]
      rw [ih]
      by_cases hk : k' = q
      · simp [hk]
      · have hk2 : ¬ q = k' := fun h => hk h.symm
        simp [find, hk, hk2]
    · rw [List.filter_cons_of_pos (by simpa using hq)]
      simp only [find]
      by_cases hqk : q = k'
      · subst hqk; simp [hq]
      · simp only [hqk, if_false]; exact ih

theorem find_isSome_iff (m : HashMap β) (k : Nat) :
    (find m k).isSome = true ↔ k ∈ m.map Prod.fst := by
  induction m with
  | nil => simp [find]
  | cons p m ih =>
    obtain ⟨q, c⟩ := p
    by_cases hq : q = k
    · simp [find, hq]
    · have hq2 : ¬ k = q := fun h => hq h.symm
      simp [find, hq, hq2, ih]

theorem find_eq_none_iff (m : HashMap β) (k : Nat) :
    find m k = none ↔ k ∉ m.map Prod.fst := by
  rw [← find_isSome_iff]
  cases find m k <;> simp

theorem update_of_find_none (m : HashMap β) (k : Nat) (b : β) (h : find m k = none) :
    update m k b = m := by
  induction m with
  | nil => rfl
  | cons p m ih =>
    obtain ⟨q, c⟩ := p
    by_cases hq : q = k
    · simp [find, hq] at h
    · simp only [find, hq, if_false] at h
      simp only [update, List.map_cons, hq, if_false]
      exact congrArg _ (ih h)

theorem update_update (m : HashMap β) (k : Nat) (b b' : β) :
    update (update m k b) k b' = update m k b' := by
  induction m with
  | nil => rfl
  | cons p m ih =>
    obtain ⟨q, c⟩ := p
    simp only [update, List.map_cons] at ih ⊢
    by_cases hq : q = k <;> simp [hq, ih]

theorem erase_of_find_none (m : HashMap β) (k : Nat) (h : find m k = none) :
    erase m k = m := by
  induction m with
  | nil => rfl
  | cons p m ih =>
    obtain ⟨q, c⟩ := p
    by_cases hq : q = k
    · simp [find, hq] at h
    · simp only [find, hq, if_false] at h
      simp only [erase] at ih ⊢
      rw [List.filter_cons_of_pos (by simpa using hq), ih h]

theorem map_fst_update (m : HashMap β) (k : Nat) (b : β) :
    (update m k b).map Prod.fst = m.map Prod.fst := by
  induction m with
  | nil => rfl
  | cons p m ih =>
    obtain ⟨q, c⟩ := p
    simp only [update, List.map_cons] at ih ⊢
    by_cases hq : q = k <;> simp [hq, ih]

theorem length_update (m : HashMap β) (k : Nat) (b : β) :
    (update m k b).length = m.length := by
  simp [update]

theorem map_fst_erase (m : HashMap β) (k : Nat) (h : (m.map Prod.fst).Nodup) :
    (erase m k).map Prod.fst = (m.map Prod.fst).erase k := by
  rw [List.Nodup.erase_eq_filter h]
  simp only [erase, List.filter_map]
  congr 1
  apply List.filter_congr
  intro p _
  by_cases hp : p.1 = k <;> simp [hp]

theorem find_append (m n : HashMap β) (k : Nat) :
    find (m ++ n) k = match find m k with
      | some b => some b
      | none => find n k := by
  induction m with
  | nil => simp [find]
  | cons p m ih =>
    obtain ⟨q, c⟩ := p
    by_cases hq : q = k
    · simp [find, hq]
    · simp only [List.cons_append, find, hq, if_false]; exact ih

end HashMap

/-! ## The representation relation -/

section RepLemmas

variable {V : Type}

theorem Rep.update {C cap usage : Nat} {map : HashMap V} {list : List Nat}
    {a : List (Nat × V)} (h : Rep C cap usage map list a) (k : Nat) (v : V) :
    Rep C cap usage (HashMap.update map k v) list (HashMap.update a k v) := by
  obtain ⟨h1, h2, h3, h4, h5, h6⟩ := h
  refine ⟨h1, ?_, ?_, ?_, ?_, ?_⟩
  · rw [HashMap.map_fst_update]; exact h2
  · intro k'; rw [HashMap.find_update, HashMap.find_update, h3]
  · rw [HashMap.length_update]; exact h4
  · rw [HashMap.map_fst_update]; exact h5
  · rw [HashMap.length_update]; exact h6

theorem Rep.push_room {C cap usage : Nat} {map : HashMap V} {list : List Nat}
    {a : List (Nat × V)} (h : Rep C cap usage map list a) (k : Nat) (v : V)
    (hk : HashMap.find a k = none) (hlt : a.length < C) :
    Rep C cap (usage + 1) (HashMap.add map k v) (k :: list) ((k, v) :: a) := by
  obtain ⟨h1, h2, h3, h4, h5, h6⟩ := h
  refine ⟨h1, ?_, ?_, ?_, ?_, ?_⟩
  · simp [h2]
  · intro k'; rw [HashMap.find_add, HashMap.find_cons, h3]
  · simp [h4]
  · rw [List.map_cons, List.nodup_cons]
    exact ⟨(HashMap.find_eq_none_iff a k).1 hk, h5⟩
  · simpa using hlt

theorem find_dropLast {a : List (Nat × V)} (hnd : (a.map Prod.fst).Nodup) {last : Nat}
    (hlast : (a.map Prod.fst).getLast? = some last) (k : Nat) :
    HashMap.find a.dropLast k = if k = last then none else HashMap.find a k := by
  rcases List.eq_nil_or_concat a with rfl | ⟨a', p, rfl⟩
  · simp at hlast
  · obtain ⟨q, c⟩ := p
    have hl2 : (List.map Prod.fst (a'.concat (q, c))).getLast? = some q := by
      simp
    rw [hl2] at hlast
    simp only [Option.some.injEq] at hlast
    subst hlast
    simp only [List.concat_eq_append, List.dropLast_concat]
    rw [HashMap.find_append]
    simp only [List.concat_eq_append, List.map_append, List.map_cons, List.map_nil] at hnd
    have hq : q ∉ a'.map Prod.fst := by
      intro hmem
      exact (List.nodup_append.1 hnd).2.2 hmem (by simp)
    by_cases hk : k = q
    · subst hk
      simp [(HashMap.find_eq_none_iff a' k).2 hq]
    · have hk2 : ¬ q = k := fun h => hk h.symm
      cases hf : HashMap.find a' k <;> simp [hk, HashMap.find, hk2]

theorem Rep.push_full {C cap usage : Nat} {map : HashMap V} {list : List Nat}
    {a : List (Nat × V)} (h : Rep C cap usage map list a) (k : Nat) (v : V)
    (hk : HashMap.find a k = none) (hfull : a.length = C) (hC : 1 ≤ C) :
    ∃ last, list.getLast? = some last ∧
      (HashMap.find (HashMap.add map k v) last).isSome = true ∧
      Rep C cap usage (HashMap.erase (HashMap.add map k v) last) (k :: list.dropLast)
        ((k, v) :: a.dropLast) := by
  obtain ⟨h1, h2, h3, h4, h5, h6⟩ := h
  have hne : a ≠ [] := by
    intro h0; rw [h0] at hfull; simp at hfull; omega
  have hne2 : a.map Prod.fst ≠ [] := by simpa using hne
  refine ⟨(a.map Prod.fst).getLast hne2, ?_, ?_, ?_⟩
  · rw [h2]; exact List.getLast?_eq_getLast _ hne2
  have hlast : (a.map Prod.fst).getLast? = some ((a.map Prod.fst).getLast hne2) :=
    List.getLast?_eq_getLast _ hne2
  have hmem : (a.map Prod.fst).getLast hne2 ∈ a.map Prod.fst := List.getLast_mem hne2
  have hknot : k ∉ a.map Prod.fst := (HashMap.find_eq_none_iff a k).1 hk
  have hkl : k ≠ (a.map Prod.fst).getLast hne2 := fun e => hknot (e ▸ hmem)
  · rw [HashMap.find_add, if_neg hkl, h3]
    exact (HashMap.find_isSome_iff a _).2 hmem
  have hlast : (a.map Prod.fst).getLast? = some ((a.map Prod.fst).getLast hne2) :=
    List.getLast?_eq_getLast _ hne2
  have hmem : (a.map Prod.fst).getLast hne2 ∈ a.map Prod.fst := List.getLast_mem hne2
  have hknot : k ∉ a.map Prod.fst := (HashMap.find_eq_none_iff a k).1 hk
  have hkl : k ≠ (a.map Prod.fst).getLast hne2 := fun e => hknot (e ▸ hmem)
  refine ⟨h1, ?_, ?_, ?_, ?_, ?_⟩
  · simp [h2, List.map_dropLast]
  · intro k'
    rw [HashMap.find_erase, HashMap.find_add, HashMap.find_cons, find_dropLast h5 hlast, h3]
    by_cases e1 : k = k'
    · subst e1; rw [if_neg hkl, if_pos rfl, if_pos rfl]
    · rw [if_neg e1, if_neg e1]
  · rw [h4]; simp; have := List.length_pos.2 hne; omega
  · rw [List.map_cons, List.nodup_cons]
    refine ⟨?_, ?_⟩
    · intro hm
      rw [List.map_dropLast] at hm
      exact hknot (List.dropLast_subset _ hm)
    · rw [List.map_dropLast]
      exact List.Sublist.nodup (List.dropLast_sublist _) h5
  · simp; have := List.length_pos.2 hne; omega

theorem Rep.mem_list {C cap usage : Nat} {map : HashMap V} {list : List Nat}
    {a : List (Nat × V)} (h : Rep C cap usage map list a) (k : Nat) :
    k ∈ list ↔ (HashMap.find map k).isSome = true := by
  obtain ⟨h1, h2, h3, h4, h5, h6⟩ := h
  rw [h3, HashMap.find_isSome_iff, h2]

theorem Rep.erase {C cap usage : Nat} {map : HashMap V} {list : List Nat}
    {a : List (Nat × V)} (h : Rep C cap usage map list a) (k : Nat)
    (hk : (HashMap.find a k).isSome = true) :
    Rep C cap (usage - 1) (HashMap.erase map k) (list.erase k) (HashMap.erase a k) := by
  obtain ⟨h1, h2, h3, h4, h5, h6⟩ := h
  have hmem : k ∈ a.map Prod.fst := (HashMap.find_isSome_iff a k).1 hk
  have hlen : (HashMap.erase a k).length = a.length - 1 := by
    have := congrArg List.length (HashMap.map_fst_erase a k h5)
    rw [List.length_map, List.length_erase_of_mem hmem, List.length_map] at this
    exact this
  refine ⟨h1, ?_, ?_, ?_, ?_, ?_⟩
  · rw [HashMap.map_fst_erase a k h5, h2]
  · intro k'; rw [HashMap.find_erase, HashMap.find_erase, h3]
  · rw [hlen, h4]
  · rw [HashMap.map_fst_erase a k h5]; exact h5.erase k
  · rw [hlen]; omega

theorem Rep.touch {C cap usage : Nat} {map : HashMap V} {list : List Nat}
    {a : List (Nat × V)} (h : Rep C cap usage map list a) (k : Nat) (v : V)
    (hk : HashMap.find a k = some v) :
    Rep C cap usage map (k :: list.erase k) ((k, v) :: HashMap.erase a k) := by
  have hk2 : (HashMap.find a k).isSome = true := by rw [hk]; rfl
  have he := h.erase k hk2
  obtain ⟨h1, h2, h3, h4, h5, h6⟩ := h
  obtain ⟨e1, e2, e3, e4, e5, e6⟩ := he
  have hmem : k ∈ a.map Prod.fst := (HashMap.find_isSome_iff a k).1 hk2
  have hpos : 0 < a.length := by
    have := List.length_pos_of_mem hmem; simpa using this
  refine ⟨h1, ?_, ?_, ?_, ?_, ?_⟩
  · simp [e2]
  · intro k'
    rw [HashMap.find_cons, HashMap.find_erase, h3]
    by_cases e : k = k'
    · subst e; simp [hk]
    · have e' : ¬ k' = k := fun h => e h.symm
      simp [e, e']
  · rw [List.length_cons, ← e4, h4]; omega
  · rw [List.map_cons, List.nodup_cons]
    refine ⟨?_, e5⟩
    rw [HashMap.map_fst_erase a k h5]
    exact fun hm => (List.Nodup.mem_erase_iff h5).1 hm |>.1 rfl
  · rw [List.length_cons, ← e4, h4]; omega

end RepLemmas

/-! ## Counters -/

theorem u64_of_lt {n : Nat} (h : n < 2 ^ 64) : u64 n = n := Nat.mod_eq_of_lt h

theorem u64_pred {n : Nat} (h1 : 1 ≤ n) (h : n < 2 ^ 64) : u64 (2 ^ 64 - 1 + n) = n - 1 := by
  unfold u64
  omega

/-! ## The FIFO shard represents a bounded list -/

namespace FifoCache

variable {V : Type}

theorem fifo_EvictOne_of_last (s : FifoCache V) (last : Nat)
    (hl : s.m_list.getLast? = some last)
    (hf : (HashMap.find s.m_map last).isSome = true) :
    EvictOne s =
      { s with m_list := s.m_list.dropLast, m_map := HashMap.erase s.m_map last } := by
  unfold EvictOne
  rw [hl]
  cases hfind : HashMap.find s.m_map last with
  | none => rw [hfind] at hf; simp at hf
  | some b => simp [hfind]

theorem fifo_Insert_sim {C : Nat} (hC : 1 ≤ C) (h64 : C < 2 ^ 64) {s : FifoCache V}
    {a : List (Nat × V)} (h : Rep C s.capacity_ s.usage_ s.m_map s.m_list a)
    (k : Nat) (v : V) :
    (Insert s k v).1 = (RecencyList.Insert C a k v).1 ∧
      Rep C (Insert s k v).2.capacity_ (Insert s k v).2.usage_ (Insert s k v).2.m_map
        (Insert s k v).2.m_list (RecencyList.Insert C a k v).2 := by
  have h3 := h.2.2.1 k
  unfold Insert RecencyList.Insert
  rw [h3]
  cases hfind : HashMap.find a k with
  | some b => exact ⟨rfl, h.update k v⟩
  | none =>
    have hcap : s.capacity_ = C := h.1
    have hus : s.usage_ = a.length := h.2.2.2.1
    have hle : a.length ≤ C := h.2.2.2.2.2
    by_cases hfull : a.length = C
    · obtain ⟨last, hl, hf, hrep⟩ := h.push_full k v hfind hfull hC
      have hev := fifo_EvictOne_of_last { s with m_map := HashMap.add s.m_map k v } last hl hf
      have hdone : s.usage_ ≥ s.capacity_ := by omega
      have hnot : ¬ s.usage_ > s.capacity_ := by omega
      simp only [hdone, decide_True, if_true, hev, ListPushFront, hnot, if_false, hfull]
      exact ⟨trivial, hrep⟩
    · have hlt : a.length < C := by omega
      have hrep := h.push_room k v hfind hlt
      have hdone : ¬ s.usage_ ≥ s.capacity_ := by omega
      have hu : u64 (s.usage_ + 1) = s.usage_ + 1 := u64_of_lt (by omega)
      have hnot : ¬ s.usage_ + 1 > s.capacity_ := by omega
      simp only [hdone, decide_False, if_false, ListPushFront, hu, hnot, hfull,
        Bool.false_eq_true]
      exact ⟨trivial, hrep⟩

theorem fifo_Erase_sim {C : Nat} (h64 : C < 2 ^ 64) {s : FifoCache V}
    {a : List (Nat × V)} (h : Rep C s.capacity_ s.usage_ s.m_map s.m_list a) (k : Nat) :
    ∃ s', Erase s k = .ok ((RecencyList.Erase a k).1, s') ∧
      Rep C s'.capacity_ s'.usage_ s'.m_map s'.m_list (RecencyList.Erase a k).2 := by
  have h3 := h.2.2.1 k
  unfold Erase RecencyList.Erase
  rw [h3]
  cases hfind : HashMap.find a k with
  | none => exact ⟨s, rfl, h⟩
  | some b =>
    have hsome : (HashMap.find a k).isSome = true := by rw [hfind]; rfl
    have hmem : k ∈ s.m_list := (h.mem_list k).2 (by rw [h3]; exact hsome)
    have hrep := h.erase k hsome
    have hus : s.usage_ = a.length := h.2.2.2.1
    have hle : a.length ≤ C := h.2.2.2.2.2
    have hpos : 1 ≤ a.length := by
      have := (HashMap.find_isSome_iff a k).1 hsome
      have := List.length_pos_of_mem this
      simpa using this
    have hu : u64 (2 ^ 64 - 1 + s.usage_) = s.usage_ - 1 := u64_pred (by omega) (by omega)
    simp only [hmem, if_true, ListRemove, hu]
    exact ⟨_, rfl, hrep⟩

end FifoCache

theorem FifoCache.step_rep {V : Type} {C : Nat} (hC : 1 ≤ C) (h64 : C < 2 ^ 64)
    {s : FifoCache V} {a : List (Nat × V)}
    (h : Rep C s.capacity_ s.usage_ s.m_map s.m_list a) (op : Op V) :
    ∃ r s' a', FifoCache.step s op = .ok (r, s') ∧
      Rep C s'.capacity_ s'.usage_ s'.m_map s'.m_list a' := by
  cases op with
  | Insert k v => exact ⟨_, _, _, rfl, (FifoCache.fifo_Insert_sim hC h64 h k v).2⟩
  | Lookup k v =>
    refine ⟨_, _, a, rfl, ?_⟩
    unfold FifoCache.Lookup
    cases HashMap.find s.m_map k <;> exact h
  | Erase k =>
    obtain ⟨s', he, hr⟩ := FifoCache.fifo_Erase_sim h64 h k
    refine ⟨⟨(RecencyList.Erase a k).1, none⟩, s', _, ?_, hr⟩
    simp only [FifoCache.step, he]

theorem FifoCache.run_rep {V : Type} {C : Nat} (hC : 1 ≤ C) (h64 : C < 2 ^ 64)
    (ops : List (Op V)) : ∀ {s : FifoCache V} {a : List (Nat × V)},
    Rep C s.capacity_ s.usage_ s.m_map s.m_list a →
    ∃ rs s' a', FifoCache.run s ops = .ok (rs, s') ∧
      Rep C s'.capacity_ s'.usage_ s'.m_map s'.m_list a' := by
  induction ops with
  | nil => intro s a h; exact ⟨[], s, a, rfl, h⟩
  | cons op ops ih =>
    intro s a h
    obtain ⟨r, s1, a1, hs, h1⟩ := FifoCache.step_rep hC h64 h op
    obtain ⟨rs, s2, a2, hr, h2⟩ := ih h1
    exact ⟨r :: rs, s2, a2, by simp only [FifoCache.run, hs, hr], h2⟩

theorem Rep.empty {V : Type} (C : Nat) : Rep C C 0 ([] : HashMap V) [] [] :=
  ⟨rfl, rfl, fun _ => rfl, rfl, List.nodup_nil, Nat.zero_le _⟩

theorem FifoCache.Reachable.fifo_rep {V : Type} {C : Nat} (hC : 1 ≤ C) (h64 : C < 2 ^ 64)
    {s : FifoCache V} (h : FifoCache.Reachable C s) :
    ∃ a, Rep C s.capacity_ s.usage_ s.m_map s.m_list a := by
  obtain ⟨ops, rs, hrun⟩ := h
  obtain ⟨rs', s', a', hr, hrep⟩ :=
    FifoCache.run_rep hC h64 ops (s := FifoCache.new C) (Rep.empty C)
  rw [hrun] at hr
  cases hr
  exact ⟨a', hrep⟩

theorem FifoCache.fifo_run_insertOps {V : Type} {C : Nat} (hC : 1 ≤ C) (h64 : C < 2 ^ 64)
    (kvs : List (Nat × V)) : ∀ {s : FifoCache V} {a : List (Nat × V)},
    Rep C s.capacity_ s.usage_ s.m_map s.m_list a →
    ∃ s', FifoCache.run s (insertOps kvs) =
        .ok ((RecencyList.run C a (insertOps kvs)).1, s') ∧
      Rep C s'.capacity_ s'.usage_ s'.m_map s'.m_list
        (RecencyList.run C a (insertOps kvs)).2 := by
  induction kvs with
  | nil => intro s a h; exact ⟨s, rfl, h⟩
  | cons p kvs ih =>
    intro s a h
    obtain ⟨hb, h1⟩ := FifoCache.fifo_Insert_sim hC h64 h p.1 p.2
    obtain ⟨s2, hr, h2⟩ := ih h1
    refine ⟨s2, ?_, ?_⟩
    · simp only [insertOps, List.map_cons, FifoCache.run, FifoCache.step, RecencyList.run,
        RecencyList.step] at hr ⊢
      rw [hr, hb]
    · simpa only [insertOps, List.map_cons, RecencyList.run, RecencyList.step] using h2

/-! ## The LRU shard represents a bounded recency list -/

namespace LruCache

variable {V : Type}

theorem lru_EvictOne_of_last (s : LruCache V) (last : Nat)
    (hl : s.list_.getLast? = some last)
    (hf : (HashMap.find s.hash_map_ last).isSome = true) :
    EvictOne s =
      .ok { s with list_ := s.list_.dropLast, hash_map_ := HashMap.erase s.hash_map_ last } := by
  unfold EvictOne
  rw [hl]
  cases hfind : HashMap.find s.hash_map_ last with
  | none => rw [hfind] at hf; simp at hf
  | some b => simp [hfind]

theorem lru_Insert_sim {C : Nat} (hC : 1 ≤ C) (h64 : C < 2 ^ 64) {s : LruCache V}
    {a : List (Nat × V)} (h : Rep C s.capacity_ s.usage_ s.hash_map_ s.list_ a)
    (k : Nat) (v : V) :
    ∃ s', Insert s k v = .ok ((RecencyList.Insert C a k v).1, s') ∧
      Rep C s'.capacity_ s'.usage_ s'.hash_map_ s'.list_ (RecencyList.Insert C a k v).2 := by
  have h3 := h.2.2.1 k
  unfold Insert RecencyList.Insert
  rw [h3]
  cases hfind : HashMap.find a k with
  | some b => exact ⟨_, rfl, h.update k v⟩
  | none =>
    have hcap : s.capacity_ = C := h.1
    have hus : s.usage_ = a.length := h.2.2.2.1
    have hle : a.length ≤ C := h.2.2.2.2.2
    by_cases hfull : a.length = C
    · obtain ⟨last, hl, hf, hrep⟩ := h.push_full k v hfind hfull hC
      have hev := lru_EvictOne_of_last { s with hash_map_ := HashMap.add s.hash_map_ k v } last hl hf
      have hdone : s.usage_ ≥ s.capacity_ := by omega
      have hnot : ¬ s.usage_ > s.capacity_ := by omega
      simp only [hdone, decide_True, if_true, hev, LruAppend, hnot, if_false, hfull]
      exact ⟨_, rfl, hrep⟩
    · have hlt : a.length < C := by omega
      have hrep := h.push_room k v hfind hlt
      have hdone : ¬ s.usage_ ≥ s.capacity_ := by omega
      have hu : u64 (s.usage_ + 1) = s.usage_ + 1 := u64_of_lt (by omega)
      have hnot : ¬ s.usage_ + 1 > s.capacity_ := by omega
      simp only [hdone, decide_False, if_false, LruAppend, hu, hnot, hfull,
        Bool.false_eq_true]
      exact ⟨_, rfl, hrep⟩

theorem lru_Erase_sim {C : Nat} (h64 : C < 2 ^ 64) {s : LruCache V}
    {a : List (Nat × V)} (h : Rep C s.capacity_ s.usage_ s.hash_map_ s.list_ a) (k : Nat) :
    ∃ s', Erase s k = .ok ((RecencyList.Erase a k).1, s') ∧
      Rep C s'.capacity_ s'.usage_ s'.hash_map_ s'.list_ (RecencyList.Erase a k).2 := by
  have h3 := h.2.2.1 k
  unfold Erase RecencyList.Erase
  rw [h3]
  cases hfind : HashMap.find a k with
  | none => exact ⟨s, rfl, h⟩
  | some b =>
    have hsome : (HashMap.find a k).isSome = true := by rw [hfind]; rfl
    have hmem : k ∈ s.list_ := (h.mem_list k).2 (by rw [h3]; exact hsome)
    have hrep := h.erase k hsome
    have hus : s.usage_ = a.length := h.2.2.2.1
    have hle : a.length ≤ C := h.2.2.2.2.2
    have hpos : 1 ≤ a.length := by
      have := (HashMap.find_isSome_iff a k).1 hsome
      have := List.length_pos_of_mem this
      simpa using this
    have hu : u64 (2 ^ 64 - 1 + s.usage_) = s.usage_ - 1 := u64_pred (by omega) (by omega)
    simp only [hmem, if_true, LruRemove, hu]
    exact ⟨_, rfl, hrep⟩

theorem Lookup_sim {C : Nat} {s : LruCache V}
    {a : List (Nat × V)} (h : Rep C s.capacity_ s.usage_ s.hash_map_ s.list_ a)
    (k : Nat) (value : V) :
    (Lookup s k value true).1 = (RecencyList.Lookup a k value).1 ∧
    (Lookup s k value true).2.1 = (RecencyList.Lookup a k value).2.1 ∧
      Rep C (Lookup s k value true).2.2.capacity_ (Lookup s k value true).2.2.usage_
        (Lookup s k value true).2.2.hash_map_ (Lookup s k value true).2.2.list_
        (RecencyList.Lookup a k value).2.2 := by
  have h3 := h.2.2.1 k
  unfold Lookup RecencyList.Lookup
  rw [h3]
  cases hfind : HashMap.find a k with
  | none => exact ⟨rfl, rfl, h⟩
  | some b =>
    have hsome : (HashMap.find a k).isSome = true := by rw [hfind]; rfl
    have hmem : k ∈ s.list_ := (h.mem_list k).2 (by rw [h3]; exact hsome)
    simp only [if_true, hmem, LruAppend, LruRemove]
    exact ⟨trivial, trivial, h.touch k b hfind⟩

theorem step_sim {C : Nat} (hC : 1 ≤ C) (h64 : C < 2 ^ 64)
    {s : LruCache V} {a : List (Nat × V)}
    (h : Rep C s.capacity_ s.usage_ s.hash_map_ s.list_ a) (op : Op V) :
    ∃ s', step s op = .ok ((RecencyList.step C a op).1, s') ∧
      Rep C s'.capacity_ s'.usage_ s'.hash_map_ s'.list_ (RecencyList.step C a op).2 := by
  cases op with
  | Insert k v =>
    obtain ⟨s', he, hr⟩ := lru_Insert_sim hC h64 h k v
    exact ⟨s', by simp only [step, he, RecencyList.step], hr⟩
  | Lookup k v =>
    obtain ⟨h1, h2, hr⟩ := Lookup_sim h k v
    refine ⟨_, ?_, hr⟩
    simp only [step, RecencyList.step, h1, h2]
  | Erase k =>
    obtain ⟨s', he, hr⟩ := lru_Erase_sim h64 h k
    exact ⟨s', by simp only [step, he, RecencyList.step], hr⟩

theorem run_sim {C : Nat} (hC : 1 ≤ C) (h64 : C < 2 ^ 64)
    (ops : List (Op V)) : ∀ {s : LruCache V} {a : List (Nat × V)},
    Rep C s.capacity_ s.usage_ s.hash_map_ s.list_ a →
    ∃ s', run s ops = .ok ((RecencyList.run C a ops).1, s') ∧
      Rep C s'.capacity_ s'.usage_ s'.hash_map_ s'.list_ (RecencyList.run C a ops).2 := by
  induction ops with
  | nil => intro s a h; exact ⟨s, rfl, h⟩
  | cons op ops ih =>
    intro s a h
    obtain ⟨s1, hs, h1⟩ := step_sim hC h64 h op
    obtain ⟨s2, hr, h2⟩ := ih h1
    exact ⟨s2, by simp only [run, hs, hr, RecencyList.run], h2⟩

theorem Reachable.lru_rep {C : Nat} (hC : 1 ≤ C) (h64 : C < 2 ^ 64)
    {s : LruCache V} (h : Reachable C s) :
    ∃ a, Rep C s.capacity_ s.usage_ s.hash_map_ s.list_ a := by
  obtain ⟨ops, rs, hrun⟩ := h
  obtain ⟨s', hr, hrep⟩ := run_sim hC h64 ops (s := LruCache.new C) (Rep.empty C)
  rw [hrun] at hr
  cases hr
  exact ⟨_, hrep⟩

end LruCache

/-! ## Facts about the reference list -/

namespace RecencyList

variable {V : Type}

theorem find_Insert_self (C : Nat) (a : List (Nat × V)) (k : Nat) (v : V) :
    HashMap.find (Insert C a k v).2 k = some v := by
  unfold Insert
  cases hfind : HashMap.find a k with
  | none => simp [HashMap.find_cons]
  | some b => simp [HashMap.find_update, hfind]

theorem take_append_take (X Y : List (Nat × V)) (n : Nat) :
    (X ++ Y.take n).take n = (X ++ Y).take n := by
  rw [List.take_append_eq_append_take, List.take_append_eq_append_take, List.take_take]
  congr 2
  omega

theorem Insert_new {C : Nat} (hC : 1 ≤ C) {a : List (Nat × V)} (hlen : a.length ≤ C)
    {k : Nat} (v : V) (hk : HashMap.find a k = none) :
    Insert C a k v = (true, ((k, v) :: a).take C) := by
  unfold Insert
  rw [hk]
  obtain ⟨c, rfl⟩ : ∃ c, C = c + 1 := ⟨C - 1, by omega⟩
  simp only [List.take_succ_cons]
  by_cases hfull : a.length = c + 1
  · rw [if_pos hfull, List.dropLast_eq_take, hfull]; rfl
  · rw [if_neg hfull, List.take_of_length_le (by omega)]

theorem find_take_none {a : List (Nat × V)} {k : Nat} (h : HashMap.find a k = none)
    (n : Nat) : HashMap.find (a.take n) k = none := by
  rw [HashMap.find_eq_none_iff] at h ⊢
  intro hm
  exact h (List.map_subset _ (List.take_subset n a) hm)

theorem run_insertOps_distinct {C : Nat} (hC : 1 ≤ C) (kvs : List (Nat × V)) :
    ∀ (a : List (Nat × V)), a.length ≤ C → (kvs.map Prod.fst).Nodup →
      (∀ k ∈ kvs.map Prod.fst, HashMap.find a k = none) →
      run C a (insertOps kvs) =
        (kvs.map (fun _ => (⟨true, none⟩ : Ret V)), (kvs.reverse ++ a).take C) := by
  induction kvs with
  | nil =>
    intro a hlen _ _
    simp [insertOps, run, List.take_of_length_le hlen]
  | cons p t ih =>
    intro a hlen hnd hdisj
    rw [List.map_cons, List.nodup_cons] at hnd
    have hp : HashMap.find a p.1 = none := hdisj p.1 (by simp)
    have hins := Insert_new hC hlen p.2 hp
    have hlen1 : (((p.1, p.2) :: a).take C).length ≤ C := by
      rw [List.length_take]; exact Nat.min_le_left _ _
    have hdisj1 : ∀ k ∈ t.map Prod.fst, HashMap.find (((p.1, p.2) :: a).take C) k = none := by
      intro k hk
      apply find_take_none
      rw [HashMap.find_cons]
      have hne : ¬ p.1 = k := fun e => hnd.1 (e ▸ hk)
      rw [if_neg hne]
      exact hdisj k (by simp only [List.map_cons, List.mem_cons]; exact Or.inr hk)
    have := ih _ hlen1 hnd.2 hdisj1
    simp only [insertOps, List.map_cons, run, step, hins] at this ⊢
    rw [this]
    simp only [List.reverse_cons, List.append_assoc, List.singleton_append]
    rw [take_append_take]

theorem find_map_graph (l : List Nat) (f : Nat → V) (k : Nat) :
    HashMap.find (l.map fun k => (k, f k)) k = if k ∈ l then some (f k) else none := by
  induction l with
  | nil => rfl
  | cons q l ih =>
    rw [List.map_cons, HashMap.find_cons, ih]
    by_cases hq : q = k
    · subst hq; simp
    · have hq2 : ¬ k = q := fun h => hq h.symm
      simp [hq, hq2]

/-- Distinct keys inserted into the empty list: the last `C` of them remain. -/
theorem find_after_distinct {C : Nat} (hC : 1 ≤ C) (ks : List Nat) (hnd : ks.Nodup)
    (f : Nat → V) (k : Nat) :
    HashMap.find (run C [] (insertOps (ks.map fun k => (k, f k)))).2 k =
      if k ∈ ks.drop (ks.length - C) then some (f k) else none := by
  have hnd' : ((ks.map fun k => (k, f k)).map Prod.fst).Nodup := by
    simpa [List.map_map, Function.comp_def] using hnd
  rw [run_insertOps_distinct hC _ [] (Nat.zero_le _) hnd' (fun _ _ => rfl)]
  simp only [List.append_nil, ← List.map_reverse, ← List.map_take]
  rw [find_map_graph, List.take_reverse]
  simp only [List.mem_reverse]

end RecencyList

/-! ## The sample states are reachable -/

theorem FifoCache.fifo_sample_reachable : FifoCache.Reachable 2 FifoCache.sample :=
  ⟨[.Insert 1 10, .Insert 2 20], [⟨true, none⟩, ⟨true, none⟩], by decide⟩

theorem LruCache.lru_sample_reachable : LruCache.Reachable 2 LruCache.sample :=
  ⟨[.Insert 1 10, .Insert 2 20], [⟨true, none⟩, ⟨true, none⟩], by decide⟩

theorem SegmentCache.segment_sample_reachable :
    SegmentCache.Reachable 2 2 2 1 SegmentCache.sample :=
  ⟨[.Insert 1 10], [⟨true, none⟩], rfl, by decide⟩

theorem mem_drop_range (n m k : Nat) : k ∈ (List.range n).drop m ↔ m ≤ k ∧ k < n := by
  by_cases hmn : m ≤ n
  · obtain ⟨d, rfl⟩ : ∃ d, n = m + d := ⟨n - m, by omega⟩
    rw [List.range_add, List.drop_left' (List.length_range m)]
    simp only [List.mem_map, List.mem_range]
    constructor
    · rintro ⟨i, hi, rfl⟩; omega
    · rintro ⟨h1, h2⟩; exact ⟨k - m, by omega, by omega⟩
  · rw [List.drop_of_length_le (by rw [List.length_range]; omega)]
    simp only [List.not_mem_nil, false_iff]
    omega

/-! ## Lookup after insert -/

theorem FifoCache.fifo_Lookup_of_find {V : Type} (s : FifoCache V) (k : Nat) (value : V) :
    FifoCache.Lookup s k value =
      match HashMap.find s.m_map k with
      | none => (false, value, s)
      | some v => (true, v, s) := rfl

/-- C1. For a FIFO shard and an LRU shard of capacity `C ≥ 1` in any state a
sequential execution can reach: right after `Insert(k, v)`, whether `k` was
new or resident, `Lookup(k)` returns true and writes exactly `v` to the out
parameter. -/
theorem insert_then_lookup {V : Type} (C : Nat) (hC : 1 ≤ C) (h64 : C < 2 ^ 64)
    (k : Nat) (v value : V)
    (sf : FifoCache V) (hf : FifoCache.Reachable C sf)
    (sl : LruCache V) (hl : LruCache.Reachable C sl) :
    FifoCache.Lookup (FifoCache.Insert sf k v).2 k value
        = (true, v, (FifoCache.Insert sf k v).2) ∧
      ∃ b sl', LruCache.Insert sl k v = .ok (b, sl') ∧
        (LruCache.Lookup sl' k value true).1 = true ∧
        (LruCache.Lookup sl' k value true).2.1 = v := by
  constructor
  · obtain ⟨a, ha⟩ := hf.fifo_rep hC h64
    have hsim := (FifoCache.fifo_Insert_sim hC h64 ha k v).2
    have hfind := hsim.2.2.1 k
    rw [RecencyList.find_Insert_self] at hfind
    rw [FifoCache.fifo_Lookup_of_find, hfind]
  · obtain ⟨a, ha⟩ := hl.lru_rep hC h64
    obtain ⟨sl', he, hsim⟩ := LruCache.lru_Insert_sim hC h64 ha k v
    have hfind := hsim.2.2.1 k
    rw [RecencyList.find_Insert_self] at hfind
    refine ⟨_, sl', he, ?_, ?_⟩
    · unfold LruCache.Lookup; rw [hfind]; simp only [if_true]; split <;> rfl
    · unfold LruCache.Lookup; rw [hfind]; simp only [if_true]; split <;> rfl

theorem insert_then_lookup_witness :
    1 ≤ 2 ∧ 2 < 2 ^ 64 ∧ FifoCache.Reachable 2 FifoCache.sample ∧
    LruCache.Reachable 2 LruCache.sample ∧
    FifoCache.Lookup (FifoCache.Insert FifoCache.sample 3 30).2 3 0
        = (true, 30, (FifoCache.Insert FifoCache.sample 3 30).2) ∧
      ∃ b sl', LruCache.Insert LruCache.sample 3 30 = .ok (b, sl') ∧
        (LruCache.Lookup sl' 3 0 true).1 = true ∧
        (LruCache.Lookup sl' 3 0 true).2.1 = 30 :=
  ⟨by decide, by decide, FifoCache.fifo_sample_reachable, LruCache.lru_sample_reachable,
    insert_then_lookup 2 (by decide) (by decide) 3 30 0 _ FifoCache.fifo_sample_reachable _
      LruCache.lru_sample_reachable⟩

/-! ## FIFO eviction order -/

theorem FifoCache.fifo_lookup_after_distinct {V : Type} {C : Nat} (hC : 1 ≤ C) (h64 : C < 2 ^ 64)
    (ks : List Nat) (hnd : ks.Nodup) (f : Nat → V) (value : V) :
    ∃ rs s, FifoCache.run (FifoCache.new C) (insertOps (ks.map fun k => (k, f k)))
        = .ok (rs, s) ∧
      ∀ k, FifoCache.Lookup s k value =
        if k ∈ ks.drop (ks.length - C) then (true, f k, s) else (false, value, s) := by
  obtain ⟨s, hrun, hrep⟩ :=
    FifoCache.fifo_run_insertOps hC h64 (ks.map fun k => (k, f k)) (s := FifoCache.new C) (Rep.empty C)
  refine ⟨_, s, hrun, ?_⟩
  intro k
  have hfind := hrep.2.2.1 k
  rw [RecencyList.find_after_distinct hC ks hnd f k] at hfind
  rw [FifoCache.fifo_Lookup_of_find, hfind]
  by_cases hm : k ∈ ks.drop (ks.length - C) <;> simp only [hm, if_true, if_false]

/-- C2. For every capacity `C`, after the distinct keys `0, 1, ..., 2C-1` are
inserted in that order into an empty FIFO shard, `Lookup` misses every key in
`0..C-1` and hits every key in `C..2C-1` with the value inserted for it; and
at capacity 3 the inserts 1, 2, 3, 4 give a miss on 1 and hits on 2, 3, 4. -/
theorem fifo_eviction_order {V : Type} (C : Nat) (h64 : C < 2 ^ 64) (f : Nat → V) (value : V) :
    (∃ rs s, FifoCache.run (FifoCache.new C)
          (insertOps ((List.range (2 * C)).map fun k => (k, f k))) = .ok (rs, s) ∧
        (∀ k, k < C → FifoCache.Lookup s k value = (false, value, s)) ∧
        (∀ k, C ≤ k → k < 2 * C → FifoCache.Lookup s k value = (true, f k, s))) ∧
      ∀ a b c d : V, ∃ rs s, FifoCache.run (FifoCache.new 3)
          [.Insert 1 a, .Insert 2 b, .Insert 3 c, .Insert 4 d] = .ok (rs, s) ∧
        FifoCache.Lookup s 1 value = (false, value, s) ∧
        FifoCache.Lookup s 2 value = (true, b, s) ∧
        FifoCache.Lookup s 3 value = (true, c, s) ∧
        FifoCache.Lookup s 4 value = (true, d, s) := by
  constructor
  · rcases Nat.eq_zero_or_pos C with rfl | hC
    · exact ⟨[], FifoCache.new 0, rfl, fun k hk => absurd hk (Nat.not_lt_zero k),
        fun k h1 h2 => absurd h2 (by omega)⟩
    · obtain ⟨rs, s, hrun, hlook⟩ :=
        FifoCache.fifo_lookup_after_distinct hC h64 (List.range (2 * C)) (List.nodup_range _) f value
      refine ⟨rs, s, hrun, ?_, ?_⟩
      · intro k hk
        rw [hlook k, if_neg]
        rw [List.length_range, mem_drop_range]
        omega
      · intro k h1 h2
        rw [hlook k, if_pos]
        rw [List.length_range, mem_drop_range]
        omega
  · intro a b c d
    refine ⟨[⟨true, none⟩, ⟨true, none⟩, ⟨true, none⟩, ⟨true, none⟩],
      ⟨3, 3, [(4, d), (3, c), (2, b)], [4, 3, 2]⟩, ?_, rfl, rfl, rfl, rfl⟩
    simp [FifoCache.run, FifoCache.step, FifoCache.Insert, FifoCache.new, HashMap.find,
      HashMap.add, FifoCache.ListPushFront, u64, FifoCache.EvictOne, HashMap.erase]

theorem fifo_eviction_order_witness :
    2 < 2 ^ 64 ∧
    ((∃ rs s, FifoCache.run (FifoCache.new 2)
          (insertOps ((List.range (2 * 2)).map fun k => (k, k + 10))) = .ok (rs, s) ∧
        (∀ k, k < 2 → FifoCache.Lookup s k 0 = (false, 0, s)) ∧
        (∀ k, 2 ≤ k → k < 2 * 2 → FifoCache.Lookup s k 0 = (true, k + 10, s))) ∧
      ∀ a b c d : Nat, ∃ rs s, FifoCache.run (FifoCache.new 3)
          [.Insert 1 a, .Insert 2 b, .Insert 3 c, .Insert 4 d] = .ok (rs, s) ∧
        FifoCache.Lookup s 1 0 = (false, 0, s) ∧
        FifoCache.Lookup s 2 0 = (true, b, s) ∧
        FifoCache.Lookup s 3 0 = (true, c, s) ∧
        FifoCache.Lookup s 4 0 = (true, d, s)) :=
  ⟨by decide, fifo_eviction_order 2 (by decide) (fun k => k + 10) 0⟩

/-! ## LRU: hits and misses after distinct inserts -/

theorem LruCache.lru_Lookup_of_find {V : Type} (s : LruCache V) (k : Nat) (value : V) :
    (LruCache.Lookup s k value true).1 = (HashMap.find s.hash_map_ k).isSome ∧
      ∀ v, HashMap.find s.hash_map_ k = some v → (LruCache.Lookup s k value true).2.1 = v := by
  unfold LruCache.Lookup
  cases hfind : HashMap.find s.hash_map_ k with
  | none => simp
  | some b =>
    simp only [if_true, Option.isSome_some, Option.some.injEq]
    constructor
    · split <;> rfl
    · rintro v rfl; split <;> rfl

theorem LruCache.lru_lookup_after_distinct {V : Type} {C : Nat} (hC : 1 ≤ C) (h64 : C < 2 ^ 64)
    (ks : List Nat) (hnd : ks.Nodup) (f : Nat → V) (value : V) :
    ∃ rs s, LruCache.run (LruCache.new C) (insertOps (ks.map fun k => (k, f k)))
        = .ok (rs, s) ∧
      (∀ k, k ∈ ks.drop (ks.length - C) →
        (LruCache.Lookup s k value true).1 = true ∧
        (LruCache.Lookup s k value true).2.1 = f k) ∧
      (∀ k, k ∉ ks.drop (ks.length - C) → (LruCache.Lookup s k value true).1 = false) := by
  obtain ⟨s, hrun, hrep⟩ :=
    LruCache.run_sim hC h64 (insertOps (ks.map fun k => (k, f k))) (s := LruCache.new C)
      (Rep.empty C)
  refine ⟨_, s, hrun, ?_, ?_⟩
  · intro k hk
    have hfind := hrep.2.2.1 k
    rw [RecencyList.find_after_distinct hC ks hnd f k, if_pos hk] at hfind
    obtain ⟨h1, h2⟩ := LruCache.lru_Lookup_of_find s k value
    exact ⟨by rw [h1, hfind]; rfl, h2 _ hfind⟩
  · intro k hk
    have hfind := hrep.2.2.1 k
    rw [RecencyList.find_after_distinct hC ks hnd f k, if_neg hk] at hfind
    obtain ⟨h1, _⟩ := LruCache.lru_Lookup_of_find s k value
    rw [h1, hfind]; rfl

/-- C3. For every capacity `C ≥ 1` and every list of `N` distinct keys inserted
(no lookups in between) into an empty LRU shard: `Lookup` hits exactly the
last `min N C` keys inserted, with the value inserted for each, and misses
every other key. At capacity 200 with keys `0..299` inserted with themselves
as values, 150 and 200 hit with their values and 99 and 400 miss; key 100,
the oldest of the last 200 keys, hits with its value, where the claim and
the test `LruCacheTest.HitAndMiss` of the source expect a miss. -/
theorem lru_hit_and_miss {V : Type} (C : Nat) (hC : 1 ≤ C) (h64 : C < 2 ^ 64)
    (ks : List Nat) (hnd : ks.Nodup) (f : Nat → V) (value : V) :
    (∃ rs s, LruCache.run (LruCache.new C) (insertOps (ks.map fun k => (k, f k)))
        = .ok (rs, s) ∧
      (∀ k, k ∈ ks.drop (ks.length - min ks.length C) →
        (LruCache.Lookup s k value true).1 = true ∧
        (LruCache.Lookup s k value true).2.1 = f k) ∧
      (∀ k, k ∉ ks.drop (ks.length - min ks.length C) →
        (LruCache.Lookup s k value true).1 = false)) ∧
    (∃ rs s, LruCache.run (LruCache.new 200)
        (insertOps ((List.range 300).map fun k => (k, k))) = .ok (rs, s) ∧
      (LruCache.Lookup s 150 0 true).1 = true ∧ (LruCache.Lookup s 150 0 true).2.1 = 150 ∧
      (LruCache.Lookup s 200 0 true).1 = true ∧ (LruCache.Lookup s 200 0 true).2.1 = 200 ∧
      (LruCache.Lookup s 100 0 true).1 = true ∧ (LruCache.Lookup s 100 0 true).2.1 = 100 ∧
      (LruCache.Lookup s 99 0 true).1 = false ∧ (LruCache.Lookup s 400 0 true).1 = false) := by
  constructor
  · have hsub : ks.length - min ks.length C = ks.length - C := by omega
    rw [hsub]
    exact LruCache.lru_lookup_after_distinct hC h64 ks hnd f value
  · obtain ⟨rs, s, hrun, hhit, hmiss⟩ :=
      @LruCache.lru_lookup_after_distinct Nat 200 (by decide) (by decide) (List.range 300)
        (List.nodup_range _) (fun k => k) 0
    have h150 : 150 ∈ (List.range 300).drop ((List.range 300).length - 200) := by
      rw [List.length_range, mem_drop_range]; omega
    have h200 : 200 ∈ (List.range 300).drop ((List.range 300).length - 200) := by
      rw [List.length_range, mem_drop_range]; omega
    have h100 : 100 ∈ (List.range 300).drop ((List.range 300).length - 200) := by
      rw [List.length_range, mem_drop_range]; omega
    have h99 : 99 ∉ (List.range 300).drop ((List.range 300).length - 200) := by
      rw [List.length_range, mem_drop_range]; omega
    have h400 : 400 ∉ (List.range 300).drop ((List.range 300).length - 200) := by
      rw [List.length_range, mem_drop_range]; omega
    exact ⟨rs, s, hrun, (hhit 150 h150).1, (hhit 150 h150).2, (hhit 200 h200).1,
      (hhit 200 h200).2, (hhit 100 h100).1, (hhit 100 h100).2, hmiss 99 h99, hmiss 400 h400⟩

theorem lru_hit_and_miss_witness :
    1 ≤ 2 ∧ 2 < 2 ^ 64 ∧ [7, 3, 5].Nodup ∧
    ((∃ rs s, LruCache.run (LruCache.new 2) (insertOps ([7, 3, 5].map fun k => (k, k + 1)))
        = .ok (rs, s) ∧
      (∀ k, k ∈ [7, 3, 5].drop ([7, 3, 5].length - min [7, 3, 5].length 2) →
        (LruCache.Lookup s k 0 true).1 = true ∧
        (LruCache.Lookup s k 0 true).2.1 = k + 1) ∧
      (∀ k, k ∉ [7, 3, 5].drop ([7, 3, 5].length - min [7, 3, 5].length 2) →
        (LruCache.Lookup s k 0 true).1 = false)) ∧
    (∃ rs s, LruCache.run (LruCache.new 200)
        (insertOps ((List.range 300).map fun k => (k, k))) = .ok (rs, s) ∧
      (LruCache.Lookup s 150 0 true).1 = true ∧ (LruCache.Lookup s 150 0 true).2.1 = 150 ∧
      (LruCache.Lookup s 200 0 true).1 = true ∧ (LruCache.Lookup s 200 0 true).2.1 = 200 ∧
      (LruCache.Lookup s 100 0 true).1 = true ∧ (LruCache.Lookup s 100 0 true).2.1 = 100 ∧
      (LruCache.Lookup s 99 0 true).1 = false ∧ (LruCache.Lookup s 400 0 true).1 = false)) :=
  ⟨by decide, by decide, by decide,
    lru_hit_and_miss 2 (by decide) (by decide) [7, 3, 5] (by decide) (fun k => k + 1) 0⟩

/-- The failing input of C3: at capacity 200, after the keys `0..299` are
inserted, key 100 is the oldest of the last 200 keys and `Lookup(100)` hits
with the value 100; the test `LruCacheTest.HitAndMiss` asserts that it
misses. -/
theorem lru_key_100_is_resident :
    ∃ rs s, LruCache.run (LruCache.new 200)
        (insertOps ((List.range 300).map fun k => (k, k))) = .ok (rs, s) ∧
      (LruCache.Lookup s 100 0 true).1 = true ∧ (LruCache.Lookup s 100 0 true).2.1 = 100 := by
  obtain ⟨rs, s, hrun, hhit, _⟩ :=
    @LruCache.lru_lookup_after_distinct Nat 200 (by decide) (by decide) (List.range 300)
      (List.nodup_range _) (fun k => k) 0
  have h100 : 100 ∈ (List.range 300).drop ((List.range 300).length - 200) := by
    rw [List.length_range, mem_drop_range]; omega
  exact ⟨rs, s, hrun, hhit 100 h100⟩

/-! ## LRU against the reference recency list -/

/-- C4. For every capacity `C ≥ 1` and every sequential sequence of `Insert`,
`Lookup` and `Erase` on an LRU shard (the try-lock always succeeding), the
boolean results and the values written by `Lookup` equal those of the reference
recency list bounded by `C`. In particular after `Insert` 1, 2, 3, `Lookup(1)`,
`Insert(4)` at capacity 3, key 1 hits with its value and key 2 misses. -/
theorem lru_refines_recency_list {V : Type} (C : Nat) (hC : 1 ≤ C) (h64 : C < 2 ^ 64)
    (ops : List (Op V)) :
    (∃ s, LruCache.run (LruCache.new C) ops = .ok ((RecencyList.run C [] ops).1, s)) ∧
    ∀ a b c d value : V, ∃ rs s, LruCache.run (LruCache.new 3)
        [.Insert 1 a, .Insert 2 b, .Insert 3 c, .Lookup 1 value, .Insert 4 d] = .ok (rs, s) ∧
      (LruCache.Lookup s 1 value true).1 = true ∧
      (LruCache.Lookup s 1 value true).2.1 = a ∧
      (LruCache.Lookup s 2 value true).1 = false := by
  constructor
  · obtain ⟨s, hrun, _⟩ := LruCache.run_sim hC h64 ops (s := LruCache.new C) (Rep.empty C)
    exact ⟨s, hrun⟩
  · intro a b c d value
    refine ⟨[⟨true, none⟩, ⟨true, none⟩, ⟨true, none⟩, ⟨true, some a⟩, ⟨true, none⟩],
      ⟨3, 3, [(4, d), (3, c), (1, a)], [4, 1, 3]⟩, ?_, rfl, rfl, rfl⟩
    simp [LruCache.run, LruCache.step, LruCache.Insert, LruCache.new, HashMap.find,
      HashMap.add, LruCache.LruAppend, LruCache.LruRemove, u64, LruCache.EvictOne,
      HashMap.erase, LruCache.Lookup]

theorem lru_refines_recency_list_witness :
    1 ≤ 2 ∧ 2 < 2 ^ 64 ∧
    ((∃ s, LruCache.run (LruCache.new 2)
        [.Insert 1 10, .Insert 2 20, .Lookup 1 0, .Insert 3 30, .Lookup 2 0, .Erase 1, .Erase 1]
        = .ok ((RecencyList.run 2 []
          [.Insert 1 10, .Insert 2 20, .Lookup 1 0, .Insert 3 30, .Lookup 2 0, .Erase 1,
            .Erase 1]).1, s)) ∧
    ∀ a b c d value : Nat, ∃ rs s, LruCache.run (LruCache.new 3)
        [.Insert 1 a, .Insert 2 b, .Insert 3 c, .Lookup 1 value, .Insert 4 d] = .ok (rs, s) ∧
      (LruCache.Lookup s 1 value true).1 = true ∧
      (LruCache.Lookup s 1 value true).2.1 = a ∧
      (LruCache.Lookup s 2 value true).1 = false) :=
  ⟨by decide, by decide, lru_refines_recency_list 2 (by decide) (by decide) _⟩

/-! ## LRU recency -/

namespace RecencyList

variable {V : Type}

theorem run_append (C : Nat) (ops1 ops2 : List (Op V)) : ∀ a : List (Nat × V),
    run C a (ops1 ++ ops2) =
      ((run C a ops1).1 ++ (run C (run C a ops1).2 ops2).1,
        (run C (run C a ops1).2 ops2).2) := by
  induction ops1 with
  | nil => intro a; rfl
  | cons op ops ih =>
    intro a
    show run C a (op :: (ops ++ ops2)) = _
    simp only [run]
    rw [ih]
    rfl

theorem find_filter_none {a : List (Nat × V)} {k : Nat} (h : HashMap.find a k = none)
    (p : Nat × V → Bool) : HashMap.find (a.filter p) k = none := by
  rw [HashMap.find_eq_none_iff] at h ⊢
  intro hm
  exact h (List.map_subset _ (List.filter_sublist a).subset hm)

theorem run_lookupOps_resident (C : Nat) (value : V) (f : Nat → V) (ls : List Nat) :
    ∀ a : List (Nat × V), ls.Nodup → (∀ k ∈ ls, HashMap.find a k = some (f k)) →
      (run C a (lookupOps value ls)).2 =
        (ls.reverse.map fun k => (k, f k)) ++ a.filter (fun p => decide (p.1 ∉ ls)) := by
  induction ls with
  | nil => intro a _ _; simp [lookupOps, run]
  | cons k t ih =>
    intro a hnd hres
    rw [List.nodup_cons] at hnd
    have hk : HashMap.find a k = some (f k) := hres k (by simp)
    have hres' : ∀ k' ∈ t, HashMap.find ((k, f k) :: HashMap.erase a k) k' = some (f k') := by
      intro k' hk'
      have hne : ¬ k = k' := fun e => hnd.1 (e ▸ hk')
      have hne' : ¬ k' = k := fun e => hne e.symm
      rw [HashMap.find_cons, if_neg hne, HashMap.find_erase, if_neg hne']
      exact hres k' (by simp [hk'])
    have := ih ((k, f k) :: HashMap.erase a k) hnd.2 hres'
    simp only [lookupOps, List.map_cons, run, step, Lookup, hk] at this ⊢
    rw [this]
    have hkt : List.filter (fun p : Nat × V => decide (p.1 ∉ t)) ((k, f k) :: HashMap.erase a k)
        = (k, f k) :: List.filter (fun p => decide (p.1 ∉ t)) (HashMap.erase a k) := by
      simp [List.filter_cons, hnd.1]
    rw [hkt]
    simp only [List.reverse_cons, List.map_append, List.map_cons, List.map_nil,
      List.append_assoc, List.singleton_append, HashMap.erase, List.filter_filter]
    congr 2
    apply List.filter_congr
    intro p _
    by_cases h1 : p.1 = k <;> by_cases h2 : p.1 ∈ t <;> simp [h1, h2]

/-- After the recency scenario with `2 * m ≤ C`, the looked-up keys are
resident. -/
theorem find_after_recency {C m : Nat} (hC : 1 ≤ C) (hm : 2 * m ≤ C) (f : Nat → V)
    (value : V) (hlen : (run C [] (insertOps ((List.range C).map fun k => (k, f k))
      ++ lookupOps value (List.range m))).2.length ≤ C) (k : Nat) (hk : k < m) :
    HashMap.find (run C [] (lruRecencyOps f value C m)).2 k = some (f k) := by
  have hnd' : (((List.range C).map fun k => (k, f k)).map Prod.fst).Nodup := by
    simpa [List.map_map, Function.comp_def] using List.nodup_range C
  have h1 := run_insertOps_distinct hC ((List.range C).map fun k => (k, f k)) []
    (Nat.zero_le _) hnd' (fun _ _ => rfl)
  have hfind1 : ∀ k, HashMap.find (run C [] (insertOps ((List.range C).map
      fun k => (k, f k)))).2 k = if k < C then some (f k) else none := by
    intro k
    rw [find_after_distinct hC (List.range C) (List.nodup_range C) f k]
    simp [mem_drop_range]
  have h2 := run_lookupOps_resident C value f (List.range m)
    (run C [] (insertOps ((List.range C).map fun k => (k, f k)))).2 (List.nodup_range m)
    (by
      intro k hk
      rw [hfind1 k, if_pos]
      have := List.mem_range.1 hk
      omega)
  rw [run_append] at hlen
  simp only at hlen
  have hnew_nd : (((List.range' C m).map fun k => (k, f k)).map Prod.fst).Nodup := by
    simpa [List.map_map, Function.comp_def] using List.nodup_range' C m
  have hnew_disj : ∀ k ∈ ((List.range' C m).map fun k => (k, f k)).map Prod.fst,
      HashMap.find (run C (run C [] (insertOps ((List.range C).map fun k => (k, f k)))).2
        (lookupOps value (List.range m))).2 k = none := by
    intro k hk
    have hk' : C ≤ k := by
      simp only [List.map_map, Function.comp_def, List.map_id', List.mem_range'_1] at hk
      exact hk.1
    rw [h2, HashMap.find_append]
    have e1 : HashMap.find ((List.range m).reverse.map fun k => (k, f k)) k = none := by
      rw [find_map_graph, if_neg]
      simp only [List.mem_reverse, List.mem_range]
      omega
    rw [e1]
    apply find_filter_none
    rw [hfind1 k, if_neg (by omega)]
  have h3 := run_insertOps_distinct hC ((List.range' C m).map fun k => (k, f k)) _ hlen
    hnew_nd hnew_disj
  unfold lruRecencyOps
  rw [run_append, run_append]
  simp only
  rw [h3, h2]
  have e1 : HashMap.find ((List.range' C m).map fun k => (k, f k)).reverse k = none := by
    rw [← List.map_reverse, find_map_graph, if_neg]
    simp only [List.mem_reverse, List.mem_range'_1]
    omega
  have e2 : HashMap.find ((List.range m).reverse.map fun k => (k, f k)) k = some (f k) := by
    rw [find_map_graph, if_pos]
    simp only [List.mem_reverse, List.mem_range]
    exact hk
  rw [List.take_append_eq_append_take, List.take_of_length_le (by simp; omega),
    HashMap.find_append, e1]
  simp only
  rw [List.take_append_eq_append_take, List.take_of_length_le (by simp; omega),
    HashMap.find_append, e2]

end RecencyList

/-- C5, as amended. For every capacity `C ≥ 2` on an empty LRU shard: insert
the keys `0..C-1`, then look up each key of `0..C/2-1`, then insert the keys
`C..C+C/2-1` (both ranges without their upper end `C/2`, `3C/2`); afterwards
every key of `0..C/2-1` is still resident, with its value. -/
theorem lru_recency {V : Type} (C : Nat) (hC : 2 ≤ C) (h64 : C < 2 ^ 64) (f : Nat → V)
    (value : V) :
    ∃ rs s, LruCache.run (LruCache.new C) (lruRecencyOps f value C (C / 2)) = .ok (rs, s) ∧
      ∀ k, k < C / 2 →
        (LruCache.Lookup s k value true).1 = true ∧
        (LruCache.Lookup s k value true).2.1 = f k := by
  have hC1 : 1 ≤ C := by omega
  obtain ⟨s, hrun, hrep⟩ :=
    LruCache.run_sim hC1 h64 (lruRecencyOps f value C (C / 2)) (s := LruCache.new C)
      (Rep.empty C)
  obtain ⟨s0, _, hrep0⟩ :=
    LruCache.run_sim hC1 h64 (insertOps ((List.range C).map fun k => (k, f k))
      ++ lookupOps value (List.range (C / 2))) (s := LruCache.new C) (Rep.empty C)
  refine ⟨_, s, hrun, ?_⟩
  intro k hk
  have hfind := hrep.2.2.1 k
  rw [RecencyList.find_after_recency hC1 (by omega) f value hrep0.2.2.2.2.2 k hk] at hfind
  obtain ⟨h1, h2⟩ := LruCache.lru_Lookup_of_find s k value
  exact ⟨by rw [h1, hfind]; rfl, h2 _ hfind⟩

theorem lru_recency_witness :
    2 ≤ 4 ∧ 4 < 2 ^ 64 ∧
    ∃ rs s, LruCache.run (LruCache.new 4) (lruRecencyOps (fun k => k + 10) 0 4 (4 / 2))
        = .ok (rs, s) ∧
      ∀ k, k < 4 / 2 →
        (LruCache.Lookup s k 0 true).1 = true ∧
        (LruCache.Lookup s k 0 true).2.1 = k + 10 :=
  ⟨by decide, by decide, lru_recency 4 (by decide) (by decide) (fun k => k + 10) 0⟩

/-- C5, the claim as stated fails: with both ranges read inclusively at
capacity 2 (insert 0, 1; look up 0, 1; insert 2, 3), key 0 is evicted. -/
theorem lru_recency_inclusive_evicts_key_0 :
    ∃ rs s, LruCache.run (LruCache.new 2) (lruRecencyOps (fun k => k) 0 2 (2 / 2 + 1))
        = .ok (rs, s) ∧
      (LruCache.Lookup s 0 0 true).1 = false := by
  refine ⟨[⟨true, none⟩, ⟨true, none⟩, ⟨true, some 0⟩, ⟨true, some 1⟩, ⟨true, none⟩,
    ⟨true, none⟩], ⟨2, 2, [(3, 3), (2, 2)], [3, 2]⟩, by decide, by decide⟩

/-! ## Size after a run of inserts -/

namespace RecencyList

variable {V : Type}

theorem insertOps_append (kvs : List (Nat × V)) (p : Nat × V) :
    insertOps (kvs ++ [p]) = insertOps kvs ++ [Op.Insert p.1 p.2] := by
  simp [insertOps]

theorem run_insertOps_snoc (C : Nat) (kvs : List (Nat × V)) (p : Nat × V) :
    (run C [] (insertOps (kvs ++ [p]))).2 =
      (Insert C (run C [] (insertOps kvs)).2 p.1 p.2).2 := by
  rw [insertOps_append, run_append]
  rfl

/-- While only inserts happen, the list holds `min d C` pairs, `d` the number
of distinct keys inserted; until it is full it holds every inserted key. -/
theorem length_after_inserts {C : Nat} (hC : 1 ≤ C) (kvs : List (Nat × V)) :
    (run C [] (insertOps kvs)).2.length = min (kvs.map Prod.fst).toFinset.card C ∧
      ((run C [] (insertOps kvs)).2.length < C →
        ∀ k ∈ kvs.map Prod.fst, k ∈ (run C [] (insertOps kvs)).2.map Prod.fst) ∧
      (∀ k ∈ (run C [] (insertOps kvs)).2.map Prod.fst, k ∈ kvs.map Prod.fst) := by
  induction kvs using List.reverseRecOn with
  | nil => simp [insertOps, run]
  | append_singleton kvs p ih =>
    obtain ⟨ih1, ih2, ih3⟩ := ih
    rw [run_insertOps_snoc]
    generalize (run C [] (insertOps kvs)).2 = a at ih1 ih2 ih3 ⊢
    have hset : ((kvs ++ [p]).map Prod.fst).toFinset
        = insert p.1 (kvs.map Prod.fst).toFinset := by
      ext x; simp [or_comm]
    rw [hset]
    unfold Insert
    cases hfind : HashMap.find a p.1 with
    | some b =>
      have hmem : p.1 ∈ a.map Prod.fst :=
        (HashMap.find_isSome_iff a p.1).1 (by rw [hfind]; rfl)
      have hin : p.1 ∈ (kvs.map Prod.fst).toFinset := List.mem_toFinset.2 (ih3 _ hmem)
      simp only [HashMap.length_update, HashMap.map_fst_update, Finset.insert_eq_of_mem hin]
      refine ⟨ih1, ?_, ?_⟩
      · intro hlt k hk
        simp only [List.map_append, List.map_cons, List.map_nil, List.mem_append,
          List.mem_singleton] at hk
        rcases hk with hk | rfl
        · exact ih2 hlt k hk
        · exact hmem
      · intro k hk
        simp only [List.map_append, List.mem_append]
        exact Or.inl (ih3 k hk)
    | none =>
      have hnot : p.1 ∉ a.map Prod.fst := (HashMap.find_eq_none_iff a p.1).1 hfind
      by_cases hfull : a.length = C
      · have hcard : C ≤ (kvs.map Prod.fst).toFinset.card := by
          rw [hfull] at ih1
          omega
        have hcard' : (kvs.map Prod.fst).toFinset.card
            ≤ (insert p.1 (kvs.map Prod.fst).toFinset).card :=
          Finset.card_le_card (Finset.subset_insert _ _)
        rw [if_pos hfull]
        have hl : ((p.1, p.2) :: a.dropLast).length = C := by
          rw [List.length_cons, List.length_dropLast, hfull]; omega
        refine ⟨by rw [hl]; omega, fun hlt => by rw [hl] at hlt; omega, ?_⟩
        intro k hk
        simp only [List.map_cons, List.mem_cons, List.map_dropLast] at hk
        simp only [List.map_append, List.map_cons, List.map_nil, List.mem_append,
          List.mem_singleton]
        rcases hk with rfl | hk
        · exact Or.inr rfl
        · exact Or.inl (ih3 k (List.dropLast_subset _ hk))
      · have hlt : a.length < C := by
          have : a.length ≤ C := by rw [ih1]; exact Nat.min_le_right _ _
          omega
        have hnin : p.1 ∉ (kvs.map Prod.fst).toFinset := by
          intro h
          exact hnot (ih2 hlt _ (List.mem_toFinset.1 h))
        rw [Finset.card_insert_of_not_mem hnin, if_neg hfull]
        refine ⟨by rw [List.length_cons]; omega, ?_, ?_⟩
        · intro _ k hk
          simp only [List.map_append, List.map_cons, List.map_nil, List.mem_append,
            List.mem_singleton] at hk
          simp only [List.map_cons, List.mem_cons]
          rcases hk with hk | rfl
          · exact Or.inr (ih2 hlt k hk)
          · exact Or.inl rfl
        · intro k hk
          simp only [List.map_cons, List.mem_cons] at hk
          simp only [List.map_append, List.map_cons, List.map_nil, List.mem_append,
            List.mem_singleton]
          rcases hk with rfl | hk
          · exact Or.inr rfl
          · exact Or.inl (ih3 k hk)

theorem length_after_inserts_mono {C : Nat} (hC : 1 ≤ C) (kvs : List (Nat × V))
    (p : Nat × V) :
    (run C [] (insertOps kvs)).2.length ≤ (run C [] (insertOps (kvs ++ [p]))).2.length := by
  rw [(length_after_inserts hC kvs).1, (length_after_inserts hC (kvs ++ [p])).1]
  have hsub : (kvs.map Prod.fst).toFinset ⊆ ((kvs ++ [p]).map Prod.fst).toFinset := by
    intro x hx
    simp only [List.mem_toFinset, List.map_append, List.mem_append] at hx ⊢
    exact Or.inl hx
  have := Finset.card_le_card hsub
  omega

end RecencyList

/-- C6. For a FIFO shard and an LRU shard of capacity `C ≥ 1`, after any
sequence of inserts (keys may repeat) into the empty shard, `get_size()` is
`min d C`, with `d` the number of distinct keys inserted so far; so it never
exceeds `C`, and one more insert never makes it smaller. -/
theorem size_after_inserts {V : Type} (C : Nat) (hC : 1 ≤ C) (h64 : C < 2 ^ 64)
    (kvs : List (Nat × V)) (p : Nat × V) :
    (∃ rs s rs' s', FifoCache.run (FifoCache.new C) (insertOps kvs) = .ok (rs, s) ∧
        FifoCache.run (FifoCache.new C) (insertOps (kvs ++ [p])) = .ok (rs', s') ∧
        s.get_size = min (kvs.map Prod.fst).toFinset.card C ∧
        s.get_size ≤ C ∧ s.get_size ≤ s'.get_size) ∧
    (∃ rs s rs' s', LruCache.run (LruCache.new C) (insertOps kvs) = .ok (rs, s) ∧
        LruCache.run (LruCache.new C) (insertOps (kvs ++ [p])) = .ok (rs', s') ∧
        s.get_size = min (kvs.map Prod.fst).toFinset.card C ∧
        s.get_size ≤ C ∧ s.get_size ≤ s'.get_size) := by
  have hlen := (RecencyList.length_after_inserts hC kvs).1
  have hmono := RecencyList.length_after_inserts_mono hC kvs p
  constructor
  · obtain ⟨s, hrun, hrep⟩ := FifoCache.fifo_run_insertOps hC h64 kvs (s := FifoCache.new C)
      (Rep.empty C)
    obtain ⟨s', hrun', hrep'⟩ := FifoCache.fifo_run_insertOps hC h64 (kvs ++ [p])
      (s := FifoCache.new C) (Rep.empty C)
    have hs : s.get_size = _ := hrep.2.2.2.1
    have hs' : s'.get_size = _ := hrep'.2.2.2.1
    refine ⟨_, s, _, s', hrun, hrun', ?_, ?_, ?_⟩
    · rw [hs, hlen]
    · rw [hs, hlen]; exact Nat.min_le_right _ _
    · rw [hs, hs']; exact hmono
  · obtain ⟨s, hrun, hrep⟩ := LruCache.run_sim hC h64 (insertOps kvs) (s := LruCache.new C)
      (Rep.empty C)
    obtain ⟨s', hrun', hrep'⟩ := LruCache.run_sim hC h64 (insertOps (kvs ++ [p]))
      (s := LruCache.new C) (Rep.empty C)
    have hs : s.get_size = _ := hrep.2.2.2.1
    have hs' : s'.get_size = _ := hrep'.2.2.2.1
    refine ⟨_, s, _, s', hrun, hrun', ?_, ?_, ?_⟩
    · rw [hs, hlen]
    · rw [hs, hlen]; exact Nat.min_le_right _ _
    · rw [hs, hs']; exact hmono

theorem size_after_inserts_witness :
    1 ≤ 2 ∧ 2 < 2 ^ 64 ∧
    (∃ rs s rs' s', FifoCache.run (FifoCache.new 2)
          (insertOps [(1, 10), (1, 11), (2, 20), (3, 30)]) = .ok (rs, s) ∧
        FifoCache.run (FifoCache.new 2)
          (insertOps ([(1, 10), (1, 11), (2, 20), (3, 30)] ++ [(1, 12)])) = .ok (rs', s') ∧
        s.get_size = min ([(1, 10), (1, 11), (2, 20), (3, 30)].map Prod.fst).toFinset.card 2 ∧
        s.get_size ≤ 2 ∧ s.get_size ≤ s'.get_size) ∧
    (∃ rs s rs' s', LruCache.run (LruCache.new 2)
          (insertOps [(1, 10), (1, 11), (2, 20), (3, 30)]) = .ok (rs, s) ∧
        LruCache.run (LruCache.new 2)
          (insertOps ([(1, 10), (1, 11), (2, 20), (3, 30)] ++ [(1, 12)])) = .ok (rs', s') ∧
        s.get_size = min ([(1, 10), (1, 11), (2, 20), (3, 30)].map Prod.fst).toFinset.card 2 ∧
        s.get_size ≤ 2 ∧ s.get_size ≤ s'.get_size) :=
  ⟨by decide, by decide,
    size_after_inserts 2 (by decide) (by decide) [(1, 10), (1, 11), (2, 20), (3, 30)] (1, 12)⟩

/-! ## LRU lookup and the list mutex -/

/-- C9. The code at the failing input: on a shard holding key 1 with value 7,
`Lookup(1)` with 0 in the out parameter returns true in both outcomes of the
try-lock, but writes 7 only when the lock was acquired; when it was not, the
out parameter still holds 0. -/
theorem lru_lookup_without_lock_leaves_value :
    ∃ rs s, LruCache.run (LruCache.new 1) [.Insert 1 7] = .ok (rs, s) ∧
      LruCache.Lookup s 1 0 true = (true, 7, s) ∧
      LruCache.Lookup s 1 0 false = (true, 0, s) :=
  ⟨[⟨true, none⟩], ⟨1, 1, [(1, 7)], [1]⟩, by decide, by decide, by decide⟩

/-! ## Segment shard: the append path and the eviction loop -/

namespace SegmentList

theorem Add_cases {S : Nat} (hS : 1 ≤ S) (sl : SegmentList) (hne : sl.segments ≠ [])
    (entry new_version : Nat) (fuel : Nat) :
    Add S fuel sl entry new_version = .error .outOfFuel ∨
      ∃ sl', Add S fuel sl entry new_version = .ok sl' ∧ sl'.segments ≠ [] ∧
        sl'.count ≤ sl.count + 1 ∧ sl'.segments.length ≤ sl.segments.length + 1 := by
  obtain ⟨segs, count, allocated⟩ := sl
  cases segs with
  | nil => exact absurd rfl hne
  | cons head rest =>
    cases fuel with
    | zero => exact Or.inl rfl
    | succ fuel =>
      by_cases hused : head.used < S
      · right
        simp only [Add, Segment.Append, hused, if_true]
        exact ⟨_, rfl, by simp, by simp, by simp⟩
      · cases fuel with
        | zero =>
          left
          simp only [Add, Segment.Append, hused, if_false]
        | succ fuel =>
          by_cases hfull : u32 (head.used + 1) ≥ S
          · right
            have h0 : 0 < S := hS
            simp only [Add, Segment.Append, hused, if_false, Segment.IsFull, hfull,
              decide_True, if_true, Segment.new, h0]
            exact ⟨_, rfl, by simp, by simp only [u64]; exact Nat.mod_le _ _, by simp⟩
          · right
            have h1 : u32 (head.used + 1) < S := by omega
            simp only [Add, Segment.Append, hused, if_false, Segment.IsFull, hfull,
              decide_False, Bool.false_eq_true, h1, if_true]
            exact ⟨_, rfl, by simp, by simp, by simp⟩

theorem Add_ok {S : Nat} (hS : 1 ≤ S) (sl : SegmentList) (hne : sl.segments ≠ [])
    (entry new_version : Nat) {fuel : Nat} (hfuel : 2 ≤ fuel) :
    ∃ sl', Add S fuel sl entry new_version = .ok sl' ∧ sl'.segments ≠ [] ∧
      sl'.count ≤ sl.count + 1 ∧ sl'.segments.length ≤ sl.segments.length + 1 := by
  obtain ⟨segs, count, allocated⟩ := sl
  cases segs with
  | nil => exact absurd rfl hne
  | cons head rest =>
    obtain ⟨fuel, rfl⟩ : ∃ n, fuel = n + 2 := ⟨fuel - 2, by omega⟩
    by_cases hused : head.used < S
    · simp only [Add, Segment.Append, hused, if_true]
      exact ⟨_, rfl, by simp, by simp, by simp⟩
    · by_cases hfull : u32 (head.used + 1) ≥ S
      · have h0 : 0 < S := hS
        simp only [Add, Segment.Append, hused, if_false, Segment.IsFull, hfull,
          decide_True, if_true, Segment.new, h0]
        exact ⟨_, rfl, by simp, by simp only [u64]; exact Nat.mod_le _ _, by simp⟩
      · have h1 : u32 (head.used + 1) < S := by omega
        simp only [Add, Segment.Append, hused, if_false, Segment.IsFull, hfull,
          decide_False, Bool.false_eq_true, h1, if_true]
        exact ⟨_, rfl, by simp, by simp, by simp⟩

end SegmentList

namespace SegmentCache

variable {V : Type}

theorem evictLoop_of_le (fuel : Nat) (s : SegmentCache V) (h : s.usage_ ≤ s.capacity_) :
    evictLoop fuel s = .ok s := by
  have hn : ¬ s.usage_ > s.capacity_ := by omega
  cases fuel <;> simp only [evictLoop, hn, if_false]

theorem EvictOne_of_count_le (s : SegmentCache V) (h : s.segment_list_.count ≤ 4) :
    EvictOne s = .ok s := by
  have hn : ¬ s.segment_list_.count > 4 := by omega
  simp only [EvictOne, SegmentList.Evict, hn, if_false]

/-- With more entries than the capacity and at most five segments, the loop
of `Insert` does not end: no segment can be evicted. -/
theorem evictLoop_stuck (s : SegmentCache V) (h : s.usage_ > s.capacity_)
    (hc : s.segment_list_.count ≤ 4) (fuel : Nat) :
    evictLoop fuel s = .error .outOfFuel := by
  induction fuel with
  | zero => simp only [evictLoop, h, if_true]
  | succ fuel ih => simp only [evictLoop, h, if_true, EvictOne_of_count_le s hc, ih]

end SegmentCache

namespace SegmentCache

variable {V : Type}

theorem Insert_resident (S fuel : Nat) (s : SegmentCache V) (k : Nat) (v : V) (p : Nat)
    (e : Entry V) (h1 : HashMap.find s.hash_map_ k = some p)
    (h2 : HashMap.find s.entries p = some e) :
    Insert S fuel s k v =
      .ok (false, { s with entries := HashMap.update s.entries p { e with value := v } }) := by
  simp only [Insert, h1, h2]

theorem Insert_new_room {S fuel : Nat} (hS : 1 ≤ S) (hfuel : 2 ≤ fuel) (s : SegmentCache V)
    (k : Nat) (v : V) (hk : HashMap.find s.hash_map_ k = none)
    (hne : s.segment_list_.segments ≠ []) (hroom : s.usage_ < s.capacity_)
    (h64 : s.capacity_ < 2 ^ 64) :
    ∃ sl, sl.segments ≠ [] ∧ sl.count ≤ s.segment_list_.count + 1 ∧
      Insert S fuel s k v = .ok (true,
        { capacity_ := s.capacity_
          usage_ := s.usage_ + 1
          hash_map_ := HashMap.add s.hash_map_ k s.allocated
          entries := HashMap.add s.entries s.allocated
            { key := k, value := v, version := 1, refs := 2,
              belong := s.segment_list_.head_segment, charge := 1 }
          allocated := s.allocated + 1
          segment_list_ := sl }) := by
  obtain ⟨sl, hadd, hsl, hcount, _⟩ :=
    SegmentList.Add_ok hS s.segment_list_ hne s.allocated 1 hfuel
  refine ⟨sl, hsl, hcount, ?_⟩
  have hu : u64 (s.usage_ + 1) = s.usage_ + 1 := u64_of_lt (by omega)
  have hr : u32 (1 + 1) = 2 := by decide
  simp only [Insert, hk, hadd, hu, hr]
  rw [evictLoop_of_le]
  show s.usage_ + 1 ≤ s.capacity_
  omega

theorem Insert_new_stuck {S : Nat} (hS : 1 ≤ S) (s : SegmentCache V)
    (k : Nat) (v : V) (hk : HashMap.find s.hash_map_ k = none)
    (hne : s.segment_list_.segments ≠ []) (hfull : s.capacity_ < u64 (s.usage_ + 1))
    (hc : s.segment_list_.count + 1 ≤ 4) (fuel : Nat) :
    Insert S fuel s k v = .error .outOfFuel := by
  rcases SegmentList.Add_cases hS s.segment_list_ hne s.allocated 1 fuel with
    hadd | ⟨sl, hadd, _, hcount, _⟩
  · simp only [Insert, hk, hadd]
  · simp only [Insert, hk, hadd]
    rw [evictLoop_stuck]
    · exact hfull
    · show sl.count ≤ 4
      omega

theorem Insert_new_ret {S fuel : Nat} (s : SegmentCache V) (k : Nat) (v : V)
    (hk : HashMap.find s.hash_map_ k = none) {b : Bool} {s' : SegmentCache V}
    (h : Insert S fuel s k v = .ok (b, s')) : b = true := by
  simp only [Insert, hk] at h
  split at h
  · cases h
  · split at h
    · cases h
    · cases h; rfl

theorem Holds.start (f : Nat → V) (S C : Nat) : Holds f C [] (SegmentCache.new S C) := by
  refine ⟨rfl, rfl, ?_, fun _ _ => rfl, ?_⟩
  · simp [SegmentCache.new, SegmentList.new]
  · intro k hk; simp at hk

theorem Holds.insert {f : Nat → V} {S C fuel : Nat} (hS : 1 ≤ S) (hfuel : 2 ≤ fuel)
    (h64 : C < 2 ^ 64) {ks : List Nat} {s : SegmentCache V} (h : Holds f C ks s)
    (k : Nat) (hk : k ∉ ks) (hlen : ks.length < C) :
    ∃ s', Insert S fuel s k (f k) = .ok (true, s') ∧ Holds f C (ks ++ [k]) s' := by
  obtain ⟨hcap, hus, ⟨hne, hcnt⟩, hout, hin⟩ := h
  obtain ⟨sl, hsl, hcnt', hins⟩ := Insert_new_room hS hfuel s k (f k) (hout k hk) hne
    (by omega) (by omega)
  refine ⟨_, hins, hcap, ?_, ⟨hsl, ?_⟩, ?_, ?_⟩
  · simp [hus]
  · show sl.count ≤ (ks ++ [k]).length
    rw [List.length_append, List.length_singleton]
    omega
  · intro k' hk'
    simp only [List.mem_append, List.mem_singleton, not_or] at hk'
    have hne' : ¬ k = k' := fun e => hk'.2 e.symm
    show HashMap.find (HashMap.add s.hash_map_ k s.allocated) k' = none
    rw [HashMap.find_add, if_neg hne']
    exact hout k' hk'.1
  · intro k' hk'
    simp only [List.mem_append, List.mem_singleton] at hk'
    by_cases hkk : k = k'
    · subst hkk
      refine ⟨s.allocated, ⟨k, f k, 1, 2, s.segment_list_.head_segment, 1⟩, ?_, ?_, rfl,
        Nat.lt_succ_self _⟩
      · show HashMap.find (HashMap.add s.hash_map_ k s.allocated) k = _
        rw [HashMap.find_add, if_pos rfl]
      · show HashMap.find (HashMap.add s.entries s.allocated _) s.allocated = _
        rw [HashMap.find_add, if_pos rfl]
    · have hmem : k' ∈ ks := by
        rcases hk' with h | h
        · exact h
        · exact absurd h.symm hkk
      obtain ⟨p, e, h1, h2, h3, h4⟩ := hin k' hmem
      refine ⟨p, e, ?_, ?_, h3, Nat.lt_succ_of_lt h4⟩
      · show HashMap.find (HashMap.add s.hash_map_ k s.allocated) k' = _
        rw [HashMap.find_add, if_neg hkk]
        exact h1
      · show HashMap.find (HashMap.add s.entries s.allocated _) p = _
        rw [HashMap.find_add, if_neg (by omega)]
        exact h2

theorem Holds.run_inserts {f : Nat → V} {S C fuel : Nat} (hS : 1 ≤ S) (hfuel : 2 ≤ fuel)
    (h64 : C < 2 ^ 64) (ks : List Nat) : ∀ (done : List Nat) (s : SegmentCache V),
    Holds f C done s → (done ++ ks).Nodup → (done ++ ks).length ≤ C →
    ∃ s', run S fuel s (insertOps (ks.map fun k => (k, f k)))
        = .ok (ks.map (fun _ => (⟨true, none⟩ : Ret V)), s') ∧
      Holds f C (done ++ ks) s' := by
  induction ks with
  | nil =>
    intro done s h _ _
    exact ⟨s, rfl, by simpa using h⟩
  | cons k t ih =>
    intro done s h hnd hlen
    have hk : k ∉ done := by
      intro hmem
      exact (List.nodup_append.1 hnd).2.2 hmem (by simp)
    have hl : done.length < C := by
      simp only [List.length_append, List.length_cons] at hlen
      omega
    obtain ⟨s1, hins, h1⟩ := h.insert hS hfuel h64 k hk hl
    obtain ⟨s2, hrun, h2⟩ := ih (done ++ [k]) s1 h1
      (by simpa [List.append_assoc] using hnd) (by simpa [List.append_assoc] using hlen)
    refine ⟨s2, ?_, by simpa [List.append_assoc] using h2⟩
    simp only [insertOps, List.map_cons, List.map_map, run, step, hins] at hrun ⊢
    rw [hrun]

theorem Holds.lookup {f : Nat → V} {S C fuel : Nat} (hS : 1 ≤ S) (hfuel : 2 ≤ fuel)
    {ks : List Nat} {s : SegmentCache V} (h : Holds f C ks s) (k : Nat) (value : V) :
    (k ∈ ks → ∃ t, Lookup S fuel s k value = .ok (true, f k, t)) ∧
      (k ∉ ks → Lookup S fuel s k value = .ok (false, value, s)) := by
  obtain ⟨_, _, ⟨hne, _⟩, hout, hin⟩ := h
  constructor
  · intro hk
    obtain ⟨p, e, h1, h2, h3, _⟩ := hin k hk
    simp only [Lookup, h1, h2]
    by_cases hb : e.belong = s.segment_list_.head_segment
    · simp only [hb, ne_eq, not_true_eq_false, if_false, h3]
      exact ⟨_, rfl⟩
    · obtain ⟨sl, hadd, _⟩ :=
        SegmentList.Add_ok hS s.segment_list_ hne p (u32 (e.version + 1)) hfuel
      simp only [ne_eq, hb, not_false_eq_true, if_true, hadd, h3]
      exact ⟨_, rfl⟩
  · intro hk
    simp only [Lookup, hout k hk]

end SegmentCache

/-- C10. For every capacity `C` and every list of `N ≤ C` distinct keys, in
whatever order, inserted with the key as value into an empty Segment shard:
every `Insert` returns true, nothing is evicted (`get_size()` is `N` and every
key is still indexed), and `Lookup` of each of the keys returns true with its
value. At capacity 200 the 40 keys `0..39`, in any order, all hit. The loops
get enough fuel with two units; `S ≥ 1` slots per segment. -/
theorem segment_inserts_within_capacity (S C fuel : Nat) (hS : 1 ≤ S) (hfuel : 2 ≤ fuel)
    (h64 : C < 2 ^ 64) (ks : List Nat) (hnd : ks.Nodup) (hlen : ks.length ≤ C)
    (value : Nat) :
    (∃ s, SegmentCache.run S fuel (SegmentCache.new S C) (insertOps (ks.map fun k => (k, k)))
        = .ok (ks.map (fun _ => (⟨true, none⟩ : Ret Nat)), s) ∧
      s.get_size = ks.length ∧
      ∀ k, k ∈ ks → ∃ t, SegmentCache.Lookup S fuel s k value = .ok (true, k, t)) ∧
    (∀ ks' : List Nat, ks'.Perm (List.range 40) →
      ∃ s, SegmentCache.run 65536 fuel (SegmentCache.new 65536 200)
          (insertOps (ks'.map fun k => (k, k)))
          = .ok (ks'.map (fun _ => (⟨true, none⟩ : Ret Nat)), s) ∧
        ∀ k, k < 40 → ∃ t, SegmentCache.Lookup 65536 fuel s k value = .ok (true, k, t)) := by
  constructor
  · obtain ⟨s, hrun, hholds⟩ :=
      SegmentCache.Holds.run_inserts hS hfuel h64 ks [] (SegmentCache.new S C)
        (SegmentCache.Holds.start (fun k => k) S C) (by simpa using hnd) (by simpa using hlen)
    simp only [List.nil_append] at hholds
    exact ⟨s, hrun, hholds.2.1, fun k hk => (hholds.lookup hS hfuel k value).1 hk⟩
  · intro ks' hperm
    have hnd' : ks'.Nodup := hperm.nodup_iff.2 (List.nodup_range 40)
    have hlen' : ks'.length ≤ 200 := by
      rw [hperm.length_eq, List.length_range]; decide
    obtain ⟨s, hrun, hholds⟩ :=
      @SegmentCache.Holds.run_inserts Nat (fun k => k) 65536 200 fuel (by decide) hfuel
        (by decide) ks' [] (SegmentCache.new 65536 200)
        (SegmentCache.Holds.start (fun k => k) 65536 200) (by simpa using hnd')
        (by simpa using hlen')
    simp only [List.nil_append] at hholds
    refine ⟨s, hrun, fun k hk => ?_⟩
    exact (hholds.lookup (by decide) hfuel k value).1
      (hperm.mem_iff.2 (List.mem_range.2 hk))

theorem segment_inserts_within_capacity_witness :
    1 ≤ 2 ∧ 2 ≤ 2 ∧ 3 < 2 ^ 64 ∧ [5, 1, 4].Nodup ∧ [5, 1, 4].length ≤ 3 ∧
    ((∃ s, SegmentCache.run 2 2 (SegmentCache.new 2 3) (insertOps ([5, 1, 4].map fun k => (k, k)))
        = .ok ([5, 1, 4].map (fun _ => (⟨true, none⟩ : Ret Nat)), s) ∧
      s.get_size = [5, 1, 4].length ∧
      ∀ k, k ∈ [5, 1, 4] → ∃ t, SegmentCache.Lookup 2 2 s k 0 = .ok (true, k, t)) ∧
    (∀ ks' : List Nat, ks'.Perm (List.range 40) →
      ∃ s, SegmentCache.run 65536 2 (SegmentCache.new 65536 200)
          (insertOps (ks'.map fun k => (k, k)))
          = .ok (ks'.map (fun _ => (⟨true, none⟩ : Ret Nat)), s) ∧
        ∀ k, k < 40 → ∃ t, SegmentCache.Lookup 65536 2 s k 0 = .ok (true, k, t))) :=
  ⟨by decide, by decide, by decide, by decide, by decide,
    segment_inserts_within_capacity 2 3 2 (by decide) (by decide) (by decide) [5, 1, 4]
      (by decide) (by decide) 0⟩

/-! ## Segment shard: reference counts -/

theorem slotRefs_cons (slot : Slot) (slots : List Slot) (p : Nat) :
    slotRefs (slot :: slots) p = slotRefs slots p + if slot.entry = some p then 1 else 0 := by
  unfold slotRefs
  rw [List.countP_cons]
  by_cases h : slot.entry = some p <;> simp [h]

theorem slotRefs_replicate (S : Nat) (p : Nat) :
    slotRefs (List.replicate S (⟨none, 0⟩ : Slot)) p = 0 := by
  unfold slotRefs
  rw [List.countP_eq_zero]
  intro slot hslot
  rw [List.eq_of_mem_replicate hslot]
  simp

theorem slotRefs_set (slots : List Slot) (i : Nat) (q ver : Nat) (p : Nat) :
    slotRefs (slots.set i ⟨some q, ver⟩) p ≤ slotRefs slots p + if q = p then 1 else 0 := by
  induction slots generalizing i with
  | nil => simp [slotRefs]
  | cons slot slots ih =>
    cases i with
    | zero =>
      rw [List.set_cons_zero, slotRefs_cons, slotRefs_cons]
      by_cases h : q = p <;> simp [h]
    | succ i =>
      rw [List.set_cons_succ, slotRefs_cons, slotRefs_cons]
      have := ih i
      omega

theorem logRefs_append (a b : List Segment) (p : Nat) :
    logRefs (a ++ b) p = logRefs a p + logRefs b p := by
  induction a with
  | nil => simp [logRefs]
  | cons seg a ih =>
    show logRefs (seg :: (a ++ b)) p = logRefs (seg :: a) p + logRefs b p
    simp only [logRefs, ih]
    omega

theorem logRefs_dropLast (segs : List Segment) (victim : Segment)
    (h : segs.getLast? = some victim) (p : Nat) :
    logRefs segs p = logRefs segs.dropLast p + slotRefs victim.slot_array p := by
  rcases List.eq_nil_or_concat segs with rfl | ⟨a, b, rfl⟩
  · simp at h
  · have hb : b = victim := by
      have : (a.concat b).getLast? = some b := by simp
      rw [this] at h
      exact Option.some.inj h
    subst hb
    simp only [List.concat_eq_append, List.dropLast_concat, logRefs_append, logRefs]
    omega

namespace SegmentList

/-- What `Add` does to the log when it returns: it adds at most one reference,
to the entry it was called with, and at most one segment. -/
theorem Add_spec {S : Nat} (hS : 1 ≤ S) (sl : SegmentList) (hne : sl.segments ≠ [])
    (hcount : sl.count + 1 ≤ sl.segments.length) (h64 : sl.segments.length < 2 ^ 64)
    (entry new_version : Nat) (fuel : Nat) (sl' : SegmentList)
    (h : Add S fuel sl entry new_version = .ok sl') :
    sl'.segments ≠ [] ∧ sl'.count + 1 ≤ sl'.segments.length ∧
      sl'.segments.length ≤ sl.segments.length + 1 ∧
      (∀ p, logRefs sl'.segments p ≤ logRefs sl.segments p + if entry = p then 1 else 0) ∧
      ∀ p, logRefs sl'.segments.tail p ≤ logRefs sl.segments p := by
  obtain ⟨segs, count, allocated⟩ := sl
  cases segs with
  | nil => exact absurd rfl hne
  | cons head rest =>
    simp only [List.length_cons] at hcount h64
    cases fuel with
    | zero => simp only [Add] at h; cases h
    | succ fuel =>
      by_cases hused : head.used < S
      · simp only [Add, Segment.Append, hused, if_true] at h
        cases h
        refine ⟨by simp, by simpa using hcount, by simp, fun p => ?_, fun p => ?_⟩
        · simp only [logRefs]
          have := slotRefs_set head.slot_array head.used entry new_version p
          omega
        · simp only [List.tail_cons, logRefs]
          omega
      · cases fuel with
        | zero =>
          simp only [Add, Segment.Append, hused, if_false] at h
          cases h
        | succ fuel =>
          by_cases hfull : u32 (head.used + 1) ≥ S
          · have h0 : 0 < S := hS
            simp only [Add, Segment.Append, hused, if_false, Segment.IsFull, hfull,
              decide_True, if_true, Segment.new, h0] at h
            cases h
            have hu : u64 (count + 1) = count + 1 := u64_of_lt (by omega)
            refine ⟨by simp, ?_, by simp, fun p => ?_, fun p => ?_⟩
            · simp only [hu, List.length_cons]; omega
            · simp only [logRefs]
              have h1 := slotRefs_set (List.replicate S (⟨none, 0⟩ : Slot)) 0 entry
                new_version p
              rw [slotRefs_replicate] at h1
              omega
            · simp only [List.tail_cons, logRefs]
              omega
          · have h1 : u32 (head.used + 1) < S := by omega
            simp only [Add, Segment.Append, hused, if_false, Segment.IsFull, hfull,
              decide_False, Bool.false_eq_true, h1, if_true] at h
            cases h
            refine ⟨by simp, by simpa using hcount, by simp, fun p => ?_, fun p => ?_⟩
            · simp only [logRefs]
              have := slotRefs_set head.slot_array (u32 (head.used + 1)) entry new_version p
              omega
            · simp only [List.tail_cons, logRefs]
              omega

end SegmentList

namespace SegmentCache

variable {V : Type}

theorem u32_pred {n : Nat} (h1 : 1 ≤ n) (h : n < 2 ^ 32) : u32 (2 ^ 32 - 1 + n) = n - 1 := by
  unfold u32
  omega

theorem TryFreeEntry_spec (s : SegmentCache V) (p : Nat) (e : Entry V)
    (hent : HashMap.find s.entries p = some e) (h1 : 1 ≤ e.refs) (h32 : e.refs < 2 ^ 32) :
    ∃ s', TryFreeEntry s p = .ok s' ∧ s'.hash_map_ = s.hash_map_ ∧
      s'.segment_list_ = s.segment_list_ ∧
      (s'.allocated = s.allocated ∧ s'.capacity_ = s.capacity_) ∧
      (∀ q, q ≠ p → HashMap.find s'.entries q = HashMap.find s.entries q) ∧
      HashMap.find s'.entries p
        = if e.refs = 1 then none else some { e with refs := e.refs - 1 } := by
  have hu := u32_pred h1 h32
  by_cases hr : e.refs = 1
  · simp only [TryFreeEntry, hent, hr, if_true]
    refine ⟨_, rfl, rfl, rfl, ⟨rfl, rfl⟩, fun q hq => ?_, ?_⟩
    · simp only [HashMap.find_erase, HashMap.find_update, if_neg hq]
    · simp only [HashMap.find_erase, if_true]
  · simp only [TryFreeEntry, hent, hr, if_false, hu]
    refine ⟨_, rfl, rfl, rfl, ⟨rfl, rfl⟩, fun q hq => ?_, ?_⟩
    · simp only [HashMap.find_update, if_neg hq]
    · simp only [HashMap.find_update, if_true, hent, Option.map_some']

theorem indexRef_le_one (s : SegmentCache V) (p : Nat) (e : Entry V) : s.indexRef p e ≤ 1 := by
  unfold indexRef
  split <;> omega

/-- An entry gives up references: the invariant is kept when the index only
shrinks, the other entries stay as they are, and entry `p` either is freed
while the index does not point to it, or keeps enough references. -/
theorem LoopInv.release {N : Nat} {s s' : SegmentCache V} {pending pending' : List Slot}
    {p : Nat} {e : Entry V} (h : LoopInv N s pending)
    (hent : HashMap.find s.entries p = some e)
    (hseg : s'.segment_list_ = s.segment_list_)
    (halloc : s'.allocated = s.allocated ∧ s'.capacity_ = s.capacity_)
    (hpend : ∀ q, slotRefs pending' q ≤ slotRefs pending q)
    (hidx : ∀ k q, HashMap.find s'.hash_map_ k = some q → HashMap.find s.hash_map_ k = some q)
    (hother : ∀ q, q ≠ p → HashMap.find s'.entries q = HashMap.find s.entries q)
    (hp : (HashMap.find s'.entries p = none ∧ ∀ k, HashMap.find s'.hash_map_ k ≠ some p) ∨
      ∃ r, HashMap.find s'.entries p = some { e with refs := r } ∧ r ≤ e.refs ∧
        s'.indexRef p e + logRefs s.segment_list_.segments p + slotRefs pending' p ≤ r) :
    LoopInv N s' pending' := by
  obtain ⟨ha, hb, hc, he⟩ := h
  have hpalloc : p < s.allocated := by
    by_contra hge
    have := (hc p (by omega)).1
    rw [hent] at this
    cases this
  refine ⟨?_, ?_, ?_, ?_⟩
  · intro k q hq
    obtain ⟨eq, hq1, hq2⟩ := ha k q (hidx k q hq)
    by_cases hqp : q = p
    · subst hqp
      rw [hent] at hq1
      cases hq1
      rcases hp with ⟨_, hnot⟩ | ⟨r, hr, _, _⟩
      · exact absurd hq (hnot k)
      · exact ⟨_, hr, hq2⟩
    · exact ⟨eq, by rw [hother q hqp]; exact hq1, hq2⟩
  · intro q eq hq
    rw [hseg]
    by_cases hqp : q = p
    · subst hqp
      rcases hp with ⟨hnone, _⟩ | ⟨r, hr, hle, hcount⟩
      · rw [hnone] at hq; cases hq
      · rw [hr] at hq
        cases hq
        have hidxeq : s'.indexRef q { e with refs := r } = s'.indexRef q e := rfl
        rw [hidxeq]
        exact ⟨hcount, le_trans hle (hb q e hent).2⟩
    · rw [hother q hqp] at hq
      obtain ⟨h1, h2⟩ := hb q eq hq
      refine ⟨?_, h2⟩
      have hi : s'.indexRef q eq ≤ s.indexRef q eq := by
        unfold indexRef
        by_cases hx : HashMap.find s'.hash_map_ eq.key = some q
        · rw [if_pos hx, if_pos (hidx _ _ hx)]
        · rw [if_neg hx]; exact Nat.zero_le _
      have := hpend q
      omega
  · intro q hq
    rw [halloc.1] at hq
    obtain ⟨h1, h2, h3⟩ := hc q hq
    have hqp : q ≠ p := by omega
    refine ⟨by rw [hother q hqp]; exact h1, by rw [hseg]; exact h2, ?_⟩
    have := hpend q
    omega
  · rw [hseg, halloc.2]; exact he

theorem slotRefs_tail_le (slot : Slot) (slots : List Slot) (q : Nat) :
    slotRefs slots q ≤ slotRefs (slot :: slots) q := by
  rw [slotRefs_cons]; omega

/-- One pass of the loop of `EvictOne` keeps the invariant. -/
theorem LoopInv.evictSlot {N : Nat} (hN : N < 2 ^ 32) {s s' : SegmentCache V} {slot : Slot}
    {slots : List Slot} (h : LoopInv N s (slot :: slots))
    (hstep : SegmentCache.evictSlot s slot = .ok s') : LoopInv N s' slots := by
  unfold SegmentCache.evictSlot at hstep
  cases hslot : slot.entry with
  | none => rw [hslot] at hstep; cases hstep
  | some p =>
    rw [hslot] at hstep
    simp only at hstep
    cases hent : HashMap.find s.entries p with
    | none => rw [hent] at hstep; cases hstep
    | some e =>
      rw [hent] at hstep
      simp only at hstep
      have hb := (h.2.1 p e hent)
      have hsr : slotRefs (slot :: slots) p = slotRefs slots p + 1 := by
        rw [slotRefs_cons, if_pos hslot]
      rw [hsr] at hb
      have h32 : e.refs < 2 ^ 32 := by omega
      have h1 : 1 ≤ e.refs := by omega
      -- the plain release of the slot's reference
      have plain : ∀ t, TryFreeEntry s p = .ok t → LoopInv N t slots := by
        intro t ht
        obtain ⟨t', ht', hmap, hseg, halloc, hother, hpfind⟩ :=
          TryFreeEntry_spec s p e hent h1 h32
        rw [ht'] at ht
        cases ht
        refine h.release hent hseg halloc (slotRefs_tail_le slot slots)
          (fun k q hq => by rw [hmap] at hq; exact hq) hother ?_
        by_cases hr : e.refs = 1
        · left
          rw [hpfind, if_pos hr]
          refine ⟨rfl, fun k hk => ?_⟩
          rw [hmap] at hk
          obtain ⟨e', he', hkey⟩ := h.1 k p hk
          rw [hent] at he'
          cases he'
          have : s.indexRef p e = 1 := by
            unfold indexRef
            rw [hkey, if_pos hk]
          omega
        · right
          refine ⟨e.refs - 1, by rw [hpfind, if_neg hr], by omega, ?_⟩
          have : t.indexRef p e = s.indexRef p e := by
            unfold indexRef; rw [hmap]
          omega
      by_cases hpos : e.refs > 0
      swap
      · rw [if_neg hpos] at hstep; cases hstep
      rw [if_pos hpos] at hstep
      by_cases hver : e.version = slot.version
      swap
      · rw [if_neg hver] at hstep; exact plain s' hstep
      rw [if_pos hver] at hstep
      cases hidx : HashMap.find s.hash_map_ e.key with
      | none => rw [hidx] at hstep; exact plain s' hstep
      | some p' =>
        rw [hidx] at hstep
        simp only at hstep
        by_cases hpp : p' = p
        swap
        · rw [if_neg hpp] at hstep; exact plain s' hstep
        rw [if_pos hpp] at hstep
        by_cases hgt : e.refs > 1
        swap
        · rw [if_neg hgt] at hstep; cases hstep
        rw [if_pos hgt] at hstep
        -- the index points to this entry: it gives up two references
        subst hpp
        have hu := u32_pred h1 h32
        rw [hu] at hstep
        have hent1 : HashMap.find (HashMap.update s.entries p'
            { e with refs := e.refs - 1 }) p' = some { e with refs := e.refs - 1 } := by
          rw [HashMap.find_update, if_pos rfl, hent]; rfl
        obtain ⟨t', ht', hmap, hseg, halloc, hother, hpfind⟩ :=
          TryFreeEntry_spec
            { s with
              entries := HashMap.update s.entries p' { e with refs := e.refs - 1 }
              hash_map_ := HashMap.erase s.hash_map_ e.key }
            p' { e with refs := e.refs - 1 } hent1 (by show 1 ≤ e.refs - 1; omega)
            (by show e.refs - 1 < 2 ^ 32; omega)
        rw [ht'] at hstep
        cases hstep
        have hidx0 : s'.indexRef p' e = 0 := by
          unfold indexRef
          rw [hmap]
          show (if HashMap.find (HashMap.erase s.hash_map_ e.key) e.key = some p'
            then 1 else 0) = 0
          rw [HashMap.find_erase, if_pos rfl]
          simp
        have hione : s.indexRef p' e = 1 := by
          unfold indexRef
          rw [if_pos hidx]
        refine h.release hent hseg halloc (slotRefs_tail_le slot slots) ?_ ?_ ?_
        · intro k q hq
          rw [hmap] at hq
          have hq' : HashMap.find (HashMap.erase s.hash_map_ e.key) k = some q := hq
          rw [HashMap.find_erase] at hq'
          split_ifs at hq' with hk
          exact hq'
        · intro q hq
          rw [hother q hq]
          show HashMap.find (HashMap.update s.entries p' _) q = _
          rw [HashMap.find_update, if_neg hq]
        · by_cases hr : e.refs - 1 = 1
          · left
            rw [hpfind]
            show (if e.refs - 1 = 1 then none else _) = none ∧ _
            rw [if_pos hr]
            refine ⟨rfl, fun k hk => ?_⟩
            rw [hmap] at hk
            have hk' : HashMap.find (HashMap.erase s.hash_map_ e.key) k = some p' := hk
            rw [HashMap.find_erase] at hk'
            split_ifs at hk' with hke
            obtain ⟨e', he', hkey⟩ := h.1 k p' hk'
            rw [hent] at he'
            cases he'
            exact hke hkey.symm
          · right
            refine ⟨e.refs - 1 - 1, ?_, by omega, ?_⟩
            · rw [hpfind]
              show (if e.refs - 1 = 1 then none else _) = _
              rw [if_neg hr]
            · rw [hidx0]; omega

theorem LoopInv.evictSlots {N : Nat} (hN : N < 2 ^ 32) (slots : List Slot) :
    ∀ {s s' : SegmentCache V}, LoopInv N s slots →
      SegmentCache.evictSlots s slots = .ok s' → Inv N s' := by
  induction slots with
  | nil =>
    intro s s' h hrun
    simp only [SegmentCache.evictSlots] at hrun
    cases hrun
    exact h
  | cons slot slots ih =>
    intro s s' h hrun
    simp only [SegmentCache.evictSlots] at hrun
    cases hstep : SegmentCache.evictSlot s slot with
    | error f => rw [hstep] at hrun; cases hrun
    | ok s1 =>
      rw [hstep] at hrun
      exact ih (h.evictSlot hN hstep) hrun

theorem Inv.EvictOne {N : Nat} (hN : N < 2 ^ 32) {s s' : SegmentCache V} (h : Inv N s)
    (hrun : SegmentCache.EvictOne s = .ok s') : Inv N s' := by
  unfold SegmentCache.EvictOne SegmentList.Evict at hrun
  by_cases hc : s.segment_list_.count > 4
  · rw [if_pos hc] at hrun
    cases hl : s.segment_list_.segments.getLast? with
    | none => rw [hl] at hrun; cases hrun
    | some victim =>
      rw [hl] at hrun
      simp only at hrun
      obtain ⟨ha, hb, hcc, hne, hcnt, hlen, hcap⟩ := h
      have hu : u64 (2 ^ 64 - 1 + s.segment_list_.count) = s.segment_list_.count - 1 :=
        u64_pred (by omega) (by omega)
      rw [hu] at hrun
      refine LoopInv.evictSlots hN victim.slot_array ?_ hrun
      refine ⟨ha, ?_, ?_, ?_, ?_, ?_, hcap⟩
      · intro p e hp
        obtain ⟨h1, h2⟩ := hb p e hp
        refine ⟨?_, h2⟩
        have := logRefs_dropLast _ victim hl p
        have hz : slotRefs ([] : List Slot) p = 0 := rfl
        rw [hz] at h1
        show s.indexRef p e + logRefs s.segment_list_.segments.dropLast p
          + slotRefs victim.slot_array p ≤ e.refs
        omega
      · intro p hp
        obtain ⟨h1, h2, _⟩ := hcc p hp
        have := logRefs_dropLast _ victim hl p
        refine ⟨h1, ?_, ?_⟩
        · show logRefs s.segment_list_.segments.dropLast p = 0
          omega
        · omega
      · show s.segment_list_.segments.dropLast ≠ []
        intro h0
        have := congrArg List.length h0
        simp only [List.length_dropLast, List.length_nil] at this
        omega
      · show s.segment_list_.count - 1 + 1 ≤ s.segment_list_.segments.dropLast.length
        rw [List.length_dropLast]
        omega
      · show s.segment_list_.segments.dropLast.length ≤ N
        rw [List.length_dropLast]
        omega
  · rw [if_neg hc] at hrun
    cases hrun
    exact h

theorem Inv.evictLoop {N : Nat} (hN : N < 2 ^ 32) (fuel : Nat) :
    ∀ {s s' : SegmentCache V}, Inv N s → SegmentCache.evictLoop fuel s = .ok s' → Inv N s' := by
  induction fuel with
  | zero =>
    intro s s' h hrun
    simp only [SegmentCache.evictLoop] at hrun
    split_ifs at hrun
    cases hrun
    exact h
  | succ fuel ih =>
    intro s s' h hrun
    simp only [SegmentCache.evictLoop] at hrun
    split_ifs at hrun
    · cases hev : SegmentCache.EvictOne s with
      | error f => rw [hev] at hrun; cases hrun
      | ok s1 =>
        rw [hev] at hrun
        exact ih (h.EvictOne hN hev) hrun
    · cases hrun
      exact h

end SegmentCache

namespace SegmentCache

variable {V : Type}

theorem LoopInv.mono {N M : Nat} (hNM : N ≤ M) {s : SegmentCache V} {pending : List Slot}
    (h : LoopInv N s pending) : LoopInv M s pending := by
  obtain ⟨ha, hb, hc, hne, hcnt, hlen, hcap⟩ := h
  exact ⟨ha, fun p e hp => ⟨(hb p e hp).1, le_trans (hb p e hp).2 hNM⟩, hc, hne, hcnt,
    le_trans hlen hNM, hcap⟩

theorem Inv.inv_start (S C : Nat) (h64 : C < 2 ^ 64) : Inv 1 (SegmentCache.new S C : SegmentCache V) := by
  refine ⟨?_, ?_, ?_, ?_, ?_, ?_, h64⟩
  · intro k p h; cases h
  · intro p e h; cases h
  · intro p _
    refine ⟨rfl, ?_, rfl⟩
    show logRefs [Segment.new S 0] p = 0
    simp only [logRefs, Segment.new, slotRefs_replicate]
  · simp [SegmentCache.new, SegmentList.new]
  · simp [SegmentCache.new, SegmentList.new]
  · simp [SegmentCache.new, SegmentList.new]

theorem Inv.Erase {N : Nat} (hN : N < 2 ^ 32) {s s' : SegmentCache V} (h : Inv N s)
    {k : Nat} {b : Bool} (hrun : SegmentCache.Erase s k = .ok (b, s')) : Inv N s' := by
  unfold SegmentCache.Erase at hrun
  cases hfind : HashMap.find s.hash_map_ k with
  | none => rw [hfind] at hrun; cases hrun; exact h
  | some p =>
    rw [hfind] at hrun
    simp only at hrun
    obtain ⟨e, hent, hkey⟩ := h.1 k p hfind
    have hione : s.indexRef p e = 1 := by
      unfold indexRef
      rw [hkey, if_pos hfind]
    have hb := h.2.1 p e hent
    obtain ⟨t, ht, hmap, hseg, halloc, hother, hpfind⟩ :=
      TryFreeEntry_spec s p e hent (by omega) (by omega)
    rw [ht] at hrun
    cases hrun
    have hidx : ∀ k' q, HashMap.find (HashMap.erase t.hash_map_ k) k' = some q →
        HashMap.find s.hash_map_ k' = some q ∧ k' ≠ k := by
      intro k' q hq
      rw [HashMap.find_erase, hmap] at hq
      split_ifs at hq with hk
      exact ⟨hq, hk⟩
    refine LoopInv.release h hent hseg halloc (fun _ => le_refl _)
      (fun k' q hq => (hidx k' q hq).1) hother ?_
    have hnot : ∀ k', HashMap.find (HashMap.erase t.hash_map_ k) k' ≠ some p := by
      intro k' hk'
      obtain ⟨h1, h2⟩ := hidx k' p hk'
      obtain ⟨e', he', hkey'⟩ := h.1 k' p h1
      rw [hent] at he'
      cases he'
      exact h2 (hkey'.symm.trans hkey)
    by_cases hr : e.refs = 1
    · left
      exact ⟨by rw [hpfind, if_pos hr], hnot⟩
    · right
      refine ⟨e.refs - 1, by rw [hpfind, if_neg hr], by omega, ?_⟩
      have hz : indexRef { t with hash_map_ := HashMap.erase t.hash_map_ k } p e = 0 := by
        unfold indexRef
        rw [if_neg (hnot e.key)]
      rw [hz]
      omega

theorem Inv.Lookup {S fuel N : Nat} (hS : 1 ≤ S) (hN : N + 1 < 2 ^ 32)
    {s s' : SegmentCache V} (h : Inv N s) {k : Nat} {value v : V} {b : Bool}
    (hrun : SegmentCache.Lookup S fuel s k value = .ok (b, v, s')) : Inv (N + 1) s' := by
  unfold SegmentCache.Lookup at hrun
  cases hfind : HashMap.find s.hash_map_ k with
  | none =>
    rw [hfind] at hrun
    cases hrun
    exact h.mono (Nat.le_succ N)
  | some p =>
    rw [hfind] at hrun
    simp only at hrun
    cases hent : HashMap.find s.entries p with
    | none => rw [hent] at hrun; cases hrun
    | some e =>
      rw [hent] at hrun
      simp only at hrun
      by_cases hb : e.belong = s.segment_list_.head_segment
      · simp only [hb, ne_eq, not_true_eq_false, if_false] at hrun
        cases hrun
        exact h.mono (Nat.le_succ N)
      · simp only [ne_eq, hb, not_false_eq_true, if_true] at hrun
        cases hadd : SegmentList.Add S fuel s.segment_list_ p (u32 (e.version + 1)) with
        | error f => rw [hadd] at hrun; cases hrun
        | ok sl =>
          rw [hadd] at hrun
          cases hrun
          obtain ⟨ha, hbb, hc, hne, hcnt, hlen, hcap⟩ := h
          obtain ⟨a1, a2, a3, a4, a5⟩ := SegmentList.Add_spec hS s.segment_list_ hne hcnt
            (by omega) p (u32 (e.version + 1)) fuel sl hadd
          have hrefs := hbb p e hent
          have hu : u32 (e.refs + 1) = e.refs + 1 := by
            unfold u32; exact Nat.mod_eq_of_lt (by omega)
          have hpalloc : p < s.allocated := by
            by_contra hge
            have := (hc p (by omega)).1
            rw [hent] at this
            cases this
          refine ⟨?_, ?_, ?_, a1, a2, (by show sl.segments.length ≤ N + 1; omega), hcap⟩
          · intro k' q hq
            obtain ⟨eq, hq1, hq2⟩ := ha k' q hq
            show ∃ e', HashMap.find (HashMap.update s.entries p _) q = some e' ∧ e'.key = k'
            rw [HashMap.find_update]
            by_cases hqp : q = p
            · subst hqp
              rw [if_pos rfl, hq1]
              rw [hent] at hq1
              cases hq1
              exact ⟨_, rfl, hq2⟩
            · rw [if_neg hqp]
              exact ⟨eq, hq1, hq2⟩
          · intro q eq hq
            have hq' : HashMap.find (HashMap.update s.entries p
                { e with refs := u32 (e.refs + 1), version := u32 (e.version + 1) }) q
                = some eq := hq
            rw [HashMap.find_update] at hq'
            have hs0 : slotRefs ([] : List Slot) q = 0 := rfl
            show indexRef _ q eq + logRefs sl.segments q + slotRefs [] q ≤ eq.refs ∧ _
            by_cases hqp : q = p
            · subst hqp
              rw [if_pos rfl, hent] at hq'
              simp only [Option.map_some', Option.some.injEq] at hq'
              subst hq'
              have := a4 q
              rw [if_pos rfl] at this
              have hi : indexRef
                  { s with
                    entries := HashMap.update s.entries q
                      { e with refs := u32 (e.refs + 1), version := u32 (e.version + 1) }
                    segment_list_ := sl } q
                  { e with refs := u32 (e.refs + 1), version := u32 (e.version + 1) }
                  = s.indexRef q e := rfl
              rw [hi]
              show s.indexRef q e + logRefs sl.segments q + slotRefs [] q ≤ u32 (e.refs + 1) ∧
                u32 (e.refs + 1) ≤ N + 1
              rw [hu, hs0]
              have hs1 : slotRefs ([] : List Slot) q = 0 := rfl
              rw [hs1] at hrefs
              omega
            · rw [if_neg hqp] at hq'
              have h1 := hbb q eq hq'
              have := a4 q
              rw [if_neg (fun h => hqp h.symm)] at this
              have hi : indexRef
                  { s with
                    entries := HashMap.update s.entries p
                      { e with refs := u32 (e.refs + 1), version := u32 (e.version + 1) }
                    segment_list_ := sl } q eq = s.indexRef q eq := rfl
              rw [hi, hs0]
              rw [hs0] at h1
              omega
          · intro q hq
            have hq' : s.allocated ≤ q := hq
            obtain ⟨h1, h2, h3⟩ := hc q hq'
            have hqp : q ≠ p := by omega
            refine ⟨?_, ?_, rfl⟩
            · show HashMap.find (HashMap.update s.entries p _) q = none
              rw [HashMap.find_update, if_neg hqp]
              exact h1
            · have := a4 q
              rw [if_neg (fun h => hqp h.symm)] at this
              show logRefs sl.segments q = 0
              omega

end SegmentCache

namespace SegmentCache

variable {V : Type}

theorem Insert_new_unfold (S fuel : Nat) (s : SegmentCache V) (k : Nat) (v : V)
    (hfind : HashMap.find s.hash_map_ k = none) :
    SegmentCache.Insert S fuel s k v =
      match SegmentList.Add S fuel s.segment_list_ s.allocated 1 with
      | .error f => .error f
      | .ok sl =>
        match SegmentCache.evictLoop fuel
          ⟨s.capacity_, u64 (s.usage_ + 1), HashMap.add s.hash_map_ k s.allocated,
            HashMap.add s.entries s.allocated ⟨k, v, 1, 2, s.segment_list_.head_segment, 1⟩,
            s.allocated + 1, sl⟩ with
        | .error f => .error f
        | .ok s3 => .ok (true, s3) := by
  unfold SegmentCache.Insert
  rw [hfind]
  have hr : u32 (1 + 1) = 2 := by decide
  simp only [hr]

theorem Inv.Insert_linked {S fuel N : Nat} (hS : 1 ≤ S) (hN : N + 1 < 2 ^ 32)
    {s : SegmentCache V} (h : Inv N s) (k : Nat) (v : V) {sl : SegmentList}
    (hadd : SegmentList.Add S fuel s.segment_list_ s.allocated 1 = .ok sl) :
    Inv (N + 1)
      (⟨s.capacity_, u64 (s.usage_ + 1), HashMap.add s.hash_map_ k s.allocated,
        HashMap.add s.entries s.allocated ⟨k, v, 1, 2, s.segment_list_.head_segment, 1⟩,
        s.allocated + 1, sl⟩ : SegmentCache V) := by
  obtain ⟨ha, hbb, hc, hne, hcnt, hlen, hcap⟩ := h
  have hs0 : ∀ q, slotRefs ([] : List Slot) q = 0 := fun _ => rfl
  obtain ⟨a1, a2, a3, a4, a5⟩ := SegmentList.Add_spec hS s.segment_list_ hne hcnt
    (by omega) s.allocated 1 fuel sl hadd
  have hN1 : 1 ≤ N := by
    have := List.length_pos.2 hne
    omega
  refine ⟨?_, ?_, ?_, a1, a2, (by show sl.segments.length ≤ N + 1; omega), hcap⟩
  · intro k' q hq
    have hq' : HashMap.find (HashMap.add s.hash_map_ k s.allocated) k' = some q := hq
    rw [HashMap.find_add] at hq'
    show ∃ e', HashMap.find (HashMap.add s.entries s.allocated _) q = some e' ∧ _
    rw [HashMap.find_add]
    by_cases hk : k = k'
    · rw [if_pos hk] at hq'
      cases hq'
      rw [if_pos rfl]
      exact ⟨_, rfl, hk⟩
    · rw [if_neg hk] at hq'
      obtain ⟨eq, hq1, hq2⟩ := ha k' q hq'
      have hlt : q < s.allocated := by
        by_contra hge
        have := (hc q (by omega)).1
        rw [hq1] at this
        cases this
      rw [if_neg (by omega)]
      exact ⟨eq, hq1, hq2⟩
  · intro q eq hq
    have hq' : HashMap.find (HashMap.add s.entries s.allocated
        ⟨k, v, 1, 2, s.segment_list_.head_segment, 1⟩) q = some eq := hq
    rw [HashMap.find_add] at hq'
    show indexRef _ q eq + logRefs sl.segments q + slotRefs [] q ≤ eq.refs ∧ _
    rw [hs0]
    by_cases hqa : s.allocated = q
    · rw [if_pos hqa] at hq'
      cases hq'
      have h0 := (hc q (by omega)).2.1
      have := a4 q
      rw [if_pos hqa] at this
      have hi := indexRef_le_one
        (⟨s.capacity_, u64 (s.usage_ + 1), HashMap.add s.hash_map_ k s.allocated,
        HashMap.add s.entries s.allocated ⟨k, v, 1, 2, s.segment_list_.head_segment, 1⟩,
        s.allocated + 1, sl⟩ : SegmentCache V) q
        ⟨k, v, 1, 2, s.segment_list_.head_segment, 1⟩
      refine ⟨?_, by show 2 ≤ N + 1; omega⟩
      show _ ≤ 2
      omega
    · rw [if_neg hqa] at hq'
      have h1 := hbb q eq hq'
      rw [hs0] at h1
      have := a4 q
      rw [if_neg hqa] at this
      have hi : indexRef
          (⟨s.capacity_, u64 (s.usage_ + 1), HashMap.add s.hash_map_ k s.allocated,
        HashMap.add s.entries s.allocated ⟨k, v, 1, 2, s.segment_list_.head_segment, 1⟩,
        s.allocated + 1, sl⟩ : SegmentCache V) q eq ≤ s.indexRef q eq := by
        unfold indexRef
        show (if HashMap.find (HashMap.add s.hash_map_ k s.allocated) eq.key = some q
          then 1 else 0) ≤ _
        rw [HashMap.find_add]
        by_cases hk : k = eq.key
        · rw [if_pos hk]
          have : ¬ some s.allocated = some q := fun h => hqa (Option.some.inj h)
          rw [if_neg this]
          exact Nat.zero_le _
        · rw [if_neg hk]
      omega
  · intro q hq
    have hq' : s.allocated + 1 ≤ q := hq
    obtain ⟨h1, h2, h3⟩ := hc q (by omega)
    refine ⟨?_, ?_, rfl⟩
    · show HashMap.find (HashMap.add s.entries s.allocated _) q = none
      rw [HashMap.find_add, if_neg (by omega)]
      exact h1
    · have := a4 q
      rw [if_neg (by omega)] at this
      show logRefs sl.segments q = 0
      omega

theorem Inv.Insert {S fuel N : Nat} (hS : 1 ≤ S) (hN : N + 1 < 2 ^ 32)
    {s s' : SegmentCache V} (h : Inv N s) {k : Nat} {v : V} {b : Bool}
    (hrun : SegmentCache.Insert S fuel s k v = .ok (b, s')) : Inv (N + 1) s' := by
  have hs0 : ∀ q, slotRefs ([] : List Slot) q = 0 := fun _ => rfl
  cases hfind : HashMap.find s.hash_map_ k with
  | some p =>
    unfold SegmentCache.Insert at hrun
    obtain ⟨ha, hbb, hc, hne, hcnt, hlen, hcap⟩ := h
    rw [hfind] at hrun
    simp only at hrun
    cases hent : HashMap.find s.entries p with
    | none => rw [hent] at hrun; cases hrun
    | some e =>
      rw [hent] at hrun
      cases hrun
      refine ⟨?_, ?_, ?_, hne, hcnt, (by show s.segment_list_.segments.length ≤ N + 1; omega),
        hcap⟩
      · intro k' q hq
        obtain ⟨eq, hq1, hq2⟩ := ha k' q hq
        show ∃ e', HashMap.find (HashMap.update s.entries p _) q = some e' ∧ e'.key = k'
        rw [HashMap.find_update]
        by_cases hqp : q = p
        · subst hqp
          rw [if_pos rfl, hq1]
          rw [hent] at hq1
          cases hq1
          exact ⟨_, rfl, hq2⟩
        · rw [if_neg hqp]
          exact ⟨eq, hq1, hq2⟩
      · intro q eq hq
        have hq' : HashMap.find (HashMap.update s.entries p { e with value := v }) q
            = some eq := hq
        rw [HashMap.find_update] at hq'
        by_cases hqp : q = p
        · subst hqp
          rw [if_pos rfl, hent] at hq'
          simp only [Option.map_some', Option.some.injEq] at hq'
          subst hq'
          have := hbb q e hent
          exact ⟨this.1, by show e.refs ≤ N + 1; omega⟩
        · rw [if_neg hqp] at hq'
          have := hbb q eq hq'
          exact ⟨this.1, by omega⟩
      · intro q hq
        obtain ⟨h1, h2, h3⟩ := hc q hq
        refine ⟨?_, h2, h3⟩
        show HashMap.find (HashMap.update s.entries p _) q = none
        rw [HashMap.find_update, h1]
        split <;> rfl
  | none =>
    rw [Insert_new_unfold S fuel s k v hfind] at hrun
    cases hadd : SegmentList.Add S fuel s.segment_list_ s.allocated 1 with
    | error f => rw [hadd] at hrun; cases hrun
    | ok sl =>
      rw [hadd] at hrun
      simp only at hrun
      have hinv := Inv.Insert_linked hS hN h k v hadd
      cases hloop : SegmentCache.evictLoop fuel
          (⟨s.capacity_, u64 (s.usage_ + 1), HashMap.add s.hash_map_ k s.allocated,
            HashMap.add s.entries s.allocated ⟨k, v, 1, 2, s.segment_list_.head_segment, 1⟩,
            s.allocated + 1, sl⟩ : SegmentCache V) with
      | error f => rw [hloop] at hrun; cases hrun
      | ok s3 =>
        rw [hloop] at hrun
        cases hrun
        exact Inv.evictLoop hN fuel hinv hloop

theorem Inv.step {S fuel N : Nat} (hS : 1 ≤ S) (hN : N + 1 < 2 ^ 32)
    {s s' : SegmentCache V} (h : Inv N s) {op : Op V} {r : Ret V}
    (hrun : SegmentCache.step S fuel s op = .ok (r, s')) : Inv (N + 1) s' := by
  cases op with
  | Insert k v =>
    simp only [SegmentCache.step] at hrun
    cases hi : SegmentCache.Insert S fuel s k v with
    | error f => rw [hi] at hrun; cases hrun
    | ok res =>
      rw [hi] at hrun
      cases hrun
      exact h.Insert hS hN hi
  | Lookup k v =>
    simp only [SegmentCache.step] at hrun
    cases hi : SegmentCache.Lookup S fuel s k v with
    | error f => rw [hi] at hrun; cases hrun
    | ok res =>
      rw [hi] at hrun
      cases hrun
      exact h.Lookup hS hN hi
  | Erase k =>
    simp only [SegmentCache.step] at hrun
    cases hi : SegmentCache.Erase s k with
    | error f => rw [hi] at hrun; cases hrun
    | ok res =>
      rw [hi] at hrun
      cases hrun
      exact (h.Erase (by omega) hi).mono (Nat.le_succ N)

theorem Inv.run {S fuel : Nat} (hS : 1 ≤ S) (ops : List (Op V)) :
    ∀ {N : Nat} {s s' : SegmentCache V} {rs : List (Ret V)}, Inv N s →
      N + ops.length < 2 ^ 32 → SegmentCache.run S fuel s ops = .ok (rs, s') →
      Inv (N + ops.length) s' := by
  induction ops with
  | nil =>
    intro N s s' rs h _ hrun
    simp only [SegmentCache.run] at hrun
    cases hrun
    exact h
  | cons op ops ih =>
    intro N s s' rs h hN hrun
    simp only [List.length_cons] at hN
    simp only [SegmentCache.run] at hrun
    cases hs : SegmentCache.step S fuel s op with
    | error f => rw [hs] at hrun; cases hrun
    | ok res =>
      obtain ⟨r, s1⟩ := res
      rw [hs] at hrun
      simp only at hrun
      cases hr : SegmentCache.run S fuel s1 ops with
      | error f => rw [hr] at hrun; cases hrun
      | ok res2 =>
        obtain ⟨rs2, s2⟩ := res2
        rw [hr] at hrun
        cases hrun
        have := ih (h.step hS (by omega) hs) (by omega) hr
        rw [List.length_cons]
        have e : N + (ops.length + 1) = N + 1 + ops.length := by omega
        rw [e]
        exact this

/-- Every state a sequential execution of fewer than `2 ^ 32 - 1` calls
reaches satisfies the invariant. -/
theorem Reachable.inv {S fuel C n : Nat} (hS : 1 ≤ S) (h64 : C < 2 ^ 64)
    (hn : n + 1 < 2 ^ 32) {s : SegmentCache V} (h : Reachable S fuel C n s) :
    Inv (1 + n) s := by
  obtain ⟨ops, rs, hlen, hrun⟩ := h
  subst hlen
  exact Inv.run hS ops (Inv.inv_start S C h64) (by omega) hrun

end SegmentCache

namespace SegmentCache

variable {V : Type}

/-- The index entry of key `k` points to `p`, and entry `p` is `e`, in every
copy the heap model holds of it. -/
def Keeps (s : SegmentCache V) (k p : Nat) (e : Entry V) : Prop :=
  HashMap.find s.hash_map_ k = some p ∧ HashMap.find s.entries p = some e ∧
    ∀ pair ∈ s.entries, pair.1 = p → pair.2 = e

theorem mem_update_of_ne {β : Type} (m : HashMap β) (q : Nat) (b : β) (pair : Nat × β)
    (h : pair ∈ HashMap.update m q b) (hne : pair.1 ≠ q) : pair ∈ m := by
  simp only [HashMap.update, List.mem_map] at h
  obtain ⟨x, hx, hxe⟩ := h
  by_cases hq : x.1 = q
  · rw [if_pos hq] at hxe
    rw [← hxe] at hne
    exact absurd hq hne
  · rw [if_neg hq] at hxe
    rw [← hxe]
    exact hx

theorem Keeps.keep_TryFreeEntry {s s' : SegmentCache V} {k p : Nat} {e : Entry V}
    (h : Keeps s k p e) {q : Nat} (hq : q ≠ p)
    (hrun : SegmentCache.TryFreeEntry s q = .ok s') :
    Keeps s' k p e ∧ s'.segment_list_ = s.segment_list_ := by
  unfold SegmentCache.TryFreeEntry at hrun
  obtain ⟨h1, h2, h3⟩ := h
  have hp : p ≠ q := fun h => hq h.symm
  cases hent : HashMap.find s.entries q with
  | none => rw [hent] at hrun; cases hrun
  | some eq =>
    rw [hent] at hrun
    simp only at hrun
    split_ifs at hrun
    · cases hrun
      refine ⟨⟨h1, ?_, ?_⟩, rfl⟩
      · show HashMap.find (HashMap.erase (HashMap.update s.entries q _) q) p = some e
        rw [HashMap.find_erase, if_neg hp, HashMap.find_update, if_neg hp]
        exact h2
      · intro pair hpair hpp
        have hm := List.mem_of_mem_filter hpair
        exact h3 pair (mem_update_of_ne _ _ _ _ hm (by rw [hpp]; exact hp)) hpp
    · cases hrun
      refine ⟨⟨h1, ?_, ?_⟩, rfl⟩
      · show HashMap.find (HashMap.update s.entries q _) p = some e
        rw [HashMap.find_update, if_neg hp]
        exact h2
      · intro pair hpair hpp
        exact h3 pair (mem_update_of_ne _ _ _ _ hpair (by rw [hpp]; exact hp)) hpp

theorem Keeps.keep_evictSlot {s s' : SegmentCache V} {k p : Nat} {e : Entry V}
    (h : Keeps s k p e) {slot : Slot} (hslot : slot.entry ≠ some p)
    (hrun : SegmentCache.evictSlot s slot = .ok s') :
    Keeps s' k p e ∧ s'.segment_list_ = s.segment_list_ := by
  unfold SegmentCache.evictSlot at hrun
  cases hse : slot.entry with
  | none => rw [hse] at hrun; cases hrun
  | some q =>
    rw [hse] at hrun hslot
    have hq : q ≠ p := fun h => hslot (by rw [h])
    have hp : p ≠ q := fun h => hq h.symm
    simp only at hrun
    cases hent : HashMap.find s.entries q with
    | none => rw [hent] at hrun; cases hrun
    | some eq =>
      rw [hent] at hrun
      simp only at hrun
      by_cases hpos : eq.refs > 0
      swap
      · rw [if_neg hpos] at hrun; cases hrun
      rw [if_pos hpos] at hrun
      by_cases hver : eq.version = slot.version
      swap
      · rw [if_neg hver] at hrun; exact h.keep_TryFreeEntry hq hrun
      rw [if_pos hver] at hrun
      cases hidx : HashMap.find s.hash_map_ eq.key with
      | none => rw [hidx] at hrun; exact h.keep_TryFreeEntry hq hrun
      | some p' =>
        rw [hidx] at hrun
        simp only at hrun
        by_cases hpp : p' = q
        swap
        · rw [if_neg hpp] at hrun; exact h.keep_TryFreeEntry hq hrun
        rw [if_pos hpp] at hrun
        by_cases hgt : eq.refs > 1
        swap
        · rw [if_neg hgt] at hrun; cases hrun
        rw [if_pos hgt] at hrun
        subst hpp
        have hkey : eq.key ≠ k := by
          intro hk
          rw [hk, h.1] at hidx
          exact hp (Option.some.inj hidx)
        have hk1 : Keeps
            ({ s with
              entries := HashMap.update s.entries p' { eq with refs := u32 (2 ^ 32 - 1 + eq.refs) }
              hash_map_ := HashMap.erase s.hash_map_ eq.key } : SegmentCache V) k p e := by
          obtain ⟨h1, h2, h3⟩ := h
          refine ⟨?_, ?_, ?_⟩
          · show HashMap.find (HashMap.erase s.hash_map_ eq.key) k = some p
            rw [HashMap.find_erase, if_neg (fun h => hkey h.symm)]
            exact h1
          · show HashMap.find (HashMap.update s.entries p' _) p = some e
            rw [HashMap.find_update, if_neg hp]
            exact h2
          · intro pair hpair hpe
            exact h3 pair (mem_update_of_ne _ _ _ _ hpair (by rw [hpe]; exact hp)) hpe
        exact hk1.keep_TryFreeEntry hq hrun

theorem Keeps.keep_evictSlots {k p : Nat} {e : Entry V} (slots : List Slot) :
    ∀ {s s' : SegmentCache V}, Keeps s k p e → slotRefs slots p = 0 →
      SegmentCache.evictSlots s slots = .ok s' →
      Keeps s' k p e ∧ s'.segment_list_ = s.segment_list_ := by
  induction slots with
  | nil =>
    intro s s' h _ hrun
    simp only [SegmentCache.evictSlots] at hrun
    cases hrun
    exact ⟨h, rfl⟩
  | cons slot slots ih =>
    intro s s' h hz hrun
    rw [slotRefs_cons] at hz
    have hslot : slot.entry ≠ some p := by
      intro hs
      rw [if_pos hs] at hz
      omega
    simp only [SegmentCache.evictSlots] at hrun
    cases hstep : SegmentCache.evictSlot s slot with
    | error f => rw [hstep] at hrun; cases hrun
    | ok s1 =>
      rw [hstep] at hrun
      obtain ⟨hk1, hs1⟩ := h.keep_evictSlot hslot hstep
      obtain ⟨hk2, hs2⟩ := ih hk1 (by omega) hrun
      exact ⟨hk2, hs2.trans hs1⟩

theorem logRefs_dropLast_le (segs : List Segment) (p : Nat) :
    logRefs segs.dropLast p ≤ logRefs segs p := by
  rcases List.eq_nil_or_concat segs with rfl | ⟨a, b, rfl⟩
  · simp [logRefs]
  · simp only [List.concat_eq_append, List.dropLast_concat, logRefs_append]
    omega

theorem Keeps.keep_EvictOne {N : Nat} {k p : Nat} {e : Entry V} {s s' : SegmentCache V}
    (hinv : Inv N s) (h : Keeps s k p e) (hq : logRefs s.segment_list_.segments.tail p = 0)
    (hrun : SegmentCache.EvictOne s = .ok s') :
    Keeps s' k p e ∧ logRefs s'.segment_list_.segments.tail p = 0 := by
  unfold SegmentCache.EvictOne SegmentList.Evict at hrun
  by_cases hc : s.segment_list_.count > 4
  · rw [if_pos hc] at hrun
    cases hl : s.segment_list_.segments.getLast? with
    | none => rw [hl] at hrun; cases hrun
    | some victim =>
      rw [hl] at hrun
      simp only at hrun
      obtain ⟨_, _, _, hne, hcnt, _, _⟩ := hinv
      -- the victim is not the head segment
      obtain ⟨head, rest, hsegs⟩ : ∃ head rest, s.segment_list_.segments = head :: rest := by
        cases hs : s.segment_list_.segments with
        | nil => exact absurd hs hne
        | cons head rest => exact ⟨head, rest, rfl⟩
      rw [hsegs] at hq hl hcnt
      simp only [List.tail_cons] at hq
      have hrest : rest ≠ [] := by
        intro h0
        rw [h0] at hcnt
        simp only [List.length_cons, List.length_nil] at hcnt
        omega
      have hl' : rest.getLast? = some victim := by
        cases rest with
        | nil => exact absurd rfl hrest
        | cons r rs => rw [List.getLast?_cons_cons] at hl; exact hl
      have hv : slotRefs victim.slot_array p = 0 := by
        have := logRefs_dropLast rest victim hl' p
        omega
      have hk0 : Keeps
          ({ s with
            segment_list_ :=
              { s.segment_list_ with
                segments := s.segment_list_.segments.dropLast
                count := u64 (2 ^ 64 - 1 + s.segment_list_.count) } } : SegmentCache V) k p e := h
      obtain ⟨hk1, hs1⟩ := Keeps.keep_evictSlots victim.slot_array hk0 hv hrun
      refine ⟨hk1, ?_⟩
      rw [hs1]
      show logRefs s.segment_list_.segments.dropLast.tail p = 0
      rw [hsegs, List.dropLast_cons_of_ne_nil hrest, List.tail_cons]
      have := logRefs_dropLast_le rest p
      omega
  · rw [if_neg hc] at hrun
    cases hrun
    exact ⟨h, hq⟩

theorem Keeps.keep_evictLoop {N : Nat} (hN : N < 2 ^ 32) {k p : Nat} {e : Entry V} (fuel : Nat) :
    ∀ {s s' : SegmentCache V}, Inv N s → Keeps s k p e →
      logRefs s.segment_list_.segments.tail p = 0 →
      SegmentCache.evictLoop fuel s = .ok s' → Keeps s' k p e := by
  induction fuel with
  | zero =>
    intro s s' _ h _ hrun
    simp only [SegmentCache.evictLoop] at hrun
    split_ifs at hrun
    cases hrun
    exact h
  | succ fuel ih =>
    intro s s' hinv h hq hrun
    simp only [SegmentCache.evictLoop] at hrun
    split_ifs at hrun
    · cases hev : SegmentCache.EvictOne s with
      | error f => rw [hev] at hrun; cases hrun
      | ok s1 =>
        rw [hev] at hrun
        obtain ⟨hk1, hq1⟩ := h.keep_EvictOne hinv hq hev
        exact ih (hinv.EvictOne hN hev) hk1 hq1 hrun
    · cases hrun
      exact h

end SegmentCache

/-! ## Erase -/

theorem FifoCache.Lookup_res {V : Type} (t : FifoCache V) (k' : Nat) (value : V) :
    (FifoCache.Lookup t k' value).1 = (HashMap.find t.m_map k').isSome ∧
      (FifoCache.Lookup t k' value).2.1 = (HashMap.find t.m_map k').getD value ∧
      (FifoCache.Lookup t k' value).2.2 = t := by
  unfold FifoCache.Lookup
  cases HashMap.find t.m_map k' <;> exact ⟨rfl, rfl, rfl⟩

theorem FifoCache.fifo_Erase_spec {V : Type} (s : FifoCache V) (k : Nat) (value : V)
    (hmem : ∀ k, (HashMap.find s.m_map k).isSome = true → k ∈ s.m_list) :
    ∃ s', FifoCache.Erase s k = .ok ((FifoCache.Lookup s k value).1, s') ∧
      FifoCache.Lookup s' k value = (false, value, s') ∧
      (∀ k', k' ≠ k →
        (FifoCache.Lookup s' k' value).1 = (FifoCache.Lookup s k' value).1 ∧
        (FifoCache.Lookup s' k' value).2.1 = (FifoCache.Lookup s k' value).2.1) ∧
      ((FifoCache.Lookup s k value).1 = false → s' = s) := by
  cases hfind : HashMap.find s.m_map k with
  | none =>
    refine ⟨s, ?_, ?_, fun k' _ => ⟨rfl, rfl⟩, fun _ => rfl⟩
    · simp only [FifoCache.Erase, FifoCache.Lookup, hfind]
    · simp only [FifoCache.Lookup, hfind]
  | some b =>
    have hk : k ∈ s.m_list := hmem k (by rw [hfind]; rfl)
    have he : FifoCache.Erase s k = .ok (true, ⟨s.capacity_, u64 (2 ^ 64 - 1 + s.usage_),
        HashMap.erase s.m_map k, s.m_list.erase k⟩) := by
      simp only [FifoCache.Erase, hfind, hk, if_true, FifoCache.ListRemove]
    generalize u64 (2 ^ 64 - 1 + s.usage_) = u at he
    refine ⟨⟨s.capacity_, u, HashMap.erase s.m_map k, s.m_list.erase k⟩, ?_, ?_, ?_, ?_⟩
    · rw [he, (FifoCache.Lookup_res s k value).1, hfind]; rfl
    · rw [FifoCache.fifo_Lookup_of_find]
      simp only [HashMap.find_erase, if_true]
    · intro k' hk'
      rw [(FifoCache.Lookup_res _ k' value).1, (FifoCache.Lookup_res _ k' value).2.1,
        (FifoCache.Lookup_res s k' value).1, (FifoCache.Lookup_res s k' value).2.1]
      simp only [HashMap.find_erase, if_neg hk', and_self]
    · intro h
      rw [(FifoCache.Lookup_res s k value).1, hfind] at h
      simp at h
theorem LruCache.lru_Erase_spec {V : Type} (s : LruCache V) (k : Nat) (value : V)
    (hmem : ∀ k, (HashMap.find s.hash_map_ k).isSome = true → k ∈ s.list_) :
    ∃ s', LruCache.Erase s k = .ok ((LruCache.Lookup s k value true).1, s') ∧
      (LruCache.Lookup s' k value true).1 = false ∧
      (∀ k', k' ≠ k →
        (LruCache.Lookup s' k' value true).1 = (LruCache.Lookup s k' value true).1 ∧
        (LruCache.Lookup s' k' value true).2.1 = (LruCache.Lookup s k' value true).2.1) ∧
      ((LruCache.Lookup s k value true).1 = false → s' = s) := by
  have hres : ∀ (t : LruCache V) (k' : Nat),
      (LruCache.Lookup t k' value true).1 = (HashMap.find t.hash_map_ k').isSome ∧
      (LruCache.Lookup t k' value true).2.1 = (HashMap.find t.hash_map_ k').getD value := by
    intro t k'
    unfold LruCache.Lookup
    cases HashMap.find t.hash_map_ k' with
    | none => exact ⟨rfl, rfl⟩
    | some b => simp only [if_true]; split <;> exact ⟨rfl, rfl⟩
  cases hfind : HashMap.find s.hash_map_ k with
  | none =>
    refine ⟨s, ?_, ?_, fun k' _ => ⟨rfl, rfl⟩, fun _ => rfl⟩
    · simp only [LruCache.Erase, LruCache.Lookup, hfind]
    · simp only [LruCache.Lookup, hfind]
  | some b =>
    have hk : k ∈ s.list_ := hmem k (by rw [hfind]; rfl)
    have he : LruCache.Erase s k = .ok (true, ⟨s.capacity_, u64 (2 ^ 64 - 1 + s.usage_),
        HashMap.erase s.hash_map_ k, s.list_.erase k⟩) := by
      simp only [LruCache.Erase, hfind, hk, if_true, LruCache.LruRemove]
    generalize u64 (2 ^ 64 - 1 + s.usage_) = u at he
    refine ⟨⟨s.capacity_, u, HashMap.erase s.hash_map_ k, s.list_.erase k⟩, ?_, ?_, ?_, ?_⟩
    · rw [he, (hres s k).1, hfind]; rfl
    · rw [(hres _ k).1]
      simp only [HashMap.find_erase, if_true, Option.isSome_none]
    · intro k' hk'
      rw [(hres _ k').1, (hres _ k').2, (hres s k').1, (hres s k').2]
      simp only [HashMap.find_erase, if_neg hk', and_self]
    · intro h
      rw [(hres s k).1, hfind] at h
      simp at h

namespace SegmentCache

variable {V : Type}

theorem Lookup_congr (S fuel : Nat) (s s' : SegmentCache V) (k : Nat) (value : V)
    (h1 : HashMap.find s'.hash_map_ k = HashMap.find s.hash_map_ k)
    (h2 : ∀ p, HashMap.find s.hash_map_ k = some p →
      HashMap.find s'.entries p = HashMap.find s.entries p)
    (h3 : s'.segment_list_ = s.segment_list_)
    {b : Bool} {v : V} {t : SegmentCache V}
    (h : Lookup S fuel s k value = .ok (b, v, t)) :
    ∃ t', Lookup S fuel s' k value = .ok (b, v, t') := by
  unfold Lookup at h ⊢
  rw [h1]
  cases hfind : HashMap.find s.hash_map_ k with
  | none =>
    rw [hfind] at h
    simp only [Except.ok.injEq, Prod.mk.injEq] at h
    exact ⟨s', by simp only [h.1, h.2.1]⟩
  | some p =>
    rw [hfind] at h
    simp only at h ⊢
    rw [h2 p hfind, h3]
    cases hent : HashMap.find s.entries p with
    | none => rw [hent] at h; cases h
    | some e =>
      rw [hent] at h
      simp only at h ⊢
      by_cases hb : e.belong = s.segment_list_.head_segment
      · simp only [hb, ne_eq, not_true_eq_false, if_false, Except.ok.injEq,
          Prod.mk.injEq] at h ⊢
        exact ⟨s', h.1, h.2.1, rfl⟩
      · simp only [ne_eq, hb, not_false_eq_true, if_true] at h ⊢
        cases hadd : SegmentList.Add S fuel s.segment_list_ p (u32 (e.version + 1)) with
        | error f => rw [hadd] at h; cases h
        | ok sl =>
          rw [hadd] at h
          simp only [Except.ok.injEq, Prod.mk.injEq] at h ⊢
          exact ⟨_, h.1, h.2.1, rfl⟩

theorem segment_Erase_spec (S fuel : Nat) (s : SegmentCache V) (hs : s.IndexOk) (k : Nat) (value : V) :
    ∃ s', Erase s k = .ok ((HashMap.find s.hash_map_ k).isSome, s') ∧
      Lookup S fuel s' k value = .ok (false, value, s') ∧
      (∀ k' v t, k' ≠ k → Lookup S fuel s k' value = .ok (true, v, t) →
        ∃ t', Lookup S fuel s' k' value = .ok (true, v, t')) ∧
      (HashMap.find s.hash_map_ k = none → s' = s) := by
  cases hfind : HashMap.find s.hash_map_ k with
  | none =>
    refine ⟨s, ?_, ?_, fun k' v t _ h => ⟨t, h⟩, fun _ => rfl⟩
    · simp only [Erase, hfind, Option.isSome_none]
    · simp only [Lookup, hfind]
  | some p =>
    obtain ⟨e, hent, hkey⟩ := hs k p hfind
    have hfree : ∃ s1, TryFreeEntry s p = .ok s1 ∧ s1.hash_map_ = s.hash_map_ ∧
        s1.segment_list_ = s.segment_list_ ∧
        ∀ p', p' ≠ p → HashMap.find s1.entries p' = HashMap.find s.entries p' := by
      by_cases hr : e.refs = 1
      · simp only [TryFreeEntry, hent, hr, if_true]
        refine ⟨_, rfl, rfl, rfl, ?_⟩
        intro p' hp'
        simp only [HashMap.find_erase, HashMap.find_update, if_neg hp']
      · simp only [TryFreeEntry, hent, hr, if_false]
        refine ⟨_, rfl, rfl, rfl, ?_⟩
        intro p' hp'
        simp only [HashMap.find_update, if_neg hp']
    obtain ⟨s1, hfree, hmap, hsl, hother⟩ := hfree
    refine ⟨{ s1 with hash_map_ := HashMap.erase s1.hash_map_ k }, ?_, ?_, ?_, ?_⟩
    · simp only [Erase, hfind, hfree, Option.isSome_some]
    · simp only [Lookup, HashMap.find_erase, if_true]
    · intro k' v t hk' hlook
      have e1 : HashMap.find (HashMap.erase s1.hash_map_ k) k' = HashMap.find s.hash_map_ k' := by
        rw [HashMap.find_erase, if_neg hk', hmap]
      have e2 : ∀ p', HashMap.find s.hash_map_ k' = some p' →
          HashMap.find s1.entries p' = HashMap.find s.entries p' := by
        intro p' hp'
        obtain ⟨e', hent', hkey'⟩ := hs k' p' hp'
        have hne : p' ≠ p := by
          intro heq
          rw [heq, hent] at hent'
          simp only [Option.some.injEq] at hent'
          rw [← hent'] at hkey'
          exact hk' (hkey'.symm.trans hkey)
        exact hother p' hne
      exact Lookup_congr S fuel s { s1 with hash_map_ := HashMap.erase s1.hash_map_ k } k'
        value e1 e2 hsl hlook
    · intro h; cases h

end SegmentCache

/-! ## Insert of a resident key -/

theorem HashMap.update_eq_self {β : Type} (m : HashMap β) (k : Nat) (b : β)
    (h : ∀ p ∈ m, p.1 = k → p.2 = b) : HashMap.update m k b = m := by
  induction m with
  | nil => rfl
  | cons p m ih =>
    obtain ⟨q, c⟩ := p
    rw [HashMap.update_cons, ih (fun p hp => h p (List.mem_cons_of_mem _ hp))]
    by_cases hq : q = k
    · have hc : c = b := h (q, c) (List.mem_cons_self _ _) hq
      rw [if_pos hq, hc]
    · rw [if_neg hq]

theorem HashMap.update_values {β : Type} (m : HashMap β) (k : Nat) (b : β) :
    ∀ p ∈ HashMap.update m k b, p.1 = k → p.2 = b := by
  intro p hp hk
  simp only [HashMap.update, List.mem_map] at hp
  obtain ⟨q, _, hq⟩ := hp
  by_cases h : q.1 = k
  · rw [if_pos h] at hq; rw [← hq]
  · rw [if_neg h] at hq; rw [← hq] at hk; exact absurd hk h

theorem HashMap.add_values {β : Type} (m : HashMap β) (k : Nat) (b : β)
    (h : HashMap.find m k = none) : ∀ p ∈ HashMap.add m k b, p.1 = k → p.2 = b := by
  intro p hp hk
  simp only [HashMap.add, List.mem_cons] at hp
  rcases hp with rfl | hp
  · rfl
  · exfalso
    exact (HashMap.find_eq_none_iff m k).1 h (hk ▸ List.mem_map_of_mem Prod.fst hp)

theorem HashMap.erase_values {β : Type} (m : HashMap β) (k k' : Nat) (b : β)
    (h : ∀ p ∈ m, p.1 = k → p.2 = b) : ∀ p ∈ HashMap.erase m k', p.1 = k → p.2 = b :=
  fun p hp => h p (List.mem_of_mem_filter hp)

namespace FifoCache

variable {V : Type}

theorem fifo_EvictOne_values (s : FifoCache V) (k : Nat) (b : V)
    (h : ∀ p ∈ s.m_map, p.1 = k → p.2 = b) : ∀ p ∈ (EvictOne s).m_map, p.1 = k → p.2 = b := by
  unfold EvictOne
  cases s.m_list.getLast? with
  | none => exact h
  | some node =>
    simp only
    cases HashMap.find s.m_map node with
    | none => exact h
    | some _ => exact HashMap.erase_values _ _ _ _ h

theorem EvictOne_usage (s : FifoCache V) (u : Nat) :
    (EvictOne { s with usage_ := u }).m_map = (EvictOne s).m_map := by
  unfold EvictOne
  cases s.m_list.getLast? with
  | none => rfl
  | some node =>
    simp only
    cases HashMap.find s.m_map node <;> rfl

/-- Every index entry under `k` holds `v` after `Insert(k, v)`. -/
theorem fifo_Insert_values (s : FifoCache V) (k : Nat) (v : V) :
    ∀ p ∈ (Insert s k v).2.m_map, p.1 = k → p.2 = v := by
  unfold Insert
  cases hfind : HashMap.find s.m_map k with
  | some b => exact HashMap.update_values _ _ _
  | none =>
    have h0 := HashMap.add_values s.m_map k v hfind
    simp only
    split_ifs <;>
      first
      | exact h0
      | exact fifo_EvictOne_values _ k v h0
      | (rw [EvictOne_usage]; apply fifo_EvictOne_values; first | exact h0 | exact fifo_EvictOne_values _ k v h0)

theorem fifo_Insert_of_resident (s : FifoCache V) (k : Nat) (v : V)
    (h : (HashMap.find s.m_map k).isSome = true) :
    Insert s k v = (false, { s with m_map := HashMap.update s.m_map k v }) := by
  unfold Insert
  cases hfind : HashMap.find s.m_map k with
  | none => rw [hfind] at h; cases h
  | some b => rfl

theorem Insert_of_new (s : FifoCache V) (k : Nat) (v : V)
    (h : HashMap.find s.m_map k = none) : (Insert s k v).1 = true := by
  unfold Insert
  rw [h]

end FifoCache

namespace LruCache

variable {V : Type}

theorem lru_EvictOne_values (s s' : LruCache V) (k : Nat) (b : V)
    (h : ∀ p ∈ s.hash_map_, p.1 = k → p.2 = b) (he : EvictOne s = .ok s') :
    ∀ p ∈ s'.hash_map_, p.1 = k → p.2 = b := by
  unfold EvictOne at he
  cases hl : s.list_.getLast? with
  | none => rw [hl] at he; cases he
  | some node =>
    rw [hl] at he
    simp only at he
    cases hf : HashMap.find s.hash_map_ node with
    | none => rw [hf] at he; cases he; exact h
    | some _ => rw [hf] at he; cases he; exact HashMap.erase_values _ _ _ _ h

/-- Every index entry under `k` holds `v` after `Insert(k, v)`. -/
theorem lru_Insert_values (s s' : LruCache V) (k : Nat) (v : V) (b : Bool)
    (he : Insert s k v = .ok (b, s')) : ∀ p ∈ s'.hash_map_, p.1 = k → p.2 = v := by
  unfold Insert at he
  cases hfind : HashMap.find s.hash_map_ k with
  | some c =>
    rw [hfind] at he
    cases he
    exact HashMap.update_values _ _ _
  | none =>
    rw [hfind] at he
    have h0 := HashMap.add_values s.hash_map_ k v hfind
    simp only at he
    split at he
    · cases he
    · rename_i s2 hs2
      have h2 : ∀ p ∈ s2.hash_map_, p.1 = k → p.2 = v := by
        split_ifs at hs2 with hd
        · exact lru_EvictOne_values _ _ k v h0 hs2
        · cases hs2; exact h0
      split_ifs at he with h1 h2' h3
      all_goals first
        | (cases he; exact h2)
        | skip
      all_goals
        split at he
        · cases he
        · rename_i s5 hs5
          cases he
          refine lru_EvictOne_values _ _ k v ?_ hs5
          exact h2

theorem lru_Insert_of_resident (s : LruCache V) (k : Nat) (v : V)
    (h : (HashMap.find s.hash_map_ k).isSome = true) :
    Insert s k v = .ok (false, { s with hash_map_ := HashMap.update s.hash_map_ k v }) := by
  unfold Insert
  cases hfind : HashMap.find s.hash_map_ k with
  | none => rw [hfind] at h; cases h
  | some b => rfl

end LruCache

namespace SegmentCache

variable {V : Type}

theorem Insert_twice {S fuel N : Nat} (hS : 1 ≤ S) (hN : N + 1 < 2 ^ 32)
    (s : SegmentCache V) (hinv : Inv N s)
    (k : Nat) (v : V) (b : Bool) (s1 : SegmentCache V)
    (hins : Insert S fuel s k v = .ok (b, s1)) :
    Insert S fuel s1 k v = .ok (false, s1) := by
  cases hfind : HashMap.find s.hash_map_ k with
  | some p =>
    obtain ⟨e, hent, _⟩ := hinv.1 k p hfind
    rw [Insert_resident S fuel s k v p e hfind hent] at hins
    simp only [Except.ok.injEq, Prod.mk.injEq] at hins
    obtain ⟨_, rfl⟩ := hins
    have hent' : HashMap.find (HashMap.update s.entries p { e with value := v }) p
        = some { e with value := v } := by
      rw [HashMap.find_update, if_pos rfl, hent]; rfl
    rw [Insert_resident S fuel
      { s with entries := HashMap.update s.entries p { e with value := v } } k v p
      { e with value := v } hfind hent']
    simp only [HashMap.update_update]
  | none =>
    rw [Insert_new_unfold S fuel s k v hfind] at hins
    cases hadd : SegmentList.Add S fuel s.segment_list_ s.allocated 1 with
    | error f => rw [hadd] at hins; cases hins
    | ok sl =>
      rw [hadd] at hins
      simp only at hins
      have hmid := Inv.Insert_linked hS hN hinv k v hadd
      obtain ⟨_, _, hfree, hne, hcnt, _, _⟩ := hinv
      obtain ⟨hfresh, hlog, _⟩ := hfree s.allocated (le_refl _)
      obtain ⟨_, _, _, _, a5⟩ := SegmentList.Add_spec hS s.segment_list_ hne hcnt
        (by omega) s.allocated 1 fuel sl hadd
      have hkeep : Keeps
          (⟨s.capacity_, u64 (s.usage_ + 1), HashMap.add s.hash_map_ k s.allocated,
            HashMap.add s.entries s.allocated ⟨k, v, 1, 2, s.segment_list_.head_segment, 1⟩,
            s.allocated + 1, sl⟩ : SegmentCache V) k s.allocated
          ⟨k, v, 1, 2, s.segment_list_.head_segment, 1⟩ := by
        refine ⟨?_, ?_, ?_⟩
        · show HashMap.find (HashMap.add s.hash_map_ k s.allocated) k = _
          rw [HashMap.find_add, if_pos rfl]
        · show HashMap.find (HashMap.add s.entries s.allocated _) s.allocated = _
          rw [HashMap.find_add, if_pos rfl]
        · intro pair hpair hp
          have hpair' : pair ∈ (s.allocated,
              (⟨k, v, 1, 2, s.segment_list_.head_segment, 1⟩ : Entry V)) :: s.entries := hpair
          rcases List.mem_cons.1 hpair' with h | h
          · rw [h]
          · exact absurd (List.mem_map_of_mem Prod.fst h)
              (by rw [hp]; exact (HashMap.find_eq_none_iff _ _).1 hfresh)
      have htail : logRefs sl.segments.tail s.allocated = 0 := by
        have := a5 s.allocated
        omega
      cases hloop : SegmentCache.evictLoop fuel
          (⟨s.capacity_, u64 (s.usage_ + 1), HashMap.add s.hash_map_ k s.allocated,
            HashMap.add s.entries s.allocated ⟨k, v, 1, 2, s.segment_list_.head_segment, 1⟩,
            s.allocated + 1, sl⟩ : SegmentCache V) with
      | error f => rw [hloop] at hins; cases hins
      | ok s3 =>
        rw [hloop] at hins
        simp only [Except.ok.injEq, Prod.mk.injEq] at hins
        obtain ⟨_, rfl⟩ := hins
        obtain ⟨h1, h2, h3⟩ := Keeps.keep_evictLoop hN fuel hmid hkeep htail hloop
        rw [Insert_resident S fuel s3 k v s.allocated
          ⟨k, v, 1, 2, s.segment_list_.head_segment, 1⟩ h1 h2]
        rw [HashMap.update_eq_self s3.entries s.allocated _ h3]

end SegmentCache

/-! ## FIFO: `Lookup` leaves the shard as it is -/

namespace FifoCache

variable {V : Type}

theorem Lookup_state (s : FifoCache V) (key : Nat) (value : V) :
    (Lookup s key value).2.2 = s := by
  unfold Lookup
  cases HashMap.find s.m_map key <;> rfl

theorem run_without_lookups (ops : List (Op V)) : ∀ s : FifoCache V,
    run s (ops.filter fun op => !op.isLookup) =
      (run s ops).map fun r => (dropLookups ops r.1, r.2) := by
  induction ops with
  | nil => intro s; rfl
  | cons op ops ih =>
    intro s
    cases op with
    | Lookup k v =>
      have hf : (Op.Lookup k v :: ops).filter (fun op => !op.isLookup)
          = ops.filter fun op => !op.isLookup := rfl
      rw [hf, ih s]
      simp only [run, step, Lookup_state]
      cases run s ops with
      | error e => rfl
      | ok r => rfl
    | Insert k v =>
      have hf : (Op.Insert k v :: ops).filter (fun op => !op.isLookup)
          = Op.Insert k v :: ops.filter fun op => !op.isLookup := rfl
      rw [hf]
      simp only [run, step]
      rw [ih]
      cases run (Insert s k v).2 ops with
      | error e => rfl
      | ok r => rfl
    | Erase k =>
      have hf : (Op.Erase k :: ops).filter (fun op => !op.isLookup)
          = Op.Erase k :: ops.filter fun op => !op.isLookup := rfl
      rw [hf]
      simp only [run, step]
      cases Erase s k with
      | error e => rfl
      | ok r =>
        simp only
        rw [ih]
        cases run r.2 ops with
        | error e => rfl
        | ok r => rfl

end FifoCache

/-- C15. `FifoCache::Lookup` leaves the hash index, the order of the list and
usage as they are, in every state and for every key. Hence an `Insert` after
it does what it does without it (it evicts the same key), and a sequence of
calls ends in the same state, with the same results of its `Insert`s and
`Erase`s, when its `Lookup`s are left out. -/
theorem fifo_lookup_changes_nothing {V : Type} (s : FifoCache V) (key : Nat) (value : V) :
    (FifoCache.Lookup s key value).2.2.m_map = s.m_map ∧
    (FifoCache.Lookup s key value).2.2.m_list = s.m_list ∧
    (FifoCache.Lookup s key value).2.2.usage_ = s.usage_ ∧
    (FifoCache.Lookup s key value).2.2.capacity_ = s.capacity_ ∧
    (∀ k v, FifoCache.Insert (FifoCache.Lookup s key value).2.2 k v = FifoCache.Insert s k v) ∧
    ∀ ops : List (Op V),
      FifoCache.run s (ops.filter fun op => !op.isLookup) =
        (FifoCache.run s ops).map fun r => (dropLookups ops r.1, r.2) := by
  rw [FifoCache.Lookup_state]
  exact ⟨rfl, rfl, rfl, rfl, fun _ _ => rfl, fun ops => FifoCache.run_without_lookups ops s⟩

/-! ## Sharded dispatcher -/

namespace ConcurrentScalableCache

variable {V : Type}

/-- The shard the constructor makes for a type, `none` for the type it has no
branch for. -/
theorem emplace_cases (S : Nat) (type : CacheType) (s : Nat) (shards : List (Shard V)) :
    (type = .FIFO → emplace S type s shards = shards ++ [.fifo (FifoCache.new s)]) ∧
    (type = .LRU → emplace S type s shards = shards ++ [.lru (LruCache.new s)]) ∧
    (type = .SEGMENT → emplace S type s shards = shards ++ [.segment (SegmentCache.new S s)]) ∧
    (type = .FROZENHOT → emplace S type s shards = shards) := by
  refine ⟨?_, ?_, ?_, ?_⟩ <;> intro h <;> subst h <;> rfl

theorem construct_replicate (S : Nat) (type : CacheType) (max_size num_shards : Nat)
    (x : Shard V)
    (hx : ∀ shards, emplace S type (max_size / num_shards) shards = shards ++ [x]) :
    ∀ n shards, construct S type max_size num_shards n shards = shards ++ List.replicate n x := by
  intro n
  induction n with
  | zero => intro shards; simp [construct]
  | succ n ih =>
    intro shards
    simp only [construct]
    rw [hx, ih, List.replicate_succ, List.append_assoc]
    rfl

theorem construct_frozenhot (S : Nat) (max_size num_shards : Nat) :
    ∀ n (shards : List (Shard V)),
      construct S .FROZENHOT max_size num_shards n shards = shards := by
  intro n
  induction n with
  | zero => intro shards; rfl
  | succ n ih =>
    intro shards
    simp only [construct]
    rw [(emplace_cases S .FROZENHOT _ shards).2.2.2 rfl, ih]

theorem get_shard_of_sized {N : Nat} (hN : 1 ≤ N) {c : ConcurrentScalableCache V}
    (h : Sized N c) (key : Nat) :
    ∃ shard, c.shards_[key % N]? = some shard ∧ get_shard c key = .ok (key % N, shard) := by
  obtain ⟨h1, h2⟩ := h
  have hlt : key % N < c.shards_.length := by
    rw [h2]; exact Nat.mod_lt _ (by omega)
  refine ⟨c.shards_[key % N], List.getElem?_eq_getElem hlt, ?_⟩
  unfold get_shard
  rw [if_neg (by omega), h1]
  simp only [List.getElem?_eq_getElem hlt]

theorem step_of_sized {S fuel N : Nat} (hN : 1 ≤ N) {c : ConcurrentScalableCache V}
    (h : Sized N c) (op : Op V) :
    ∃ shard, c.shards_[op.key % N]? = some shard ∧
      step S fuel c op =
        match Shard.step S fuel shard op with
        | .error e => .error e
        | .ok (r, shard1) => .ok (r, { c with shards_ := c.shards_.set (op.key % N) shard1 }) := by
  obtain ⟨shard, h1, h2⟩ := get_shard_of_sized hN h op.key
  refine ⟨shard, h1, ?_⟩
  unfold step
  rw [h2]

theorem Sized.step_sized {S fuel N : Nat} {c c1 : ConcurrentScalableCache V} (h : Sized N c)
    {op : Op V} {r : Ret V} (hstep : step S fuel c op = .ok (r, c1)) : Sized N c1 := by
  unfold step at hstep
  cases hg : get_shard c op.key with
  | error e => rw [hg] at hstep; cases hstep
  | ok p =>
    rw [hg] at hstep
    simp only at hstep
    cases hs : Shard.step S fuel p.2 op with
    | error e => rw [hs] at hstep; cases hstep
    | ok q =>
      rw [hs] at hstep
      cases hstep
      exact ⟨h.1, by simp only [List.length_set]; exact h.2⟩

/-- A property of the dispatcher that every call keeps holds after every
sequence of calls. -/
theorem run_keeps {S fuel : Nat} (P : ConcurrentScalableCache V → Prop)
    (hstep : ∀ c op r c1, P c → step S fuel c op = .ok (r, c1) → P c1) :
    ∀ (ops : List (Op V)) c rs c1, P c → run S fuel c ops = .ok (rs, c1) → P c1 := by
  intro ops
  induction ops with
  | nil =>
    intro c rs c1 hP hrun
    simp only [run, Except.ok.injEq, Prod.mk.injEq] at hrun
    rw [← hrun.2]
    exact hP
  | cons op ops ih =>
    intro c rs c1 hP hrun
    simp only [run] at hrun
    cases hs : step S fuel c op with
    | error e => rw [hs] at hrun; cases hrun
    | ok p =>
      rw [hs] at hrun
      simp only at hrun
      cases hr : run S fuel p.2 ops with
      | error e => rw [hr] at hrun; cases hrun
      | ok q =>
        rw [hr] at hrun
        simp only [Except.ok.injEq, Prod.mk.injEq] at hrun
        exact ih p.2 q.1 c1 (hstep c op p.1 p.2 hP hs) (by rw [hr, ← hrun.2])

theorem Reachable.sized {S fuel capacity N : Nat} {type : CacheType}
    {c : ConcurrentScalableCache V} (hlen : (new S capacity N type : ConcurrentScalableCache V).shards_.length = N)
    (h : Reachable S fuel capacity N type c) : Sized N c := by
  obtain ⟨ops, rs, hrun⟩ := h
  exact run_keeps (Sized N) (fun c op r c1 hP hs => hP.step_sized hs) ops _ rs c ⟨rfl, hlen⟩ hrun

end ConcurrentScalableCache

namespace ConcurrentScalableCache

variable {V : Type}

theorem Shard_step_kind {S fuel : Nat} {shard shard1 : Shard V} {op : Op V} {r : Ret V}
    (h : Shard.step S fuel shard op = .ok (r, shard1)) : shard1.kind = shard.kind := by
  cases shard with
  | fifo s =>
    simp only [Shard.step] at h
    cases hs : FifoCache.step s op with
    | error e => rw [hs] at h; cases h
    | ok p => rw [hs] at h; cases h; rfl
  | lru s =>
    simp only [Shard.step] at h
    cases hs : LruCache.step s op with
    | error e => rw [hs] at h; cases h
    | ok p => rw [hs] at h; cases h; rfl
  | segment s =>
    simp only [Shard.step] at h
    cases hs : SegmentCache.step S fuel s op with
    | error e => rw [hs] at h; cases h
    | ok p => rw [hs] at h; cases h; rfl
  | group => cases op <;> (simp only [Shard.step] at h; cases h; rfl)
  | async a b => cases op <;> (simp only [Shard.step] at h; cases h; rfl)

theorem Shard_step_fits {S fuel c0 : Nat} (hc0 : 1 ≤ c0) (h64 : c0 < 2 ^ 64)
    {shard : Shard V} (hf : shard.Fits c0) (op : Op V) :
    ∃ r shard1, Shard.step S fuel shard op = .ok (r, shard1) ∧ shard1.Fits c0 := by
  cases shard with
  | fifo s =>
    obtain ⟨a, ha⟩ := hf
    obtain ⟨r, s1, a1, hs, hr⟩ := FifoCache.step_rep hc0 h64 ha op
    exact ⟨r, .fifo s1, by simp only [Shard.step, hs], ⟨a1, hr⟩⟩
  | lru s =>
    obtain ⟨a, ha⟩ := hf
    obtain ⟨s1, hs, hr⟩ := LruCache.step_sim hc0 h64 ha op
    exact ⟨(RecencyList.step c0 a op).1, .lru s1, by simp only [Shard.step, hs], ⟨_, hr⟩⟩
  | segment s => exact absurd hf id
  | group => exact absurd hf id
  | async a b => exact absurd hf id

theorem Shard_fits_size {c0 : Nat} {shard : Shard V} (hf : shard.Fits c0) :
    shard.get_size ≤ c0 := by
  cases shard with
  | fifo s =>
    obtain ⟨a, _, _, _, hu, _, hl⟩ := hf
    show s.usage_ ≤ c0
    omega
  | lru s =>
    obtain ⟨a, _, _, _, hu, _, hl⟩ := hf
    show s.usage_ ≤ c0
    omega
  | segment s => exact absurd hf id
  | group => exact absurd hf id
  | async a b => exact absurd hf id

/-- A property of shards that every call on a shard keeps, holds for all the
shards of the dispatcher after a call on the dispatcher. -/
theorem step_keeps_all {S fuel : Nat} (Q : Shard V → Prop)
    (hQ : ∀ shard op r shard1, Q shard → Shard.step S fuel shard op = .ok (r, shard1) → Q shard1)
    (c : ConcurrentScalableCache V) (op : Op V) (r : Ret V) (c1 : ConcurrentScalableCache V)
    (hall : ∀ shard ∈ c.shards_, Q shard) (hstep : step S fuel c op = .ok (r, c1)) :
    ∀ shard ∈ c1.shards_, Q shard := by
  unfold step at hstep
  cases hg : get_shard c op.key with
  | error e => rw [hg] at hstep; cases hstep
  | ok p =>
    rw [hg] at hstep
    simp only at hstep
    have hmem : p.2 ∈ c.shards_ := by
      unfold get_shard at hg
      split_ifs at hg
      simp only at hg
      cases hx : c.shards_[op.key % c.num_shards_]? with
      | none => rw [hx] at hg; cases hg
      | some x =>
        rw [hx] at hg
        cases hg
        exact List.getElem?_mem hx
    cases hs : Shard.step S fuel p.2 op with
    | error e => rw [hs] at hstep; cases hstep
    | ok q =>
      rw [hs] at hstep
      cases hstep
      intro shard hin
      rcases List.mem_or_eq_of_mem_set hin with h | h
      · exact hall shard h
      · rw [h]
        exact hQ p.2 op q.1 q.2 (hall p.2 hmem) hs

theorem sizeLoop_take (c : ConcurrentScalableCache V) :
    ∀ n, n ≤ c.shards_.length →
      sizeLoop c n = .ok (((c.shards_.take n).map Shard.get_size).sum % 2 ^ 64) := by
  intro n
  induction n with
  | zero => intro _; rfl
  | succ n ih =>
    intro hn
    have hlt : n < c.shards_.length := by omega
    simp only [sizeLoop]
    rw [ih (by omega), List.getElem?_eq_getElem hlt]
    simp only [List.take_succ, List.getElem?_eq_getElem hlt, Option.toList, List.map_append,
      List.sum_append, List.map_cons, List.map_nil, List.sum_cons, List.sum_nil, u64,
      Nat.add_zero, Nat.mod_add_mod]

theorem sum_le_mul (l : List (Shard V)) (c0 : Nat) (h : ∀ shard ∈ l, shard.get_size ≤ c0) :
    (l.map Shard.get_size).sum ≤ l.length * c0 := by
  induction l with
  | nil => simp
  | cons x l ih =>
    have h1 := h x (List.mem_cons_self _ _)
    have h2 := ih (fun shard hs => h shard (List.mem_cons_of_mem _ hs))
    simp only [List.map_cons, List.sum_cons, List.length_cons]
    rw [Nat.add_mul]
    omega

end ConcurrentScalableCache

/-- C13, as amended. For the types FIFO, LRU and SEGMENT, every capacity and
every `num_shards = N ≥ 1`, the constructor of `ConcurrentScalableCache`
allocates exactly `N` shards of that type, each empty and of capacity
`capacity / N` (rounded down); and in every state the dispatcher reaches,
`shards_` still has `N` elements, so `get_shard(key)` finds the shard at
index `key % N` for every key and does not throw. -/
theorem dispatcher_allocates_shards {V : Type} (S fuel capacity N : Nat) (hN : 1 ≤ N)
    (type : CacheType) (htype : type = .FIFO ∨ type = .LRU ∨ type = .SEGMENT) :
    (∃ shard : Shard V,
      (ConcurrentScalableCache.new S capacity N type : ConcurrentScalableCache V).shards_
        = List.replicate N shard ∧ shard.kind = type ∧
      (shard = .fifo (FifoCache.new (capacity / N)) ∨
        shard = .lru (LruCache.new (capacity / N)) ∨
        shard = .segment (SegmentCache.new S (capacity / N)))) ∧
    (FifoCache.new (capacity / N) : FifoCache V).capacity_ = capacity / N ∧
    (LruCache.new (capacity / N) : LruCache V).capacity_ = capacity / N ∧
    (SegmentCache.new S (capacity / N) : SegmentCache V).capacity_ = capacity / N ∧
    ∀ c : ConcurrentScalableCache V,
      ConcurrentScalableCache.Reachable S fuel capacity N type c →
        c.num_shards_ = N ∧ c.shards_.length = N ∧
        ∀ key, ∃ shard, c.shards_[key % N]? = some shard ∧
          ConcurrentScalableCache.get_shard c key = .ok (key % N, shard) := by
  have hnew : ∃ shard : Shard V,
      (ConcurrentScalableCache.new S capacity N type : ConcurrentScalableCache V).shards_
        = List.replicate N shard ∧ shard.kind = type ∧
      (shard = .fifo (FifoCache.new (capacity / N)) ∨
        shard = .lru (LruCache.new (capacity / N)) ∨
        shard = .segment (SegmentCache.new S (capacity / N))) := by
    rcases htype with h | h | h
    · refine ⟨.fifo (FifoCache.new (capacity / N)), ?_, h.symm, Or.inl rfl⟩
      have := ConcurrentScalableCache.construct_replicate S type capacity N
        (.fifo (FifoCache.new (capacity / N)) : Shard V)
        (fun shards => (ConcurrentScalableCache.emplace_cases S type _ shards).1 h) N []
      simpa [ConcurrentScalableCache.new] using this
    · refine ⟨.lru (LruCache.new (capacity / N)), ?_, h.symm, Or.inr (Or.inl rfl)⟩
      have := ConcurrentScalableCache.construct_replicate S type capacity N
        (.lru (LruCache.new (capacity / N)) : Shard V)
        (fun shards => (ConcurrentScalableCache.emplace_cases S type _ shards).2.1 h) N []
      simpa [ConcurrentScalableCache.new] using this
    · refine ⟨.segment (SegmentCache.new S (capacity / N)), ?_, h.symm, Or.inr (Or.inr rfl)⟩
      have := ConcurrentScalableCache.construct_replicate S type capacity N
        (.segment (SegmentCache.new S (capacity / N)) : Shard V)
        (fun shards => (ConcurrentScalableCache.emplace_cases S type _ shards).2.2.1 h) N []
      simpa [ConcurrentScalableCache.new] using this
  refine ⟨hnew, rfl, rfl, rfl, fun c hc => ?_⟩
  obtain ⟨shard, hsh, _, _⟩ := hnew
  have hsized := ConcurrentScalableCache.Reachable.sized
    (by rw [hsh, List.length_replicate]) hc
  exact ⟨hsized.1, hsized.2, fun key => ConcurrentScalableCache.get_shard_of_sized hN hsized key⟩

theorem dispatcher_allocates_shards_witness :
    1 ≤ 4 ∧ (CacheType.LRU = .FIFO ∨ CacheType.LRU = .LRU ∨ CacheType.LRU = .SEGMENT) ∧
    (ConcurrentScalableCache.new 65536 100 4 .LRU : ConcurrentScalableCache Nat).shards_
      = List.replicate 4 (.lru (LruCache.new 25)) ∧
    ∀ c : ConcurrentScalableCache Nat,
      ConcurrentScalableCache.Reachable 65536 2 100 4 .LRU c →
        c.num_shards_ = 4 ∧ c.shards_.length = 4 ∧
        ∀ key, ∃ shard, c.shards_[key % 4]? = some shard ∧
          ConcurrentScalableCache.get_shard c key = .ok (key % 4, shard) :=
  ⟨by decide, by decide, by decide,
    (dispatcher_allocates_shards 65536 2 100 4 (by decide) .LRU (by decide)).2.2.2.2⟩

/-- C13, the claim as stated fails for `FROZENHOT`: the constructor has no
branch for it, so a dispatcher made with 4 shards has none, and `Lookup`,
`Insert` and `Erase` on key 0 leave `shards_.at(0)` with `std::out_of_range`. -/
theorem dispatcher_frozenhot_has_no_shard :
    (ConcurrentScalableCache.new 65536 100 4 .FROZENHOT : ConcurrentScalableCache Nat).shards_
      = [] ∧
    ConcurrentScalableCache.step 65536 2
      (ConcurrentScalableCache.new 65536 100 4 .FROZENHOT : ConcurrentScalableCache Nat)
      (.Lookup 0 0) = .error .outOfRange ∧
    ConcurrentScalableCache.step 65536 2
      (ConcurrentScalableCache.new 65536 100 4 .FROZENHOT : ConcurrentScalableCache Nat)
      (.Insert 0 0) = .error .outOfRange ∧
    ConcurrentScalableCache.step 65536 2
      (ConcurrentScalableCache.new 65536 100 4 .FROZENHOT : ConcurrentScalableCache Nat)
      (.Erase 0) = .error .outOfRange := by
  refine ⟨by decide, by decide, by decide, by decide⟩

/-- C14. In every state a dispatcher with `N ≥ 1` FIFO or LRU shards reaches,
and for every call (`Lookup`, `Insert` or `Erase`) with key `k`: the call
returns what the same call returns on shard number `k % N`, puts the state
that call leaves into place `k % N` and leaves every other shard, and the
number of shards, as they are. `get_size()` is the sum of the shards'
`get_size()`, taken in 64 bits; when the capacity is at least `N` (no shard
of capacity 0) and fits 64 bits, no call faults and the sum does not wrap. -/
theorem dispatcher_dispatch_and_frame {V : Type} (S fuel capacity N : Nat) (hN : 1 ≤ N)
    (type : CacheType) (htype : type = .FIFO ∨ type = .LRU)
    (c : ConcurrentScalableCache V)
    (hc : ConcurrentScalableCache.Reachable S fuel capacity N type c) :
    (∀ op : Op V, ∃ shard, c.shards_[op.key % N]? = some shard ∧ shard.kind = type ∧
      ConcurrentScalableCache.step S fuel c op =
        match Shard.step S fuel shard op with
        | .error e => .error e
        | .ok (r, shard1) =>
          .ok (r, { c with shards_ := c.shards_.set (op.key % N) shard1 })) ∧
    (∀ (op : Op V) r c1, ConcurrentScalableCache.step S fuel c op = .ok (r, c1) →
      c1.num_shards_ = c.num_shards_ ∧ c1.shards_.length = c.shards_.length ∧
      ∀ i, i ≠ op.key % N → c1.shards_[i]? = c.shards_[i]?) ∧
    ConcurrentScalableCache.get_size c = .ok ((c.shards_.map Shard.get_size).sum % 2 ^ 64) ∧
    (N ≤ capacity → capacity < 2 ^ 64 →
      ConcurrentScalableCache.get_size c = .ok (c.shards_.map Shard.get_size).sum ∧
      ∀ op : Op V, ∃ r c1, ConcurrentScalableCache.step S fuel c op = .ok (r, c1)) := by
  -- the shards the constructor makes
  have hnew : ∃ shard : Shard V,
      (ConcurrentScalableCache.new S capacity N type : ConcurrentScalableCache V).shards_
        = List.replicate N shard ∧ shard.kind = type ∧
        (1 ≤ capacity / N → capacity / N < 2 ^ 64 → shard.Fits (capacity / N)) := by
    rcases htype with h | h
    · refine ⟨.fifo (FifoCache.new (capacity / N)), ?_, h.symm,
        fun _ _ => ⟨[], Rep.empty _⟩⟩
      have := ConcurrentScalableCache.construct_replicate S type capacity N
        (.fifo (FifoCache.new (capacity / N)) : Shard V)
        (fun shards => (ConcurrentScalableCache.emplace_cases S type _ shards).1 h) N []
      simpa [ConcurrentScalableCache.new] using this
    · refine ⟨.lru (LruCache.new (capacity / N)), ?_, h.symm,
        fun _ _ => ⟨[], Rep.empty _⟩⟩
      have := ConcurrentScalableCache.construct_replicate S type capacity N
        (.lru (LruCache.new (capacity / N)) : Shard V)
        (fun shards => (ConcurrentScalableCache.emplace_cases S type _ shards).2.1 h) N []
      simpa [ConcurrentScalableCache.new] using this
  obtain ⟨shard0, hsh, hkind0, hfit0⟩ := hnew
  have hsized := ConcurrentScalableCache.Reachable.sized
    (by rw [hsh, List.length_replicate]) hc
  obtain ⟨ops, rs, hrun⟩ := hc
  -- every shard keeps its type
  have hkind : ∀ shard ∈ c.shards_, shard.kind = type :=
    ConcurrentScalableCache.run_keeps (fun c => ∀ shard ∈ c.shards_, shard.kind = type)
      (fun c op r c1 hP hs =>
        ConcurrentScalableCache.step_keeps_all (fun shard => shard.kind = type)
          (fun shard op r shard1 hQ hst =>
            (ConcurrentScalableCache.Shard_step_kind hst).trans hQ) c op r c1 hP hs)
      ops _ rs c
      (by
        intro shard hin
        rw [hsh] at hin
        rw [List.eq_of_mem_replicate hin]
        exact hkind0)
      hrun
  have hsum := ConcurrentScalableCache.sizeLoop_take c c.shards_.length (le_refl _)
  rw [List.take_length] at hsum
  refine ⟨fun op => ?_, fun op r c1 hstep => ?_, ?_, fun hcap h64 => ?_⟩
  · obtain ⟨shard, h1, h2⟩ := @ConcurrentScalableCache.step_of_sized V S fuel N hN c hsized op
    exact ⟨shard, h1, hkind shard (List.getElem?_mem h1), h2⟩
  · obtain ⟨shard, h1, h2⟩ := @ConcurrentScalableCache.step_of_sized V S fuel N hN c hsized op
    rw [h2] at hstep
    cases hs : Shard.step S fuel shard op with
    | error e => rw [hs] at hstep; cases hstep
    | ok q =>
      rw [hs] at hstep
      cases hstep
      refine ⟨rfl, by simp only [List.length_set], fun i hi => ?_⟩
      exact List.getElem?_set_ne (fun h => hi h.symm)
  · unfold ConcurrentScalableCache.get_size
    rw [hsized.1, ← hsized.2]
    exact hsum
  · have hc0 : 1 ≤ capacity / N := (Nat.one_le_div_iff (by omega)).2 hcap
    have hc64 : capacity / N < 2 ^ 64 := lt_of_le_of_lt (Nat.div_le_self _ _) h64
    have hfits : ∀ shard ∈ c.shards_, shard.Fits (capacity / N) :=
      ConcurrentScalableCache.run_keeps
        (fun c => ∀ shard ∈ c.shards_, shard.Fits (capacity / N))
        (fun c op r c1 hP hs =>
          ConcurrentScalableCache.step_keeps_all (fun shard => shard.Fits (capacity / N))
            (fun shard op r shard1 hQ hst => by
              obtain ⟨r', shard1', h1, h2⟩ :=
                @ConcurrentScalableCache.Shard_step_fits V S fuel _ hc0 hc64 shard hQ op
              rw [h1] at hst
              cases hst
              exact h2) c op r c1 hP hs)
        ops _ rs c
        (by
          intro shard hin
          rw [hsh] at hin
          rw [List.eq_of_mem_replicate hin]
          exact hfit0 hc0 hc64)
        hrun
    constructor
    · unfold ConcurrentScalableCache.get_size
      rw [hsized.1, ← hsized.2, hsum]
      have hle := ConcurrentScalableCache.sum_le_mul c.shards_ (capacity / N)
        (fun shard hs => ConcurrentScalableCache.Shard_fits_size (hfits shard hs))
      rw [hsized.2] at hle
      have := Nat.mul_div_le capacity N
      rw [Nat.mod_eq_of_lt (by omega)]
    · intro op
      obtain ⟨shard, h1, h2⟩ := @ConcurrentScalableCache.step_of_sized V S fuel N hN c hsized op
      obtain ⟨r', shard1', h3, _⟩ :=
        @ConcurrentScalableCache.Shard_step_fits V S fuel _ hc0 hc64 shard
          (hfits shard (List.getElem?_mem h1)) op
      rw [h2, h3]
      exact ⟨_, _, rfl⟩

theorem ConcurrentScalableCache.dispatcher_sample_reachable :
    ConcurrentScalableCache.Reachable 65536 2 8 4 .FIFO ConcurrentScalableCache.sample :=
  ⟨[.Insert 5 50], [⟨true, none⟩], by decide⟩

theorem dispatcher_dispatch_and_frame_witness :
    1 ≤ 4 ∧ (CacheType.FIFO = .FIFO ∨ CacheType.FIFO = .LRU) ∧
    ConcurrentScalableCache.Reachable 65536 2 8 4 .FIFO ConcurrentScalableCache.sample ∧
    (∀ (op : Op Nat) r c1,
      ConcurrentScalableCache.step 65536 2 ConcurrentScalableCache.sample op = .ok (r, c1) →
      c1.num_shards_ = ConcurrentScalableCache.sample.num_shards_ ∧
      c1.shards_.length = ConcurrentScalableCache.sample.shards_.length ∧
      ∀ i, i ≠ op.key % 4 → c1.shards_[i]? = ConcurrentScalableCache.sample.shards_[i]?) ∧
    ConcurrentScalableCache.get_size ConcurrentScalableCache.sample
      = .ok ((ConcurrentScalableCache.sample.shards_.map Shard.get_size).sum % 2 ^ 64) :=
  ⟨by decide, by decide, ConcurrentScalableCache.dispatcher_sample_reachable,
    (dispatcher_dispatch_and_frame 65536 2 8 4 (by decide) .FIFO (by decide) _
      ConcurrentScalableCache.dispatcher_sample_reachable).2.1,
    (dispatcher_dispatch_and_frame 65536 2 8 4 (by decide) .FIFO (by decide) _
      ConcurrentScalableCache.dispatcher_sample_reachable).2.2.1⟩

/-! ## Segment shard: inserts of distinct keys beyond the capacity -/

theorem filledSlots_length (S a u : Nat) (hu : u ≤ S) : (filledSlots S a u).length = S := by
  simp only [filledSlots, List.length_append, List.length_map, List.length_range,
    List.length_replicate]
  omega

theorem filledSlots_set (S a u : Nat) (hu : u < S) :
    (filledSlots S a u).set u ⟨some (a + u), 1⟩ = filledSlots S a (u + 1) := by
  unfold filledSlots
  have h1 : ((List.range u).map (fun i => (⟨some (a + i), 1⟩ : Slot))).length = u := by simp
  have h2 : S - u = (S - (u + 1)) + 1 := by omega
  rw [List.set_append_right _ _ (by omega), h1, Nat.sub_self, h2, List.replicate_succ,
    List.set_cons_zero, List.range_succ, List.map_append]
  simp

theorem filledSlots_zero (S a : Nat) : filledSlots S a 0 = List.replicate S ⟨none, 0⟩ := by
  simp [filledSlots]

theorem filledSlots_full (S a : Nat) :
    filledSlots S a S = (List.range S).map fun i => (⟨some (a + i), 1⟩ : Slot) := by
  simp [filledSlots]

namespace SegmentList

/-- What `Add` does to the log of a run of distinct inserts: the new entry
takes the next slot, in a new head segment when the head is full. -/
theorem Window.add {S E n : Nat} (hS : 1 ≤ S) (hS32 : S + 1 < 2 ^ 32) {sl : SegmentList}
    (h : Window S E n sl) (h64 : sl.count + 1 < 2 ^ 64) {fuel : Nat} (hfuel : 2 ≤ fuel) :
    ∃ sl', Add S fuel sl n 1 = .ok sl' ∧ Window S E (n + 1) sl' := by
  obtain ⟨segs, count, allocated⟩ := sl
  obtain ⟨u, head, rest, hn, hu, hpos, hsegs, hused, hslots, hrest⟩ := h
  simp only at hn hsegs hslots hrest h64
  subst hsegs
  obtain ⟨fuel, rfl⟩ : ∃ k, fuel = k + 2 := ⟨fuel - 2, by omega⟩
  by_cases hlt : u < S
  · have hu32 : u32 (u + 1) = u + 1 := by
      unfold u32; exact Nat.mod_eq_of_lt (by omega)
    refine ⟨_, by simp only [Add, Segment.Append, hused, hlt, if_true]; rfl, ?_⟩
    refine ⟨u + 1, _, rest, by simp only; omega, by omega, fun _ => by omega, rfl, ?_, ?_, hrest⟩
    · simp only [hu32]
    · simp only [hslots]
      rw [hn, filledSlots_set S _ u hlt]
  · have hS' : u = S := by omega
    subst hS'
    have hu32 : u32 (u + 1) = u + 1 := by
      unfold u32; exact Nat.mod_eq_of_lt (by omega)
    have hc64 : u64 (count + 1) = count + 1 := by
      unfold u64; exact Nat.mod_eq_of_lt h64
    have h1 : u32 (0 + 1) = 1 := by decide
    have hfull : u + 1 ≥ u := by omega
    have h0 : 0 < u := hS
    refine ⟨_, by
      simp only [Add, Segment.Append, hused, hlt, if_false, hu32, Segment.IsFull, hfull,
        decide_True, if_true, Segment.new, h0, hc64, h1]; rfl, ?_⟩
    refine ⟨1, _, _ :: rest, by simp only; rw [hn, Nat.add_mul]; omega, hS, fun _ => by omega,
      rfl, rfl, ?_, ?_⟩
    · simp only
      rw [← filledSlots_zero u (E + (count + 1) * u)]
      have hn' : E + (count + 1) * u + 0 = n := by rw [hn, Nat.add_mul]; omega
      have key := filledSlots_set u (E + (count + 1) * u) 0 h0
      rw [hn'] at key
      exact key
    · simp only [List.map_cons, List.range_succ, List.reverse_append, List.reverse_singleton,
        List.singleton_append, hslots, hrest]

theorem map_reverse_range_dropLast {α : Type} (g : Nat → α) (m : Nat) :
    ((List.range (m + 1)).reverse.map g).dropLast
      = (List.range m).reverse.map fun i => g (i + 1) := by
  rw [List.range_succ_eq_map, List.reverse_cons, List.map_append, List.map_singleton,
    List.dropLast_concat, ← List.map_reverse, List.map_map]
  rfl

theorem map_reverse_range_getLast {α : Type} (g : Nat → α) (m : Nat) :
    ((List.range (m + 1)).reverse.map g).getLast? = some (g 0) := by
  rw [List.range_succ_eq_map, List.reverse_cons, List.map_append, List.map_singleton,
    List.getLast?_append]
  rfl

/-- What `Evict` does to the log of a run of distinct inserts that has more
than four full segments: it detaches the oldest one. -/
theorem Window.evict {S E n : Nat} {sl : SegmentList} (h : Window S E n sl)
    (hc : sl.count > 4) (h64 : sl.count < 2 ^ 64) :
    ∃ victim sl', Evict sl = .ok (some victim, sl') ∧
      victim.slot_array = filledSlots S E S ∧ Window S (E + S) n sl' := by
  obtain ⟨segs, count, allocated⟩ := sl
  obtain ⟨u, head, rest, hn, hu, hpos, hsegs, hused, hslots, hrest⟩ := h
  simp only at hn hsegs hslots hrest hc h64
  subst hsegs
  obtain ⟨m, rfl⟩ : ∃ m, count = m + 1 := ⟨count - 1, by omega⟩
  have hlast := map_reverse_range_getLast (fun i => filledSlots S (E + i * S) S) m
  rw [← hrest, List.getLast?_map] at hlast
  cases hl : rest.getLast? with
  | none => rw [hl] at hlast; cases hlast
  | some victim =>
    rw [hl] at hlast
    simp only [Option.map_some', Option.some.injEq, Nat.zero_mul, Nat.add_zero] at hlast
    have hne : rest ≠ [] := by
      intro h0; rw [h0] at hl; cases hl
    have hl' : (head :: rest).getLast? = some victim := by
      cases rest with
      | nil => exact absurd rfl hne
      | cons r rs => rw [List.getLast?_cons_cons]; exact hl
    have hcnt : u64 (2 ^ 64 - 1 + (m + 1)) = m := by
      unfold u64
      have : 2 ^ 64 - 1 + (m + 1) = m + 2 ^ 64 := by omega
      rw [this, Nat.add_mod_right]
      exact Nat.mod_eq_of_lt (by omega)
    refine ⟨victim, _, by simp only [Evict, hc, if_true, hl', hcnt]; rfl, hlast, ?_⟩
    refine ⟨u, head, rest.dropLast, ?_, hu, hpos, ?_, hused, ?_, ?_⟩
    · simp only; rw [hn, Nat.add_mul]; omega
    · simp only [List.dropLast_cons_of_ne_nil hne]
    · simp only [hslots]
      congr 1
      rw [Nat.add_mul]; omega
    · simp only
      rw [List.map_dropLast, hrest, map_reverse_range_dropLast]
      apply List.map_congr_left
      intro i _
      congr 1
      rw [Nat.add_mul]; omega

end SegmentList

namespace SegmentCache

variable {V : Type}

theorem index_unique {ks : List Nat} (hnd : ks.Nodup) {i j k : Nat}
    (hi : ks[i]? = some k) (hj : ks[j]? = some k) : i = j := by
  have hil : i < ks.length := by
    by_contra h
    rw [List.getElem?_eq_none (by omega)] at hi
    cases hi
  have hjl : j < ks.length := by
    by_contra h
    rw [List.getElem?_eq_none (by omega)] at hj
    cases hj
  rw [List.getElem?_eq_getElem hil] at hi
  rw [List.getElem?_eq_getElem hjl] at hj
  exact (List.Nodup.getElem_inj_iff hnd).1 (by rw [Option.some.inj hi, Option.some.inj hj])

/-- `EvictOne` on the slot of the oldest resident key of a run of distinct
inserts: the key leaves the index and its entry is freed. -/
theorem Contents.evict_first {f : Nat → V} {ks : List Nat} {E : Nat} {s : SegmentCache V}
    (hnd : ks.Nodup) (h : Contents f ks E s) (hE : E < ks.length) (h64 : s.usage_ < 2 ^ 64) :
    ∃ s', evictSlot s ⟨some E, 1⟩ = .ok s' ∧ Contents f ks (E + 1) s' ∧
      s'.segment_list_ = s.segment_list_ ∧ s'.capacity_ = s.capacity_ := by
  obtain ⟨halloc, husage, hle, hidx, hout, hent, hfree⟩ := h
  have hget : ks[E]? = some ks[E] := List.getElem?_eq_getElem hE
  have hik := hidx E ks[E] hget
  rw [if_pos (le_refl _)] at hik
  obtain ⟨b, he⟩ := hent E ks[E] hget (le_refl _)
  have h1 : u32 (2 ^ 32 - 1 + 2) = 1 := by decide
  have h2 : u32 (2 ^ 32 - 1 + 1) = 0 := by decide
  have hu : u64 (2 ^ 64 - 1 + s.usage_) = s.usage_ - 1 := u64_pred (by omega) h64
  refine ⟨{ s with
      hash_map_ := HashMap.erase s.hash_map_ ks[E]
      usage_ := s.usage_ - 1
      entries := HashMap.erase (HashMap.update (HashMap.update s.entries E
        ⟨ks[E], f ks[E], 1, 1, b, 1⟩) E ⟨ks[E], f ks[E], 1, 0, b, 1⟩) E }, ?_, ?_, rfl, rfl⟩
  · simp only [evictSlot, he, hik, TryFreeEntry, HashMap.find_update, if_true, h1, h2, hu,
      Option.map_some', gt_iff_lt, Nat.lt_add_one, Nat.zero_lt_succ, Nat.one_lt_ofNat,
      Nat.ofNat_pos]
  · refine ⟨halloc, by show s.usage_ - 1 = _; omega, by omega, ?_, ?_, ?_, ?_⟩
    · intro j k hj
      show HashMap.find (HashMap.erase s.hash_map_ ks[E]) k = _
      rw [HashMap.find_erase]
      by_cases hk : k = ks[E]
      · have hjE : j = E := index_unique hnd hj (by rw [hk]; exact hget)
        rw [if_pos hk, if_neg (by omega)]
      · rw [if_neg hk, hidx j k hj]
        have hjE : j ≠ E := by
          intro h0
          rw [h0, hget] at hj
          exact hk (Option.some.inj hj).symm
        by_cases hEj : E ≤ j
        · rw [if_pos hEj, if_pos (by omega)]
        · rw [if_neg hEj, if_neg (by omega)]
    · intro k hk
      show HashMap.find (HashMap.erase s.hash_map_ ks[E]) k = _
      rw [HashMap.find_erase, hout k hk]
      split <;> rfl
    · intro j k hj hEj
      obtain ⟨b', hb'⟩ := hent j k hj (by omega)
      refine ⟨b', ?_⟩
      show HashMap.find (HashMap.erase _ E) j = _
      rw [HashMap.find_erase, if_neg (by omega), HashMap.find_update, if_neg (by omega),
        HashMap.find_update, if_neg (by omega)]
      exact hb'
    · intro j hj
      show HashMap.find (HashMap.erase _ E) j = _
      rw [HashMap.find_erase]
      by_cases hjE : j = E
      · rw [if_pos hjE]
      · rw [if_neg hjE, HashMap.find_update, if_neg hjE, HashMap.find_update, if_neg hjE]
        exact hfree j (by omega)

end SegmentCache

namespace SegmentCache

variable {V : Type}

/-- `EvictOne` on a full segment of a run of distinct inserts: its `t` keys
leave the index and their entries are freed. -/
theorem Contents.evict_segment {f : Nat → V} {ks : List Nat} (hnd : ks.Nodup) (t : Nat) :
    ∀ (E : Nat) (s : SegmentCache V), Contents f ks E s → E + t ≤ ks.length →
      s.usage_ < 2 ^ 64 →
      ∃ s', evictSlots s ((List.range t).map fun i => (⟨some (E + i), 1⟩ : Slot)) = .ok s' ∧
        Contents f ks (E + t) s' ∧ s'.segment_list_ = s.segment_list_ ∧
        s'.capacity_ = s.capacity_ := by
  induction t with
  | zero =>
    intro E s h _ _
    exact ⟨s, rfl, h, rfl, rfl⟩
  | succ t ih =>
    intro E s h hle h64
    obtain ⟨s1, hs1, hc1, hseg1, hcap1⟩ := h.evict_first hnd (by omega) h64
    have hu1 : s1.usage_ < 2 ^ 64 := by
      rw [hc1.2.1, ← Nat.sub_sub, ← h.2.1]
      omega
    obtain ⟨s2, hs2, hc2, hseg2, hcap2⟩ := ih (E + 1) s1 hc1 (by omega) hu1
    refine ⟨s2, ?_, by rw [← Nat.add_assoc] ; rw [show E + t + 1 = E + 1 + t by omega]; exact hc2,
      hseg2.trans hseg1, hcap2.trans hcap1⟩
    rw [List.range_succ_eq_map, List.map_cons, List.map_map]
    simp only [evictSlots, Nat.add_zero, hs1]
    have : ((fun i => (⟨some (E + i), 1⟩ : Slot)) ∘ Nat.succ)
        = fun i => (⟨some (E + 1 + i), 1⟩ : Slot) := by
      funext i
      simp only [Function.comp, Nat.succ_eq_add_one]
      congr 2
      omega
    rw [this]
    exact hs2

/-- The state of `Insert` before its eviction loop, in a run of distinct
inserts. -/
theorem Contents.linked {f : Nat → V} {ks : List Nat} {E : Nat} {s : SegmentCache V}
    (h : Contents f ks E s) {k : Nat} (hk : k ∉ ks) (h64 : s.usage_ + 1 < 2 ^ 64)
    (b : Option Nat) (sl : SegmentList) :
    Contents f (ks ++ [k]) E
      (⟨s.capacity_, u64 (s.usage_ + 1), HashMap.add s.hash_map_ k s.allocated,
        HashMap.add s.entries s.allocated ⟨k, f k, 1, 2, b, 1⟩, s.allocated + 1, sl⟩ :
        SegmentCache V) := by
  obtain ⟨halloc, husage, hle, hidx, hout, hent, hfree⟩ := h
  have hlen : (ks ++ [k]).length = ks.length + 1 := by simp
  refine ⟨by show s.allocated + 1 = _; rw [hlen, halloc], ?_, by omega, ?_, ?_, ?_, ?_⟩
  · show u64 (s.usage_ + 1) = _
    rw [u64_of_lt h64, hlen, husage]
    omega
  · intro j k' hj
    show HashMap.find (HashMap.add s.hash_map_ k s.allocated) k' = _
    rw [HashMap.find_add]
    by_cases hjl : j < ks.length
    · rw [List.getElem?_append_left hjl] at hj
      have hmem : k' ∈ ks := List.getElem?_mem hj
      rw [if_neg (fun h0 : k = k' => hk (by rw [h0]; exact hmem))]
      exact hidx j k' hj
    · rw [List.getElem?_append_right (by omega)] at hj
      have hj0 : j - ks.length = 0 := by
        by_contra h0
        rw [List.getElem?_eq_none (by simp; omega)] at hj
        cases hj
      rw [hj0] at hj
      simp only [List.getElem?_cons_zero, Option.some.injEq] at hj
      rw [if_pos hj, if_pos (by omega), halloc]
      congr 1
      omega
  · intro k' hk'
    show HashMap.find (HashMap.add s.hash_map_ k s.allocated) k' = _
    simp only [List.mem_append, List.mem_singleton, not_or] at hk'
    rw [HashMap.find_add, if_neg (fun h0 => hk'.2 h0.symm)]
    exact hout k' hk'.1
  · intro j k' hj hEj
    show ∃ b', HashMap.find (HashMap.add s.entries s.allocated _) j = _
    rw [HashMap.find_add]
    by_cases hjl : j < ks.length
    · rw [List.getElem?_append_left hjl] at hj
      rw [if_neg (by omega)]
      exact hent j k' hj hEj
    · rw [List.getElem?_append_right (by omega)] at hj
      have hj0 : j - ks.length = 0 := by
        by_contra h0
        rw [List.getElem?_eq_none (by simp; omega)] at hj
        cases hj
      rw [hj0] at hj
      simp only [List.getElem?_cons_zero, Option.some.injEq] at hj
      rw [if_pos (by omega), ← hj]
      exact ⟨b, rfl⟩
  · intro j hj
    show HashMap.find (HashMap.add s.entries s.allocated _) j = _
    rw [hlen] at hj
    rw [HashMap.find_add, if_neg (by omega)]
    exact hfree j (by omega)

theorem Distinct.distinct_start (f : Nat → V) (S C : Nat) : Distinct f S C [] 0 (SegmentCache.new S C) := by
  refine ⟨rfl, ⟨rfl, rfl, le_refl _, ?_, fun _ _ => rfl, ?_, fun _ _ => rfl⟩, ?_, Nat.zero_le _,
    Or.inl rfl, Nat.dvd_zero _⟩
  · intro j k hj
    simp at hj
  · intro j k hj
    simp at hj
  · refine ⟨0, Segment.new S 0, [], by simp [SegmentCache.new, SegmentList.new], Nat.zero_le _,
      fun h => absurd h (by simp), rfl, rfl, ?_, rfl⟩
    simp [SegmentCache.new, SegmentList.new, Segment.new, filledSlots_zero]

end SegmentCache

namespace SegmentCache

variable {V : Type}

/-- One more `Insert` of a new key in a run of distinct inserts at a capacity
of at least five segments: it returns true, after evicting the oldest segment
when the shard is over capacity. -/
theorem Distinct.distinct_insert {f : Nat → V} {S C fuel : Nat} (hS : 1 ≤ S) (hS32 : S + 1 < 2 ^ 32)
    (h64 : C + 1 < 2 ^ 64) (hfuel : 2 ≤ fuel)
    {ks : List Nat} {E : Nat} {s : SegmentCache V} (h : Distinct f S C ks E s)
    (hC : 5 * S ≤ C ∨ ks.length + 1 ≤ C)
    {k : Nat} (hk : k ∉ ks) (hnd : (ks ++ [k]).Nodup) :
    ∃ s' E', Insert S fuel s k (f k) = .ok (true, s') ∧ Distinct f S C (ks ++ [k]) E' s' := by
  obtain ⟨hcap, hcont, hwin, hsize, hlow, hdvd⟩ := h
  have hlen : (ks ++ [k]).length = ks.length + 1 := by simp
  have hfind : HashMap.find s.hash_map_ k = none := hcont.2.2.2.2.1 k hk
  have husage : s.usage_ = ks.length - E := hcont.2.1
  have hEle : E ≤ ks.length := hcont.2.2.1
  -- the count of segments fits 64 bits
  have hcount : s.segment_list_.count + 1 < 2 ^ 64 := by
    obtain ⟨u, head, rest, hn, _⟩ := hwin
    have : s.segment_list_.count * 1 ≤ s.segment_list_.count * S := Nat.mul_le_mul_left _ hS
    omega
  obtain ⟨sl, hadd, hwin'⟩ := hwin.add hS hS32 hcount hfuel
  rw [← hcont.1] at hadd
  have hmid := hcont.linked hk (by omega) s.segment_list_.head_segment sl
  rw [Insert_new_unfold S fuel s k (f k) hfind, hadd]
  simp only
  by_cases hover : ks.length + 1 - E ≤ C
  · -- no eviction
    rw [evictLoop_of_le]
    · refine ⟨_, E, rfl, hcap, hmid, by rw [hlen]; exact hwin', by rw [hlen]; exact hover, ?_,
        hdvd⟩
      rcases hlow with h0 | h0
      · exact Or.inl h0
      · right; rw [hlen]; omega
    · show u64 (s.usage_ + 1) ≤ s.capacity_
      rw [u64_of_lt (by omega), hcap]
      omega
  · -- the shard is over capacity: one segment goes
    have hC : 5 * S ≤ C := by
      rcases hC with h0 | h0
      · exact h0
      · omega
    have hfull : ks.length - E = C := by omega
    have hcnt : sl.count > 4 := by
      obtain ⟨u, head, rest, hn, hu, _⟩ := hwin'
      by_contra hle
      have : sl.count * S ≤ 4 * S := Nat.mul_le_mul_right _ (by omega)
      omega
    have hcnt64 : sl.count < 2 ^ 64 := by
      obtain ⟨u, head, rest, hn, _⟩ := hwin'
      have : sl.count * 1 ≤ sl.count * S := Nat.mul_le_mul_left _ hS
      omega
    have hES : E + S ≤ ks.length + 1 := by
      obtain ⟨u, head, rest, hn, _⟩ := hwin'
      have : 1 * S ≤ sl.count * S := Nat.mul_le_mul_right _ (by omega)
      omega
    obtain ⟨victim, sl', hev, hvic, hwin''⟩ := hwin'.evict hcnt hcnt64
    have hmid' := hcont.linked hk (by omega) s.segment_list_.head_segment sl'
    obtain ⟨s3, hs3, hc3, hseg3, hcap3⟩ :=
      Contents.evict_segment hnd S E _ hmid' (by rw [hlen]; exact hES)
        (by show u64 (s.usage_ + 1) < 2 ^ 64; rw [u64_of_lt (by omega)]; omega)
    have hone : EvictOne
        (⟨s.capacity_, u64 (s.usage_ + 1), HashMap.add s.hash_map_ k s.allocated,
          HashMap.add s.entries s.allocated ⟨k, f k, 1, 2, s.segment_list_.head_segment, 1⟩,
          s.allocated + 1, sl⟩ : SegmentCache V) = .ok s3 := by
      simp only [EvictOne, hev, hvic, filledSlots_full]
      exact hs3
    have hu3 : s3.usage_ ≤ s3.capacity_ := by
      rw [hc3.2.1, hcap3, hlen]
      show _ ≤ s.capacity_
      omega
    obtain ⟨fuel, rfl⟩ : ∃ n, fuel = n + 1 := ⟨fuel - 1, by omega⟩
    have hgt : (⟨s.capacity_, u64 (s.usage_ + 1), HashMap.add s.hash_map_ k s.allocated,
          HashMap.add s.entries s.allocated ⟨k, f k, 1, 2, s.segment_list_.head_segment, 1⟩,
          s.allocated + 1, sl⟩ : SegmentCache V).usage_ >
        (⟨s.capacity_, u64 (s.usage_ + 1), HashMap.add s.hash_map_ k s.allocated,
          HashMap.add s.entries s.allocated ⟨k, f k, 1, 2, s.segment_list_.head_segment, 1⟩,
          s.allocated + 1, sl⟩ : SegmentCache V).capacity_ := by
      show u64 (s.usage_ + 1) > s.capacity_
      rw [u64_of_lt (by omega)]
      omega
    simp only [evictLoop, hgt, if_true, hone, evictLoop_of_le fuel s3 hu3]
    refine ⟨_, E + S, rfl, hcap3.trans hcap, hc3, ?_, ?_, Or.inr ?_, Dvd.dvd.add hdvd (dvd_refl _)⟩
    · rw [hseg3, hlen]; exact hwin''
    · rw [hlen]; omega
    · rw [hlen]; omega

theorem Distinct.distinct_run_inserts {f : Nat → V} {S C fuel : Nat} (hS : 1 ≤ S) (hS32 : S + 1 < 2 ^ 32)
    (h64 : C + 1 < 2 ^ 64) (hfuel : 2 ≤ fuel) (ks : List Nat) :
    ∀ (done : List Nat) (E : Nat) (s : SegmentCache V),
      Distinct f S C done E s → (done ++ ks).Nodup →
      (5 * S ≤ C ∨ (done ++ ks).length ≤ C) →
      ∃ s' E', run S fuel s (insertOps (ks.map fun k => (k, f k)))
          = .ok (ks.map (fun _ => (⟨true, none⟩ : Ret V)), s') ∧
        Distinct f S C (done ++ ks) E' s' := by
  induction ks with
  | nil =>
    intro done E s h _ _
    exact ⟨s, E, rfl, by simpa using h⟩
  | cons k t ih =>
    intro done E s h hnd hC
    have hk : k ∉ done := by
      intro hmem
      exact (List.nodup_append.1 hnd).2.2 hmem (by simp)
    have hnd1 : (done ++ [k]).Nodup := by
      have : (done ++ [k] ++ t).Nodup := by simpa [List.append_assoc] using hnd
      exact (List.nodup_append.1 this).1
    have hC1 : 5 * S ≤ C ∨ done.length + 1 ≤ C := by
      rcases hC with h0 | h0
      · exact Or.inl h0
      · right
        simp only [List.length_append, List.length_cons] at h0
        omega
    obtain ⟨s1, E1, hins, h1⟩ := h.distinct_insert hS hS32 h64 hfuel hC1 hk hnd1
    obtain ⟨s2, E2, hrun, h2⟩ := ih (done ++ [k]) E1 s1 h1
      (by simpa [List.append_assoc] using hnd) (by simpa [List.append_assoc] using hC)
    refine ⟨s2, E2, ?_, by simpa [List.append_assoc] using h2⟩
    simp only [insertOps, List.map_cons, List.map_map, run, step, hins] at hrun ⊢
    rw [hrun]

/-- What `Lookup` returns after a run of distinct inserts: a hit with the
value for the keys that have not been evicted, a miss for every other key. -/
theorem Distinct.distinct_lookup {f : Nat → V} {S C fuel : Nat} (hS : 1 ≤ S) (hfuel : 2 ≤ fuel)
    {ks : List Nat} {E : Nat} {s : SegmentCache V} (h : Distinct f S C ks E s)
    (k : Nat) (value : V) :
    (k ∈ ks.drop E → ∃ t, Lookup S fuel s k value = .ok (true, f k, t)) ∧
      (k ∉ ks.drop E → Lookup S fuel s k value = .ok (false, value, s)) := by
  obtain ⟨_, ⟨_, _, _, hidx, hout, hent, _⟩, hwin, _⟩ := h
  have hne : s.segment_list_.segments ≠ [] := by
    obtain ⟨u, head, rest, _, _, _, hsegs, _⟩ := hwin
    rw [hsegs]; exact List.cons_ne_nil _ _
  constructor
  · intro hk
    obtain ⟨i, hi⟩ := List.getElem?_of_mem hk
    rw [List.getElem?_drop] at hi
    have h1 := hidx (E + i) k hi
    rw [if_pos (by omega)] at h1
    obtain ⟨b, h2⟩ := hent (E + i) k hi (by omega)
    simp only [Lookup, h1, h2]
    by_cases hb : b = s.segment_list_.head_segment
    · simp only [hb, ne_eq, not_true_eq_false, if_false]
      exact ⟨_, rfl⟩
    · obtain ⟨sl, hadd, _⟩ :=
        SegmentList.Add_ok hS s.segment_list_ hne (E + i) (u32 (1 + 1)) hfuel
      simp only [ne_eq, hb, not_false_eq_true, if_true, hadd]
      exact ⟨_, rfl⟩
  · intro hk
    by_cases hmem : k ∈ ks
    · obtain ⟨j, hj⟩ := List.getElem?_of_mem hmem
      have hjE : ¬ E ≤ j := by
        intro hle
        apply hk
        have : (ks.drop E)[j - E]? = some k := by
          rw [List.getElem?_drop]
          rw [show E + (j - E) = j by omega]
          exact hj
        exact List.getElem?_mem this
      have h1 := hidx j k hj
      rw [if_neg hjE] at h1
      simp only [Lookup, h1]
    · simp only [Lookup, hout k hmem]

theorem Add_more_fuel {S : Nat} (fuel : Nat) : ∀ (sl sl' : SegmentList) (entry version : Nat),
    SegmentList.Add S fuel sl entry version = .ok sl' →
      SegmentList.Add S (fuel + 1) sl entry version = .ok sl' := by
  induction fuel with
  | zero =>
    intro sl sl' entry version h
    simp only [SegmentList.Add] at h
    cases h
  | succ fuel ih =>
    intro sl sl' entry version h
    obtain ⟨segs, count, allocated⟩ := sl
    cases segs with
    | nil => simp only [SegmentList.Add] at h; cases h
    | cons head rest =>
      simp only [SegmentList.Add] at h ⊢
      cases ha : Segment.Append S head entry version with
      | mk b head1 =>
        rw [ha] at h
        cases b with
        | true => exact h
        | false => exact ih _ _ _ _ h

/-- In a run of distinct inserts that has filled a shard of a capacity of less
than five segments, the next `Insert` of a new key never returns: at most four
full segments are behind the head, so `Evict` detaches nothing. -/
theorem Distinct.stuck {f : Nat → V} {S C : Nat} (hS : 1 ≤ S) (hS32 : S + 1 < 2 ^ 32)
    (hC : C < 5 * S) (h64 : C + 1 < 2 ^ 64)
    {ks : List Nat} {E : Nat} {s : SegmentCache V} (h : Distinct f S C ks E s)
    (hfull : ks.length - E = C) {k : Nat} (hk : k ∉ ks) (v : V) (fuel : Nat) :
    Insert S fuel s k v = .error .outOfFuel := by
  obtain ⟨hcap, hcont, hwin, hsize, hlow, hdvd⟩ := h
  have hfind : HashMap.find s.hash_map_ k = none := hcont.2.2.2.2.1 k hk
  have husage : s.usage_ = ks.length - E := hcont.2.1
  have hEle : E ≤ ks.length := hcont.2.2.1
  have hne : s.segment_list_.segments ≠ [] := by
    obtain ⟨u, head, rest, _, _, _, hsegs, _⟩ := hwin
    rw [hsegs]; exact List.cons_ne_nil _ _
  have hcount : s.segment_list_.count + 1 < 2 ^ 64 := by
    obtain ⟨u, head, rest, hn, _⟩ := hwin
    have : s.segment_list_.count * 1 ≤ s.segment_list_.count * S := Nat.mul_le_mul_left _ hS
    omega
  rcases SegmentList.Add_cases hS s.segment_list_ hne s.allocated 1 fuel with
    hadd | ⟨sl, hadd, _, _, _⟩
  · simp only [Insert, hfind, hadd]
  · -- with two more units of fuel `Add` returns the same log
    have hadd2 : SegmentList.Add S (fuel + 2) s.segment_list_ s.allocated 1 = .ok sl :=
      Add_more_fuel _ _ _ _ _ (Add_more_fuel _ _ _ _ _ hadd)
    obtain ⟨sl2, hadd2', hwin'⟩ := @SegmentList.Window.add S E ks.length hS hS32 _ hwin hcount
      (fuel + 2) (by omega)
    rw [← hcont.1, hadd2] at hadd2'
    cases hadd2'
    have hcnt : sl.count ≤ 4 := by
      obtain ⟨u, head, rest, hn, hu, hpos, _⟩ := hwin'
      have hu0 := hpos (by omega)
      by_contra hgt
      have : 5 * S ≤ sl.count * S := Nat.mul_le_mul_right _ (by omega)
      omega
    simp only [Insert, hfind, hadd]
    rw [evictLoop_stuck]
    · show s.capacity_ < u64 (s.usage_ + 1)
      rw [u64_of_lt (by omega)]
      omega
    · exact hcnt

end SegmentCache

/-- C11, as amended. For every number `S ≥ 1` of slots per segment and every
capacity `C` of at least five segments (`5 * S ≤ C`), and also for every
capacity that the keys do not exceed (`N ≤ C`): in a sequential run of
`Insert`s of distinct keys into an empty Segment shard every `Insert` returns
(true), after at most one pass of its loop `while usage > capacity:
EvictOne`, and `get_size() ≤ C` after each of them. Inserting the keys
`0..299` at capacity 200 completes when a segment has at most 40 slots. Two
units of fuel are enough for the loops. -/
theorem segment_inserts_terminate {V : Type} (S C fuel : Nat) (hS : 1 ≤ S)
    (hS32 : S + 1 < 2 ^ 32) (h64 : C + 1 < 2 ^ 64) (hfuel : 2 ≤ fuel) (f : Nat → V)
    (ks : List Nat) (hnd : ks.Nodup) (hC : 5 * S ≤ C ∨ ks.length ≤ C) :
    (∀ n, ∃ s, SegmentCache.run S fuel (SegmentCache.new S C)
        (insertOps ((ks.take n).map fun k => (k, f k)))
        = .ok ((ks.take n).map (fun _ => (⟨true, none⟩ : Ret V)), s) ∧ s.get_size ≤ C) ∧
    (S ≤ 40 → ∃ s, SegmentCache.run S fuel (SegmentCache.new S 200)
        (insertOps ((List.range 300).map fun k => (k, f k)))
        = .ok ((List.range 300).map (fun _ => (⟨true, none⟩ : Ret V)), s) ∧
        s.get_size ≤ 200) := by
  constructor
  · intro n
    have hC' : 5 * S ≤ C ∨ ([] ++ ks.take n).length ≤ C := by
      rcases hC with h | h
      · exact Or.inl h
      · right
        simp only [List.nil_append, List.length_take]
        omega
    obtain ⟨s, E, hrun, hd⟩ :=
      SegmentCache.Distinct.distinct_run_inserts hS hS32 h64 hfuel (ks.take n) [] 0
        (SegmentCache.new S C) (SegmentCache.Distinct.distinct_start f S C)
        (by simpa using hnd.sublist (List.take_sublist n ks)) hC'
    refine ⟨s, hrun, ?_⟩
    obtain ⟨_, hcont, _, hsize, _⟩ := hd
    show s.usage_ ≤ C
    rw [hcont.2.1]
    exact hsize
  · intro h40
    obtain ⟨s, E, hrun, hd⟩ :=
      @SegmentCache.Distinct.distinct_run_inserts V f S 200 fuel hS hS32 (by decide) hfuel
        (List.range 300) [] 0
        (SegmentCache.new S 200) (SegmentCache.Distinct.distinct_start f S 200)
        (by simpa using List.nodup_range 300) (Or.inl (by omega))
    refine ⟨s, hrun, ?_⟩
    obtain ⟨_, hcont, _, hsize, _⟩ := hd
    show s.usage_ ≤ 200
    rw [hcont.2.1]
    exact hsize

theorem segment_inserts_terminate_witness :
    1 ≤ 2 ∧ 2 + 1 < 2 ^ 32 ∧ 10 + 1 < 2 ^ 64 ∧ 2 ≤ 2 ∧ (List.range 25).Nodup ∧
    (5 * 2 ≤ 10 ∨ (List.range 25).length ≤ 10) ∧
    ∀ n, ∃ s, SegmentCache.run 2 2 (SegmentCache.new 2 10)
        (insertOps (((List.range 25).take n).map fun k => (k, k)))
        = .ok (((List.range 25).take n).map (fun _ => (⟨true, none⟩ : Ret Nat)), s) ∧
        s.get_size ≤ 10 :=
  ⟨by decide, by decide, by decide, by decide, List.nodup_range 25, Or.inl (by decide),
    (segment_inserts_terminate 2 10 2 (by decide) (by decide) (by decide) (by decide)
      (fun k => k) (List.range 25) (List.nodup_range 25) (Or.inl (by decide))).1⟩

/-- C11, the claim as stated fails: at capacity 200 with the 65536 slots per
segment of the source, the inserts of the keys `0..199` return, and then
`Insert(200, 200)` never returns, whatever fuel its loops get: the shard is
over capacity and `Evict` detaches nothing from a log of one segment. -/
theorem segment_insert_201st_never_returns :
    ∃ rs s, SegmentCache.run 65536 2 (SegmentCache.new 65536 200)
        (insertOps ((List.range 200).map fun k => (k, k))) = .ok (rs, s) ∧
      ∀ fuel, SegmentCache.Insert 65536 fuel s 200 200 = .error .outOfFuel := by
  obtain ⟨s, E, hrun, hd⟩ :=
    @SegmentCache.Distinct.distinct_run_inserts Nat (fun k => k) 65536 200 2 (by decide) (by decide)
      (by decide) (by decide) (List.range 200) [] 0
      (SegmentCache.new 65536 200) (SegmentCache.Distinct.distinct_start (fun k => k) 65536 200)
      (by simpa using List.nodup_range 200) (Or.inr (by simp))
  refine ⟨_, s, hrun, fun fuel => ?_⟩
  simp only [List.nil_append] at hd
  have hE : E = 0 := by
    obtain ⟨_, hcont, _, _, _, hdvd⟩ := hd
    have hle := hcont.2.2.1
    simp only [List.length_range] at hle
    obtain ⟨c, hc⟩ := hdvd
    cases c with
    | zero => simpa using hc
    | succ c => rw [hc, Nat.mul_succ] at hle; omega
  subst hE
  exact hd.stuck (by decide) (by decide) (by decide) (by decide) (by simp)
    (by simp) 200 fuel

/-- C12, as amended. For every segment size `S ≥ 1` and every `k ≥ 5`, with
capacity `C = k * S`: after the sequential inserts of `2 * C` distinct keys
into an empty Segment shard, which all return true, the resident keys are
exactly the `C` keys inserted last: `Lookup` hits each of them with its value
and misses every other key, and `get_size()` is `C`. -/
theorem segment_coarse_recency {V : Type} (S k fuel : Nat) (hS : 1 ≤ S)
    (hS32 : S + 1 < 2 ^ 32) (hk : 5 ≤ k) (h64 : k * S + 1 < 2 ^ 64) (hfuel : 2 ≤ fuel)
    (f : Nat → V) (ks : List Nat) (hnd : ks.Nodup) (hlen : ks.length = 2 * (k * S))
    (value : V) :
    ∃ s, SegmentCache.run S fuel (SegmentCache.new S (k * S))
        (insertOps (ks.map fun key => (key, f key)))
        = .ok (ks.map (fun _ => (⟨true, none⟩ : Ret V)), s) ∧
      s.get_size = k * S ∧
      (∀ key, key ∈ ks.drop (k * S) →
        ∃ t, SegmentCache.Lookup S fuel s key value = .ok (true, f key, t)) ∧
      (∀ key, key ∉ ks.drop (k * S) →
        SegmentCache.Lookup S fuel s key value = .ok (false, value, s)) := by
  have h5 : 5 * S ≤ k * S := Nat.mul_le_mul_right _ hk
  obtain ⟨s, E, hrun, hd⟩ :=
    SegmentCache.Distinct.distinct_run_inserts hS hS32 h64 hfuel ks [] 0
      (SegmentCache.new S (k * S)) (SegmentCache.Distinct.distinct_start f S (k * S))
      (by simpa using hnd) (Or.inl h5)
  simp only [List.nil_append] at hd
  -- the number of evicted keys is `k * S`
  have hE : E = k * S := by
    obtain ⟨_, hcont, _, hsize, hlow, hdvd⟩ := hd
    have hle := hcont.2.2.1
    obtain ⟨e, he⟩ := hdvd
    have hE1 : k * S ≤ E := by omega
    have hE0 : E ≠ 0 := by omega
    have hE2 : E < (k + 1) * S := by
      rw [Nat.add_mul]
      rcases hlow with h0 | h0
      · exact absurd h0 hE0
      · omega
    rw [he, Nat.mul_comm S e] at hE1 hE2
    have h1 : k ≤ e := Nat.le_of_mul_le_mul_right hE1 (by omega)
    have h2 : e < k + 1 := Nat.lt_of_mul_lt_mul_right hE2
    have : e = k := by omega
    rw [he, this, Nat.mul_comm]
  subst hE
  refine ⟨s, hrun, ?_, fun key hkey => (hd.distinct_lookup hS hfuel key value).1 hkey,
    fun key hkey => (hd.distinct_lookup hS hfuel key value).2 hkey⟩
  obtain ⟨_, hcont, _⟩ := hd
  show s.usage_ = k * S
  rw [hcont.2.1, hlen]
  omega

theorem segment_coarse_recency_witness :
    1 ≤ 1 ∧ 1 + 1 < 2 ^ 32 ∧ 5 ≤ 5 ∧ 5 * 1 + 1 < 2 ^ 64 ∧ 2 ≤ 2 ∧ (List.range 10).Nodup ∧
    (List.range 10).length = 2 * (5 * 1) ∧
    ∃ s, SegmentCache.run 1 2 (SegmentCache.new 1 (5 * 1))
        (insertOps ((List.range 10).map fun key => (key, key)))
        = .ok ((List.range 10).map (fun _ => (⟨true, none⟩ : Ret Nat)), s) ∧
      s.get_size = 5 * 1 ∧
      (∀ key, key ∈ (List.range 10).drop (5 * 1) →
        ∃ t, SegmentCache.Lookup 1 2 s key 0 = .ok (true, key, t)) ∧
      (∀ key, key ∉ (List.range 10).drop (5 * 1) →
        SegmentCache.Lookup 1 2 s key 0 = .ok (false, 0, s)) :=
  ⟨by decide, by decide, by decide, by decide, by decide, List.nodup_range 10, by decide,
    segment_coarse_recency 1 5 2 (by decide) (by decide) (by decide) (by decide) (by decide)
      (fun key => key) (List.range 10) (List.nodup_range 10) (by decide) 0⟩

/-- C12, the claim as stated fails for `k < 5`: with one slot per segment and
capacity 4 (`k = 4`), the inserts of the keys `0..3` return, and the fifth of
the eight inserts, `Insert(4, 4)`, never returns, whatever fuel its loops
get. -/
theorem segment_recency_insert_never_returns :
    ∃ rs s, SegmentCache.run 1 2 (SegmentCache.new 1 4)
        (insertOps ((List.range 4).map fun k => (k, k))) = .ok (rs, s) ∧
      ∀ fuel, SegmentCache.Insert 1 fuel s 4 4 = .error .outOfFuel := by
  obtain ⟨s, E, hrun, hd⟩ :=
    @SegmentCache.Distinct.distinct_run_inserts Nat (fun k => k) 1 4 2 (by decide) (by decide)
      (by decide) (by decide) (List.range 4) [] 0
      (SegmentCache.new 1 4) (SegmentCache.Distinct.distinct_start (fun k => k) 1 4)
      (by simpa using List.nodup_range 4) (Or.inr (by simp))
  refine ⟨_, s, hrun, fun fuel => ?_⟩
  simp only [List.nil_append] at hd
  have hE : E = 0 := by
    obtain ⟨_, hcont, _, hsize, hlow, _⟩ := hd
    have hle := hcont.2.2.1
    simp only [List.length_range] at hle hlow
    rcases hlow with h0 | h0
    · exact h0
    · omega
  subst hE
  exact hd.stuck (by decide) (by decide) (by decide) (by decide) (by simp)
    (by simp) 4 fuel

/-! ## FrozenHot shard -/

theorem bind_ok {ε α β : Type} {x : Except ε α} {f : α → Except ε β} {r : β}
    (h : x >>= f = .ok r) : ∃ a, x = .ok a ∧ f a = .ok r := by
  cases x with
  | error e => cases h
  | ok a => exact ⟨a, rfl, h⟩

namespace FrozenHotCache

variable {V : Type}

theorem SameData.refl (s : FrozenHotCache V) : SameData s s :=
  ⟨rfl, rfl, rfl, rfl, rfl, rfl, rfl, rfl, rfl, rfl, rfl, rfl⟩

theorem SameData.trans {s1 s2 s3 : FrozenHotCache V} (h1 : SameData s1 s2)
    (h2 : SameData s2 s3) : SameData s1 s3 := by
  obtain ⟨a1, a2, a3, a4, a5, a6, a7, a8, a9, a10, a11, a12⟩ := h1
  obtain ⟨b1, b2, b3, b4, b5, b6, b7, b8, b9, b10, b11, b12⟩ := h2
  exact ⟨b1.trans a1, b2.trans a2, b3.trans a3, b4.trans a4, b5.trans a5, b6.trans a6,
    b7.trans a7, b8.trans a8, b9.trans a9, b10.trans a10, b11.trans a11, b12.trans a12⟩

theorem put_same (s : FrozenHotCache V) (p : Ptr) (n : ListNode) : SameData s (put s p n) := by
  cases p <;> exact SameData.refl _

theorem setPrev_same {s s' : FrozenHotCache V} {p q : Ptr} (h : setPrev s p q = .ok s') :
    SameData s s' := by
  unfold setPrev at h
  cases hd : deref s p with
  | error e => rw [hd] at h; cases h
  | ok n => rw [hd] at h; cases h; exact put_same _ _ _

theorem setNext_same {s s' : FrozenHotCache V} {p q : Ptr} (h : setNext s p q = .ok s') :
    SameData s s' := by
  unfold setNext at h
  cases hd : deref s p with
  | error e => rw [hd] at h; cases h
  | ok n => rw [hd] at h; cases h; exact put_same _ _ _

theorem setTime_same {s s' : FrozenHotCache V} {p : Ptr} {t : Nat}
    (h : setTime s p t = .ok s') : SameData s s' := by
  unfold setTime at h
  cases hd : deref s p with
  | error e => rw [hd] at h; cases h
  | ok n => rw [hd] at h; cases h; exact put_same _ _ _

theorem delete_same {s s' : FrozenHotCache V} {p : Ptr} (h : delete s p = .ok s') :
    SameData s s' := by
  cases p with
  | null => simp only [delete] at h; cases h; exact SameData.refl _
  | node id =>
    simp only [delete] at h
    cases hf : HashMap.find s.nodes id with
    | none => rw [hf] at h; cases h
    | some n => rw [hf] at h; cases h; exact SameData.refl _
  | marker => cases h
  | head => cases h
  | tail => cases h
  | fast_head => cases h
  | fast_tail => cases h

theorem LruRemove_same {s s' : FrozenHotCache V} {node : Ptr} (h : LruRemove s node = .ok s') :
    SameData s s' := by
  unfold LruRemove at h
  split_ifs at h
  obtain ⟨n, _, h⟩ := bind_ok h
  obtain ⟨s1, h1, h⟩ := bind_ok h
  obtain ⟨s2, h2, h⟩ := bind_ok h
  exact (setNext_same h1).trans ((setPrev_same h2).trans (setPrev_same h))

theorem LruPushFront_same {s s' : FrozenHotCache V} {node : Ptr}
    (h : LruPushFront s node = .ok s') : SameData s s' := by
  unfold LruPushFront at h
  obtain ⟨s1, h1, h⟩ := bind_ok h
  obtain ⟨s2, h2, h⟩ := bind_ok h
  obtain ⟨s3, h3, h⟩ := bind_ok h
  exact (setPrev_same h1).trans ((setNext_same h2).trans ((setPrev_same h3).trans
    (setNext_same h)))

/-- `Insert` on a shard with `enable_insert` false. -/
theorem Insert_disabled (fuel : Nat) (s : FrozenHotCache V) (h : s.enable_insert = false)
    (key : Nat) (value : V) (now : Nat) : Insert fuel s key value now = .ok (false, s) := by
  simp [Insert, h]

/-- `DeleteFastCache` leaves `enable_insert` and `frozen_all` as they are. -/
theorem DeleteFastCache_flags {s s' : FrozenHotCache V} (h : DeleteFastCache s = .ok s') :
    s'.enable_insert = s.enable_insert ∧ s'.frozen_all = s.frozen_all ∧
      s'.fast_cache_ready = false ∧ s'.m_fast_hash = [] ∧ s'.m_map = s.m_map := by
  unfold DeleteFastCache at h
  obtain ⟨s1, h1, h⟩ := bind_ok h
  obtain ⟨s2, h2, h⟩ := bind_ok h
  obtain ⟨s3, h3, h⟩ := bind_ok h
  obtain ⟨s4, h4, h⟩ := bind_ok h
  obtain ⟨s5, h5, h⟩ := bind_ok h
  obtain ⟨s6, h6, h⟩ := bind_ok h
  have hs := (setPrev_same h1).trans ((setNext_same h2).trans ((setNext_same h3).trans
    ((setPrev_same h4).trans ((setNext_same h5).trans (setPrev_same h6)))))
  obtain ⟨_, _, a3, _, _, _, a7, _, a9, _⟩ := hs
  simp only [pure, Except.pure, Except.ok.injEq] at h
  subst h
  by_cases hr : s6.fast_cache_ready = true
  · rw [if_pos hr]
    exact ⟨a9, a7, rfl, rfl, a3⟩
  · rw [if_neg hr]
    exact ⟨a9, a7, Bool.eq_false_iff.2 hr, rfl, a3⟩

end FrozenHotCache

namespace FrozenHotCache

variable {V : Type}

theorem SameIndex.refl_index (s : FrozenHotCache V) : SameIndex s s :=
  ⟨rfl, rfl, rfl, rfl, rfl, rfl, rfl, rfl, rfl, rfl⟩

theorem SameIndex.trans_index {s1 s2 s3 : FrozenHotCache V} (h1 : SameIndex s1 s2)
    (h2 : SameIndex s2 s3) : SameIndex s1 s3 := by
  obtain ⟨a1, a2, a3, a4, a5, a6, a7, a8, a9, a10⟩ := h1
  obtain ⟨b1, b2, b3, b4, b5, b6, b7, b8, b9, b10⟩ := h2
  exact ⟨b1.trans a1, b2.trans a2, b3.trans a3, b4.trans a4, b5.trans a5, b6.trans a6,
    b7.trans a7, b8.trans a8, b9.trans a9, b10.trans a10⟩

theorem SameData.index {s s' : FrozenHotCache V} (h : SameData s s') : SameIndex s s' := by
  obtain ⟨a1, a2, a3, _, a5, a6, a7, a8, a9, a10, a11, _⟩ := h
  exact ⟨a1, a2, a3, a5, a6, a7, a8, a9, a10, a11⟩

theorem FastFromIndex.of_same {s s' : FrozenHotCache V} (h : SameData s s')
    (hf : FastFromIndex s) : FastFromIndex s' := by
  intro key v hk
  unfold fastFind at hk
  rw [h.2.2.2.1] at hk
  rw [h.2.2.1]
  exact hf key v hk

theorem FastFromIndex.fast_insert {s : FrozenHotCache V} (hf : FastFromIndex s) {key : Nat}
    {hv : HashMapValue V} (hk : HashMap.find s.m_map key = some hv) :
    FastFromIndex (fastInsert s key hv.m_value) := by
  intro k v hkv
  simp only [fastFind, fastInsert, HashMap.find_add] at hkv
  show ∃ p, HashMap.find s.m_map k = _
  by_cases hkk : key = k
  · rw [if_pos hkk] at hkv
    cases hkv
    rw [← hkk, hk]
    exact ⟨hv.m_list_node, rfl⟩
  · rw [if_neg hkk] at hkv
    exact hf k v hkv

theorem fastLoop_index (FC_size DC_size : Nat) (fuel : Nat) :
    ∀ (s : FrozenHotCache V) (temp_node : Ptr) (count : Nat) (first_pass_flag : Bool)
      (s' : FrozenHotCache V),
      fastLoop FC_size DC_size fuel s temp_node count first_pass_flag = .ok s' →
      SameIndex s s' ∧ s'.eviction_counter = s.eviction_counter ∧
        (FastFromIndex s → FastFromIndex s') := by
  induction fuel with
  | zero => intro s t c f s' h; cases h
  | succ fuel ih =>
    intro s t c f s' h
    unfold fastLoop at h
    split_ifs at h with ht
    · cases h; exact ⟨SameIndex.refl_index _, rfl, id⟩
    · obtain ⟨n, hn, h⟩ := bind_ok h
      simp only at h
      cases hfind : HashMap.find s.m_map n.m_key with
      | none =>
        rw [hfind] at h
        simp only at h
        obtain ⟨linked, hl, h⟩ := bind_ok h
        obtain ⟨s1, h1, h⟩ := bind_ok h
        obtain ⟨s2, h2, h⟩ := bind_ok h
        have h1' : SameData s s1 := by
          cases linked with
          | true => exact LruRemove_same h1
          | false => cases h1; exact SameData.refl _
        have h12 := h1'.trans (delete_same h2)
        obtain ⟨i1, i2, i3⟩ := ih _ _ _ _ _ h
        exact ⟨h12.index.trans_index i1, i2.trans h12.2.2.2.2.2.2.2.2.2.2.2,
          fun hf => i3 (hf.of_same h12)⟩
      | some hv =>
        rw [hfind] at h
        simp only at h
        have hins : SameIndex s (fastInsert s n.m_key hv.m_value) := SameIndex.refl_index _
        split_ifs at h with hc he
        · obtain ⟨first, _, h⟩ := bind_ok h
          obtain ⟨tn, _, h⟩ := bind_ok h
          obtain ⟨s1, h1, h⟩ := bind_ok h
          obtain ⟨s2, h2, h⟩ := bind_ok h
          obtain ⟨s3, h3, h⟩ := bind_ok h
          obtain ⟨s4, h4, h⟩ := bind_ok h
          have hs := (setPrev_same h1).trans ((setNext_same h2).trans ((setPrev_same h3).trans
            ((setNext_same h4).trans (setPrev_same h))))
          exact ⟨hs.index, hs.2.2.2.2.2.2.2.2.2.2.2,
            fun hf => (hf.fast_insert hfind).of_same hs⟩
        · obtain ⟨s1, h1, h⟩ := bind_ok h
          obtain ⟨s2, h2, h⟩ := bind_ok h
          obtain ⟨nd, _, h⟩ := bind_ok h
          obtain ⟨s3, h3, h⟩ := bind_ok h
          obtain ⟨s4, h4, h⟩ := bind_ok h
          obtain ⟨s5, h5, h⟩ := bind_ok h
          have hs := (setPrev_same h1).trans ((setNext_same h2).trans ((setPrev_same h3).trans
            ((setNext_same h4).trans (setPrev_same h5))))
          obtain ⟨i1, i2, i3⟩ := ih _ _ _ _ _ h
          exact ⟨hs.index.trans_index i1, i2.trans hs.2.2.2.2.2.2.2.2.2.2.2,
            fun hf => i3 ((hf.fast_insert hfind).of_same hs)⟩
        · obtain ⟨i1, i2, i3⟩ := ih _ _ _ _ _ h
          exact ⟨i1, i2, fun hf => i3 (hf.fast_insert hfind)⟩

end FrozenHotCache

namespace FrozenHotCache

variable {V : Type}

theorem tierLoop_index (fuel : Nat) :
    ∀ (s : FrozenHotCache V) (temp_node : Ptr) (s' : FrozenHotCache V),
      tierLoop fuel s temp_node = .ok s' →
      SameIndex s s' ∧ (FastFromIndex s → FastFromIndex s') := by
  induction fuel with
  | zero => intro s t s' h; cases h
  | succ fuel ih =>
    intro s t s' h
    unfold tierLoop at h
    split_ifs at h with ht
    · cases h; exact ⟨SameIndex.refl_index _, id⟩
    · obtain ⟨n, hn, h⟩ := bind_ok h
      split_ifs at h with hk
      · obtain ⟨s1, h1, h⟩ := bind_ok h
        obtain ⟨s2, h2, h⟩ := bind_ok h
        have h12 := (LruRemove_same h1).trans (delete_same h2)
        obtain ⟨i1, i3⟩ := ih _ _ _ h
        exact ⟨h12.index.trans_index i1, fun hf => i3 (hf.of_same h12)⟩
      · cases hfind : HashMap.find s.m_map n.m_key with
        | none =>
          rw [hfind] at h
          simp only at h
          obtain ⟨linked, hl, h⟩ := bind_ok h
          obtain ⟨s1, h1, h⟩ := bind_ok h
          obtain ⟨s2, h2, h⟩ := bind_ok h
          have h1' : SameData s s1 := by
            cases linked with
            | true => exact LruRemove_same h1
            | false => cases h1; exact SameData.refl _
          have h12 := h1'.trans (delete_same h2)
          obtain ⟨i1, i3⟩ := ih _ _ _ h
          exact ⟨h12.index.trans_index i1, fun hf => i3 (hf.of_same h12)⟩
        | some hv =>
          rw [hfind] at h
          simp only at h
          obtain ⟨i1, i3⟩ := ih _ _ _ h
          exact ⟨i1, fun hf => i3 (hf.fast_insert hfind)⟩

/-- What `ConstructTier` does to the flags when it returns: it returns false
with `enable_insert` false and `fast_cache_construct` false, and leaves
`fast_cache_ready`, `frozen_all` and `curve_flag` as they were. -/
theorem ConstructTier_flags {fuel : Nat} {s : FrozenHotCache V} {r : Bool × FrozenHotCache V}
    (h : ConstructTier fuel s = .ok r) :
    r.1 = false ∧ r.2.enable_insert = false ∧ r.2.fast_cache_construct = false ∧
      r.2.fast_cache_ready = s.fast_cache_ready ∧ r.2.frozen_all = s.frozen_all ∧
      r.2.curve_flag = s.curve_flag ∧ r.2.m_map = s.m_map := by
  unfold ConstructTier at h
  simp only at h
  split_ifs at h
  obtain ⟨s1, h1, h⟩ := bind_ok h
  obtain ⟨s2, h2, h⟩ := bind_ok h
  obtain ⟨s3, h3, h⟩ := bind_ok h
  obtain ⟨s4, h4, h⟩ := bind_ok h
  obtain ⟨s5, h5, h⟩ := bind_ok h
  obtain ⟨s6, h6, h⟩ := bind_ok h
  obtain ⟨s7, h7, h⟩ := bind_ok h
  have hs := ((setNext_same h1).trans ((setPrev_same h2).trans ((setPrev_same h3).trans
    ((setNext_same h4).trans ((setNext_same h5).trans (setPrev_same h6)))))).index.trans_index
      (tierLoop_index fuel _ _ _ h7).1
  obtain ⟨_, _, a3, _, a5, a6, _, a8, a9, _⟩ := hs
  cases h
  exact ⟨rfl, a8, rfl, a5, a6, a9, a3⟩

/-- What `ConstructFastCache` leaves when it returns: it returns true with
`fast_cache_ready` true, the index as it was, and a fast hash table whose
values are those of the index. -/
theorem ConstructFastCache_index {fuel FC_size : Nat} {s : FrozenHotCache V}
    {r : Bool × FrozenHotCache V} (h : ConstructFastCache fuel s FC_size = .ok r) :
    r.1 = true ∧ r.2.fast_cache_ready = true ∧ r.2.fast_cache_construct = false ∧
      r.2.enable_insert = s.enable_insert ∧ r.2.frozen_all = s.frozen_all ∧
      r.2.m_map = s.m_map ∧ r.2.m_size = s.m_size ∧
      (FastFromIndex s → FastFromIndex r.2) := by
  unfold ConstructFastCache at h
  by_cases c1 : FC_size > s.m_max_size
  · rw [if_pos c1] at h; cases h
  rw [if_neg c1] at h
  by_cases c2 : s.m_fast_head.m_next ≠ .fast_tail
  · rw [if_pos c2] at h; cases h
  rw [if_neg c2] at h
  by_cases c3 : s.m_fast_tail.m_prev ≠ .fast_head
  · rw [if_pos c3] at h; cases h
  rw [if_neg c3] at h
  have h0 : SameIndex s (if s.eviction_counter > 0 then { s with eviction_counter := 0 } else s) ∧
      (FastFromIndex s →
        FastFromIndex (if s.eviction_counter > 0 then { s with eviction_counter := 0 } else s)) := by
    by_cases c4 : s.eviction_counter > 0
    · rw [if_pos c4]; exact ⟨SameIndex.refl_index _, id⟩
    · rw [if_neg c4]; exact ⟨SameIndex.refl_index _, id⟩
  generalize (if s.eviction_counter > 0 then { s with eviction_counter := 0 } else s) = s0 at h h0
  obtain ⟨s1, h1, h⟩ := bind_ok h
  obtain ⟨s2, h2, h⟩ := bind_ok h
  have hA := setNext_same h1
  obtain ⟨i1, _, i3⟩ := fastLoop_index _ _ fuel _ _ _ _ _ h2
  cases h
  obtain ⟨a1, a2, a3, a4, a5, a6, a7, a8, a9, a10⟩ := i1
  obtain ⟨b1, b2, b3, b4, b5, b6, b7, b8, b9, b10⟩ := hA.index
  obtain ⟨⟨c1, c2, c3, c4, c5, c6, c7, c8, c9, c10⟩, c11⟩ := h0
  refine ⟨rfl, rfl, rfl, ?_, ?_, ?_, ?_, fun hf => ?_⟩
  · exact a8.trans (b8.trans c8)
  · exact a6.trans (b6.trans c6)
  · exact a3.trans (b3.trans c3)
  · exact a2.trans (b2.trans c2)
  · exact i3 (fun key v hk => ((c11 hf).of_same hA) key v hk)

/-- `Lookup` of a key of the fast hash table while the fast tier is ready. -/
theorem Lookup_fast (s : FrozenHotCache V) (hr : s.fast_cache_ready = true) {key : Nat} {v : V}
    (hk : fastFind s key = some v) (value : V) (list_lock : Bool) (now : Nat) :
    Lookup s key value list_lock now = .ok (true, v, s) := by
  simp only [Lookup, hr, hk, Bool.true_or, if_true]
  rfl

end FrozenHotCache

/-- C16. On a FrozenHot shard in which `enable_insert` is false, `Insert(k, v)`
returns false and leaves the whole state as it is: the index, the main list,
the fast list, the fast hash table and the size. In the scenario of capacity
100 with `Insert` of the keys `1..100` followed by `ConstructTier`, the four
calls `ConstructTier()`, `Insert(101, 7)`, `Lookup(101)` and `Lookup(50)`
return false, false (rejected), miss, and hit with the value 50. -/
theorem frozenhot_insert_rejected {V : Type} (fuel : Nat) (s : FrozenHotCache V)
    (h : s.enable_insert = false) (key : Nat) (value : V) (now : Nat) :
    FrozenHotCache.Insert fuel s key value now = .ok (false, s) ∧
    (FrozenHotCache.run 101 (FrozenHotCache.new 100) FrozenHotCache.frozenAllScenario).map
        (fun r => r.1.drop 100)
      = .ok [⟨false, none⟩, ⟨false, none⟩, ⟨false, some 0⟩, ⟨true, some 50⟩] := by
  refine ⟨FrozenHotCache.Insert_disabled fuel s h key value now, ?_⟩
  set_option maxRecDepth 1000000 in
  decide

theorem frozenhot_insert_rejected_witness :
    FrozenHotCache.sampleTier.enable_insert = false ∧
    FrozenHotCache.run 4 (FrozenHotCache.new 2) [.Insert 5 50 0, .ConstructTier]
      = .ok ([⟨true, none⟩, ⟨false, none⟩], FrozenHotCache.sampleTier) ∧
    FrozenHotCache.Insert 4 FrozenHotCache.sampleTier 7 70 0
      = .ok (false, FrozenHotCache.sampleTier) :=
  ⟨rfl, by decide, (frozenhot_insert_rejected 4 FrozenHotCache.sampleTier rfl 7 70 0).1⟩

/-- C17, the code at a failing input. A shard of capacity 2 in the Dynamic
state holds key 5. When `ConstructTier` returns, key 5 is in the fast hash
table and `enable_insert` is false, but `fast_cache_ready` and `frozen_all`
are false: the method never sets them (for every state it leaves them as
they were). A following `Lookup(5)` therefore does not probe the fast hash
table; it goes through the index and moves the node from the fast list to
the main list. -/
theorem frozenhot_construct_tier_leaves_flags :
    FrozenHotCache.run 4 (FrozenHotCache.new 2) [.Insert 5 50 0, .ConstructTier]
      = .ok ([⟨true, none⟩, ⟨false, none⟩], FrozenHotCache.sampleTier) ∧
    FrozenHotCache.sampleTier.fast_cache_ready = false ∧
    FrozenHotCache.sampleTier.frozen_all = false ∧
    FrozenHotCache.sampleTier.fast_cache_construct = false ∧
    FrozenHotCache.sampleTier.enable_insert = false ∧
    FrozenHotCache.sampleTier.curve_flag = false ∧
    FrozenHotCache.fastFind FrozenHotCache.sampleTier 5 = some 50 ∧
    (FrozenHotCache.Lookup FrozenHotCache.sampleTier 5 0 true 0).map
        (fun r => (r.1, r.2.1, r.2.2.m_head.m_next, r.2.2.m_fast_head.m_next))
      = .ok (true, 50, .node 0, .fast_tail) ∧
    ∀ (V : Type) (fuel : Nat) (s : FrozenHotCache V) (r : Bool × FrozenHotCache V),
      FrozenHotCache.ConstructTier fuel s = .ok r →
        r.2.fast_cache_ready = s.fast_cache_ready ∧ r.2.frozen_all = s.frozen_all := by
  refine ⟨by decide, rfl, rfl, rfl, rfl, rfl, by decide, by decide, fun V fuel s r h => ?_⟩
  have := FrozenHotCache.ConstructTier_flags h
  exact ⟨this.2.2.2.1, this.2.2.2.2.1⟩

/-- C18, the code at a failing input. On a shard of capacity 2 the calls
`Insert(5, 50)`, `ConstructTier()`, `DeleteFastCache()`, `Insert(7, 70)` return
true, false, (nothing), false: `enable_insert` is still false after
`DeleteFastCache`, the last `Insert` is rejected and key 7 is not resident.
`DeleteFastCache` leaves `enable_insert` as it was in every state. -/
theorem frozenhot_delete_keeps_insert_disabled :
    (FrozenHotCache.run 4 (FrozenHotCache.new 2)
        [.Insert 5 50 0, .ConstructTier, .DeleteFastCache, .Insert 7 70 0]).map
        (fun r => (r.1.map Ret.ret, r.2.enable_insert, HashMap.find r.2.m_map 7))
      = .ok ([true, false, true, false], false, none) ∧
    ∀ (V : Type) (s s' : FrozenHotCache V),
      FrozenHotCache.DeleteFastCache s = .ok s' → s'.enable_insert = s.enable_insert := by
  refine ⟨by decide, fun V s s' h => (FrozenHotCache.DeleteFastCache_flags h).1⟩

/-- C20. When `ConstructFastCache` has returned on a shard whose fast hash
table held only values of the index (an empty table, for one), the fast tier
is ready, and for every key held in the fast hash table `Lookup` returns true
with the value the index had for the key when the fast tier was built, and
leaves the whole state as it is (both lists, the index, the size), whatever
the `try_to_lock` gives. -/
theorem frozenhot_fast_lookup {V : Type} (fuel FC_size : Nat) (s : FrozenHotCache V)
    (hs : FrozenHotCache.FastFromIndex s) (r : Bool × FrozenHotCache V)
    (hbuild : FrozenHotCache.ConstructFastCache fuel s FC_size = .ok r)
    (key : Nat) (v : V) (hkey : FrozenHotCache.fastFind r.2 key = some v)
    (value : V) (list_lock : Bool) (now : Nat) :
    r.2.fast_cache_ready = true ∧
    (∃ p, HashMap.find s.m_map key = some ⟨v, p⟩) ∧
    FrozenHotCache.Lookup r.2 key value list_lock now = .ok (true, v, r.2) := by
  obtain ⟨_, h2, _, _, _, h6, _, h8⟩ := FrozenHotCache.ConstructFastCache_index hbuild
  refine ⟨h2, ?_, FrozenHotCache.Lookup_fast r.2 h2 hkey value list_lock now⟩
  obtain ⟨p, hp⟩ := h8 hs key v hkey
  rw [h6] at hp
  exact ⟨p, hp⟩

theorem frozenhot_fast_lookup_witness :
    FrozenHotCache.run 4 (FrozenHotCache.new 20) [.Insert 5 50 0, .Insert 6 60 0]
      = .ok ([⟨true, none⟩, ⟨true, none⟩], FrozenHotCache.sampleDynamic) ∧
    FrozenHotCache.ConstructFastCache 4 FrozenHotCache.sampleDynamic 20
      = .ok (true, FrozenHotCache.sampleFast) ∧
    FrozenHotCache.fastFind FrozenHotCache.sampleFast 6 = some 60 ∧
    FrozenHotCache.Lookup FrozenHotCache.sampleFast 6 0 false 0
      = .ok (true, 60, FrozenHotCache.sampleFast) :=
  ⟨by decide, by decide, by decide,
    (frozenhot_fast_lookup 4 20 FrozenHotCache.sampleDynamic (fun _ _ h => by cases h)
      (true, FrozenHotCache.sampleFast) (by decide) 6 60 (by decide) 0 false 0).2.2⟩

/-! ## The lists of a FrozenHot shard -/

namespace FrozenHotCache

variable {V : Type}

theorem find_update_some {β : Type} {m : HashMap β} {k : Nat} {b0 : β}
    (h : HashMap.find m k = some b0) (b : β) (k' : Nat) :
    HashMap.find (HashMap.update m k b) k' = if k' = k then some b else HashMap.find m k' := by
  rw [HashMap.find_update]
  by_cases hk : k' = k
  · rw [if_pos hk, if_pos hk, hk, h]; rfl
  · rw [if_neg hk, if_neg hk]

theorem firstPtr_append (xs ys : List Nat) (b : Ptr) (h : xs ≠ []) :
    firstPtr (xs ++ ys) b = firstPtr xs (firstPtr ys b) := by
  cases xs with
  | nil => exact absurd rfl h
  | cons i r => rfl

theorem lastPtr_append (a : Ptr) (xs ys : List Nat) :
    lastPtr a (xs ++ ys) = lastPtr (lastPtr a xs) ys := by
  induction xs generalizing a with
  | nil => rfl
  | cons i r ih => exact ih (.node i)

theorem lastPtr_cons (a a' : Ptr) (i : Nat) (r : List Nat) :
    lastPtr a (i :: r) = lastPtr a' (i :: r) := rfl

theorem Chain.frame {s s' : FrozenHotCache V} {ids : List Nat} {a b : Ptr}
    (hc : Chain s a ids b)
    (h : ∀ i ∈ ids, HashMap.find s'.nodes i = HashMap.find s.nodes i) : Chain s' a ids b := by
  induction ids generalizing a with
  | nil => trivial
  | cons i r ih =>
    refine ⟨?_, ih hc.2 (fun j hj => h j (List.mem_cons_of_mem _ hj))⟩
    rw [h i (List.mem_cons_self _ _)]
    exact hc.1

theorem Chain.split {s : FrozenHotCache V} {xs ys : List Nat} {a b : Ptr}
    (hc : Chain s a (xs ++ ys) b) :
    Chain s a xs (firstPtr ys b) ∧ Chain s (lastPtr a xs) ys b := by
  induction xs generalizing a with
  | nil => exact ⟨trivial, hc⟩
  | cons i r ih =>
    obtain ⟨h1, h2⟩ := hc
    obtain ⟨i1, i2⟩ := ih h2
    refine ⟨⟨?_, i1⟩, i2⟩
    cases r with
    | nil => exact h1
    | cons j r2 => exact h1

/-- Writing the `m_prev` of the first node of a chain. -/
theorem Chain.set_first {s s' : FrozenHotCache V} {i : Nat} {rest : List Nat} {a b a' : Ptr}
    (hc : Chain s a (i :: rest) b) (hi : i ∉ rest) {n : ListNode}
    (hn : HashMap.find s.nodes i = some n)
    (hu : ∀ j, HashMap.find s'.nodes j =
      if j = i then some { n with m_prev := a' } else HashMap.find s.nodes j) :
    Chain s' a' (i :: rest) b := by
  obtain ⟨h1, h2⟩ := hc
  refine ⟨?_, Chain.frame h2 (fun j hj => ?_)⟩
  · rw [hu i, if_pos rfl]
    rw [hn] at h1
    simp only [Option.map_some', Option.some.injEq, Prod.mk.injEq] at h1 ⊢
    exact ⟨trivial, h1.2⟩
  · rw [hu j, if_neg (fun h : j = i => hi (by rw [← h]; exact hj))]

/-- Writing the `m_next` of the last node of a chain. -/
theorem Chain.set_last {s s' : FrozenHotCache V} {ids : List Nat} {l : Nat} {a b b' : Ptr}
    (hc : Chain s a (ids ++ [l]) b) (hl : l ∉ ids) {n : ListNode}
    (hn : HashMap.find s.nodes l = some n)
    (hu : ∀ j, HashMap.find s'.nodes j =
      if j = l then some { n with m_next := b' } else HashMap.find s.nodes j) :
    Chain s' a (ids ++ [l]) b' := by
  induction ids generalizing a with
  | nil =>
    obtain ⟨h1, _⟩ := hc
    refine ⟨?_, trivial⟩
    rw [hu l, if_pos rfl]
    rw [hn] at h1
    simp only [Option.map_some', Option.some.injEq, Prod.mk.injEq] at h1 ⊢
    exact ⟨h1.1, rfl⟩
  | cons i r ih =>
    obtain ⟨h1, h2⟩ := hc
    have hil : i ≠ l := fun h => hl (by rw [← h]; exact List.mem_cons_self _ _)
    refine ⟨?_, ih h2 (fun h => hl (List.mem_cons_of_mem _ h))⟩
    rw [hu i, if_neg hil]
    cases r with
    | nil => exact h1
    | cons j r2 => exact h1

theorem Chain.find_first {s : FrozenHotCache V} {i : Nat} {rest : List Nat} {a b : Ptr}
    (hc : Chain s a (i :: rest) b) :
    ∃ n, HashMap.find s.nodes i = some n ∧ n.m_prev = a ∧ n.m_next = firstPtr rest b := by
  obtain ⟨h1, _⟩ := hc
  cases hf : HashMap.find s.nodes i with
  | none => rw [hf] at h1; cases h1
  | some n =>
    rw [hf] at h1
    simp only [Option.map_some', Option.some.injEq, Prod.mk.injEq] at h1
    exact ⟨n, rfl, h1.1, h1.2⟩

theorem Keyed.find_key {s : FrozenHotCache V} {ids : List Nat} (hk : Keyed s ids) {i : Nat}
    (hi : i ∈ ids) {n : ListNode} (hn : HashMap.find s.nodes i = some n) :
    ∃ hv, HashMap.find s.m_map n.m_key = some hv := by
  have := hk i hi
  rw [hn] at this
  simp only [Option.some_bind] at this
  exact Option.isSome_iff_exists.mp this

theorem entries_cons {s : FrozenHotCache V} {i : Nat} {n : ListNode} {hv : HashMapValue V}
    (hn : HashMap.find s.nodes i = some n) (hm : HashMap.find s.m_map n.m_key = some hv)
    (rest : List Nat) :
    entries s (i :: rest) = (n.m_key, hv.m_value) :: entries s rest := by
  unfold entries
  rw [List.filterMap_cons]
  simp only [hn, hm, Option.some_bind, Option.map_some']

theorem entries_congr {s s' : FrozenHotCache V} (h1 : s'.nodes = s.nodes)
    (h2 : s'.m_map = s.m_map) (ids : List Nat) : entries s' ids = entries s ids := by
  unfold entries
  rw [h1, h2]

theorem entries_length {s : FrozenHotCache V} {ids : List Nat} (hk : Keyed s ids) :
    (entries s ids).length = ids.length := by
  induction ids with
  | nil => rfl
  | cons i r ih =>
    have h := hk i (List.mem_cons_self _ _)
    cases hn : HashMap.find s.nodes i with
    | none => rw [hn] at h; cases h
    | some n =>
      obtain ⟨hv, hm⟩ := hk.find_key (List.mem_cons_self _ _) hn
      rw [entries_cons hn hm, List.length_cons, List.length_cons,
        ih (fun j hj => hk j (List.mem_cons_of_mem _ hj))]

end FrozenHotCache

namespace FrozenHotCache

variable {V : Type}

theorem u64_cut {FC_size : Nat} (h1 : 20 ≤ FC_size) (h2 : FC_size < 2 ^ 64) :
    u64 (2 ^ 64 - 20 + FC_size) = FC_size - 20 := by
  unfold u64
  omega

/-- A pass of the loop of `ConstructFastCache` that does not cut. -/
theorem fastLoop_pass {FC_size DC_size fuel : Nat} {s : FrozenHotCache V} {i : Nat}
    {n : ListNode} {hv : HashMapValue V} {count : Nat}
    (hn : HashMap.find s.nodes i = some n) (hm : HashMap.find s.m_map n.m_key = some hv)
    (hc : ¬ count + 1 > u64 (2 ^ 64 - 20 + FC_size)) (he : s.eviction_counter = 0) :
    fastLoop FC_size DC_size (fuel + 1) s (.node i) count true =
      fastLoop FC_size DC_size fuel (fastInsert s n.m_key hv.m_value) n.m_next (count + 1)
        true := by
  rw [fastLoop]
  rw [if_neg (by simp)]
  simp only [deref, hn, bind, Except.bind, hm, he, and_true, if_neg hc, gt_iff_lt,
    Nat.not_lt_zero, if_false]

end FrozenHotCache

namespace FrozenHotCache

variable {V : Type}

/-- The passes of the loop of `ConstructFastCache` over the nodes `pre`, none of
which cuts: they add the entries of these nodes to the fast hash table and
change nothing else. -/
theorem fastLoop_walk {FC_size DC_size : Nat} (h1 : 20 ≤ FC_size) (h2 : FC_size < 2 ^ 64)
    (post : List Nat) (b : Ptr) :
    ∀ (pre : List Nat) (s : FrozenHotCache V) (a : Ptr) (count fuel : Nat),
      Chain s a (pre ++ post) b → Keyed s pre → s.eviction_counter = 0 →
      count + pre.length ≤ FC_size - 20 →
      fastLoop FC_size DC_size (fuel + pre.length) s (firstPtr (pre ++ post) b) count true =
        fastLoop FC_size DC_size fuel
          { s with m_fast_hash := (entries s pre).reverse ++ s.m_fast_hash }
          (firstPtr post b) (count + pre.length) true := by
  intro pre
  induction pre with
  | nil => intro s a count fuel _ _ _ _; rfl
  | cons i r ih =>
    intro s a count fuel hc0 hk he hcount
    have hc : Chain s a (i :: (r ++ post)) b := hc0
    obtain ⟨n, hn, _, hnext⟩ := Chain.find_first hc
    obtain ⟨hv, hm⟩ := hk.find_key (List.mem_cons_self _ _) hn
    have hlen : (i :: r).length = r.length + 1 := rfl
    rw [hlen] at hcount ⊢
    have hno : ¬ count + 1 > u64 (2 ^ 64 - 20 + FC_size) := by
      rw [u64_cut h1 h2]; omega
    have hfuel : fuel + (r.length + 1) = fuel + r.length + 1 := rfl
    have hfirst : firstPtr (i :: r ++ post) b = .node i := rfl
    rw [hfuel, hfirst, fastLoop_pass hn hm hno he, hnext]
    have := ih (fastInsert s n.m_key hv.m_value) (.node i) (count + 1) fuel
      (Chain.frame hc.2 (fun _ _ => rfl)) (fun j hj => hk j (List.mem_cons_of_mem _ hj)) he
      (by omega)
    rw [this, entries_cons hn hm, List.reverse_cons, List.append_assoc,
      @entries_congr V s (fastInsert s n.m_key hv.m_value) rfl rfl r]
    have hc2 : count + 1 + r.length = count + (r.length + 1) := by omega
    rw [hc2]
    rfl

end FrozenHotCache

namespace FrozenHotCache

variable {V : Type}

/-- What `p->m_prev = q` does when `p` is an allocated node. -/
theorem setPrev_node {s : FrozenHotCache V} {i : Nat} {n : ListNode}
    (hn : HashMap.find s.nodes i = some n) (q : Ptr) :
    ∃ s', setPrev s (.node i) q = .ok s' ∧
      (∀ j, HashMap.find s'.nodes j =
        if j = i then some { n with m_prev := q } else HashMap.find s.nodes j) ∧
      s'.m_head = s.m_head ∧ s'.m_tail = s.m_tail ∧ s'.m_fast_head = s.m_fast_head ∧
      s'.m_fast_tail = s.m_fast_tail ∧ SameData s s' :=
  ⟨{ s with nodes := HashMap.update s.nodes i { n with m_prev := q } },
    by simp only [setPrev, deref, hn, put], find_update_some hn _, rfl, rfl, rfl, rfl,
    SameData.refl _⟩

/-- What `p->m_next = q` does when `p` is an allocated node. -/
theorem setNext_node {s : FrozenHotCache V} {i : Nat} {n : ListNode}
    (hn : HashMap.find s.nodes i = some n) (q : Ptr) :
    ∃ s', setNext s (.node i) q = .ok s' ∧
      (∀ j, HashMap.find s'.nodes j =
        if j = i then some { n with m_next := q } else HashMap.find s.nodes j) ∧
      s'.m_head = s.m_head ∧ s'.m_tail = s.m_tail ∧ s'.m_fast_head = s.m_fast_head ∧
      s'.m_fast_tail = s.m_fast_tail ∧ SameData s s' :=
  ⟨{ s with nodes := HashMap.update s.nodes i { n with m_next := q } },
    by simp only [setNext, deref, hn, put], find_update_some hn _, rfl, rfl, rfl, rfl,
    SameData.refl _⟩

/-- What `m_fast_tail.m_prev = q` does. -/
theorem setPrev_fast_tail (s : FrozenHotCache V) (q : Ptr) :
    ∃ s', setPrev s .fast_tail q = .ok s' ∧ s'.nodes = s.nodes ∧
      s'.m_head = s.m_head ∧ s'.m_tail = s.m_tail ∧ s'.m_fast_head = s.m_fast_head ∧
      s'.m_fast_tail.m_prev = q ∧ SameData s s' :=
  ⟨{ s with m_fast_tail := { s.m_fast_tail with m_prev := q } }, rfl, rfl, rfl, rfl, rfl, rfl,
    SameData.refl _⟩

/-- What `m_head.m_next = q` does. -/
theorem setNext_head (s : FrozenHotCache V) (q : Ptr) :
    ∃ s', setNext s .head q = .ok s' ∧ s'.nodes = s.nodes ∧
      s'.m_head.m_next = q ∧ s'.m_tail = s.m_tail ∧ s'.m_fast_head = s.m_fast_head ∧
      s'.m_fast_tail = s.m_fast_tail ∧ SameData s s' :=
  ⟨{ s with m_head := { s.m_head with m_next := q } }, rfl, rfl, rfl, rfl, rfl, rfl,
    SameData.refl _⟩

theorem map_key_of_update {s s' : FrozenHotCache V} {i : Nat} {n n' : ListNode}
    (hn : HashMap.find s.nodes i = some n)
    (hu : ∀ j, HashMap.find s'.nodes j = if j = i then some n' else HashMap.find s.nodes j)
    (hk : n'.m_key = n.m_key) (j : Nat) :
    (HashMap.find s'.nodes j).map ListNode.m_key = (HashMap.find s.nodes j).map ListNode.m_key := by
  rw [hu j]
  by_cases h : j = i
  · rw [if_pos h, h, hn]; simp only [Option.map_some', hk]
  · rw [if_neg h]

/-- The pass of the loop of `ConstructFastCache` that cuts: at the node `cur`,
the last of the nodes `i1 :: mid = pre ++ [cur]` walked so far, with the node
`c` after it. The nodes walked become the fast list and the nodes from `c` on
the main list. -/
theorem fastLoop_cut {FC_size DC_size fuel : Nat} (h1 : 20 ≤ FC_size) (h2 : FC_size < 2 ^ 64)
    {s : FrozenHotCache V} {i1 cur c : Nat} {mid pre rest : List Nat}
    (hview : i1 :: mid = pre ++ [cur]) (hfh : s.m_fast_head.m_next = .node i1)
    (hc : Chain s .head (pre ++ [cur] ++ c :: rest) .tail)
    (hnd : (pre ++ [cur] ++ c :: rest).Nodup) (hk : Keyed s [cur]) :
    ∃ s', fastLoop FC_size DC_size (fuel + 1) s (.node cur) (FC_size - 20) true = .ok s' ∧
      s'.m_fast_hash = entries s [cur] ++ s.m_fast_hash ∧
      FastList s' (pre ++ [cur]) ∧ s'.m_head.m_next = .node c ∧ s'.m_tail = s.m_tail ∧
      Chain s' .head (c :: rest) .tail ∧ SameIndex s s' ∧
      s'.eviction_counter = s.eviction_counter ∧
      ∀ j, (HashMap.find s'.nodes j).map ListNode.m_key =
        (HashMap.find s.nodes j).map ListNode.m_key := by
  obtain ⟨hA, hB⟩ := Chain.split hc
  have hlast : lastPtr .head (pre ++ [cur]) = .node cur := by rw [lastPtr_append]; rfl
  rw [hlast] at hB
  obtain ⟨_, hcur⟩ := Chain.split hA
  obtain ⟨ncur, hncur, _, hncur_next⟩ := Chain.find_first hcur
  obtain ⟨hv, hm⟩ := hk.find_key (List.mem_singleton_self _) hncur
  obtain ⟨nc, hnc, hnc_prev, _⟩ := Chain.find_first hB
  have hA1 : Chain s .head (i1 :: mid) (firstPtr (c :: rest) .tail) := by rw [hview]; exact hA
  obtain ⟨n1, hn1, hn1_prev, _⟩ := Chain.find_first hA1
  -- the nodes are distinct
  obtain ⟨nd1, nd2, nd3⟩ := List.nodup_append.mp hnd
  obtain ⟨_, _, nd4⟩ := List.nodup_append.mp nd1
  have hcur_pre : cur ∉ pre := fun h => nd4 h (List.mem_singleton_self _)
  have hc_take : c ∉ i1 :: mid := by
    rw [hview]; exact fun h => nd3 h (List.mem_cons_self _ _)
  have hcur_rest : cur ∉ c :: rest := fun h => nd3 (by simp) h
  have hi1_mid : i1 ∉ mid := by
    rw [← hview] at nd1
    exact (List.nodup_cons.mp nd1).1
  have hi1_rest : i1 ∉ c :: rest := by
    have : i1 ∈ pre ++ [cur] := by rw [← hview]; exact List.mem_cons_self _ _
    exact fun h => nd3 this h
  have hc_rest : c ∉ rest := (List.nodup_cons.mp nd2).1
  have hnext : ncur.m_next = .node c := hncur_next
  -- the states the statements of the cut go through
  obtain ⟨s1, e1, a1, b1, c1, d1, f1, g1⟩ :=
    setPrev_fast_tail (fastInsert s ncur.m_key hv.m_value) (.node cur)
  have hncur1 : HashMap.find s1.nodes cur = some ncur := by rw [a1]; exact hncur
  obtain ⟨s2, e2, a2, b2, c2, d2, f2, g2⟩ := setNext_node hncur1 .fast_tail
  have a2' : ∀ j, HashMap.find s2.nodes j =
      if j = cur then some { ncur with m_next := .fast_tail } else HashMap.find s.nodes j := by
    intro j; rw [a2 j, a1]; rfl
  have k2a : Chain s2 .head (i1 :: mid) .fast_tail := by
    rw [hview]; exact Chain.set_last hA hcur_pre hncur a2'
  have k2b : Chain s2 (.node cur) (c :: rest) .tail :=
    Chain.frame hB (fun j hj => by
      rw [a2' j, if_neg (fun h : j = cur => hcur_rest (by rw [← h]; exact hj))])
  obtain ⟨n1', hn1', _, _⟩ := Chain.find_first k2a
  obtain ⟨s3, e3, a3, b3, c3, d3, f3, g3⟩ := setPrev_node hn1' .fast_head
  have k3a : Chain s3 .fast_head (i1 :: mid) .fast_tail := Chain.set_first k2a hi1_mid hn1' a3
  have k3b : Chain s3 (.node cur) (c :: rest) .tail :=
    Chain.frame k2b (fun j hj => by
      rw [a3 j, if_neg (fun h : j = i1 => hi1_rest (by rw [← h]; exact hj))])
  obtain ⟨s4, e4, a4, b4, c4, d4, f4, g4⟩ := setNext_head s3 (.node c)
  have k4b : Chain s4 (.node cur) (c :: rest) .tail :=
    Chain.frame k3b (fun j _ => by rw [a4])
  obtain ⟨nc', hnc', _, _⟩ := Chain.find_first k4b
  obtain ⟨s5, e5, a5, b5, c5, d5, f5, g5⟩ := setPrev_node hnc' .head
  have k5b : Chain s5 .head (c :: rest) .tail := Chain.set_first k4b hc_rest hnc' a5
  have k5a : Chain s5 .fast_head (i1 :: mid) .fast_tail :=
    Chain.frame k3a (fun j hj => by
      rw [a5 j, if_neg (fun h : j = c => hc_take (by rw [← h]; exact hj)), a4])
  have hsame : SameData (fastInsert s ncur.m_key hv.m_value) s5 :=
    g1.trans (g2.trans (g3.trans (g4.trans g5)))
  have hyes : FC_size - 20 + 1 > u64 (2 ^ 64 - 20 + FC_size) := by
    rw [u64_cut h1 h2]; omega
  refine ⟨s5, ?_, ?_, ⟨?_, ?_, ?_⟩, ?_, ?_, k5b, ?_, ?_, ?_⟩
  · have hdcur : deref s (.node cur) = .ok ncur := by simp only [deref, hncur]
    have hd1 : deref (fastInsert s ncur.m_key hv.m_value)
        (fastInsert s ncur.m_key hv.m_value).m_fast_head.m_next = .ok n1 := by
      simp only [fastInsert, hfh, deref, hn1]
    have hd2 : deref (fastInsert s ncur.m_key hv.m_value) (.node c) = .ok nc := by
      simp only [fastInsert, deref, hnc]
    have hfh2 : s2.m_fast_head.m_next = .node i1 := by rw [d2, d1]; exact hfh
    rw [fastLoop, if_neg (by simp)]
    simp only [hdcur, bind, Except.bind, hm, and_true, if_pos hyes, hnext, hd1, hd2, hnc_prev,
      e1, e2, hfh2, e3, hn1_prev, e4, e5]
  · rw [hsame.2.2.2.1, entries_cons hncur hm]; rfl
  · rw [d5, d4, d3, d2, d1, ← hview]; exact hfh
  · rw [← hview] at hlast
    rw [f5, f4, f3, f2, f1, ← hview]
    exact hlast.symm
  · rw [← hview]; exact k5a
  · rw [b5, b4]
  · rw [c5, c4, c3, c2, c1]; rfl
  · exact (SameData.trans (SameData.refl _) hsame).index
  · exact hsame.2.2.2.2.2.2.2.2.2.2.2
  · intro j
    rw [map_key_of_update hnc' a5 rfl j, a4, map_key_of_update hn1' a3 rfl j,
      map_key_of_update hncur1 a2 rfl j, a1]
    rfl

end FrozenHotCache

namespace FrozenHotCache

variable {V : Type}

theorem entries_append (s : FrozenHotCache V) (xs ys : List Nat) :
    entries s (xs ++ ys) = entries s xs ++ entries s ys := by
  unfold entries
  rw [List.filterMap_append]

theorem Keyed.sub {s : FrozenHotCache V} {ids xs : List Nat} (hk : Keyed s ids)
    (h : ∀ i ∈ xs, i ∈ ids) : Keyed s xs := fun i hi => hk i (h i hi)

/-- The loop of `ConstructFastCache` on a main list of at least `FC_size` nodes,
with `FC_size ≥ 20` and no eviction meanwhile: it cuts after `FC_size - 19`
nodes. -/
theorem fastLoop_dynamic {FC_size DC_size fuel : Nat} (h1 : 20 ≤ FC_size)
    (h2 : FC_size < 2 ^ 64) {s : FrozenHotCache V} {ids : List Nat}
    (hc : Chain s .head ids .tail) (hnd : ids.Nodup) (hk : Keyed s ids)
    (he : s.eviction_counter = 0) (hfh : s.m_fast_head.m_next = firstPtr ids .tail)
    (htail : s.m_tail.m_prev = lastPtr .head ids) (hlen : FC_size ≤ ids.length)
    (hfuel : FC_size - 19 ≤ fuel) :
    ∃ s', fastLoop FC_size DC_size fuel s (firstPtr ids .tail) 0 true = .ok s' ∧
      s'.m_fast_hash = (entries s (ids.take (FC_size - 19))).reverse ++ s.m_fast_hash ∧
      FastList s' (ids.take (FC_size - 19)) ∧ MainList s' (ids.drop (FC_size - 19)) ∧
      SameIndex s s' ∧ s'.eviction_counter = 0 ∧
      ∀ j, (HashMap.find s'.nodes j).map ListNode.m_key =
        (HashMap.find s.nodes j).map ListNode.m_key := by
  have hids : ids.take (FC_size - 19) ++ ids.drop (FC_size - 19) = ids := List.take_append_drop _ _
  have hlt : (ids.take (FC_size - 19)).length = FC_size - 19 := by
    rw [List.length_take]; omega
  have hld : (ids.drop (FC_size - 19)).length = ids.length - (FC_size - 19) := List.length_drop _ _
  generalize ids.take (FC_size - 19) = take at hids hlt ⊢
  generalize ids.drop (FC_size - 19) = drop at hids hld ⊢
  obtain ⟨pre, cur, hpre⟩ : ∃ pre cur, take = pre ++ [cur] := by
    rcases List.eq_nil_or_concat take with h | ⟨L, b, h⟩
    · rw [h] at hlt; simp at hlt; omega
    · exact ⟨L, b, by rw [h, List.concat_eq_append]⟩
  obtain ⟨i1, mid, hmid⟩ : ∃ i1 mid, take = i1 :: mid := by
    cases take with
    | nil => simp at hlt; omega
    | cons i r => exact ⟨i, r, rfl⟩
  obtain ⟨c, rest, hdrop⟩ : ∃ c rest, drop = c :: rest := by
    cases drop with
    | nil => simp at hld; omega
    | cons i r => exact ⟨i, r, rfl⟩
  have hview : i1 :: mid = pre ++ [cur] := hmid.symm.trans hpre
  have hids2 : pre ++ ([cur] ++ c :: rest) = ids := by
    rw [← hids, hpre, hdrop, List.append_assoc]
  have hids3 : pre ++ [cur] ++ c :: rest = ids := by rw [← hids, hpre, hdrop]
  have hplen : pre.length = FC_size - 20 := by
    rw [hpre, List.length_append, List.length_singleton] at hlt; omega
  obtain ⟨fuel', hf⟩ : ∃ fuel', fuel = fuel' + 1 + pre.length := ⟨fuel - 1 - pre.length, by omega⟩
  have hfirst : firstPtr ids .tail = .node i1 := by
    rw [← hids3, ← hview]; rfl
  have hwalk := @fastLoop_walk V FC_size DC_size h1 h2 ([cur] ++ c :: rest) .tail pre s
    .head 0 (fuel' + 1) (by rw [hids2]; exact hc)
    (hk.sub (fun i hi => by rw [← hids2]; exact List.mem_append_left _ hi)) he (by omega)
  rw [hids2] at hwalk
  rw [← hids3] at hc
  have hc3 : Chain { s with m_fast_hash := (entries s pre).reverse ++ s.m_fast_hash } .head
      (pre ++ [cur] ++ c :: rest) .tail :=
    Chain.frame hc (fun _ _ => rfl)
  obtain ⟨s', e, q1, q2, q3, q4, q5, q6, q7, q8⟩ :=
    @fastLoop_cut V FC_size DC_size fuel' h1 h2
      { s with m_fast_hash := (entries s pre).reverse ++ s.m_fast_hash } i1 cur c mid pre rest
      hview (by rw [← hfirst]; exact hfh) hc3 (by rw [hids3]; exact hnd)
      (fun i hi => hk i (by rw [← hids3]; simp at hi; simp [hi]))
  refine ⟨s', ?_, ?_, ?_, ?_, ?_, ?_, ?_⟩
  · rw [hf, hwalk]
    have : firstPtr ([cur] ++ c :: rest) Ptr.tail = .node cur := rfl
    rw [this, Nat.zero_add, hplen]
    exact e
  · rw [q1, hpre, entries_append, List.reverse_append]
    have hone : (entries s [cur]).reverse = entries s [cur] := by
      unfold entries
      cases h : (HashMap.find s.nodes cur).bind fun n =>
          (HashMap.find s.m_map n.m_key).map fun hv => (n.m_key, hv.m_value) with
      | none => simp [List.filterMap_cons, h]
      | some p => simp [List.filterMap_cons, h]
    rw [hone, List.append_assoc]
    rfl
  · rw [hpre]; exact q2
  · rw [hdrop]
    refine ⟨q3, ?_, q5⟩
    rw [q4]
    show s.m_tail.m_prev = _
    rw [htail, ← hids3, lastPtr_append]
    rfl
  · exact q6
  · rw [q7]; exact he
  · exact q8

end FrozenHotCache

namespace FrozenHotCache

variable {V : Type}

theorem MainList.main_of_eq {s s' : FrozenHotCache V} {ids : List Nat} (h : MainList s ids)
    (hn : s'.nodes = s.nodes) (hh : s'.m_head = s.m_head) (ht : s'.m_tail = s.m_tail) :
    MainList s' ids :=
  ⟨by rw [hh]; exact h.1, by rw [ht]; exact h.2.1,
    Chain.frame h.2.2 (fun i _ => by rw [hn])⟩

theorem FastList.fast_of_eq {s s' : FrozenHotCache V} {ids : List Nat} (h : FastList s ids)
    (hn : s'.nodes = s.nodes) (hh : s'.m_fast_head = s.m_fast_head)
    (ht : s'.m_fast_tail = s.m_fast_tail) : FastList s' ids :=
  ⟨by rw [hh]; exact h.1, by rw [ht]; exact h.2.1,
    Chain.frame h.2.2 (fun i _ => by rw [hn])⟩

/-- What `ConstructFastCache` does on a quiescent shard in the Dynamic state
whose main list holds at least `FC_size` nodes, for `FC_size ≥ 20`: it cuts the
main list after its first `FC_size - 19` nodes. These nodes become the fast
list and their entries, those of the most recently used node last, are added
to the fast hash table; the other nodes stay the main list, in their order. -/
theorem ConstructFastCache_dynamic {fuel FC_size : Nat} {s : FrozenHotCache V} {ids : List Nat}
    (hd : Dynamic s ids) (h1 : 20 ≤ FC_size) (hFC : FC_size ≤ s.m_max_size)
    (hlen : FC_size ≤ ids.length) (h2 : FC_size < 2 ^ 64) (hfuel : FC_size - 19 ≤ fuel) :
    ∃ s', ConstructFastCache fuel s FC_size = .ok (true, s') ∧
      s'.m_fast_hash = (entries s (ids.take (FC_size - 19))).reverse ++ s.m_fast_hash ∧
      FastList s' (ids.take (FC_size - 19)) ∧ MainList s' (ids.drop (FC_size - 19)) ∧
      s'.m_map = s.m_map ∧ s'.m_size = s.m_size ∧ s'.m_max_size = s.m_max_size ∧
      s'.fast_cache_ready = true ∧ s'.fast_cache_construct = false ∧
      s'.enable_insert = s.enable_insert ∧ s'.eviction_counter = 0 ∧
      ∀ j, (HashMap.find s'.nodes j).map ListNode.m_key =
        (HashMap.find s.nodes j).map ListNode.m_key := by
  obtain ⟨⟨m1, m2, m3⟩, hnd, hk, _, hf1, hf2⟩ := hd
  obtain ⟨s0, e0, z1, z2, z3, z4, z5, z6, z7, z8⟩ : ∃ s0,
      (if s.eviction_counter > 0 then { s with eviction_counter := 0 } else s) = s0 ∧
      s0.eviction_counter = 0 ∧ s0.nodes = s.nodes ∧ s0.m_map = s.m_map ∧
      s0.m_head = s.m_head ∧ s0.m_tail = s.m_tail ∧ s0.m_fast_hash = s.m_fast_hash ∧
      s0.m_max_size = s.m_max_size ∧ SameIndex s s0 := by
    by_cases c4 : s.eviction_counter > 0
    · rw [if_pos c4]
      exact ⟨_, rfl, rfl, rfl, rfl, rfl, rfl, rfl, rfl, SameIndex.refl_index _⟩
    · rw [if_neg c4]
      exact ⟨s, rfl, by omega, rfl, rfl, rfl, rfl, rfl, rfl, SameIndex.refl_index _⟩
  have hc2 : Chain { s0 with
        m_fast_head := { s0.m_fast_head with m_next := s0.m_head.m_next }
        fast_cache_construct := true } .head ids .tail :=
    Chain.frame m3 (fun i _ => by show HashMap.find s0.nodes i = _; rw [z2])
  have hk2 : Keyed { s0 with
        m_fast_head := { s0.m_fast_head with m_next := s0.m_head.m_next }
        fast_cache_construct := true } ids := by
    intro i hi
    have := hk i hi
    show ((HashMap.find s0.nodes i).bind fun n => HashMap.find s0.m_map n.m_key).isSome = true
    rw [z2, z3]
    exact this
  obtain ⟨s3, e, q1, q2, q3, q4, q5, q6⟩ :=
    @fastLoop_dynamic V FC_size (s0.m_max_size - FC_size) fuel h1 h2 _ ids hc2 hnd hk2 z1
      (by show s0.m_head.m_next = _; rw [z4]; exact m1)
      (by show s0.m_tail.m_prev = _; rw [z5]; exact m2) hlen hfuel
  have hptr : firstPtr ids .tail = s0.m_head.m_next := by rw [z4]; exact m1.symm
  rw [hptr] at e
  refine ⟨{ s3 with
      fast_cache_ready := true
      fast_cache_construct := false
      eviction_counter := 0 }, ?_, ?_, ?_, ?_, ?_, ?_, ?_, rfl, rfl, ?_, rfl, ?_⟩
  · unfold ConstructFastCache
    rw [if_neg (by omega), if_neg (by simp [hf1]), if_neg (by simp [hf2]), e0]
    simp only [setNext, deref, put, bind, Except.bind, e]
    rfl
  · show s3.m_fast_hash = _
    rw [q1]
    show (entries _ _).reverse ++ s0.m_fast_hash = _
    rw [z6]
    congr 2
    unfold entries
    show (List.filterMap (fun i => (HashMap.find s0.nodes i).bind fun n =>
      (HashMap.find s0.m_map n.m_key).map fun hv => (n.m_key, hv.m_value)) _) = _
    rw [z2, z3]
  · exact q2.fast_of_eq rfl rfl rfl
  · exact q3.main_of_eq rfl rfl rfl
  · exact q4.2.2.1.trans z8.2.2.1
  · exact q4.2.1.trans z8.2.1
  · exact q4.1.trans z8.1
  · exact q4.2.2.2.2.2.2.2.1.trans z8.2.2.2.2.2.2.2.1
  · intro j
    rw [show (HashMap.find s.nodes j) = HashMap.find s0.nodes j by rw [z2]]
    exact q6 j

end FrozenHotCache

namespace FrozenHotCache

variable {V : Type}

/-- What `m_tail.m_prev = q` does. -/
theorem setPrev_tail (s : FrozenHotCache V) (q : Ptr) :
    ∃ s', setPrev s .tail q = .ok s' ∧ s'.nodes = s.nodes ∧
      s'.m_head = s.m_head ∧ s'.m_tail.m_prev = q ∧ s'.m_fast_head = s.m_fast_head ∧
      s'.m_fast_tail = s.m_fast_tail ∧ SameData s s' :=
  ⟨{ s with m_tail := { s.m_tail with m_prev := q } }, rfl, rfl, rfl, rfl, rfl, rfl,
    SameData.refl _⟩

theorem put_allocated (s : FrozenHotCache V) (p : Ptr) (n : ListNode) :
    (put s p n).allocated = s.allocated := by
  cases p <;> rfl

theorem setPrev_allocated {s s' : FrozenHotCache V} {p q : Ptr} (h : setPrev s p q = .ok s') :
    s'.allocated = s.allocated := by
  unfold setPrev at h
  cases hd : deref s p with
  | error e => rw [hd] at h; cases h
  | ok n => rw [hd] at h; cases h; exact put_allocated _ _ _

theorem setNext_allocated {s s' : FrozenHotCache V} {p q : Ptr} (h : setNext s p q = .ok s') :
    s'.allocated = s.allocated := by
  unfold setNext at h
  cases hd : deref s p with
  | error e => rw [hd] at h; cases h
  | ok n => rw [hd] at h; cases h; exact put_allocated _ _ _

/-- `LruPushFront` of an allocated node that is not in the main list: the node
becomes the first of the main list. -/
theorem LruPushFront_chain {s : FrozenHotCache V} {ids : List Nat} {a : Nat} {n : ListNode}
    (hm : MainList s ids) (hnd : ids.Nodup) (ha : a ∉ ids)
    (hn : HashMap.find s.nodes a = some n) :
    ∃ s', LruPushFront s (.node a) = .ok s' ∧ MainList s' (a :: ids) ∧
      (∀ j, (HashMap.find s'.nodes j).map ListNode.m_key =
        (HashMap.find s.nodes j).map ListNode.m_key) ∧
      s'.m_fast_head = s.m_fast_head ∧ s'.m_fast_tail = s.m_fast_tail ∧ SameData s s' ∧
      s'.allocated = s.allocated := by
  obtain ⟨m1, m2, m3⟩ := hm
  obtain ⟨t1, e1, a1, b1, c1, d1, f1, g1⟩ := setPrev_node hn .head
  have hn1 : HashMap.find t1.nodes a = some { n with m_prev := .head } := by
    rw [a1 a, if_pos rfl]
  obtain ⟨t2, e2, a2, b2, c2, d2, f2, g2⟩ := setNext_node hn1 s.m_head.m_next
  have hn2 : HashMap.find t2.nodes a =
      some { m_key := n.m_key, m_prev := .head, m_next := s.m_head.m_next, m_time := n.m_time } := by
    rw [a2 a, if_pos rfl]
  have hother : ∀ j, j ≠ a → HashMap.find t2.nodes j = HashMap.find s.nodes j := by
    intro j hj; rw [a2 j, if_neg hj, a1 j, if_neg hj]
  have k2 : Chain t2 .head ids .tail :=
    Chain.frame m3 (fun j hj => hother j (fun h => ha (by rw [← h]; exact hj)))
  have hkeys2 : ∀ j, (HashMap.find t2.nodes j).map ListNode.m_key =
      (HashMap.find s.nodes j).map ListNode.m_key := by
    intro j
    rw [map_key_of_update hn1 a2 rfl j, map_key_of_update hn a1 rfl j]
  cases ids with
  | nil =>
    have hold : s.m_head.m_next = .tail := m1
    obtain ⟨t3, e3, a3, b3, c3, d3, f3, g3⟩ := setPrev_tail t2 (.node a)
    obtain ⟨t4, e4, a4, b4, c4, d4, f4, g4⟩ := setNext_head t3 (.node a)
    refine ⟨t4, ?_, ⟨b4, ?_, ?_, trivial⟩, ?_, ?_, ?_, ?_, ?_⟩
    · rw [hold] at e2
      unfold LruPushFront
      simp only [e1, bind, Except.bind, hold, e2, e3, e4]
    · rw [c4, c3]; rfl
    · rw [a4, a3, hn2, hold]; rfl
    · intro j; rw [a4, a3]; exact hkeys2 j
    · rw [d4, d3, d2, d1]
    · rw [f4, f3, f2, f1]
    · exact g1.trans (g2.trans (g3.trans g4))
    · rw [setNext_allocated e4, setPrev_allocated e3, setNext_allocated e2, setPrev_allocated e1]
  | cons i1 r =>
    have hold : s.m_head.m_next = .node i1 := m1
    have hi1 : i1 ≠ a := fun h => ha (by rw [← h]; exact List.mem_cons_self _ _)
    obtain ⟨n1, hfind1, _, _⟩ := Chain.find_first k2
    obtain ⟨t3, e3, a3, b3, c3, d3, f3, g3⟩ := setPrev_node hfind1 (.node a)
    obtain ⟨t4, e4, a4, b4, c4, d4, f4, g4⟩ := setNext_head t3 (.node a)
    have hnd1 : i1 ∉ r := (List.nodup_cons.mp hnd).1
    have k3 : Chain t3 (.node a) (i1 :: r) .tail := Chain.set_first k2 hnd1 hfind1 a3
    refine ⟨t4, ?_, ⟨b4, ?_, ?_, Chain.frame k3 (fun j _ => by rw [a4])⟩, ?_, ?_, ?_, ?_, ?_⟩
    · rw [hold] at e2
      unfold LruPushFront
      simp only [e1, bind, Except.bind, hold, e2, e3, e4]
    · rw [c4, c3, c2, c1, m2]; rfl
    · rw [a4, a3 a, if_neg (fun h => hi1 h.symm), hn2, hold]; rfl
    · intro j; rw [a4, map_key_of_update hfind1 a3 rfl j]; exact hkeys2 j
    · rw [d4, d3, d2, d1]
    · rw [f4, f3, f2, f1]
    · exact g1.trans (g2.trans (g3.trans g4))
    · rw [setNext_allocated e4, setPrev_allocated e3, setNext_allocated e2, setPrev_allocated e1]

end FrozenHotCache

namespace FrozenHotCache

variable {V : Type}

theorem Keyed.of_keys {s s' : FrozenHotCache V} {ids : List Nat} (hk : Keyed s ids)
    (hn : ∀ j ∈ ids, (HashMap.find s'.nodes j).map ListNode.m_key =
      (HashMap.find s.nodes j).map ListNode.m_key)
    (hm : ∀ k, (HashMap.find s.m_map k).isSome = true → (HashMap.find s'.m_map k).isSome = true) :
    Keyed s' ids := by
  intro j hj
  have h1 := hk j hj
  have h2 := hn j hj
  cases hs : HashMap.find s.nodes j with
  | none => rw [hs] at h1; cases h1
  | some n =>
    rw [hs] at h1 h2
    cases hs' : HashMap.find s'.nodes j with
    | none => rw [hs'] at h2; cases h2
    | some n' =>
      rw [hs'] at h2
      simp only [Option.map_some', Option.some.injEq] at h2
      simp only [Option.some_bind] at h1 ⊢
      rw [h2]
      exact hm _ h1

theorem entries_of_keys {s s' : FrozenHotCache V} {ids : List Nat} (hk : Keyed s ids)
    (hn : ∀ j ∈ ids, (HashMap.find s'.nodes j).map ListNode.m_key =
      (HashMap.find s.nodes j).map ListNode.m_key)
    (hm : ∀ k, (HashMap.find s.m_map k).isSome = true →
      (HashMap.find s'.m_map k).map HashMapValue.m_value =
        (HashMap.find s.m_map k).map HashMapValue.m_value) :
    entries s' ids = entries s ids := by
  unfold entries
  apply List.filterMap_congr
  intro j hj
  have h1 := hk j hj
  have h2 := hn j hj
  cases hs : HashMap.find s.nodes j with
  | none => rw [hs] at h1; cases h1
  | some n =>
    rw [hs] at h1 h2
    cases hs' : HashMap.find s'.nodes j with
    | none => rw [hs'] at h2; cases h2
    | some n' =>
      rw [hs'] at h2
      simp only [Option.map_some', Option.some.injEq] at h2
      simp only [Option.some_bind] at h1 ⊢
      have h3 := hm _ h1
      rw [h2]
      cases hv : HashMap.find s.m_map n.m_key with
      | none => rw [hv] at h1; cases h1
      | some v =>
        rw [hv] at h3
        cases hv' : HashMap.find s'.m_map n.m_key with
        | none => rw [hv'] at h3; cases h3
        | some v' =>
          rw [hv'] at h3
          simp only [Option.map_some', Option.some.injEq] at h3 ⊢
          rw [h3]

/-- `Insert` of a key that is not resident into a shard that is not full and
has seen only inserts: the call returns true with a new node for the key at
the head of the main list. -/
theorem Insert_fresh {fuel : Nat} {s : FrozenHotCache V} {ids : List Nat} (hf : Filling s ids)
    (hroom : s.m_size < s.m_max_size) (h64 : s.m_max_size < 2 ^ 64) {key : Nat}
    (hkey : HashMap.find s.m_map key = none) (value : V) (now : Nat) :
    ∃ s', Insert fuel s key value now = .ok (true, s') ∧ Filling s' (s.allocated :: ids) ∧
      s'.m_max_size = s.m_max_size ∧ s'.m_size = s.m_size + 1 ∧
      s'.m_map = HashMap.add s.m_map key ⟨value, .node s.allocated⟩ ∧
      s'.m_fast_hash = s.m_fast_hash ∧
      entries s' (s.allocated :: ids) = (key, value) :: entries s ids := by
  obtain ⟨⟨⟨m1, m2, m3⟩, hnd, hk, hsize, hf1, hf2⟩, hlt, hnone, he, hc, hcurve⟩ := hf
  have ha : s.allocated ∉ ids := fun h => Nat.lt_irrefl _ (hlt _ h)
  obtain ⟨s2, hs2⟩ : ∃ s2 : FrozenHotCache V, s2 = { s with
      m_map := HashMap.add s.m_map key ⟨value, .node s.allocated⟩
      nodes := HashMap.add s.nodes s.allocated
        { m_key := key, m_prev := .marker, m_next := .null, m_time := now }
      allocated := s.allocated + 1 } := ⟨_, rfl⟩
  have hmain2 : MainList s2 ids := by
    rw [hs2]
    refine ⟨m1, m2, Chain.frame m3 (fun j hj => ?_)⟩
    show HashMap.find (HashMap.add s.nodes s.allocated _) j = _
    rw [HashMap.find_add, if_neg (fun h => ha (by rw [h]; exact hj))]
  have hn2 : HashMap.find s2.nodes s.allocated =
      some { m_key := key, m_prev := .marker, m_next := .null, m_time := now } := by
    rw [hs2]
    show HashMap.find (HashMap.add s.nodes s.allocated _) _ = _
    rw [HashMap.find_add, if_pos rfl]
  obtain ⟨s3, e3, hmain3, hkeys3, fh3, ft3, same3, alloc3⟩ :=
    LruPushFront_chain hmain2 hnd ha hn2
  obtain ⟨z1, z2, z3, z4, z5, z6, z7, z8, z9, z10, z11, z12⟩ := same3
  rw [hs2] at e3 z1 z2 z3 z4 z8 z9 z10 alloc3
  have alloc3' : s3.allocated = s.allocated + 1 := alloc3
  have hmax : s3.m_max_size = s.m_max_size := z1
  have hsz : s3.m_size = s.m_size := z2
  have hnot : ¬ s3.m_size > s3.m_max_size := by rw [hmax, hsz]; omega
  have hu : u64 (s3.m_size + 1) = s.m_size + 1 := by
    rw [hsz]; unfold u64; exact Nat.mod_eq_of_lt (by omega)
  have hkeys : ∀ j ∈ ids, (HashMap.find s3.nodes j).map ListNode.m_key =
      (HashMap.find s.nodes j).map ListNode.m_key := by
    intro j hj
    rw [hkeys3 j, hs2]
    show (HashMap.find (HashMap.add s.nodes s.allocated _) j).map _ = _
    rw [HashMap.find_add, if_neg (fun h => ha (by rw [h]; exact hj))]
  have hnew : (HashMap.find s3.nodes s.allocated).map ListNode.m_key = some key := by
    rw [hkeys3, hn2]; rfl
  refine ⟨{ s3 with m_size := u64 (s3.m_size + 1) }, ?_, ?_, hmax, hu, z3, z4, ?_⟩
  · simp only [he, hc, hcurve] at e3
    unfold Insert
    simp only [he, hc, hcurve, newNode, hkey, Bool.not_true, Bool.false_eq_true, if_false,
      ge_iff_le, Nat.not_le.mpr hroom, pure, Except.pure, bind, Except.bind, e3, Bool.not_false,
      if_true, if_neg hnot]
  · have hmap : ∀ k, (HashMap.find s.m_map k).isSome = true →
        (HashMap.find s3.m_map k).isSome = true := by
      intro k hk0
      rw [z3, HashMap.find_add]
      by_cases hkk : key = k
      · rw [if_pos hkk]; rfl
      · rw [if_neg hkk]; exact hk0
    refine ⟨⟨hmain3.main_of_eq rfl rfl rfl, List.nodup_cons.mpr ⟨ha, hnd⟩, ?_, ?_, ?_, ?_⟩,
      ?_, ?_, z9.trans he, z8.trans hc, z10.trans hcurve⟩
    · intro j hj
      rcases List.mem_cons.mp hj with h | h
      · show ((HashMap.find s3.nodes j).bind fun n => HashMap.find s3.m_map n.m_key).isSome = true
        rw [h]
        cases hs3 : HashMap.find s3.nodes s.allocated with
        | none => rw [hs3] at hnew; cases hnew
        | some n' =>
          rw [hs3] at hnew
          simp only [Option.map_some', Option.some.injEq] at hnew
          simp only [Option.some_bind]
          rw [hnew, z3, HashMap.find_add, if_pos rfl]
          rfl
      · exact (Keyed.of_keys hk hkeys hmap : Keyed s3 ids) j h
    · show u64 (s3.m_size + 1) = _
      rw [hu, hsize]; rfl
    · show s3.m_fast_head.m_next = _
      rw [fh3, hs2]; exact hf1
    · show s3.m_fast_tail.m_prev = _
      rw [ft3, hs2]; exact hf2
    · intro i hi
      show i < s3.allocated
      rw [alloc3']
      rcases List.mem_cons.mp hi with h | h
      · rw [h]; exact Nat.lt_succ_self _
      · exact Nat.lt_succ_of_lt (hlt i h)
    · intro i hi
      have hi' : s.allocated + 1 ≤ i := by rw [← alloc3']; exact hi
      have h1 := hkeys3 i
      rw [hs2] at h1
      have h2 : HashMap.find (HashMap.add s.nodes s.allocated
          { m_key := key, m_prev := Ptr.marker, m_next := Ptr.null, m_time := now }) i = none := by
        rw [HashMap.find_add, if_neg (by omega)]
        exact hnone i (by omega)
      show HashMap.find s3.nodes i = none
      cases hs3 : HashMap.find s3.nodes i with
      | none => rfl
      | some n' =>
        rw [hs3] at h1
        rw [show ({ s with
          m_map := HashMap.add s.m_map key ⟨value, .node s.allocated⟩
          nodes := HashMap.add s.nodes s.allocated
            { m_key := key, m_prev := .marker, m_next := .null, m_time := now }
          allocated := s.allocated + 1 } : FrozenHotCache V).nodes = _ from rfl, h2] at h1
        cases h1
  · cases hs3 : HashMap.find s3.nodes s.allocated with
    | none => rw [hs3] at hnew; cases hnew
    | some n' =>
      rw [hs3] at hnew
      simp only [Option.map_some', Option.some.injEq] at hnew
      have hfind : HashMap.find s3.m_map n'.m_key = some ⟨value, .node s.allocated⟩ := by
        rw [hnew, z3, HashMap.find_add, if_pos rfl]
      have e := @entries_cons V { s3 with m_size := u64 (s3.m_size + 1) } s.allocated n'
        ⟨value, .node s.allocated⟩ hs3 hfind ids
      rw [e, hnew]
      congr 1
      have e2 : entries s3 ids = entries s ids := by
        refine entries_of_keys hk hkeys (fun k hk0 => ?_)
        rw [z3, HashMap.find_add]
        by_cases hkk : key = k
        · rw [← hkk, hkey] at hk0; cases hk0
        · rw [if_neg hkk]
      rw [← e2]
      exact entries_congr rfl rfl ids

end FrozenHotCache

namespace FrozenHotCache

variable {V : Type}

theorem Filling.of_new (capacity : Nat) : Filling (new capacity : FrozenHotCache V) [] :=
  ⟨⟨⟨rfl, rfl, trivial⟩, List.nodup_nil, fun _ h => absurd h (List.not_mem_nil _), rfl, rfl,
    rfl⟩, fun _ h => absurd h (List.not_mem_nil _), fun _ _ => rfl, rfl, rfl, rfl⟩

/-- Inserts of distinct keys that are not resident, into a shard that has seen
only inserts and has room for them: each returns true and puts a new node at
the head of the main list. -/
theorem run_inserts_fresh (fuel : Nat) :
    ∀ (kts : List (Nat × V × Nat)) (s : FrozenHotCache V) (ids : List Nat),
      Filling s ids → s.m_size + kts.length ≤ s.m_max_size → s.m_max_size < 2 ^ 64 →
      (kts.map Prod.fst).Nodup → (∀ k ∈ kts.map Prod.fst, HashMap.find s.m_map k = none) →
      ∃ s' ids', run fuel s (insertCalls kts) = .ok (kts.map (fun _ => ⟨true, none⟩), s') ∧
        Filling s' (ids' ++ ids) ∧ ids'.length = kts.length ∧
        s'.m_max_size = s.m_max_size ∧ s'.m_size = s.m_size + kts.length ∧
        s'.m_fast_hash = s.m_fast_hash ∧
        entries s' (ids' ++ ids) = (kts.map fun p => (p.1, p.2.1)).reverse ++ entries s ids := by
  intro kts
  induction kts with
  | nil =>
    intro s ids hf _ _ _ _
    exact ⟨s, [], rfl, hf, rfl, rfl, rfl, rfl, rfl⟩
  | cons p rest ih =>
    intro s ids hf hroom h64 hnd hnone
    obtain ⟨k, v, t⟩ := p
    have hlen : ((k, v, t) :: rest).length = rest.length + 1 := rfl
    rw [hlen] at hroom
    obtain ⟨s1, e1, f1, x1, x2, x3, x4, x5⟩ :=
      @Insert_fresh V fuel s ids hf (by omega) h64 k (hnone k (List.mem_cons_self _ _)) v t
    have hnd' : k ∉ rest.map Prod.fst ∧ (rest.map Prod.fst).Nodup := List.nodup_cons.mp hnd
    obtain ⟨s', ids', e2, f2, y1, y2, y3, y4, y5⟩ := ih s1 (s.allocated :: ids) f1
      (by rw [x1, x2]; omega) (by rw [x1]; exact h64) hnd'.2
      (fun k' hk' => by
        rw [x3, HashMap.find_add, if_neg (fun h => hnd'.1 (by rw [h]; exact hk'))]
        exact hnone k' (List.mem_cons_of_mem _ hk'))
    refine ⟨s', ids' ++ [s.allocated], ?_, ?_, ?_, y2.trans x1, ?_, y4.trans x4, ?_⟩
    · show run fuel s (Call.Insert k v t :: insertCalls rest) = _
      simp only [run, step, e1, e2, List.map_cons]
    · rw [List.append_assoc]; exact f2
    · rw [List.length_append, y1]; rfl
    · rw [y3, x2, hlen]; omega
    · rw [List.append_assoc, List.map_cons, List.reverse_cons, List.append_assoc]
      exact y5.trans (by rw [x5]; rfl)

/-- A new shard filled by inserts of as many distinct keys as its capacity is
a full shard in the Dynamic state; the entries of its main list are the pairs
inserted, the latest first. -/
theorem Dynamic.of_fill (fuel capacity : Nat) (h64 : capacity < 2 ^ 64)
    (kts : List (Nat × V × Nat)) (hlen : kts.length = capacity)
    (hnd : (kts.map Prod.fst).Nodup) :
    ∃ s ids, run fuel (new capacity) (insertCalls kts)
        = .ok (kts.map (fun _ => ⟨true, none⟩), s) ∧
      Dynamic s ids ∧ s.m_size = s.m_max_size ∧ s.m_max_size = capacity ∧
      s.m_fast_hash = [] ∧ entries s ids = (kts.map fun p => (p.1, p.2.1)).reverse := by
  obtain ⟨s, ids, e, f, _, y2, y3, y4, y5⟩ :=
    run_inserts_fresh fuel kts (new capacity : FrozenHotCache V) [] (Filling.of_new capacity)
      (by show 0 + kts.length ≤ capacity; omega) h64 hnd (fun _ _ => rfl)
  refine ⟨s, ids ++ [], e, f.1, ?_, y2, y4, ?_⟩
  · rw [y3, y2]; show 0 + kts.length = capacity; omega
  · rw [y5]; exact List.append_nil _

end FrozenHotCache

/-- C19, amended. For every capacity `C < 2 ^ 31` and every `FC_size` with
`20 ≤ FC_size ≤ C`: on every full, quiescent FrozenHot shard of capacity `C` in
the Dynamic state (main list `ids`, the most recently used node first, fast
list empty), `ConstructFastCache` returns true, given fuel for `FC_size - 19`
passes, and cuts the main list after its first `FC_size - 19` nodes: the fast
hash table gains exactly the `FC_size - 19` entries of these nodes (those of
the most recently used keys), these nodes become the fast list, and the other
`C - (FC_size - 19)` nodes stay the main list in unchanged order; the index,
the size and the keys of the nodes are unchanged. Every new shard of capacity
`C` filled by inserts of `C` distinct keys is such a shard, and the entries of
its main list are the pairs inserted, the latest first. -/
theorem frozenhot_fast_cache_cut {V : Type} (fuel FC_size C : Nat) (h20 : 20 ≤ FC_size)
    (hFC : FC_size ≤ C) (hC : C < 2 ^ 31) (hfuel : FC_size - 19 ≤ fuel) :
    (∀ (s : FrozenHotCache V) (ids : List Nat), FrozenHotCache.Dynamic s ids →
      s.m_size = s.m_max_size → s.m_max_size = C →
      ∃ s', FrozenHotCache.ConstructFastCache fuel s FC_size = .ok (true, s') ∧
        s'.m_fast_hash =
          (FrozenHotCache.entries s (ids.take (FC_size - 19))).reverse ++ s.m_fast_hash ∧
        (FrozenHotCache.entries s (ids.take (FC_size - 19))).length = FC_size - 19 ∧
        FrozenHotCache.FastList s' (ids.take (FC_size - 19)) ∧
        FrozenHotCache.MainList s' (ids.drop (FC_size - 19)) ∧
        (ids.take (FC_size - 19)).length = FC_size - 19 ∧
        (ids.drop (FC_size - 19)).length = C - (FC_size - 19) ∧
        s'.m_map = s.m_map ∧ s'.m_size = s.m_size ∧
        ∀ j, (HashMap.find s'.nodes j).map ListNode.m_key =
          (HashMap.find s.nodes j).map ListNode.m_key) ∧
    (∀ (kts : List (Nat × V × Nat)), kts.length = C → (kts.map Prod.fst).Nodup →
      ∃ s ids, FrozenHotCache.run fuel (FrozenHotCache.new C) (FrozenHotCache.insertCalls kts)
          = .ok (kts.map (fun _ => ⟨true, none⟩), s) ∧
        FrozenHotCache.Dynamic s ids ∧ s.m_size = s.m_max_size ∧ s.m_max_size = C ∧
        s.m_fast_hash = [] ∧
        FrozenHotCache.entries s ids = (kts.map fun p => (p.1, p.2.1)).reverse) := by
  have h64 : C < 2 ^ 64 := by
    have : (2 : Nat) ^ 31 < 2 ^ 64 := by norm_num
    omega
  refine ⟨fun s ids hd hfull hmax => ?_,
    fun kts hlen hnd => FrozenHotCache.Dynamic.of_fill fuel C h64 kts hlen hnd⟩
  have hlen : ids.length = C := (hd.2.2.2.1.symm.trans hfull).trans hmax
  obtain ⟨s', e, q1, q2, q3, q4, q5, _, _, _, _, _, q6⟩ :=
    FrozenHotCache.ConstructFastCache_dynamic hd h20 (by omega) (by omega) (by omega) hfuel
  have ht : (ids.take (FC_size - 19)).length = FC_size - 19 := by
    rw [List.length_take]; omega
  refine ⟨s', e, q1, ?_, q2, q3, ht, ?_, q4, q5, q6⟩
  · rw [FrozenHotCache.entries_length
      (hd.2.2.1.sub (fun i hi => List.mem_of_mem_take hi)), ht]
  · rw [List.length_drop, hlen]

set_option maxRecDepth 100000 in
theorem frozenhot_fast_cache_cut_witness :
    FrozenHotCache.Dynamic (FrozenHotCache.after 22 (FrozenHotCache.insertRange 10 22))
      (List.range 22).reverse ∧
    ∃ s', FrozenHotCache.ConstructFastCache 2
        (FrozenHotCache.after 22 (FrozenHotCache.insertRange 10 22)) 21 = .ok (true, s') ∧
      s'.m_fast_hash = [(30, 30), (31, 31)] ∧
      FrozenHotCache.FastList s' [21, 20] ∧
      FrozenHotCache.MainList s' (List.range 20).reverse := by
  obtain ⟨s', e, q1, _, q2, q3, _⟩ :=
    (@frozenhot_fast_cache_cut Nat 2 21 22 (by decide) (by decide) (by decide) (by decide)).1
      (FrozenHotCache.after 22 (FrozenHotCache.insertRange 10 22))
      (List.range 22).reverse (by decide) (by decide) (by decide)
  exact ⟨by decide, s', e, q1.trans (by decide), q2, q3⟩

set_option maxRecDepth 100000 in
/-- C19, the claim at a failing input. On a shard of capacity 20 filled with the
keys `10..29`, `ConstructFastCache` with ratio 1 (`FC_size = 20`) returns true
with one entry in the fast hash table, that of the most recently used key 29,
not twenty: the fast list holds the one node of key 29 and the other nineteen
nodes are still the main list. -/
theorem frozenhot_fast_cache_holds_one_entry :
    (FrozenHotCache.run 21 (FrozenHotCache.new 20)
        (FrozenHotCache.insertRange 10 20 ++ [.ConstructFastCache 20])).map
        (fun r => (r.1.drop 20, r.2.m_fast_hash, r.2.m_size, r.2.m_max_size))
      = .ok ([⟨true, none⟩], [(29, 29)], 20, 20) ∧
    FrozenHotCache.Dynamic (FrozenHotCache.after 20 (FrozenHotCache.insertRange 10 20))
      (List.range 20).reverse ∧
    FrozenHotCache.FastList
      (FrozenHotCache.after 20 (FrozenHotCache.insertRange 10 20 ++ [.ConstructFastCache 20]))
      [19] ∧
    FrozenHotCache.MainList
      (FrozenHotCache.after 20 (FrozenHotCache.insertRange 10 20 ++ [.ConstructFastCache 20]))
      (List.range 19).reverse := by
  decide

/-! ## Segment shard: the slots of the log -/

theorem countP_set_of_get {α : Type} (f : α → Bool) (l : List α) (i : Nat) (old a : α)
    (h : l[i]? = some old) :
    (l.set i a).countP f + (if f old then 1 else 0) = l.countP f + if f a then 1 else 0 := by
  induction l generalizing i with
  | nil => simp at h
  | cons x l ih =>
    cases i with
    | zero =>
      simp only [List.getElem?_cons_zero, Option.some.injEq] at h
      subst h
      rw [List.set_cons_zero, List.countP_cons, List.countP_cons]
      omega
    | succ i =>
      simp only [List.getElem?_cons_succ] at h
      rw [List.set_cons_succ, List.countP_cons, List.countP_cons]
      have := ih i h
      omega

theorem logSlots_append (a b : List Segment) : logSlots (a ++ b) = logSlots a ++ logSlots b := by
  induction a with
  | nil => rfl
  | cons seg a ih =>
    show seg.slot_array ++ logSlots (a ++ b) = (seg.slot_array ++ logSlots a) ++ logSlots b
    rw [ih, List.append_assoc]

theorem logSlots_dropLast (segs : List Segment) (victim : Segment)
    (h : segs.getLast? = some victim) :
    logSlots segs = logSlots segs.dropLast ++ victim.slot_array := by
  rcases List.eq_nil_or_concat segs with rfl | ⟨a, b, rfl⟩
  · simp at h
  · have hb : b = victim := by
      have : (a.concat b).getLast? = some b := by simp
      rw [this] at h
      exact Option.some.inj h
    subst hb
    rw [List.concat_eq_append, List.dropLast_concat, logSlots_append]
    show _ = logSlots a ++ b.slot_array
    simp [logSlots]

theorem slotRefs_append (a b : List Slot) (p : Nat) :
    slotRefs (a ++ b) p = slotRefs a p + slotRefs b p := by
  unfold slotRefs
  rw [List.countP_append]

theorem slotLive_append (a b : List Slot) (p v : Nat) :
    slotLive (a ++ b) p v = slotLive a p v + slotLive b p v := by
  unfold slotLive
  rw [List.countP_append]

theorem slotLive_le_refs (slots : List Slot) (p v : Nat) : slotLive slots p v ≤ slotRefs slots p := by
  unfold slotLive slotRefs
  apply List.countP_mono_left
  intro slot _ h
  simp only [decide_eq_true_eq] at h ⊢
  exact h.1

theorem slotLive_of_below {slots : List Slot} {p v w : Nat} (h : slotsBelow slots p v)
    (hw : v < w) : slotLive slots p w = 0 := by
  unfold slotLive
  rw [List.countP_eq_zero]
  intro slot hslot
  simp only [decide_eq_true_eq, not_and]
  intro he hv
  have := h slot hslot he
  omega

theorem slotLive_of_refs {slots : List Slot} {p : Nat} (h : slotRefs slots p = 0) (v : Nat) :
    slotLive slots p v = 0 := by
  have := slotLive_le_refs slots p v
  omega

theorem slotsBelow_of_refs {slots : List Slot} {p : Nat} (h : slotRefs slots p = 0) (v : Nat) :
    slotsBelow slots p v := by
  intro slot hslot he
  unfold slotRefs at h
  rw [List.countP_eq_zero] at h
  have := h slot hslot
  simp [he] at this

theorem logRefs_eq (segs : List Segment) (p : Nat) : logRefs segs p = slotRefs (logSlots segs) p := by
  induction segs with
  | nil => rfl
  | cons seg segs ih =>
    show slotRefs seg.slot_array p + logRefs segs p = slotRefs (seg.slot_array ++ logSlots segs) p
    rw [slotRefs_append, ih]

namespace SegmentList

theorem Shape.shape_new (S : Nat) : Shape S (SegmentList.new S) := by
  refine ⟨Segment.new S 0, [], rfl, rfl, Nat.zero_le _, by simp [Segment.new], ?_, ?_⟩
  · intro i slot h
    have hm : slot ∈ (Segment.new S 0).slot_array := List.getElem?_mem h
    have : slot = ⟨none, 0⟩ := List.eq_of_mem_replicate hm
    refine ⟨fun _ => by rw [this], fun hi => absurd hi (Nat.not_lt_zero _)⟩
  · intro seg hseg; cases hseg

/-- What `Add` does on a log that has its shape: when the head segment has a
free slot, the slot at `used` is written; when it is full, a new head segment
is allocated and its first slot written. In both cases the slots of the log
gain the new slot in the place of a slot that was never written. -/
theorem Add_exact {S : Nat} (hS : 1 ≤ S) (hS32 : S + 1 < 2 ^ 32) (sl : SegmentList)
    (hshape : Shape S sl) (h64 : sl.segments.length < 2 ^ 64) (entry new_version fuel : Nat) :
    ∃ sl', (Add S fuel sl entry new_version = .ok sl' ∨
        Add S fuel sl entry new_version = .error .outOfFuel) ∧
      (2 ≤ fuel → Add S fuel sl entry new_version = .ok sl') ∧
      Shape S sl' ∧ sl'.segments.length ≤ sl.segments.length + 1 ∧
      (∀ f : Slot → Bool, (∀ slot, slot.entry = none → f slot = false) →
        (logSlots sl'.segments).countP f =
          (logSlots sl.segments).countP f + if f ⟨some entry, new_version⟩ then 1 else 0) ∧
      (∀ slot ∈ logSlots sl'.segments,
        slot ∈ logSlots sl.segments ∨ slot = ⟨some entry, new_version⟩ ∨ slot.entry = none) ∧
      ∃ head rest, sl.segments = head :: rest ∧
        ((head.used < S ∧ sl' = { sl with segments :=
            { head with
              used := head.used + 1
              slot_array := head.slot_array.set head.used ⟨some entry, new_version⟩ } :: rest }) ∨
         (head.used = S ∧ sl' =
            { segments :=
                { id := sl.allocated
                  slot_array := (List.replicate S (⟨none, 0⟩ : Slot)).set 0 ⟨some entry, new_version⟩
                  used := 1 } :: { head with used := S + 1 } :: rest
              count := sl.count + 1
              allocated := sl.allocated + 1 })) := by
  obtain ⟨head, rest, hsegs, hcount, hused, hlen, hslots, hrest⟩ := hshape
  obtain ⟨segs, count, allocated⟩ := sl
  simp only at hsegs hcount h64
  subst hsegs
  by_cases hlt : head.used < S
  · -- the head segment has a free slot
    have hu : u32 (head.used + 1) = head.used + 1 := Nat.mod_eq_of_lt (by omega)
    obtain ⟨old, hold⟩ : ∃ old, head.slot_array[head.used]? = some old := by
      have : head.used < head.slot_array.length := by omega
      exact ⟨_, List.getElem?_eq_getElem this⟩
    have hnone := (hslots _ _ hold).1 (le_refl _)
    refine ⟨⟨{ head with
        used := head.used + 1
        slot_array := head.slot_array.set head.used ⟨some entry, new_version⟩ } :: rest,
      count, allocated⟩, ?_, ?_, ?_, by simp, ?_, ?_,
      head, rest, rfl, Or.inl ⟨hlt, rfl⟩⟩
    · cases fuel with
      | zero => right; rfl
      | succ fuel => left; simp only [Add, Segment.Append, hlt, if_true, hu]
    · intro hf
      obtain ⟨fuel, rfl⟩ : ∃ n, fuel = n + 1 := ⟨fuel - 1, by omega⟩
      simp only [Add, Segment.Append, hlt, if_true, hu]
    · refine ⟨_, rest, rfl, hcount, by show head.used + 1 ≤ S; omega,
        by simp only [List.length_set]; exact hlen, ?_, hrest⟩
      intro i slot hi
      show (head.used + 1 ≤ i → slot.entry = none) ∧ (i < head.used + 1 → slot.entry ≠ none)
      simp only at hi
      rw [List.getElem?_set] at hi
      by_cases hiu : head.used = i
      · rw [if_pos hiu] at hi
        split_ifs at hi with hb
        · cases hi
          exact ⟨fun h => by omega, fun _ => by simp⟩
      · rw [if_neg hiu] at hi
        obtain ⟨h1, h2⟩ := hslots i slot hi
        exact ⟨fun h => h1 (by omega), fun h => h2 (by omega)⟩
    · intro f hf
      show (List.set head.slot_array head.used _ ++ logSlots rest).countP f
        = (head.slot_array ++ logSlots rest).countP f + _
      rw [List.countP_append, List.countP_append]
      have := countP_set_of_get f head.slot_array head.used old ⟨some entry, new_version⟩ hold
      rw [hf old hnone] at this
      simp only [Bool.false_eq_true, if_false, Nat.add_zero] at this
      omega
    · intro slot hslot
      have hslot' : slot ∈ List.set head.slot_array head.used ⟨some entry, new_version⟩
          ++ logSlots rest := hslot
      rcases List.mem_append.mp hslot' with h | h
      · rcases List.mem_or_eq_of_mem_set h with h | h
        · exact Or.inl (List.mem_append.mpr (Or.inl h))
        · exact Or.inr (Or.inl h)
      · exact Or.inl (List.mem_append.mpr (Or.inr h))
  · -- the head segment is full
    have heq : head.used = S := by omega
    have hu : u32 (head.used + 1) = S + 1 := by rw [heq]; exact Nat.mod_eq_of_lt (by omega)
    have hfull : u32 (head.used + 1) ≥ S := by omega
    have hfull2 : S + 1 ≥ S := Nat.le_succ S
    have h0 : 0 < S := hS
    have hu1 : u32 (0 + 1) = 1 := by decide
    have hc : u64 (count + 1) = count + 1 := u64_of_lt (by
      simp only [List.length_cons] at h64; omega)
    refine ⟨⟨⟨allocated, (List.replicate S (⟨none, 0⟩ : Slot)).set 0 ⟨some entry, new_version⟩,
        1⟩ :: { head with used := S + 1 } :: rest, count + 1, allocated + 1⟩,
      ?_, ?_, ?_, by simp, ?_, ?_, head, rest, rfl, Or.inr ⟨heq, rfl⟩⟩
    · cases fuel with
      | zero => right; rfl
      | succ fuel =>
        cases fuel with
        | zero =>
          right
          simp only [Add, Segment.Append, hlt, if_false]
        | succ fuel =>
          left
          simp only [Add, Segment.Append, hlt, if_false, Segment.IsFull, hfull, decide_True,
            if_true, Segment.new, h0, hu, hc, hu1, hfull2]
    · intro hf
      obtain ⟨fuel, rfl⟩ : ∃ n, fuel = n + 2 := ⟨fuel - 2, by omega⟩
      simp only [Add, Segment.Append, hlt, if_false, Segment.IsFull, hfull, decide_True,
        if_true, Segment.new, h0, hu, hc, hu1, hfull2]
    · refine ⟨_, _, rfl, by simp [hcount], by show 1 ≤ S; exact hS,
        by simp only [List.length_set, List.length_replicate], ?_, ?_⟩
      · intro i slot hi
        show (1 ≤ i → slot.entry = none) ∧ (i < 1 → slot.entry ≠ none)
        simp only at hi
        rw [List.getElem?_set] at hi
        by_cases hiu : 0 = i
        · rw [if_pos hiu] at hi
          split_ifs at hi with hb
          · cases hi
            exact ⟨fun h => by omega, fun _ => by simp⟩
        · rw [if_neg hiu] at hi
          have hm : slot ∈ List.replicate S (⟨none, 0⟩ : Slot) := List.getElem?_mem hi
          have : slot = ⟨none, 0⟩ := List.eq_of_mem_replicate hm
          exact ⟨fun _ => by rw [this], fun h => by omega⟩
      · intro seg hseg slot hslot
        rcases List.mem_cons.mp hseg with h | h
        · rw [h] at hslot
          have hslot' : slot ∈ head.slot_array := hslot
          obtain ⟨i, hi, hget⟩ := List.getElem_of_mem hslot'
          have hget' : head.slot_array[i]? = some slot := by
            rw [List.getElem?_eq_getElem hi, hget]
          exact (hslots i slot hget').2 (by omega)
        · exact hrest seg h slot hslot
    · intro f hf
      show (List.set (List.replicate S (⟨none, 0⟩ : Slot)) 0 _ ++
        (head.slot_array ++ logSlots rest)).countP f
        = (head.slot_array ++ logSlots rest).countP f + _
      rw [List.countP_append]
      have hold : (List.replicate S (⟨none, 0⟩ : Slot))[0]? = some ⟨none, 0⟩ := by
        rw [List.getElem?_replicate]; simp [h0]
      have := countP_set_of_get f (List.replicate S (⟨none, 0⟩ : Slot)) 0 ⟨none, 0⟩
        ⟨some entry, new_version⟩ hold
      rw [hf ⟨none, 0⟩ rfl] at this
      have hz : (List.replicate S (⟨none, 0⟩ : Slot)).countP f = 0 := by
        rw [List.countP_eq_zero]
        intro slot hslot
        rw [List.eq_of_mem_replicate hslot, hf ⟨none, 0⟩ rfl]
        simp
      simp only [Bool.false_eq_true, if_false, Nat.add_zero] at this
      omega
    · intro slot hslot
      have hslot' : slot ∈ List.set (List.replicate S (⟨none, 0⟩ : Slot)) 0
          ⟨some entry, new_version⟩ ++ (head.slot_array ++ logSlots rest) := hslot
      rcases List.mem_append.mp hslot' with h | h
      · rcases List.mem_or_eq_of_mem_set h with h | h
        · right; right
          rw [List.eq_of_mem_replicate h]
        · exact Or.inr (Or.inl h)
      · exact Or.inl h

end SegmentList

namespace SegmentCache

variable {V : Type}

theorem slotRefs_same_entry {pre : List Slot} {p : Nat} (hpre : ∀ slot ∈ pre, slot.entry = some p)
    (q : Nat) : slotRefs pre q = if q = p then pre.length else 0 := by
  induction pre with
  | nil => simp [slotRefs]
  | cons slot pre ih =>
    have h1 := hpre slot (List.mem_cons_self _ _)
    rw [slotRefs_cons, ih (fun x hx => hpre x (List.mem_cons_of_mem _ hx)), h1]
    by_cases hq : q = p
    · subst hq; simp
    · have : ¬ p = q := fun h => hq h.symm
      simp [hq, this]

theorem slotLive_other {pre : List Slot} {p : Nat} (hpre : ∀ slot ∈ pre, slot.entry = some p)
    {q : Nat} (hq : q ≠ p) (v : Nat) : slotLive pre q v = 0 := by
  apply slotLive_of_refs
  rw [slotRefs_same_entry hpre, if_neg hq]

theorem heldSlots_of_eq {s s' : SegmentCache V} (h : s'.segment_list_ = s.segment_list_)
    (pending : List Slot) : s'.heldSlots pending = s.heldSlots pending := by
  unfold heldSlots
  rw [h]

/-- Entry `p` gives up its reference from the index (`dindex = 1`), those of
the slots `pre` that leave the pending slots, or both; it is freed when no
reference is left. The invariant is kept. -/
theorem Exact.exact_release {S N : Nat} {s s' : SegmentCache V} {pre pending : List Slot} {p : Nat}
    {e : Entry V} {dindex : Nat} (h : Exact S N s (pre ++ pending))
    (hent : HashMap.find s.entries p = some e)
    (hseg : s'.segment_list_ = s.segment_list_)
    (halloc : s'.allocated = s.allocated ∧ s'.capacity_ = s.capacity_)
    (hpre : ∀ slot ∈ pre, slot.entry = some p)
    (hd : dindex = 0 ∨ dindex = 1 ∧ HashMap.find s.hash_map_ e.key = some p)
    (hidx : ∀ k, HashMap.find s'.hash_map_ k =
      if dindex = 1 ∧ k = e.key then none else HashMap.find s.hash_map_ k)
    (hother : ∀ q, q ≠ p → HashMap.find s'.entries q = HashMap.find s.entries q)
    (hp : HashMap.find s'.entries p =
      if e.refs = dindex + pre.length then none
      else some { e with refs := e.refs - (dindex + pre.length) })
    (hlive : dindex = 0 → s.indexRef p e = 1 → slotLive pre p e.version = 0) :
    Exact S N s' pending := by
  obtain ⟨ha, hb, hc, halc, hshape, hlen, hcap, hpend⟩ := h
  have hheld : ∀ q, slotRefs (s.heldSlots (pre ++ pending)) q
      = slotRefs (s'.heldSlots pending) q + if q = p then pre.length else 0 := by
    intro q
    unfold heldSlots
    rw [hseg, slotRefs_append, slotRefs_append, slotRefs_append, slotRefs_same_entry hpre]
    omega
  have hlv : ∀ q v, slotLive (s.heldSlots (pre ++ pending)) q v
      = slotLive (s'.heldSlots pending) q v + slotLive pre q v := by
    intro q v
    unfold heldSlots
    rw [hseg, slotLive_append, slotLive_append, slotLive_append]
    omega
  have hbelow : ∀ q v, slotsBelow (s.heldSlots (pre ++ pending)) q v →
      slotsBelow (s'.heldSlots pending) q v := by
    intro q v hq slot hslot
    apply hq slot
    unfold heldSlots at hslot ⊢
    rw [hseg] at hslot
    rcases List.mem_append.mp hslot with h1 | h1
    · exact List.mem_append.mpr (Or.inl h1)
    · exact List.mem_append.mpr (Or.inr (List.mem_append.mpr (Or.inr h1)))
  have hpkey : ∀ k, HashMap.find s.hash_map_ k = some p → k = e.key := by
    intro k hk
    obtain ⟨e', he', hkey⟩ := ha k p hk
    rw [hent] at he'
    cases he'
    exact hkey.symm
  -- the index reference of `p` after the release
  have hip : s'.indexRef p e + dindex = s.indexRef p e := by
    unfold indexRef
    rw [hidx e.key]
    rcases hd with h0 | ⟨h1, hfind⟩
    · rw [h0]; simp
    · simp [h1, hfind]
  -- the index references of the other entries
  have hiq : ∀ q eq, q ≠ p → HashMap.find s.entries q = some eq →
      s'.indexRef q eq = s.indexRef q eq := by
    intro q eq hq heq
    unfold indexRef
    rw [hidx eq.key]
    by_cases hc1 : dindex = 1 ∧ eq.key = e.key
    · rw [if_pos hc1]
      rcases hd with h0 | ⟨_, hfind⟩
      · omega
      · rw [hc1.2, hfind]
        have : ¬ (some p = some q) := fun h => hq (Option.some.inj h).symm
        simp [this]
    · rw [if_neg hc1]
  refine ⟨?_, ?_, ?_, ?_, by rw [hseg]; exact hshape, by rw [hseg]; exact hlen,
    by rw [halloc.2]; exact hcap, fun slot hslot => hpend slot (List.mem_append.mpr (Or.inr hslot))⟩
  · intro k q hq
    rw [hidx k] at hq
    split_ifs at hq with hc1
    obtain ⟨eq, hq1, hq2⟩ := ha k q hq
    by_cases hqp : q = p
    · subst hqp
      have hk := hpkey k hq
      rcases hd with h0 | ⟨h1, _⟩
      · -- the index keeps its reference: the entry is not freed
        have hcount := (hb q e hent).1
        have hi1 : s.indexRef q e = 1 := by
          unfold indexRef; rw [← hk, if_pos hq]
        have hl := (hb q e hent).2.2.2.2.2 hi1
        have hl0 := hlive h0 hi1
        have hsum := hlv q e.version
        have hle := slotLive_le_refs (s'.heldSlots pending) q e.version
        have hh := hheld q
        rw [if_pos rfl] at hh
        have hne : e.refs ≠ dindex + pre.length := by omega
        rw [if_neg hne] at hp
        exact ⟨_, hp, by rw [← hq2] at hk; rw [hq1] at hent; cases hent; exact hq2⟩
      · exact absurd ⟨h1, hk⟩ hc1
    · exact ⟨eq, by rw [hother q hqp]; exact hq1, hq2⟩
  · intro q eq hq
    by_cases hqp : q = p
    · subst hqp
      obtain ⟨b1, b2, b3, b4, b5, b6⟩ := hb q e hent
      have hh := hheld q
      rw [if_pos rfl] at hh
      by_cases hfree : e.refs = dindex + pre.length
      · rw [hp, if_pos hfree] at hq; cases hq
      · rw [hp, if_neg hfree] at hq
        cases hq
        have hi' : s'.indexRef q { e with refs := e.refs - (dindex + pre.length) }
            = s'.indexRef q e := rfl
        rw [hi']
        refine ⟨?_, ?_, ?_, b4, hbelow q _ b5, ?_⟩
        · show e.refs - (dindex + pre.length) = _
          omega
        · show 1 ≤ e.refs - (dindex + pre.length)
          omega
        · show e.refs - (dindex + pre.length) ≤ N
          omega
        · intro hi1
          have hd0 : dindex = 0 := by
            have := indexRef_le_one s q e
            omega
          have hs1 : s.indexRef q e = 1 := by omega
          have := hlv q e.version
          have := hlive hd0 hs1
          have := b6 hs1
          show slotLive (s'.heldSlots pending) q e.version = 1
          omega
    · rw [hother q hqp] at hq
      obtain ⟨b1, b2, b3, b4, b5, b6⟩ := hb q eq hq
      have hh := hheld q
      rw [if_neg hqp] at hh
      rw [hiq q eq hqp hq]
      refine ⟨by omega, b2, b3, b4, hbelow q _ b5, fun hi1 => ?_⟩
      have := hlv q eq.version
      have := slotLive_other hpre hqp eq.version
      have := b6 hi1
      omega
  · intro q hq
    have hh := hheld q
    by_cases hqp : q = p
    · subst hqp
      rw [if_pos rfl] at hh
      by_cases hfree : e.refs = dindex + pre.length
      · have b1 := (hb q e hent).1
        have hi := hip
        omega
      · rw [hp, if_neg hfree] at hq; cases hq
    · rw [if_neg hqp] at hh
      rw [hother q hqp] at hq
      have := hc q hq
      omega
  · intro q hq
    rw [halloc.1] at hq
    have hqn := halc q hq
    have hqp : q ≠ p := by
      intro h
      rw [h, hent] at hqn
      cases hqn
    rw [hother q hqp]
    exact hqn

end SegmentCache

namespace SegmentCache

variable {V : Type}

/-- One pass of the loop of `EvictOne` from a state with the invariant: it
returns, keeps the invariant, and erases the key of the slot's entry from the
index exactly when the slot has the version of the entry and the index points
to the entry. -/
theorem Exact.exact_evictSlot {S N : Nat} (hN : N < 2 ^ 32) {s : SegmentCache V} {slot : Slot}
    {slots : List Slot} (h : Exact S N s (slot :: slots)) :
    ∃ s' p e, SegmentCache.evictSlot s slot = .ok s' ∧ Exact S N s' slots ∧
      slot.entry = some p ∧ HashMap.find s.entries p = some e ∧
      (∀ k, HashMap.find s'.hash_map_ k =
        if (e.version = slot.version ∧ HashMap.find s.hash_map_ e.key = some p) ∧ k = e.key
        then none else HashMap.find s.hash_map_ k) ∧
      (∀ q, q ≠ p → HashMap.find s'.entries q = HashMap.find s.entries q) ∧
      (HashMap.find s'.entries p = none ∨
        ∃ r, HashMap.find s'.entries p = some { e with refs := r }) ∧
      s'.segment_list_ = s.segment_list_ := by
  have h0 := h
  obtain ⟨ha, hb, hc, halc, hshape, hlen, hcap, hpend⟩ := h
  obtain ⟨p, hslot⟩ : ∃ p, slot.entry = some p := by
    have := hpend slot (List.mem_cons_self _ _)
    cases hs : slot.entry with
    | none => exact absurd hs this
    | some p => exact ⟨p, rfl⟩
  have hin : slot ∈ s.heldSlots (slot :: slots) :=
    List.mem_append.mpr (Or.inr (List.mem_cons_self _ _))
  have hpos : 1 ≤ slotRefs (s.heldSlots (slot :: slots)) p := by
    unfold slotRefs
    exact List.countP_pos_iff.mpr ⟨slot, hin, by simp [hslot]⟩
  obtain ⟨e, hent⟩ : ∃ e, HashMap.find s.entries p = some e := by
    cases hf : HashMap.find s.entries p with
    | none => have := hc p hf; omega
    | some e => exact ⟨e, rfl⟩
  obtain ⟨b1, b2, b3, b4, b5, b6⟩ := hb p e hent
  have h32 : e.refs < 2 ^ 32 := by omega
  have hpre : ∀ x ∈ [slot], x.entry = some p := by
    intro x hx
    rw [List.mem_singleton.mp hx]; exact hslot
  -- the plain release of the slot's reference
  have plain : ¬ (e.version = slot.version ∧ HashMap.find s.hash_map_ e.key = some p) →
      ∃ t, TryFreeEntry s p = .ok t ∧ Exact S N t slots ∧
        t.hash_map_ = s.hash_map_ ∧
        (∀ q, q ≠ p → HashMap.find t.entries q = HashMap.find s.entries q) ∧
        (HashMap.find t.entries p = none ∨
          ∃ r, HashMap.find t.entries p = some { e with refs := r }) ∧
        t.segment_list_ = s.segment_list_ := by
    intro hnot
    obtain ⟨t, ht, hmap, hseg, halloc, hother, hpfind⟩ := TryFreeEntry_spec s p e hent b2 h32
    refine ⟨t, ht, ?_, hmap, hother, ?_, hseg⟩
    · refine @Exact.exact_release V S N s t [slot] slots p e 0 h0 hent hseg halloc hpre (Or.inl rfl)
        (fun k => by rw [hmap]; simp) hother ?_ ?_
      · rw [hpfind]
        rfl
      · intro _ hi1
        apply Nat.eq_zero_of_not_pos
        intro hpos1
        unfold slotLive at hpos1
        obtain ⟨x, hx, hfx⟩ := List.countP_pos_iff.mp hpos1
        rw [List.mem_singleton.mp hx] at hfx
        simp only [decide_eq_true_eq] at hfx
        apply hnot
        refine ⟨hfx.2.symm, ?_⟩
        unfold indexRef at hi1
        by_contra hne
        rw [if_neg hne] at hi1
        cases hi1
    · by_cases hr : e.refs = 1
      · left; rw [hpfind, if_pos hr]
      · right; exact ⟨_, by rw [hpfind, if_neg hr]⟩
  suffices hmain : ∃ s', SegmentCache.evictSlot s slot = .ok s' ∧ Exact S N s' slots ∧
      (∀ k, HashMap.find s'.hash_map_ k =
        if (e.version = slot.version ∧ HashMap.find s.hash_map_ e.key = some p) ∧ k = e.key
        then none else HashMap.find s.hash_map_ k) ∧
      (∀ q, q ≠ p → HashMap.find s'.entries q = HashMap.find s.entries q) ∧
      (HashMap.find s'.entries p = none ∨
        ∃ r, HashMap.find s'.entries p = some { e with refs := r }) ∧
      s'.segment_list_ = s.segment_list_ by
    obtain ⟨s', x1, x2, x3, x4, x5, x6⟩ := hmain
    exact ⟨s', p, e, x1, x2, hslot, hent, x3, x4, x5, x6⟩
  have plain' : ¬ (e.version = slot.version ∧ HashMap.find s.hash_map_ e.key = some p) →
      ∀ r, r = TryFreeEntry s p →
      ∃ s', r = .ok s' ∧ Exact S N s' slots ∧
        (∀ k, HashMap.find s'.hash_map_ k =
          if (e.version = slot.version ∧ HashMap.find s.hash_map_ e.key = some p) ∧ k = e.key
          then none else HashMap.find s.hash_map_ k) ∧
        (∀ q, q ≠ p → HashMap.find s'.entries q = HashMap.find s.entries q) ∧
        (HashMap.find s'.entries p = none ∨
          ∃ r, HashMap.find s'.entries p = some { e with refs := r }) ∧
        s'.segment_list_ = s.segment_list_ := by
    intro hnot r hr
    obtain ⟨t, ht, hex, hmap, hother, hpf, hseg⟩ := plain hnot
    refine ⟨t, by rw [hr, ht], hex, fun k => ?_, hother, hpf, hseg⟩
    rw [hmap, if_neg (fun hx => hnot hx.1)]
  have hev1 : ¬ (e.version = slot.version ∧ HashMap.find s.hash_map_ e.key = some p) →
      SegmentCache.evictSlot s slot = TryFreeEntry s p := by
    intro hnot
    unfold SegmentCache.evictSlot
    rw [hslot]
    simp only [hent]
    rw [if_pos (by omega : e.refs > 0)]
    by_cases hver : e.version = slot.version
    swap
    · rw [if_neg hver]
    rw [if_pos hver]
    cases hidx : HashMap.find s.hash_map_ e.key with
    | none => rfl
    | some q0 =>
      simp only
      have hpp : q0 ≠ p := fun hx => hnot ⟨hver, by rw [hidx, hx]⟩
      rw [if_neg hpp]
  by_cases hcase : e.version = slot.version ∧ HashMap.find s.hash_map_ e.key = some p
  swap
  · rw [hev1 hcase]
    exact plain' hcase _ rfl
  obtain ⟨hver, hidx⟩ := hcase
  have hi1 : s.indexRef p e = 1 := by unfold indexRef; rw [if_pos hidx]
  have hgt : e.refs > 1 := by omega
  have hu := u32_pred b2 h32
  have hev2 : SegmentCache.evictSlot s slot =
      TryFreeEntry
        { s with
          entries := HashMap.update s.entries p { e with refs := e.refs - 1 }
          hash_map_ := HashMap.erase s.hash_map_ e.key } p := by
    unfold SegmentCache.evictSlot
    rw [hslot]
    simp only [hent, hidx]
    rw [if_pos (by omega : e.refs > 0), if_pos hver]
    simp only [if_true]
    rw [if_pos hgt, hu]
  rw [hev2]
  -- the index points to this entry: it gives up two references
  have hent1 : HashMap.find (HashMap.update s.entries p
      { e with refs := e.refs - 1 }) p = some { e with refs := e.refs - 1 } := by
    rw [HashMap.find_update, if_pos rfl, hent]; rfl
  obtain ⟨t, ht, hmap, hseg, halloc, hother, hpfind⟩ :=
    TryFreeEntry_spec
      { s with
        entries := HashMap.update s.entries p { e with refs := e.refs - 1 }
        hash_map_ := HashMap.erase s.hash_map_ e.key }
      p { e with refs := e.refs - 1 } hent1 (by show 1 ≤ e.refs - 1; omega)
      (by show e.refs - 1 < 2 ^ 32; omega)
  have hidx' : ∀ k, HashMap.find t.hash_map_ k =
      if k = e.key then none else HashMap.find s.hash_map_ k := by
    intro k
    rw [hmap]
    show HashMap.find (HashMap.erase s.hash_map_ e.key) k = _
    rw [HashMap.find_erase]
  have hother' : ∀ q, q ≠ p → HashMap.find t.entries q = HashMap.find s.entries q := by
    intro q hq
    rw [hother q hq]
    show HashMap.find (HashMap.update s.entries p _) q = _
    rw [HashMap.find_update, if_neg hq]
  have hpf : HashMap.find t.entries p =
      if e.refs = 1 + 1 then none else some { e with refs := e.refs - (1 + 1) } := by
    rw [hpfind]
    show (if e.refs - 1 = 1 then none else some { e with refs := e.refs - 1 - 1 }) = _
    by_cases hr : e.refs = 2
    · rw [if_pos (by omega), if_pos (by omega)]
    · rw [if_neg (by omega), if_neg (by omega)]
      rfl
  refine ⟨t, ht, ?_, fun k => ?_, hother', ?_, hseg⟩
  · exact @Exact.exact_release V S N s t [slot] slots p e 1 h0 hent hseg halloc hpre
      (Or.inr ⟨rfl, hidx⟩) (fun k => by rw [hidx' k]; simp) hother' hpf
      (fun h01 => by omega)
  · rw [hidx' k]
    by_cases hk : k = e.key
    · rw [if_pos hk, if_pos ⟨⟨hver, hidx⟩, hk⟩]
    · rw [if_neg hk, if_neg (fun hx => hk hx.2)]
  · by_cases hr : e.refs = 1 + 1
    · left; rw [hpf, if_pos hr]
    · right; exact ⟨_, by rw [hpf, if_neg hr]⟩

end SegmentCache

namespace SegmentList

/-- What `Evict` does on a log that has its shape and more than four segments
behind the head: the tail segment is the victim, the segment in front of it
is the new tail, `count` goes down by one, and the log keeps its shape. -/
theorem Shape.shape_evict {S : Nat} {sl : SegmentList} (hshape : Shape S sl)
    (h64 : sl.segments.length < 2 ^ 64) (hcount : sl.count > 4) :
    ∃ pre t victim, sl.segments = pre ++ [t, victim] ∧
      Evict sl = .ok (some victim,
        { sl with segments := pre ++ [t], count := sl.count - 1 }) ∧
      Shape S { sl with segments := pre ++ [t], count := sl.count - 1 } ∧
      (∀ slot ∈ victim.slot_array, slot.entry ≠ none) ∧
      logSlots sl.segments = logSlots (pre ++ [t]) ++ victim.slot_array := by
  obtain ⟨head, rest, hsegs, hc, hused, hlen, hslots, hrest⟩ := hshape
  obtain ⟨segs, count, allocated⟩ := sl
  simp only at hsegs hc h64 hcount ⊢
  subst hsegs
  have hl : 5 ≤ rest.length := by omega
  rcases List.eq_nil_or_concat rest with hnil | ⟨mid, victim, hrest2⟩
  · rw [hnil] at hl; simp at hl
  rw [List.concat_eq_append] at hrest2
  have hmid : 4 ≤ mid.length := by
    rw [hrest2] at hl
    simp only [List.length_append, List.length_singleton] at hl
    omega
  have hfull : head :: rest = (head :: mid) ++ [victim] := by rw [hrest2]; rfl
  rcases List.eq_nil_or_concat (head :: mid) with hnil | ⟨pre, t, hpre⟩
  · cases hnil
  rw [List.concat_eq_append] at hpre
  have hall : head :: rest = pre ++ [t, victim] := by
    rw [hfull, hpre, List.append_assoc]; rfl
  have hlast : (head :: rest).getLast? = some victim := by
    rw [hfull, List.getLast?_concat]
  have hdrop : (head :: rest).dropLast = pre ++ [t] := by
    rw [hfull, List.dropLast_concat, hpre]
  have hcu : u64 (2 ^ 64 - 1 + count) = count - 1 := by
    apply u64_pred (by omega)
    rw [hc]
    simp only [List.length_cons] at h64
    omega
  refine ⟨pre, t, victim, hall, ?_, ?_, ?_, ?_⟩
  · unfold Evict
    simp only
    rw [if_pos hcount, hlast]
    simp only [hdrop, hcu]
  · refine ⟨head, mid, by simp only; rw [← hpre], ?_, hused, hlen, hslots, ?_⟩
    · simp only
      rw [hc, hrest2]
      simp
    · intro seg hseg
      exact hrest seg (by rw [hrest2]; exact List.mem_append_left _ hseg)
  · exact hrest victim (by rw [hrest2]; simp)
  · rw [← hdrop]
    exact logSlots_dropLast _ _ hlast

/-- What `Evict` does when at most four segments are behind the head. -/
theorem Evict_none (sl : SegmentList) (hcount : sl.count ≤ 4) : Evict sl = .ok (none, sl) := by
  unfold Evict
  rw [if_neg (by omega)]

end SegmentList

namespace SegmentCache

variable {V : Type}

theorem liveIn_iff {s : SegmentCache V} {slots : List Slot} {k : Nat} :
    s.liveIn slots k = true ↔
      ∃ p e, HashMap.find s.hash_map_ k = some p ∧ HashMap.find s.entries p = some e ∧
        (⟨some p, e.version⟩ : Slot) ∈ slots := by
  unfold liveIn
  cases hk : HashMap.find s.hash_map_ k with
  | none => simp
  | some p =>
    cases he : HashMap.find s.entries p with
    | none => simp [he]
    | some e => simp [he]

/-- The loop of `EvictOne` from a state with the invariant: it returns and
keeps the invariant; a key leaves the index exactly when the index maps it to
an entry of which a pending slot has the version; the entries that stay keep
everything but their reference count. -/
theorem Exact.exact_evictSlots {S N : Nat} (hN : N < 2 ^ 32) (slots : List Slot) :
    ∀ {s : SegmentCache V}, Exact S N s slots →
    ∃ s', SegmentCache.evictSlots s slots = .ok s' ∧ Exact S N s' [] ∧
      (∀ k, HashMap.find s'.hash_map_ k =
        if s.liveIn slots k then none else HashMap.find s.hash_map_ k) ∧
      (∀ q, HashMap.find s'.entries q = none ∨
        ∃ e r, HashMap.find s.entries q = some e ∧
          HashMap.find s'.entries q = some { e with refs := r }) ∧
      s'.segment_list_ = s.segment_list_ := by
  induction slots with
  | nil =>
    intro s h
    refine ⟨s, rfl, h, fun k => ?_, fun q => ?_, rfl⟩
    · rw [if_neg]
      intro hl
      obtain ⟨p, e, _, _, hm⟩ := liveIn_iff.mp hl
      cases hm
    · cases hq : HashMap.find s.entries q with
      | none => exact Or.inl rfl
      | some e => exact Or.inr ⟨e, e.refs, rfl, rfl⟩
  | cons slot slots ih =>
    intro s h
    have hidx0 := h.1
    obtain ⟨s1, p, e, hev, hex1, hslot, hent, hi1, ho1, hp1, hseg1⟩ := h.exact_evictSlot hN
    obtain ⟨s', hev', hex', hi', ho', hseg'⟩ := ih hex1
    have hidx1 := hex1.1
    have hslot_eq : ∀ v, slot.version = v → (⟨some p, v⟩ : Slot) = slot := by
      intro v hv
      cases slot
      simp only at hslot hv
      rw [hslot, hv]
    -- an entry that is still there has the version it had
    have hback : ∀ q e1, HashMap.find s1.entries q = some e1 →
        ∃ e0, HashMap.find s.entries q = some e0 ∧ e1.version = e0.version := by
      intro q e1 hq
      by_cases hqp : q = p
      · subst hqp
        rcases hp1 with hn | ⟨r, hr⟩
        · rw [hn] at hq; cases hq
        · rw [hr] at hq
          cases hq
          exact ⟨e, hent, rfl⟩
      · rw [ho1 q hqp] at hq
        exact ⟨e1, hq, rfl⟩
    refine ⟨s', ?_, hex', fun k => ?_, fun q => ?_, by rw [hseg', hseg1]⟩
    · simp only [SegmentCache.evictSlots, hev]
      exact hev'
    · rw [hi' k]
      by_cases hc0 : ∃ p e, HashMap.find s.hash_map_ k = some p ∧
          HashMap.find s.entries p = some e ∧ (⟨some p, e.version⟩ : Slot) ∈ slot :: slots
      · rw [if_pos (liveIn_iff.mpr hc0)]
        obtain ⟨p0, e0, hk0, he0, hm0⟩ := hc0
        by_cases hk1 : HashMap.find s1.hash_map_ k = none
        · rw [hk1]; simp
        have hk1' : HashMap.find s1.hash_map_ k = some p0 := by
          have := hi1 k
          by_cases hcond : (e.version = slot.version ∧ HashMap.find s.hash_map_ e.key = some p) ∧
              k = e.key
          · rw [if_pos hcond] at this; exact absurd this hk1
          · rw [if_neg hcond] at this; rw [this, hk0]
        obtain ⟨e1, he1, hkey1⟩ := hidx1 k p0 hk1'
        obtain ⟨e0', he0', hv⟩ := hback p0 e1 he1
        have hee : e0' = e0 := by rw [he0] at he0'; exact (Option.some.inj he0').symm
        rw [hee] at hv
        rcases List.mem_cons.mp hm0 with hhere | hthere
        · -- the slot that was just released is the live slot of `k`
          exfalso
          have hp0 : p0 = p := by
            have : slot.entry = some p0 := by rw [← hhere]
            rw [hslot] at this
            exact (Option.some.inj this).symm
          have he0e : e0 = e := by rw [hp0, hent] at he0; exact (Option.some.inj he0).symm
          obtain ⟨e0k, he0k, hkk⟩ := hidx0 k p0 hk0
          have he0k' : e0k = e := by rw [hp0, hent] at he0k; exact (Option.some.inj he0k).symm
          rw [he0k'] at hkk
          have hver : e.version = slot.version := by rw [← hhere, he0e]
          have := hi1 k
          rw [if_pos ⟨⟨hver, by rw [hkk, ← hp0]; exact hk0⟩, hkk.symm⟩] at this
          exact hk1 this
        · rw [if_pos (liveIn_iff.mpr ⟨p0, e1, hk1', he1, by rw [hv]; exact hthere⟩)]
      · rw [if_neg (fun hl => hc0 (liveIn_iff.mp hl))]
        have hk1 : HashMap.find s1.hash_map_ k = HashMap.find s.hash_map_ k := by
          rw [hi1 k, if_neg]
          rintro ⟨⟨hver, hk⟩, hkk⟩
          apply hc0
          refine ⟨p, e, by rw [hkk]; exact hk, hent, ?_⟩
          rw [hslot_eq e.version hver.symm]
          exact List.mem_cons_self _ _
        rw [hk1, if_neg]
        intro hl
        obtain ⟨p1, e1, hkp, he1, hm1⟩ := liveIn_iff.mp hl
        obtain ⟨e0, he0, hv⟩ := hback p1 e1 he1
        apply hc0
        exact ⟨p1, e0, by rw [← hk1]; exact hkp, he0, by
          rw [← hv]; exact List.mem_cons_of_mem _ hm1⟩
    · rcases ho' q with hn | ⟨e1, r, he1, hr⟩
      · exact Or.inl hn
      · right
        by_cases hqp : q = p
        · subst hqp
          rcases hp1 with hn | ⟨r1, hr1⟩
          · rw [hn] at he1; cases he1
          · rw [hr1] at he1
            cases he1
            exact ⟨e, r, hent, hr⟩
        · rw [ho1 q hqp] at he1
          exact ⟨e1, r, he1, hr⟩

/-- The method `EvictOne` from a state with the invariant and more than four
segments behind the head: it returns and keeps the invariant; the tail
segment leaves the log; a key leaves the index exactly when the index maps it
to an entry whose live slot is in the tail segment; the entries that stay
keep everything but their reference count. -/
theorem Exact.exact_EvictOne {S N : Nat} (hN : N < 2 ^ 32) {s : SegmentCache V}
    (h : Exact S N s []) (hcount : s.segment_list_.count > 4) :
    ∃ s' pre t victim, s.segment_list_.segments = pre ++ [t, victim] ∧
      EvictOne s = .ok s' ∧ Exact S N s' [] ∧
      s'.segment_list_ =
        { s.segment_list_ with segments := pre ++ [t], count := s.segment_list_.count - 1 } ∧
      (∀ k, HashMap.find s'.hash_map_ k =
        if s.liveIn victim.slot_array k then none else HashMap.find s.hash_map_ k) ∧
      (∀ q, HashMap.find s'.entries q = none ∨
        ∃ e r, HashMap.find s.entries q = some e ∧
          HashMap.find s'.entries q = some { e with refs := r }) := by
  obtain ⟨ha, hb, hc, halc, hshape, hlen, hcap, hpend⟩ := h
  obtain ⟨pre, t, victim, hsegs, hev, hshape', hvic, hlog⟩ :=
    hshape.shape_evict (by omega) hcount
  have hheld : ∀ (u : SegmentCache V), u = { s with segment_list_ :=
      { s.segment_list_ with segments := pre ++ [t], count := s.segment_list_.count - 1 } } →
      u.heldSlots victim.slot_array = s.heldSlots [] := by
    intro u hu
    rw [hu]
    unfold heldSlots
    simp only [List.append_nil]
    rw [hlog]
  have hmid : Exact S N { s with segment_list_ :=
      { s.segment_list_ with segments := pre ++ [t], count := s.segment_list_.count - 1 } }
      victim.slot_array := by
    refine ⟨ha, ?_, ?_, halc, hshape', ?_, hcap, hvic⟩
    · intro p e hent
      rw [hheld _ rfl]
      exact hb p e hent
    · intro p hent
      rw [hheld _ rfl]
      exact hc p hent
    · show (pre ++ [t]).length ≤ N
      rw [hsegs] at hlen
      simp only [List.length_append, List.length_cons, List.length_nil] at hlen ⊢
      omega
  obtain ⟨s', hrun, hex', hi', ho', hseg'⟩ := hmid.exact_evictSlots hN
  refine ⟨s', pre, t, victim, hsegs, ?_, hex', hseg', hi', ho'⟩
  unfold EvictOne
  rw [hev]
  exact hrun

/-- The method `EvictOne` with at most four segments behind the head changes
nothing. -/
theorem EvictOne_none (s : SegmentCache V) (hcount : s.segment_list_.count ≤ 4) :
    EvictOne s = .ok s := by
  unfold EvictOne
  rw [SegmentList.Evict_none _ hcount]

/-- The method `EvictOne` from a state with the invariant returns and keeps
the invariant. -/
theorem Exact.exact_EvictOne_ok {S N : Nat} (hN : N < 2 ^ 32) {s : SegmentCache V}
    (h : Exact S N s []) : ∃ s', EvictOne s = .ok s' ∧ Exact S N s' [] := by
  by_cases hcount : s.segment_list_.count > 4
  · obtain ⟨s', _, _, _, _, hev, hex, _⟩ := h.exact_EvictOne hN hcount
    exact ⟨s', hev, hex⟩
  · exact ⟨s, EvictOne_none s (by omega), h⟩

/-- The eviction loop of `Insert` from a state with the invariant returns a
state with the invariant, unless it runs out of fuel. -/
theorem Exact.exact_evictLoop {S N : Nat} (hN : N < 2 ^ 32) (fuel : Nat) :
    ∀ {s : SegmentCache V}, Exact S N s [] →
    (∃ s', evictLoop fuel s = .ok s' ∧ Exact S N s' []) ∨
      evictLoop fuel s = .error .outOfFuel := by
  induction fuel with
  | zero =>
    intro s h
    unfold evictLoop
    by_cases hu : s.usage_ > s.capacity_
    · right; rw [if_pos hu]
    · left; rw [if_neg hu]; exact ⟨s, rfl, h⟩
  | succ fuel ih =>
    intro s h
    unfold evictLoop
    by_cases hu : s.usage_ > s.capacity_
    · rw [if_pos hu]
      obtain ⟨s1, hev, hex⟩ := h.exact_EvictOne_ok hN
      rw [hev]
      exact ih hex
    · left; rw [if_neg hu]; exact ⟨s, rfl, h⟩

end SegmentCache

theorem log_add {l l' : List Slot} {p v : Nat}
    (hcnt : ∀ f : Slot → Bool, (∀ slot, slot.entry = none → f slot = false) →
      l'.countP f = l.countP f + if f ⟨some p, v⟩ then 1 else 0)
    (hmem : ∀ slot ∈ l', slot ∈ l ∨ slot = ⟨some p, v⟩ ∨ slot.entry = none) :
    (∀ q, slotRefs l' q = slotRefs l q + if q = p then 1 else 0) ∧
    (∀ q w, slotLive l' q w = slotLive l q w + if q = p ∧ w = v then 1 else 0) ∧
    (∀ q w, slotsBelow l q w → (q = p → v ≤ w) → slotsBelow l' q w) := by
  refine ⟨fun q => ?_, fun q w => ?_, fun q w hb hv slot hslot he => ?_⟩
  · unfold slotRefs
    rw [hcnt _ (fun slot hs => by simp [hs])]
    by_cases hq : q = p
    · simp [hq]
    · have : p ≠ q := fun h => hq h.symm
      simp [hq, this]
  · unfold slotLive
    rw [hcnt _ (fun slot hs => by simp [hs])]
    by_cases hq : q = p ∧ w = v
    · obtain ⟨rfl, rfl⟩ := hq
      simp
    · rw [if_neg hq, if_neg]
      simp only [decide_eq_true_eq, Option.some.injEq]
      intro hx
      exact hq ⟨hx.1.symm, hx.2.symm⟩
  · rcases hmem slot hslot with h1 | h1 | h1
    · exact hb slot h1 he
    · rw [h1] at he ⊢
      simp only [Option.some.injEq] at he
      exact hv he.symm
    · rw [h1] at he
      cases he

namespace SegmentCache

variable {V : Type}

theorem heldSlots_nil (s : SegmentCache V) :
    s.heldSlots [] = logSlots s.segment_list_.segments := by
  unfold heldSlots
  rw [List.append_nil]

theorem Exact.exact_mono {S N M : Nat} {s : SegmentCache V} {pending : List Slot}
    (h : Exact S N s pending) (hNM : N ≤ M) : Exact S M s pending := by
  obtain ⟨ha, hb, hc, halc, hshape, hlen, hcap, hpend⟩ := h
  refine ⟨ha, fun p e hent => ?_, hc, halc, hshape, by omega, hcap, hpend⟩
  obtain ⟨b1, b2, b3, b4, b5, b6⟩ := hb p e hent
  exact ⟨b1, b2, by omega, by omega, b5, b6⟩

/-- The invariant holds in the state the constructor makes. -/
theorem Exact.exact_start (S C : Nat) (hC : C < 2 ^ 64) :
    Exact S 1 (SegmentCache.new S C : SegmentCache V) [] := by
  refine ⟨?_, ?_, ?_, fun p _ => rfl, SegmentList.Shape.shape_new S, Nat.le_refl _, hC, ?_⟩
  · intro key entry h
    cases h
  · intro p e h
    cases h
  · intro p _
    rw [heldSlots_nil]
    show slotRefs (List.replicate S (⟨none, 0⟩ : Slot) ++ []) p = 0
    rw [List.append_nil]
    exact slotRefs_replicate S p
  · intro slot h
    cases h

/-- The method `Erase` from a state with the invariant returns and keeps the
invariant. -/
theorem Exact.exact_Erase {S N : Nat} (hN : N < 2 ^ 32) {s : SegmentCache V}
    (h : Exact S N s []) (key : Nat) :
    ∃ b s', Erase s key = .ok (b, s') ∧ Exact S N s' [] := by
  unfold Erase
  cases hk : HashMap.find s.hash_map_ key with
  | none => exact ⟨false, s, rfl, h⟩
  | some p =>
    obtain ⟨e, hent, hkey⟩ := h.1 key p hk
    obtain ⟨b1, b2, b3, _⟩ := h.2.1 p e hent
    obtain ⟨t, ht, hmap, hseg, halloc, hother, hpfind⟩ :=
      TryFreeEntry_spec s p e hent b2 (by omega)
    simp only [ht]
    refine ⟨true, _, rfl, ?_⟩
    refine @Exact.exact_release V S N s _ [] [] p e 1 h hent hseg halloc (by simp)
      (Or.inr ⟨rfl, by rw [hkey]; exact hk⟩) (fun k => ?_) hother ?_ (fun h01 => by omega)
    · show HashMap.find (HashMap.erase t.hash_map_ key) k = _
      rw [HashMap.find_erase, hmap, hkey]
      simp
    · show HashMap.find t.entries p = _
      rw [hpfind]
      rfl

/-- The method `Lookup` from a state with the invariant returns a state with
the invariant, unless `Add` runs out of fuel. -/
theorem Exact.exact_Lookup {S N : Nat} (fuel : Nat) (hS : 1 ≤ S) (hS32 : S + 1 < 2 ^ 32)
    (hN : N + 1 < 2 ^ 32) {s : SegmentCache V} (h : Exact S N s []) (key : Nat) (value : V) :
    (∃ b v s', Lookup S fuel s key value = .ok (b, v, s') ∧ Exact S (N + 1) s' []) ∨
      Lookup S fuel s key value = .error .outOfFuel := by
  have h0 := h
  obtain ⟨ha, hb, hc, halc, hshape, hlen, hcap, hpend⟩ := h
  unfold Lookup
  cases hk : HashMap.find s.hash_map_ key with
  | none => exact Or.inl ⟨false, value, s, rfl, h0.exact_mono (by omega)⟩
  | some p =>
    obtain ⟨e, hent, hkey⟩ := ha key p hk
    obtain ⟨b1, b2, b3, b4, b5, b6⟩ := hb p e hent
    simp only [hent]
    by_cases hbel : e.belong = s.segment_list_.head_segment
    · rw [if_neg (fun hx => hx hbel)]
      exact Or.inl ⟨true, e.value, s, rfl, h0.exact_mono (by omega)⟩
    rw [if_pos hbel]
    have hur : u32 (e.refs + 1) = e.refs + 1 := Nat.mod_eq_of_lt (by omega)
    have huv : u32 (e.version + 1) = e.version + 1 := Nat.mod_eq_of_lt (by omega)
    rw [hur, huv]
    obtain ⟨sl', hadd, _, hshape', hlen', hcnt, hmem, _⟩ :=
      SegmentList.Add_exact hS hS32 s.segment_list_ hshape (by omega) p (e.version + 1) fuel
    rcases hadd with hadd | hadd
    swap
    · right
      simp only [hadd]
    left
    simp only [hadd]
    refine ⟨true, e.value, _, rfl, ?_⟩
    obtain ⟨hrefs, hlive, hbelow⟩ := log_add hcnt hmem
    have hfind : ∀ q, HashMap.find (HashMap.update s.entries p
        { e with refs := e.refs + 1, version := e.version + 1 }) q =
        if q = p then some { e with refs := e.refs + 1, version := e.version + 1 }
        else HashMap.find s.entries q := FrozenHotCache.find_update_some hent _
    have hi1 : s.indexRef p e = 1 := by
      unfold indexRef
      rw [if_pos (by rw [hkey]; exact hk)]
    simp only [heldSlots_nil] at hb hc
    refine ⟨?_, ?_, ?_, ?_, hshape', by show sl'.segments.length ≤ N + 1; omega, hcap, ?_⟩
    · intro k q hq
      obtain ⟨e1, he1, hk1⟩ := ha k q hq
      show ∃ e2, HashMap.find (HashMap.update s.entries p _) q = some e2 ∧ e2.key = k
      rw [hfind]
      by_cases hqp : q = p
      · rw [if_pos hqp]
        rw [hqp, hent] at he1
        rw [← hk1, ← Option.some.inj he1]
        exact ⟨_, rfl, rfl⟩
      · rw [if_neg hqp]
        exact ⟨e1, he1, hk1⟩
    · intro q e1 hq
      rw [heldSlots_nil]
      show _ = indexRef _ q e1 + slotRefs (logSlots sl'.segments) q ∧ _ ∧ _ ∧ _ ∧
        slotsBelow (logSlots sl'.segments) q _ ∧
        (_ → slotLive (logSlots sl'.segments) q _ = 1)
      have hq' : HashMap.find (HashMap.update s.entries p
          { e with refs := e.refs + 1, version := e.version + 1 }) q = some e1 := hq
      rw [hfind] at hq'
      by_cases hqp : q = p
      · rw [if_pos hqp] at hq'
        have he1 := (Option.some.inj hq').symm
        rw [hqp, hrefs, if_pos rfl, he1]
        refine ⟨?_, ?_, ?_, ?_, ?_, fun _ => ?_⟩
        · show e.refs + 1 = s.indexRef p e + (slotRefs (logSlots s.segment_list_.segments) p + 1)
          rw [heldSlots_nil] at b1
          omega
        · show 1 ≤ e.refs + 1
          omega
        · show e.refs + 1 ≤ N + 1
          omega
        · show e.version + 1 ≤ N + 1
          omega
        · exact hbelow p _ (fun slot hslot he => by
            have := b5 slot (by rw [heldSlots_nil]; exact hslot) he
            show slot.version ≤ e.version + 1
            omega) (fun _ => Nat.le_refl _)
        · show slotLive (logSlots sl'.segments) p (e.version + 1) = 1
          rw [hlive, if_pos ⟨rfl, rfl⟩]
          have hb5 : slotsBelow (logSlots s.segment_list_.segments) p e.version := by
            rw [← heldSlots_nil]; exact b5
          rw [slotLive_of_below hb5 (Nat.lt_succ_self _)]
      · rw [if_neg hqp] at hq'
        obtain ⟨c1, c2, c3, c4, c5, c6⟩ := hb q e1 hq'
        rw [hrefs, if_neg hqp, hlive, if_neg (fun hx => hqp hx.1)]
        refine ⟨c1, c2, by omega, by omega, ?_, c6⟩
        exact hbelow q _ c5 (fun hx => absurd hx hqp)
    · intro q hq
      rw [heldSlots_nil]
      show slotRefs (logSlots sl'.segments) q = 0
      have hq' : HashMap.find (HashMap.update s.entries p
          { e with refs := e.refs + 1, version := e.version + 1 }) q = none := hq
      rw [hfind] at hq'
      by_cases hqp : q = p
      · rw [if_pos hqp] at hq'
        cases hq'
      · rw [if_neg hqp] at hq'
        rw [hrefs, if_neg hqp, hc q hq']
    · intro q hq
      show HashMap.find (HashMap.update s.entries p _) q = none
      have hqp : q ≠ p := by
        intro hx
        rw [hx] at hq
        have := halc p hq
        rw [hent] at this
        cases this
      rw [hfind, if_neg hqp]
      exact halc q hq
    · intro slot hx
      cases hx

/-- The state of `Insert` of a key that is not resident, after `Add` and before
the eviction loop, has the invariant. -/
theorem Exact.exact_Insert_linked {S N : Nat} (hN : N + 1 < 2 ^ 32) {s : SegmentCache V}
    (h : Exact S N s []) (k : Nat) (v : V) (hk : HashMap.find s.hash_map_ k = none)
    {sl' : SegmentList} (hshape' : sl'.Shape S)
    (hlen' : sl'.segments.length ≤ s.segment_list_.segments.length + 1)
    (hcnt : ∀ f : Slot → Bool, (∀ slot, slot.entry = none → f slot = false) →
      (logSlots sl'.segments).countP f =
        (logSlots s.segment_list_.segments).countP f + if f ⟨some s.allocated, 1⟩ then 1 else 0)
    (hmem : ∀ slot ∈ logSlots sl'.segments,
      slot ∈ logSlots s.segment_list_.segments ∨ slot = ⟨some s.allocated, 1⟩ ∨
        slot.entry = none) :
    Exact S (N + 1)
      (⟨s.capacity_, u64 (s.usage_ + 1), HashMap.add s.hash_map_ k s.allocated,
        HashMap.add s.entries s.allocated ⟨k, v, 1, 2, s.segment_list_.head_segment, 1⟩,
        s.allocated + 1, sl'⟩ : SegmentCache V) [] := by
  obtain ⟨ha, hb, hc, halc, hshape, hlen, hcap, hpend⟩ := h
  obtain ⟨hrefs, hlive, hbelow⟩ := log_add hcnt hmem
  simp only [heldSlots_nil] at hb hc
  have hfresh := halc s.allocated (Nat.le_refl _)
  have h0 := hc _ hfresh
  refine ⟨?_, ?_, ?_, ?_, hshape', by show sl'.segments.length ≤ N + 1; omega, hcap, ?_⟩
  · intro k1 q hq
    have hq' : HashMap.find (HashMap.add s.hash_map_ k s.allocated) k1 = some q := hq
    show ∃ e2, HashMap.find (HashMap.add s.entries s.allocated _) q = some e2 ∧ e2.key = k1
    rw [HashMap.find_add] at hq' ⊢
    by_cases hkk : k = k1
    · rw [if_pos hkk] at hq'
      rw [if_pos (Option.some.inj hq')]
      exact ⟨_, rfl, hkk⟩
    · rw [if_neg hkk] at hq'
      obtain ⟨e1, he1, hk1⟩ := ha k1 q hq'
      have hqp : s.allocated ≠ q := by
        intro hx
        rw [← hx, hfresh] at he1
        cases he1
      rw [if_neg hqp]
      exact ⟨e1, he1, hk1⟩
  · intro q e1 hq
    rw [heldSlots_nil]
    show _ = indexRef _ q e1 + slotRefs (logSlots sl'.segments) q ∧ _ ∧ _ ∧ _ ∧
      slotsBelow (logSlots sl'.segments) q _ ∧
      (_ → slotLive (logSlots sl'.segments) q _ = 1)
    have hq' : HashMap.find (HashMap.add s.entries s.allocated
        ⟨k, v, 1, 2, s.segment_list_.head_segment, 1⟩) q = some e1 := hq
    rw [HashMap.find_add] at hq'
    by_cases hqp : s.allocated = q
    · rw [if_pos hqp] at hq'
      have he1 := (Option.some.inj hq').symm
      rw [← hqp, hrefs, if_pos rfl, he1, h0]
      have hidx : indexRef (⟨s.capacity_, u64 (s.usage_ + 1), HashMap.add s.hash_map_ k s.allocated,
          HashMap.add s.entries s.allocated ⟨k, v, 1, 2, s.segment_list_.head_segment, 1⟩,
          s.allocated + 1, sl'⟩ : SegmentCache V) s.allocated
          ⟨k, v, 1, 2, s.segment_list_.head_segment, 1⟩ = 1 := by
        unfold indexRef
        show (if HashMap.find (HashMap.add s.hash_map_ k s.allocated) k = some s.allocated
          then 1 else 0) = 1
        rw [HashMap.find_add, if_pos rfl, if_pos rfl]
      rw [hidx]
      refine ⟨rfl, by show 1 ≤ 2; omega, ?_, by show 1 ≤ N + 1; omega, ?_, fun _ => ?_⟩
      · show 2 ≤ N + 1
        obtain ⟨head, rest, hsegs, _⟩ := hshape
        rw [hsegs] at hlen
        simp only [List.length_cons] at hlen
        omega
      · exact hbelow _ _ (slotsBelow_of_refs h0 _) (fun _ => Nat.le_refl _)
      · show slotLive (logSlots sl'.segments) s.allocated 1 = 1
        rw [hlive, if_pos ⟨rfl, rfl⟩, slotLive_of_refs h0]
    · rw [if_neg hqp] at hq'
      have hqp' : q ≠ s.allocated := fun hx => hqp hx.symm
      obtain ⟨c1, c2, c3, c4, c5, c6⟩ := hb q e1 hq'
      have hidx : indexRef (⟨s.capacity_, u64 (s.usage_ + 1), HashMap.add s.hash_map_ k s.allocated,
          HashMap.add s.entries s.allocated ⟨k, v, 1, 2, s.segment_list_.head_segment, 1⟩,
          s.allocated + 1, sl'⟩ : SegmentCache V) q e1 = s.indexRef q e1 := by
        unfold indexRef
        show (if HashMap.find (HashMap.add s.hash_map_ k s.allocated) e1.key = some q
          then 1 else 0) = _
        rw [HashMap.find_add]
        by_cases hkk : k = e1.key
        · rw [if_pos hkk, if_neg (fun hx => hqp (Option.some.inj hx)), ← hkk, hk]
          rfl
        · rw [if_neg hkk]
      rw [hidx, hrefs, if_neg hqp', hlive, if_neg (fun hx => hqp' hx.1)]
      refine ⟨c1, c2, by omega, by omega, ?_, c6⟩
      exact hbelow q _ c5 (fun hx => absurd hx hqp')
  · intro q hq
    rw [heldSlots_nil]
    show slotRefs (logSlots sl'.segments) q = 0
    have hq' : HashMap.find (HashMap.add s.entries s.allocated
        ⟨k, v, 1, 2, s.segment_list_.head_segment, 1⟩) q = none := hq
    rw [HashMap.find_add] at hq'
    by_cases hqp : s.allocated = q
    · rw [if_pos hqp] at hq'
      cases hq'
    · rw [if_neg hqp] at hq'
      rw [hrefs, if_neg (fun hx => hqp hx.symm), hc q hq']
  · intro q hq
    have hq1 : s.allocated + 1 ≤ q := hq
    show HashMap.find (HashMap.add s.entries s.allocated _) q = none
    rw [HashMap.find_add, if_neg (by omega)]
    exact halc q (by omega)
  · intro slot hx
    cases hx

/-- The method `Insert` from a state with the invariant returns a state with
the invariant, unless it runs out of fuel. -/
theorem Exact.exact_Insert {S N : Nat} (fuel : Nat) (hS : 1 ≤ S) (hS32 : S + 1 < 2 ^ 32)
    (hN : N + 1 < 2 ^ 32) {s : SegmentCache V} (h : Exact S N s []) (key : Nat) (value : V) :
    (∃ b s', Insert S fuel s key value = .ok (b, s') ∧ Exact S (N + 1) s' []) ∨
      Insert S fuel s key value = .error .outOfFuel := by
  cases hk : HashMap.find s.hash_map_ key with
  | some p =>
    left
    have h0 := h
    obtain ⟨ha, hb, hc, halc, hshape, hlen, hcap, hpend⟩ := h
    obtain ⟨e, hent, hkey⟩ := ha key p hk
    unfold Insert
    simp only [hk, hent]
    refine ⟨false, _, rfl, ?_⟩
    have hfind : ∀ q, HashMap.find (HashMap.update s.entries p { e with value := value }) q =
        if q = p then some { e with value := value } else HashMap.find s.entries q :=
      FrozenHotCache.find_update_some hent _
    refine ⟨?_, ?_, ?_, ?_, hshape, by show s.segment_list_.segments.length ≤ N + 1; omega,
      hcap, hpend⟩
    · intro k q hq
      obtain ⟨e1, he1, hk1⟩ := ha k q hq
      show ∃ e2, HashMap.find (HashMap.update s.entries p _) q = some e2 ∧ e2.key = k
      rw [hfind]
      by_cases hqp : q = p
      · rw [if_pos hqp]
        rw [hqp, hent] at he1
        rw [← hk1, ← Option.some.inj he1]
        exact ⟨_, rfl, rfl⟩
      · rw [if_neg hqp]
        exact ⟨e1, he1, hk1⟩
    · intro q e1 hq
      have hq' : HashMap.find (HashMap.update s.entries p { e with value := value }) q
          = some e1 := hq
      rw [hfind] at hq'
      by_cases hqp : q = p
      · rw [if_pos hqp] at hq'
        have he1 := (Option.some.inj hq').symm
        obtain ⟨c1, c2, c3, c4, c5, c6⟩ := hb p e hent
        rw [hqp, he1]
        exact ⟨c1, c2, by show e.refs ≤ N + 1; omega, by show e.version ≤ N + 1; omega, c5, c6⟩
      · rw [if_neg hqp] at hq'
        obtain ⟨c1, c2, c3, c4, c5, c6⟩ := hb q e1 hq'
        exact ⟨c1, c2, by omega, by omega, c5, c6⟩
    · intro q hq
      have hq' : HashMap.find (HashMap.update s.entries p { e with value := value }) q
          = none := hq
      rw [hfind] at hq'
      by_cases hqp : q = p
      · rw [if_pos hqp] at hq'
        cases hq'
      · rw [if_neg hqp] at hq'
        exact hc q hq'
    · intro q hq
      show HashMap.find (HashMap.update s.entries p _) q = none
      have hqp : q ≠ p := by
        intro hx
        rw [hx] at hq
        have := halc p hq
        rw [hent] at this
        cases this
      rw [hfind, if_neg hqp]
      exact halc q hq
  | none =>
    rw [Insert_new_unfold S fuel s key value hk]
    obtain ⟨sl', hadd, _, hshape', hlen', hcnt, hmem, _⟩ :=
      SegmentList.Add_exact hS hS32 s.segment_list_ h.2.2.2.2.1 (by
        have := h.2.2.2.2.2.1
        omega) s.allocated 1 fuel
    rcases hadd with hadd | hadd
    swap
    · right
      simp only [hadd]
    simp only [hadd]
    have hex := h.exact_Insert_linked hN key value hk hshape' hlen' hcnt hmem
    rcases hex.exact_evictLoop (by omega) fuel with ⟨s3, hloop, hex3⟩ | hloop
    · left
      simp only [hloop]
      exact ⟨true, s3, rfl, hex3⟩
    · right
      simp only [hloop]

/-- One call from a state with the invariant returns a state with the
invariant, unless it runs out of fuel. -/
theorem Exact.exact_step {S N : Nat} (fuel : Nat) (hS : 1 ≤ S) (hS32 : S + 1 < 2 ^ 32)
    (hN : N + 1 < 2 ^ 32) {s : SegmentCache V} (h : Exact S N s []) (op : Op V) :
    (∃ r s', step S fuel s op = .ok (r, s') ∧ Exact S (N + 1) s' []) ∨
      step S fuel s op = .error .outOfFuel := by
  cases op with
  | Insert key value =>
    rcases h.exact_Insert fuel hS hS32 hN key value with ⟨b, s', hr, hex⟩ | hr
    · left
      simp only [step, hr]
      exact ⟨_, s', rfl, hex⟩
    · right
      simp only [step, hr]
  | Lookup key value =>
    rcases h.exact_Lookup fuel hS hS32 hN key value with ⟨b, v, s', hr, hex⟩ | hr
    · left
      simp only [step, hr]
      exact ⟨_, s', rfl, hex⟩
    · right
      simp only [step, hr]
  | Erase key =>
    obtain ⟨b, s', hr, hex⟩ := h.exact_Erase (by omega) key
    left
    simp only [step, hr]
    exact ⟨_, s', rfl, hex.exact_mono (by omega)⟩

/-- The invariant holds after a sequence of calls that all returned. -/
theorem Exact.exact_run {S fuel : Nat} (hS : 1 ≤ S) (hS32 : S + 1 < 2 ^ 32) (ops : List (Op V)) :
    ∀ {N : Nat} {s : SegmentCache V} {rs : List (Ret V)} {s' : SegmentCache V},
      Exact S N s [] → N + ops.length < 2 ^ 32 → run S fuel s ops = .ok (rs, s') →
      Exact S (N + ops.length) s' [] := by
  induction ops with
  | nil =>
    intro N s rs s' h _ hrun
    simp only [run, Except.ok.injEq, Prod.mk.injEq] at hrun
    rw [← hrun.2]
    exact h
  | cons op ops ih =>
    intro N s rs s' h hN hrun
    simp only [List.length_cons] at hN ⊢
    rcases h.exact_step fuel hS hS32 (by omega) op with ⟨r, s1, hstep, hex⟩ | hstep
    · simp only [run, hstep] at hrun
      cases hrest : run S fuel s1 ops with
      | error f => rw [hrest] at hrun; cases hrun
      | ok res =>
        obtain ⟨rs1, s2⟩ := res
        rw [hrest] at hrun
        simp only [Except.ok.injEq, Prod.mk.injEq] at hrun
        have := ih hex (by omega) hrest
        rw [← hrun.2]
        have heq : N + 1 + ops.length = N + (ops.length + 1) := by omega
        rw [← heq]
        exact this
    · simp only [run, hstep] at hrun
      cases hrun

/-- The invariant holds in every state a sequential execution of `n` calls
reaches. -/
theorem Reachable.exact {S fuel C n : Nat} (hS : 1 ≤ S) (hS32 : S + 1 < 2 ^ 32)
    (hC : C < 2 ^ 64) (hn : n + 1 < 2 ^ 32) {s : SegmentCache V}
    (h : Reachable S fuel C n s) : Exact S (n + 1) s [] := by
  obtain ⟨ops, rs, hlen, hrun⟩ := h
  have := Exact.exact_run hS hS32 ops (Exact.exact_start S C hC) (by omega) hrun
  rw [hlen, Nat.add_comm] at this
  exact this

end SegmentCache

namespace SegmentList

/-- The log keeps its shape along a sequence of calls that all returned. -/
theorem Shape.shape_run {S fuel : Nat} (hS : 1 ≤ S) (hS32 : S + 1 < 2 ^ 32)
    (calls : List Call) :
    ∀ {sl sl' : SegmentList}, Shape S sl → sl.segments.length + calls.length < 2 ^ 64 →
      run S fuel sl calls = .ok sl' →
      Shape S sl' ∧ sl'.segments.length ≤ sl.segments.length + calls.length := by
  induction calls with
  | nil =>
    intro sl sl' h _ hrun
    simp only [run, Except.ok.injEq] at hrun
    rw [← hrun]
    exact ⟨h, Nat.le_refl _⟩
  | cons c calls ih =>
    intro sl sl' h hlen hrun
    simp only [List.length_cons] at hlen ⊢
    cases c with
    | Add entry new_version =>
      obtain ⟨sl1, hadd, _, hshape1, hlen1, _⟩ :=
        Add_exact hS hS32 sl h (by omega) entry new_version fuel
      rcases hadd with hadd | hadd
      · simp only [run, step, hadd] at hrun
        obtain ⟨r1, r2⟩ := ih hshape1 (by omega) hrun
        exact ⟨r1, by omega⟩
      · simp only [run, step, hadd] at hrun
        cases hrun
    | Evict =>
      by_cases hcount : sl.count > 4
      · obtain ⟨pre, t, victim, hsegs, hev, hshape1, _⟩ := h.shape_evict (by omega) hcount
        simp only [run, step, hev] at hrun
        have hl1 : (pre ++ [t]).length + 1 = sl.segments.length := by
          rw [hsegs]
          simp only [List.length_append, List.length_cons, List.length_nil]
        obtain ⟨r1, r2⟩ := ih hshape1 (by
          show (pre ++ [t]).length + calls.length < 2 ^ 64
          omega) hrun
        refine ⟨r1, ?_⟩
        have r3 : sl'.segments.length ≤ (pre ++ [t]).length + calls.length := r2
        omega
      · simp only [run, step, Evict_none sl (by omega)] at hrun
        obtain ⟨r1, r2⟩ := ih h (by omega) hrun
        exact ⟨r1, by omega⟩

end SegmentList

namespace SegmentCache

variable {V : Type}

theorem Exact.liveSlots {S N : Nat} {s : SegmentCache V} (h : Exact S N s []) : s.LiveSlots := by
  intro key p e hk hent
  obtain ⟨e1, he1, hkey⟩ := h.1 key p hk
  rw [hent] at he1
  have hee : e = e1 := Option.some.inj he1
  obtain ⟨_, _, _, _, b5, b6⟩ := h.2.1 p e hent
  rw [heldSlots_nil] at b5 b6
  have hi : s.indexRef p e = 1 := by
    unfold indexRef
    rw [if_pos (by rw [hee, hkey]; exact hk)]
  exact ⟨b6 hi, b5⟩

theorem Exact.refsExact {S N : Nat} {s : SegmentCache V} (h : Exact S N s []) : s.RefsExact := by
  refine ⟨fun p e hent => ?_, fun p hent => ⟨?_, fun key hk => ?_⟩⟩
  · obtain ⟨b1, b2, _⟩ := h.2.1 p e hent
    rw [heldSlots_nil] at b1
    exact ⟨b1, b2⟩
  · have := h.2.2.1 p hent
    rw [heldSlots_nil] at this
    exact this
  · obtain ⟨e, he, _⟩ := h.1 key p hk
    rw [hent] at he
    cases he

theorem sampleLog_reachable : Reachable 1 2 10 6 sampleLog :=
  ⟨[.Insert 1 10, .Insert 2 20, .Lookup 1 0, .Insert 3 30, .Insert 4 40, .Insert 5 50],
    [⟨true, none⟩, ⟨true, none⟩, ⟨true, some 10⟩, ⟨true, none⟩, ⟨true, none⟩, ⟨true, none⟩],
    rfl, by decide⟩

end SegmentCache

/-! ## The claims on the live slots and the reference counts of the Segment shard -/

/-- The key 1 of the sample shard was promoted by `Lookup` after the head
changed: its stale slot is in the tail segment, and it is still indexed, under
the same entry with the same value, after `EvictOne` has evicted that
segment. -/
theorem segment_promoted_key_survives :
    ∃ s', SegmentCache.EvictOne SegmentCache.sampleLog = .ok s' ∧
      s'.segment_list_.segments.length = 5 ∧
      SegmentCache.sampleLog.liveIn [⟨some 0, 1⟩] 1 = false ∧
      HashMap.find s'.hash_map_ 1 = some 0 ∧
      HashMap.find s'.entries 0 = some ⟨1, 10, 2, 2, some 0, 1⟩ :=
  ⟨{ SegmentCache.sampleLog with
      entries := [(4, ⟨5, 50, 1, 2, some 4, 1⟩), (3, ⟨4, 40, 1, 2, some 3, 1⟩),
        (2, ⟨3, 30, 1, 2, some 2, 1⟩), (1, ⟨2, 20, 1, 2, some 0, 1⟩),
        (0, ⟨1, 10, 2, 2, some 0, 1⟩)]
      segment_list_ :=
        ⟨[⟨5, [⟨some 4, 1⟩], 1⟩, ⟨4, [⟨some 3, 1⟩], 2⟩, ⟨3, [⟨some 2, 1⟩], 2⟩,
          ⟨2, [⟨some 0, 2⟩], 2⟩, ⟨1, [⟨some 1, 1⟩], 2⟩], 4, 6⟩ },
    by decide, by decide, by decide, by decide, by decide⟩

/-- C30. For every log `sl` that a sequence of `Add` and `Evict` calls that
all returned makes from the log of the constructor (fewer than `2 ^ 64 - 1`
calls, segments of `S` slots): `count` is the number of segments minus one,
so the log holds at least one segment; when `count > 4`, `Evict` returns the
tail segment, the segment in front of it becomes the tail and `count` goes
down by one; when `count <= 4`, `Evict` returns no segment and leaves the log
as it is. -/
theorem segment_list_evict (S fuel : Nat) (hS : 1 ≤ S) (hS32 : S + 1 < 2 ^ 32)
    (calls : List SegmentList.Call) (hn : calls.length + 1 < 2 ^ 64) (sl : SegmentList)
    (hrun : SegmentList.run S fuel (SegmentList.new S) calls = .ok sl) :
    sl.count + 1 = sl.segments.length ∧
    (sl.count > 4 → ∃ pre t victim, sl.segments = pre ++ [t, victim] ∧
      SegmentList.Evict sl = .ok (some victim,
        { sl with segments := pre ++ [t], count := sl.count - 1 })) ∧
    (sl.count ≤ 4 → SegmentList.Evict sl = .ok (none, sl)) := by
  obtain ⟨hshape, hlen⟩ :=
    SegmentList.Shape.shape_run hS hS32 calls (SegmentList.Shape.shape_new S) (by
      show 1 + calls.length < 2 ^ 64
      omega) hrun
  have hlen1 : sl.segments.length ≤ 1 + calls.length := hlen
  refine ⟨?_, fun hcount => ?_, fun hcount => SegmentList.Evict_none sl hcount⟩
  · obtain ⟨head, rest, hsegs, hc, _⟩ := hshape
    rw [hsegs, hc]
    rfl
  · obtain ⟨pre, t, victim, hsegs, hev, _⟩ := hshape.shape_evict (by omega) hcount
    exact ⟨pre, t, victim, hsegs, hev⟩

set_option maxRecDepth 100000 in
theorem segment_list_evict_witness :
    SegmentList.run 1 2 (SegmentList.new 1)
      [.Add 0 1, .Add 1 1, .Add 0 2, .Add 2 1, .Add 3 1, .Evict, .Add 4 1]
      = .ok SegmentCache.sampleLog.segment_list_ ∧
    (SegmentCache.sampleLog.segment_list_.count + 1
      = SegmentCache.sampleLog.segment_list_.segments.length ∧
    (SegmentCache.sampleLog.segment_list_.count > 4 → ∃ pre t victim,
      SegmentCache.sampleLog.segment_list_.segments = pre ++ [t, victim] ∧
      SegmentList.Evict SegmentCache.sampleLog.segment_list_ = .ok (some victim,
        { SegmentCache.sampleLog.segment_list_ with
          segments := pre ++ [t]
          count := SegmentCache.sampleLog.segment_list_.count - 1 })) ∧
    (SegmentCache.sampleLog.segment_list_.count ≤ 4 →
      SegmentList.Evict SegmentCache.sampleLog.segment_list_
        = .ok (none, SegmentCache.sampleLog.segment_list_))) :=
  ⟨by decide,
    segment_list_evict 1 2 (by decide) (by decide)
      [.Add 0 1, .Add 1 1, .Add 0 2, .Add 2 1, .Add 3 1, .Evict, .Add 4 1] (by decide)
      SegmentCache.sampleLog.segment_list_ (by decide)⟩


/-! ## Unlinking and moving nodes of the main list of a FrozenHot shard -/

namespace FrozenHotCache

variable {V : Type}

theorem firstPtr_app (xs ys : List Nat) (b : Ptr) :
    firstPtr (xs ++ ys) b = firstPtr xs (firstPtr ys b) := by
  cases xs with
  | nil => rfl
  | cons i r => rfl

theorem lastPtr_ne_marker (xs : List Nat) : lastPtr .head xs ≠ .marker := by
  rcases List.eq_nil_or_concat xs with h | ⟨r, l, h⟩
  · rw [h]
    intro hx
    cases hx
  · rw [h, List.concat_eq_append, lastPtr_append]
    intro hx
    cases hx

theorem lastPtr_nonempty (a a' : Ptr) (xs : List Nat) (h : xs ≠ []) :
    lastPtr a xs = lastPtr a' xs := by
  cases xs with
  | nil => exact absurd rfl h
  | cons i r => rfl

/-- Two chains that meet make one chain. -/
theorem Chain.join {s : FrozenHotCache V} {xs ys : List Nat} {a b : Ptr}
    (h1 : Chain s a xs (firstPtr ys b)) (h2 : Chain s (lastPtr a xs) ys b) :
    Chain s a (xs ++ ys) b := by
  induction xs generalizing a with
  | nil => exact h2
  | cons i r ih =>
    obtain ⟨c1, c2⟩ := h1
    refine ⟨?_, ih c2 h2⟩
    show _ = some (a, firstPtr (r ++ ys) b)
    rw [firstPtr_app]
    exact c1

theorem Chain.find_mem {s : FrozenHotCache V} {ids : List Nat} {a b : Ptr}
    (hc : Chain s a ids b) {i : Nat} (hi : i ∈ ids) :
    ∃ n, HashMap.find s.nodes i = some n := by
  induction ids generalizing a with
  | nil => cases hi
  | cons j r ih =>
    rcases List.mem_cons.mp hi with h | h
    · obtain ⟨n, hn, _⟩ := Chain.find_first hc
      exact ⟨n, by rw [h]; exact hn⟩
    · exact ih hc.2 h

/-- The assignment `last->m_next = b'` for the last node of a chain that
starts at `&m_head`, or `m_head.m_next = b'` when the chain is empty. -/
theorem setNext_main_last {s : FrozenHotCache V} {xs : List Nat} {b : Ptr}
    (hc : Chain s .head xs b) (hnd : xs.Nodup) (b' : Ptr) :
    ∃ s', setNext s (lastPtr .head xs) b' = .ok s' ∧ Chain s' .head xs b' ∧
      s'.m_head.m_next = (if xs = [] then b' else s.m_head.m_next) ∧
      (∀ j, j ∉ xs → HashMap.find s'.nodes j = HashMap.find s.nodes j) ∧
      (∀ j, (HashMap.find s'.nodes j).map ListNode.m_key =
        (HashMap.find s.nodes j).map ListNode.m_key) ∧
      s'.m_tail = s.m_tail ∧ s'.m_fast_head = s.m_fast_head ∧
      s'.m_fast_tail = s.m_fast_tail ∧ SameData s s' ∧ s'.allocated = s.allocated := by
  rcases List.eq_nil_or_concat xs with h | ⟨r, l, h⟩
  · subst h
    obtain ⟨s', e, a1, a2, a3, a4, a5, a6⟩ := setNext_head s b'
    exact ⟨s', e, trivial, by rw [if_pos rfl]; exact a2, fun j _ => by rw [a1],
      fun j => by rw [a1], a3, a4, a5, a6, setNext_allocated e⟩
  · rw [List.concat_eq_append] at h
    subst h
    have hl : l ∉ r := by
      intro hx
      have := List.nodup_append.mp hnd
      exact this.2.2 hx (List.mem_singleton_self l)
    obtain ⟨n, hn⟩ := Chain.find_mem hc (List.mem_append_right r (List.mem_singleton_self l))
    obtain ⟨s', e, a1, a2, a3, a4, a5, a6⟩ := setNext_node hn b'
    refine ⟨s', ?_, Chain.set_last hc hl hn a1, ?_, fun j hj => ?_,
      fun j => map_key_of_update hn a1 rfl j, a3, a4, a5, a6, setNext_allocated e⟩
    · rw [lastPtr_append]
      exact e
    · rw [if_neg (by simp), a2]
    · rw [a1 j, if_neg (fun hx => hj (by rw [hx]; simp))]

/-- The assignment `first->m_prev = a'` for the first node of a chain that
ends at `&m_tail`, or `m_tail.m_prev = a'` when the chain is empty. -/
theorem setPrev_main_first {s : FrozenHotCache V} {ys : List Nat} {a : Ptr}
    (hc : Chain s a ys .tail) (hnd : ys.Nodup) (a' : Ptr) :
    ∃ s', setPrev s (firstPtr ys .tail) a' = .ok s' ∧ Chain s' a' ys .tail ∧
      s'.m_tail.m_prev = (if ys = [] then a' else s.m_tail.m_prev) ∧
      (∀ j, j ∉ ys → HashMap.find s'.nodes j = HashMap.find s.nodes j) ∧
      (∀ j, (HashMap.find s'.nodes j).map ListNode.m_key =
        (HashMap.find s.nodes j).map ListNode.m_key) ∧
      s'.m_head = s.m_head ∧ s'.m_fast_head = s.m_fast_head ∧
      s'.m_fast_tail = s.m_fast_tail ∧ SameData s s' ∧ s'.allocated = s.allocated := by
  cases ys with
  | nil =>
    obtain ⟨s', e, a1, a2, a3, a4, a5, a6⟩ := setPrev_tail s a'
    exact ⟨s', e, trivial, by rw [if_pos rfl]; exact a3, fun j _ => by rw [a1],
      fun j => by rw [a1], a2, a4, a5, a6, setPrev_allocated e⟩
  | cons f r =>
    obtain ⟨n, hn, _, _⟩ := Chain.find_first hc
    obtain ⟨s', e, a1, a2, a3, a4, a5, a6⟩ := setPrev_node hn a'
    refine ⟨s', e, Chain.set_first hc (List.nodup_cons.mp hnd).1 hn a1, ?_, fun j hj => ?_,
      fun j => map_key_of_update hn a1 rfl j, a2, a4, a5, a6, setPrev_allocated e⟩
    · rw [if_neg (by simp), a3]
    · rw [a1 j, if_neg (fun hx => hj (by rw [hx]; simp))]

/-- `LruRemove` of a node of the main list: the node leaves the list, the
others keep their order, and its `m_prev` is the out-of-list marker. -/
theorem LruRemove_main {s : FrozenHotCache V} {xs ys : List Nat} {i : Nat}
    (hm : MainList s (xs ++ i :: ys)) (hnd : (xs ++ i :: ys).Nodup) :
    ∃ s' n, LruRemove s (.node i) = .ok s' ∧ HashMap.find s.nodes i = some n ∧
      n.m_prev ≠ .marker ∧ MainList s' (xs ++ ys) ∧
      HashMap.find s'.nodes i = some { n with m_prev := .marker } ∧
      (∀ j, j ∉ xs ++ i :: ys → HashMap.find s'.nodes j = HashMap.find s.nodes j) ∧
      (∀ j, (HashMap.find s'.nodes j).map ListNode.m_key =
        (HashMap.find s.nodes j).map ListNode.m_key) ∧
      s'.m_fast_head = s.m_fast_head ∧ s'.m_fast_tail = s.m_fast_tail ∧ SameData s s' ∧
      s'.allocated = s.allocated := by
  obtain ⟨m1, m2, m3⟩ := hm
  have hnd' := List.nodup_append.mp hnd
  have hxs : xs.Nodup := hnd'.1
  have hiys : (i :: ys).Nodup := hnd'.2.1
  have hys : ys.Nodup := (List.nodup_cons.mp hiys).2
  have hi_ys : i ∉ ys := (List.nodup_cons.mp hiys).1
  have hi_xs : i ∉ xs := fun hx => hnd'.2.2 hx (List.mem_cons_self _ _)
  have hdisj : ∀ j, j ∈ xs → j ∉ ys := fun j hx hy => hnd'.2.2 hx (List.mem_cons_of_mem _ hy)
  obtain ⟨c1, c2⟩ := Chain.split m3
  obtain ⟨n, hn, hprev, hnext⟩ := Chain.find_first c2
  have c3 : Chain s (.node i) ys .tail := c2.2
  -- prev->m_next = next
  obtain ⟨s1, e1, k1, h1, f1, g1, t1, fh1, ft1, d1, al1⟩ :=
    setNext_main_last c1 hxs (firstPtr ys .tail)
  have c3' : Chain s1 (.node i) ys .tail :=
    Chain.frame c3 (fun j hj => f1 j (fun hx => hdisj j hx hj))
  -- next->m_prev = prev
  obtain ⟨s2, e2, k2, h2, f2, g2, t2, fh2, ft2, d2, al2⟩ :=
    setPrev_main_first c3' hys (lastPtr .head xs)
  have hn2 : HashMap.find s2.nodes i = some n := by
    rw [f2 i hi_ys, f1 i hi_xs]
    exact hn
  -- node->m_prev = out_of_list_marker_
  obtain ⟨s3, e3, a3, b3, c3a, d3, f3, g3⟩ := setPrev_node hn2 .marker
  have hframe3 : ∀ j, j ≠ i → HashMap.find s3.nodes j = HashMap.find s2.nodes j := by
    intro j hj
    rw [a3 j, if_neg hj]
  refine ⟨s3, n, ?_, hn, ?_, ⟨?_, ?_, ?_⟩, ?_, ?_, ?_, ?_, ?_, ?_, ?_⟩
  · unfold LruRemove
    rw [if_neg (by intro hx; cases hx)]
    simp only [deref, hn, bind, Except.bind, hprev, hnext, e1, e2, e3]
  · rw [hprev]
    exact lastPtr_ne_marker xs
  · rw [b3, t2, h1, firstPtr_app]
    by_cases hx : xs = []
    · rw [if_pos hx, hx]
      rfl
    · rw [if_neg hx, m1, firstPtr_app]
      cases xs with
      | nil => exact absurd rfl hx
      | cons x r => rfl
  · rw [c3a, h2, lastPtr_append]
    by_cases hy : ys = []
    · rw [if_pos hy, hy]
      rfl
    · rw [if_neg hy, t1, m2, lastPtr_append]
      cases ys with
      | nil => exact absurd rfl hy
      | cons y r => rfl
  · refine Chain.join ?_ ?_
    · refine Chain.frame (Chain.frame k1 (fun j hj => f2 j (hdisj j hj))) (fun j hj => ?_)
      exact hframe3 j (fun hx => hi_xs (by rw [← hx]; exact hj))
    · exact Chain.frame k2 (fun j hj => hframe3 j (fun hx => hi_ys (by rw [← hx]; exact hj)))
  · rw [a3 i, if_pos rfl]
  · intro j hj
    have hjx : j ∉ xs := fun hx => hj (List.mem_append_left _ hx)
    have hji : j ≠ i := fun hx => hj (by rw [hx]; simp)
    have hjy : j ∉ ys := fun hx => hj (List.mem_append_right _ (List.mem_cons_of_mem _ hx))
    rw [hframe3 j hji, f2 j hjy, f1 j hjx]
  · intro j
    rw [map_key_of_update hn2 a3 rfl j, g2 j, g1 j]
  · rw [d3, fh2, fh1]
  · rw [f3, ft2, ft1]
  · exact d1.trans (d2.trans g3)
  · rw [setPrev_allocated e3, al2, al1]

theorem put_frame (s : FrozenHotCache V) (p : Ptr) (n : ListNode) (j : Nat) (h : p ≠ .node j) :
    HashMap.find (put s p n).nodes j = HashMap.find s.nodes j := by
  cases p with
  | node id =>
    show HashMap.find (HashMap.update s.nodes id n) j = _
    rw [HashMap.find_update, if_neg (fun hx => h (by rw [hx]))]
  | null => rfl
  | marker => rfl
  | head => rfl
  | tail => rfl
  | fast_head => rfl
  | fast_tail => rfl

theorem setPrev_frame {s s' : FrozenHotCache V} {p q : Ptr} (h : setPrev s p q = .ok s')
    (j : Nat) (hj : p ≠ .node j) : HashMap.find s'.nodes j = HashMap.find s.nodes j := by
  unfold setPrev at h
  cases hd : deref s p with
  | error e => rw [hd] at h; cases h
  | ok n => rw [hd] at h; cases h; exact put_frame _ _ _ _ hj

theorem setNext_frame {s s' : FrozenHotCache V} {p q : Ptr} (h : setNext s p q = .ok s')
    (j : Nat) (hj : p ≠ .node j) : HashMap.find s'.nodes j = HashMap.find s.nodes j := by
  unfold setNext at h
  cases hd : deref s p with
  | error e => rw [hd] at h; cases h
  | ok n => rw [hd] at h; cases h; exact put_frame _ _ _ _ hj

theorem firstPtr_ne {ids : List Nat} {j : Nat} (hj : j ∉ ids) : firstPtr ids .tail ≠ .node j := by
  cases ids with
  | nil =>
    intro h
    cases h
  | cons i r =>
    intro h
    apply hj
    have : i = j := by
      cases h
      rfl
    rw [this]
    exact List.mem_cons_self _ _

/-- `LruPushFront` writes the node it pushes and the node that was first. -/
theorem LruPushFront_frame {s s' : FrozenHotCache V} {ids : List Nat} {a : Nat}
    (h : LruPushFront s (.node a) = .ok s') (hm : MainList s ids) (j : Nat) (hja : j ≠ a)
    (hj : j ∉ ids) : HashMap.find s'.nodes j = HashMap.find s.nodes j := by
  unfold LruPushFront at h
  obtain ⟨s1, h1, h⟩ := bind_ok h
  obtain ⟨s2, h2, h⟩ := bind_ok h
  obtain ⟨s3, h3, h⟩ := bind_ok h
  have hne : Ptr.node a ≠ .node j := by
    intro hx
    cases hx
    exact hja rfl
  rw [setNext_frame h j (by intro hx; cases hx), setPrev_frame h3 j (by rw [hm.1]; exact firstPtr_ne hj),
    setNext_frame h2 j hne, setPrev_frame h1 j hne]

/-- `Lookup` of a key that the index holds with a node of the main list, on a
quiescent shard that does not probe the fast hash table for the key and
samples no curve: the call returns true with the value of the index and moves
the node to the head of the main list; nothing else changes. -/
theorem Lookup_main {s : FrozenHotCache V} {xs ys : List Nat} {i : Nat}
    (hm : MainList s (xs ++ i :: ys)) (hnd : (xs ++ i :: ys).Nodup)
    {key : Nat} {hv : HashMapValue V}
    (hk : HashMap.find s.m_map key = some hv) (hnode : hv.m_list_node = .node i)
    (hfast : s.fast_cache_ready = false ∨ fastFind s key = none)
    (hfrozen : s.frozen_all = false) (hcons : s.fast_cache_construct = false)
    (hcurve : s.curve_flag = false) (value : V) (now : Nat) :
    ∃ s', Lookup s key value true now = .ok (true, hv.m_value, s') ∧
      MainList s' (i :: (xs ++ ys)) ∧
      (∀ j, j ∉ xs ++ i :: ys → HashMap.find s'.nodes j = HashMap.find s.nodes j) ∧
      (∀ j, (HashMap.find s'.nodes j).map ListNode.m_key =
        (HashMap.find s.nodes j).map ListNode.m_key) ∧
      s'.m_fast_head = s.m_fast_head ∧ s'.m_fast_tail = s.m_fast_tail ∧ SameData s s' ∧
      s'.allocated = s.allocated := by
  obtain ⟨s1, n, e1, hn, hlinked, hm1, hn1, f1, g1, fh1, ft1, d1, al1⟩ := LruRemove_main hm hnd
  have hnd' := List.nodup_append.mp hnd
  have hnd1 : (xs ++ ys).Nodup :=
    List.nodup_append.mpr ⟨hnd'.1, (List.nodup_cons.mp hnd'.2.1).2,
      fun j hx hy => hnd'.2.2 hx (List.mem_cons_of_mem _ hy)⟩
  have hi1 : i ∉ xs ++ ys := by
    intro hx
    rcases List.mem_append.mp hx with h | h
    · exact hnd'.2.2 h (List.mem_cons_self _ _)
    · exact (List.nodup_cons.mp hnd'.2.1).1 h
  obtain ⟨s2, e2, hm2, g2, fh2, ft2, d2, al2⟩ := LruPushFront_chain hm1 hnd1 hi1 hn1
  refine ⟨s2, ?_, hm2, fun j hj => ?_, fun j => by rw [g2 j, g1 j], by rw [fh2, fh1],
    by rw [ft2, ft1], d1.trans d2, by rw [al2, al1]⟩
  · unfold Lookup
    simp only [hfrozen, hk, hcons, hcurve, hnode, is_in_list, deref, hn, bind,
      Except.bind, pure, Except.pure, e1, e2, Bool.not_false, if_true, Bool.false_eq_true,
      if_false, ne_eq, hlinked, not_false_eq_true, decide_True]
    rcases hfast with h | h
    · simp [h]
    · simp [h]
  · have hji : j ≠ i := fun hx => hj (by rw [hx]; simp)
    have hj1 : j ∉ xs ++ ys := by
      intro hx
      rcases List.mem_append.mp hx with h | h
      · exact hj (List.mem_append_left _ h)
      · exact hj (List.mem_append_right _ (List.mem_cons_of_mem _ h))
    rw [LruPushFront_frame e2 hm1 j hji hj1, f1 j hj]

end FrozenHotCache

namespace FrozenHotCache

variable {V : Type}

/-- No call of `Lookup` records a tick, since `sample_generator` returns
false: with the statistics, `Lookup` does what it does without them and
leaves every ticker as it is. -/
theorem LookupStat_eq (s : FrozenHotCache V) (st : Statistics) (key : Nat) (value : V)
    (list_lock : Bool) (now : Nat) :
    LookupStat s st key value list_lock now =
      match Lookup s key value list_lock now with
      | .ok r => .ok (r.1, r.2.1, r.2.2, st)
      | .error e => .error e := by
  unfold LookupStat Lookup
  simp only [sample_generator, tick, Bool.false_eq_true, if_false, bind, Except.bind, pure,
    Except.pure]
  cases hr : (s.fast_cache_ready || s.frozen_all)
  all_goals cases hf : s.frozen_all
  all_goals cases hff : fastFind s key
  all_goals try simp only [Bool.false_eq_true, if_false, if_true]
  all_goals cases hm : HashMap.find s.m_map key
  all_goals try simp only []
  all_goals cases hc : s.fast_cache_construct
  all_goals try simp only [Bool.not_false, Bool.not_true, if_true, Bool.false_eq_true, if_false]
  all_goals cases hcv : s.curve_flag
  all_goals try simp only [Bool.false_eq_true, if_false, if_true]
  all_goals repeat' split
  all_goals first | rfl | (rename_i heq; cases heq; first | rfl | done)

/-- No call of `Insert` records a tick. -/
theorem InsertStat_eq (fuel : Nat) (s : FrozenHotCache V) (st : Statistics) (key : Nat)
    (value : V) (now : Nat) :
    InsertStat fuel s st key value now =
      match Insert fuel s key value now with
      | .ok r => .ok (r.1, r.2, st)
      | .error e => .error e := rfl

/-- No call records a tick: with the statistics, a call does what it does
without them and leaves every ticker as it is. -/
theorem stepStat_eq (fuel : Nat) (s : FrozenHotCache V) (st : Statistics) (c : Call V) :
    stepStat fuel s st c =
      match step fuel s c with
      | .ok r => .ok (r.1, r.2, st)
      | .error e => .error e := by
  cases c with
  | Insert key value now =>
    simp only [stepStat, step, InsertStat_eq]
    cases Insert fuel s key value now <;> rfl
  | Lookup key value now =>
    simp only [stepStat, step, LookupStat_eq]
    cases Lookup s key value true now <;> rfl
  | Erase key => rfl
  | ConstructTier => rfl
  | ConstructFastCache FC_size => rfl
  | DeleteFastCache => rfl

/-- A sequence of calls leaves every ticker as it is. -/
theorem runStat_eq (fuel : Nat) (st : Statistics) (cs : List (Call V)) :
    ∀ s : FrozenHotCache V, runStat fuel s st cs =
      match run fuel s cs with
      | .ok r => .ok (r.1, r.2, st)
      | .error e => .error e := by
  induction cs with
  | nil => intro s; rfl
  | cons c cs ih =>
    intro s
    simp only [runStat, run, stepStat_eq]
    cases hstep : step fuel s c with
    | error e => rfl
    | ok r =>
      obtain ⟨r1, s1⟩ := r
      simp only [ih s1]
      cases run fuel s1 cs with
      | error e => rfl
      | ok r2 => rfl

end FrozenHotCache

/-! ## `DeleteFastCache` splices the fast list in front of the main list -/

namespace FrozenHotCache

variable {V : Type}

/-- What `m_fast_head.m_next = q` does. -/
theorem setNext_fast_head (s : FrozenHotCache V) (q : Ptr) :
    ∃ s', setNext s .fast_head q = .ok s' ∧ s'.nodes = s.nodes ∧
      s'.m_head = s.m_head ∧ s'.m_tail = s.m_tail ∧ s'.m_fast_head.m_next = q ∧
      s'.m_fast_tail = s.m_fast_tail ∧ SameData s s' :=
  ⟨{ s with m_fast_head := { s.m_fast_head with m_next := q } }, rfl, rfl, rfl, rfl, rfl, rfl,
    SameData.refl _⟩

/-- On a quiescent shard whose fast list holds the nodes `f1 :: fr` and whose
main list holds the nodes `ms`, `DeleteFastCache` returns with the main list
`f1 :: fr ++ ms` and an empty fast list; it writes the first and the last node
of the fast list and the first node of the main list, and no other node. -/
theorem DeleteFastCache_splice {s : FrozenHotCache V} {f1 : Nat} {fr ms : List Nat}
    (hf : FastList s (f1 :: fr)) (hm : MainList s ms) (hnd : (f1 :: fr ++ ms).Nodup) :
    ∃ s', DeleteFastCache s = .ok s' ∧ MainList s' (f1 :: fr ++ ms) ∧ FastList s' [] ∧
      (∀ j, (HashMap.find s'.nodes j).map ListNode.m_key =
        (HashMap.find s.nodes j).map ListNode.m_key) ∧
      (∀ j, j ∉ f1 :: fr ++ ms → HashMap.find s'.nodes j = HashMap.find s.nodes j) ∧
      SameIndex s { s' with fast_cache_ready := s.fast_cache_ready } ∧
      s'.allocated = s.allocated := by
  obtain ⟨q1, q2, q3⟩ := hf
  obtain ⟨m1, m2, m3⟩ := hm
  have hnd' := List.nodup_append.mp hnd
  have hfs : (f1 :: fr).Nodup := hnd'.1
  have hms : ms.Nodup := hnd'.2.1
  have hdisj : ∀ j, j ∈ f1 :: fr → j ∉ ms := fun j hx hy => hnd'.2.2 hx hy
  have hq1 : s.m_fast_head.m_next = .node f1 := q1
  -- m_fast_head.m_next->m_prev = &m_head
  obtain ⟨n1, hn1, _, _⟩ := Chain.find_first q3
  obtain ⟨s1, e1, a1, b1, c1, d1, f1', g1⟩ := setPrev_node hn1 .head
  have k1 : Chain s1 .head (f1 :: fr) .fast_tail :=
    Chain.set_first q3 (List.nodup_cons.mp hfs).1 hn1 a1
  have hframe1 : ∀ j, j ∉ f1 :: fr → HashMap.find s1.nodes j = HashMap.find s.nodes j := by
    intro j hj
    rw [a1 j, if_neg (fun hx => hj (by rw [hx]; exact List.mem_cons_self _ _))]
  -- m_fast_tail.m_prev->m_next = node
  have hlast : s1.m_fast_tail.m_prev = lastPtr .head (f1 :: fr) := by
    rw [f1', q2]
    rfl
  obtain ⟨s2, e2, k2, h2, f2, g2, t2, fh2, ft2, d2, al2⟩ :=
    setNext_main_last k1 hfs (firstPtr ms .tail)
  -- m_head.m_next = m_fast_head.m_next
  obtain ⟨s3, e3, a3, b3, c3, d3, f3, g3⟩ := setNext_head s2 (.node f1)
  -- node->m_prev = m_fast_tail.m_prev
  have k3 : Chain s3 .head ms .tail :=
    Chain.frame m3 (fun j hj => by
      rw [a3, f2 j (fun hx => hdisj j hx hj), hframe1 j (fun hx => hdisj j hx hj)])
  obtain ⟨s4, e4, k4, h4, f4, g4, t4, fh4, ft4, d4, al4⟩ :=
    setPrev_main_first k3 hms (lastPtr .head (f1 :: fr))
  -- m_fast_head.m_next = &m_fast_tail; m_fast_tail.m_prev = &m_fast_head
  obtain ⟨s5, e5, a5, b5, c5, d5, f5, g5⟩ := setNext_fast_head s4 .fast_tail
  obtain ⟨s6, e6, a6, b6, c6, d6, f6, g6⟩ := setPrev_fast_tail s5 .fast_head
  have hsame : SameData s s6 :=
    g1.trans (d2.trans (g3.trans (d4.trans (g5.trans g6))))
  have hrun : DeleteFastCache s = .ok (fastClear
      (if s6.fast_cache_ready = true then { s6 with fast_cache_ready := false } else s6)) := by
    unfold DeleteFastCache
    have x2 : s1.m_fast_tail.m_prev = lastPtr .head (f1 :: fr) := hlast
    have x3 : s2.m_fast_head.m_next = .node f1 := by rw [fh2, d1, hq1]
    have x4 : s3.m_fast_tail.m_prev = lastPtr .head (f1 :: fr) := by rw [f3, ft2, hlast]
    simp only [bind, Except.bind, pure, Except.pure, hq1, e1, x2, m1, e2, x3, e3, x4, e4, e5, e6]
  have hmain6 : MainList s6 (f1 :: fr ++ ms) := by
    refine ⟨?_, ?_, ?_⟩
    · rw [b6, b5, t4, b3]
      rfl
    · rw [c6, c5, h4]
      show _ = lastPtr .head ((f1 :: fr) ++ ms)
      rw [lastPtr_append]
      by_cases hx : ms = []
      · rw [if_pos hx, hx]
        rfl
      · rw [if_neg hx, c3, t2, c1, m2]
        exact lastPtr_nonempty _ _ _ hx
    · have j1 : Chain s6 .head (f1 :: fr) (firstPtr ms .tail) :=
        Chain.frame k2 (fun j hj => by rw [a6, a5, f4 j (hdisj j hj), a3])
      have j2 : Chain s6 (lastPtr .head (f1 :: fr)) ms .tail :=
        Chain.frame k4 (fun j _ => by rw [a6, a5])
      exact Chain.join j1 j2
  have hfast6 : FastList s6 [] := ⟨by rw [d6, d5]; rfl, by rw [f6]; rfl, trivial⟩
  have hkeys : ∀ j, (HashMap.find s6.nodes j).map ListNode.m_key =
      (HashMap.find s.nodes j).map ListNode.m_key := by
    intro j
    rw [a6, a5, g4 j, a3, g2 j, map_key_of_update hn1 a1 rfl j]
  have hframe : ∀ j, j ∉ f1 :: fr ++ ms → HashMap.find s6.nodes j = HashMap.find s.nodes j := by
    intro j hj
    have hjf : j ∉ f1 :: fr := fun hx => hj (List.mem_append_left _ hx)
    have hjm : j ∉ ms := fun hx => hj (List.mem_append_right _ hx)
    rw [a6, a5, f4 j hjm, a3, f2 j hjf, hframe1 j hjf]
  have hal : s6.allocated = s.allocated := by
    rw [setPrev_allocated e6, setNext_allocated e5, al4, setNext_allocated e3, al2,
      setPrev_allocated e1]
  obtain ⟨z1, z2, z3, z4, z5, z6, z7, z8, z9, z10, z11, z12⟩ := hsame
  by_cases hr : s6.fast_cache_ready = true
  · rw [if_pos hr] at hrun
    exact ⟨_, hrun, hmain6.main_of_eq rfl rfl rfl, hfast6.fast_of_eq rfl rfl rfl, hkeys, hframe,
      ⟨z1, z2, z3, z5, rfl, z7, z8, z9, z10, z11⟩, hal⟩
  · rw [if_neg hr] at hrun
    exact ⟨_, hrun, hmain6.main_of_eq rfl rfl rfl, hfast6.fast_of_eq rfl rfl rfl, hkeys, hframe,
      ⟨z1, z2, z3, z5, rfl, z7, z8, z9, z10, z11⟩, hal⟩

end FrozenHotCache

/-! ## `Insert` into a full FrozenHot shard, and of a resident key -/

namespace FrozenHotCache

variable {V : Type}

/-- `Evict` on a shard whose main list ends with the node `t`, which carries a
key of the index that is not the tomb key: the node leaves the list and is
deleted, its key leaves the index, and the call returns true. -/
theorem Evict_tail {fuel : Nat} {s : FrozenHotCache V} {pre : List Nat} {t : Nat}
    (hm : MainList s (pre ++ [t])) (hnd : (pre ++ [t]).Nodup) {nt : ListNode}
    (hnt : HashMap.find s.nodes t = some nt) (htomb : nt.m_key ≠ kTombKey)
    {hvt : HashMapValue V} (hkt : HashMap.find s.m_map nt.m_key = some hvt)
    (hfuel : 1 ≤ fuel) :
    ∃ s', Evict fuel s = .ok (true, s') ∧ MainList s' pre ∧
      s'.m_map = HashMap.erase s.m_map nt.m_key ∧
      (∀ j, j ≠ t → j ∉ pre → HashMap.find s'.nodes j = HashMap.find s.nodes j) ∧
      (∀ j, j ≠ t → (HashMap.find s'.nodes j).map ListNode.m_key =
        (HashMap.find s.nodes j).map ListNode.m_key) ∧
      HashMap.find s'.nodes t = none ∧
      s'.m_fast_head = s.m_fast_head ∧ s'.m_fast_tail = s.m_fast_tail ∧
      SameData s { s' with m_map := s.m_map } ∧ s'.allocated = s.allocated := by
  obtain ⟨fuel, rfl⟩ : ∃ n, fuel = n + 1 := ⟨fuel - 1, by omega⟩
  obtain ⟨s1, n, e1, hn, _, hm1, hn1, f1, g1, fh1, ft1, d1, al1⟩ := LruRemove_main hm hnd
  rw [hnt] at hn
  have hnn : nt = n := Option.some.inj hn
  subst hnn
  rw [List.append_nil] at hm1
  have ht : t ∉ pre := fun hx =>
    (List.nodup_append.mp hnd).2.2 hx (List.mem_singleton_self t)
  have hmap1 : s1.m_map = s.m_map := d1.2.2.1
  have htail : s.m_tail.m_prev = .node t := by
    rw [hm.2.1, lastPtr_append]
    rfl
  refine ⟨{ s1 with
      m_map := HashMap.erase s1.m_map nt.m_key
      nodes := HashMap.erase s1.nodes t }, ?_, ?_, ?_, ?_, ?_, ?_, fh1, ft1, ?_, al1⟩
  · unfold Evict
    simp only [evictTombs, htail, deref, hnt, bind, Except.bind, pure, Except.pure, htomb,
      if_false, e1, hn1, hmap1, hkt, delete]
    rfl
  · refine ⟨hm1.1, hm1.2.1, Chain.frame hm1.2.2 (fun j hj => ?_)⟩
    show HashMap.find (HashMap.erase s1.nodes t) j = _
    rw [HashMap.find_erase, if_neg (fun hx => ht (by rw [← hx]; exact hj))]
  · show HashMap.erase s1.m_map nt.m_key = _
    rw [hmap1]
  · intro j hjt hj
    show HashMap.find (HashMap.erase s1.nodes t) j = _
    rw [HashMap.find_erase, if_neg hjt]
    exact f1 j (fun hx => by
      rcases List.mem_append.mp hx with h | h
      · exact hj h
      · exact hjt (List.mem_singleton.mp h))
  · intro j hjt
    show (HashMap.find (HashMap.erase s1.nodes t) j).map _ = _
    rw [HashMap.find_erase, if_neg hjt]
    exact g1 j
  · show HashMap.find (HashMap.erase s1.nodes t) t = none
    rw [HashMap.find_erase, if_pos rfl]
  · obtain ⟨z1, z2, z3, z4, z5, z6, z7, z8, z9, z10, z11, z12⟩ := d1
    exact ⟨z1, z2, rfl, z4, z5, z6, z7, z8, z9, z10, z11, z12⟩

end FrozenHotCache

namespace FrozenHotCache

variable {V : Type}

/-- `Insert` of a key that is not resident into a shard that is exactly full
and whose last node carries a key that is not the tomb key: the call evicts
the last node of the main list, pushes a new node for the key at the head of
the main list and returns true. -/
theorem Insert_full {fuel : Nat} {s : FrozenHotCache V} {pre : List Nat} {t : Nat}
    (hf : Filling s (pre ++ [t])) (hfull : s.m_size = s.m_max_size) {nt : ListNode}
    (hnt : HashMap.find s.nodes t = some nt) (htomb : nt.m_key ≠ kTombKey)
    (hfuel : 1 ≤ fuel) {key : Nat} (hkey : HashMap.find s.m_map key = none) (value : V)
    (now : Nat) :
    ∃ s', Insert fuel s key value now = .ok (true, s') ∧ MainList s' (s.allocated :: pre) ∧
      (s.allocated :: pre).Nodup ∧
      HashMap.find s'.m_map key = some ⟨value, .node s.allocated⟩ ∧
      s'.fast_cache_ready = s.fast_cache_ready ∧ s'.frozen_all = s.frozen_all ∧
      s'.fast_cache_construct = false ∧ s'.curve_flag = false ∧
      s'.m_fast_hash = s.m_fast_hash := by
  obtain ⟨⟨⟨m1, m2, m3⟩, hnd, hk, hsize, hf1, hf2⟩, hlt, hnone, he, hc, hcurve⟩ := hf
  have ha : s.allocated ∉ pre ++ [t] := fun h => Nat.lt_irrefl _ (hlt _ h)
  have hat : s.allocated ≠ t := fun h => ha (by rw [h]; simp)
  have hap : s.allocated ∉ pre := fun h => ha (List.mem_append_left _ h)
  have hndp : pre.Nodup := (List.nodup_append.mp hnd).1
  obtain ⟨s2, hs2⟩ : ∃ s2 : FrozenHotCache V, s2 = { s with
      m_map := HashMap.add s.m_map key ⟨value, .node s.allocated⟩
      nodes := HashMap.add s.nodes s.allocated
        { m_key := key, m_prev := .marker, m_next := .null, m_time := now }
      allocated := s.allocated + 1 } := ⟨_, rfl⟩
  have hmain2 : MainList s2 (pre ++ [t]) := by
    rw [hs2]
    refine ⟨m1, m2, Chain.frame m3 (fun j hj => ?_)⟩
    show HashMap.find (HashMap.add s.nodes s.allocated _) j = _
    rw [HashMap.find_add, if_neg (fun h => ha (by rw [h]; exact hj))]
  have hnt2 : HashMap.find s2.nodes t = some nt := by
    rw [hs2]
    show HashMap.find (HashMap.add s.nodes s.allocated _) t = _
    rw [HashMap.find_add, if_neg hat]
    exact hnt
  obtain ⟨hvt, hkt⟩ := Keyed.find_key hk (by simp : t ∈ pre ++ [t]) hnt
  have hne : key ≠ nt.m_key := by
    intro hx
    rw [hx, hkt] at hkey
    cases hkey
  have hkt2 : HashMap.find s2.m_map nt.m_key = some hvt := by
    rw [hs2]
    show HashMap.find (HashMap.add s.m_map key _) nt.m_key = _
    rw [HashMap.find_add, if_neg hne]
    exact hkt
  obtain ⟨s3, e3, hmain3, hmap3, f3, _, _, fh3, ft3, d3, al3⟩ :=
    Evict_tail hmain2 hnd hnt2 htomb hkt2 hfuel
  have hn3 : HashMap.find s3.nodes s.allocated =
      some { m_key := key, m_prev := .marker, m_next := .null, m_time := now } := by
    rw [f3 _ hat hap, hs2]
    show HashMap.find (HashMap.add s.nodes s.allocated _) _ = _
    rw [HashMap.find_add, if_pos rfl]
  obtain ⟨s4, e4, hmain4, _, _, _, d4, _⟩ := LruPushFront_chain hmain3 hndp hap hn3
  obtain ⟨z1, z2, z3, z4, z5, z6, z7, z8, z9, z10, z11, z12⟩ := d3
  obtain ⟨y1, y2, y3, y4, y5, y6, y7, y8, y9, y10, y11, y12⟩ := d4
  have z1' : s3.m_max_size = s2.m_max_size := z1
  have z6' : s3.fast_cache_ready = s2.fast_cache_ready := z6
  have z7' : s3.frozen_all = s2.frozen_all := z7
  have z8' : s3.fast_cache_construct = s2.fast_cache_construct := z8
  have z9' : s3.enable_insert = s2.enable_insert := z9
  have z10' : s3.curve_flag = s2.curve_flag := z10
  have z4' : s3.m_fast_hash = s2.m_fast_hash := z4
  rw [hs2] at z1' z6' z7' z8' z9' z10' z4' e3
  have x9 : s3.enable_insert = true := z9'.trans he
  have x10 : s3.curve_flag = false := z10'.trans hcurve
  have hnot : ¬ s.m_size > s4.m_max_size := by
    rw [y1, z1']
    show ¬ s.m_size > s.m_max_size
    omega
  refine ⟨s4, ?_, hmain4, List.nodup_cons.mpr ⟨hap, hndp⟩, ?_, by rw [y6, z6'],
    by rw [y7, z7'], by rw [y8, z8']; exact hc, by rw [y10]; exact x10, by rw [y4, z4']⟩
  · have hge : s.m_size ≥ s.m_max_size := by omega
    simp only [he, hc, hcurve] at e3
    unfold Insert
    simp only [he, hc, hcurve, newNode, hkey, Bool.not_true, Bool.false_eq_true, if_false,
      ge_iff_le, hge, pure, Except.pure, bind, Except.bind, e3, x9, x10, e4, Bool.not_false,
      if_true, if_neg hnot]
  · rw [y3, hmap3, hs2]
    show HashMap.find (HashMap.erase (HashMap.add s.m_map key _) nt.m_key) key = _
    rw [HashMap.find_erase, if_neg hne, HashMap.find_add, if_pos rfl]

/-- `Insert` of a resident key while inserts are enabled: the call returns
false; the index entry of the key holds the new value and points to a new
node, which is in no list. -/
theorem Insert_resident_node (fuel : Nat) {s : FrozenHotCache V} (he : s.enable_insert = true)
    {key : Nat} {hv : HashMapValue V} (hk : HashMap.find s.m_map key = some hv) (value : V)
    (now : Nat) :
    Insert fuel s key value now = .ok (false,
      { s with
        m_map := HashMap.update s.m_map key ⟨value, .node s.allocated⟩
        nodes := HashMap.add s.nodes s.allocated
          { m_key := key, m_prev := .marker, m_next := .null, m_time := now }
        allocated := s.allocated + 1 }) := by
  unfold Insert
  simp only [he, newNode, hk, Bool.not_true, Bool.false_eq_true, if_false]

/-- `Lookup` of a key whose index entry points to a node that is in no list,
on a quiescent shard that does not probe the fast hash table for the key and
samples no curve: the call returns true with the value of the index and
changes nothing. -/
theorem Lookup_unlinked {s : FrozenHotCache V} {key : Nat} {hv : HashMapValue V}
    (hk : HashMap.find s.m_map key = some hv) {i : Nat} (hnode : hv.m_list_node = .node i)
    {n : ListNode} (hn : HashMap.find s.nodes i = some n) (hout : n.m_prev = .marker)
    (hfast : s.fast_cache_ready = false ∨ fastFind s key = none)
    (hfrozen : s.frozen_all = false) (hcons : s.fast_cache_construct = false)
    (hcurve : s.curve_flag = false) (value : V) (now : Nat) :
    Lookup s key value true now = .ok (true, hv.m_value, s) := by
  unfold Lookup
  simp only [hfrozen, hk, hcons, hcurve, hnode, is_in_list, deref, hn, bind,
    Except.bind, pure, Except.pure, Bool.not_false, if_true, Bool.false_eq_true,
    if_false, ne_eq, hout, not_true_eq_false, decide_False]
  rcases hfast with h | h
  · simp [h]
  · simp [h]

end FrozenHotCache

/-! ## Inserts of distinct keys link the index to the nodes -/

namespace FrozenHotCache

variable {V : Type}

theorem HashMap_find_mem {β : Type} {m : HashMap β} {k : Nat} {b : β}
    (h : HashMap.find m k = some b) : (k, b) ∈ m := by
  induction m with
  | nil => cases h
  | cons p m ih =>
    obtain ⟨q, c⟩ := p
    have hf : HashMap.find ((q, c) :: m) k = if q = k then some c else HashMap.find m k :=
      HashMap.find_add m q c k
    rw [hf] at h
    by_cases hq : q = k
    · rw [if_pos hq] at h
      rw [hq, Option.some.inj h]
      exact List.mem_cons_self _ _
    · rw [if_neg hq] at h
      exact List.mem_cons_of_mem _ (ih h)

/-- `Insert` of a key that is not resident into a shard that is not full and
has seen only inserts, with what it keeps: the flags of the fast tier, the
keys of the nodes, and the link from the index to the nodes. -/
theorem Insert_fresh_linked {fuel : Nat} {s : FrozenHotCache V} {ids : List Nat}
    (hf : Filling s ids) (hroom : s.m_size < s.m_max_size) (h64 : s.m_max_size < 2 ^ 64)
    {key : Nat} (hkey : HashMap.find s.m_map key = none) (value : V) (now : Nat) :
    ∃ s', Insert fuel s key value now = .ok (true, s') ∧ Filling s' (s.allocated :: ids) ∧
      s'.m_max_size = s.m_max_size ∧ s'.m_size = s.m_size + 1 ∧
      s'.m_map = HashMap.add s.m_map key ⟨value, .node s.allocated⟩ ∧
      s'.m_fast_hash = s.m_fast_hash ∧
      entries s' (s.allocated :: ids) = (key, value) :: entries s ids ∧
      s'.fast_cache_ready = s.fast_cache_ready ∧ s'.frozen_all = s.frozen_all ∧
      (HashMap.find s'.nodes s.allocated).map ListNode.m_key = some key ∧
      (∀ j, j ≠ s.allocated → (HashMap.find s'.nodes j).map ListNode.m_key =
        (HashMap.find s.nodes j).map ListNode.m_key) ∧
      (IndexIn s ids → IndexIn s' (s.allocated :: ids)) := by
  obtain ⟨s', e, w1, w2, w3, w4, w5, w6⟩ := Insert_fresh hf hroom h64 hkey value now
  obtain ⟨⟨⟨m1, m2, m3⟩, hnd, hk, hsize, hf1, hf2⟩, hlt, hnone, he, hc, hcurve⟩ := hf
  have ha : s.allocated ∉ ids := fun h => Nat.lt_irrefl _ (hlt _ h)
  have hmain2 : MainList ({ s with
      m_map := HashMap.add s.m_map key ⟨value, .node s.allocated⟩
      nodes := HashMap.add s.nodes s.allocated
        { m_key := key, m_prev := .marker, m_next := .null, m_time := now }
      allocated := s.allocated + 1 } : FrozenHotCache V) ids := by
    refine ⟨m1, m2, Chain.frame m3 (fun j hj => ?_)⟩
    show HashMap.find (HashMap.add s.nodes s.allocated _) j = _
    rw [HashMap.find_add, if_neg (fun h => ha (by rw [h]; exact hj))]
  have hn2 : HashMap.find ({ s with
      m_map := HashMap.add s.m_map key ⟨value, .node s.allocated⟩
      nodes := HashMap.add s.nodes s.allocated
        { m_key := key, m_prev := .marker, m_next := .null, m_time := now }
      allocated := s.allocated + 1 } : FrozenHotCache V).nodes s.allocated =
      some { m_key := key, m_prev := .marker, m_next := .null, m_time := now } := by
    show HashMap.find (HashMap.add s.nodes s.allocated _) _ = _
    rw [HashMap.find_add, if_pos rfl]
  obtain ⟨s3, e3, _, hkeys3, _, _, same3, _⟩ := LruPushFront_chain hmain2 hnd ha hn2
  obtain ⟨z1, z2, z3, z4, z5, z6, z7, z8, z9, z10, z11, z12⟩ := same3
  have hmax : s3.m_max_size = s.m_max_size := z1
  have hsz : s3.m_size = s.m_size := z2
  have hnot : ¬ s3.m_size > s3.m_max_size := by rw [hmax, hsz]; omega
  have hrun : Insert fuel s key value now =
      .ok (true, { s3 with m_size := u64 (s3.m_size + 1) }) := by
    simp only [he, hc, hcurve] at e3
    unfold Insert
    simp only [he, hc, hcurve, newNode, hkey, Bool.not_true, Bool.false_eq_true, if_false,
      ge_iff_le, Nat.not_le.mpr hroom, pure, Except.pure, bind, Except.bind, e3, Bool.not_false,
      if_true, if_neg hnot]
  have hs' : s' = { s3 with m_size := u64 (s3.m_size + 1) } := by
    rw [e] at hrun
    simp only [Except.ok.injEq, Prod.mk.injEq, true_and] at hrun
    exact hrun
  have hnew : (HashMap.find s'.nodes s.allocated).map ListNode.m_key = some key := by
    rw [hs']
    show (HashMap.find s3.nodes s.allocated).map ListNode.m_key = some key
    rw [hkeys3, hn2]
    rfl
  have hold : ∀ j, j ≠ s.allocated → (HashMap.find s'.nodes j).map ListNode.m_key =
      (HashMap.find s.nodes j).map ListNode.m_key := by
    intro j hj
    rw [hs']
    show (HashMap.find s3.nodes j).map ListNode.m_key = _
    rw [hkeys3]
    show (HashMap.find (HashMap.add s.nodes s.allocated _) j).map _ = _
    rw [HashMap.find_add, if_neg (fun hx => hj hx.symm)]
  refine ⟨s', e, w1, w2, w3, w4, w5, w6, ?_, ?_, hnew, hold, fun hidx p hp => ?_⟩
  · rw [hs']
    exact z6
  · rw [hs']
    exact z7
  · rw [w4] at hp
    rcases List.mem_cons.mp hp with h | h
    · rw [h]
      exact ⟨s.allocated, List.mem_cons_self _ _, rfl, hnew⟩
    · obtain ⟨i, hi, q1, q2⟩ := hidx p h
      refine ⟨i, List.mem_cons_of_mem _ hi, q1, ?_⟩
      rw [hold i (fun hx => ha (by rw [← hx]; exact hi))]
      exact q2

/-- Inserts of distinct keys that are not resident, into a shard that has seen
only inserts and has room for them, with what they keep: the index is linked
to the nodes, and it holds the pairs inserted on top of what it held. -/
theorem run_inserts_linked (fuel : Nat) :
    ∀ (kts : List (Nat × V × Nat)) (s : FrozenHotCache V) (ids : List Nat),
      Filling s ids → IndexIn s ids → s.m_size + kts.length ≤ s.m_max_size →
      s.m_max_size < 2 ^ 64 →
      (kts.map Prod.fst).Nodup → (∀ k ∈ kts.map Prod.fst, HashMap.find s.m_map k = none) →
      ∃ s' ids', run fuel s (insertCalls kts) = .ok (kts.map (fun _ => ⟨true, none⟩), s') ∧
        Filling s' (ids' ++ ids) ∧ IndexIn s' (ids' ++ ids) ∧ ids'.length = kts.length ∧
        s'.m_max_size = s.m_max_size ∧ s'.m_size = s.m_size + kts.length ∧
        s'.m_fast_hash = s.m_fast_hash ∧
        s'.fast_cache_ready = s.fast_cache_ready ∧ s'.frozen_all = s.frozen_all ∧
        (∀ k, (HashMap.find s'.m_map k).map HashMapValue.m_value =
          match HashMap.find (kts.map fun p => (p.1, p.2.1)) k with
          | some v => some v
          | none => (HashMap.find s.m_map k).map HashMapValue.m_value) := by
  intro kts
  induction kts with
  | nil =>
    intro s ids hf hidx _ _ _ _
    exact ⟨s, [], rfl, hf, hidx, rfl, rfl, rfl, rfl, rfl, rfl, fun k => rfl⟩
  | cons p rest ih =>
    intro s ids hf hidx hroom h64 hnd hnone
    obtain ⟨k, v, t⟩ := p
    have hlen : ((k, v, t) :: rest).length = rest.length + 1 := rfl
    rw [hlen] at hroom
    obtain ⟨s1, e1, f1, x1, x2, x3, x4, _, x6, x7, _, _, x10⟩ :=
      @Insert_fresh_linked V fuel s ids hf (by omega) h64 k
        (hnone k (List.mem_cons_self _ _)) v t
    have hnd' : k ∉ rest.map Prod.fst ∧ (rest.map Prod.fst).Nodup := List.nodup_cons.mp hnd
    obtain ⟨s', ids', e2, f2, i2, y1, y2, y3, y4, y5, y6, y7⟩ := ih s1 (s.allocated :: ids) f1
      (x10 hidx) (by rw [x1, x2]; omega) (by rw [x1]; exact h64) hnd'.2
      (fun k' hk' => by
        rw [x3, HashMap.find_add, if_neg (fun h => hnd'.1 (by rw [h]; exact hk'))]
        exact hnone k' (List.mem_cons_of_mem _ hk'))
    refine ⟨s', ids' ++ [s.allocated], ?_, ?_, ?_, ?_, y2.trans x1, ?_, y4.trans x4,
      y5.trans x6, y6.trans x7, fun k' => ?_⟩
    · show run fuel s (Call.Insert k v t :: insertCalls rest) = _
      simp only [run, step, e1, e2, List.map_cons]
    · rw [List.append_assoc]; exact f2
    · rw [List.append_assoc]; exact i2
    · rw [List.length_append, y1]; rfl
    · rw [y3, x2, hlen]; omega
    · rw [y7 k']
      show _ = match HashMap.find ((k, v) :: rest.map fun p => (p.1, p.2.1)) k' with
        | some v => some v
        | none => (HashMap.find s.m_map k').map HashMapValue.m_value
      have hfc : HashMap.find ((k, v) :: rest.map fun p => (p.1, p.2.1)) k' =
          if k = k' then some v else HashMap.find (rest.map fun p => (p.1, p.2.1)) k' :=
        HashMap.find_add _ k v k'
      rw [hfc]
      by_cases hkk : k = k'
      · rw [if_pos hkk]
        have hnot : HashMap.find (rest.map fun p => (p.1, p.2.1)) k' = none := by
          cases hfr : HashMap.find (rest.map fun p => (p.1, p.2.1)) k' with
          | none => rfl
          | some v' =>
            exfalso
            have hm := HashMap_find_mem hfr
            apply hnd'.1
            rw [hkk]
            obtain ⟨q, hq, hqe⟩ := List.mem_map.mp hm
            exact List.mem_map.mpr ⟨q, hq, by rw [← (Prod.mk.inj hqe).1]⟩
        rw [hnot, x3, HashMap.find_add, if_pos hkk]
        rfl
      · rw [if_neg hkk, x3, HashMap.find_add, if_neg hkk]

theorem IndexIn.index_new (capacity : Nat) : IndexIn (new capacity : FrozenHotCache V) [] := by
  intro p hp
  cases hp

end FrozenHotCache

/-! ## `Erase` of a FrozenHot shard -/

/-- C22, amended. `Erase` of a FrozenHot shard returns false and changes
nothing, in every state and for every key. So on a quiescent shard in the
Dynamic state (main list `ids`, no fast tier, inserts enabled, no curve
sampled, capacity at least 1, size at most the capacity, no node with the
reserved tomb key), after `Insert(k, v)`, which returns with at least one unit
of fuel for its eviction, `Erase(k)` returns false and leaves the shard as it
is, and the following `Lookup(k)` returns true with the value `v`. -/
theorem frozenhot_erase_is_a_stub {V : Type} (fuel : Nat) (hfuel : 1 ≤ fuel)
    (s : FrozenHotCache V) (ids : List Nat) (hf : FrozenHotCache.Filling s ids)
    (hready : s.fast_cache_ready = false) (hfrozen : s.frozen_all = false)
    (hcap : 1 ≤ s.m_max_size) (hsize : s.m_size ≤ s.m_max_size) (h64 : s.m_max_size < 2 ^ 64)
    (htomb : ∀ i ∈ ids, ∀ n, HashMap.find s.nodes i = some n →
      n.m_key ≠ FrozenHotCache.kTombKey)
    (k : Nat) (v value : V) (now now' : Nat) :
    (∀ (t : FrozenHotCache V) (key : Nat), FrozenHotCache.Erase t key = (false, t)) ∧
    ∃ b s1 s2, FrozenHotCache.Insert fuel s k v now = .ok (b, s1) ∧
      FrozenHotCache.Erase s1 k = (false, s1) ∧
      FrozenHotCache.Lookup (FrozenHotCache.Erase s1 k).2 k value true now'
        = .ok (true, v, s2) := by
  refine ⟨fun _ _ => rfl, ?_⟩
  have hf0 := hf
  obtain ⟨⟨hmain, hnd, hk, hsz, hf1, hf2⟩, hlt, hnone, he, hc, hcurve⟩ := hf
  cases hres : HashMap.find s.m_map k with
  | some hv =>
    -- the key is resident
    obtain ⟨s1, e1, hk1, hn1, g1, g2, g3, g4⟩ : ∃ s1 : FrozenHotCache V,
        FrozenHotCache.Insert fuel s k v now = .ok (false, s1) ∧
        HashMap.find s1.m_map k = some ⟨v, .node s.allocated⟩ ∧
        HashMap.find s1.nodes s.allocated =
          some { m_key := k, m_prev := .marker, m_next := .null, m_time := now } ∧
        s1.fast_cache_ready = s.fast_cache_ready ∧ s1.frozen_all = s.frozen_all ∧
        s1.fast_cache_construct = s.fast_cache_construct ∧ s1.curve_flag = s.curve_flag := by
      refine ⟨_, FrozenHotCache.Insert_resident_node fuel he hres v now, ?_, ?_, rfl, rfl, rfl,
        rfl⟩
      · show HashMap.find (HashMap.update s.m_map k _) k = _
        rw [FrozenHotCache.find_update_some hres, if_pos rfl]
      · show HashMap.find (HashMap.add s.nodes s.allocated _) s.allocated = _
        rw [HashMap.find_add, if_pos rfl]
    exact ⟨false, s1, s1, e1, rfl, FrozenHotCache.Lookup_unlinked hk1 rfl hn1 rfl
      (Or.inl (g1.trans hready)) (g2.trans hfrozen) (g3.trans hc) (g4.trans hcurve) value now'⟩
  | none =>
    by_cases hroom : s.m_size < s.m_max_size
    · -- the key is new and the shard has room
      obtain ⟨s1, e1, f1, _, _, x3, _, _, x6, x7, _⟩ :=
        FrozenHotCache.Insert_fresh_linked hf0 hroom h64 hres v now
      have hk1 : HashMap.find s1.m_map k = some ⟨v, .node s.allocated⟩ := by
        rw [x3, HashMap.find_add, if_pos rfl]
      obtain ⟨s2, e2, _⟩ := @FrozenHotCache.Lookup_main V s1 [] ids s.allocated f1.1.1 f1.1.2.1
        k _ hk1 rfl (Or.inl (x6.trans hready)) (x7.trans hfrozen) f1.2.2.2.2.1 f1.2.2.2.2.2
        value now'
      exact ⟨true, s1, s2, e1, rfl, e2⟩
    · -- the key is new and the shard is full
      have hfull : s.m_size = s.m_max_size := by omega
      rcases List.eq_nil_or_concat ids with hnil | ⟨pre, t, hids⟩
      · rw [hnil] at hsz
        have : s.m_size = 0 := hsz
        omega
      rw [List.concat_eq_append] at hids
      subst hids
      obtain ⟨nt, hnt⟩ := FrozenHotCache.Chain.find_mem hmain.2.2
        (by simp : t ∈ pre ++ [t])
      obtain ⟨s1, e1, hm1, hnd1, hk1, r1, r2, r3, r4, _⟩ :=
        FrozenHotCache.Insert_full hf0 hfull hnt (htomb t (by simp) nt hnt) hfuel hres v now
      obtain ⟨s2, e2, _⟩ := @FrozenHotCache.Lookup_main V s1 [] pre s.allocated hm1 hnd1
        k _ hk1 rfl (Or.inl (r1.trans hready)) (r2.trans hfrozen) r3 r4 value now'
      exact ⟨true, s1, s2, e1, rfl, e2⟩

theorem filling_sampleDynamic : FrozenHotCache.Filling FrozenHotCache.sampleDynamic [1, 0] := by
  refine ⟨by decide, by decide, fun i hi => ?_, rfl, rfl, rfl⟩
  show HashMap.find [(1, _), (0, _)] i = none
  have hi' : 2 ≤ i := hi
  have h1 : (1 : Nat) ≠ i := by omega
  have h0 : (0 : Nat) ≠ i := by omega
  rw [show HashMap.find [(1, _), (0, _)] i = if 1 = i then _ else HashMap.find [(0, _)] i from
    HashMap.find_add _ _ _ _, if_neg h1]
  rw [show HashMap.find [(0, _)] i = if 0 = i then _ else HashMap.find [] i from
    HashMap.find_add _ _ _ _, if_neg h0]
  rfl

set_option maxRecDepth 100000 in
theorem frozenhot_erase_is_a_stub_witness :
    FrozenHotCache.Filling FrozenHotCache.sampleDynamic [1, 0] ∧
    FrozenHotCache.Insert 1 FrozenHotCache.sampleDynamic 7 70 0
      = .ok (true, (FrozenHotCache.after 20 [.Insert 5 50 0, .Insert 6 60 0, .Insert 7 70 0])) ∧
    ∃ b s1 s2, FrozenHotCache.Insert 1 FrozenHotCache.sampleDynamic 7 70 0 = .ok (b, s1) ∧
      FrozenHotCache.Erase s1 7 = (false, s1) ∧
      FrozenHotCache.Lookup (FrozenHotCache.Erase s1 7).2 7 0 true 0 = .ok (true, 70, s2) :=
  ⟨filling_sampleDynamic, by decide,
    (frozenhot_erase_is_a_stub 1 (by decide) FrozenHotCache.sampleDynamic [1, 0]
      filling_sampleDynamic rfl rfl (by decide) (by decide) (by decide)
      (by decide) 7 70 0 0 0).2⟩

/-- C22, the claim at a failing input. On a shard of capacity 2 in the Dynamic
state the calls `Insert(5, 50)`, `Erase(5)`, `Lookup(5)` return true, false
and true with the value 50: `Erase` has removed nothing and the `Lookup` does
not miss. -/
theorem frozenhot_erase_then_lookup_hits :
    FrozenHotCache.run 3 (FrozenHotCache.new 2) [.Insert 5 50 0, .Erase 5, .Lookup 5 0 0]
      = .ok ([⟨true, none⟩, ⟨false, none⟩, ⟨true, some 50⟩],
          FrozenHotCache.after 2 [.Insert 5 50 0]) := by
  decide

/-! ## Lookups on a FrozenHot shard in the Frozen-partial state -/

namespace FrozenHotCache

variable {V : Type}

theorem HashMap_find_of_mem {β : Type} {m : HashMap β} {k : Nat} {b : β}
    (h : (k, b) ∈ m) : ∃ b', HashMap.find m k = some b' := by
  induction m with
  | nil => cases h
  | cons p m ih =>
    obtain ⟨q, c⟩ := p
    have hf : HashMap.find ((q, c) :: m) k = if q = k then some c else HashMap.find m k :=
      HashMap.find_add m q c k
    rw [hf]
    by_cases hq : q = k
    · rw [if_pos hq]
      exact ⟨c, rfl⟩
    · rw [if_neg hq]
      rcases List.mem_cons.mp h with h1 | h1
      · exact absurd (Prod.mk.inj h1).1.symm hq
      · exact ih h1

theorem mem_entries {s : FrozenHotCache V} {ids : List Nat} {i : Nat} (hi : i ∈ ids)
    {n : ListNode} (hn : HashMap.find s.nodes i = some n) {hv : HashMapValue V}
    (hm : HashMap.find s.m_map n.m_key = some hv) : (n.m_key, hv.m_value) ∈ entries s ids := by
  unfold entries
  rw [List.mem_filterMap]
  exact ⟨i, hi, by simp only [hn, hm, Option.some_bind, Option.map_some']⟩

/-- `ConstructFastCache` leaves `curve_flag` as it is. -/
theorem ConstructFastCache_curve {fuel FC_size : Nat} {s : FrozenHotCache V}
    {r : Bool × FrozenHotCache V} (h : ConstructFastCache fuel s FC_size = .ok r) :
    r.2.curve_flag = s.curve_flag := by
  unfold ConstructFastCache at h
  by_cases c1 : FC_size > s.m_max_size
  · rw [if_pos c1] at h; cases h
  rw [if_neg c1] at h
  by_cases c2 : s.m_fast_head.m_next ≠ .fast_tail
  · rw [if_pos c2] at h; cases h
  rw [if_neg c2] at h
  by_cases c3 : s.m_fast_tail.m_prev ≠ .fast_head
  · rw [if_pos c3] at h; cases h
  rw [if_neg c3] at h
  have h0 : SameIndex s
      (if s.eviction_counter > 0 then { s with eviction_counter := 0 } else s) := by
    by_cases c4 : s.eviction_counter > 0
    · rw [if_pos c4]; exact SameIndex.refl_index _
    · rw [if_neg c4]; exact SameIndex.refl_index _
  generalize (if s.eviction_counter > 0 then { s with eviction_counter := 0 } else s) = s0 at h h0
  obtain ⟨s1, h1, h⟩ := bind_ok h
  obtain ⟨s2, h2, h⟩ := bind_ok h
  have hA := setNext_same h1
  obtain ⟨i1, _, _⟩ := fastLoop_index _ _ fuel _ _ _ _ _ h2
  cases h
  obtain ⟨a1, a2, a3, a4, a5, a6, a7, a8, a9, a10⟩ := i1
  obtain ⟨b1, b2, b3, b4, b5, b6, b7, b8, b9, b10⟩ := hA.index
  obtain ⟨c1, c2, c3, c4, c5, c6, c7, c8, c9, c10⟩ := h0
  exact a9.trans (b9.trans c9)

/-- A shard in the Dynamic state with the index linked to its nodes is in the
Frozen-partial state after `ConstructFastCache`. -/
theorem Partial.of_construct {fuel FC_size : Nat} {s : FrozenHotCache V} {ids : List Nat}
    (hd : Dynamic s ids) (hidx : IndexIn s ids) (hfh : s.m_fast_hash = [])
    (hfrozen : s.frozen_all = false) (hcurve : s.curve_flag = false)
    (h1 : 20 ≤ FC_size) (hFC : FC_size ≤ s.m_max_size)
    (hlen : FC_size ≤ ids.length) (h2 : FC_size < 2 ^ 64) (hfuel : FC_size - 19 ≤ fuel) :
    ∃ s', ConstructFastCache fuel s FC_size = .ok (true, s') ∧
      Partial s' (ids.take (FC_size - 19)) (ids.drop (FC_size - 19)) ∧ s'.m_map = s.m_map := by
  obtain ⟨s', e, q1, q2, q3, q4, _, _, q7, q8, _, _, q11⟩ :=
    ConstructFastCache_dynamic hd h1 hFC hlen h2 hfuel
  obtain ⟨_, _, p3, _, p5, _, _, p8⟩ := ConstructFastCache_index e
  have pc := ConstructFastCache_curve e
  have hff : FastFromIndex s := by
    intro key v hk
    unfold fastFind at hk
    rw [hfh] at hk
    cases hk
  refine ⟨s', e, ⟨q2, q3, by rw [List.take_append_drop]; exact hd.2.1, q7, p5.trans hfrozen, p3,
    pc.trans hcurve, p8 hff, fun p hp hnone => ?_⟩, q4⟩
  rw [q4] at hp
  obtain ⟨i, hi, r1, r2⟩ := hidx p hp
  refine ⟨i, ?_, r1⟩
  rw [← List.take_append_drop (FC_size - 19) ids] at hi
  rcases List.mem_append.mp hi with h | h
  · exfalso
    cases hn : HashMap.find s.nodes i with
    | none => rw [hn] at r2; cases r2
    | some n =>
      rw [hn] at r2
      have hkey : n.m_key = p.1 := Option.some.inj r2
      obtain ⟨hv, hm⟩ := HashMap_find_of_mem hp
      rw [← hkey] at hm
      have hmem := mem_entries h hn hm
      have hmem' : (n.m_key, hv.m_value) ∈ s'.m_fast_hash := by
        rw [q1, hfh, List.append_nil]
        exact List.mem_reverse.mpr hmem
      obtain ⟨b', hb'⟩ := HashMap_find_of_mem hmem'
      unfold fastFind at hnone
      rw [← hkey, hb'] at hnone
      cases hnone
  · exact h

/-- `Lookup` of a resident key on a shard in the Frozen-partial state returns
true with the value of the index; the shard stays in the Frozen-partial state
with the same fast list, index and fast hash table. -/
theorem Partial.partial_lookup {s : FrozenHotCache V} {fs ms : List Nat} (hp : Partial s fs ms)
    {key : Nat} {hv : HashMapValue V} (hk : HashMap.find s.m_map key = some hv)
    (value : V) (now : Nat) :
    ∃ s' ms', Lookup s key value true now = .ok (true, hv.m_value, s') ∧ Partial s' fs ms' ∧
      s'.m_map = s.m_map := by
  obtain ⟨hfl, hml, hnd, hready, hfrozen, hcons, hcurve, hff, hlink⟩ := hp
  cases hfast : fastFind s key with
  | some v =>
    obtain ⟨p, hp⟩ := hff key v hfast
    rw [hk] at hp
    have hveq : hv.m_value = v := by rw [Option.some.inj hp]
    rw [hveq]
    exact ⟨s, ms, Lookup_fast s hready hfast value true now,
      ⟨hfl, hml, hnd, hready, hfrozen, hcons, hcurve, hff, hlink⟩, rfl⟩
  | none =>
    obtain ⟨i, hi, hnode⟩ := hlink (key, hv) (HashMap_find_mem hk) hfast
    obtain ⟨xs, ys, hsplit⟩ := List.append_of_mem hi
    subst hsplit
    have hnd' := List.nodup_append.mp hnd
    obtain ⟨s', e, hm', f', _, fh', ft', d', _⟩ :=
      Lookup_main hml hnd'.2.1 hk hnode (Or.inr hfast) hfrozen hcons hcurve value now
    have hperm : (fs ++ i :: (xs ++ ys)).Perm (fs ++ (xs ++ i :: ys)) :=
      List.Perm.append_left fs List.perm_middle.symm
    obtain ⟨z1, z2, z3, z4, z5, z6, z7, z8, z9, z10, z11, z12⟩ := d'
    refine ⟨s', i :: (xs ++ ys), e, ⟨?_, hm', hperm.nodup_iff.mpr hnd, z6.trans hready,
      z7.trans hfrozen, z8.trans hcons, z10.trans hcurve, ?_, fun p hp hnone => ?_⟩, z3⟩
    · refine ⟨by rw [fh']; exact hfl.1, by rw [ft']; exact hfl.2.1,
        Chain.frame hfl.2.2 (fun j hj => f' j (fun hx => hnd'.2.2 hj hx))⟩
    · exact hff.of_same ⟨z1, z2, z3, z4, z5, z6, z7, z8, z9, z10, z11, z12⟩
    · rw [z3] at hp
      have hnone' : fastFind s p.1 = none := by
        unfold fastFind at hnone ⊢
        rw [← z4]
        exact hnone
      obtain ⟨j, hj, hjn⟩ := hlink p hp hnone'
      exact ⟨j, (List.perm_middle.mem_iff).mp hj, hjn⟩

/-- Lookups of resident keys on a shard in the Frozen-partial state: each
returns true with the value of the index. -/
theorem Partial.run_lookups (fuel : Nat) :
    ∀ (lks : List (Nat × V × Nat)) (s : FrozenHotCache V) (fs ms : List Nat),
      Partial s fs ms → (∀ l ∈ lks, (HashMap.find s.m_map l.1).isSome = true) →
      ∃ s' ms', run fuel s (lookupCalls lks) =
          .ok (lks.map (fun l => ⟨true, (HashMap.find s.m_map l.1).map HashMapValue.m_value⟩),
            s') ∧
        Partial s' fs ms' ∧ s'.m_map = s.m_map := by
  intro lks
  induction lks with
  | nil =>
    intro s fs ms hp _
    exact ⟨s, ms, rfl, hp, rfl⟩
  | cons l rest ih =>
    intro s fs ms hp hres
    obtain ⟨k, value, now⟩ := l
    obtain ⟨hv, hk⟩ := Option.isSome_iff_exists.mp (hres _ (List.mem_cons_self _ _))
    have hk' : HashMap.find s.m_map k = some hv := hk
    obtain ⟨s1, ms1, e1, hp1, hm1⟩ := hp.partial_lookup hk' value now
    obtain ⟨s', ms', e2, hp2, hm2⟩ := ih s1 fs ms1 hp1 (fun l hl => by
      rw [hm1]
      exact hres l (List.mem_cons_of_mem _ hl))
    refine ⟨s', ms', ?_, hp2, hm2.trans hm1⟩
    show run fuel s (Call.Lookup k value now :: lookupCalls rest) = _
    simp only [run, step, e1, e2, List.map_cons, hm1, hk']
    rfl

end FrozenHotCache

/-! ## Lookups after `ConstructFastCache` and the tickers -/

/-- C24, amended. A new FrozenHot shard of capacity `C < 2 ^ 31` is filled by
inserts of `C` distinct keys and `ConstructFastCache` is called with
`20 ≤ FC_size ≤ C` (`FC_size` is `ratio * C`, so `C / 2` for the ratio 0.5).
Both return, and after them every `Lookup` of a key among the most recent
`FC_size` inserts, in any number and order, returns true with the value
inserted for the key and leaves every ticker as it is: `FAST_CACHE_HIT` is
not incremented, because `sample_generator` returns false, and `CACHE_HIT` is
unchanged. In the scenario of capacity 100 (`Insert` of `1..100`,
`ConstructFastCache(0.5)`, `Lookup` of `51..100` twice) the 100 lookups all
hit, each with the value of its key, and the counts of `FAST_CACHE_HIT` and
`CACHE_HIT` are 0 at the end. -/
theorem frozenhot_fast_tier_lookups {V : Type} (fuel C FC_size : Nat) (h20 : 20 ≤ FC_size)
    (hFC : FC_size ≤ C) (hC : C < 2 ^ 31) (hfuel : FC_size - 19 ≤ fuel)
    (kts : List (Nat × V × Nat)) (hlen : kts.length = C) (hnd : (kts.map Prod.fst).Nodup) :
    (∃ s s', FrozenHotCache.run fuel (FrozenHotCache.new C) (FrozenHotCache.insertCalls kts)
        = .ok (kts.map (fun _ => ⟨true, none⟩), s) ∧
      FrozenHotCache.ConstructFastCache fuel s FC_size = .ok (true, s') ∧
      ∀ (lks : List (Nat × V × Nat)) (st : Statistics),
        (∀ l ∈ lks, l.1 ∈ (kts.drop (C - FC_size)).map Prod.fst) →
        ∃ s'', FrozenHotCache.runStat fuel s' st (FrozenHotCache.lookupCalls lks) =
          .ok (lks.map (fun l =>
            ⟨true, HashMap.find (kts.map fun p => (p.1, p.2.1)) l.1⟩), s'', st)) ∧
    (FrozenHotCache.runStat 101 (FrozenHotCache.new 100) Statistics.ResetStat
        FrozenHotCache.fastTierScenario).map
        (fun r => (r.1.drop 101, r.2.2.GetTickerCount .FAST_CACHE_HIT,
          r.2.2.GetTickerCount .CACHE_HIT))
      = .ok ((List.range 50 ++ List.range 50).map (fun i => ⟨true, some (51 + i)⟩), 0, 0) := by
  have h64 : C < 2 ^ 64 := by
    have : (2 : Nat) ^ 31 < 2 ^ 64 := by norm_num
    omega
  refine ⟨?_, ?_⟩
  · obtain ⟨s, ids, e, hfill, hidx, y1, y2, y3, y4, y5, y6, y7⟩ :=
      FrozenHotCache.run_inserts_linked fuel kts (FrozenHotCache.new C : FrozenHotCache V) []
        (FrozenHotCache.Filling.of_new C) (FrozenHotCache.IndexIn.index_new C)
        (by show 0 + kts.length ≤ C; omega) h64 hnd (fun _ _ => rfl)
    have hsize : ids.length = C := by
      have := List.length_append ids ([] : List Nat)
      rw [y1] at this
      omega
    rw [List.append_nil] at hfill hidx
    obtain ⟨s', e', hp, hmap⟩ :=
      @FrozenHotCache.Partial.of_construct V fuel FC_size s ids hfill.1 hidx y4 y6
        hfill.2.2.2.2.2 h20 (by rw [y2]; exact hFC) (by rw [hsize]; exact hFC) (by omega) hfuel
    refine ⟨s, s', e, e', fun lks st hkeys => ?_⟩
    have hval : ∀ k, (HashMap.find s'.m_map k).map HashMapValue.m_value =
        HashMap.find (kts.map fun p => (p.1, p.2.1)) k := by
      intro k
      rw [hmap, y7 k]
      cases HashMap.find (kts.map fun p => (p.1, p.2.1)) k with
      | none => rfl
      | some v => rfl
    have hres : ∀ l ∈ lks, (HashMap.find s'.m_map l.1).isSome = true := by
      intro l hl
      obtain ⟨p, hp1, hp2⟩ := List.mem_map.mp (hkeys l hl)
      have hmem : (l.1, p.2.1) ∈ kts.map fun p => (p.1, p.2.1) :=
        List.mem_map.mpr ⟨p, List.mem_of_mem_drop hp1, by rw [hp2]⟩
      obtain ⟨b, hb⟩ := FrozenHotCache.HashMap_find_of_mem hmem
      have := hval l.1
      rw [hb] at this
      cases hf : HashMap.find s'.m_map l.1 with
      | none => rw [hf] at this; cases this
      | some hv => rfl
    obtain ⟨s'', ms'', e'', _, _⟩ :=
      FrozenHotCache.Partial.run_lookups fuel lks s' _ _ hp hres
    have hl : lks.map (fun l => (⟨true,
          (HashMap.find s'.m_map l.1).map HashMapValue.m_value⟩ : Ret V)) =
        lks.map (fun l => (⟨true, HashMap.find (kts.map fun p => (p.1, p.2.1)) l.1⟩ : Ret V)) :=
      List.map_congr_left (fun l _ => by rw [hval l.1])
    rw [hl] at e''
    refine ⟨s'', ?_⟩
    rw [FrozenHotCache.runStat_eq, e'']
  · set_option maxRecDepth 1000000 in
    decide

set_option maxRecDepth 100000 in
theorem frozenhot_fast_tier_lookups_witness :
    ((FrozenHotCache.rangePairs 10 20).map Prod.fst).Nodup ∧
    ∃ s s', FrozenHotCache.run 21 (FrozenHotCache.new 20)
        (FrozenHotCache.insertCalls (FrozenHotCache.rangePairs 10 20))
        = .ok ((FrozenHotCache.rangePairs 10 20).map (fun _ => ⟨true, none⟩), s) ∧
      FrozenHotCache.ConstructFastCache 21 s 20 = .ok (true, s') ∧
      ∀ (lks : List (Nat × Nat × Nat)) (st : Statistics),
        (∀ l ∈ lks, l.1 ∈ ((FrozenHotCache.rangePairs 10 20).drop (20 - 20)).map Prod.fst) →
        ∃ s'', FrozenHotCache.runStat 21 s' st (FrozenHotCache.lookupCalls lks) =
          .ok (lks.map (fun l => ⟨true,
            HashMap.find ((FrozenHotCache.rangePairs 10 20).map fun p => (p.1, p.2.1)) l.1⟩),
            s'', st) :=
  ⟨by decide,
    (frozenhot_fast_tier_lookups 21 20 20 (by decide) (by decide) (by decide) (by decide)
      (FrozenHotCache.rangePairs 10 20) (by decide) (by decide)).1⟩

set_option maxRecDepth 1000000 in
/-- C24, the claim at a failing input. In the scenario of capacity 100
(`Insert` of `1..100`, `ConstructFastCache(0.5)`, `Lookup` of `51..100`
twice), started with all tickers at 0, the count of `FAST_CACHE_HIT` is 0 at
the end, not 50 or more, although all 100 lookups hit; and a single
`Lookup(100)` after the construction leaves `FAST_CACHE_HIT` at 0 instead of
incrementing it. -/
theorem frozenhot_fast_cache_hit_not_counted :
    (FrozenHotCache.runStat 101 (FrozenHotCache.new 100) Statistics.ResetStat
        FrozenHotCache.fastTierScenario).map
        (fun r => ((r.1.drop 101).map Ret.ret, r.2.2.GetTickerCount .FAST_CACHE_HIT))
      = .ok (List.replicate 100 true, 0) ∧
    (FrozenHotCache.runStat 101 (FrozenHotCache.new 100) Statistics.ResetStat
        (FrozenHotCache.insertRange 1 100 ++ [.ConstructFastCache 50, .Lookup 100 0 0])).map
        (fun r => (r.1.drop 101, r.2.1.m_fast_hash.length,
          FrozenHotCache.fastFind r.2.1 100, r.2.2.GetTickerCount .FAST_CACHE_HIT))
      = .ok ([⟨true, some 100⟩], 31, some 100, 0) := by
  decide

/-! ## Values across `DeleteFastCache`, and `Insert` of a resident key -/

namespace FrozenHotCache

variable {V : Type}

/-- A `Lookup` that hits returns a value of the index, when the fast hash
table holds values of the index. -/
theorem Lookup_hit_value {s t : FrozenHotCache V} {key : Nat} {value v : V} {list_lock : Bool}
    {now : Nat} (h : Lookup s key value list_lock now = .ok (true, v, t))
    (hfrozen : s.frozen_all = false) (hff : FastFromIndex s) :
    ∃ p, HashMap.find s.m_map key = some ⟨v, p⟩ := by
  by_cases hfast : s.fast_cache_ready = true ∧ ∃ v', fastFind s key = some v'
  · obtain ⟨hr, v', hv'⟩ := hfast
    rw [Lookup_fast s hr hv' value list_lock now] at h
    simp only [Except.ok.injEq, Prod.mk.injEq, true_and] at h
    rw [← h.1]
    exact hff key v' hv'
  · have hcases : s.fast_cache_ready = false ∨ fastFind s key = none := by
      cases hr : s.fast_cache_ready with
      | false => exact Or.inl rfl
      | true =>
        cases hf : fastFind s key with
        | none => exact Or.inr rfl
        | some v' => exact absurd ⟨hr, v', hf⟩ hfast
    unfold Lookup at h
    rcases hcases with hx | hx
    all_goals simp only [hx, hfrozen, Bool.or_false, Bool.or_self, Bool.false_eq_true, if_false,
      if_true, ite_self] at h
    all_goals
      cases hk : HashMap.find s.m_map key with
      | none =>
        rw [hk] at h
        simp only [pure, Except.pure, Except.ok.injEq, Prod.mk.injEq, Bool.false_eq_true,
          false_and] at h
      | some hv =>
        obtain ⟨hval, hnode⟩ := hv
        refine ⟨hnode, ?_⟩
        rw [hk] at h
        simp only [bind, Except.bind, pure, Except.pure] at h
        suffices hv : hval = v by rw [hv]
        repeat' split at h
        all_goals first
          | (simp only [Except.ok.injEq, Prod.mk.injEq, true_and] at h; exact h.1)
          | (exact absurd h (by intro hx; cases hx))

/-- On a quiescent shard whose fast hash table holds values of the index and
whose index points to nodes of the two lists, every key that `Lookup` hits is
hit with the same value after `DeleteFastCache`. -/
theorem DeleteFastCache_lookup {s : FrozenHotCache V} {f1 : Nat} {fr ms : List Nat}
    (hf : FastList s (f1 :: fr)) (hm : MainList s ms) (hnd : (f1 :: fr ++ ms).Nodup)
    (hidx : IndexIn s (f1 :: fr ++ ms)) (hff : FastFromIndex s)
    (hfrozen : s.frozen_all = false) (hcons : s.fast_cache_construct = false)
    (hcurve : s.curve_flag = false) :
    ∃ s', DeleteFastCache s = .ok s' ∧
      ∀ (key : Nat) (value v : V) (now : Nat) (t : FrozenHotCache V),
        Lookup s key value true now = .ok (true, v, t) →
        ∃ t', Lookup s' key value true now = .ok (true, v, t') := by
  obtain ⟨s', e, hm', _, _, _, hsame, _⟩ := DeleteFastCache_splice hf hm hnd
  obtain ⟨_, _, hready', _, _⟩ := DeleteFastCache_flags e
  obtain ⟨_, _, z3, _, _, z6, z7, _, z9, _⟩ := hsame
  have hmap : s'.m_map = s.m_map := z3
  refine ⟨s', e, fun key value v now t hl => ?_⟩
  obtain ⟨p, hk⟩ := Lookup_hit_value hl hfrozen hff
  obtain ⟨i, hi, hnode, _⟩ := hidx (key, ⟨v, p⟩) (HashMap_find_mem hk)
  obtain ⟨xs, ys, hsplit⟩ := List.append_of_mem hi
  rw [hsplit] at hm' hnd
  have hk' : HashMap.find s'.m_map key = some ⟨v, p⟩ := by rw [hmap]; exact hk
  obtain ⟨t', e', _⟩ := Lookup_main hm' hnd hk' hnode (Or.inl hready') (z6.trans hfrozen)
    (z7.trans hcons) (z9.trans hcurve) value now
  exact ⟨t', e'⟩

end FrozenHotCache

set_option maxRecDepth 100000 in
/-- C21, the code at a failing input. A shard of capacity 20 is filled with
the keys `10..29` (key `k` with value `k`) and `ConstructFastCache` is called
with the ratio 1 (`FC_size = 20`), which puts the key 29 into the fast tier.
`Insert(29, 999)` then returns false, having written the value 999 into the
index only; `Lookup(29)` returns the value 29 from the fast hash table;
`DeleteFastCache()` returns, and `Lookup(29)` now returns the value 999 from
the index: a key that `Lookup` hit before `DeleteFastCache` is hit after it
with another value. The splice itself is right: for every quiescent shard
with the fast list `f1 :: fr` and the main list `ms`, `DeleteFastCache`
returns with the main list `f1 :: fr ++ ms`, an empty fast list, an empty fast
hash table, `fast_cache_ready` false and the index it had; and when the fast
hash table holds the values of the index, every key that `Lookup` hits is hit
with the same value afterwards. -/
theorem frozenhot_delete_changes_frozen_value :
    (FrozenHotCache.run 21 (FrozenHotCache.new 20)
        (FrozenHotCache.insertRange 10 20 ++
          [.ConstructFastCache 20, .Insert 29 999 0, .Lookup 29 0 0, .DeleteFastCache,
            .Lookup 29 0 0])).map (fun r => r.1.drop 20)
      = .ok [⟨true, none⟩, ⟨false, none⟩, ⟨true, some 29⟩, ⟨true, none⟩, ⟨true, some 999⟩] ∧
    (∀ (V : Type) (s : FrozenHotCache V) (f1 : Nat) (fr ms : List Nat),
      FrozenHotCache.FastList s (f1 :: fr) → FrozenHotCache.MainList s ms →
      (f1 :: fr ++ ms).Nodup →
      ∃ s', FrozenHotCache.DeleteFastCache s = .ok s' ∧
        FrozenHotCache.MainList s' (f1 :: fr ++ ms) ∧ FrozenHotCache.FastList s' [] ∧
        s'.m_fast_hash = [] ∧ s'.fast_cache_ready = false ∧ s'.m_map = s.m_map ∧
        s'.m_size = s.m_size) ∧
    (∀ (V : Type) (s : FrozenHotCache V) (f1 : Nat) (fr ms : List Nat),
      FrozenHotCache.FastList s (f1 :: fr) → FrozenHotCache.MainList s ms →
      (f1 :: fr ++ ms).Nodup → FrozenHotCache.IndexIn s (f1 :: fr ++ ms) →
      FrozenHotCache.FastFromIndex s → s.frozen_all = false →
      s.fast_cache_construct = false → s.curve_flag = false →
      ∃ s', FrozenHotCache.DeleteFastCache s = .ok s' ∧
        ∀ (key : Nat) (value v : V) (now : Nat) (t : FrozenHotCache V),
          FrozenHotCache.Lookup s key value true now = .ok (true, v, t) →
          ∃ t', FrozenHotCache.Lookup s' key value true now = .ok (true, v, t')) := by
  refine ⟨by decide, fun V s f1 fr ms hf hm hnd => ?_,
    fun V s f1 fr ms hf hm hnd hidx hff h1 h2 h3 =>
      FrozenHotCache.DeleteFastCache_lookup hf hm hnd hidx hff h1 h2 h3⟩
  obtain ⟨s', e, hm', hf', _, _, hsame, _⟩ := FrozenHotCache.DeleteFastCache_splice hf hm hnd
  obtain ⟨_, _, hready, hfh, hmap⟩ := FrozenHotCache.DeleteFastCache_flags e
  exact ⟨s', e, hm', hf', hfh, hready, hmap, hsame.2.1⟩

set_option maxRecDepth 100000 in
/-- C23, the code at a failing input. On a shard of capacity 2, after one
`Insert(5, 50)` the index entry of key 5 points to node 0, which is linked in
the main list; after a second `Insert(5, 50)`, which returns false, it points
to the new node 1, which is in no list (its `m_prev` is the out-of-list
marker), while node 0 is still the one linked. The two states are told apart
by the calls `Insert(6, 60)`, `Lookup(5)`, `Insert(7, 70)`, `Lookup(5)`,
`Lookup(6)`: after one insert the lookups give hit, hit, miss (key 6 was
evicted); after two inserts they give hit, miss, hit (the `Lookup` could not
move the node of key 5, so key 5 was evicted). `Insert` of a resident key
stores such a new node in the index in every state in which inserts are
enabled. -/
theorem frozenhot_double_insert_diverges :
    (FrozenHotCache.run 3 (FrozenHotCache.new 2) [.Insert 5 50 0]).map
        (fun r => (HashMap.find r.2.m_map 5, r.2.nodes, r.2.m_head.m_next))
      = .ok (some ⟨50, .node 0⟩,
          [(0, { m_key := 5, m_prev := .head, m_next := .tail, m_time := 0 })], .node 0) ∧
    (FrozenHotCache.run 3 (FrozenHotCache.new 2) [.Insert 5 50 0, .Insert 5 50 0]).map
        (fun r => (r.1, HashMap.find r.2.m_map 5, r.2.nodes, r.2.m_head.m_next))
      = .ok ([⟨true, none⟩, ⟨false, none⟩], some ⟨50, .node 1⟩,
          [(1, { m_key := 5, m_prev := .marker, m_next := .null, m_time := 0 }),
            (0, { m_key := 5, m_prev := .head, m_next := .tail, m_time := 0 })], .node 0) ∧
    (FrozenHotCache.run 3 (FrozenHotCache.new 2)
        [.Insert 5 50 0, .Insert 6 60 0, .Lookup 5 0 0, .Insert 7 70 0, .Lookup 5 0 0,
          .Lookup 6 0 0]).map (fun r => (r.1.drop 1, r.2.m_map.map Prod.fst))
      = .ok ([⟨true, none⟩, ⟨true, some 50⟩, ⟨true, none⟩, ⟨true, some 50⟩, ⟨false, some 0⟩],
          [7, 5]) ∧
    (FrozenHotCache.run 3 (FrozenHotCache.new 2)
        [.Insert 5 50 0, .Insert 5 50 0, .Insert 6 60 0, .Lookup 5 0 0, .Insert 7 70 0,
          .Lookup 5 0 0, .Lookup 6 0 0]).map (fun r => (r.1.drop 2, r.2.m_map.map Prod.fst))
      = .ok ([⟨true, none⟩, ⟨true, some 50⟩, ⟨true, none⟩, ⟨false, some 0⟩, ⟨true, some 60⟩],
          [7, 6]) ∧
    (∀ (V : Type) (fuel : Nat) (s : FrozenHotCache V) (key : Nat) (hv : HashMapValue V)
      (value : V) (now : Nat), s.enable_insert = true →
      HashMap.find s.m_map key = some hv →
      FrozenHotCache.Insert fuel s key value now = .ok (false,
        { s with
          m_map := HashMap.update s.m_map key ⟨value, .node s.allocated⟩
          nodes := HashMap.add s.nodes s.allocated
            { m_key := key, m_prev := .marker, m_next := .null, m_time := now }
          allocated := s.allocated + 1 })) := by
  refine ⟨by decide, by decide, by decide, by decide, fun V fuel s key hv value now he hk => ?_⟩
  exact FrozenHotCache.Insert_resident_node fuel he hk value now

/-- C25, the code against the claim. On a FrozenHot shard with the fast tier
ready and inserts enabled, for a key `k` that the fast hash table holds with
the value `v1` and that is resident in the index: `Insert(k, v2)` returns
false and writes `v2` into the index, the fast hash table still holds `v1`,
and the following `Lookup(k)` returns true with `v1`, the value frozen at
construction, and changes nothing. -/
theorem frozenhot_lookup_returns_frozen_value {V : Type} (fuel : Nat) (s : FrozenHotCache V)
    (hready : s.fast_cache_ready = true) (he : s.enable_insert = true) (k : Nat)
    (v1 v2 value : V) (hv : HashMapValue V) (hfast : FrozenHotCache.fastFind s k = some v1)
    (hres : HashMap.find s.m_map k = some hv) (now now' : Nat) (list_lock : Bool) :
    ∃ s', FrozenHotCache.Insert fuel s k v2 now = .ok (false, s') ∧
      (HashMap.find s'.m_map k).map HashMapValue.m_value = some v2 ∧
      FrozenHotCache.fastFind s' k = some v1 ∧
      FrozenHotCache.Lookup s' k value list_lock now' = .ok (true, v1, s') := by
  have hins := FrozenHotCache.Insert_resident_node fuel he hres v2 now
  refine ⟨_, hins, ?_, hfast, ?_⟩
  · show (HashMap.find (HashMap.update s.m_map k _) k).map _ = _
    rw [FrozenHotCache.find_update_some hres, if_pos rfl]
    rfl
  · exact FrozenHotCache.Lookup_fast
      { s with
        m_map := HashMap.update s.m_map k ⟨v2, .node s.allocated⟩
        nodes := HashMap.add s.nodes s.allocated
          { m_key := k, m_prev := .marker, m_next := .null, m_time := now }
        allocated := s.allocated + 1 } hready hfast value list_lock now'

set_option maxRecDepth 100000 in
theorem frozenhot_lookup_returns_frozen_value_witness :
    FrozenHotCache.run 4 (FrozenHotCache.new 20)
        [.Insert 5 50 0, .Insert 6 60 0, .ConstructFastCache 20]
      = .ok ([⟨true, none⟩, ⟨true, none⟩, ⟨true, none⟩], FrozenHotCache.sampleFast) ∧
    FrozenHotCache.sampleFast.fast_cache_ready = true ∧
    FrozenHotCache.sampleFast.enable_insert = true ∧
    FrozenHotCache.fastFind FrozenHotCache.sampleFast 6 = some 60 ∧
    HashMap.find FrozenHotCache.sampleFast.m_map 6 = some ⟨60, .node 1⟩ ∧
    ∃ s', FrozenHotCache.Insert 4 FrozenHotCache.sampleFast 6 61 0 = .ok (false, s') ∧
      (HashMap.find s'.m_map 6).map HashMapValue.m_value = some 61 ∧
      FrozenHotCache.fastFind s' 6 = some 60 ∧
      FrozenHotCache.Lookup s' 6 0 true 0 = .ok (true, 60, s') :=
  ⟨by decide, rfl, rfl, by decide, by decide,
    frozenhot_lookup_returns_frozen_value 4 FrozenHotCache.sampleFast rfl rfl 6 60 61 0
      ⟨60, .node 1⟩ (by decide) (by decide) 0 0 true⟩

namespace MySet

variable {α : Type}

/-- One call from a state with `size_ <= max_size_` and `cursor_ <= size_ + 1`:
the bounds are kept, `size_` grows by one for an `insert`, and `cursor_` grows
by the step reported plus one for a `print_from_last_end` that sums samples. -/
theorem step_counts {s s' : MySet α} {c : Call α} {r : Option (Option (List α) × Nat)}
    (h : step s c = .ok (r, s')) (hsize : s.size_ ≤ max_size_)
    (hcur : s.cursor_ ≤ s.size_ + 1) :
    s'.size_ = s.size_ + inserts [c] ∧ s'.size_ ≤ max_size_ ∧ s'.cursor_ ≤ s'.size_ + 1 ∧
      steps [r] + prints [r] + s.cursor_ = s'.cursor_ := by
  unfold max_size_ at hsize ⊢
  cases c with
  | insert value =>
    unfold step insert at h
    simp only [max_size_] at h
    by_cases hlt : s.size_ < 2 ^ 30
    · simp only [hlt, if_true] at h
      cases h
      have hu : u64 (s.size_ + 1) = s.size_ + 1 := by unfold u64; omega
      simp only [hu, inserts, steps, prints, List.countP_cons, List.countP_nil, List.map_cons,
        List.map_nil, List.sum_cons, List.sum_nil]
      refine ⟨by simp, by omega, by omega, by simp⟩
    · simp only [hlt, if_false] at h
      cases h
  | print_from_last_end =>
    unfold step print_from_last_end at h
    by_cases hc : s.size_ = 0 ∨ s.cursor_ ≥ s.size_
    · simp only [hc, if_true] at h
      cases h
      refine ⟨by simp [inserts], hsize, hcur, by simp [steps, prints]⟩
    · simp only [hc, if_false] at h
      cases h
      have h1 : u64 (s.size_ + (2 ^ 64 - s.cursor_)) = s.size_ - s.cursor_ := by
        unfold u64; omega
      have h2 : u64 (s.size_ + 1) = s.size_ + 1 := by unfold u64; omega
      simp only [h1, h2, inserts, steps, prints, List.countP_cons, List.countP_nil,
        List.map_cons, List.map_nil, List.sum_cons, List.sum_nil]
      refine ⟨by simp, hsize, le_refl _, ?_⟩
      simp
      omega

/-- A run from a state with `size_ <= max_size_` and `cursor_ <= size_ + 1`. -/
theorem run_counts (cs : List (Call α)) :
    ∀ {s s' : MySet α} {rs : List (Option (Option (List α) × Nat))},
      run s cs = .ok (rs, s') → s.size_ ≤ max_size_ → s.cursor_ ≤ s.size_ + 1 →
      s'.size_ = s.size_ + inserts cs ∧ s'.size_ ≤ max_size_ ∧ s'.cursor_ ≤ s'.size_ + 1 ∧
        steps rs + prints rs + s.cursor_ = s'.cursor_ := by
  induction cs with
  | nil =>
    intro s s' rs h hsize hcur
    cases h
    exact ⟨rfl, hsize, hcur, by simp [steps, prints]⟩
  | cons c cs ih =>
    intro s s' rs h hsize hcur
    unfold run at h
    cases hs : step s c with
    | error e => rw [hs] at h; cases h
    | ok p =>
      obtain ⟨r, s1⟩ := p
      rw [hs] at h
      simp only at h
      cases hr : run s1 cs with
      | error e => rw [hr] at h; cases h
      | ok q =>
        obtain ⟨rs1, s2⟩ := q
        rw [hr] at h
        cases h
        obtain ⟨a1, a2, a3, a4⟩ := step_counts hs hsize hcur
        obtain ⟨b1, b2, b3, b4⟩ := ih hr a2 a3
        refine ⟨?_, b2, b3, ?_⟩
        · rw [b1, a1]
          simp only [inserts, List.countP_cons, List.countP_nil]
          omega
        · simp only [steps, prints, List.countP_cons, List.countP_nil, List.map_cons,
            List.map_nil, List.sum_cons, List.sum_nil] at a4 b4 ⊢
          omega

end MySet

/-- C38, the code against the claim. For every sequence of `insert` and
`print_from_last_end` calls by one thread on a new `MySet` that returns: the
steps reported add up to `cursor_` minus the number of the
`print_from_last_end` calls that summed samples, `cursor_` is at most
`size_ + 1`, and `size_` is the number of `insert` calls; so from the second
summing `print_from_last_end` on, each of them leaves one sample out of every
step (it sets `cursor_` to `size + 1`, past the cell that the next `insert`
writes). In every state `size_from_last_end()` is the step that a
`print_from_last_end` called with `step = 0` reports. -/
theorem myset_steps_skip_samples {α : Type} (cs : List (MySet.Call α))
    (rs : List (Option (Option (List α) × Nat))) (s : MySet α)
    (h : MySet.run MySet.new cs = .ok (rs, s)) :
    MySet.steps rs + MySet.prints rs = s.cursor_ ∧ s.cursor_ ≤ s.size_ + 1 ∧
      s.size_ = MySet.inserts cs ∧
      ∀ t : MySet α, t.size_from_last_end = (t.print_from_last_end 0).2.1 := by
  obtain ⟨a1, _, a3, a4⟩ := MySet.run_counts cs h (Nat.zero_le _) (Nat.zero_le _)
  refine ⟨a4, a3, by rw [a1]; exact Nat.zero_add _, fun t => ?_⟩
  unfold MySet.size_from_last_end MySet.print_from_last_end
  by_cases hc : t.size_ = 0 ∨ t.cursor_ ≥ t.size_
  · simp only [hc, if_true]
  · simp only [hc, if_false]

/-- The failing input of C38: three samples are inserted, each followed by a
`print_from_last_end`; the steps reported are 1, 0 (nothing is summed) and 1,
which add up to 2, and the second sample is summed by no call. -/
theorem myset_steps_skip_samples_witness :
    MySet.run (MySet.new : MySet Nat)
        [.insert 10, .print_from_last_end, .insert 20, .print_from_last_end, .insert 30,
          .print_from_last_end]
      = .ok ([none, some (some [10], 1), none, some (none, 0), none, some (some [30], 1)],
          { size_ := 3, cursor_ := 4, data_ := [10, 20, 30], sorted_ := false }) ∧
    MySet.inserts
        ([.insert 10, .print_from_last_end, .insert 20, .print_from_last_end, .insert 30,
          .print_from_last_end] : List (MySet.Call Nat)) = 3 ∧
    MySet.steps ([none, some (some [10], 1), none, some (none, 0), none, some (some [30], 1)] :
      List (Option (Option (List Nat) × Nat))) = 2 ∧
    MySet.summed ([none, some (some [10], 1), none, some (none, 0), none, some (some [30], 1)] :
      List (Option (Option (List Nat) × Nat))) = [10, 30] ∧
    (MySet.steps ([none, some (some [10], 1), none, some (none, 0), none, some (some [30], 1)] :
        List (Option (Option (List Nat) × Nat))) +
      MySet.prints [none, some (some [10], 1), none, some (none, 0), none, some (some [30], 1)]
        = 4 ∧ 4 ≤ 3 + 1 ∧
      3 = MySet.inserts
        ([.insert 10, .print_from_last_end, .insert 20, .print_from_last_end, .insert 30,
          .print_from_last_end] : List (MySet.Call Nat)) ∧
      ∀ t : MySet Nat, t.size_from_last_end = (t.print_from_last_end 0).2.1) :=
  ⟨rfl, by decide, by decide, by decide,
    myset_steps_skip_samples
      [.insert 10, .print_from_last_end, .insert 20, .print_from_last_end, .insert 30,
        .print_from_last_end]
      [none, some (some [10], 1), none, some (none, 0), none, some (some [30], 1)]
      { size_ := 3, cursor_ := 4, data_ := [10, 20, 30], sorted_ := false } rfl⟩

namespace Monitor

/-- One pass of the warm-up loop from variables with `wait_count < 2`: it
leaves the loop exactly when its condition holds and `wait_count` is 1;
otherwise `wait_count` grows by one when the condition holds and stays as it
is when it does not, and the other variables are those that `stables` follows. -/
theorem pass_spec (m : Monitor) (x : Sample) (hw : m.wait_count < 2) :
    (pass m x).1 = (stable (PrintMissRatio m x) && decide (m.wait_count = 1)) ∧
    ((pass m x).1 = false →
      (pass m x).2 =
        { PrintMissRatio m x with
          last_size := (PrintMissRatio m x).size
          size := x.size
          last_miss_ratio := (PrintMissRatio m x).miss_ratio
          wait_count := m.wait_count + if stable (PrintMissRatio m x) then 1 else 0 }) := by
  have hwc : (PrintMissRatio m x).wait_count = m.wait_count := by
    unfold PrintMissRatio
    cases x.miss_ratio <;> rfl
  have hu : u32 (m.wait_count + 1) = m.wait_count + 1 := by unfold u32; omega
  unfold pass stable wait_stable_threshold
  simp only [hwc, hu]
  by_cases h1 : (PrintMissRatio m x).last_size ≥ (PrintMissRatio m x).size
  · by_cases h2 : (PrintMissRatio m x).last_miss_ratio ≤ (PrintMissRatio m x).miss_ratio
    · by_cases h3 : m.wait_count = 1
      · simp [h1, h2, h3]
      · have h4 : ¬ (m.wait_count + 1 ≥ 2) := by omega
        simp [h1, h2, h3, h4]
    · have h4 : ¬ (m.wait_count ≥ 2) := by omega
      simp [h1, h2, h4, hwc]
  · simp [h1, hwc]

/-- The conditions of the passes do not depend on `wait_count`. -/
theorem stables_wait (xs : List Sample) : ∀ (m : Monitor) (w : Nat),
    stables { m with wait_count := w } xs = stables m xs := by
  induction xs with
  | nil => intro m w; rfl
  | cons x xs ih =>
    intro m w
    unfold stables
    have h1 : PrintMissRatio { m with wait_count := w } x =
        { PrintMissRatio m x with wait_count := w } := by
      unfold PrintMissRatio
      cases x.miss_ratio <;> rfl
    rw [h1]
    simp only
    congr 1
    exact ih
      { last_miss_ratio := (PrintMissRatio m x).miss_ratio
        miss_ratio := (PrintMissRatio m x).miss_ratio
        last_size := (PrintMissRatio m x).size
        size := x.size
        wait_count := (PrintMissRatio m x).wait_count } w

/-- The pass that leaves the warm-up loop, from variables with
`wait_count < 2`: it is the first pass whose condition holds after
`wait_count` has reached 1. -/
theorem warmUp_spec (xs : List Sample) : ∀ (m : Monitor), m.wait_count < 2 → ∀ n,
    warmUp m xs = some n ↔
      (stables m xs)[n]? = some true ∧ m.wait_count + ((stables m xs).take n).count true = 1 := by
  induction xs with
  | nil =>
    intro m _ n
    simp [warmUp, stables]
  | cons x xs ih =>
    intro m hw n
    obtain ⟨p1, p2⟩ := pass_spec m x hw
    unfold warmUp stables
    cases hp : pass m x with
    | mk b m1 =>
      rw [hp] at p1 p2
      simp only at p1 p2
      cases b with
      | true =>
        simp only
        have hs : stable (PrintMissRatio m x) = true ∧ m.wait_count = 1 := by
          simpa using p1.symm
        cases n with
        | zero => simp [hs.1, hs.2]
        | succ n => simp [hs.1, hs.2]
      | false =>
        simp only
        have hm1 := p2 rfl
        have hs : stable (PrintMissRatio m x) = true → m.wait_count ≠ 1 := by
          intro h1 h2
          rw [h1, h2] at p1
          simp at p1
        cases n with
        | zero =>
          simp only [Option.map_eq_some', List.getElem?_cons_zero, List.take_zero,
            List.count_nil, Nat.add_zero, Option.some.injEq]
          constructor
          · rintro ⟨a, _, ha⟩
            omega
          · rintro ⟨h1, h2⟩
            exact absurd h2 (hs h1)
        | succ n =>
          have hst : stables m1 xs =
              stables
                { PrintMissRatio m x with
                  last_size := (PrintMissRatio m x).size
                  size := x.size
                  last_miss_ratio := (PrintMissRatio m x).miss_ratio } xs := by
            rw [hm1]
            exact stables_wait xs
              { PrintMissRatio m x with
                last_size := (PrintMissRatio m x).size
                size := x.size
                last_miss_ratio := (PrintMissRatio m x).miss_ratio } _
          have hw1 : m1.wait_count =
              m.wait_count + if stable (PrintMissRatio m x) = true then 1 else 0 := by
            rw [hm1]
          have hlt : m1.wait_count < 2 := by
            rw [hw1]
            by_cases h1 : stable (PrintMissRatio m x) = true
            · have := hs h1
              rw [if_pos h1]; omega
            · rw [if_neg h1]; omega
          have hih := ih m1 hlt n
          simp only [Option.map_eq_some', List.getElem?_cons_succ, List.take_succ_cons,
            List.count_cons]
          generalize hL : stables _ xs = L
          have hL' : stables m1 xs = L := hst.trans hL
          rw [hL', hw1] at hih
          have hcount : ∀ k : Nat, (m.wait_count + if stable (PrintMissRatio m x) = true
              then 1 else 0) + k = 1 ↔
              m.wait_count + (k + if (stable (PrintMissRatio m x) == true) = true
                then 1 else 0) = 1 := by
            intro k
            by_cases h1 : stable (PrintMissRatio m x) = true
            · simp only [h1, beq_self_eq_true, if_true]
              omega
            · have h1' : stable (PrintMissRatio m x) = false := by simpa using h1
              simp only [h1']
              simp
          constructor
          · rintro ⟨a, ha, han⟩
            have han' : a = n := by omega
            rw [han'] at ha
            obtain ⟨c1, c2⟩ := hih.mp ha
            exact ⟨c1, (hcount _).mp c2⟩
          · rintro ⟨c1, c2⟩
            exact ⟨n, hih.mpr ⟨c1, (hcount _).mpr c2⟩, rfl⟩

end Monitor

namespace Monitor

/-- The condition of a pass that is not one of the first two, when the pass
and the pass before it read a miss ratio: the size read two passes before is
at least the size read by the pass before, and the miss ratio of the pass
before is at most the one of the pass. -/
theorem stables_at (pre : List Sample) (x : Sample) (b c : Rat) (sy sz : Nat)
    (rest : List Sample) : ∀ m : Monitor,
    (stables m (pre ++ x :: ⟨some b, sy⟩ :: ⟨some c, sz⟩ :: rest))[pre.length + 2]? =
      some (decide (x.size ≥ sy) && decide (b ≤ c)) := by
  induction pre with
  | nil =>
    intro m
    simp [stables, PrintMissRatio, stable]
  | cons p pre ih =>
    intro m
    simp only [List.cons_append, stables, List.length_cons]
    rw [show pre.length + 1 + 2 = (pre.length + 2) + 1 from by omega, List.getElem?_cons_succ]
    exact ih _

end Monitor

/-- C35. The warm-up loop of `Monitor` over the samples `xs` of its passes
leaves by `break` in pass `n` (counted from 0) exactly when the condition holds
in pass `n` and has held in exactly one pass before it: it leaves in the second
pass in which the condition holds, whether or not the condition held in the
passes between the two, because `wait_count` is never set back. The condition
of a pass other than the first two, when it and the pass before it read a miss
ratio, is that the miss ratio is not lower than the one of the pass before and
that the size read by the pass before is not higher than the size read two
passes before. -/
theorem monitor_warm_up_counts_stable_passes (xs : List Monitor.Sample) (n : Nat) :
    (Monitor.warmUp Monitor.new xs = some n ↔
      (Monitor.stables Monitor.new xs)[n]? = some true ∧
        ((Monitor.stables Monitor.new xs).take n).count true = 1) ∧
    (∀ (pre : List Monitor.Sample) (x : Monitor.Sample) (b c : Rat) (sy sz : Nat)
      (rest : List Monitor.Sample),
      (Monitor.stables Monitor.new
          (pre ++ x :: ⟨some b, sy⟩ :: ⟨some c, sz⟩ :: rest))[pre.length + 2]? =
        some (decide (x.size ≥ sy) && decide (b ≤ c))) := by
  refine ⟨?_, fun pre x b c sy sz rest => Monitor.stables_at pre x b c sy sz rest _⟩
  have h := Monitor.warmUp_spec xs Monitor.new (by decide) n
  rw [show Monitor.new.wait_count = 0 from rfl, Nat.zero_add] at h
  exact h

/-- The counterexample of C35: the first pass reads the miss ratio 1 and the
size 10, the two passes after it read no new miss ratio and the size 10. The
condition holds in the first pass (sizes 0 and 0), not in the second (the size
grew from 0 to 10) and again in the third, and the loop leaves in the third
pass, although the condition has not held in two consecutive passes. -/
theorem monitor_warm_up_leaves_without_consecutive_passes :
    Monitor.stables Monitor.new [⟨some 1, 10⟩, ⟨none, 10⟩, ⟨none, 10⟩] = [true, false, true] ∧
    Monitor.warmUp Monitor.new [⟨some 1, 10⟩, ⟨none, 10⟩, ⟨none, 10⟩] = some 2 := by
  decide

namespace HashMap

variable {β : Type}

theorem length_erase_of_find (m : HashMap β) (k : Nat) (b : β)
    (hnd : (m.map Prod.fst).Nodup) (h : find m k = some b) :
    (erase m k).length + 1 = m.length := by
  have hmem : k ∈ m.map Prod.fst := (find_isSome_iff m k).mp (by rw [h]; rfl)
  have h1 : (erase m k).length = ((erase m k).map Prod.fst).length := (List.length_map _ _).symm
  rw [h1, map_fst_erase m k hnd, List.length_erase_of_mem hmem, List.length_map]
  have : 0 < m.length := by
    have := List.length_pos_of_mem hmem
    rwa [List.length_map] at this
  omega

end HashMap

namespace SegmentCache

variable {V : Type}

/-- A write to a field other than `charge` of a live entry keeps the size
invariant. -/
theorem Counted.counted_update {N : Nat} {s : SegmentCache V} (h : Counted N s) (p : Nat)
    (e e' : Entry V) (hp : HashMap.find s.entries p = some e) (hc : e'.charge = e.charge)
    (hm : HashMap Nat) (sl : SegmentList) :
    Counted N { s with entries := HashMap.update s.entries p e', hash_map_ := hm,
                       segment_list_ := sl } := by
  obtain ⟨h1, h2, h3, h4, h5⟩ := h
  refine ⟨?_, ?_, ?_, ?_, h5⟩
  · show s.usage_ = (HashMap.update s.entries p e').length
    rw [HashMap.length_update]; exact h1
  · show ((HashMap.update s.entries p e').map Prod.fst).Nodup
    rw [HashMap.map_fst_update]; exact h2
  · intro q e1 hq
    change HashMap.find (HashMap.update s.entries p e') q = some e1 at hq
    rw [HashMap.find_update] at hq
    by_cases hqp : q = p
    · rw [if_pos hqp, hqp, hp] at hq
      cases hq
      rw [hc]; exact h3 p e hp
    · rw [if_neg hqp] at hq
      exact h3 q e1 hq
  · intro q hq
    change q ∈ (HashMap.update s.entries p e').map Prod.fst at hq
    rw [HashMap.map_fst_update] at hq
    exact h4 q hq

/-- The method `TryFreeEntry` keeps the size invariant. -/
theorem Counted.counted_TryFreeEntry {N : Nat} (hN : N < 2 ^ 64) {s s' : SegmentCache V}
    (h : Counted N s) {p : Nat} (hr : TryFreeEntry s p = .ok s') : Counted N s' := by
  unfold TryFreeEntry at hr
  cases hp : HashMap.find s.entries p with
  | none => rw [hp] at hr; cases hr
  | some e =>
    rw [hp] at hr
    simp only at hr
    have hu := h.counted_update p e { e with refs := u32 (2 ^ 32 - 1 + e.refs) } hp rfl
      s.hash_map_ s.segment_list_
    by_cases h1 : e.refs = 1
    · rw [if_pos h1] at hr
      cases hr
      obtain ⟨u1, u2, u3, u4, u5⟩ := hu
      have hfind : HashMap.find (HashMap.update s.entries p
          { e with refs := u32 (2 ^ 32 - 1 + e.refs) }) p =
          some { e with refs := u32 (2 ^ 32 - 1 + e.refs) } := by
        rw [HashMap.find_update, if_pos rfl, hp]; rfl
      have hlen : (HashMap.erase (HashMap.update s.entries p
          { e with refs := u32 (2 ^ 32 - 1 + e.refs) }) p).length + 1 =
          (HashMap.update s.entries p { e with refs := u32 (2 ^ 32 - 1 + e.refs) }).length :=
        HashMap.length_erase_of_find _ p _ u2 hfind
      rw [HashMap.length_update] at hlen
      have hch : e.charge = 1 := h.2.2.1 p e hp
      have hle : s.entries.length ≤ s.allocated := by
        have hsub : (s.entries.map Prod.fst) ⊆ List.range s.allocated := by
          intro q hq
          exact List.mem_range.mpr (h.2.2.2.1 q hq)
        have := (List.subperm_of_subset h.2.1 hsub).length_le
        rw [List.length_map, List.length_range] at this
        exact this
      have hN' := h.2.2.2.2
      refine ⟨?_, ?_, ?_, ?_, u5⟩
      · show u64 (2 ^ 64 - e.charge + s.usage_) = (HashMap.erase _ p).length
        show u64 (2 ^ 64 - e.charge + s.usage_) = (HashMap.erase (HashMap.update s.entries p
          { e with refs := u32 (2 ^ 32 - 1 + e.refs) }) p).length
        rw [h.1]
        unfold u64
        omega
      · show ((HashMap.erase _ p).map Prod.fst).Nodup
        rw [HashMap.map_fst_erase _ _ u2]
        exact u2.erase p
      · intro q e1 hq
        change HashMap.find (HashMap.erase _ p) q = some e1 at hq
        rw [HashMap.find_erase] at hq
        by_cases hqp : q = p
        · rw [if_pos hqp] at hq; cases hq
        · rw [if_neg hqp] at hq
          exact u3 q e1 hq
      · intro q hq
        change q ∈ (HashMap.erase _ p).map Prod.fst at hq
        rw [HashMap.map_fst_erase _ _ u2] at hq
        exact u4 q (List.mem_of_mem_erase hq)
    · rw [if_neg h1] at hr
      cases hr
      exact hu

/-- One pass of the loop of `EvictOne` keeps the size invariant. -/
theorem Counted.counted_evictSlot {N : Nat} (hN : N < 2 ^ 64) {s s' : SegmentCache V}
    (h : Counted N s) {slot : Slot} (hr : evictSlot s slot = .ok s') : Counted N s' := by
  unfold evictSlot at hr
  cases hs : slot.entry with
  | none => rw [hs] at hr; cases hr
  | some p =>
    rw [hs] at hr
    simp only at hr
    cases hp : HashMap.find s.entries p with
    | none => rw [hp] at hr; cases hr
    | some e =>
      rw [hp] at hr
      simp only at hr
      have hu := h.counted_update p e { e with refs := u32 (2 ^ 32 - 1 + e.refs) } hp rfl
        (HashMap.erase s.hash_map_ e.key) s.segment_list_
      repeat' split at hr
      all_goals first
        | cases hr
        | exact h.counted_TryFreeEntry hN hr
        | exact hu.counted_TryFreeEntry hN hr

/-- The loop of `EvictOne` keeps the size invariant. -/
theorem Counted.counted_evictSlots {N : Nat} (hN : N < 2 ^ 64) (slots : List Slot) :
    ∀ {s s' : SegmentCache V}, Counted N s → evictSlots s slots = .ok s' → Counted N s' := by
  induction slots with
  | nil => intro s s' h hr; cases hr; exact h
  | cons slot slots ih =>
    intro s s' h hr
    unfold evictSlots at hr
    cases h1 : evictSlot s slot with
    | error e => rw [h1] at hr; cases hr
    | ok s1 =>
      rw [h1] at hr
      exact ih (h.counted_evictSlot hN h1) hr

/-- A change of the log keeps the size invariant. -/
theorem Counted.counted_log {N : Nat} {s : SegmentCache V} (h : Counted N s)
    (sl : SegmentList) : Counted N { s with segment_list_ := sl } := h

/-- The method `EvictOne` keeps the size invariant. -/
theorem Counted.counted_EvictOne {N : Nat} (hN : N < 2 ^ 64) {s s' : SegmentCache V}
    (h : Counted N s) (hr : EvictOne s = .ok s') : Counted N s' := by
  unfold EvictOne at hr
  cases h1 : SegmentList.Evict s.segment_list_ with
  | error e => rw [h1] at hr; cases hr
  | ok r =>
    obtain ⟨v, sl⟩ := r
    rw [h1] at hr
    cases v with
    | none => cases hr; exact h
    | some victim => exact Counted.counted_evictSlots hN _ (h.counted_log sl) hr

/-- The loop of `Insert` keeps the size invariant. -/
theorem Counted.counted_evictLoop {N : Nat} (hN : N < 2 ^ 64) (fuel : Nat) :
    ∀ {s s' : SegmentCache V}, Counted N s → evictLoop fuel s = .ok s' → Counted N s' := by
  induction fuel with
  | zero =>
    intro s s' h hr
    unfold evictLoop at hr
    split at hr
    · cases hr
    · cases hr; exact h
  | succ fuel ih =>
    intro s s' h hr
    unfold evictLoop at hr
    split at hr
    · cases h1 : EvictOne s with
      | error e => rw [h1] at hr; cases hr
      | ok s1 =>
        rw [h1] at hr
        exact ih (h.counted_EvictOne hN h1) hr
    · cases hr; exact h

/-- A larger bound keeps the size invariant. -/
theorem Counted.counted_mono {N M : Nat} (hNM : N ≤ M) {s : SegmentCache V} (h : Counted N s) :
    Counted M s :=
  ⟨h.1, h.2.1, h.2.2.1, h.2.2.2.1, le_trans h.2.2.2.2 hNM⟩

/-- A call keeps the size invariant, with room for one more entry. -/
theorem Counted.counted_step {N : Nat} (hN : N + 1 < 2 ^ 64) (S fuel : Nat)
    {s s' : SegmentCache V} (h : Counted N s) (op : Op V) {r : Ret V}
    (hr : step S fuel s op = .ok (r, s')) : Counted (N + 1) s' := by
  cases op with
  | Insert key value =>
    unfold step at hr
    simp only at hr
    cases h1 : Insert S fuel s key value with
    | error e => rw [h1] at hr; cases hr
    | ok q =>
      rw [h1] at hr
      cases hr
      unfold Insert at h1
      cases hk : HashMap.find s.hash_map_ key with
      | some p =>
        rw [hk] at h1
        simp only at h1
        cases hp : HashMap.find s.entries p with
        | none => rw [hp] at h1; cases h1
        | some e =>
          rw [hp] at h1
          cases h1
          exact (h.counted_update p e { e with value := value } hp rfl
            s.hash_map_ s.segment_list_).counted_mono (Nat.le_succ N)
      | none =>
        rw [hk] at h1
        simp only at h1
        cases h2 : SegmentList.Add S fuel s.segment_list_ s.allocated 1 with
        | error e => rw [h2] at h1; cases h1
        | ok sl =>
          rw [h2] at h1
          simp only at h1
          obtain ⟨c1, c2, c3, c4, c5⟩ := h
          have hle : s.entries.length ≤ s.allocated := by
            have hsub : (s.entries.map Prod.fst) ⊆ List.range s.allocated := by
              intro q hq
              exact List.mem_range.mpr (c4 q hq)
            have := (List.subperm_of_subset c2 hsub).length_le
            rw [List.length_map, List.length_range] at this
            exact this
          have hnew : Counted (N + 1)
              { s with
                allocated := s.allocated + 1
                hash_map_ := HashMap.add s.hash_map_ key s.allocated
                entries := HashMap.add s.entries s.allocated
                  { key := key, value := value, version := 1,
                    belong := s.segment_list_.head_segment, charge := 1, refs := u32 (1 + 1) }
                segment_list_ := sl
                usage_ := u64 (s.usage_ + 1) } := by
            refine ⟨?_, ?_, ?_, ?_, ?_⟩
            · show u64 (s.usage_ + 1) = (HashMap.add s.entries s.allocated _).length
              simp only [HashMap.add, List.length_cons]
              rw [c1]
              unfold u64
              omega
            · show ((HashMap.add s.entries s.allocated _).map Prod.fst).Nodup
              simp only [HashMap.add, List.map_cons, List.nodup_cons]
              exact ⟨fun hm => Nat.lt_irrefl _ (c4 _ hm), c2⟩
            · intro q e1 hq
              change HashMap.find (HashMap.add s.entries s.allocated _) q = some e1 at hq
              rw [HashMap.find_add] at hq
              by_cases hqa : s.allocated = q
              · rw [if_pos hqa] at hq
                cases hq
                rfl
              · rw [if_neg hqa] at hq
                exact c3 q e1 hq
            · intro q hq
              change q ∈ (HashMap.add s.entries s.allocated _).map Prod.fst at hq
              simp only [HashMap.add, List.map_cons, List.mem_cons] at hq
              show q < s.allocated + 1
              rcases hq with hq | hq
              · omega
              · have := c4 q hq
                omega
            · show s.allocated + 1 ≤ N + 1
              omega
          cases h3 : evictLoop fuel
              { s with
                allocated := s.allocated + 1
                hash_map_ := HashMap.add s.hash_map_ key s.allocated
                entries := HashMap.add s.entries s.allocated
                  { key := key, value := value, version := 1,
                    belong := s.segment_list_.head_segment, charge := 1, refs := u32 (1 + 1) }
                segment_list_ := sl
                usage_ := u64 (s.usage_ + 1) } with
          | error e => rw [h3] at h1; cases h1
          | ok s3 =>
            rw [h3] at h1
            cases h1
            exact Counted.counted_evictLoop hN fuel hnew h3
  | Lookup key value =>
    unfold step at hr
    simp only at hr
    cases h1 : Lookup S fuel s key value with
    | error e => rw [h1] at hr; cases hr
    | ok q =>
      rw [h1] at hr
      cases hr
      unfold Lookup at h1
      cases hk : HashMap.find s.hash_map_ key with
      | none =>
        rw [hk] at h1
        cases h1
        exact h.counted_mono (Nat.le_succ N)
      | some p =>
        rw [hk] at h1
        simp only at h1
        cases hp : HashMap.find s.entries p with
        | none => rw [hp] at h1; cases h1
        | some e =>
          rw [hp] at h1
          simp only at h1
          split at h1
          · cases h2 : SegmentList.Add S fuel s.segment_list_ p (u32 (e.version + 1)) with
            | error f => rw [h2] at h1; cases h1
            | ok sl =>
              rw [h2] at h1
              cases h1
              exact (h.counted_update p e
                { e with refs := u32 (e.refs + 1), version := u32 (e.version + 1) } hp rfl
                s.hash_map_ sl).counted_mono (Nat.le_succ N)
          · cases h1
            exact h.counted_mono (Nat.le_succ N)
  | Erase key =>
    unfold step at hr
    simp only at hr
    cases h1 : Erase s key with
    | error e => rw [h1] at hr; cases hr
    | ok q =>
      rw [h1] at hr
      cases hr
      unfold Erase at h1
      cases hk : HashMap.find s.hash_map_ key with
      | none =>
        rw [hk] at h1
        cases h1
        exact h.counted_mono (Nat.le_succ N)
      | some p =>
        rw [hk] at h1
        simp only at h1
        cases h2 : TryFreeEntry s p with
        | error f => rw [h2] at h1; cases h1
        | ok s1 =>
          rw [h2] at h1
          cases h1
          exact (h.counted_TryFreeEntry (by omega) h2).counted_mono (Nat.le_succ N)

end SegmentCache

namespace SegmentList

/-- The method `Add` keeps the number of slots of every segment. -/
theorem Add_slots {S : Nat} (entry new_version : Nat) (fuel : Nat) :
    ∀ {sl sl' : SegmentList}, Slots S sl → Add S fuel sl entry new_version = .ok sl' →
      Slots S sl' := by
  induction fuel with
  | zero => intro sl sl' _ h; cases h
  | succ fuel ih =>
    intro sl sl' hs h
    unfold Add at h
    cases hsegs : sl.segments with
    | nil => rw [hsegs] at h; cases h
    | cons head rest =>
      rw [hsegs] at h
      simp only at h
      have hhead : head.slot_array.length = S := hs head (by rw [hsegs]; exact List.mem_cons_self _ _)
      have hrest : ∀ seg ∈ rest, seg.slot_array.length = S :=
        fun seg hm => hs seg (by rw [hsegs]; exact List.mem_cons_of_mem _ hm)
      unfold Segment.Append at h
      by_cases hused : head.used < S
      · simp only [hused, if_true] at h
        cases h
        intro seg hm
        simp only [List.mem_cons] at hm
        rcases hm with hm | hm
        · rw [hm]
          simp only [List.length_set]
          exact hhead
        · exact hrest seg hm
      · simp only [hused, if_false] at h
        refine ih ?_ h
        intro seg hm
        split at hm
        · simp only [List.mem_cons] at hm
          rcases hm with hm | hm | hm
          · rw [hm]
            simp [Segment.new]
          · rw [hm]
            exact hhead
          · exact hrest seg hm
        · simp only [List.mem_cons] at hm
          rcases hm with hm | hm
          · rw [hm]
            exact hhead
          · exact hrest seg hm

end SegmentList

namespace SegmentCache

variable {V : Type}

/-- The method `TryFreeEntry` leaves the log as it is. -/
theorem TryFreeEntry_log {s s' : SegmentCache V} {p : Nat} (h : TryFreeEntry s p = .ok s') :
    s'.segment_list_ = s.segment_list_ := by
  unfold TryFreeEntry at h
  cases hp : HashMap.find s.entries p with
  | none => rw [hp] at h; cases h
  | some e =>
    rw [hp] at h
    simp only at h
    split at h <;> cases h <;> rfl

/-- One pass of the loop of `EvictOne` leaves the log as it is. -/
theorem evictSlot_log {s s' : SegmentCache V} {slot : Slot} (h : evictSlot s slot = .ok s') :
    s'.segment_list_ = s.segment_list_ := by
  unfold evictSlot at h
  cases hs : slot.entry with
  | none => rw [hs] at h; cases h
  | some p =>
    rw [hs] at h
    simp only at h
    cases hp : HashMap.find s.entries p with
    | none => rw [hp] at h; cases h
    | some e =>
      rw [hp] at h
      simp only at h
      repeat' split at h
      all_goals first
        | cases h
        | exact TryFreeEntry_log h
        | exact (TryFreeEntry_log h).trans rfl

/-- The loop of `EvictOne` leaves the log as it is. -/
theorem evictSlots_log (slots : List Slot) : ∀ {s s' : SegmentCache V},
    evictSlots s slots = .ok s' → s'.segment_list_ = s.segment_list_ := by
  induction slots with
  | nil => intro s s' h; cases h; rfl
  | cons slot slots ih =>
    intro s s' h
    unfold evictSlots at h
    cases h1 : evictSlot s slot with
    | error e => rw [h1] at h; cases h
    | ok s1 =>
      rw [h1] at h
      rw [ih h, evictSlot_log h1]

/-- The method `EvictOne` keeps the number of slots of every segment. -/
theorem EvictOne_slots {S : Nat} {s s' : SegmentCache V} (hs : s.segment_list_.Slots S)
    (h : EvictOne s = .ok s') : s'.segment_list_.Slots S := by
  unfold EvictOne at h
  unfold SegmentList.Evict at h
  by_cases hc : s.segment_list_.count > 4
  · rw [if_pos hc] at h
    cases hl : s.segment_list_.segments.getLast? with
    | none => rw [hl] at h; cases h
    | some victim =>
      rw [hl] at h
      simp only at h
      rw [evictSlots_log _ h]
      intro seg hm
      exact hs seg (List.mem_of_mem_dropLast hm)
  · rw [if_neg hc] at h
    cases h
    exact hs

/-- The loop of `Insert` keeps the number of slots of every segment. -/
theorem evictLoop_slots {S : Nat} (fuel : Nat) : ∀ {s s' : SegmentCache V},
    s.segment_list_.Slots S → evictLoop fuel s = .ok s' → s'.segment_list_.Slots S := by
  induction fuel with
  | zero =>
    intro s s' hs h
    unfold evictLoop at h
    split at h
    · cases h
    · cases h; exact hs
  | succ fuel ih =>
    intro s s' hs h
    unfold evictLoop at h
    split at h
    · cases h1 : EvictOne s with
      | error e => rw [h1] at h; cases h
      | ok s1 =>
        rw [h1] at h
        exact ih (EvictOne_slots hs h1) h
    · cases h; exact hs

/-- A call keeps the number of slots of every segment. -/
theorem step_slots {S fuel : Nat} {s s' : SegmentCache V} (hs : s.segment_list_.Slots S)
    (op : Op V) {r : Ret V} (hr : step S fuel s op = .ok (r, s')) :
    s'.segment_list_.Slots S := by
  cases op with
  | Insert key value =>
    unfold step at hr
    simp only at hr
    cases h1 : Insert S fuel s key value with
    | error e => rw [h1] at hr; cases hr
    | ok q =>
      rw [h1] at hr
      cases hr
      unfold Insert at h1
      cases hk : HashMap.find s.hash_map_ key with
      | some p =>
        rw [hk] at h1
        simp only at h1
        cases hp : HashMap.find s.entries p with
        | none => rw [hp] at h1; cases h1
        | some e =>
          rw [hp] at h1
          cases h1
          exact hs
      | none =>
        rw [hk] at h1
        simp only at h1
        cases h2 : SegmentList.Add S fuel s.segment_list_ s.allocated 1 with
        | error e => rw [h2] at h1; cases h1
        | ok sl =>
          rw [h2] at h1
          simp only at h1
          have hsl := SegmentList.Add_slots _ _ fuel hs h2
          split at h1
          · cases h1
          · rename_i s3 h3
            cases h1
            exact evictLoop_slots fuel hsl h3
  | Lookup key value =>
    unfold step at hr
    simp only at hr
    cases h1 : Lookup S fuel s key value with
    | error e => rw [h1] at hr; cases hr
    | ok q =>
      rw [h1] at hr
      cases hr
      unfold Lookup at h1
      cases hk : HashMap.find s.hash_map_ key with
      | none =>
        rw [hk] at h1
        cases h1
        exact hs
      | some p =>
        rw [hk] at h1
        simp only at h1
        cases hp : HashMap.find s.entries p with
        | none => rw [hp] at h1; cases h1
        | some e =>
          rw [hp] at h1
          simp only at h1
          split at h1
          · cases h2 : SegmentList.Add S fuel s.segment_list_ p (u32 (e.version + 1)) with
            | error f => rw [h2] at h1; cases h1
            | ok sl =>
              rw [h2] at h1
              cases h1
              exact SegmentList.Add_slots _ _ fuel hs h2
          · cases h1
            exact hs
  | Erase key =>
    unfold step at hr
    simp only at hr
    cases h1 : Erase s key with
    | error e => rw [h1] at hr; cases hr
    | ok q =>
      rw [h1] at hr
      cases hr
      unfold Erase at h1
      cases hk : HashMap.find s.hash_map_ key with
      | none =>
        rw [hk] at h1
        cases h1
        exact hs
      | some p =>
        rw [hk] at h1
        simp only at h1
        cases h2 : TryFreeEntry s p with
        | error f => rw [h2] at h1; cases h1
        | ok s1 =>
          rw [h2] at h1
          cases h1
          show s1.segment_list_.Slots S
          rw [TryFreeEntry_log h2]
          exact hs

/-- The size invariant and the number of slots of every segment after a
sequence of calls that all returned. -/
theorem Counted.counted_run {S fuel : Nat} (ops : List (Op V)) :
    ∀ {N : Nat} {s : SegmentCache V} {rs : List (Ret V)} {s' : SegmentCache V},
      Counted N s → s.segment_list_.Slots S → N + ops.length < 2 ^ 64 →
      run S fuel s ops = .ok (rs, s') →
      Counted (N + ops.length) s' ∧ s'.segment_list_.Slots S := by
  induction ops with
  | nil =>
    intro N s rs s' h hs _ hrun
    cases hrun
    exact ⟨h, hs⟩
  | cons op ops ih =>
    intro N s rs s' h hs hN hrun
    simp only [List.length_cons] at hN ⊢
    unfold run at hrun
    cases h1 : step S fuel s op with
    | error e => rw [h1] at hrun; cases hrun
    | ok q =>
      obtain ⟨r, s1⟩ := q
      rw [h1] at hrun
      simp only at hrun
      cases h2 : run S fuel s1 ops with
      | error e => rw [h2] at hrun; cases hrun
      | ok q2 =>
        obtain ⟨rs2, s2⟩ := q2
        rw [h2] at hrun
        cases hrun
        have hc := h.counted_step (by omega) S fuel op h1
        have := ih hc (step_slots hs op h1) (by omega) h2
        rw [show N + (ops.length + 1) = N + 1 + ops.length from by omega]
        exact this

/-- The size invariant and the number of slots of every segment in every
state that a sequential execution of `n` calls reaches. -/
theorem Reachable.counted {S fuel C n : Nat} (hn : n < 2 ^ 64) {s : SegmentCache V}
    (h : Reachable S fuel C n s) : Counted n s ∧ s.segment_list_.Slots S := by
  obtain ⟨ops, rs, hlen, hrun⟩ := h
  have h0 : Counted 0 (SegmentCache.new S C : SegmentCache V) := by
    refine ⟨rfl, List.nodup_nil, ?_, ?_, Nat.le_refl _⟩
    · intro p e hp
      cases hp
    · intro p hp
      cases hp
  have hs0 : (SegmentCache.new S C : SegmentCache V).segment_list_.Slots S := by
    intro seg hm
    have : seg = Segment.new S 0 := List.mem_singleton.mp hm
    rw [this]
    simp [Segment.new]
  have := Counted.counted_run ops h0 hs0 (by omega) hrun
  rw [hlen, Nat.zero_add] at this
  exact this

/-- The size property follows from the size invariant and the reference-count
property. -/
theorem Counted.sizeExact {N : Nat} {s : SegmentCache V} (h : Counted N s) (hr : s.RefsExact) :
    s.SizeExact := by
  refine ⟨h.1, h.2.1, h.2.2.1, fun p => ⟨fun hp => ?_, fun hp => ?_⟩⟩
  · cases he : HashMap.find s.entries p with
    | none => rw [he] at hp; cases hp
    | some e =>
      obtain ⟨r1, r2⟩ := hr.1 p e he
      unfold indexRef at r1
      by_cases hi : HashMap.find s.hash_map_ e.key = some p
      · exact Or.inl ⟨e.key, hi⟩
      · rw [if_neg hi] at r1
        right
        omega
  · cases he : HashMap.find s.entries p with
    | some e => rfl
    | none =>
      obtain ⟨r1, r2⟩ := hr.2 p he
      rcases hp with ⟨key, hk⟩ | hp
      · exact absurd hk (r2 key)
      · omega

end SegmentCache

namespace FrozenHotCache

variable {V : Type}

theorem deref_fastInsert (s : FrozenHotCache V) (key : Nat) (value : V) (p : Ptr) :
    deref (fastInsert s key value) p = deref s p := by
  cases p <;> rfl

/-- The loop of `ConstructFastCache` over the nodes `pre` of the main list up to
its last node, when `count` stays below the bound of the cut: the walk goes
on to `&m_tail` and ends in a fault there, a dereference of the null pointer
`m_tail.m_next` when the fuel is enough to get there. -/
theorem fastLoop_overrun {FC_size DC_size : Nat} :
    ∀ (pre : List Nat) (s : FrozenHotCache V) (a : Ptr) (count fuel : Nat),
      Chain s a pre .tail → Keyed s pre → s.eviction_counter = 0 →
      count + pre.length ≤ u64 (2 ^ 64 - 20 + FC_size) →
      s.m_tail.m_next = .null → s.m_tail.m_prev ≠ .marker →
      (∃ n, deref s s.m_tail.m_prev = .ok n) →
      (∃ n, deref s s.m_fast_head.m_next = .ok n) →
      ∃ e, fastLoop FC_size DC_size fuel s (firstPtr pre .tail) count true = .error e ∧
        (pre.length + 2 ≤ fuel → e = .nullDeref) := by
  intro pre
  induction pre with
  | nil =>
    intro s a count fuel _ _ he hcount hnext hprev hsn hfh
    obtain ⟨np, hnp⟩ := hsn
    obtain ⟨nf, hnf⟩ := hfh
    have hs1 : setNext s s.m_tail.m_prev .null =
        .ok (put s s.m_tail.m_prev { np with m_next := .null }) := by
      unfold setNext
      rw [hnp]
    simp only [List.length_nil, Nat.add_zero] at hcount
    have hdt : deref s .tail = .ok s.m_tail := rfl
    cases fuel with
    | zero => exact ⟨.outOfFuel, rfl, fun h => by simp at h⟩
    | succ fuel =>
      show ∃ e, fastLoop FC_size DC_size (fuel + 1) s .tail count true = .error e ∧ _
      rw [fastLoop]
      rw [if_neg (by simp)]
      cases hm : HashMap.find s.m_map s.m_tail.m_key with
      | none =>
        refine ⟨.nullDeref, ?_, fun _ => rfl⟩
        have hrem : LruRemove s .tail = .error .nullDeref := by
          unfold LruRemove
          rw [if_neg (by simp)]
          simp only [hdt, bind, Except.bind, hnext, hs1]
          rfl
        simp only [hdt, bind, Except.bind, hm, is_in_list, hprev, ne_eq, not_false_eq_true,
          decide_True, if_true, hrem]
      | some hv =>
        have hfh' : deref (fastInsert s s.m_tail.m_key hv.m_value)
            (fastInsert s s.m_tail.m_key hv.m_value).m_fast_head.m_next = .ok nf := by
          rw [deref_fastInsert]
          exact hnf
        by_cases hcut : count + 1 > u64 (2 ^ 64 - 20 + FC_size)
        · refine ⟨.nullDeref, ?_, fun _ => rfl⟩
          simp only [hdt, bind, Except.bind, hm, hnext, hcut, and_self, if_true, hfh']
          rfl
        · cases fuel with
          | zero =>
            refine ⟨.outOfFuel, ?_, fun h => by simp at h⟩
            simp only [hdt, bind, Except.bind, hm, he, hnext, if_neg hcut, gt_iff_lt,
              Nat.not_lt_zero, false_and, and_true, if_false, fastLoop]
          | succ fuel =>
            refine ⟨.nullDeref, ?_, fun _ => rfl⟩
            simp only [hdt, bind, Except.bind, hm, he, hnext, if_neg hcut, gt_iff_lt,
              Nat.not_lt_zero, false_and, and_true, if_false]
            rw [fastLoop]
            rw [if_neg (by simp)]
            simp only [deref, bind, Except.bind]
  | cons i r ih =>
    intro s a count fuel hc hk he hcount hnext hprev hsn hfh
    obtain ⟨n, hn, _, hnx⟩ := Chain.find_first hc
    obtain ⟨hv, hm⟩ := hk.find_key (List.mem_cons_self _ _) hn
    simp only [List.length_cons] at hcount ⊢
    have hno : ¬ count + 1 > u64 (2 ^ 64 - 20 + FC_size) := by omega
    cases fuel with
    | zero => exact ⟨.outOfFuel, rfl, fun h => by omega⟩
    | succ fuel =>
      show ∃ e, fastLoop FC_size DC_size (fuel + 1) s (.node i) count true = .error e ∧ _
      rw [fastLoop_pass hn hm hno he, hnx]
      obtain ⟨e, h1, h2⟩ := ih (fastInsert s n.m_key hv.m_value) (.node i) (count + 1) fuel
        (Chain.frame hc.2 (fun _ _ => rfl)) (fun j hj => hk j (List.mem_cons_of_mem _ hj)) he
        (by omega) hnext hprev (by simpa only [deref_fastInsert] using hsn)
        (by simpa only [deref_fastInsert] using hfh)
      exact ⟨e, h1, fun h => h2 (by omega)⟩

/-- The method `ConstructFastCache` on a quiescent shard in the Dynamic state
whose main list is shorter than the walk to the cut, which is the case for
every `FC_size` below 20: the call ends in a fault. -/
theorem ConstructFastCache_overrun {FC_size : Nat} {s : FrozenHotCache V} {ids : List Nat}
    (hd : Dynamic s ids) (hFC : FC_size ≤ s.m_max_size) (h64 : s.m_max_size < 2 ^ 63)
    (hlen : ids.length < 2 ^ 63) (hshort : FC_size < 20 ∨ ids.length + 19 < FC_size)
    (hnext : s.m_tail.m_next = .null) (fuel : Nat) :
    ∃ e, ConstructFastCache fuel s FC_size = .error e ∧
      (ids.length + 2 ≤ fuel → e = .nullDeref) := by
  obtain ⟨⟨m1, m2, m3⟩, hnd, hk, _, hf1, hf2⟩ := hd
  obtain ⟨s0, e0, z1, z2, z3, z4, z5⟩ : ∃ s0,
      (if s.eviction_counter > 0 then { s with eviction_counter := 0 } else s) = s0 ∧
      s0.eviction_counter = 0 ∧ s0.nodes = s.nodes ∧ s0.m_map = s.m_map ∧
      s0.m_head = s.m_head ∧ s0.m_tail = s.m_tail := by
    by_cases c4 : s.eviction_counter > 0
    · rw [if_pos c4]
      exact ⟨_, rfl, rfl, rfl, rfl, rfl, rfl⟩
    · rw [if_neg c4]
      exact ⟨s, rfl, by omega, rfl, rfl, rfl, rfl⟩
  have hbound : 0 + ids.length ≤ u64 (2 ^ 64 - 20 + FC_size) := by
    unfold u64
    rcases hshort with h | h <;> omega
  obtain ⟨t0, ht0⟩ : ∃ t0 : FrozenHotCache V, t0 = { s0 with
      m_fast_head := { s0.m_fast_head with m_next := s0.m_head.m_next }
      fast_cache_construct := true } := ⟨_, rfl⟩
  have hsn : ∃ n, deref t0 t0.m_tail.m_prev = .ok n := by
    have hp : t0.m_tail.m_prev = lastPtr .head ids := by rw [ht0]; show s0.m_tail.m_prev = _; rw [z5, m2]
    rw [hp]
    rcases List.eq_nil_or_concat ids with h | ⟨r, l, h⟩
    · rw [h]; exact ⟨_, rfl⟩
    · rw [h, List.concat_eq_append, lastPtr_append]
      obtain ⟨n, hn⟩ := Chain.find_mem m3 (i := l) (by rw [h]; simp)
      have hn0 : HashMap.find t0.nodes l = some n := by rw [ht0]; show HashMap.find s0.nodes l = _; rw [z2]; exact hn
      exact ⟨n, by show deref t0 (.node l) = _; simp only [deref, hn0]⟩
  have hfh : ∃ n, deref t0 t0.m_fast_head.m_next = .ok n := by
    have hp : t0.m_fast_head.m_next = firstPtr ids .tail := by rw [ht0]; show s0.m_head.m_next = _; rw [z4, m1]
    rw [hp]
    cases ids with
    | nil => exact ⟨_, rfl⟩
    | cons i r =>
      obtain ⟨n, hn⟩ := Chain.find_mem m3 (i := i) (List.mem_cons_self _ _)
      have hn0 : HashMap.find t0.nodes i = some n := by rw [ht0]; show HashMap.find s0.nodes i = _; rw [z2]; exact hn
      exact ⟨n, by show deref t0 (.node i) = _; simp only [deref, hn0]⟩
  obtain ⟨e, h1, h2⟩ := @fastLoop_overrun V FC_size (s0.m_max_size - FC_size) ids t0 .head 0 fuel
    (by rw [ht0]; exact Chain.frame m3 (fun i _ => by show HashMap.find s0.nodes i = _; rw [z2]))
    (by
      rw [ht0]
      intro i hi
      have := hk i hi
      show ((HashMap.find s0.nodes i).bind fun n => HashMap.find s0.m_map n.m_key).isSome = true
      rw [z2, z3]
      exact this)
    (by rw [ht0]; exact z1) hbound (by rw [ht0]; show s0.m_tail.m_next = _; rw [z5]; exact hnext)
    (by rw [ht0]; show s0.m_tail.m_prev ≠ _; rw [z5, m2]; exact lastPtr_ne_marker ids)
    hsn hfh
  rw [ht0] at h1
  have hptr : firstPtr ids .tail = s0.m_head.m_next := by rw [z4]; exact m1.symm
  rw [hptr] at h1
  refine ⟨e, ?_, h2⟩
  unfold ConstructFastCache
  rw [if_neg (by omega), if_neg (by rw [hf1]; simp), if_neg (by rw [hf2]; simp)]
  simp only [e0, setNext, deref, put, bind, Except.bind, h1]

end FrozenHotCache

/-- C37, the code against the claim. On a quiescent FrozenHot shard in the
Dynamic state with the main list `ids` (fast list empty, `m_tail.m_next`
null as the constructor leaves it, size at most the capacity) and
`FC_size <= m_max_size`, as the asserted precondition `0 <= ratio <= 1` makes
it: when `FC_size < 20`, or when the main list has fewer than `FC_size - 19`
nodes, the walk of `ConstructFastCache` is not cut before the end of the main
list; its loop tests for `&m_fast_tail`, so it goes on to `&m_tail`, treats
this sentinel as an entry and ends in a fault. With fuel for `ids.length + 2`
passes the fault is the dereference of the null pointer `m_tail.m_next`; with
less fuel the model runs out of fuel. The call never returns. -/
theorem frozenhot_construct_walks_into_tail {V : Type} (fuel FC_size : Nat)
    (s : FrozenHotCache V) (ids : List Nat) (hd : FrozenHotCache.Dynamic s ids)
    (hFC : FC_size ≤ s.m_max_size) (h64 : s.m_max_size < 2 ^ 63)
    (hsize : s.m_size ≤ s.m_max_size) (hnext : s.m_tail.m_next = .null)
    (hshort : FC_size < 20 ∨ ids.length + 19 < FC_size) :
    ∃ e, FrozenHotCache.ConstructFastCache fuel s FC_size = .error e ∧
      (ids.length + 2 ≤ fuel → e = .nullDeref) :=
  FrozenHotCache.ConstructFastCache_overrun hd hFC h64
    (by have := hd.2.2.2.1; omega) hshort hnext fuel

set_option maxRecDepth 100000 in
/-- The failing inputs of C37. On the shard of capacity 20 that holds the keys 5
and 6, `ConstructFastCache` with the ratio 0.5 (`FC_size = 10`) dereferences
a null pointer. So it does on a shard of capacity 4, with the ratio 1
(`FC_size = 4`), partly filled or full, and on a shard of capacity 30 that
holds three keys, with the ratio 1 (`FC_size = 30`). -/
theorem frozenhot_construct_walks_into_tail_witness :
    FrozenHotCache.Dynamic FrozenHotCache.sampleDynamic [1, 0] ∧
    FrozenHotCache.ConstructFastCache 4 FrozenHotCache.sampleDynamic 10 = .error .nullDeref ∧
    FrozenHotCache.run 5 (FrozenHotCache.new 4)
      [.Insert 5 50 0, .Insert 6 60 0, .ConstructFastCache 4] = .error .nullDeref ∧
    FrozenHotCache.run 6 (FrozenHotCache.new 4)
      [.Insert 5 50 0, .Insert 6 60 0, .Insert 7 70 0, .Insert 8 80 0, .ConstructFastCache 4]
        = .error .nullDeref ∧
    FrozenHotCache.run 5 (FrozenHotCache.new 30)
      [.Insert 5 50 0, .Insert 6 60 0, .Insert 7 70 0, .ConstructFastCache 30]
        = .error .nullDeref ∧
    ∃ e, FrozenHotCache.ConstructFastCache 4 FrozenHotCache.sampleDynamic 10 = .error e ∧
      (([1, 0] : List Nat).length + 2 ≤ 4 → e = .nullDeref) :=
  ⟨by decide, by decide, by decide, by decide, by decide,
    frozenhot_construct_walks_into_tail 4 10 FrozenHotCache.sampleDynamic [1, 0] (by decide)
      (by decide) (by decide) (by decide) rfl (Or.inl (by decide))⟩

namespace FrozenHotCache

variable {V : Type}

theorem TimesFrom.times_refl (s : FrozenHotCache V) : TimesFrom s s :=
  fun _ n' h => ⟨n', h, rfl, rfl⟩

theorem TimesFrom.times_trans {s s' s'' : FrozenHotCache V} (h1 : TimesFrom s s')
    (h2 : TimesFrom s' s'') : TimesFrom s s'' := by
  intro j n'' h
  obtain ⟨n', hn', t', k'⟩ := h2 j n'' h
  obtain ⟨n, hn, t, k⟩ := h1 j n' hn'
  exact ⟨n, hn, t.trans t', k.trans k'⟩

/-- Replacing the object at a pointer by one with the same key and time. -/
theorem put_times {s : FrozenHotCache V} {p : Ptr} {n0 n : ListNode} (h : deref s p = .ok n0)
    (ht : n0.m_time = n.m_time) (hk : n0.m_key = n.m_key) : TimesFrom s (put s p n) := by
  intro j n' hj
  cases p with
  | node i =>
    change HashMap.find (HashMap.update s.nodes i n) j = some n' at hj
    rw [HashMap.find_update] at hj
    by_cases hji : j = i
    · rw [if_pos hji] at hj
      unfold deref at h
      simp only at h
      cases hf : HashMap.find s.nodes i with
      | none =>
        rw [hji, hf] at hj
        cases hj
      | some m =>
        rw [hf] at h
        rw [hji, hf] at hj
        simp only [Option.map_some', Option.some.injEq] at hj
        have hm : m = n0 := by
          simp only [Except.ok.injEq] at h
          exact h
        rw [← hj]
        exact ⟨m, by rw [hji]; exact hf, by rw [hm]; exact ht, by rw [hm]; exact hk⟩
    · rw [if_neg hji] at hj
      exact ⟨n', hj, rfl, rfl⟩
  | null => exact ⟨n', hj, rfl, rfl⟩
  | marker => exact ⟨n', hj, rfl, rfl⟩
  | head => exact ⟨n', hj, rfl, rfl⟩
  | tail => exact ⟨n', hj, rfl, rfl⟩
  | fast_head => exact ⟨n', hj, rfl, rfl⟩
  | fast_tail => exact ⟨n', hj, rfl, rfl⟩

theorem setPrev_times {s s' : FrozenHotCache V} {p q : Ptr} (h : setPrev s p q = .ok s') :
    TimesFrom s s' := by
  unfold setPrev at h
  cases hd : deref s p with
  | error e => rw [hd] at h; cases h
  | ok n => rw [hd] at h; cases h; exact put_times hd rfl rfl

theorem setNext_times {s s' : FrozenHotCache V} {p q : Ptr} (h : setNext s p q = .ok s') :
    TimesFrom s s' := by
  unfold setNext at h
  cases hd : deref s p with
  | error e => rw [hd] at h; cases h
  | ok n => rw [hd] at h; cases h; exact put_times hd rfl rfl

theorem delete_times {s s' : FrozenHotCache V} {p : Ptr} (h : delete s p = .ok s') :
    TimesFrom s s' := by
  cases p with
  | node i =>
    unfold delete at h
    simp only at h
    cases hf : HashMap.find s.nodes i with
    | none => rw [hf] at h; cases h
    | some m =>
      rw [hf] at h
      cases h
      intro j n' hj
      change HashMap.find (HashMap.erase s.nodes i) j = some n' at hj
      rw [HashMap.find_erase] at hj
      by_cases hji : j = i
      · rw [if_pos hji] at hj; cases hj
      · rw [if_neg hji] at hj
        exact ⟨n', hj, rfl, rfl⟩
  | null => cases h; exact TimesFrom.times_refl _
  | marker => cases h
  | head => cases h
  | tail => cases h
  | fast_head => cases h
  | fast_tail => cases h

theorem LruRemove_times {s s' : FrozenHotCache V} {node : Ptr} (h : LruRemove s node = .ok s') :
    TimesFrom s s' := by
  unfold LruRemove at h
  split_ifs at h
  obtain ⟨n, _, h⟩ := bind_ok h
  obtain ⟨s1, h1, h⟩ := bind_ok h
  obtain ⟨s2, h2, h⟩ := bind_ok h
  exact (setNext_times h1).times_trans ((setPrev_times h2).times_trans (setPrev_times h))

theorem LruPushFront_times {s s' : FrozenHotCache V} {node : Ptr}
    (h : LruPushFront s node = .ok s') : TimesFrom s s' := by
  unfold LruPushFront at h
  obtain ⟨s1, h1, h⟩ := bind_ok h
  obtain ⟨s2, h2, h⟩ := bind_ok h
  obtain ⟨s3, h3, h⟩ := bind_ok h
  exact (setPrev_times h1).times_trans ((setNext_times h2).times_trans
    ((setPrev_times h3).times_trans (setNext_times h)))

theorem evictTombs_times (fuel : Nat) : ∀ {s s' : FrozenHotCache V} {p : Ptr},
    evictTombs fuel s = .ok (p, s') → TimesFrom s s' := by
  induction fuel with
  | zero => intro s s' p h; cases h
  | succ fuel ih =>
    intro s s' p h
    unfold evictTombs at h
    obtain ⟨n, _, h⟩ := bind_ok h
    split_ifs at h
    · obtain ⟨s1, h1, h⟩ := bind_ok h
      obtain ⟨s2, h2, h⟩ := bind_ok h
      exact (LruRemove_times h1).times_trans ((delete_times h2).times_trans (ih h))
    · cases h
      exact TimesFrom.times_refl _

theorem Evict_times {fuel : Nat} {s s' : FrozenHotCache V} {b : Bool}
    (h : Evict fuel s = .ok (b, s')) : TimesFrom s s' := by
  unfold Evict at h
  obtain ⟨r, hr, h⟩ := bind_ok h
  obtain ⟨p, s0⟩ := r
  have h0 := evictTombs_times fuel hr
  simp only at h
  split_ifs at h
  · cases h
    exact h0
  · obtain ⟨s1, h1, h⟩ := bind_ok h
    obtain ⟨n, _, h⟩ := bind_ok h
    have h01 := h0.times_trans (LruRemove_times h1)
    split at h
    · cases h
      exact h01
    · obtain ⟨s2, h2, h⟩ := bind_ok h
      cases h
      have h2' : TimesFrom { s1 with m_map := HashMap.erase s1.m_map n.m_key } s' :=
        delete_times h2
      exact h01.times_trans h2'

/-- A chain stays a chain when the links of its nodes stay as they are. -/
theorem Chain.relink {s s' : FrozenHotCache V} {ids : List Nat} {a b : Ptr}
    (hc : Chain s a ids b)
    (h : ∀ i ∈ ids, (HashMap.find s'.nodes i).map (fun n => (n.m_prev, n.m_next)) =
      (HashMap.find s.nodes i).map (fun n => (n.m_prev, n.m_next))) : Chain s' a ids b := by
  induction ids generalizing a with
  | nil => trivial
  | cons i r ih =>
    refine ⟨?_, ih hc.2 (fun j hj => h j (List.mem_cons_of_mem _ hj))⟩
    rw [h i (List.mem_cons_self _ _)]
    exact hc.1

end FrozenHotCache

namespace FrozenHotCache

variable {V : Type}

/-- `LruPushAfterMarker` of an allocated node that is not in the main list,
when the marker is in the main list: the node becomes the node after the
marker; it keeps its key and its time, and so does every other node. -/
theorem LruPushAfterMarker_chain {s : FrozenHotCache V} {xs ys : List Nat} {mk a : Nat}
    {n : ListNode} (hm : MainList s (xs ++ mk :: ys)) (hnd : (xs ++ mk :: ys).Nodup)
    (hmk : s.m_marker = .node mk) (ha : a ∉ xs ++ mk :: ys)
    (hn : HashMap.find s.nodes a = some n) :
    ∃ s' nm, LruPushAfterMarker s (.node a) = .ok s' ∧ MainList s' (xs ++ mk :: a :: ys) ∧
      HashMap.find s.nodes mk = some nm ∧
      HashMap.find s'.nodes a =
        some { n with m_prev := .node mk, m_next := firstPtr ys .tail } ∧
      HashMap.find s'.nodes mk = some { nm with m_next := .node a } ∧
      TimesFrom s s' ∧ SameData s s' ∧ s'.allocated = s.allocated ∧
      (∀ j, j ≠ a → j ∉ xs ++ mk :: ys → HashMap.find s'.nodes j = HashMap.find s.nodes j) := by
  obtain ⟨m1, m2, m3⟩ := hm
  have hnd' := List.nodup_append.mp hnd
  have hmk_ys : mk ∉ ys := (List.nodup_cons.mp hnd'.2.1).1
  have hys : ys.Nodup := (List.nodup_cons.mp hnd'.2.1).2
  have hmk_xs : mk ∉ xs := fun hx => hnd'.2.2 hx (List.mem_cons_self _ _)
  have hdisj : ∀ j, j ∈ xs → j ∉ ys := fun j hx hy => hnd'.2.2 hx (List.mem_cons_of_mem _ hy)
  have ha_xs : a ∉ xs := fun h => ha (List.mem_append_left _ h)
  have ha_mk : a ≠ mk := fun h => ha (by rw [h]; simp)
  have ha_ys : a ∉ ys := fun h => ha (by simp [h])
  obtain ⟨c1, c2⟩ := Chain.split m3
  have c1' : Chain s .head xs (.node mk) := c1
  obtain ⟨nm, hnm, hprev, hnext⟩ := Chain.find_first c2
  have c3 : Chain s (.node mk) ys .tail := c2.2
  -- node->m_prev = m_marker
  obtain ⟨t1, e1, a1, b1, k1, d1, f1, g1⟩ := setPrev_node hn (.node mk)
  have hn1 : HashMap.find t1.nodes a = some { n with m_prev := .node mk } := by
    rw [a1 a, if_pos rfl]
  have hnm1 : HashMap.find t1.nodes mk = some nm := by
    rw [a1 mk, if_neg (fun h => ha_mk h.symm)]; exact hnm
  -- node->m_next = m_marker->m_next
  obtain ⟨t2, e2, a2, b2, k2, d2, f2, g2⟩ := setNext_node hn1 nm.m_next
  have hn2 : HashMap.find t2.nodes a =
      some { m_key := n.m_key, m_prev := .node mk, m_next := nm.m_next, m_time := n.m_time } := by
    rw [a2 a, if_pos rfl]
  have hother2 : ∀ j, j ≠ a → HashMap.find t2.nodes j = HashMap.find s.nodes j := by
    intro j hj; rw [a2 j, if_neg hj, a1 j, if_neg hj]
  have hnm2 : HashMap.find t2.nodes mk = some nm := by
    rw [hother2 mk (fun h => ha_mk h.symm)]; exact hnm
  have hmark1 : t1.m_marker = .node mk := by rw [← hmk]; exact g1.2.2.2.2.1
  have hmark2 : t2.m_marker = .node mk := by rw [← hmark1]; exact g2.2.2.2.2.1
  have hfirst : firstPtr (xs ++ mk :: ys) .tail = firstPtr (xs ++ mk :: a :: ys) .tail := by
    rw [firstPtr_app, firstPtr_app]; rfl
  cases ys with
  | nil =>
    have hnx : nm.m_next = .tail := hnext
    obtain ⟨t3, e3, a3, b3, k3, d3, f3, g3⟩ := setPrev_tail t2 (.node a)
    have hnm3 : HashMap.find t3.nodes mk = some nm := by rw [a3]; exact hnm2
    have hmark3 : t3.m_marker = .node mk := by rw [← hmark2]; exact g3.2.2.2.2.1
    obtain ⟨t4, e4, a4, b4, k4, d4, f4, g4⟩ := setNext_node hnm3 (.node a)
    have hfind4 : ∀ j, HashMap.find t4.nodes j =
        if j = mk then some { nm with m_next := .node a }
        else if j = a then
          some { m_key := n.m_key, m_prev := .node mk, m_next := nm.m_next, m_time := n.m_time }
        else HashMap.find s.nodes j := by
      intro j
      rw [a4 j]
      by_cases hj : j = mk
      · rw [if_pos hj, if_pos hj]
      · rw [if_neg hj, if_neg hj, a3]
        by_cases hja : j = a
        · rw [if_pos hja, hja]; exact hn2
        · rw [if_neg hja]; exact hother2 j hja
    refine ⟨t4, nm, ?_, ⟨?_, ?_, ?_⟩, hnm, ?_, ?_, ?_, ?_, ?_, ?_⟩
    · unfold LruPushAfterMarker
      rw [if_neg (by rw [hmk]; simp)]
      rw [hnx] at e2
      simp only [hmk, e1, bind, Except.bind, hmark1, deref, hnm1, e2, hmark2, hnm2, hnx, e3,
        hmark3, e4]
    · rw [b4, b3, b2, b1, m1]; exact hfirst
    · rw [k4, k3]
      rw [lastPtr_append]
      rfl
    · apply Chain.join
      · exact Chain.frame c1' (fun j hj => by
          rw [hfind4 j, if_neg (fun h => hmk_xs (by rw [← h]; exact hj)),
            if_neg (fun h => ha_xs (by rw [← h]; exact hj))])
      · refine ⟨?_, ?_, trivial⟩
        · rw [hfind4 mk, if_pos rfl]
          simp only [Option.map_some', hprev]
          rfl
        · rw [hfind4 a, if_neg ha_mk, if_pos rfl]
          simp only [Option.map_some', hnx]
          rfl
    · rw [hfind4 a, if_neg ha_mk, if_pos rfl, hnx]; rfl
    · rw [hfind4 mk, if_pos rfl]
    · exact (setPrev_times e1).times_trans ((setNext_times e2).times_trans
        ((setPrev_times e3).times_trans (setNext_times e4)))
    · exact g1.trans (g2.trans (g3.trans g4))
    · rw [setNext_allocated e4, setPrev_allocated e3, setNext_allocated e2, setPrev_allocated e1]
    · intro j hja hj
      rw [hfind4 j, if_neg (fun h => hj (by rw [h]; simp)), if_neg hja]
  | cons i1 r =>
    have hnx : nm.m_next = .node i1 := hnext
    have hi1a : i1 ≠ a := fun h => ha_ys (by rw [← h]; exact List.mem_cons_self _ _)
    have hi1mk : i1 ≠ mk := fun h => hmk_ys (by rw [← h]; exact List.mem_cons_self _ _)
    have hi1r : i1 ∉ r := (List.nodup_cons.mp hys).1
    have c3' : Chain t2 (.node mk) (i1 :: r) .tail :=
      Chain.frame c3 (fun j hj => hother2 j (fun h => ha_ys (by rw [← h]; exact hj)))
    obtain ⟨n1, hfind1, _, _⟩ := Chain.find_first c3'
    obtain ⟨t3, e3, a3, b3, k3, d3, f3, g3⟩ := setPrev_node hfind1 (.node a)
    have c4 : Chain t3 (.node a) (i1 :: r) .tail := Chain.set_first c3' hi1r hfind1 a3
    have hnm3 : HashMap.find t3.nodes mk = some nm := by
      rw [a3 mk, if_neg (fun h => hi1mk h.symm)]; exact hnm2
    have hmark3 : t3.m_marker = .node mk := by rw [← hmark2]; exact g3.2.2.2.2.1
    obtain ⟨t4, e4, a4, b4, k4, d4, f4, g4⟩ := setNext_node hnm3 (.node a)
    have hfind4 : ∀ j, j ≠ i1 → HashMap.find t4.nodes j =
        if j = mk then some { nm with m_next := .node a }
        else if j = a then
          some { m_key := n.m_key, m_prev := .node mk, m_next := nm.m_next, m_time := n.m_time }
        else HashMap.find s.nodes j := by
      intro j hji
      rw [a4 j]
      by_cases hj : j = mk
      · rw [if_pos hj, if_pos hj]
      · rw [if_neg hj, if_neg hj, a3 j, if_neg hji]
        by_cases hja : j = a
        · rw [if_pos hja, hja]; exact hn2
        · rw [if_neg hja]; exact hother2 j hja
    refine ⟨t4, nm, ?_, ⟨?_, ?_, ?_⟩, hnm, ?_, ?_, ?_, ?_, ?_, ?_⟩
    · unfold LruPushAfterMarker
      rw [if_neg (by rw [hmk]; simp)]
      rw [hnx] at e2
      simp only [hmk, e1, bind, Except.bind, hmark1, deref, hnm1, e2, hmark2, hnm2, hnx, e3,
        hmark3, e4]
    · rw [b4, b3, b2, b1, m1]; exact hfirst
    · rw [k4, k3, k2, k1, m2]
      rw [lastPtr_append, lastPtr_append]
      rfl
    · apply Chain.join
      · exact Chain.frame c1' (fun j hj => by
          rw [hfind4 j (fun h => hdisj j hj (by rw [h]; exact List.mem_cons_self _ _)),
            if_neg (fun h => hmk_xs (by rw [← h]; exact hj)),
            if_neg (fun h => ha_xs (by rw [← h]; exact hj))])
      · refine ⟨?_, ?_, Chain.frame c4 (fun j hj => ?_)⟩
        · rw [hfind4 mk (fun h => hi1mk h.symm), if_pos rfl]
          simp only [Option.map_some', hprev]
          rfl
        · rw [hfind4 a (fun h => hi1a h.symm), if_neg ha_mk, if_pos rfl]
          simp only [Option.map_some', hnx]
          rfl
        · rw [a4 j, if_neg (fun h => hmk_ys (by rw [← h]; exact hj))]
    · rw [hfind4 a (fun h => hi1a h.symm), if_neg ha_mk, if_pos rfl, hnx]; rfl
    · rw [hfind4 mk (fun h => hi1mk h.symm), if_pos rfl]
    · exact (setPrev_times e1).times_trans ((setNext_times e2).times_trans
        ((setPrev_times e3).times_trans (setNext_times e4)))
    · exact g1.trans (g2.trans (g3.trans g4))
    · rw [setNext_allocated e4, setPrev_allocated e3, setNext_allocated e2, setPrev_allocated e1]
    · intro j hja hj
      rw [hfind4 j (fun h => hj (by rw [h]; simp)), if_neg (fun h => hj (by rw [h]; simp)),
        if_neg hja]

end FrozenHotCache

namespace FrozenHotCache

variable {V : Type}

/-- `Lookup`, while a curve is sampled, of a key whose node is in the main
list and has a time that is not later than the time of the marker: the call
returns true with the value of the index, adds one to `movement_counter`,
gives the node the time `now` and moves it to the head of the main list. -/
theorem Lookup_older {s : FrozenHotCache V} {xs ys : List Nat} {i mk : Nat}
    (hm : MainList s (xs ++ i :: ys)) (hnd : (xs ++ i :: ys).Nodup)
    {key : Nat} {hv : HashMapValue V}
    (hk : HashMap.find s.m_map key = some hv) (hnode : hv.m_list_node = .node i)
    (hready : s.fast_cache_ready = false) (hfrozen : s.frozen_all = false)
    (hcons : s.fast_cache_construct = false) (hcurve : s.curve_flag = true)
    (hmk : s.m_marker = .node mk) {n m : ListNode}
    (hn : HashMap.find s.nodes i = some n) (hmn : HashMap.find s.nodes mk = some m)
    (hle : n.m_time ≤ m.m_time) (value : V) (list_lock : Bool) (now : Nat) :
    ∃ s', Lookup s key value list_lock now = .ok (true, hv.m_value, s') ∧
      MainList s' (i :: (xs ++ ys)) ∧
      s'.movement_counter = u64 (s.movement_counter + 1) ∧
      (HashMap.find s'.nodes i).map ListNode.m_time = some now ∧
      s'.m_map = s.m_map ∧ s'.m_marker = s.m_marker ∧ s'.curve_flag = s.curve_flag ∧
      s'.allocated = s.allocated ∧ SameData { s with movement_counter := s'.movement_counter } s' ∧
      (∀ j nj', j ≠ i → HashMap.find s'.nodes j = some nj' →
        ∃ nj, HashMap.find s.nodes j = some nj ∧ nj.m_time = nj'.m_time) := by
  obtain ⟨m1, m2, m3⟩ := hm
  obtain ⟨s0, hs0⟩ : ∃ s0 : FrozenHotCache V,
      s0 = { s with movement_counter := u64 (s.movement_counter + 1) } := ⟨_, rfl⟩
  obtain ⟨s1, hs1⟩ : ∃ s1 : FrozenHotCache V,
      s1 = put s0 (.node i) { n with m_time := now } := ⟨_, rfl⟩
  have hfind1 : ∀ j, HashMap.find s1.nodes j =
      if j = i then some { n with m_time := now } else HashMap.find s.nodes j := by
    intro j
    rw [hs1, hs0]
    exact find_update_some hn _ j
  have hm1 : MainList s1 (xs ++ i :: ys) := by
    refine ⟨by rw [hs1, hs0]; exact m1, by rw [hs1, hs0]; exact m2, Chain.relink m3 (fun j _ => ?_)⟩
    rw [hfind1 j]
    by_cases hj : j = i
    · rw [if_pos hj, hj, hn]; rfl
    · rw [if_neg hj]
  have hn1 : HashMap.find s1.nodes i = some { n with m_time := now } := by
    rw [hfind1 i, if_pos rfl]
  obtain ⟨s2, n', e2, hn', hlinked, hm2, hn2, f2, g2, fh2, ft2, d2, al2⟩ :=
    LruRemove_main hm1 hnd
  have hnn : n' = { n with m_time := now } := by
    rw [hn1] at hn'
    exact (Option.some.inj hn').symm
  have hnd' := List.nodup_append.mp hnd
  have hnd1 : (xs ++ ys).Nodup :=
    List.nodup_append.mpr ⟨hnd'.1, (List.nodup_cons.mp hnd'.2.1).2,
      fun j hx hy => hnd'.2.2 hx (List.mem_cons_of_mem _ hy)⟩
  have hi1 : i ∉ xs ++ ys := by
    intro hx
    rcases List.mem_append.mp hx with h | h
    · exact hnd'.2.2 h (List.mem_cons_self _ _)
    · exact (List.nodup_cons.mp hnd'.2.1).1 h
  obtain ⟨s3, e3, hm3, g3, fh3, ft3, d3, al3⟩ := LruPushFront_chain hm2 hnd1 hi1 hn2
  have d13 := d2.trans d3
  have hlinked1 : n.m_prev ≠ .marker := by
    rw [hnn] at hlinked
    exact hlinked
  have htime : (HashMap.find s3.nodes i).map ListNode.m_time = some now := by
    have h2 := LruRemove_times e2
    obtain ⟨ni, hni, _, _⟩ := Chain.find_first hm3.2.2
    obtain ⟨n3, hn3, t3, _⟩ := LruPushFront_times e3 i ni hni
    obtain ⟨n2, hn2', t2, _⟩ := h2 i n3 hn3
    rw [hn1] at hn2'
    rw [hni]
    simp only [Option.map_some', Option.some.injEq]
    rw [← t3, ← t2, ← Option.some.inj hn2']
  have hmv : s3.movement_counter = u64 (s.movement_counter + 1) := by
    rw [d13.2.2.2.2.2.2.2.2.2.2.1, hs1, hs0]
    rfl
  refine ⟨s3, ?_, hm3, hmv, htime, ?_, ?_, ?_, ?_, ?_, ?_⟩
  · unfold Lookup
    have hset : setTime s0 (.node i) now = .ok s1 := by
      rw [hs1]
      unfold setTime
      have : deref s0 (.node i) = .ok n := by
        rw [hs0]
        simp only [deref, hn]
      rw [this]
    have hlk : is_in_list s1 (.node i) = .ok true := by
      unfold is_in_list
      simp only [deref, hn1, ne_eq, hlinked1, not_false_eq_true, decide_True]
    rw [hs0] at hset
    simp only [hmk, hready, hfrozen, hcons, hcurve] at hset
    simp only [hready, hfrozen, Bool.or_self, Bool.false_eq_true, if_false, hk, hcons,
      Bool.not_false, if_true, hcurve, hnode, deref, hn, bind, Except.bind, hmk, ne_eq,
      reduceCtorEq, not_false_eq_true, hmn, hle, hset, hlk, e2, e3, pure, Except.pure]
  · rw [d13.2.2.1, hs1, hs0]
    rfl
  · rw [d13.2.2.2.2.1, hs1, hs0]
    rfl
  · rw [d13.2.2.2.2.2.2.2.2.2.1, hs1, hs0]
    rfl
  · rw [al3, al2, hs1, hs0]
    rfl
  · have d01 : SameData { s with movement_counter := s3.movement_counter } s1 := by
      rw [hmv, hs1, hs0]
      exact SameData.refl _
    exact d01.trans d13
  · intro j nj' hji hj
    obtain ⟨n3, hn3, t3, _⟩ := LruPushFront_times e3 j nj' hj
    obtain ⟨n2, hn2', t2, _⟩ := LruRemove_times e2 j n3 hn3
    rw [hfind1 j, if_neg hji] at hn2'
    exact ⟨n2, hn2', t2.trans t3⟩

/-- `Lookup`, while a curve is sampled, of a key whose node has a time later
than the time of the marker: the call returns true with the value of the
index and changes nothing. -/
theorem Lookup_newer {s : FrozenHotCache V} {i mk : Nat} {key : Nat} {hv : HashMapValue V}
    (hk : HashMap.find s.m_map key = some hv) (hnode : hv.m_list_node = .node i)
    (hready : s.fast_cache_ready = false) (hfrozen : s.frozen_all = false)
    (hcons : s.fast_cache_construct = false) (hcurve : s.curve_flag = true)
    (hmk : s.m_marker = .node mk) {n m : ListNode}
    (hn : HashMap.find s.nodes i = some n) (hmn : HashMap.find s.nodes mk = some m)
    (hlt : m.m_time < n.m_time) (value : V) (list_lock : Bool) (now : Nat) :
    Lookup s key value list_lock now = .ok (true, hv.m_value, s) := by
  unfold Lookup
  have hnle : ¬ n.m_time ≤ m.m_time := by omega
  simp only [hready, hfrozen, Bool.or_self, Bool.false_eq_true, if_false, hk, hcons,
    Bool.not_false, if_true, hcurve, hnode, deref, hn, bind, Except.bind, hmk, ne_eq,
    reduceCtorEq, not_false_eq_true, hmn, hnle, pure, Except.pure]

end FrozenHotCache

namespace FrozenHotCache

variable {V : Type}

/-- The statements `node->m_time = m_marker->m_time; LruPushAfterMarker(node)`
of `Insert`, for an allocated node `a` that is not in the main list, when the
marker is: the node gets the time of the marker and becomes the node after
the marker. -/
theorem pushAfterMarker_timed {s : FrozenHotCache V} {xs ys : List Nat} {mk a : Nat}
    {n m : ListNode} (hm : MainList s (xs ++ mk :: ys)) (hnd : (xs ++ mk :: ys).Nodup)
    (hmk : s.m_marker = .node mk) (ha : a ∉ xs ++ mk :: ys)
    (hn : HashMap.find s.nodes a = some n) (hmn : HashMap.find s.nodes mk = some m) :
    ∃ s1 s', setTime s (.node a) m.m_time = .ok s1 ∧ LruPushAfterMarker s1 (.node a) = .ok s' ∧
      MainList s' (xs ++ mk :: a :: ys) ∧
      HashMap.find s'.nodes a =
        some { m_key := n.m_key, m_prev := .node mk, m_next := firstPtr ys .tail,
               m_time := m.m_time } ∧
      HashMap.find s'.nodes mk = some { m with m_next := .node a } ∧
      SameData s s' ∧ s'.allocated = s.allocated ∧
      (∀ j, j ≠ a → j ∉ xs ++ mk :: ys → HashMap.find s'.nodes j = HashMap.find s.nodes j) := by
  have ha_mk : a ≠ mk := fun h => ha (by rw [h]; simp)
  obtain ⟨s1, hs1⟩ : ∃ s1 : FrozenHotCache V,
      s1 = put s (.node a) { n with m_time := m.m_time } := ⟨_, rfl⟩
  have hfind1 : ∀ j, HashMap.find s1.nodes j =
      if j = a then some { n with m_time := m.m_time } else HashMap.find s.nodes j := by
    intro j
    rw [hs1]
    exact find_update_some hn _ j
  have hm1 : MainList s1 (xs ++ mk :: ys) := by
    refine ⟨by rw [hs1]; exact hm.1, by rw [hs1]; exact hm.2.1, Chain.frame hm.2.2 (fun j hj => ?_)⟩
    rw [hfind1 j, if_neg (fun h => ha (by rw [← h]; exact hj))]
  have hn1 : HashMap.find s1.nodes a = some { n with m_time := m.m_time } := by
    rw [hfind1 a, if_pos rfl]
  have hmk1 : s1.m_marker = .node mk := by rw [hs1]; exact hmk
  obtain ⟨s', nm, e, hm', hnm, hna, hnmk, _, d, al, fr⟩ :=
    LruPushAfterMarker_chain hm1 hnd hmk1 ha hn1
  have hnm' : nm = m := by
    rw [hfind1 mk, if_neg (fun h => ha_mk h.symm), hmn] at hnm
    exact (Option.some.inj hnm).symm
  have hset : setTime s (.node a) m.m_time = .ok s1 := by
    rw [hs1]
    unfold setTime
    have : deref s (.node a) = .ok n := by simp only [deref, hn]
    rw [this]
  have d1 : SameData s s1 := by rw [hs1]; exact SameData.refl _
  refine ⟨s1, s', hset, e, hm', hna, by rw [hnmk, hnm'], d1.trans d, ?_, fun j hja hj => ?_⟩
  · rw [al, hs1]; rfl
  · rw [fr j hja hj, hfind1 j, if_neg hja]

end FrozenHotCache

namespace FrozenHotCache

variable {V : Type}

/-- `Insert` of a key that is not resident while a curve is sampled, into a
shard with room: the call returns true; the new node has the time of the
marker and is the node after the marker in the main list. -/
theorem Insert_profiling_room {fuel : Nat} {s : FrozenHotCache V} {xs ys : List Nat} {mk : Nat}
    (hp : Profiling s xs mk ys) (hroom : s.m_size < s.m_max_size)
    {key : Nat} (hkey : HashMap.find s.m_map key = none)
    (value : V) (now : Nat) :
    ∃ s' nm, Insert fuel s key value now = .ok (true, s') ∧
      Profiling s' xs mk (s.allocated :: ys) ∧
      HashMap.find s'.m_map key = some ⟨value, .node s.allocated⟩ ∧
      HashMap.find s.nodes mk = some nm ∧
      HashMap.find s'.nodes s.allocated =
        some { m_key := key, m_prev := .node mk, m_next := firstPtr ys .tail,
               m_time := nm.m_time } ∧
      HashMap.find s'.nodes mk = some { nm with m_next := .node s.allocated } ∧
      s'.movement_counter = s.movement_counter := by
  obtain ⟨hm, hnd, hmk, hcurve, he, hready, hfrozen, hcons, hlt, hnone⟩ := hp
  have ha : s.allocated ∉ xs ++ mk :: ys := fun h => Nat.lt_irrefl _ (hlt _ h)
  have ha_mk : s.allocated ≠ mk := fun h => ha (by rw [h]; simp)
  obtain ⟨nm, hnm⟩ := Chain.find_mem hm.2.2 (i := mk) (by simp)
  obtain ⟨s2, hs2⟩ : ∃ s2 : FrozenHotCache V, s2 = { s with
      m_map := HashMap.add s.m_map key ⟨value, .node s.allocated⟩
      nodes := HashMap.add s.nodes s.allocated
        { m_key := key, m_prev := .marker, m_next := .null, m_time := now }
      allocated := s.allocated + 1 } := ⟨_, rfl⟩
  have hfind2 : ∀ j, HashMap.find s2.nodes j =
      if s.allocated = j then
        some { m_key := key, m_prev := .marker, m_next := .null, m_time := now }
      else HashMap.find s.nodes j := by
    intro j
    rw [hs2]
    exact HashMap.find_add _ _ _ _
  have hmain2 : MainList s2 (xs ++ mk :: ys) := by
    refine ⟨by rw [hs2]; exact hm.1, by rw [hs2]; exact hm.2.1,
      Chain.frame hm.2.2 (fun j hj => ?_)⟩
    rw [hfind2 j, if_neg (fun h => ha (by rw [h]; exact hj))]
  have hn2 : HashMap.find s2.nodes s.allocated =
      some { m_key := key, m_prev := .marker, m_next := .null, m_time := now } := by
    rw [hfind2, if_pos rfl]
  have hnm2 : HashMap.find s2.nodes mk = some nm := by
    rw [hfind2, if_neg ha_mk]; exact hnm
  have hmk2 : s2.m_marker = .node mk := by rw [hs2]; exact hmk
  obtain ⟨s3, s4, eset, epush, hm4, hna4, hnm4, d4, al4, fr4⟩ :=
    pushAfterMarker_timed hmain2 hnd hmk2 ha hn2 hnm2
  obtain ⟨z1, z2, z3, z4, z5, z6, z7, z8, z9, z10, z11, z12⟩ := d4
  rw [hs2] at eset z1 z2 z3 z4 z5 z6 z7 z8 z9 z10 z11 al4 hnm2
  have hmax : s4.m_max_size = s.m_max_size := z1
  have hsz : s4.m_size = s.m_size := z2
  have hmap : s4.m_map = HashMap.add s.m_map key ⟨value, .node s.allocated⟩ := z3
  have hmark : s4.m_marker = s.m_marker := z5
  have hrd : s4.fast_cache_ready = s.fast_cache_ready := z6
  have hfr : s4.frozen_all = s.frozen_all := z7
  have hco : s4.fast_cache_construct = s.fast_cache_construct := z8
  have hen : s4.enable_insert = s.enable_insert := z9
  have hcu : s4.curve_flag = s.curve_flag := z10
  have hmv : s4.movement_counter = s.movement_counter := z11
  have al4' : s4.allocated = s.allocated + 1 := al4
  have hnot : ¬ s4.m_size > s4.m_max_size := by rw [hmax, hsz]; omega
  refine ⟨{ s4 with m_size := u64 (s4.m_size + 1) }, nm, ?_, ?_, ?_, hnm, hna4, hnm4, hmv⟩
  · simp only [he, hcons, hcurve, hmk] at eset
    have hdm : HashMap.find (HashMap.add s.nodes s.allocated
        ({ m_key := key, m_prev := .marker, m_next := .null, m_time := now } : ListNode)) mk =
        some nm := hnm2
    unfold Insert
    simp only [he, hcons, hcurve, hmk, newNode, hkey, Bool.not_true, Bool.false_eq_true,
      if_false, ge_iff_le, Nat.not_le.mpr hroom, pure, Except.pure, bind, Except.bind, deref,
      hdm, eset, epush, Bool.not_false, if_true, if_neg hnot]
  · refine ⟨hm4.main_of_eq rfl rfl rfl, ?_, hmark.trans hmk, hcu.trans hcurve, hen.trans he, hrd.trans hready,
      hfr.trans hfrozen, hco.trans hcons, ?_, ?_⟩
    · have hnd' := List.nodup_append.mp hnd
      refine List.nodup_append.mpr ⟨hnd'.1, ?_, ?_⟩
      · have h1 := List.nodup_cons.mp hnd'.2.1
        exact List.nodup_cons.mpr ⟨by
          intro h
          rcases List.mem_cons.mp h with h | h
          · exact ha_mk h.symm
          · exact h1.1 h, List.nodup_cons.mpr ⟨fun h => ha (by simp [h]), h1.2⟩⟩
      · intro j hx hy
        rcases List.mem_cons.mp hy with h | h
        · exact hnd'.2.2 hx (by rw [h]; exact List.mem_cons_self _ _)
        · rcases List.mem_cons.mp h with h | h
          · exact ha (by rw [← h]; exact List.mem_append_left _ hx)
          · exact hnd'.2.2 hx (List.mem_cons_of_mem _ h)
    · intro i hi
      show i < s4.allocated
      rw [al4']
      have : i = s.allocated ∨ i ∈ xs ++ mk :: ys := by
        simp only [List.mem_append, List.mem_cons] at hi ⊢
        tauto
      rcases this with h | h
      · omega
      · have := hlt i h
        omega
    · intro i hi
      have hi' : s.allocated + 1 ≤ i := by
        have : s4.allocated ≤ i := hi
        omega
      show HashMap.find s4.nodes i = none
      rw [fr4 i (by omega) (fun h => by have := hlt i h; omega), hfind2 i, if_neg (by omega)]
      exact hnone i (by omega)
  · show HashMap.find s4.m_map key = _
    rw [hmap, HashMap.find_add, if_pos rfl]

/-- `Insert` of a key that is not resident while a curve is sampled, into a
shard that is exactly full and whose last node carries a key of the index
that is not the tomb key: the call evicts the last node and returns true; the
new node has the time of the marker and is the node after the marker in the
main list. -/
theorem Insert_profiling_full {fuel : Nat} {s : FrozenHotCache V} {xs ys : List Nat}
    {mk t : Nat} (hp : Profiling s xs mk (ys ++ [t])) (hfull : s.m_size = s.m_max_size)
    {nt : ListNode} (hnt : HashMap.find s.nodes t = some nt) (htomb : nt.m_key ≠ kTombKey)
    {hvt : HashMapValue V} (hkt : HashMap.find s.m_map nt.m_key = some hvt)
    (hfuel : 1 ≤ fuel) {key : Nat} (hkey : HashMap.find s.m_map key = none)
    (value : V) (now : Nat) :
    ∃ s' nm m', Insert fuel s key value now = .ok (true, s') ∧
      Profiling s' xs mk (s.allocated :: ys) ∧
      HashMap.find s'.m_map key = some ⟨value, .node s.allocated⟩ ∧
      HashMap.find s.nodes mk = some nm ∧
      HashMap.find s'.nodes s.allocated =
        some { m_key := key, m_prev := .node mk, m_next := firstPtr ys .tail,
               m_time := nm.m_time } ∧
      HashMap.find s'.nodes mk = some m' ∧ m'.m_time = nm.m_time ∧
      m'.m_next = .node s.allocated ∧
      s'.movement_counter = s.movement_counter := by
  obtain ⟨hm, hnd, hmk, hcurve, he, hready, hfrozen, hcons, hlt, hnone⟩ := hp
  have hlist : xs ++ mk :: (ys ++ [t]) = (xs ++ mk :: ys) ++ [t] := by simp
  rw [hlist] at hm hnd hlt
  have ha : s.allocated ∉ (xs ++ mk :: ys) ++ [t] := fun h => Nat.lt_irrefl _ (hlt _ h)
  have hat : s.allocated ≠ t := fun h => ha (by rw [h]; simp)
  have hap : s.allocated ∉ xs ++ mk :: ys := fun h => ha (List.mem_append_left _ h)
  have ha_mk : s.allocated ≠ mk := fun h => hap (by rw [h]; simp)
  have hndp : (xs ++ mk :: ys).Nodup := (List.nodup_append.mp hnd).1
  have hmk_t : mk ≠ t := by
    intro h
    exact (List.nodup_append.mp hnd).2.2 (by simp : mk ∈ xs ++ mk :: ys) (by rw [h]; simp)
  obtain ⟨nm, hnm⟩ := Chain.find_mem hm.2.2 (i := mk) (by simp)
  obtain ⟨s2, hs2⟩ : ∃ s2 : FrozenHotCache V, s2 = { s with
      m_map := HashMap.add s.m_map key ⟨value, .node s.allocated⟩
      nodes := HashMap.add s.nodes s.allocated
        { m_key := key, m_prev := .marker, m_next := .null, m_time := now }
      allocated := s.allocated + 1 } := ⟨_, rfl⟩
  have hfind2 : ∀ j, HashMap.find s2.nodes j =
      if s.allocated = j then
        some { m_key := key, m_prev := .marker, m_next := .null, m_time := now }
      else HashMap.find s.nodes j := by
    intro j
    rw [hs2]
    exact HashMap.find_add _ _ _ _
  have hmain2 : MainList s2 ((xs ++ mk :: ys) ++ [t]) := by
    refine ⟨by rw [hs2]; exact hm.1, by rw [hs2]; exact hm.2.1,
      Chain.frame hm.2.2 (fun j hj => ?_)⟩
    rw [hfind2 j, if_neg (fun h => ha (by rw [h]; exact hj))]
  have hnt2 : HashMap.find s2.nodes t = some nt := by
    rw [hfind2, if_neg hat]; exact hnt
  have hnm2 : HashMap.find s2.nodes mk = some nm := by
    rw [hfind2, if_neg ha_mk]; exact hnm
  have hne : key ≠ nt.m_key := by
    intro hx
    rw [hx, hkt] at hkey
    cases hkey
  have hkt2 : HashMap.find s2.m_map nt.m_key = some hvt := by
    rw [hs2]
    show HashMap.find (HashMap.add s.m_map key _) nt.m_key = _
    rw [HashMap.find_add, if_neg hne]
    exact hkt
  obtain ⟨s3, e3, hmain3, hmap3, f3, _, hgone3, fh3, ft3, d3, al3⟩ :=
    Evict_tail hmain2 hnd hnt2 htomb hkt2 hfuel
  have ht3 := Evict_times e3
  have hn3 : HashMap.find s3.nodes s.allocated =
      some { m_key := key, m_prev := .marker, m_next := .null, m_time := now } := by
    rw [f3 _ hat hap, hfind2, if_pos rfl]
  obtain ⟨m3, hm3⟩ := Chain.find_mem hmain3.2.2 (i := mk) (by simp)
  have hm3t : m3.m_time = nm.m_time := by
    obtain ⟨n2, hn2, t2, _⟩ := ht3 mk m3 hm3
    rw [hnm2] at hn2
    rw [← t2, ← Option.some.inj hn2]
  obtain ⟨z1, z2, z3, z4, z5, z6, z7, z8, z9, z10, z11, z12⟩ := d3
  have z1' : s3.m_max_size = s2.m_max_size := z1
  have z2' : s3.m_size = s2.m_size := z2
  have z5' : s3.m_marker = s2.m_marker := z5
  have z6' : s3.fast_cache_ready = s2.fast_cache_ready := z6
  have z7' : s3.frozen_all = s2.frozen_all := z7
  have z8' : s3.fast_cache_construct = s2.fast_cache_construct := z8
  have z9' : s3.enable_insert = s2.enable_insert := z9
  have z10' : s3.curve_flag = s2.curve_flag := z10
  have z11' : s3.movement_counter = s2.movement_counter := z11
  rw [hs2] at z1' z2' z5' z6' z7' z8' z9' z10' z11' e3 al3
  have x5 : s3.m_marker = .node mk := z5'.trans hmk
  have x9 : s3.enable_insert = true := z9'.trans he
  have x10 : s3.curve_flag = true := z10'.trans hcurve
  have al3' : s3.allocated = s.allocated + 1 := al3
  obtain ⟨s3', s4, eset, epush, hm4, hna4, hnm4, d4, al4, fr4⟩ :=
    pushAfterMarker_timed hmain3 hndp x5 hap hn3 hm3
  obtain ⟨y1, y2, y3, y4, y5, y6, y7, y8, y9, y10, y11, y12⟩ := d4
  have hnot : ¬ s.m_size > s4.m_max_size := by
    rw [y1, z1']
    show ¬ s.m_size > s.m_max_size
    omega
  refine ⟨s4, nm, { m3 with m_next := .node s.allocated }, ?_, ?_, ?_, hnm, ?_, hnm4, hm3t,
    rfl, ?_⟩
  · have hge : s.m_size ≥ s.m_max_size := by omega
    simp only [he, hcons, hcurve, hmk] at e3
    unfold Insert
    simp only [he, hcons, hcurve, hmk, newNode, hkey, Bool.not_true, Bool.false_eq_true,
      if_false, ge_iff_le, hge, pure, Except.pure, bind, Except.bind, e3, x9, x10, x5, deref,
      hm3, eset, epush, Bool.not_false, if_true, if_neg hnot]
  · refine ⟨hm4, ?_, y5.trans x5, y10.trans x10, y9.trans x9,
      (y6.trans z6').trans hready, (y7.trans z7').trans hfrozen, (y8.trans z8').trans hcons,
      ?_, ?_⟩
    · have hnd' := List.nodup_append.mp hndp
      refine List.nodup_append.mpr ⟨hnd'.1, ?_, ?_⟩
      · have h1 := List.nodup_cons.mp hnd'.2.1
        exact List.nodup_cons.mpr ⟨by
          intro h
          rcases List.mem_cons.mp h with h | h
          · exact ha_mk h.symm
          · exact h1.1 h, List.nodup_cons.mpr ⟨fun h => hap (by simp [h]), h1.2⟩⟩
      · intro j hx hy
        rcases List.mem_cons.mp hy with h | h
        · exact hnd'.2.2 hx (by rw [h]; exact List.mem_cons_self _ _)
        · rcases List.mem_cons.mp h with h | h
          · exact hap (by rw [← h]; exact List.mem_append_left _ hx)
          · exact hnd'.2.2 hx (List.mem_cons_of_mem _ h)
    · intro i hi
      rw [al4, al3']
      have : i = s.allocated ∨ i ∈ xs ++ mk :: ys := by
        simp only [List.mem_append, List.mem_cons] at hi ⊢
        tauto
      rcases this with h | h
      · omega
      · have := hlt i (List.mem_append_left _ h)
        omega
    · intro i hi
      have hi' : s.allocated + 1 ≤ i := by
        rw [al4, al3'] at hi
        exact hi
      have hit : i ≠ t := by
        intro h
        have := hlt t (by simp)
        omega
      have hip : i ∉ xs ++ mk :: ys := fun h => by
        have := hlt i (List.mem_append_left _ h)
        omega
      rw [fr4 i (by omega) hip, f3 i hit hip, hfind2 i, if_neg (by omega)]
      exact hnone i (by omega)
  · rw [y3, hmap3, hs2]
    show HashMap.find (HashMap.erase (HashMap.add s.m_map key _) nt.m_key) key = _
    rw [HashMap.find_erase, if_neg hne, HashMap.find_add, if_pos rfl]
  · rw [hna4, hm3t]
  · rw [y11, z11']

end FrozenHotCache

namespace FrozenHotCache

variable {V : Type}

/-- `Insert` of a key that is not resident while a curve is sampled: the call
returns true; the new node has the time of the marker and is the node after
the marker in the main list. -/
theorem Insert_profiling {fuel : Nat} {s : FrozenHotCache V} {xs ys : List Nat} {mk : Nat}
    (hp : Profiling s xs mk ys) (hcan : CanInsert fuel s ys) {key : Nat}
    (hkey : HashMap.find s.m_map key = none) (value : V) (now : Nat) :
    ∃ s' nm m', Insert fuel s key value now = .ok (true, s') ∧
      Profiling s' xs mk (s.allocated :: afterInsert s ys) ∧
      HashMap.find s'.m_map key = some ⟨value, .node s.allocated⟩ ∧
      HashMap.find s.nodes mk = some nm ∧
      HashMap.find s'.nodes s.allocated =
        some { m_key := key, m_prev := .node mk, m_next := firstPtr (afterInsert s ys) .tail,
               m_time := nm.m_time } ∧
      HashMap.find s'.nodes mk = some m' ∧ m'.m_time = nm.m_time ∧
      m'.m_next = .node s.allocated ∧
      s'.movement_counter = s.movement_counter := by
  rcases hcan with hroom | ⟨hfull, hfuel, t, nt, hvt, hlast, hnt, htomb, hkt⟩
  · obtain ⟨s', nm, e, h1, h2, h3, h4, h5, h6⟩ := Insert_profiling_room hp hroom hkey value now
    have hys : afterInsert s ys = ys := by unfold afterInsert; rw [if_pos hroom]
    rw [hys]
    exact ⟨s', nm, _, e, h1, h2, h3, h4, h5, rfl, rfl, h6⟩
  · have hys : afterInsert s ys = ys.dropLast := by
      unfold afterInsert
      rw [if_neg (by omega)]
    have hsplit : ys = ys.dropLast ++ [t] :=
      (List.dropLast_append_getLast? t (by rw [hlast]; rfl)).symm
    rw [hsplit] at hp
    rw [hys]
    exact Insert_profiling_full hp hfull hnt htomb hkt hfuel hkey value now

theorem profiling_sampleCurve : Profiling sampleCurve [] 2 [1, 0] := by
  refine ⟨by decide, by decide, rfl, rfl, rfl, rfl, rfl, rfl, by decide, fun i hi => ?_⟩
  show HashMap.find [(2, _), (1, _), (0, _)] i = none
  have hi' : 3 ≤ i := hi
  have h2 : (2 : Nat) ≠ i := by omega
  have h1 : (1 : Nat) ≠ i := by omega
  have h0 : (0 : Nat) ≠ i := by omega
  rw [show HashMap.find [(2, _), (1, _), (0, _)] i =
    if 2 = i then _ else HashMap.find [(1, _), (0, _)] i from HashMap.find_add _ _ _ _, if_neg h2]
  rw [show HashMap.find [(1, _), (0, _)] i = if 1 = i then _ else HashMap.find [(0, _)] i from
    HashMap.find_add _ _ _ _, if_neg h1]
  rw [show HashMap.find [(0, _)] i = if 0 = i then _ else HashMap.find [] i from
    HashMap.find_add _ _ _ _, if_neg h0]
  rfl

end FrozenHotCache

set_option maxRecDepth 100000 in
/-- The counterexample of C36. A shard of capacity 3 holds the keys 5 and 6 when
`GetCurve` starts at the time 10 and puts the marker, the node 2, at the head
of the main list. `Insert(7, 70)` at the time 20 makes the node 3 with the
time 10 of the marker and splices it right after the marker; `movement_counter`
is 0. The first `Lookup(7)` after it, at the time 30, returns true with 70
and leaves `movement_counter` at 1 and the node 3 at the head of the main
list. -/
theorem frozenhot_first_lookup_after_marker_insert_counts :
    (match FrozenHotCache.run 3 (FrozenHotCache.new 3) [.Insert 5 50 0, .Insert 6 60 0] with
      | .ok r => FrozenHotCache.GetCurve_begin r.2 10
      | .error e => .error e) = .ok FrozenHotCache.sampleCurve ∧
    (match FrozenHotCache.Insert 2 FrozenHotCache.sampleCurve 7 70 20 with
      | .ok r =>
        match FrozenHotCache.Lookup r.2 7 0 true 30 with
        | .ok q =>
          some (r.1, r.2.movement_counter, HashMap.find r.2.nodes 3,
            decide (FrozenHotCache.MainList r.2 [2, 3, 1, 0]), q.1, q.2.1,
            q.2.2.movement_counter, decide (FrozenHotCache.MainList q.2.2 [3, 2, 1, 0]))
        | .error _ => none
      | .error _ => none) =
      some (true, 0, some ⟨7, .node 2, .node 1, 10⟩, true, true, 70, 1, true) := by
  refine ⟨by decide, by rfl⟩

/-! ## The list nodes of a FIFO or LRU shard -/

namespace NodeHeap

variable {P : Type}

theorem nh_firstPtr_app (xs ys : List Nat) (b : NodePtr) :
    firstPtr (xs ++ ys) b = firstPtr xs (firstPtr ys b) := by
  cases xs with
  | nil => rfl
  | cons i r => rfl

theorem nh_lastPtr_append (a : NodePtr) (xs ys : List Nat) :
    lastPtr a (xs ++ ys) = lastPtr (lastPtr a xs) ys := by
  induction xs generalizing a with
  | nil => rfl
  | cons i r ih => exact ih (.node i)

theorem nh_lastPtr_concat (a : NodePtr) (xs : List Nat) (l : Nat) :
    lastPtr a (xs ++ [l]) = .node l := by
  rw [nh_lastPtr_append]
  rfl

theorem nh_lastPtr_ne_marker (xs : List Nat) : lastPtr .head xs ≠ .marker := by
  rcases List.eq_nil_or_concat xs with h | ⟨r, l, h⟩
  · rw [h]
    intro hx
    cases hx
  · rw [h, List.concat_eq_append, nh_lastPtr_concat]
    intro hx
    cases hx

theorem Chain.nh_frame {h h' : NodeHeap P} {ids : List Nat} {a b : NodePtr}
    (hc : Chain h a ids b) (hf : ∀ i ∈ ids, links h' i = links h i) : Chain h' a ids b := by
  induction ids generalizing a with
  | nil => trivial
  | cons i r ih =>
    refine ⟨?_, ih hc.2 (fun j hj => hf j (List.mem_cons_of_mem _ hj))⟩
    rw [hf i (List.mem_cons_self _ _)]
    exact hc.1

theorem links_of_find {h h' : NodeHeap P} {i : Nat}
    (hf : HashMap.find h'.nodes i = HashMap.find h.nodes i) : links h' i = links h i := by
  unfold links
  rw [hf]

theorem Chain.nh_split {h : NodeHeap P} {xs ys : List Nat} {a b : NodePtr}
    (hc : Chain h a (xs ++ ys) b) :
    Chain h a xs (firstPtr ys b) ∧ Chain h (lastPtr a xs) ys b := by
  induction xs generalizing a with
  | nil => exact ⟨trivial, hc⟩
  | cons i r ih =>
    obtain ⟨h1, h2⟩ := hc
    obtain ⟨i1, i2⟩ := ih h2
    refine ⟨⟨?_, i1⟩, i2⟩
    cases r with
    | nil => exact h1
    | cons j r2 => exact h1

/-- Two chains that meet make one chain. -/
theorem Chain.nh_join {h : NodeHeap P} {xs ys : List Nat} {a b : NodePtr}
    (h1 : Chain h a xs (firstPtr ys b)) (h2 : Chain h (lastPtr a xs) ys b) :
    Chain h a (xs ++ ys) b := by
  induction xs generalizing a with
  | nil => exact h2
  | cons i r ih =>
    obtain ⟨c1, c2⟩ := h1
    refine ⟨?_, ih c2 h2⟩
    show _ = some (a, firstPtr (r ++ ys) b)
    rw [nh_firstPtr_app]
    exact c1

theorem Chain.nh_find_first {h : NodeHeap P} {i : Nat} {rest : List Nat} {a b : NodePtr}
    (hc : Chain h a (i :: rest) b) :
    ∃ n, HashMap.find h.nodes i = some n ∧ n.prev = a ∧ n.next = firstPtr rest b := by
  obtain ⟨h1, _⟩ := hc
  unfold links at h1
  cases hf : HashMap.find h.nodes i with
  | none => rw [hf] at h1; cases h1
  | some n =>
    rw [hf] at h1
    simp only [Option.map_some', Option.some.injEq, Prod.mk.injEq] at h1
    exact ⟨n, rfl, h1.1, h1.2⟩

theorem Chain.nh_find_mem {h : NodeHeap P} {ids : List Nat} {a b : NodePtr}
    (hc : Chain h a ids b) {i : Nat} (hi : i ∈ ids) :
    ∃ n, HashMap.find h.nodes i = some n := by
  induction ids generalizing a with
  | nil => cases hi
  | cons j r ih =>
    rcases List.mem_cons.mp hi with h1 | h1
    · obtain ⟨n, hn, _⟩ := Chain.nh_find_first hc
      exact ⟨n, by rw [h1]; exact hn⟩
    · exact ih hc.2 h1

/-- Writing the `prev` of the first node of a chain. -/
theorem Chain.nh_set_first {h h' : NodeHeap P} {i : Nat} {rest : List Nat} {a b a' : NodePtr}
    (hc : Chain h a (i :: rest) b) (hi : i ∉ rest) {n : ListNode P}
    (hn : HashMap.find h.nodes i = some n)
    (hu : ∀ j, HashMap.find h'.nodes j =
      if j = i then some { n with prev := a' } else HashMap.find h.nodes j) :
    Chain h' a' (i :: rest) b := by
  obtain ⟨h1, h2⟩ := hc
  refine ⟨?_, Chain.nh_frame h2 (fun j hj => links_of_find ?_)⟩
  · unfold links at h1 ⊢
    rw [hu i, if_pos rfl]
    rw [hn] at h1
    simp only [Option.map_some', Option.some.injEq, Prod.mk.injEq] at h1 ⊢
    exact ⟨trivial, h1.2⟩
  · rw [hu j, if_neg (fun hx : j = i => hi (by rw [← hx]; exact hj))]

/-- Writing the `next` of the last node of a chain. -/
theorem Chain.nh_set_last {h h' : NodeHeap P} {ids : List Nat} {l : Nat} {a b b' : NodePtr}
    (hc : Chain h a (ids ++ [l]) b) (hl : l ∉ ids) {n : ListNode P}
    (hn : HashMap.find h.nodes l = some n)
    (hu : ∀ j, HashMap.find h'.nodes j =
      if j = l then some { n with next := b' } else HashMap.find h.nodes j) :
    Chain h' a (ids ++ [l]) b' := by
  induction ids generalizing a with
  | nil =>
    obtain ⟨h1, _⟩ := hc
    refine ⟨?_, trivial⟩
    unfold links at h1 ⊢
    rw [hu l, if_pos rfl]
    rw [hn] at h1
    simp only [Option.map_some', Option.some.injEq, Prod.mk.injEq] at h1 ⊢
    exact ⟨h1.1, rfl⟩
  | cons i r ih =>
    obtain ⟨h1, h2⟩ := hc
    have hil : i ≠ l := fun hx => hl (by rw [← hx]; exact List.mem_cons_self _ _)
    refine ⟨?_, ih h2 (fun hx => hl (List.mem_cons_of_mem _ hx))⟩
    have hli : links h' i = links h i := links_of_find (by rw [hu i, if_neg hil])
    rw [hli]
    cases r with
    | nil => exact h1
    | cons j r2 => exact h1

/-- What `p->prev = q` does when `p` is an allocated node. -/
theorem nh_setPrev_node {h : NodeHeap P} {i : Nat} {n : ListNode P}
    (hn : HashMap.find h.nodes i = some n) (q : NodePtr) :
    ∃ h', setPrev h (.node i) q = .ok h' ∧
      (∀ j, HashMap.find h'.nodes j =
        if j = i then some { n with prev := q } else HashMap.find h.nodes j) ∧
      h'.head = h.head ∧ h'.tail = h.tail ∧ h'.allocated = h.allocated :=
  ⟨{ h with nodes := HashMap.update h.nodes i { n with prev := q } },
    by simp only [setPrev, deref, hn, put], FrozenHotCache.find_update_some hn _, rfl, rfl, rfl⟩

/-- What `p->next = q` does when `p` is an allocated node. -/
theorem nh_setNext_node {h : NodeHeap P} {i : Nat} {n : ListNode P}
    (hn : HashMap.find h.nodes i = some n) (q : NodePtr) :
    ∃ h', setNext h (.node i) q = .ok h' ∧
      (∀ j, HashMap.find h'.nodes j =
        if j = i then some { n with next := q } else HashMap.find h.nodes j) ∧
      h'.head = h.head ∧ h'.tail = h.tail ∧ h'.allocated = h.allocated :=
  ⟨{ h with nodes := HashMap.update h.nodes i { n with next := q } },
    by simp only [setNext, deref, hn, put], FrozenHotCache.find_update_some hn _, rfl, rfl, rfl⟩

/-- What `tail.prev = q` does. -/
theorem nh_setPrev_tail (h : NodeHeap P) (q : NodePtr) :
    ∃ h', setPrev h .tail q = .ok h' ∧ h'.nodes = h.nodes ∧ h'.head = h.head ∧
      h'.tail.prev = q ∧ h'.tail.next = h.tail.next ∧ h'.allocated = h.allocated :=
  ⟨{ h with tail := { h.tail with prev := q } }, rfl, rfl, rfl, rfl, rfl, rfl⟩

/-- What `head.next = q` does. -/
theorem nh_setNext_head (h : NodeHeap P) (q : NodePtr) :
    ∃ h', setNext h .head q = .ok h' ∧ h'.nodes = h.nodes ∧ h'.head.next = q ∧
      h'.head.prev = h.head.prev ∧ h'.tail = h.tail ∧ h'.allocated = h.allocated :=
  ⟨{ h with head := { h.head with next := q } }, rfl, rfl, rfl, rfl, rfl, rfl⟩

theorem nh_item_of_update {h h' : NodeHeap P} {i : Nat} {n n' : ListNode P}
    (hn : HashMap.find h.nodes i = some n)
    (hu : ∀ j, HashMap.find h'.nodes j = if j = i then some n' else HashMap.find h.nodes j)
    (hk : n'.item = n.item) (j : Nat) :
    (HashMap.find h'.nodes j).map (fun x => x.item) =
      (HashMap.find h.nodes j).map (fun x => x.item) := by
  rw [hu j]
  by_cases hx : j = i
  · rw [if_pos hx, hx, hn]; simp only [Option.map_some', hk]
  · rw [if_neg hx]

/-- The assignment `last->next = b'` for the last node of a chain that starts at
the head sentinel, or `head.next = b'` when the chain is empty. -/
theorem nh_setNext_last {h : NodeHeap P} {xs : List Nat} {b : NodePtr}
    (hc : Chain h .head xs b) (hnd : xs.Nodup) (b' : NodePtr) :
    ∃ h', setNext h (lastPtr .head xs) b' = .ok h' ∧ Chain h' .head xs b' ∧
      h'.head.next = (if xs = [] then b' else h.head.next) ∧ h'.head.prev = h.head.prev ∧
      (∀ j, j ∉ xs → HashMap.find h'.nodes j = HashMap.find h.nodes j) ∧
      (∀ j, (HashMap.find h'.nodes j).map (fun x => x.item) =
        (HashMap.find h.nodes j).map (fun x => x.item)) ∧
      h'.tail = h.tail ∧ h'.allocated = h.allocated := by
  rcases List.eq_nil_or_concat xs with hx | ⟨r, l, hx⟩
  · subst hx
    obtain ⟨h', e, a1, a2, a3, a4, a5⟩ := nh_setNext_head h b'
    exact ⟨h', e, trivial, by rw [if_pos rfl]; exact a2, a3, fun j _ => by rw [a1],
      fun j => by rw [a1], a4, a5⟩
  · rw [List.concat_eq_append] at hx
    subst hx
    have hl : l ∉ r := by
      intro hx
      have := List.nodup_append.mp hnd
      exact this.2.2 hx (List.mem_singleton_self l)
    obtain ⟨n, hn⟩ := Chain.nh_find_mem hc (List.mem_append_right r (List.mem_singleton_self l))
    obtain ⟨h', e, a1, a2, a3, a4⟩ := nh_setNext_node hn b'
    refine ⟨h', ?_, Chain.nh_set_last hc hl hn a1, ?_, by rw [a2], fun j hj => ?_,
      fun j => nh_item_of_update hn a1 rfl j, a3, a4⟩
    · rw [nh_lastPtr_concat]
      exact e
    · rw [if_neg (by simp), a2]
    · rw [a1 j, if_neg (fun hx => hj (by rw [hx]; simp))]

/-- The assignment `first->prev = a'` for the first node of a chain that ends at
the tail sentinel, or `tail.prev = a'` when the chain is empty. -/
theorem nh_setPrev_first {h : NodeHeap P} {ys : List Nat} {a : NodePtr}
    (hc : Chain h a ys .tail) (hnd : ys.Nodup) (a' : NodePtr) :
    ∃ h', setPrev h (firstPtr ys .tail) a' = .ok h' ∧ Chain h' a' ys .tail ∧
      h'.tail.prev = (if ys = [] then a' else h.tail.prev) ∧ h'.tail.next = h.tail.next ∧
      (∀ j, j ∉ ys → HashMap.find h'.nodes j = HashMap.find h.nodes j) ∧
      (∀ j, (HashMap.find h'.nodes j).map (fun x => x.item) =
        (HashMap.find h.nodes j).map (fun x => x.item)) ∧
      h'.head = h.head ∧ h'.allocated = h.allocated := by
  cases ys with
  | nil =>
    obtain ⟨h', e, a1, a2, a3, a4, a5⟩ := nh_setPrev_tail h a'
    exact ⟨h', e, trivial, by rw [if_pos rfl]; exact a3, a4, fun j _ => by rw [a1],
      fun j => by rw [a1], a2, a5⟩
  | cons f r =>
    obtain ⟨n, hn, _, _⟩ := Chain.nh_find_first hc
    obtain ⟨h', e, a1, a2, a3, a4⟩ := nh_setPrev_node hn a'
    refine ⟨h', e, Chain.nh_set_first hc (List.nodup_cons.mp hnd).1 hn a1, ?_, by rw [a3],
      fun j hj => ?_, fun j => nh_item_of_update hn a1 rfl j, a2, a4⟩
    · rw [if_neg (by simp), a3]
    · rw [a1 j, if_neg (fun hx => hj (by rw [hx]; simp))]

/-- `ListRemove` of a node of the list: the node leaves the list, the others
keep their order, and its `prev` is the out-of-list marker. -/
theorem nh_remove {h : NodeHeap P} {xs ys : List Nat} {i : Nat}
    (hm : Linked h (xs ++ i :: ys)) :
    ∃ h' n, ListRemove h (.node i) = .ok h' ∧ HashMap.find h.nodes i = some n ∧
      n.prev ≠ .marker ∧ Linked h' (xs ++ ys) ∧
      HashMap.find h'.nodes i = some { n with prev := .marker } ∧
      (∀ j, j ∉ xs ++ i :: ys → HashMap.find h'.nodes j = HashMap.find h.nodes j) ∧
      (∀ j, (HashMap.find h'.nodes j).map (fun x => x.item) =
        (HashMap.find h.nodes j).map (fun x => x.item)) ∧
      h'.allocated = h.allocated := by
  obtain ⟨m1, m2, m3, hnd, m5, m6⟩ := hm
  have hnd' := List.nodup_append.mp hnd
  have hxs : xs.Nodup := hnd'.1
  have hiys : (i :: ys).Nodup := hnd'.2.1
  have hys : ys.Nodup := (List.nodup_cons.mp hiys).2
  have hi_ys : i ∉ ys := (List.nodup_cons.mp hiys).1
  have hi_xs : i ∉ xs := fun hx => hnd'.2.2 hx (List.mem_cons_self _ _)
  have hdisj : ∀ j, j ∈ xs → j ∉ ys := fun j hx hy => hnd'.2.2 hx (List.mem_cons_of_mem _ hy)
  obtain ⟨c1, c2⟩ := Chain.nh_split m3
  obtain ⟨n, hn, hprev, hnext⟩ := Chain.nh_find_first c2
  have c3 : Chain h (.node i) ys .tail := c2.2
  -- prev->next = next
  obtain ⟨s1, e1, k1, h1, p1, f1, g1, t1, al1⟩ := nh_setNext_last c1 hxs (firstPtr ys .tail)
  have c3' : Chain s1 (.node i) ys .tail :=
    Chain.nh_frame c3 (fun j hj => links_of_find (f1 j (fun hx => hdisj j hx hj)))
  -- next->prev = prev
  obtain ⟨s2, e2, k2, h2, p2, f2, g2, t2, al2⟩ := nh_setPrev_first c3' hys (lastPtr .head xs)
  have hn2 : HashMap.find s2.nodes i = some n := by
    rw [f2 i hi_ys, f1 i hi_xs]
    exact hn
  -- node->prev = out_of_list_marker
  obtain ⟨s3, e3, a3, b3, c3a, al3⟩ := nh_setPrev_node hn2 .marker
  have hframe3 : ∀ j, j ≠ i → HashMap.find s3.nodes j = HashMap.find s2.nodes j := by
    intro j hj
    rw [a3 j, if_neg hj]
  have hnd1 : (xs ++ ys).Nodup :=
    List.nodup_append.mpr ⟨hxs, hys, fun j hx hy => hdisj j hx hy⟩
  refine ⟨s3, n, ?_, hn, ?_, ⟨?_, ?_, ?_, hnd1, ?_, ?_⟩, ?_, ?_, ?_, ?_⟩
  · unfold ListRemove
    simp only [deref, hn, bind, Except.bind, hprev, hnext, e1, e2, e3]
  · rw [hprev]
    exact nh_lastPtr_ne_marker xs
  · rw [b3, t2, h1, nh_firstPtr_app]
    by_cases hx : xs = []
    · rw [if_pos hx, hx]
      rfl
    · rw [if_neg hx, m1, nh_firstPtr_app]
      cases xs with
      | nil => exact absurd rfl hx
      | cons x r => rfl
  · rw [c3a, h2, nh_lastPtr_append]
    by_cases hy : ys = []
    · rw [if_pos hy, hy]
      rfl
    · rw [if_neg hy, t1, m2, nh_lastPtr_append]
      cases ys with
      | nil => exact absurd rfl hy
      | cons y r => rfl
  · refine Chain.nh_join ?_ ?_
    · refine Chain.nh_frame (Chain.nh_frame k1 (fun j hj => links_of_find (f2 j (hdisj j hj))))
        (fun j hj => links_of_find ?_)
      exact hframe3 j (fun hx => hi_xs (by rw [← hx]; exact hj))
    · exact Chain.nh_frame k2
        (fun j hj => links_of_find (hframe3 j (fun hx => hi_ys (by rw [← hx]; exact hj))))
  · rw [b3, t2, p1, m5]
  · rw [c3a, p2, t1, m6]
  · rw [a3 i, if_pos rfl]
  · intro j hj
    have hjx : j ∉ xs := fun hx => hj (List.mem_append_left _ hx)
    have hji : j ≠ i := fun hx => hj (by rw [hx]; simp)
    have hjy : j ∉ ys := fun hx => hj (List.mem_append_right _ (List.mem_cons_of_mem _ hx))
    rw [hframe3 j hji, f2 j hjy, f1 j hjx]
  · intro j
    rw [nh_item_of_update hn2 a3 rfl j, g2 j, g1 j]
  · rw [al3, al2, al1]

/-- `LruAppend` of an allocated node that is not in the list: the node becomes
the first of the list. -/
theorem nh_append {h : NodeHeap P} {ids : List Nat} {a : Nat} {n : ListNode P}
    (hm : Linked h ids) (ha : a ∉ ids) (hn : HashMap.find h.nodes a = some n) :
    ∃ h', LruAppend h (.node a) = .ok h' ∧ Linked h' (a :: ids) ∧
      (∀ j, (HashMap.find h'.nodes j).map (fun x => x.item) =
        (HashMap.find h.nodes j).map (fun x => x.item)) ∧
      h'.allocated = h.allocated := by
  obtain ⟨m1, m2, m3, hnd, m5, m6⟩ := hm
  obtain ⟨t1, e1, a1, b1, c1, al1⟩ := nh_setPrev_node hn .head
  have hn1 : HashMap.find t1.nodes a = some { n with prev := .head } := by
    rw [a1 a, if_pos rfl]
  obtain ⟨t2, e2, a2, b2, c2, al2⟩ := nh_setNext_node hn1 h.head.next
  have hn2 : HashMap.find t2.nodes a =
      some { item := n.item, prev := .head, next := h.head.next } := by
    rw [a2 a, if_pos rfl]
  have hother : ∀ j, j ≠ a → HashMap.find t2.nodes j = HashMap.find h.nodes j := by
    intro j hj; rw [a2 j, if_neg hj, a1 j, if_neg hj]
  have k2 : Chain t2 .head ids .tail :=
    Chain.nh_frame m3
      (fun j hj => links_of_find (hother j (fun hx => ha (by rw [← hx]; exact hj))))
  have hitems2 : ∀ j, (HashMap.find t2.nodes j).map (fun x => x.item) =
      (HashMap.find h.nodes j).map (fun x => x.item) := by
    intro j
    rw [nh_item_of_update hn1 a2 rfl j, nh_item_of_update hn a1 rfl j]
  have hnd2 : (a :: ids).Nodup := List.nodup_cons.mpr ⟨ha, hnd⟩
  cases ids with
  | nil =>
    have hold : h.head.next = .tail := m1
    obtain ⟨t3, e3, a3, b3, c3, d3, al3⟩ := nh_setPrev_tail t2 (.node a)
    obtain ⟨t4, e4, a4, b4, c4, d4, al4⟩ := nh_setNext_head t3 (.node a)
    refine ⟨t4, ?_, ⟨b4, ?_, ⟨?_, trivial⟩, hnd2, ?_, ?_⟩, ?_, ?_⟩
    · rw [hold] at e2
      unfold LruAppend
      simp only [e1, bind, Except.bind, hold, e2, e3, e4]
    · rw [d4, c3]; rfl
    · unfold links
      rw [a4, a3, hn2, hold]; rfl
    · rw [c4, b3, b2, b1, m5]
    · rw [d4, d3, c2, c1, m6]
    · intro j; rw [a4, a3]; exact hitems2 j
    · rw [al4, al3, al2, al1]
  | cons i1 r =>
    have hold : h.head.next = .node i1 := m1
    have hi1 : i1 ≠ a := fun hx => ha (by rw [← hx]; exact List.mem_cons_self _ _)
    obtain ⟨n1, hfind1, _, _⟩ := Chain.nh_find_first k2
    obtain ⟨t3, e3, a3, b3, c3, al3⟩ := nh_setPrev_node hfind1 (.node a)
    obtain ⟨t4, e4, a4, b4, c4, d4, al4⟩ := nh_setNext_head t3 (.node a)
    have hnd1 : i1 ∉ r := (List.nodup_cons.mp hnd).1
    have k3 : Chain t3 (.node a) (i1 :: r) .tail := Chain.nh_set_first k2 hnd1 hfind1 a3
    refine ⟨t4, ?_, ⟨b4, ?_, ⟨?_, Chain.nh_frame k3 (fun j _ => links_of_find (by rw [a4]))⟩,
      hnd2, ?_, ?_⟩, ?_, ?_⟩
    · rw [hold] at e2
      unfold LruAppend
      simp only [e1, bind, Except.bind, hold, e2, e3, e4]
    · rw [d4, c3, c2, c1, m2]; rfl
    · unfold links
      rw [a4, a3 a, if_neg (fun hx => hi1 hx.symm), hn2, hold]; rfl
    · rw [c4, b3, b2, b1, m5]
    · rw [d4, c3, c2, c1, m6]
    · intro j; rw [a4, nh_item_of_update hfind1 a3 rfl j]; exact hitems2 j
    · rw [al4, al3, al2, al1]

/-- `ListPushFront` of an allocated node that is not in the list: the node
becomes the first of the list. -/
theorem nh_push {h : NodeHeap P} {ids : List Nat} {a : Nat} {n : ListNode P}
    (hm : Linked h ids) (ha : a ∉ ids) (hn : HashMap.find h.nodes a = some n) :
    ∃ h', ListPushFront h (.node a) = .ok h' ∧ Linked h' (a :: ids) ∧
      (∀ j, (HashMap.find h'.nodes j).map (fun x => x.item) =
        (HashMap.find h.nodes j).map (fun x => x.item)) ∧
      h'.allocated = h.allocated := by
  obtain ⟨m1, m2, m3, hnd, m5, m6⟩ := hm
  obtain ⟨t1, e1, a1, b1, c1, al1⟩ := nh_setPrev_node hn .head
  have hn1 : HashMap.find t1.nodes a = some { n with prev := .head } := by
    rw [a1 a, if_pos rfl]
  obtain ⟨t2, e2, a2, b2, c2, d2, al2⟩ := nh_setNext_head t1 (.node a)
  have hn1' : HashMap.find t2.nodes a = some { n with prev := .head } := by
    rw [a2]; exact hn1
  obtain ⟨t3, e3, a3, b3, c3, al3⟩ := nh_setNext_node hn1' h.head.next
  have hn3 : HashMap.find t3.nodes a =
      some { item := n.item, prev := .head, next := h.head.next } := by
    rw [a3 a, if_pos rfl]
  have hother : ∀ j, j ≠ a → HashMap.find t3.nodes j = HashMap.find h.nodes j := by
    intro j hj; rw [a3 j, if_neg hj, a2, a1 j, if_neg hj]
  have k3 : Chain t3 .head ids .tail :=
    Chain.nh_frame m3
      (fun j hj => links_of_find (hother j (fun hx => ha (by rw [← hx]; exact hj))))
  have hitems3 : ∀ j, (HashMap.find t3.nodes j).map (fun x => x.item) =
      (HashMap.find h.nodes j).map (fun x => x.item) := by
    intro j
    rw [nh_item_of_update hn1' a3 rfl j, a2, nh_item_of_update hn a1 rfl j]
  have hnd2 : (a :: ids).Nodup := List.nodup_cons.mpr ⟨ha, hnd⟩
  have hhead3 : t3.head.next = .node a ∧ t3.head.prev = .marker := by
    rw [b3, b2, c2, b1]
    exact ⟨rfl, m5⟩
  cases ids with
  | nil =>
    have hold : h.head.next = .tail := m1
    obtain ⟨t4, e4, a4, b4, c4, d4, al4⟩ := nh_setPrev_tail t3 (.node a)
    refine ⟨t4, ?_, ⟨?_, ?_, ⟨?_, trivial⟩, hnd2, ?_, ?_⟩, ?_, ?_⟩
    · rw [hold] at e3
      unfold ListPushFront
      simp only [e1, bind, Except.bind, hold, e2, e3, e4]
    · rw [b4]; exact hhead3.1
    · rw [c4]; rfl
    · unfold links
      rw [a4, hn3, hold]; rfl
    · rw [b4]; exact hhead3.2
    · rw [d4, c3, d2, c1, m6]
    · intro j; rw [a4]; exact hitems3 j
    · rw [al4, al3, al2, al1]
  | cons i1 r =>
    have hold : h.head.next = .node i1 := m1
    have hi1 : i1 ≠ a := fun hx => ha (by rw [← hx]; exact List.mem_cons_self _ _)
    obtain ⟨n1, hfind1, _, _⟩ := Chain.nh_find_first k3
    obtain ⟨t4, e4, a4, b4, c4, al4⟩ := nh_setPrev_node hfind1 (.node a)
    have hnd1 : i1 ∉ r := (List.nodup_cons.mp hnd).1
    have k4 : Chain t4 (.node a) (i1 :: r) .tail := Chain.nh_set_first k3 hnd1 hfind1 a4
    refine ⟨t4, ?_, ⟨?_, ?_, ⟨?_, k4⟩, hnd2, ?_, ?_⟩, ?_, ?_⟩
    · rw [hold] at e3
      unfold ListPushFront
      simp only [e1, bind, Except.bind, hold, e2, e3, e4]
    · rw [b4]; exact hhead3.1
    · rw [c4, c3, d2, c1, m2]; rfl
    · unfold links
      rw [a4 a, if_neg (fun hx => hi1 hx.symm), hn3, hold]; rfl
    · rw [b4]; exact hhead3.2
    · rw [c4, c3, d2, c1, m6]
    · intro j; rw [nh_item_of_update hfind1 a4 rfl j]; exact hitems3 j
    · rw [al4, al3, al2, al1]

end NodeHeap

/-! ## The invariant of a FIFO shard with its list nodes -/

namespace NodeHeap

variable {P : Type}

theorem Linked.nh_congr {h h' : NodeHeap P} {ids : List Nat} (hl : Linked h ids)
    (hh : h'.head = h.head) (ht : h'.tail = h.tail)
    (hf : ∀ i ∈ ids, links h' i = links h i) : Linked h' ids := by
  obtain ⟨m1, m2, m3, m4, m5, m6⟩ := hl
  exact ⟨by rw [hh]; exact m1, by rw [ht]; exact m2, m3.nh_frame hf, m4,
    by rw [hh]; exact m5, by rw [ht]; exact m6⟩

theorem Linked.nh_allocated {h : NodeHeap P} {ids : List Nat} (hl : Linked h ids)
    (hf : Fresh h) {i : Nat} (hi : i ∈ ids) : i < h.allocated := by
  obtain ⟨n, hn⟩ := hl.2.2.1.nh_find_mem hi
  by_contra hx
  rw [hf i (Nat.le_of_not_lt hx)] at hn
  cases hn

/-- A node made by `new ListNode` is not in the list, and the list is as it
was. -/
theorem nh_newNode {h : NodeHeap P} {ids : List Nat} (hl : Linked h ids) (hf : Fresh h)
    (item : P) :
    Linked (newNode h item).2 ids ∧ Fresh (newNode h item).2 ∧ h.allocated ∉ ids ∧
      (∀ j, HashMap.find (newNode h item).2.nodes j =
        if h.allocated = j then some ⟨item, .marker, .null⟩ else HashMap.find h.nodes j) ∧
      (newNode h item).2.allocated = h.allocated + 1 := by
  have ha : h.allocated ∉ ids := fun hx => Nat.lt_irrefl _ (hl.nh_allocated hf hx)
  have hfind : ∀ j, HashMap.find (newNode h item).2.nodes j =
      if h.allocated = j then some ⟨item, .marker, .null⟩ else HashMap.find h.nodes j :=
    fun j => rfl
  refine ⟨hl.nh_congr rfl rfl (fun i hi => links_of_find ?_), ?_, ha, hfind, rfl⟩
  · rw [hfind i, if_neg (fun hx => ha (by rw [hx]; exact hi))]
  · intro j hj
    have hj' : h.allocated + 1 ≤ j := hj
    rw [hfind j, if_neg (by omega)]
    exact hf j (by omega)

/-- What `delete p` does when `p` is an allocated node. -/
theorem nh_delete {h : NodeHeap P} {i : Nat} {n : ListNode P}
    (hn : HashMap.find h.nodes i = some n) :
    ∃ h', delete h (.node i) = .ok h' ∧
      (∀ j, HashMap.find h'.nodes j = if j = i then none else HashMap.find h.nodes j) ∧
      h'.head = h.head ∧ h'.tail = h.tail ∧ h'.allocated = h.allocated :=
  ⟨{ h with nodes := HashMap.erase h.nodes i }, by simp only [delete, hn],
    fun j => HashMap.find_erase _ _ _, rfl, rfl, rfl⟩

/-- A node made by `new ListNode` and deleted right away leaves the heap as it
was, but for the number of nodes made. -/
theorem nh_new_delete {h : NodeHeap P} (hf : Fresh h) (item : P) :
    ∃ h', delete (newNode h item).2 (newNode h item).1 = .ok h' ∧
      (∀ j, HashMap.find h'.nodes j = HashMap.find h.nodes j) ∧
      h'.head = h.head ∧ h'.tail = h.tail ∧ h'.allocated = h.allocated + 1 := by
  have hn : HashMap.find (newNode h item).2.nodes h.allocated =
      some ⟨item, .marker, .null⟩ := by
    show (if h.allocated = h.allocated then _ else _) = _
    rw [if_pos rfl]
  obtain ⟨h', e, a1, a2, a3, a4⟩ := nh_delete hn
  refine ⟨h', e, fun j => ?_, a2, a3, a4⟩
  rw [a1 j]
  by_cases hj : j = h.allocated
  · rw [if_pos hj, hj, hf _ (Nat.le_refl _)]
  · rw [if_neg hj]
    show (if h.allocated = j then _ else _) = _
    rw [if_neg (fun hx => hj hx.symm)]

theorem nh_lastPtr_ne_head (xs : List Nat) (hx : xs ≠ []) : lastPtr .head xs ≠ .head := by
  rcases List.eq_nil_or_concat xs with h | ⟨r, l, h⟩
  · exact absurd h hx
  · rw [h, List.concat_eq_append, nh_lastPtr_concat]
    intro hy
    cases hy

end NodeHeap

namespace LinkedFifo

open NodeHeap

variable {V : Type}

/-- Two nodes of the list with the same key are the same node. -/
theorem Indexed.lf_unique {s : LinkedFifo V} {ids : List Nat} (hx : Indexed s ids)
    {i j key : Nat} (hi : i ∈ ids) (hj : j ∈ ids)
    (hki : (HashMap.find s.heap.nodes i).map (fun n => n.item) = some key)
    (hkj : (HashMap.find s.heap.nodes j).map (fun n => n.item) = some key) : i = j := by
  obtain ⟨k1, hv1, a1, b1, c1⟩ := hx.2 i hi
  obtain ⟨k2, hv2, a2, b2, c2⟩ := hx.2 j hj
  rw [hki] at a1
  rw [hkj] at a2
  cases a1
  cases a2
  rw [b1] at b2
  cases b2
  rw [c1] at c2
  cases c2
  rfl

/-- `EvictOne` on a list whose last node carries a key of the index: the node
is unlinked and deleted, and its key leaves the index. -/
theorem lf_EvictOne {s : LinkedFifo V} {pre : List Nat} {l kl : Nat} {hv : HashMapValue V}
    (hl : Linked s.heap (pre ++ [l]))
    (hitem : (HashMap.find s.heap.nodes l).map (fun n => n.item) = some kl)
    (hidx : HashMap.find s.m_map kl = some hv) :
    ∃ h', EvictOne s = .ok { s with m_map := HashMap.erase s.m_map kl, heap := h' } ∧
      Linked h' pre ∧
      (∀ j, (HashMap.find h'.nodes j).map (fun n => n.item) =
        if j = l then none else (HashMap.find s.heap.nodes j).map (fun n => n.item)) ∧
      h'.allocated = s.heap.allocated := by
  have htail : s.heap.tail.prev = .node l := by
    rw [hl.2.1, nh_lastPtr_concat]
  obtain ⟨h2, n, e1, hn, _, hl2, hn2, _, g2, al2⟩ := nh_remove hl
  rw [List.append_nil] at hl2
  have hkl : n.item = kl := by
    rw [hn] at hitem
    simp only [Option.map_some', Option.some.injEq] at hitem
    exact hitem
  obtain ⟨h3, e3, a3, b3, c3, al3⟩ := nh_delete hn2
  have hl3 : Linked h3 pre := by
    refine hl2.nh_congr b3 c3 (fun i hi => links_of_find ?_)
    rw [a3 i, if_neg]
    intro hx
    have hnd := List.nodup_append.mp hl.2.2.2.1
    exact hnd.2.2 (by rw [← hx]; exact hi) (List.mem_singleton_self l)
  refine ⟨h3, ?_, hl3, fun j => ?_, by rw [al3, al2]⟩
  · unfold EvictOne
    rw [htail, if_neg (by intro hx; cases hx)]
    simp only [e1, bind, Except.bind, deref, hn2, hkl, hidx, e3]
  · rw [a3 j]
    by_cases hj : j = l
    · rw [if_pos hj, if_pos hj]
      rfl
    · rw [if_neg hj, if_neg hj]
      exact g2 j

/-- `Insert` of a key that the index holds: the value of the entry is
replaced. -/
theorem lf_Insert_resident {s : LinkedFifo V} {ids : List Nat} (hinv : Inv s ids)
    {key : Nat} {hv : HashMapValue V} (hk : HashMap.find s.m_map key = some hv) (value : V) :
    ∃ s', Insert s key value = .ok (false, s') ∧ Inv s' ids ∧ s'.capacity_ = s.capacity_ := by
  obtain ⟨hl, hf, ⟨hx1, hx2⟩, hu, hc⟩ := hinv
  obtain ⟨h', e, a1, a2, a3, a4⟩ := nh_new_delete hf key
  refine ⟨{ s with m_map := HashMap.update s.m_map key { hv with m_value := value }, heap := h' },
    ?_, ⟨?_, ?_, ⟨?_, ?_⟩, hu, hc⟩, rfl⟩
  · unfold Insert
    simp only [hk, e, bind, Except.bind]
  · exact hl.nh_congr a2 a3 (fun i _ => links_of_find (a1 i))
  · intro j hj
    have hj' : h'.allocated ≤ j := hj
    rw [a1 j]
    exact hf j (by omega)
  · intro k' hv' hfind
    have hfind' : HashMap.find (HashMap.update s.m_map key { hv with m_value := value }) k' =
        some hv' := hfind
    rw [FrozenHotCache.find_update_some hk] at hfind'
    by_cases hkk : k' = key
    · rw [if_pos hkk] at hfind'
      cases hfind'
      obtain ⟨i, hi, hp, hitem⟩ := hx1 key hv hk
      refine ⟨i, hi, hp, ?_⟩
      show (HashMap.find h'.nodes i).map _ = _
      rw [a1 i, hkk]
      exact hitem
    · rw [if_neg hkk] at hfind'
      obtain ⟨i, hi, hp, hitem⟩ := hx1 k' hv' hfind'
      refine ⟨i, hi, hp, ?_⟩
      show (HashMap.find h'.nodes i).map _ = _
      rw [a1 i]
      exact hitem
  · intro i hi
    obtain ⟨k', hv', hitem, hfind, hp⟩ := hx2 i hi
    have hitem' : (HashMap.find h'.nodes i).map (fun n => n.item) = some k' := by
      rw [a1 i]
      exact hitem
    by_cases hkk : k' = key
    · refine ⟨k', { hv with m_value := value }, hitem', ?_, ?_⟩
      · show HashMap.find (HashMap.update s.m_map key { hv with m_value := value }) k' = _
        rw [FrozenHotCache.find_update_some hk, if_pos hkk]
      · show hv.m_list_node = _
        rw [hkk, hk] at hfind
        cases hfind
        exact hp
    · refine ⟨k', hv', hitem', ?_, hp⟩
      show HashMap.find (HashMap.update s.m_map key { hv with m_value := value }) k' = _
      rw [FrozenHotCache.find_update_some hk, if_neg hkk]
      exact hfind

end LinkedFifo

/-! ## Index and list of a FIFO or LRU shard -/

namespace NodeHeap

variable {P : Type}

theorem Indexes.ix_unique {fm : Nat → Option NodePtr} {it : Nat → Option Nat} {ids : List Nat}
    (hx : Indexes fm it ids) {i j key : Nat} (hi : i ∈ ids) (hj : j ∈ ids)
    (hki : it i = some key) (hkj : it j = some key) : i = j := by
  obtain ⟨k1, a1, b1⟩ := hx.2 i hi
  obtain ⟨k2, a2, b2⟩ := hx.2 j hj
  rw [hki] at a1
  rw [hkj] at a2
  cases a1
  cases a2
  rw [b1] at b2
  cases b2
  rfl

/-- The entries that are left when a node leaves the list and its key the
index. -/
theorem Indexes.ix_drop {fm fm' : Nat → Option NodePtr} {it it' : Nat → Option Nat}
    {xs ys : List Nat} {i k : Nat} (hx : Indexes fm it (xs ++ i :: ys))
    (hnd : (xs ++ i :: ys).Nodup) (hk : it i = some k)
    (hfm : ∀ k', fm' k' = if k' = k then none else fm k')
    (hit : ∀ j, j ∈ xs ++ ys → it' j = it j) : Indexes fm' it' (xs ++ ys) := by
  have hmem : ∀ j, j ∈ xs ++ ys → j ∈ xs ++ i :: ys := by
    intro j hj
    rcases List.mem_append.mp hj with h | h
    · exact List.mem_append_left _ h
    · exact List.mem_append_right _ (List.mem_cons_of_mem _ h)
  have hi : i ∈ xs ++ i :: ys := List.mem_append_right _ (List.mem_cons_self _ _)
  have hni : i ∉ xs ++ ys := by
    have h := List.nodup_append.mp hnd
    intro hj
    rcases List.mem_append.mp hj with h1 | h1
    · exact h.2.2 h1 (List.mem_cons_self _ _)
    · exact (List.nodup_cons.mp h.2.1).1 h1
  constructor
  · intro key p hp
    rw [hfm key] at hp
    by_cases hkk : key = k
    · rw [if_pos hkk] at hp
      cases hp
    · rw [if_neg hkk] at hp
      obtain ⟨j, hj, hpj, hitj⟩ := hx.1 key p hp
      have hji : j ≠ i := by
        intro h
        rw [h, hk] at hitj
        cases hitj
        exact hkk rfl
      have hj' : j ∈ xs ++ ys := by
        rcases List.mem_append.mp hj with h | h
        · exact List.mem_append_left _ h
        · rcases List.mem_cons.mp h with h | h
          · exact absurd h hji
          · exact List.mem_append_right _ h
      exact ⟨j, hj', hpj, by rw [hit j hj']; exact hitj⟩
  · intro j hj
    obtain ⟨key, hitj, hfj⟩ := hx.2 j (hmem j hj)
    have hkk : key ≠ k := by
      intro h
      rw [h] at hitj
      have := hx.ix_unique (hmem j hj) hi hitj hk
      exact hni (by rw [← this]; exact hj)
    exact ⟨key, by rw [hit j hj]; exact hitj, by rw [hfm key, if_neg hkk]; exact hfj⟩

/-- The entries after a new node with a new key joins the list and the
index. -/
theorem Indexes.ix_add {fm fm' : Nat → Option NodePtr} {it it' : Nat → Option Nat}
    {ids : List Nat} {a : Nat} (hx : Indexes fm it ids) (key : Nat) (hk : fm key = none)
    (hfm : ∀ k', fm' k' = if key = k' then some (.node a) else fm k')
    (hia : it' a = some key) (hit : ∀ j, j ∈ ids → it' j = it j) :
    Indexes fm' it' (a :: ids) := by
  constructor
  · intro k' p hp
    rw [hfm k'] at hp
    by_cases hkk : key = k'
    · rw [if_pos hkk] at hp
      cases hp
      exact ⟨a, List.mem_cons_self _ _, rfl, by rw [← hkk]; exact hia⟩
    · rw [if_neg hkk] at hp
      obtain ⟨j, hj, hpj, hitj⟩ := hx.1 k' p hp
      exact ⟨j, List.mem_cons_of_mem _ hj, hpj, by rw [hit j hj]; exact hitj⟩
  · intro j hj
    rcases List.mem_cons.mp hj with h | h
    · exact ⟨key, by rw [h]; exact hia, by rw [hfm key, if_pos rfl, h]⟩
    · obtain ⟨k', hitj, hfj⟩ := hx.2 j h
      have hkk : key ≠ k' := by
        intro h'
        rw [h', hfj] at hk
        cases hk
      exact ⟨k', by rw [hit j h]; exact hitj, by rw [hfm k', if_neg hkk]; exact hfj⟩

theorem Indexes.ix_congr {fm fm' : Nat → Option NodePtr} {it it' : Nat → Option Nat}
    {ids ids' : List Nat} (hx : Indexes fm it ids) (hfm : ∀ k, fm' k = fm k)
    (hit : ∀ j, j ∈ ids → it' j = it j) (hp : ∀ j, j ∈ ids' ↔ j ∈ ids) :
    Indexes fm' it' ids' := by
  constructor
  · intro key p hkp
    rw [hfm key] at hkp
    obtain ⟨j, hj, hpj, hitj⟩ := hx.1 key p hkp
    exact ⟨j, (hp j).mpr hj, hpj, by rw [hit j hj]; exact hitj⟩
  · intro j hj
    have hj' := (hp j).mp hj
    obtain ⟨key, hitj, hfj⟩ := hx.2 j hj'
    exact ⟨key, by rw [hit j hj']; exact hitj, by rw [hfm key]; exact hfj⟩

/-- When the fields `item` of the nodes are as before, so is freshness. -/
theorem Fresh.nh_of_items {h h' : NodeHeap P} (hf : Fresh h) (hal : h.allocated ≤ h'.allocated)
    (hit : ∀ j, h'.allocated ≤ j → (HashMap.find h'.nodes j).map (fun x => x.item) = none ∨
      (HashMap.find h'.nodes j).map (fun x => x.item) =
        (HashMap.find h.nodes j).map (fun x => x.item)) : Fresh h' := by
  intro j hj
  rcases hit j hj with h1 | h1
  · exact Option.map_eq_none'.mp h1
  · rw [hf j (Nat.le_trans hal hj)] at h1
    exact Option.map_eq_none'.mp h1

end NodeHeap

namespace LinkedFifo

open NodeHeap

variable {V : Type}

/-- The index of a FIFO shard as a map from keys to node pointers. -/
theorem lf_indexed_iff (s : LinkedFifo V) (ids : List Nat) :
    Indexed s ids ↔
      Indexes (fun k => (HashMap.find s.m_map k).map (fun hv => hv.m_list_node))
        (fun i => (HashMap.find s.heap.nodes i).map (fun n => n.item)) ids := by
  constructor
  · intro hx
    constructor
    · intro key p hp
      obtain ⟨hv, hfind, hpv⟩ := Option.map_eq_some'.mp hp
      obtain ⟨i, hi, hn, hit⟩ := hx.1 key hv hfind
      exact ⟨i, hi, by rw [← hpv]; exact hn, hit⟩
    · intro i hi
      obtain ⟨key, hv, hit, hfind, hp⟩ := hx.2 i hi
      exact ⟨key, hit, Option.map_eq_some'.mpr ⟨hv, hfind, hp⟩⟩
  · intro hx
    constructor
    · intro key hv hfind
      exact hx.1 key hv.m_list_node (Option.map_eq_some'.mpr ⟨hv, hfind, rfl⟩)
    · intro i hi
      obtain ⟨key, hit, hp⟩ := hx.2 i hi
      obtain ⟨hv, hfind, hpv⟩ := Option.map_eq_some'.mp hp
      exact ⟨key, hv, hit, hfind, hpv⟩

end LinkedFifo

/-! ## The calls of a FIFO shard keep its invariant -/

namespace LinkedFifo

open NodeHeap

variable {V : Type}

/-- `Insert` of a key that the index does not hold, on a shard of capacity at
least 1: the new node is the first of the list, and the last node leaves when
the shard was full. -/
theorem lf_Insert_fresh {s : LinkedFifo V} {ids : List Nat} (hinv : Inv s ids)
    (hC : 1 ≤ s.capacity_) (h64 : s.capacity_ < 2 ^ 64)
    {key : Nat} (hk : HashMap.find s.m_map key = none) (value : V) :
    ∃ s' ids', Insert s key value = .ok (true, s') ∧ Inv s' ids' ∧
      s'.capacity_ = s.capacity_ := by
  obtain ⟨hl, hf, hx, hu, hc⟩ := hinv
  obtain ⟨hl1, hf1, ha, hfind1, al1⟩ := nh_newNode hl hf key
  have hix := (lf_indexed_iff s ids).mp hx
  have hna : HashMap.find (newNode s.heap key).2.nodes s.heap.allocated =
      some ⟨key, .marker, .null⟩ := by
    rw [hfind1, if_pos rfl]
  by_cases hfull : s.usage_ ≥ s.capacity_
  · -- the shard is full: the last node leaves
    have hne : ids ≠ [] := by
      intro h0
      rw [h0] at hu
      simp only [List.length_nil] at hu
      omega
    rcases List.eq_nil_or_concat ids with h0 | ⟨pre, l, h0⟩
    · exact absurd h0 hne
    rw [List.concat_eq_append] at h0
    subst h0
    have hlmem : l ∈ pre ++ [l] := List.mem_append_right _ (List.mem_singleton_self l)
    obtain ⟨kl, hvl, hiteml, hfindl, hpl⟩ := hx.2 l hlmem
    have hkl : key ≠ kl := by
      intro h
      rw [h, hfindl] at hk
      cases hk
    have hal : s.heap.allocated ≠ l := fun h => ha (by rw [h]; exact hlmem)
    obtain ⟨s2, hs2⟩ : ∃ s2 : LinkedFifo V, s2 =
        { capacity_ := s.capacity_, usage_ := s.usage_,
          m_map := HashMap.add s.m_map key ⟨value, (newNode s.heap key).1⟩,
          heap := (newNode s.heap key).2 } := ⟨_, rfl⟩
    have hl2 : Linked s2.heap (pre ++ [l]) := by rw [hs2]; exact hl1
    have hitem2 : (HashMap.find s2.heap.nodes l).map (fun n => n.item) = some kl := by
      rw [hs2]
      show (HashMap.find (newNode s.heap key).2.nodes l).map _ = _
      rw [hfind1, if_neg hal]
      exact hiteml
    have hidx2 : HashMap.find s2.m_map kl = some hvl := by
      rw [hs2]
      show HashMap.find (HashMap.add _ _ _) kl = _
      rw [HashMap.find_add, if_neg hkl]
      exact hfindl
    obtain ⟨h3, e3, hl3, g3, al3⟩ := lf_EvictOne hl2 hitem2 hidx2
    have hg3 : ∀ j, (HashMap.find h3.nodes j).map (fun n => n.item) =
        if j = l then none
        else if s.heap.allocated = j then some key
        else (HashMap.find s.heap.nodes j).map (fun n => n.item) := by
      intro j
      rw [g3 j, hs2]
      show (if j = l then none else (HashMap.find (newNode s.heap key).2.nodes j).map _) = _
      rw [hfind1 j]
      by_cases h1 : j = l
      · rw [if_pos h1, if_pos h1]
      · rw [if_neg h1, if_neg h1]
        by_cases h2 : s.heap.allocated = j
        · rw [if_pos h2, if_pos h2]; rfl
        · rw [if_neg h2, if_neg h2]
    obtain ⟨n3, hn3⟩ : ∃ n3, HashMap.find h3.nodes s.heap.allocated = some n3 := by
      have := hg3 s.heap.allocated
      rw [if_neg hal, if_pos rfl] at this
      obtain ⟨n3, hn3, _⟩ := Option.map_eq_some'.mp this
      exact ⟨n3, hn3⟩
    have hapre : s.heap.allocated ∉ pre := fun h => ha (List.mem_append_left _ h)
    obtain ⟨h4, e4, hl4, g4, al4⟩ := nh_push hl3 hapre hn3
    have e4' : ListPushFront h3 (newNode s.heap key).1 = .ok h4 := e4
    have hngt : ¬ s.usage_ > s.capacity_ := by omega
    have hlpre : l ∉ pre := by
      have hnd := List.nodup_append.mp hl.2.2.2.1
      exact fun h => hnd.2.2 h (List.mem_singleton_self l)
    refine ⟨
      { capacity_ := s.capacity_, usage_ := s.usage_,
        m_map := HashMap.erase (HashMap.add s.m_map key ⟨value, (newNode s.heap key).1⟩) kl,
        heap := h4 }, s.heap.allocated :: pre, ?_, ⟨hl4, ?_, ?_, ?_, ?_⟩, rfl⟩
    · rw [hs2] at e3
      unfold Insert
      simp only [hk, bind, Except.bind, hfull, decide_True, if_true, e3, e4', hngt, if_false]
    · -- freshness
      refine hf.nh_of_items ?_ (fun j hj => ?_)
      · show s.heap.allocated ≤ h4.allocated
        rw [al4, al3, hs2]
        show _ ≤ (newNode s.heap key).2.allocated
        rw [al1]
        exact Nat.le_succ _
      · have hj' : h4.allocated ≤ j := hj
        rw [al4, al3, hs2] at hj'
        have hj'' : (newNode s.heap key).2.allocated ≤ j := hj'
        rw [al1] at hj''
        show (HashMap.find h4.nodes j).map _ = none ∨ _
        rw [g4 j, hg3 j]
        by_cases h1 : j = l
        · left; rw [if_pos h1]
        · right
          rw [if_neg h1, if_neg (by omega)]
    · -- the index and the list
      apply (lf_indexed_iff _ _).mpr
      have hdrop : Indexes (fun k => if k = kl then none
            else (HashMap.find s.m_map k).map (fun hv => hv.m_list_node))
          (fun i => (HashMap.find s.heap.nodes i).map (fun n => n.item)) (pre ++ []) :=
        hix.ix_drop hl.2.2.2.1 hiteml (fun _ => rfl) (fun _ _ => rfl)
      rw [List.append_nil] at hdrop
      refine hdrop.ix_add key ?_ (fun k' => ?_) ?_ (fun j hj => ?_)
      · show (if key = kl then none else _) = none
        rw [if_neg hkl, hk]
        rfl
      · show (HashMap.find (HashMap.erase (HashMap.add s.m_map key _) kl) k').map _ = _
        rw [HashMap.find_erase, HashMap.find_add]
        by_cases h1 : key = k'
        · have h2 : ¬ k' = kl := fun h => hkl (h1.trans h)
          simp only [if_pos h1, if_neg h2, Option.map_some']
          rfl
        · by_cases h2 : k' = kl
          · simp only [if_pos h2, if_neg h1, Option.map_none']
          · simp only [if_neg h2, if_neg h1]
      · show (HashMap.find h4.nodes _).map _ = _
        rw [g4, hg3, if_neg hal, if_pos rfl]
      · show (HashMap.find h4.nodes j).map _ = _
        rw [g4, hg3, if_neg (fun h => hlpre (by rw [← h]; exact hj)),
          if_neg (fun h => hapre (by rw [h]; exact hj))]
    · show s.usage_ = (s.heap.allocated :: pre).length
      rw [hu]
      simp only [List.length_append, List.length_cons, List.length_nil]
    · show (s.heap.allocated :: pre).length ≤ s.capacity_
      simp only [List.length_append, List.length_cons, List.length_nil] at hc ⊢
      exact hc
  · -- there is room
    obtain ⟨h4, e4, hl4, g4, al4⟩ := nh_push hl1 ha hna
    have e4' : ListPushFront (newNode s.heap key).2 (newNode s.heap key).1 = .ok h4 := e4
    have hlt : s.usage_ < s.capacity_ := Nat.lt_of_not_ge hfull
    have hu64 : u64 (s.usage_ + 1) = s.usage_ + 1 := by
      unfold u64
      exact Nat.mod_eq_of_lt (by omega)
    have hngt : ¬ s.usage_ + 1 > s.capacity_ := by omega
    refine ⟨
      { capacity_ := s.capacity_, usage_ := u64 (s.usage_ + 1),
        m_map := HashMap.add s.m_map key ⟨value, (newNode s.heap key).1⟩,
        heap := h4 }, s.heap.allocated :: ids, ?_, ⟨hl4, ?_, ?_, ?_, ?_⟩, rfl⟩
    · unfold Insert
      simp only [hk, bind, Except.bind, hfull, decide_False, if_false, e4', hu64, hngt,
        Bool.false_eq_true]
    · refine hf.nh_of_items ?_ (fun j hj => ?_)
      · show s.heap.allocated ≤ h4.allocated
        rw [al4, al1]
        exact Nat.le_succ _
      · have hj' : h4.allocated ≤ j := hj
        rw [al4, al1] at hj'
        right
        show (HashMap.find h4.nodes j).map _ = _
        rw [g4 j, hfind1 j, if_neg (by omega)]
    · apply (lf_indexed_iff _ _).mpr
      refine hix.ix_add key ?_ (fun k' => ?_) ?_ (fun j hj => ?_)
      · show (HashMap.find s.m_map key).map _ = none
        rw [hk]
        rfl
      · show (HashMap.find (HashMap.add s.m_map key _) k').map _ = _
        rw [HashMap.find_add]
        by_cases h1 : key = k'
        · rw [if_pos h1, if_pos h1]
          rfl
        · rw [if_neg h1, if_neg h1]
      · show (HashMap.find h4.nodes _).map _ = _
        rw [g4, hna]
        rfl
      · show (HashMap.find h4.nodes j).map _ = _
        rw [g4, hfind1, if_neg (fun h => ha (by rw [h]; exact hj))]
    · show u64 (s.usage_ + 1) = (s.heap.allocated :: ids).length
      rw [hu64, hu, List.length_cons]
    · show (s.heap.allocated :: ids).length ≤ s.capacity_
      rw [List.length_cons, ← hu]
      omega

/-- `Erase` of a key that the index holds: its node leaves the list and is
deleted. -/
theorem lf_Erase_resident {s : LinkedFifo V} {ids : List Nat} (hinv : Inv s ids)
    (h64 : s.capacity_ < 2 ^ 64)
    {key : Nat} {hv : HashMapValue V} (hk : HashMap.find s.m_map key = some hv) :
    ∃ s' ids', Erase s key = .ok (true, s') ∧ Inv s' ids' ∧ s'.capacity_ = s.capacity_ := by
  obtain ⟨hl, hf, hx, hu, hc⟩ := hinv
  have hix := (lf_indexed_iff s ids).mp hx
  obtain ⟨i, hi, hp, hitem⟩ := hx.1 key hv hk
  obtain ⟨xs, ys, hsplit⟩ := List.append_of_mem hi
  subst hsplit
  obtain ⟨h2, n, e1, hn, _, hl2, hn2, _, g2, al2⟩ := nh_remove hl
  obtain ⟨h3, e3, a3, b3, c3, al3⟩ := nh_delete hn2
  have hnd := hl.2.2.2.1
  have hni : i ∉ xs ++ ys := by
    have h := List.nodup_append.mp hnd
    intro hj
    rcases List.mem_append.mp hj with h1 | h1
    · exact h.2.2 h1 (List.mem_cons_self _ _)
    · exact (List.nodup_cons.mp h.2.1).1 h1
  have hl3 : Linked h3 (xs ++ ys) := by
    refine hl2.nh_congr b3 c3 (fun j hj => links_of_find ?_)
    rw [a3 j, if_neg (fun h => hni (by rw [← h]; exact hj))]
  have hg3 : ∀ j, (HashMap.find h3.nodes j).map (fun n => n.item) =
      if j = i then none else (HashMap.find s.heap.nodes j).map (fun n => n.item) := by
    intro j
    rw [a3 j]
    by_cases h1 : j = i
    · rw [if_pos h1, if_pos h1]; rfl
    · rw [if_neg h1, if_neg h1]; exact g2 j
  have hlen : (xs ++ i :: ys).length = (xs ++ ys).length + 1 := by
    simp only [List.length_append, List.length_cons]
    omega
  have hu64 : u64 (2 ^ 64 - 1 + s.usage_) = (xs ++ ys).length := by
    unfold u64
    rw [hu, hlen]
    have : 2 ^ 64 - 1 + ((xs ++ ys).length + 1) = (xs ++ ys).length + 2 ^ 64 := by omega
    rw [this, Nat.add_mod_right]
    exact Nat.mod_eq_of_lt (by omega)
  refine ⟨
    { capacity_ := s.capacity_, usage_ := u64 (2 ^ 64 - 1 + s.usage_),
      m_map := HashMap.erase s.m_map key, heap := h3 }, xs ++ ys, ?_,
      ⟨hl3, ?_, ?_, hu64, ?_⟩, rfl⟩
  · rw [← hp] at e1 e3
    unfold Erase
    simp only [hk, bind, Except.bind, e1, e3]
  · refine hf.nh_of_items ?_ (fun j hj => ?_)
    · show s.heap.allocated ≤ h3.allocated
      rw [al3, al2]
    · show (HashMap.find h3.nodes j).map _ = none ∨ _
      rw [hg3 j]
      by_cases h1 : j = i
      · left; rw [if_pos h1]
      · right; rw [if_neg h1]
  · apply (lf_indexed_iff _ _).mpr
    refine hix.ix_drop hnd hitem (fun k' => ?_) (fun j hj => ?_)
    · show (HashMap.find (HashMap.erase s.m_map key) k').map _ = _
      rw [HashMap.find_erase]
      by_cases h1 : k' = key
      · rw [if_pos h1, if_pos h1]; rfl
      · rw [if_neg h1, if_neg h1]
    · show (HashMap.find h3.nodes j).map _ = _
      rw [hg3 j, if_neg (fun h => hni (by rw [← h]; exact hj))]
  · show (xs ++ ys).length ≤ s.capacity_
    omega

/-- Each call on a FIFO shard of capacity at least 1 returns and keeps the
invariant. -/
theorem lf_step {s : LinkedFifo V} {ids : List Nat} (hinv : Inv s ids)
    (hC : 1 ≤ s.capacity_) (h64 : s.capacity_ < 2 ^ 64) (op : Op V) :
    ∃ r s' ids', step s op = .ok (r, s') ∧ Inv s' ids' ∧ s'.capacity_ = s.capacity_ := by
  cases op with
  | Insert key value =>
    cases hk : HashMap.find s.m_map key with
    | none =>
      obtain ⟨s', ids', e, hi, hcap⟩ := lf_Insert_fresh hinv hC h64 hk value
      exact ⟨⟨true, none⟩, s', ids', by simp only [step, e], hi, hcap⟩
    | some hv =>
      obtain ⟨s', e, hi, hcap⟩ := lf_Insert_resident hinv hk value
      exact ⟨⟨false, none⟩, s', ids, by simp only [step, e], hi, hcap⟩
  | Lookup key value =>
    refine ⟨⟨(Lookup s key value).1, some (Lookup s key value).2.1⟩, s, ids, ?_, hinv, rfl⟩
    have : (Lookup s key value).2.2 = s := by
      unfold Lookup
      cases HashMap.find s.m_map key <;> rfl
    simp only [step, this]
  | Erase key =>
    cases hk : HashMap.find s.m_map key with
    | none =>
      exact ⟨⟨false, none⟩, s, ids, by simp only [step, Erase, hk], hinv, rfl⟩
    | some hv =>
      obtain ⟨s', ids', e, hi, hcap⟩ := lf_Erase_resident hinv h64 hk
      exact ⟨⟨true, none⟩, s', ids', by simp only [step, e], hi, hcap⟩

/-- Each sequence of calls on a FIFO shard of capacity at least 1 returns and
keeps the invariant. -/
theorem lf_run {C : Nat} (hC : 1 ≤ C) (h64 : C < 2 ^ 64) (ops : List (Op V)) :
    ∀ (s : LinkedFifo V) (ids : List Nat), Inv s ids → s.capacity_ = C →
      ∃ rs s' ids', run s ops = .ok (rs, s') ∧ Inv s' ids' ∧ s'.capacity_ = C := by
  induction ops with
  | nil => exact fun s ids hinv hcap => ⟨[], s, ids, rfl, hinv, hcap⟩
  | cons op ops ih =>
    intro s ids hinv hcap
    obtain ⟨r, s1, ids1, e1, hi1, hc1⟩ :=
      lf_step hinv (by rw [hcap]; exact hC) (by rw [hcap]; exact h64) op
    obtain ⟨rs, s2, ids2, e2, hi2, hc2⟩ := ih s1 ids1 hi1 (hc1.trans hcap)
    exact ⟨r :: rs, s2, ids2, by simp only [run, e1, e2], hi2, hc2⟩

theorem lf_inv_new (C : Nat) : Inv (new C : LinkedFifo V) [] := by
  refine ⟨⟨rfl, rfl, trivial, List.nodup_nil, rfl, rfl⟩, fun _ _ => rfl,
    ⟨fun key hv h => ?_, fun i hi => ?_⟩, rfl, Nat.zero_le _⟩
  · cases h
  · cases hi

/-- The invariant of the states a FIFO shard of capacity at least 1 reaches. -/
theorem Reachable.lf_inv {C : Nat} (hC : 1 ≤ C) (h64 : C < 2 ^ 64) {s : LinkedFifo V}
    (h : Reachable C s) : ∃ ids, Inv s ids ∧ s.capacity_ = C := by
  obtain ⟨ops, rs, hr⟩ := h
  obtain ⟨rs', s', ids', e, hi, hcap⟩ := lf_run hC h64 ops (new C) [] (lf_inv_new C) rfl
  rw [hr] at e
  cases e
  exact ⟨ids', hi, hcap⟩

end LinkedFifo

/-! ## The invariant of an LRU shard with its list nodes -/

namespace LinkedLru

open NodeHeap

variable {V : Type}

theorem ll_key_of_item {a b : Option (NodeHeap.ListNode (Item V))}
    (h : a.map (fun n => n.item) = b.map (fun n => n.item)) :
    a.map (fun n => n.item.key) = b.map (fun n => n.item.key) := by
  have := congrArg (Option.map Item.key) h
  simpa only [Option.map_map] using this

/-- `EvictOne` on a list whose last node carries a key of the index: the node
is unlinked and deleted, and its key leaves the index. -/
theorem ll_EvictOne {s : LinkedLru V} {pre : List Nat} {l kl : Nat} {p : NodePtr}
    (hl : Linked s.heap (pre ++ [l]))
    (hitem : (HashMap.find s.heap.nodes l).map (fun n => n.item.key) = some kl)
    (hidx : HashMap.find s.hash_map_ kl = some p) :
    ∃ h', EvictOne s = .ok { s with hash_map_ := HashMap.erase s.hash_map_ kl, heap := h' } ∧
      Linked h' pre ∧
      (∀ j, (HashMap.find h'.nodes j).map (fun n => n.item.key) =
        if j = l then none else (HashMap.find s.heap.nodes j).map (fun n => n.item.key)) ∧
      h'.allocated = s.heap.allocated := by
  have htail : s.heap.tail.prev = .node l := by
    rw [hl.2.1, nh_lastPtr_concat]
  obtain ⟨h2, n, e1, hn, _, hl2, hn2, _, g2, al2⟩ := nh_remove hl
  have e1' : LruRemove s.heap (.node l) = .ok h2 := e1
  rw [List.append_nil] at hl2
  have hkl : n.item.key = kl := by
    rw [hn] at hitem
    simp only [Option.map_some', Option.some.injEq] at hitem
    exact hitem
  obtain ⟨h3, e3, a3, b3, c3, al3⟩ := nh_delete hn2
  have hl3 : Linked h3 pre := by
    refine hl2.nh_congr b3 c3 (fun i hi => links_of_find ?_)
    rw [a3 i, if_neg]
    intro hx
    have hnd := List.nodup_append.mp hl.2.2.2.1
    exact hnd.2.2 (by rw [← hx]; exact hi) (List.mem_singleton_self l)
  refine ⟨h3, ?_, hl3, fun j => ?_, by rw [al3, al2]⟩
  · unfold EvictOne
    rw [htail]
    simp only [e1', bind, Except.bind, deref, hn2, hkl, hidx, e3]
  · rw [a3 j]
    by_cases hj : j = l
    · rw [if_pos hj, if_pos hj]
      rfl
    · rw [if_neg hj, if_neg hj]
      exact ll_key_of_item (g2 j)

/-- `Insert` of a key that the index holds: the value of its node is
replaced. -/
theorem ll_Insert_resident {s : LinkedLru V} {ids : List Nat} (hinv : Inv s ids)
    {key : Nat} {p : NodePtr} (hk : HashMap.find s.hash_map_ key = some p) (value : V) :
    ∃ s', Insert s key value = .ok (false, s') ∧ Inv s' ids ∧ s'.capacity_ = s.capacity_ := by
  obtain ⟨hl, hf, hx, hu, hc⟩ := hinv
  obtain ⟨i, hi, hp, hitem⟩ := hx.1 key p hk
  obtain ⟨hl1, hf1, ha, hfind1, al1⟩ :=
    nh_newNode hl hf ({ key := key, value := value, charge := 1 } : Item V)
  have hai : s.heap.allocated ≠ i := fun h => ha (by rw [h]; exact hi)
  obtain ⟨n, hn⟩ := hl.2.2.1.nh_find_mem hi
  obtain ⟨h1, hh1⟩ : ∃ h1, h1 =
      (newNode s.heap ({ key := key, value := value, charge := 1 } : Item V)).2 := ⟨_, rfl⟩
  have hn1 : HashMap.find h1.nodes i = some n := by
    rw [hh1, hfind1 i, if_neg hai]
    exact hn
  obtain ⟨n', hn'⟩ : ∃ n' : NodeHeap.ListNode (Item V), n' =
      { n with item := { n.item with value := value } } := ⟨_, rfl⟩
  have hput : ∀ j, HashMap.find (put h1 (.node i) n').nodes j =
      if j = i then some n' else HashMap.find h1.nodes j :=
    FrozenHotCache.find_update_some hn1 n'
  have hna : HashMap.find (put h1 (.node i) n').nodes s.heap.allocated =
      some ⟨{ key := key, value := value, charge := 1 }, .marker, .null⟩ := by
    rw [hput, if_neg hai, hh1, hfind1, if_pos rfl]
  obtain ⟨h3, e3, a3, b3, c3, al3⟩ := nh_delete hna
  have hfind3 : ∀ j, HashMap.find h3.nodes j =
      if j = i then some n' else HashMap.find s.heap.nodes j := by
    intro j
    rw [a3 j, hput j, hh1, hfind1 j]
    by_cases hj1 : j = s.heap.allocated
    · have hj2 : ¬ j = i := fun h => hai (hj1.symm.trans h)
      simp only [if_pos hj1, if_neg hj2]
      rw [hj1, hf _ (Nat.le_refl _)]
    · have hj2 : ¬ s.heap.allocated = j := fun h => hj1 h.symm
      simp only [if_neg hj1, if_neg hj2]
  have hlinks : ∀ j, links h3 j = links s.heap j := by
    intro j
    unfold links
    rw [hfind3 j]
    by_cases hj1 : j = i
    · rw [if_pos hj1, hj1, hn, hn']
      rfl
    · rw [if_neg hj1]
  have hkeys : ∀ j, (HashMap.find h3.nodes j).map (fun n => n.item.key) =
      (HashMap.find s.heap.nodes j).map (fun n => n.item.key) := by
    intro j
    rw [hfind3 j]
    by_cases hj1 : j = i
    · rw [if_pos hj1, hj1, hn, hn']
      rfl
    · rw [if_neg hj1]
  refine ⟨{ capacity_ := s.capacity_, usage_ := s.usage_, hash_map_ := s.hash_map_, heap := h3 },
    ?_, ⟨?_, ?_, ?_, hu, hc⟩, rfl⟩
  · rw [hh1, hn'] at e3
    rw [hh1] at hn1
    unfold Insert
    simp only [hk, hp, deref, hn1, bind, Except.bind]
    erw [e3]
  · refine hl.nh_congr ?_ ?_ (fun j _ => hlinks j)
    · rw [b3, hh1]; rfl
    · rw [c3, hh1]; rfl
  · intro j hj
    have hj' : h3.allocated ≤ j := hj
    rw [al3, hh1] at hj'
    have hj'' : (newNode s.heap ({ key := key, value := value, charge := 1 } : Item V)).2.allocated
        ≤ j := hj'
    rw [al1] at hj''
    have hji : j ≠ i := by
      have := hl.nh_allocated hf hi
      omega
    rw [hfind3 j, if_neg hji]
    exact hf j (by omega)
  · show Indexes _ _ ids
    exact Indexes.ix_congr hx (fun _ => rfl) (fun j _ => hkeys j) (fun _ => Iff.rfl)

end LinkedLru

/-! ## The calls of an LRU shard keep its invariant -/

namespace LinkedLru

open NodeHeap

variable {V : Type}

/-- `Insert` of a key that the index does not hold, on a shard of capacity at
least 1: the new node is the first of the list, and the last node leaves when
the shard was full. -/
theorem ll_Insert_fresh {s : LinkedLru V} {ids : List Nat} (hinv : Inv s ids)
    (hC : 1 ≤ s.capacity_) (h64 : s.capacity_ < 2 ^ 64)
    {key : Nat} (hk : HashMap.find s.hash_map_ key = none) (value : V) :
    ∃ s' ids', Insert s key value = .ok (true, s') ∧ Inv s' ids' ∧
      s'.capacity_ = s.capacity_ := by
  obtain ⟨hl, hf, hx, hu, hc⟩ := hinv
  obtain ⟨item, hitem0⟩ : ∃ item : Item V, item = { key := key, value := value, charge := 1 } :=
    ⟨_, rfl⟩
  obtain ⟨hl1, hf1, ha, hfind1, al1⟩ := nh_newNode hl hf item
  have hna : HashMap.find (newNode s.heap item).2.nodes s.heap.allocated =
      some ⟨item, .marker, .null⟩ := by
    rw [hfind1, if_pos rfl]
  have hkeys1 : ∀ j, (HashMap.find (newNode s.heap item).2.nodes j).map (fun n => n.item.key) =
      if s.heap.allocated = j then some key
      else (HashMap.find s.heap.nodes j).map (fun n => n.item.key) := by
    intro j
    rw [hfind1 j]
    by_cases h1 : s.heap.allocated = j
    · rw [if_pos h1, if_pos h1, hitem0]; rfl
    · rw [if_neg h1, if_neg h1]
  by_cases hfull : s.usage_ ≥ s.capacity_
  · -- the shard is full: the last node leaves
    have hne : ids ≠ [] := by
      intro h0
      rw [h0] at hu
      simp only [List.length_nil] at hu
      omega
    rcases List.eq_nil_or_concat ids with h0 | ⟨pre, l, h0⟩
    · exact absurd h0 hne
    rw [List.concat_eq_append] at h0
    subst h0
    have hlmem : l ∈ pre ++ [l] := List.mem_append_right _ (List.mem_singleton_self l)
    obtain ⟨kl, hiteml, hfindl⟩ := hx.2 l hlmem
    have hkl : key ≠ kl := by
      intro h
      rw [h, hfindl] at hk
      cases hk
    have hal : s.heap.allocated ≠ l := fun h => ha (by rw [h]; exact hlmem)
    obtain ⟨s2, hs2⟩ : ∃ s2 : LinkedLru V, s2 =
        { capacity_ := s.capacity_, usage_ := s.usage_,
          hash_map_ := HashMap.add s.hash_map_ key (newNode s.heap item).1,
          heap := (newNode s.heap item).2 } := ⟨_, rfl⟩
    have hl2 : Linked s2.heap (pre ++ [l]) := by rw [hs2]; exact hl1
    have hitem2 : (HashMap.find s2.heap.nodes l).map (fun n => n.item.key) = some kl := by
      rw [hs2]
      show (HashMap.find (newNode s.heap item).2.nodes l).map _ = _
      rw [hkeys1, if_neg hal]
      exact hiteml
    have hidx2 : HashMap.find s2.hash_map_ kl = some (.node l) := by
      rw [hs2]
      show HashMap.find (HashMap.add _ _ _) kl = _
      rw [HashMap.find_add, if_neg hkl]
      exact hfindl
    obtain ⟨h3, e3, hl3, g3, al3⟩ := ll_EvictOne hl2 hitem2 hidx2
    have hg3 : ∀ j, (HashMap.find h3.nodes j).map (fun n => n.item.key) =
        if j = l then none
        else if s.heap.allocated = j then some key
        else (HashMap.find s.heap.nodes j).map (fun n => n.item.key) := by
      intro j
      rw [g3 j, hs2]
      show (if j = l then none
        else (HashMap.find (newNode s.heap item).2.nodes j).map _) = _
      rw [hkeys1 j]
    obtain ⟨n3, hn3⟩ : ∃ n3, HashMap.find h3.nodes s.heap.allocated = some n3 := by
      have := hg3 s.heap.allocated
      rw [if_neg hal, if_pos rfl] at this
      obtain ⟨n3, hn3, _⟩ := Option.map_eq_some'.mp this
      exact ⟨n3, hn3⟩
    have hapre : s.heap.allocated ∉ pre := fun h => ha (List.mem_append_left _ h)
    obtain ⟨h4, e4, hl4, g4, al4⟩ := nh_append hl3 hapre hn3
    have e4' : LruAppend h3 (newNode s.heap item).1 = .ok h4 := e4
    have hngt : ¬ s.usage_ > s.capacity_ := by omega
    have hlpre : l ∉ pre := by
      have hnd := List.nodup_append.mp hl.2.2.2.1
      exact fun h => hnd.2.2 h (List.mem_singleton_self l)
    have hg4 : ∀ j, (HashMap.find h4.nodes j).map (fun n => n.item.key) =
        (HashMap.find h3.nodes j).map (fun n => n.item.key) := fun j => ll_key_of_item (g4 j)
    refine ⟨
      { capacity_ := s.capacity_, usage_ := s.usage_,
        hash_map_ := HashMap.erase (HashMap.add s.hash_map_ key (newNode s.heap item).1) kl,
        heap := h4 }, s.heap.allocated :: pre, ?_, ⟨hl4, ?_, ?_, ?_, ?_⟩, rfl⟩
    · rw [hs2] at e3
      rw [hitem0] at e3 e4'
      unfold Insert
      simp only [hk, bind, Except.bind, hfull, decide_True, if_true, e3, e4', hngt, if_false,
        hitem0]
    · -- freshness
      intro j hj
      have hj' : h4.allocated ≤ j := hj
      rw [al4, al3, hs2] at hj'
      have hj'' : (newNode s.heap item).2.allocated ≤ j := hj'
      rw [al1] at hj''
      have := hg4 j
      rw [hg3 j] at this
      by_cases h1 : j = l
      · rw [if_pos h1] at this
        exact Option.map_eq_none'.mp this
      · rw [if_neg h1, if_neg (by omega), hf j (by omega)] at this
        exact Option.map_eq_none'.mp this
    · -- the index and the list
      have hdrop : Indexes (fun k => if k = kl then none else HashMap.find s.hash_map_ k)
          (fun i => (HashMap.find s.heap.nodes i).map (fun n => n.item.key)) (pre ++ []) :=
        Indexes.ix_drop hx hl.2.2.2.1 hiteml (fun _ => rfl) (fun _ _ => rfl)
      rw [List.append_nil] at hdrop
      refine hdrop.ix_add key ?_ (fun k' => ?_) ?_ (fun j hj => ?_)
      · show (if key = kl then none else _) = none
        rw [if_neg hkl, hk]
      · show HashMap.find (HashMap.erase (HashMap.add s.hash_map_ key _) kl) k' = _
        rw [HashMap.find_erase, HashMap.find_add]
        by_cases h1 : key = k'
        · have h2 : ¬ k' = kl := fun h => hkl (h1.trans h)
          simp only [if_pos h1, if_neg h2]
          rfl
        · by_cases h2 : k' = kl
          · simp only [if_pos h2, if_neg h1]
          · simp only [if_neg h2, if_neg h1]
      · show (HashMap.find h4.nodes _).map _ = _
        rw [hg4, hg3, if_neg hal, if_pos rfl]
      · show (HashMap.find h4.nodes j).map _ = _
        rw [hg4, hg3, if_neg (fun h => hlpre (by rw [← h]; exact hj)),
          if_neg (fun h => hapre (by rw [h]; exact hj))]
    · show s.usage_ = (s.heap.allocated :: pre).length
      rw [hu]
      simp only [List.length_append, List.length_cons, List.length_nil]
    · show (s.heap.allocated :: pre).length ≤ s.capacity_
      simp only [List.length_append, List.length_cons, List.length_nil] at hc ⊢
      exact hc
  · -- there is room
    obtain ⟨h4, e4, hl4, g4, al4⟩ := nh_append hl1 ha hna
    have e4' : LruAppend (newNode s.heap item).2 (newNode s.heap item).1 = .ok h4 := e4
    have hlt : s.usage_ < s.capacity_ := Nat.lt_of_not_ge hfull
    have hu64 : u64 (s.usage_ + 1) = s.usage_ + 1 := by
      unfold u64
      exact Nat.mod_eq_of_lt (by omega)
    have hngt : ¬ s.usage_ + 1 > s.capacity_ := by omega
    have hg4 : ∀ j, (HashMap.find h4.nodes j).map (fun n => n.item.key) =
        (HashMap.find (newNode s.heap item).2.nodes j).map (fun n => n.item.key) :=
      fun j => ll_key_of_item (g4 j)
    refine ⟨
      { capacity_ := s.capacity_, usage_ := u64 (s.usage_ + 1),
        hash_map_ := HashMap.add s.hash_map_ key (newNode s.heap item).1,
        heap := h4 }, s.heap.allocated :: ids, ?_, ⟨hl4, ?_, ?_, ?_, ?_⟩, rfl⟩
    · rw [hitem0] at e4'
      unfold Insert
      simp only [hk, bind, Except.bind, hfull, decide_False, if_false, e4', hu64, hngt,
        Bool.false_eq_true, hitem0]
    · intro j hj
      have hj' : h4.allocated ≤ j := hj
      rw [al4, al1] at hj'
      have := hg4 j
      rw [hkeys1 j, if_neg (by omega), hf j (by omega)] at this
      exact Option.map_eq_none'.mp this
    · refine Indexes.ix_add hx key hk (fun k' => ?_) ?_ (fun j hj => ?_)
      · show HashMap.find (HashMap.add s.hash_map_ key _) k' = _
        rw [HashMap.find_add]
        rfl
      · show (HashMap.find h4.nodes _).map _ = _
        rw [hg4, hkeys1, if_pos rfl]
      · show (HashMap.find h4.nodes j).map _ = _
        rw [hg4, hkeys1, if_neg (fun h => ha (by rw [h]; exact hj))]
    · show u64 (s.usage_ + 1) = (s.heap.allocated :: ids).length
      rw [hu64, hu, List.length_cons]
    · show (s.heap.allocated :: ids).length ≤ s.capacity_
      rw [List.length_cons, ← hu]
      omega

/-- `Erase` of a key that the index holds: its node leaves the list and is
deleted. -/
theorem ll_Erase_resident {s : LinkedLru V} {ids : List Nat} (hinv : Inv s ids)
    (h64 : s.capacity_ < 2 ^ 64)
    {key : Nat} {p : NodePtr} (hk : HashMap.find s.hash_map_ key = some p) :
    ∃ s' ids', Erase s key = .ok (true, s') ∧ Inv s' ids' ∧ s'.capacity_ = s.capacity_ := by
  obtain ⟨hl, hf, hx, hu, hc⟩ := hinv
  obtain ⟨i, hi, hp, hitem⟩ := hx.1 key p hk
  obtain ⟨xs, ys, hsplit⟩ := List.append_of_mem hi
  subst hsplit
  obtain ⟨h2, n, e1, hn, _, hl2, hn2, _, g2, al2⟩ := nh_remove hl
  have e1' : LruRemove s.heap (.node i) = .ok h2 := e1
  obtain ⟨h3, e3, a3, b3, c3, al3⟩ := nh_delete hn2
  have hnd := hl.2.2.2.1
  have hni : i ∉ xs ++ ys := by
    have h := List.nodup_append.mp hnd
    intro hj
    rcases List.mem_append.mp hj with h1 | h1
    · exact h.2.2 h1 (List.mem_cons_self _ _)
    · exact (List.nodup_cons.mp h.2.1).1 h1
  have hl3 : Linked h3 (xs ++ ys) := by
    refine hl2.nh_congr b3 c3 (fun j hj => links_of_find ?_)
    rw [a3 j, if_neg (fun h => hni (by rw [← h]; exact hj))]
  have hg3 : ∀ j, (HashMap.find h3.nodes j).map (fun n => n.item.key) =
      if j = i then none else (HashMap.find s.heap.nodes j).map (fun n => n.item.key) := by
    intro j
    rw [a3 j]
    by_cases h1 : j = i
    · rw [if_pos h1, if_pos h1]; rfl
    · rw [if_neg h1, if_neg h1]; exact ll_key_of_item (g2 j)
  have hlen : (xs ++ i :: ys).length = (xs ++ ys).length + 1 := by
    simp only [List.length_append, List.length_cons]
    omega
  have hu64 : u64 (2 ^ 64 - 1 + s.usage_) = (xs ++ ys).length := by
    unfold u64
    rw [hu, hlen]
    have : 2 ^ 64 - 1 + ((xs ++ ys).length + 1) = (xs ++ ys).length + 2 ^ 64 := by omega
    rw [this, Nat.add_mod_right]
    exact Nat.mod_eq_of_lt (by omega)
  refine ⟨
    { capacity_ := s.capacity_, usage_ := u64 (2 ^ 64 - 1 + s.usage_),
      hash_map_ := HashMap.erase s.hash_map_ key, heap := h3 }, xs ++ ys, ?_,
      ⟨hl3, ?_, ?_, hu64, ?_⟩, rfl⟩
  · rw [← hp] at e1' e3
    unfold Erase
    simp only [hk, bind, Except.bind, e1', e3]
  · intro j hj
    have hj' : h3.allocated ≤ j := hj
    rw [al3, al2] at hj'
    have := hg3 j
    by_cases h1 : j = i
    · rw [if_pos h1] at this
      exact Option.map_eq_none'.mp this
    · rw [if_neg h1, hf j hj'] at this
      exact Option.map_eq_none'.mp this
  · refine Indexes.ix_drop hx hnd hitem (fun k' => ?_) (fun j hj => ?_)
    · show HashMap.find (HashMap.erase s.hash_map_ key) k' = _
      rw [HashMap.find_erase]
    · show (HashMap.find h3.nodes j).map _ = _
      rw [hg3 j, if_neg (fun h => hni (by rw [← h]; exact hj))]
  · show (xs ++ ys).length ≤ s.capacity_
    omega

/-- `Lookup` of a key that the index holds, with the list mutex acquired: the
node of the key moves to the head of the list. -/
theorem ll_Lookup_resident {s : LinkedLru V} {ids : List Nat} (hinv : Inv s ids)
    {key : Nat} {p : NodePtr} (hk : HashMap.find s.hash_map_ key = some p) (value : V) :
    ∃ v s' ids', Lookup s key value true = .ok (true, v, s') ∧ Inv s' ids' ∧
      s'.capacity_ = s.capacity_ := by
  obtain ⟨hl, hf, hx, hu, hc⟩ := hinv
  obtain ⟨i, hi, hp, hitem⟩ := hx.1 key p hk
  obtain ⟨xs, ys, hsplit⟩ := List.append_of_mem hi
  subst hsplit
  obtain ⟨h2, n, e1, hn, hin, hl2, hn2, _, g2, al2⟩ := nh_remove hl
  have e1' : LruRemove s.heap (.node i) = .ok h2 := e1
  have hnd := hl.2.2.2.1
  have hni : i ∉ xs ++ ys := by
    have h := List.nodup_append.mp hnd
    intro hj
    rcases List.mem_append.mp hj with h1 | h1
    · exact h.2.2 h1 (List.mem_cons_self _ _)
    · exact (List.nodup_cons.mp h.2.1).1 h1
  obtain ⟨h3, e3, hl3, g3, al3⟩ := nh_append hl2 hni hn2
  have hg3 : ∀ j, (HashMap.find h3.nodes j).map (fun n => n.item.key) =
      (HashMap.find s.heap.nodes j).map (fun n => n.item.key) :=
    fun j => ll_key_of_item ((g3 j).trans (g2 j))
  have hlen : (xs ++ i :: ys).length = (i :: (xs ++ ys)).length := by
    simp only [List.length_append, List.length_cons]
    omega
  refine ⟨n.item.value,
    { capacity_ := s.capacity_, usage_ := s.usage_, hash_map_ := s.hash_map_, heap := h3 },
    i :: (xs ++ ys), ?_, ⟨hl3, ?_, ?_, ?_, ?_⟩, rfl⟩
  · unfold Lookup
    simp only [hk, hp, deref, hn, bind, Except.bind, if_true, ne_eq, hin, not_false_eq_true,
      e1', e3]
  · intro j hj
    have hj' : h3.allocated ≤ j := hj
    rw [al3, al2] at hj'
    have := hg3 j
    rw [hf j hj'] at this
    exact Option.map_eq_none'.mp this
  · refine Indexes.ix_congr hx (fun _ => rfl) (fun j _ => hg3 j) (fun j => ?_)
    simp only [List.mem_cons, List.mem_append]
    tauto
  · show s.usage_ = (i :: (xs ++ ys)).length
    rw [hu, hlen]
  · show (i :: (xs ++ ys)).length ≤ s.capacity_
    rw [← hlen]
    exact hc

/-- Each call on an LRU shard of capacity at least 1 returns and keeps the
invariant. -/
theorem ll_step {s : LinkedLru V} {ids : List Nat} (hinv : Inv s ids)
    (hC : 1 ≤ s.capacity_) (h64 : s.capacity_ < 2 ^ 64) (op : Op V) :
    ∃ r s' ids', step s op = .ok (r, s') ∧ Inv s' ids' ∧ s'.capacity_ = s.capacity_ := by
  cases op with
  | Insert key value =>
    cases hk : HashMap.find s.hash_map_ key with
    | none =>
      obtain ⟨s', ids', e, hi, hcap⟩ := ll_Insert_fresh hinv hC h64 hk value
      exact ⟨⟨true, none⟩, s', ids', by simp only [step, e], hi, hcap⟩
    | some p =>
      obtain ⟨s', e, hi, hcap⟩ := ll_Insert_resident hinv hk value
      exact ⟨⟨false, none⟩, s', ids, by simp only [step, e], hi, hcap⟩
  | Lookup key value =>
    cases hk : HashMap.find s.hash_map_ key with
    | none =>
      exact ⟨⟨false, some value⟩, s, ids, by simp only [step, Lookup, hk], hinv, rfl⟩
    | some p =>
      obtain ⟨v, s', ids', e, hi, hcap⟩ := ll_Lookup_resident hinv hk value
      exact ⟨⟨true, some v⟩, s', ids', by simp only [step, e], hi, hcap⟩
  | Erase key =>
    cases hk : HashMap.find s.hash_map_ key with
    | none =>
      exact ⟨⟨false, none⟩, s, ids, by simp only [step, Erase, hk], hinv, rfl⟩
    | some p =>
      obtain ⟨s', ids', e, hi, hcap⟩ := ll_Erase_resident hinv h64 hk
      exact ⟨⟨true, none⟩, s', ids', by simp only [step, e], hi, hcap⟩

/-- Each sequence of calls on an LRU shard of capacity at least 1 returns and
keeps the invariant. -/
theorem ll_run {C : Nat} (hC : 1 ≤ C) (h64 : C < 2 ^ 64) (ops : List (Op V)) :
    ∀ (s : LinkedLru V) (ids : List Nat), Inv s ids → s.capacity_ = C →
      ∃ rs s' ids', run s ops = .ok (rs, s') ∧ Inv s' ids' ∧ s'.capacity_ = C := by
  induction ops with
  | nil => exact fun s ids hinv hcap => ⟨[], s, ids, rfl, hinv, hcap⟩
  | cons op ops ih =>
    intro s ids hinv hcap
    obtain ⟨r, s1, ids1, e1, hi1, hc1⟩ :=
      ll_step hinv (by rw [hcap]; exact hC) (by rw [hcap]; exact h64) op
    obtain ⟨rs, s2, ids2, e2, hi2, hc2⟩ := ih s1 ids1 hi1 (hc1.trans hcap)
    exact ⟨r :: rs, s2, ids2, by simp only [run, e1, e2], hi2, hc2⟩

theorem ll_inv_new [Inhabited V] (C : Nat) : Inv (new C : LinkedLru V) [] := by
  refine ⟨⟨rfl, rfl, trivial, List.nodup_nil, rfl, rfl⟩, fun _ _ => rfl,
    ⟨fun key p h => ?_, fun i hi => ?_⟩, rfl, Nat.zero_le _⟩
  · cases h
  · cases hi

/-- The invariant of the states an LRU shard of capacity at least 1 reaches. -/
theorem Reachable.ll_inv [Inhabited V] {C : Nat} (hC : 1 ≤ C) (h64 : C < 2 ^ 64)
    {s : LinkedLru V} (h : Reachable C s) : ∃ ids, Inv s ids ∧ s.capacity_ = C := by
  obtain ⟨ops, rs, hr⟩ := h
  obtain ⟨rs', s', ids', e, hi, hcap⟩ := ll_run hC h64 ops (new C) [] (ll_inv_new C) rfl
  rw [hr] at e
  cases e
  exact ⟨ids', hi, hcap⟩

end LinkedLru

/-! ## The index and the list of a FIFO or LRU shard hold the same keys -/

namespace NodeHeap

theorem nodup_filterMap_on {β : Type} {f : Nat → Option β} :
    ∀ {l : List Nat}, l.Nodup →
      (∀ a, a ∈ l → ∀ a', a' ∈ l → ∀ b, f a = some b → f a' = some b → a = a') →
      (l.filterMap f).Nodup
  | [], _, _ => List.nodup_nil
  | a :: l, hnd, hinj => by
    have hnd' := List.nodup_cons.mp hnd
    have ih : (l.filterMap f).Nodup :=
      nodup_filterMap_on hnd'.2 (fun x hx y hy b h1 h2 =>
        hinj x (List.mem_cons_of_mem _ hx) y (List.mem_cons_of_mem _ hy) b h1 h2)
    cases hfa : f a with
    | none =>
      rw [List.filterMap_cons_none hfa]
      exact ih
    | some b =>
      rw [List.filterMap_cons_some hfa]
      refine List.nodup_cons.mpr ⟨?_, ih⟩
      intro hb
      obtain ⟨a', ha', hfa'⟩ := List.mem_filterMap.mp hb
      have := hinj a (List.mem_cons_self _ _) a' (List.mem_cons_of_mem _ ha') b hfa hfa'
      exact hnd'.1 (by rw [this]; exact ha')

theorem length_filterMap_on {β : Type} {f : Nat → Option β} :
    ∀ {l : List Nat}, (∀ a, a ∈ l → ∃ b, f a = some b) → (l.filterMap f).length = l.length
  | [], _ => rfl
  | a :: l, h => by
    obtain ⟨b, hb⟩ := h a (List.mem_cons_self _ _)
    rw [List.filterMap_cons_some hb, List.length_cons, List.length_cons,
      length_filterMap_on (fun x hx => h x (List.mem_cons_of_mem _ hx))]

/-- The keys of the index are the keys of the nodes of the list, and each key
occurs in the list exactly once. -/
theorem Indexes.ix_keys {fm : Nat → Option NodePtr} {it : Nat → Option Nat} {ids : List Nat}
    (hx : Indexes fm it ids) (hnd : ids.Nodup) :
    (∀ key, (fm key).isSome = true ↔ key ∈ ids.filterMap it) ∧ (ids.filterMap it).Nodup ∧
      (ids.filterMap it).length = ids.length := by
  refine ⟨fun key => ⟨fun h => ?_, fun h => ?_⟩, ?_, ?_⟩
  · obtain ⟨p, hp⟩ := Option.isSome_iff_exists.mp h
    obtain ⟨i, hi, _, hit⟩ := hx.1 key p hp
    exact List.mem_filterMap.mpr ⟨i, hi, hit⟩
  · obtain ⟨i, hi, hit⟩ := List.mem_filterMap.mp h
    obtain ⟨k, hk, hf⟩ := hx.2 i hi
    rw [hit] at hk
    cases hk
    rw [hf]
    rfl
  · exact nodup_filterMap_on hnd (fun a ha a' ha' b h1 h2 => hx.ix_unique ha ha' h1 h2)
  · exact length_filterMap_on (fun a ha => by
      obtain ⟨k, hk, _⟩ := hx.2 a ha
      exact ⟨k, hk⟩)

end NodeHeap

namespace LinkedFifo

open NodeHeap

variable {V : Type}

/-- What the invariant of a FIFO shard says about its keys. -/
theorem Inv.lf_keys {s : LinkedFifo V} {ids : List Nat} (h : Inv s ids) :
    (∀ key, (HashMap.find s.m_map key).isSome = true ↔ key ∈ keys s ids) ∧
      (keys s ids).Nodup ∧ (keys s ids).length = ids.length := by
  obtain ⟨hl, _, hx, _, _⟩ := h
  obtain ⟨a, b, c⟩ := ((lf_indexed_iff s ids).mp hx).ix_keys hl.2.2.2.1
  refine ⟨fun key => ?_, b, c⟩
  have h1 := a key
  rw [Option.isSome_map'] at h1
  exact h1

theorem lf_sample_reachable : Reachable 2 sample :=
  ⟨[.Insert 5 50, .Insert 6 60, .Insert 7 70], [⟨true, none⟩, ⟨true, none⟩, ⟨true, none⟩], rfl⟩

end LinkedFifo

namespace LinkedLru

open NodeHeap

variable {V : Type}

theorem ll_keys_eq (s : LinkedLru V) (ids : List Nat) :
    keys s ids = ids.filterMap fun i => (HashMap.find s.heap.nodes i).map fun n => n.item.key := by
  unfold keys items
  rw [List.map_filterMap]
  congr 1
  funext i
  cases HashMap.find s.heap.nodes i <;> rfl

/-- What the invariant of an LRU shard says about its keys. -/
theorem Inv.ll_keys {s : LinkedLru V} {ids : List Nat} (h : Inv s ids) :
    (∀ key, (HashMap.find s.hash_map_ key).isSome = true ↔ key ∈ keys s ids) ∧
      (keys s ids).Nodup ∧ (keys s ids).length = ids.length := by
  obtain ⟨hl, _, hx, _, _⟩ := h
  rw [ll_keys_eq]
  exact Indexes.ix_keys hx hl.2.2.2.1

theorem ll_sample_reachable : Reachable 2 sample :=
  ⟨[.Insert 5 50, .Insert 6 60, .Lookup 5 0, .Insert 7 70],
    [⟨true, none⟩, ⟨true, none⟩, ⟨true, some 50⟩, ⟨true, none⟩], rfl⟩

/-- On an LRU shard of capacity 0 the first `Insert` calls `EvictOne` on the
empty list: `tail_.prev` is the head sentinel, and `LruRemove` writes through
its `prev`, the out-of-list marker. -/
theorem ll_Insert_capacity_zero [Inhabited V] (key : Nat) (value : V) :
    (new 0 : LinkedLru V).heap.tail.prev = .head ∧
      (new 0 : LinkedLru V).heap.head.prev = .marker ∧
      LruRemove (new 0 : LinkedLru V).heap .head = .error .wildPointer ∧
      Insert (new 0 : LinkedLru V) key value = .error .wildPointer := by
  refine ⟨rfl, rfl, rfl, ?_⟩
  unfold Insert
  simp only [new, NodeHeap.new, newNode, HashMap.find, HashMap.add, bind, Except.bind, EvictOne,
    LruRemove, deref, setNext, setPrev, ge_iff_le, Nat.le_refl, decide_True, if_true]

end LinkedLru

namespace ConcurrentScalableCache

variable {V : Type}

/-- A dispatcher with more shards than capacity makes LRU shards of capacity
0, and its first `Insert` ends in `EvictOne` on an empty list. -/
theorem lru_dispatch_capacity_zero (S fuel capacity num_shards key : Nat) (value : V)
    (h : capacity < num_shards) :
    (new S capacity num_shards .LRU : ConcurrentScalableCache V).shards_ =
        List.replicate num_shards (.lru (LruCache.new 0)) ∧
      step S fuel (new S capacity num_shards .LRU) (.Insert key value) =
        .error .wildPointer := by
  have hdiv : capacity / num_shards = 0 := Nat.div_eq_of_lt h
  have hsh : (new S capacity num_shards .LRU : ConcurrentScalableCache V).shards_ =
      List.replicate num_shards (.lru (LruCache.new 0)) := by
    show construct S .LRU capacity num_shards num_shards [] = _
    rw [construct_replicate S .LRU capacity num_shards (.lru (LruCache.new 0))
      (fun shards => by rw [hdiv]; rfl)]
    rfl
  refine ⟨hsh, ?_⟩
  have hsized : Sized num_shards (new S capacity num_shards .LRU : ConcurrentScalableCache V) :=
    ⟨rfl, by rw [hsh, List.length_replicate]⟩
  obtain ⟨shard, h1, h2⟩ := @step_of_sized V S fuel num_shards (by omega) _ hsized
    (.Insert key value)
  rw [hsh, List.getElem?_replicate] at h1
  have hlt : (Op.Insert key value).key % num_shards < num_shards := Nat.mod_lt _ (by omega)
  rw [if_pos hlt] at h1
  cases h1
  rw [h2]
  rfl

end ConcurrentScalableCache

/-- C33. In every state that a sequential execution of `Insert`, `Lookup` and
`Erase` calls reaches on a FIFO shard and on an LRU shard of capacity `C` with
`1 ≤ C < 2 ^ 64`, there is a list `ids` of nodes such that: the list between
the sentinels is a well-formed doubly linked chain of the nodes `ids`
(`Linked`); a key is in the hash index exactly when it is the key of one of
these nodes; each key occurs once among them; the index entry of a key points
to the node of `ids` that carries the key, and the key of each node of `ids`
has an index entry that points to this node (`Indexed`); and `usage_` is the
number of these nodes, at most `C`. Every further call returns. -/
theorem fifo_lru_index_matches_list {V : Type} [Inhabited V] (C : Nat) (hC : 1 ≤ C)
    (h64 : C < 2 ^ 64) (sf : LinkedFifo V) (hf : LinkedFifo.Reachable C sf)
    (sl : LinkedLru V) (hl : LinkedLru.Reachable C sl) :
    (∃ ids, NodeHeap.Linked sf.heap ids ∧
      (∀ key, (HashMap.find sf.m_map key).isSome = true ↔ key ∈ LinkedFifo.keys sf ids) ∧
      (LinkedFifo.keys sf ids).Nodup ∧ (LinkedFifo.keys sf ids).length = ids.length ∧
      LinkedFifo.Indexed sf ids ∧ sf.usage_ = ids.length ∧ ids.length ≤ C ∧
      ∀ op, ∃ r s', LinkedFifo.step sf op = .ok (r, s')) ∧
    (∃ ids, NodeHeap.Linked sl.heap ids ∧
      (∀ key, (HashMap.find sl.hash_map_ key).isSome = true ↔ key ∈ LinkedLru.keys sl ids) ∧
      (LinkedLru.keys sl ids).Nodup ∧ (LinkedLru.keys sl ids).length = ids.length ∧
      LinkedLru.Indexed sl ids ∧ sl.usage_ = ids.length ∧ ids.length ≤ C ∧
      ∀ op, ∃ r s', LinkedLru.step sl op = .ok (r, s')) := by
  constructor
  · obtain ⟨ids, hinv, hcap⟩ := hf.lf_inv hC h64
    obtain ⟨k1, k2, k3⟩ := hinv.lf_keys
    refine ⟨ids, hinv.1, k1, k2, k3, hinv.2.2.1, hinv.2.2.2.1, by rw [← hcap]; exact hinv.2.2.2.2,
      fun op => ?_⟩
    obtain ⟨r, s', _, e, _, _⟩ :=
      LinkedFifo.lf_step hinv (by rw [hcap]; exact hC) (by rw [hcap]; exact h64) op
    exact ⟨r, s', e⟩
  · obtain ⟨ids, hinv, hcap⟩ := hl.ll_inv hC h64
    obtain ⟨k1, k2, k3⟩ := hinv.ll_keys
    refine ⟨ids, hinv.1, k1, k2, k3, hinv.2.2.1, hinv.2.2.2.1, by rw [← hcap]; exact hinv.2.2.2.2,
      fun op => ?_⟩
    obtain ⟨r, s', _, e, _, _⟩ :=
      LinkedLru.ll_step hinv (by rw [hcap]; exact hC) (by rw [hcap]; exact h64) op
    exact ⟨r, s', e⟩

/-- C33 on a FIFO shard of capacity 2 after `Insert(5, 50)`, `Insert(6, 60)`,
`Insert(7, 70)` and on an LRU shard of capacity 2 after `Insert(5, 50)`,
`Insert(6, 60)`, `Lookup(5)`, `Insert(7, 70)`; the FIFO list holds the nodes 2
and 1 with the keys 7 and 6, the LRU list the nodes 2 and 0 with the keys 7 and
5. -/
theorem fifo_lru_index_matches_list_witness :
    LinkedFifo.Reachable 2 LinkedFifo.sample ∧ LinkedLru.Reachable 2 LinkedLru.sample ∧
    NodeHeap.Linked LinkedFifo.sample.heap [2, 1] ∧
    LinkedFifo.keys LinkedFifo.sample [2, 1] = [7, 6] ∧
    NodeHeap.Linked LinkedLru.sample.heap [2, 0] ∧
    LinkedLru.keys LinkedLru.sample [2, 0] = [7, 5] ∧
    ((∃ ids, NodeHeap.Linked LinkedFifo.sample.heap ids ∧
      (∀ key, (HashMap.find LinkedFifo.sample.m_map key).isSome = true ↔
        key ∈ LinkedFifo.keys LinkedFifo.sample ids) ∧
      (LinkedFifo.keys LinkedFifo.sample ids).Nodup ∧
      (LinkedFifo.keys LinkedFifo.sample ids).length = ids.length ∧
      LinkedFifo.Indexed LinkedFifo.sample ids ∧ LinkedFifo.sample.usage_ = ids.length ∧
      ids.length ≤ 2 ∧
      ∀ op, ∃ r s', LinkedFifo.step LinkedFifo.sample op = .ok (r, s')) ∧
    (∃ ids, NodeHeap.Linked LinkedLru.sample.heap ids ∧
      (∀ key, (HashMap.find LinkedLru.sample.hash_map_ key).isSome = true ↔
        key ∈ LinkedLru.keys LinkedLru.sample ids) ∧
      (LinkedLru.keys LinkedLru.sample ids).Nodup ∧
      (LinkedLru.keys LinkedLru.sample ids).length = ids.length ∧
      LinkedLru.Indexed LinkedLru.sample ids ∧ LinkedLru.sample.usage_ = ids.length ∧
      ids.length ≤ 2 ∧
      ∀ op, ∃ r s', LinkedLru.step LinkedLru.sample op = .ok (r, s'))) :=
  ⟨LinkedFifo.lf_sample_reachable, LinkedLru.ll_sample_reachable,
    ⟨rfl, rfl, ⟨rfl, rfl, trivial⟩, by decide, rfl, rfl⟩, rfl,
    ⟨rfl, rfl, ⟨rfl, rfl, trivial⟩, by decide, rfl, rfl⟩, rfl,
    fifo_lru_index_matches_list 2 (by decide) (by decide) _ LinkedFifo.lf_sample_reachable _
      LinkedLru.ll_sample_reachable⟩

/-- C34. On an LRU shard of capacity `C` with `1 ≤ C < 2 ^ 64` the claim holds:
in every state that a sequential execution reaches, the `prev` of the head
sentinel is the out-of-list marker, `usage_` is at most the capacity, and when
`usage_` has reached the capacity, which is when `Insert` calls `EvictOne`,
`tail_.prev` is a node of the list and not the head sentinel; every call
returns. On a shard of capacity 0 it fails: `Insert` of any key on the new shard
calls `EvictOne` while `tail_.prev` is the head sentinel, `LruRemove` of the
head sentinel writes through the out-of-list marker, and so does the call. The
dispatcher makes such shards: with `capacity < num_shards` each LRU shard has
capacity 0, and the first `Insert` on the dispatcher ends in this way. -/
theorem lru_evict_one_on_empty_list {V : Type} [Inhabited V] (C : Nat) (hC : 1 ≤ C)
    (h64 : C < 2 ^ 64) (s : LinkedLru V) (hs : LinkedLru.Reachable C s) :
    (s.heap.head.prev = .marker ∧ s.usage_ ≤ s.capacity_ ∧
      (s.usage_ ≥ s.capacity_ → ∃ l, s.heap.tail.prev = .node l) ∧
      ∀ op, ∃ r s', LinkedLru.step s op = .ok (r, s')) ∧
    (∀ (key : Nat) (value : V),
      (LinkedLru.new 0 : LinkedLru V).heap.tail.prev = .head ∧
      (LinkedLru.new 0 : LinkedLru V).heap.head.prev = .marker ∧
      NodeHeap.LruRemove (LinkedLru.new 0 : LinkedLru V).heap .head = .error .wildPointer ∧
      LinkedLru.Insert (LinkedLru.new 0 : LinkedLru V) key value = .error .wildPointer ∧
      LruCache.Insert (LruCache.new 0 : LruCache V) key value = .error .wildPointer) ∧
    (∀ (S fuel capacity num_shards key : Nat) (value : V), capacity < num_shards →
      (ConcurrentScalableCache.new S capacity num_shards .LRU :
          ConcurrentScalableCache V).shards_ =
        List.replicate num_shards (.lru (LruCache.new 0)) ∧
      ConcurrentScalableCache.step S fuel
        (ConcurrentScalableCache.new S capacity num_shards .LRU) (.Insert key value) =
        .error .wildPointer) := by
  refine ⟨?_, fun key value => ?_, fun S fuel capacity num_shards key value h =>
    ConcurrentScalableCache.lru_dispatch_capacity_zero S fuel capacity num_shards key value h⟩
  · obtain ⟨ids, hinv, hcap⟩ := hs.ll_inv hC h64
    have hinv' := hinv
    obtain ⟨hl, _, _, hu, hc⟩ := hinv'
    refine ⟨hl.2.2.2.2.1, by rw [hu]; exact hc, fun hfull => ?_, fun op => ?_⟩
    · have hne : ids ≠ [] := by
        intro h0
        rw [h0] at hu
        simp only [List.length_nil] at hu
        omega
      rcases List.eq_nil_or_concat ids with h0 | ⟨pre, l, h0⟩
      · exact absurd h0 hne
      · refine ⟨l, ?_⟩
        rw [hl.2.1, h0, List.concat_eq_append, NodeHeap.nh_lastPtr_concat]
    · obtain ⟨r, s', _, e, _, _⟩ :=
        LinkedLru.ll_step hinv (by rw [hcap]; exact hC) (by rw [hcap]; exact h64) op
      exact ⟨r, s', e⟩
  · obtain ⟨a, b, c, d⟩ := LinkedLru.ll_Insert_capacity_zero key value
    exact ⟨a, b, c, d, rfl⟩

/-- C34 on the LRU shard of capacity 2 after `Insert(5, 50)`, `Insert(6, 60)`,
`Lookup(5)`, `Insert(7, 70)`, and the failing runs: `Insert(5, 50)` on a new
LRU shard of capacity 0, and on a dispatcher of capacity 3 with 4 LRU
shards. -/
theorem lru_evict_one_on_empty_list_witness :
    LinkedLru.Reachable 2 LinkedLru.sample ∧
    LinkedLru.run (LinkedLru.new 0 : LinkedLru Nat) [.Insert 5 50] = .error .wildPointer ∧
    ConcurrentScalableCache.run 1 2
      (ConcurrentScalableCache.new 1 3 4 .LRU : ConcurrentScalableCache Nat) [.Insert 5 50] =
      .error .wildPointer ∧
    ((LinkedLru.sample.heap.head.prev = .marker ∧
      LinkedLru.sample.usage_ ≤ LinkedLru.sample.capacity_ ∧
      (LinkedLru.sample.usage_ ≥ LinkedLru.sample.capacity_ →
        ∃ l, LinkedLru.sample.heap.tail.prev = .node l) ∧
      ∀ op, ∃ r s', LinkedLru.step LinkedLru.sample op = .ok (r, s')) ∧
    (∀ (key : Nat) (value : Nat),
      (LinkedLru.new 0 : LinkedLru Nat).heap.tail.prev = .head ∧
      (LinkedLru.new 0 : LinkedLru Nat).heap.head.prev = .marker ∧
      NodeHeap.LruRemove (LinkedLru.new 0 : LinkedLru Nat).heap .head = .error .wildPointer ∧
      LinkedLru.Insert (LinkedLru.new 0 : LinkedLru Nat) key value = .error .wildPointer ∧
      LruCache.Insert (LruCache.new 0 : LruCache Nat) key value = .error .wildPointer) ∧
    (∀ (S fuel capacity num_shards key : Nat) (value : Nat), capacity < num_shards →
      (ConcurrentScalableCache.new S capacity num_shards .LRU :
          ConcurrentScalableCache Nat).shards_ =
        List.replicate num_shards (.lru (LruCache.new 0)) ∧
      ConcurrentScalableCache.step S fuel
        (ConcurrentScalableCache.new S capacity num_shards .LRU) (.Insert key value) =
        .error .wildPointer)) :=
  ⟨LinkedLru.ll_sample_reachable, rfl, rfl,
    lru_evict_one_on_empty_list 2 (by decide) (by decide) _ LinkedLru.ll_sample_reachable⟩

/-! ## Segment shard: the run that wraps the counters of an entry -/

namespace SegmentCache

/-- A run of two sequences of calls, one after the other. -/
theorem seg_run_append {V : Type} (S fuel : Nat) (ops1 ops2 : List (Op V)) :
    ∀ (s s1 s2 : SegmentCache V) (rs1 rs2 : List (Ret V)),
      run S fuel s ops1 = .ok (rs1, s1) → run S fuel s1 ops2 = .ok (rs2, s2) →
      run S fuel s (ops1 ++ ops2) = .ok (rs1 ++ rs2, s2) := by
  induction ops1 with
  | nil =>
    intro s s1 s2 rs1 rs2 h1 h2
    simp only [run, Except.ok.injEq, Prod.mk.injEq] at h1
    obtain ⟨h11, h12⟩ := h1
    subst h11 h12
    exact h2
  | cons op ops ih =>
    intro s s1 s2 rs1 rs2 h1 h2
    rw [List.cons_append]
    simp only [run] at h1 ⊢
    cases hstep : step S fuel s op with
    | error f => rw [hstep] at h1; cases h1
    | ok res =>
      obtain ⟨r, t⟩ := res
      rw [hstep] at h1
      simp only at h1 ⊢
      cases hrest : run S fuel t ops with
      | error f => rw [hrest] at h1; cases h1
      | ok res2 =>
        obtain ⟨rs, t2⟩ := res2
        rw [hrest] at h1
        simp only [Except.ok.injEq, Prod.mk.injEq] at h1
        rw [ih t t2 s2 rs rs2 hrest (by rw [h1.2]; exact h2)]
        simp only [← h1.1, List.cons_append]

/-- A run that a call faults after faults. -/
theorem seg_run_append_error {V : Type} (S fuel : Nat) (ops1 : List (Op V)) (op : Op V) :
    ∀ (s s1 : SegmentCache V) (rs1 : List (Ret V)) (f : Fault),
      run S fuel s ops1 = .ok (rs1, s1) → step S fuel s1 op = .error f →
      run S fuel s (ops1 ++ [op]) = .error f := by
  induction ops1 with
  | nil =>
    intro s s1 rs1 f h1 h2
    simp only [run, Except.ok.injEq, Prod.mk.injEq] at h1
    rw [← h1.2] at h2
    simp only [List.nil_append, run, h2]
  | cons op1 ops ih =>
    intro s s1 rs1 f h1 h2
    rw [List.cons_append]
    simp only [run] at h1 ⊢
    cases hstep : step S fuel s op1 with
    | error f => rw [hstep] at h1; cases h1
    | ok res =>
      obtain ⟨r, t⟩ := res
      rw [hstep] at h1
      simp only at h1 ⊢
      cases hrest : run S fuel t ops with
      | error f => rw [hrest] at h1; cases h1
      | ok res2 =>
        obtain ⟨rs, t2⟩ := res2
        rw [hrest] at h1
        simp only [Except.ok.injEq, Prod.mk.injEq] at h1
        rw [ih t t2 rs f hrest (by rw [h1.2]; exact h2)]

theorem find_hotIndex (n k : Nat) :
    HashMap.find (hotIndex n) k = if k < n then some k else none := by
  induction n with
  | zero => rfl
  | succ n ih =>
    have h : hotIndex (n + 1) = (n, n) :: hotIndex n := by
      simp only [hotIndex, List.range_succ, List.map_append, List.reverse_append, List.map_cons,
        List.map_nil, List.reverse_cons, List.reverse_nil, List.nil_append, List.singleton_append]
    rw [h, HashMap.find_cons, ih]
    by_cases hk : n = k
    · rw [if_pos hk, if_pos (by omega), hk]
    · rw [if_neg hk]
      by_cases hlt : k < n
      · rw [if_pos hlt, if_pos (by omega)]
      · rw [if_neg hlt, if_neg (by omega)]

theorem hotEntries_succ (n : Nat) :
    hotEntries (n + 1) = (n, (⟨n, n, 1, 2, some 0, 1⟩ : Entry Nat)) :: hotEntries n := by
  simp only [hotEntries, List.range_succ, List.map_append, List.reverse_append, List.map_cons,
    List.map_nil, List.reverse_cons, List.reverse_nil, List.nil_append, List.singleton_append]

theorem hotIndex_succ (n : Nat) : hotIndex (n + 1) = (n, n) :: hotIndex n := by
  simp only [hotIndex, List.range_succ, List.map_append, List.reverse_append, List.map_cons,
    List.map_nil, List.reverse_cons, List.reverse_nil, List.nil_append, List.singleton_append]

theorem find_hotEntries (n p : Nat) :
    HashMap.find (hotEntries n) p = if p < n then some ⟨p, p, 1, 2, some 0, 1⟩ else none := by
  induction n with
  | zero => rfl
  | succ n ih =>
    rw [hotEntries_succ, HashMap.find_cons, ih]
    by_cases hk : n = p
    · rw [if_pos hk, if_pos (by omega), hk]
    · rw [if_neg hk]
      by_cases hlt : p < n
      · rw [if_pos hlt, if_pos (by omega)]
      · rw [if_neg hlt, if_neg (by omega)]

/-- An `Insert` of the next key while the first segment has a free slot. -/
theorem hot_fill_step {S C fuel n : Nat} (hS32 : S + 1 < 2 ^ 32) (hn : n < S) (hC : n < C)
    (hfuel : 1 ≤ fuel) :
    Insert S fuel (hotFill S C n) n n = .ok (true, hotFill S C (n + 1)) := by
  obtain ⟨fuel, rfl⟩ : ∃ m, fuel = m + 1 := ⟨fuel - 1, by omega⟩
  have hfind : HashMap.find (hotFill S C n).hash_map_ n = none := by
    show HashMap.find (hotIndex n) n = none
    rw [find_hotIndex, if_neg (by omega)]
  have hu : u32 (n + 1) = n + 1 := Nat.mod_eq_of_lt (by omega)
  have hu64 : u64 (n + 1) = n + 1 := Nat.mod_eq_of_lt (by omega)
  have hu2 : u32 (1 + 1) = 2 := by decide
  have hset := filledSlots_set S 0 n hn
  rw [Nat.zero_add] at hset
  unfold Insert
  rw [hfind]
  simp only [hotFill, SegmentList.Add, Segment.Append, hn, if_true, hu, hu64, hu2, hset,
    SegmentList.head_segment, List.head?_cons, Option.map_some', HashMap.add,
    ← hotIndex_succ, ← hotEntries_succ]
  rw [evictLoop_of_le _ _ (by show n + 1 ≤ C; omega)]

/-- The inserts of the keys `0, ..., n - 1` with `n ≤ S` all return true. -/
theorem hot_fill_run {S C fuel : Nat} (hS32 : S + 1 < 2 ^ 32) (hfuel : 1 ≤ fuel) (n : Nat)
    (hn : n ≤ S) (hC : n ≤ C) :
    run S fuel (SegmentCache.new S C) (insertOps ((List.range n).map fun k => (k, k))) =
      .ok (List.replicate n ⟨true, none⟩, hotFill S C n) := by
  induction n with
  | zero =>
    simp only [List.range_zero, List.map_nil, insertOps, run, List.replicate_zero,
      SegmentCache.new, SegmentList.new, Segment.new, hotFill, hotIndex, hotEntries,
      filledSlots_zero, List.reverse_nil]
  | succ n ih =>
    have hops : insertOps ((List.range (n + 1)).map fun k => (k, k)) =
        insertOps ((List.range n).map fun k => (k, k)) ++ [Op.Insert n n] := by
      simp only [insertOps, List.range_succ, List.map_append, List.map_cons, List.map_nil]
    rw [hops, List.replicate_succ']
    refine seg_run_append S fuel _ _ _ _ _ _ _ (ih (by omega) (by omega)) ?_
    simp only [run, step, hot_fill_step hS32 (show n < S by omega) (show n < C by omega) hfuel]

/-- The insert of the key `S` into the full first segment opens the second
segment. -/
theorem hot_base_step {S C fuel : Nat} (hS : 1 ≤ S) (hS32 : S + 1 < 2 ^ 32) (hC : S < C)
    (hfuel : 2 ≤ fuel) :
    Insert S fuel (hotFill S C S) S S = .ok (true, hotBase S C) := by
  obtain ⟨fuel, rfl⟩ : ∃ m, fuel = m + 2 := ⟨fuel - 2, by omega⟩
  have hfind : HashMap.find (hotFill S C S).hash_map_ S = none := by
    show HashMap.find (hotIndex S) S = none
    rw [find_hotIndex, if_neg (by omega)]
  have hu : u32 (S + 1) = S + 1 := Nat.mod_eq_of_lt (by omega)
  have hu64 : u64 (S + 1) = S + 1 := Nat.mod_eq_of_lt (by omega)
  have hu2 : u32 (1 + 1) = 2 := by decide
  have hu1 : u32 (0 + 1) = 1 := by decide
  have hc1 : u64 (0 + 1) = 1 := by decide
  have hset := filledSlots_set S S 0 (by omega)
  rw [Nat.add_zero, filledSlots_zero] at hset
  have h0 : 0 < S := hS
  have hge : S + 1 ≥ S := by omega
  unfold Insert
  rw [hfind]
  simp only [hotFill, SegmentList.Add, Segment.Append, Nat.lt_irrefl, if_false, hu, hu64, hu2,
    hu1, hc1, hset, h0, if_true, Segment.IsFull, hge, decide_True, Segment.new,
    SegmentList.head_segment, List.head?_cons, Option.map_some', HashMap.add,
    ← hotIndex_succ, ← hotEntries_succ]
  rw [evictLoop_of_le _ _ (by show S + 1 ≤ C; omega)]
  rfl

/-- The inserts of the keys `0, ..., S` all return true and leave `hotBase`. -/
theorem hot_base_run {S C fuel : Nat} (hS : 1 ≤ S) (hS32 : S + 1 < 2 ^ 32) (hC : S < C)
    (hfuel : 2 ≤ fuel) :
    run S fuel (SegmentCache.new S C) (insertOps ((List.range (S + 1)).map fun k => (k, k))) =
      .ok (List.replicate (S + 1) ⟨true, none⟩, hotBase S C) := by
  have hops : insertOps ((List.range (S + 1)).map fun k => (k, k)) =
      insertOps ((List.range S).map fun k => (k, k)) ++ [Op.Insert S S] := by
    simp only [insertOps, List.range_succ, List.map_append, List.map_cons, List.map_nil]
  rw [hops, List.replicate_succ']
  refine seg_run_append S fuel _ _ _ _ _ _ _
    (hot_fill_run hS32 (by omega) S (Nat.le_refl S) (by omega)) ?_
  simp only [run, step, hot_base_step hS hS32 hC hfuel]

end SegmentCache

namespace SegmentCache

theorem u32_succ_u32 (a : Nat) : u32 (u32 a + 1) = u32 (a + 1) := by
  simp only [u32, Nat.add_mod, Nat.mod_mod]

theorem hotSlots_succ (N : Nat) : hotSlots (N + 1) = hotSlots N ++ [⟨some 0, u32 (2 + N)⟩] := by
  simp only [hotSlots, List.range_succ, List.map_append, List.map_cons, List.map_nil]

/-- A predicate that no unused slot satisfies counts nothing in unused
slots. -/
theorem countP_unused (f : Slot → Bool) (hf : ∀ slot, slot.entry = none → f slot = false)
    (n : Nat) : (List.replicate n (⟨none, 0⟩ : Slot)).countP f = 0 := by
  rw [List.countP_eq_zero]
  intro slot hslot
  rw [List.mem_replicate] at hslot
  rw [hslot.2, hf _ rfl]
  exact Bool.false_ne_true

/-- The state after the inserts of the keys `0, ..., S` is the state of the
run with no lookup. -/
theorem hot_base {S C fuel : Nat} (hS : 1 ≤ S) (hS32 : S + 2 < 2 ^ 32) (hC : S < C)
    (hC64 : C < 2 ^ 64) (hfuel : 2 ≤ fuel) : Hot S C 0 (hotBase S C) := by
  have hreach : Reachable S fuel C (S + 1) (hotBase S C) :=
    ⟨_, _, by simp [insertOps], hot_base_run hS (by omega) hC hfuel⟩
  have hex := Reachable.exact hS (by omega) hC64 (by omega) hreach
  refine ⟨rfl, rfl, rfl, rfl, ?_, hex.2.2.2.2.1,
    ⟨⟨1, filledSlots S S 1, 1⟩, [], rfl, rfl, Nat.le_refl 1, ?_⟩, ?_⟩
  · show hotEntries (S + 1) = _
    symm
    apply HashMap.update_eq_self
    intro p hp hp1
    have hfind := find_hotEntries (S + 1) 0
    rw [if_pos (by omega)] at hfind
    simp only [hotEntries, List.mem_reverse, List.mem_map, List.mem_range] at hp
    obtain ⟨k, _, hk⟩ := hp
    rw [← hk] at hp1 ⊢
    simp only at hp1 ⊢
    rw [hp1]
    rfl
  · show 1 * S + 1 = S + 1 + 0
    omega
  · intro f hf
    show (filledSlots S S 1 ++ (filledSlots S 0 S ++ [])).countP f = _
    rw [List.append_nil, filledSlots_full]
    simp only [filledSlots, List.countP_append, countP_unused f hf, hotSlots, List.range_zero,
      List.map_nil, List.countP_nil, List.range_succ, List.map_append, List.map_cons,
      Nat.zero_add, Nat.add_zero, List.append_nil]
    omega

/-- A lookup of key 0 in a state of the run: it hits, increments both counters
of the entry modulo `2 ^ 32` and appends a slot. -/
theorem hot_step {S C fuel N : Nat} (hS : 1 ≤ S) (hS32 : S + 1 < 2 ^ 32) (hN : N < 2 ^ 63)
    (hfuel : 2 ≤ fuel) {s : SegmentCache Nat} (h : Hot S C N s) (value : Nat) :
    ∃ s', Lookup S fuel s 0 value = .ok (true, 0, s') ∧ Hot S C (N + 1) s' := by
  obtain ⟨hcap, hus, hal, hidx, hent, hshape, ⟨head, mid, hsegs, hid, hid1, hcnt⟩, hlog⟩ := h
  have hfind : HashMap.find s.hash_map_ 0 = some 0 := by
    rw [hidx, find_hotIndex, if_pos (by omega)]
  have hbase := find_hotEntries (S + 1) 0
  rw [if_pos (by omega)] at hbase
  have hfe : HashMap.find s.entries 0 = some ⟨0, 0, u32 (1 + N), u32 (2 + N), some 0, 1⟩ := by
    rw [hent, FrozenHotCache.find_update_some hbase, if_pos rfl]
  have hlen : s.segment_list_.segments.length < 2 ^ 64 := by
    obtain ⟨h', r', e1, e2, _⟩ := hshape
    rw [hsegs] at e1
    have hh : head = h' := (List.cons.inj e1).1
    have hr : mid ++ [⟨0, filledSlots S 0 S, S + 1⟩] = r' := (List.cons.inj e1).2
    rw [hsegs, List.length_cons, hr, ← e2]
    have : s.segment_list_.count ≤ s.segment_list_.count * S := Nat.le_mul_of_pos_right _ hS
    omega
  obtain ⟨sl', _, hadd, hshape', _, hcount', _, head0, rest0, hsegs0, hcase⟩ :=
    SegmentList.Add_exact hS hS32 s.segment_list_ hshape hlen 0 (u32 (u32 (1 + N) + 1)) fuel
  have hadd' := hadd hfuel
  rw [hsegs] at hsegs0
  have hh : head = head0 := (List.cons.inj hsegs0).1
  have hr : mid ++ [⟨0, filledSlots S 0 S, S + 1⟩] = rest0 := (List.cons.inj hsegs0).2
  subst hh hr
  have hv : u32 (u32 (1 + N) + 1) = u32 (2 + N) := by
    rw [u32_succ_u32]
    congr 1
    omega
  have hv1 : u32 (u32 (1 + N) + 1) = u32 (1 + (N + 1)) := by
    rw [u32_succ_u32, Nat.add_assoc]
  have hr1 : u32 (u32 (2 + N) + 1) = u32 (2 + (N + 1)) := by
    rw [u32_succ_u32, Nat.add_assoc]
  have hadd2 : SegmentList.Add S fuel s.segment_list_ 0 (u32 (1 + (N + 1))) = .ok sl' := by
    rw [← hv1]
    exact hadd'
  have hne : (some 0 : Option Nat) ≠ s.segment_list_.head_segment := by
    rw [SegmentList.head_segment, hsegs]
    simp only [List.head?_cons, Option.map_some', ne_eq, Option.some.injEq]
    omega
  refine ⟨{ s with
    entries := HashMap.update s.entries 0
      ⟨0, 0, u32 (1 + (N + 1)), u32 (2 + (N + 1)), some 0, 1⟩
    segment_list_ := sl' }, ?_, hcap, hus, hal, hidx, ?_, hshape', ?_, ?_⟩
  · unfold Lookup
    rw [hfind]
    simp only [hfe, ne_eq, hne, not_false_eq_true, if_true, hv1, hr1, hadd2]
  · show HashMap.update s.entries 0 _ = _
    rw [hent, HashMap.update_update]
  · rcases hcase with ⟨hlt, hsl⟩ | ⟨hfull, hsl⟩
    · subst hsl
      refine ⟨_, mid, rfl, hid, hid1, ?_⟩
      show s.segment_list_.count * S + (head.used + 1) = _
      omega
    · subst hsl
      refine ⟨_, { head with used := S + 1 } :: mid, rfl, rfl, ?_, ?_⟩
      · show 1 ≤ s.segment_list_.allocated
        omega
      · show (s.segment_list_.count + 1) * S + 1 = _
        rw [Nat.add_mul]
        omega
  · intro f hf
    show (logSlots sl'.segments).countP f = _
    rw [hcount' f hf, hlog f hf, hotSlots_succ, List.countP_append, hv]
    simp only [List.countP_cons, List.countP_nil, Nat.zero_add]
    omega

/-- The run `hotOps S N` returns from every call, and its lookups all hit. -/
theorem hot_run {S C fuel : Nat} (hS : 1 ≤ S) (hS32 : S + 2 < 2 ^ 32) (hC : S < C)
    (hC64 : C < 2 ^ 64) (hfuel : 2 ≤ fuel) (N : Nat) (hN : N < 2 ^ 63) :
    ∃ s, run S fuel (SegmentCache.new S C) (hotOps S N) =
        .ok (List.replicate (S + 1) ⟨true, none⟩ ++ List.replicate N ⟨true, some 0⟩, s) ∧
      Hot S C N s := by
  induction N with
  | zero =>
    refine ⟨hotBase S C, ?_, hot_base hS hS32 hC hC64 hfuel⟩
    simp only [hotOps, List.replicate_zero, List.append_nil]
    exact hot_base_run hS (by omega) hC hfuel
  | succ N ih =>
    obtain ⟨s, hrun, hhot⟩ := ih (by omega)
    obtain ⟨s', hlook, hhot'⟩ := hot_step hS (by omega) (by omega) hfuel hhot 0
    refine ⟨s', ?_, hhot'⟩
    have hops : hotOps S (N + 1) = hotOps S N ++ [Op.Lookup 0 0] := by
      simp only [hotOps, List.replicate_succ', List.append_assoc]
    have hrs : List.replicate (S + 1) (⟨true, none⟩ : Ret Nat) ++
          List.replicate (N + 1) ⟨true, some 0⟩ =
        (List.replicate (S + 1) ⟨true, none⟩ ++ List.replicate N ⟨true, some 0⟩) ++
          [⟨true, some 0⟩] := by
      rw [List.append_assoc, ← List.replicate_succ']
    rw [hops, hrs]
    refine seg_run_append S fuel _ _ _ _ _ _ _ hrun ?_
    simp only [run, step, hlook]

end SegmentCache

namespace SegmentCache

/-- Index and entries in a state of the run. -/
theorem Hot.hot_find {S C N : Nat} {s : SegmentCache Nat} (h : Hot S C N s) :
    (∀ k, HashMap.find s.hash_map_ k = if k < S + 1 then some k else none) ∧
      HashMap.find s.entries 0 = some ⟨0, 0, u32 (1 + N), u32 (2 + N), some 0, 1⟩ ∧
      ∀ p, p ≠ 0 →
        HashMap.find s.entries p = if p < S + 1 then some ⟨p, p, 1, 2, some 0, 1⟩ else none := by
  obtain ⟨_, _, _, hidx, hent, _⟩ := h
  have hbase := find_hotEntries (S + 1) 0
  rw [if_pos (by omega)] at hbase
  refine ⟨fun k => by rw [hidx, find_hotIndex], ?_, fun p hp => ?_⟩
  · rw [hent, FrozenHotCache.find_update_some hbase, if_pos rfl]
  · rw [hent, FrozenHotCache.find_update_some hbase, if_neg hp, find_hotEntries]

/-- The first slot of the first segment, which the insert of key 0 wrote, is
still in the log. -/
theorem Hot.hot_first_slot {S C N : Nat} (hS : 1 ≤ S) {s : SegmentCache Nat} (h : Hot S C N s) :
    (⟨some 0, 1⟩ : Slot) ∈ logSlots s.segment_list_.segments := by
  obtain ⟨_, _, _, _, _, _, ⟨head, mid, hsegs, _⟩, _⟩ := h
  have hcons : head :: (mid ++ [(⟨0, filledSlots S 0 S, S + 1⟩ : Segment)]) =
      (head :: mid) ++ [⟨0, filledSlots S 0 S, S + 1⟩] := rfl
  rw [hsegs, hcons, logSlots_append]
  apply List.mem_append_right
  show _ ∈ filledSlots S 0 S ++ []
  rw [List.append_nil, filledSlots_full, List.mem_map]
  exact ⟨0, List.mem_range.mpr (by omega), rfl⟩

/-- After at least `4 * S` lookups the log has more than four segments behind
its head. -/
theorem Hot.hot_count {S C N : Nat} {s : SegmentCache Nat} (h : Hot S C N s) (hN : 4 * S ≤ N) :
    s.segment_list_.count > 4 := by
  obtain ⟨_, _, _, _, _, hshape, ⟨head, mid, hsegs, _, _, hcnt⟩, _⟩ := h
  obtain ⟨h', r', e1, _, hused, _⟩ := hshape
  rw [hsegs] at e1
  have hh : head = h' := (List.cons.inj e1).1
  subst hh
  by_contra hle
  have h4 : s.segment_list_.count ≤ 4 := by omega
  have : s.segment_list_.count * S ≤ 4 * S := Nat.mul_le_mul_right S h4
  omega

/-- The victim of `Evict` in a state of the run with more than four segments
behind the head is the first segment. -/
theorem Hot.hot_Evict {S C N : Nat} {s : SegmentCache Nat} (h : Hot S C N s) (hN : 4 * S ≤ N) :
    ∃ sl, SegmentList.Evict s.segment_list_ =
      .ok (some ⟨0, filledSlots S 0 S, S + 1⟩, sl) := by
  have hcount := h.hot_count hN
  obtain ⟨_, _, _, _, _, _, ⟨head, mid, hsegs, _⟩, _⟩ := h
  have hcons : head :: (mid ++ [(⟨0, filledSlots S 0 S, S + 1⟩ : Segment)]) =
      (head :: mid) ++ [⟨0, filledSlots S 0 S, S + 1⟩] := rfl
  unfold SegmentList.Evict
  rw [if_pos hcount, hsegs, hcons, List.getLast?_concat]
  exact ⟨_, rfl⟩

/-- The slots of the first segment, the first of which is the slot of key 0. -/
theorem filledSlots_first (S : Nat) (hS : 1 ≤ S) :
    filledSlots S 0 S =
      ⟨some 0, 1⟩ :: (List.range' 1 (S - 1)).map fun i => (⟨some i, 1⟩ : Slot) := by
  obtain ⟨n, rfl⟩ : ∃ n, S = n + 1 := ⟨S - 1, by omega⟩
  rw [filledSlots_full, List.range_eq_range', List.range'_succ, List.map_cons]
  simp only [Nat.zero_add, Nat.add_sub_cancel]

/-- `EvictOne` on a shard whose tail segment starts with a slot of an entry
with no reference left fails the assertion `refs > 0`. -/
theorem EvictOne_refs_zero {x : SegmentCache Nat} {S u : Nat} (hS : 1 ≤ S) {sl : SegmentList}
    (hev : SegmentList.Evict x.segment_list_ = .ok (some ⟨0, filledSlots S 0 S, u⟩, sl))
    {e : Entry Nat} (he : HashMap.find x.entries 0 = some e) (hrefs : e.refs = 0) :
    EvictOne x = .error .assertFailed := by
  unfold EvictOne
  rw [hev]
  simp only [filledSlots_first S hS, evictSlots, evictSlot, he, hrefs, Nat.lt_irrefl, gt_iff_lt,
    if_false]

/-- In the state of the run whose lookups brought the references of the entry
of key 0 to `2 ^ 32`, which a `uint32_t` holds as 0, `EvictOne` fails the
assertion `refs > 0` on the first slot of its victim. -/
theorem Hot.hot_EvictOne_fault {S C N : Nat} (hS : 1 ≤ S) {s : SegmentCache Nat}
    (h : Hot S C N s) (hN : 4 * S ≤ N) (hrefs : u32 (2 + N) = 0) :
    EvictOne s = .error .assertFailed := by
  obtain ⟨sl, hev⟩ := h.hot_Evict hN
  exact EvictOne_refs_zero hS hev h.hot_find.2.1 hrefs

/-- A slot of the log in a state of the run that points to an entry is a slot
of the inserts or a slot of the lookups. -/
theorem Hot.hot_mem {S C N : Nat} {s : SegmentCache Nat} (h : Hot S C N s) {slot : Slot}
    (hslot : slot ∈ logSlots s.segment_list_.segments) (hentry : slot.entry ≠ none) :
    slot ∈ (List.range (S + 1)).map (fun j => (⟨some j, 1⟩ : Slot)) ∨ slot ∈ hotSlots N := by
  have hlog := h.2.2.2.2.2.2.2 (fun x => decide (x = slot)) (by
    intro x hx
    simp only [decide_eq_false_iff_not]
    intro hxs
    rw [hxs] at hx
    exact hentry hx)
  have hpos : 0 < (logSlots s.segment_list_.segments).countP (fun x => decide (x = slot)) :=
    List.countP_pos_iff.mpr ⟨slot, hslot, by simp⟩
  rw [hlog] at hpos
  rcases Nat.eq_zero_or_pos
      (((List.range (S + 1)).map fun j => (⟨some j, 1⟩ : Slot)).countP
        (fun x => decide (x = slot))) with h0 | h0
  · right
    rw [h0, Nat.zero_add] at hpos
    obtain ⟨a, ha, hfa⟩ := List.countP_pos_iff.mp hpos
    simp only [decide_eq_true_eq] at hfa
    rw [← hfa]
    exact ha
  · left
    obtain ⟨a, ha, hfa⟩ := List.countP_pos_iff.mp h0
    simp only [decide_eq_true_eq] at hfa
    rw [← hfa]
    exact ha

/-- Number of the slots of the inserts that point to entry `p` with the version
`v`. -/
theorem slotLive_inserts (n p v : Nat) :
    slotLive ((List.range n).map fun j => (⟨some j, 1⟩ : Slot)) p v =
      if p < n ∧ v = 1 then 1 else 0 := by
  induction n with
  | zero => simp [slotLive]
  | succ n ih =>
    rw [List.range_succ, List.map_append, slotLive_append, ih]
    simp only [slotLive, List.map_cons, List.map_nil, List.countP_cons, List.countP_nil,
      Nat.zero_add, Option.some.injEq, decide_eq_true_eq]
    split_ifs <;> omega

/-- Number of the slots of the lookups that point to entry 0 with the version
`v`, while no version has wrapped. -/
theorem slotLive_lookups (N v : Nat) (hN : N + 1 < 2 ^ 32) :
    slotLive (hotSlots N) 0 v = if 2 ≤ v ∧ v < 2 + N then 1 else 0 := by
  induction N with
  | zero =>
    rw [if_neg (by omega)]
    rfl
  | succ N ih =>
    have hu : u32 (2 + N) = 2 + N := Nat.mod_eq_of_lt (by omega)
    rw [hotSlots_succ, slotLive_append, ih (by omega), hu]
    simp only [slotLive, List.countP_cons, List.countP_nil, Nat.zero_add, true_and,
      decide_eq_true_eq]
    split_ifs <;> omega

/-- No slot of the lookups points to another entry than that of key 0. -/
theorem slotLive_lookups_other (N p v : Nat) (hp : p ≠ 0) : slotLive (hotSlots N) p v = 0 := by
  simp only [slotLive, hotSlots, List.countP_eq_zero, List.mem_map, List.mem_range,
    decide_eq_true_eq, not_and]
  rintro slot ⟨i, _, rfl⟩ hx
  simp only [Option.some.injEq] at hx
  exact absurd hx.symm hp

/-- The live-slot property holds in the states of the run in which no version
has wrapped, the state with the version `2 ^ 32 - 1` included. -/
theorem Hot.hot_liveSlots {S C N : Nat} {s : SegmentCache Nat} (h : Hot S C N s)
    (hN : N + 1 < 2 ^ 32) : s.LiveSlots := by
  obtain ⟨hidx, he0, hep⟩ := h.hot_find
  have hv : u32 (1 + N) = 1 + N := Nat.mod_eq_of_lt (by omega)
  intro key p e hk hp
  rw [hidx key] at hk
  have hkey : key < S + 1 := by
    by_contra hx
    rw [if_neg hx] at hk
    cases hk
  rw [if_pos hkey] at hk
  cases hk
  have hlog := h.2.2.2.2.2.2.2
  by_cases hz : key = 0
  · subst hz
    rw [he0] at hp
    cases hp
    refine ⟨?_, ?_⟩
    · show (logSlots s.segment_list_.segments).countP _ = 1
      rw [hlog _ (by intro slot hs; simp [hs])]
      have e1 := slotLive_inserts (S + 1) 0 (u32 (1 + N))
      have e2 := slotLive_lookups N (u32 (1 + N)) hN
      simp only [slotLive] at e1 e2
      rw [e1, e2, hv]
      by_cases hN0 : N = 0
      · rw [if_pos ⟨by omega, by omega⟩, if_neg (by omega)]
      · rw [if_neg (by omega), if_pos ⟨by omega, by omega⟩]
    · intro slot hslot hentry
      rcases h.hot_mem hslot (by rw [hentry]; exact Option.some_ne_none 0) with hm | hm
      · simp only [List.mem_map, List.mem_range] at hm
        obtain ⟨j, _, rfl⟩ := hm
        show 1 ≤ u32 (1 + N)
        omega
      · simp only [hotSlots, List.mem_map, List.mem_range] at hm
        obtain ⟨i, hi, rfl⟩ := hm
        show u32 (2 + i) ≤ u32 (1 + N)
        rw [hv, show u32 (2 + i) = 2 + i from Nat.mod_eq_of_lt (by omega)]
        omega
  · rw [hep key hz, if_pos hkey] at hp
    cases hp
    refine ⟨?_, ?_⟩
    · show (logSlots s.segment_list_.segments).countP _ = 1
      rw [hlog _ (by intro slot hs; simp [hs])]
      have e1 := slotLive_inserts (S + 1) key 1
      have e2 := slotLive_lookups_other N key 1 hz
      simp only [slotLive] at e1 e2
      rw [e1, e2, if_pos ⟨hkey, trivial⟩]
    · intro slot hslot hentry
      rcases h.hot_mem hslot (by rw [hentry]; exact Option.some_ne_none key) with hm | hm
      · simp only [List.mem_map, List.mem_range] at hm
        obtain ⟨j, _, rfl⟩ := hm
        exact Nat.le_refl 1
      · simp only [hotSlots, List.mem_map, List.mem_range] at hm
        obtain ⟨i, hi, rfl⟩ := hm
        simp only [Option.some.injEq] at hentry
        exact absurd hentry.symm hz

/-- Once the version of the entry of key 0 has wrapped to 0, the slot that its
insert wrote has a larger version: the live-slot property fails. -/
theorem Hot.hot_not_liveSlots {S C N : Nat} (hS : 1 ≤ S) {s : SegmentCache Nat}
    (h : Hot S C N s) (hver : u32 (1 + N) = 0) : ¬ s.LiveSlots := by
  intro hlive
  obtain ⟨hidx, he0, _⟩ := h.hot_find
  have hk : HashMap.find s.hash_map_ 0 = some 0 := by rw [hidx 0, if_pos (by omega)]
  have hb := (hlive 0 0 _ hk he0).2 _ (h.hot_first_slot hS) rfl
  have hb' : 1 ≤ u32 (1 + N) := hb
  omega

/-- Once the references of the entry of key 0 have wrapped to 0, the
reference-count property fails: the index and the log still point to the
entry. -/
theorem Hot.hot_not_refsExact {S C N : Nat} {s : SegmentCache Nat} (h : Hot S C N s)
    (hrefs : u32 (2 + N) = 0) : ¬ s.RefsExact := by
  intro hre
  have hb := (hre.1 0 _ h.hot_find.2.1).2
  have hb' : 1 ≤ u32 (2 + N) := hb
  omega

/-- `Erase(0)` in the state of the run in which the wrapped counter leaves the
entry of key 0 one reference: the entry is freed at once and the size drops,
while the slots of the entry are still in the log. -/
theorem Hot.hot_Erase_frees {S C N : Nat} (hS : 1 ≤ S) (hS32 : S + 1 < 2 ^ 32)
    {s : SegmentCache Nat} (h : Hot S C N s) (hrefs : u32 (2 + N) = 1) :
    ∃ s', Erase s 0 = .ok (true, s') ∧ s.get_size = S + 1 ∧ s'.get_size = S ∧
      s'.segment_list_ = s.segment_list_ ∧ HashMap.find s'.entries 0 = none ∧
      1 ≤ slotRefs (logSlots s'.segment_list_.segments) 0 ∧ ¬ s'.SizeExact := by
  obtain ⟨hidx, he0, _⟩ := h.hot_find
  have hk : HashMap.find s.hash_map_ 0 = some 0 := by rw [hidx 0, if_pos (by omega)]
  have hus : s.usage_ = S + 1 := h.2.1
  have hu64 : u64 (2 ^ 64 - 1 + (S + 1)) = S := by
    have := u64_pred (show 1 ≤ S + 1 by omega) (show S + 1 < 2 ^ 64 by omega)
    rw [this]
    omega
  have hslot : 1 ≤ slotRefs (logSlots s.segment_list_.segments) 0 := by
    show 0 < List.countP _ _
    rw [List.countP_pos_iff]
    exact ⟨_, h.hot_first_slot hS, by simp⟩
  rw [hrefs] at he0
  refine ⟨{ s with
    entries := HashMap.erase (HashMap.update s.entries 0
      ⟨0, 0, u32 (1 + N), u32 (2 ^ 32 - 1 + 1), some 0, 1⟩) 0
    usage_ := S
    hash_map_ := HashMap.erase s.hash_map_ 0 }, ?_, hus, rfl, rfl, ?_, hslot, ?_⟩
  · unfold Erase
    rw [hk]
    simp only [TryFreeEntry, he0, if_true, hus, hu64]
  · show HashMap.find (HashMap.erase _ 0) 0 = none
    rw [HashMap.find_erase, if_pos rfl]
  · intro hsz
    have hiff := (hsz.2.2.2 0).mpr (Or.inr hslot)
    have hnone : HashMap.find (HashMap.erase (HashMap.update s.entries 0
        (⟨0, 0, u32 (1 + N), u32 (2 ^ 32 - 1 + 1), some 0, 1⟩ : Entry Nat)) 0) 0 = none := by
      rw [HashMap.find_erase, if_pos rfl]
    have hiff' : (HashMap.find (HashMap.erase (HashMap.update s.entries 0
        (⟨0, 0, u32 (1 + N), u32 (2 ^ 32 - 1 + 1), some 0, 1⟩ : Entry Nat)) 0) 0).isSome =
        true := hiff
    rw [hnone] at hiff'
    cases hiff'

end SegmentCache

namespace SegmentCache

/-- The body of the loop of `EvictOne` on the live slot of an entry with two
references that the index points to: the key leaves the index and the entry
is freed. -/
theorem evictSlot_live {x : SegmentCache Nat} {j : Nat}
    (hfe : HashMap.find x.entries j = some ⟨j, j, 1, 2, some 0, 1⟩)
    (hfi : HashMap.find x.hash_map_ j = some j) (hu : 1 ≤ x.usage_) (hu64 : x.usage_ < 2 ^ 64) :
    ∃ t, evictSlot x ⟨some j, 1⟩ = .ok t ∧ t.usage_ = x.usage_ - 1 ∧
      t.capacity_ = x.capacity_ ∧
      (∀ k, HashMap.find t.hash_map_ k = if k = j then none else HashMap.find x.hash_map_ k) ∧
      (∀ p, HashMap.find t.entries p = if p = j then none else HashMap.find x.entries p) := by
  have h1 : u32 (2 ^ 32 - 1 + 2) = 1 := by decide
  have hpred := u64_pred hu hu64
  have hfe2 : HashMap.find (HashMap.update x.entries j
      (⟨j, j, 1, 1, some 0, 1⟩ : Entry Nat)) j = some ⟨j, j, 1, 1, some 0, 1⟩ := by
    rw [FrozenHotCache.find_update_some hfe, if_pos rfl]
  refine ⟨{ x with
    entries := HashMap.erase (HashMap.update (HashMap.update x.entries j
      (⟨j, j, 1, 1, some 0, 1⟩ : Entry Nat)) j ⟨j, j, 1, u32 (2 ^ 32 - 1 + 1), some 0, 1⟩) j
    hash_map_ := HashMap.erase x.hash_map_ j
    usage_ := x.usage_ - 1 }, ?_, rfl, rfl, fun k => ?_, fun p => ?_⟩
  · simp only [evictSlot, hfe, hfi, h1, TryFreeEntry, hfe2, if_true, gt_iff_lt,
      Nat.lt_add_one, Nat.zero_lt_succ, Nat.one_lt_two, hpred]
  · show HashMap.find (HashMap.erase x.hash_map_ j) k = _
    rw [HashMap.find_erase]
  · show HashMap.find (HashMap.erase _ j) p = _
    rw [HashMap.find_erase]
    by_cases hp : p = j
    · rw [if_pos hp, if_pos hp]
    · rw [if_neg hp, if_neg hp, HashMap.find_update, if_neg hp, HashMap.find_update, if_neg hp]

/-- The loop of `EvictOne` over the live slots of the entries `j, ..., j + n - 1`:
their keys leave the index and they are freed; the entries and keys below `j`
stay as they are. -/
theorem evictSlots_live (n : Nat) : ∀ (j : Nat) (x : SegmentCache Nat),
    (∀ i, j ≤ i → i < j + n →
      HashMap.find x.entries i = some ⟨i, i, 1, 2, some 0, 1⟩ ∧
        HashMap.find x.hash_map_ i = some i) →
    n ≤ x.usage_ → x.usage_ < 2 ^ 64 →
    ∃ t, evictSlots x ((List.range' j n).map fun i => (⟨some i, 1⟩ : Slot)) = .ok t ∧
      t.usage_ = x.usage_ - n ∧ t.capacity_ = x.capacity_ ∧
      (∀ k, k < j → HashMap.find t.hash_map_ k = HashMap.find x.hash_map_ k) ∧
      (∀ p, p < j → HashMap.find t.entries p = HashMap.find x.entries p) := by
  induction n with
  | zero =>
    intro j x _ _ _
    exact ⟨x, rfl, rfl, rfl, fun _ _ => rfl, fun _ _ => rfl⟩
  | succ n ih =>
    intro j x hlive hu hu64
    obtain ⟨hfe, hfi⟩ := hlive j (Nat.le_refl j) (by omega)
    obtain ⟨x2, hx2, a1, a2, a3, a4⟩ := evictSlot_live hfe hfi (by omega) hu64
    obtain ⟨t, ht, b1, b2, b3, b4⟩ := ih (j + 1) x2 (by
      intro i hi1 hi2
      rw [a4 i, if_neg (by omega), a3 i, if_neg (by omega)]
      exact hlive i (by omega) (by omega)) (by omega) (by omega)
    refine ⟨t, ?_, by omega, by rw [b2, a2], fun k hk => ?_, fun p hp => ?_⟩
    · rw [List.range'_succ, List.map_cons]
      simp only [evictSlots, hx2]
      exact ht
    · rw [b3 k (by omega), a3 k, if_neg (by omega)]
    · rw [b4 p (by omega), a4 p, if_neg (by omega)]

/-- The body of the loop of `EvictOne` on a stale slot of an entry with one
reference: the entry is freed, whether the index points to it or not. -/
theorem evictSlot_stale_last {x : SegmentCache Nat} {e : Entry Nat}
    (hfe : HashMap.find x.entries 0 = some e) (hrefs : e.refs = 1) (hver : e.version ≠ 1)
    (hcharge : e.charge = 1) (hu : 1 ≤ x.usage_) (hu64 : x.usage_ < 2 ^ 64) :
    ∃ t, evictSlot x ⟨some 0, 1⟩ = .ok t ∧ t.usage_ = x.usage_ - 1 ∧
      t.capacity_ = x.capacity_ ∧ t.hash_map_ = x.hash_map_ ∧
      (∀ p, HashMap.find t.entries p = if p = 0 then none else HashMap.find x.entries p) := by
  have hpred := u64_pred hu hu64
  have h1 : (2 : Nat) ^ 64 - 1 + x.usage_ = 2 ^ 64 - 1 + x.usage_ := rfl
  refine ⟨{ x with
    entries := HashMap.erase (HashMap.update x.entries 0
      { e with refs := u32 (2 ^ 32 - 1 + e.refs) }) 0
    usage_ := x.usage_ - 1 }, ?_, rfl, rfl, rfl, fun p => ?_⟩
  · simp only [evictSlot, hfe, hrefs, hver, TryFreeEntry, if_true, if_false, gt_iff_lt,
      Nat.lt_add_one, hcharge, hpred]
  · show HashMap.find (HashMap.erase _ 0) p = _
    rw [HashMap.find_erase]
    by_cases hp : p = 0
    · rw [if_pos hp, if_pos hp]
    · rw [if_neg hp, if_neg hp, HashMap.find_update, if_neg hp]

/-- `EvictOne` on a shard whose tail is the first segment of the run, when the
entry of key 0 has one reference and a version other than 1, and the entries
of the keys `1, ..., S - 1` are as their inserts left them: the entry of key 0
is freed, and the index still points to it. -/
theorem EvictOne_frees_indexed {x : SegmentCache Nat} {S u : Nat} (hS : 1 ≤ S)
    {sl : SegmentList}
    (hev : SegmentList.Evict x.segment_list_ = .ok (some ⟨0, filledSlots S 0 S, u⟩, sl))
    {e : Entry Nat} (hfe : HashMap.find x.entries 0 = some e) (hrefs : e.refs = 1)
    (hver : e.version ≠ 1) (hcharge : e.charge = 1)
    (hidx : HashMap.find x.hash_map_ 0 = some 0)
    (hlive : ∀ i, 1 ≤ i → i < S →
      HashMap.find x.entries i = some ⟨i, i, 1, 2, some 0, 1⟩ ∧
        HashMap.find x.hash_map_ i = some i)
    (hu : S ≤ x.usage_) (hu64 : x.usage_ < 2 ^ 64) :
    ∃ t, EvictOne x = .ok t ∧ t.usage_ = x.usage_ - S ∧ t.capacity_ = x.capacity_ ∧
      HashMap.find t.hash_map_ 0 = some 0 ∧ HashMap.find t.entries 0 = none := by
  obtain ⟨x2, hx2, a1, a2, a3, a4⟩ :=
    evictSlot_stale_last (x := { x with segment_list_ := sl }) hfe hrefs hver hcharge
      (show 1 ≤ x.usage_ by omega) hu64
  have a1' : x2.usage_ = x.usage_ - 1 := a1
  obtain ⟨t, ht, b1, b2, b3, b4⟩ := evictSlots_live (S - 1) 1 x2 (by
    intro i hi1 hi2
    rw [a4 i, if_neg (by omega), a3]
    exact hlive i hi1 (by omega)) (by omega) (by omega)
  refine ⟨t, ?_, by omega, by rw [b2, a2], ?_, ?_⟩
  · unfold EvictOne
    rw [hev]
    simp only [filledSlots_first S hS, evictSlots, hx2]
    exact ht
  · rw [b3 0 (by omega), a3]
    exact hidx
  · rw [b4 0 (by omega), a4 0, if_pos rfl]

/-- The victim of `Evict` on a log with more than four segments behind the head
is the last segment. -/
theorem Evict_last_segment {sl : SegmentList} {victim : Segment} (pre : List Segment)
    (hsegs : sl.segments = pre ++ [victim]) (hcount : sl.count > 4) :
    ∃ sl2, SegmentList.Evict sl = .ok (some victim, sl2) := by
  unfold SegmentList.Evict
  rw [if_pos hcount, hsegs, List.getLast?_concat]
  exact ⟨_, rfl⟩

/-- The state in which `Insert(S + 1, value)` enters its loop
`while (usage_ > capacity_) EvictOne()` when it is called in a state of the
run: the size is `S + 2`, the entries and the index of the keys `0, ..., S`
are as they were, and the tail of the log is still the first segment. -/
theorem Hot.hot_Insert {S C fuel N : Nat} (hS : 1 ≤ S) (hS32 : S + 1 < 2 ^ 32)
    (hN : N < 2 ^ 63) (hN4 : 4 * S ≤ N) (hfuel : 2 ≤ fuel) {s : SegmentCache Nat}
    (h : Hot S C N s) (value : Nat) :
    ∃ x sl, (∀ f, evictLoop fuel x = .error f → Insert S fuel s (S + 1) value = .error f) ∧
      (∀ s3, evictLoop fuel x = .ok s3 → Insert S fuel s (S + 1) value = .ok (true, s3)) ∧
      x.usage_ = S + 2 ∧ x.capacity_ = C ∧
      SegmentList.Evict x.segment_list_ = .ok (some ⟨0, filledSlots S 0 S, S + 1⟩, sl) ∧
      (∀ k, k < S + 1 → HashMap.find x.hash_map_ k = some k) ∧
      HashMap.find x.entries 0 = some ⟨0, 0, u32 (1 + N), u32 (2 + N), some 0, 1⟩ ∧
      ∀ p, 1 ≤ p → p < S + 1 → HashMap.find x.entries p = some ⟨p, p, 1, 2, some 0, 1⟩ := by
  have hcount := h.hot_count hN4
  obtain ⟨hidx, he0, hep⟩ := h.hot_find
  obtain ⟨hcap, hus, hal, _, _, hshape, ⟨head, mid, hsegs, _, _, hcnt⟩, _⟩ := h
  have hnone : HashMap.find s.hash_map_ (S + 1) = none := by
    rw [hidx, if_neg (by omega)]
  have hlen : s.segment_list_.segments.length < 2 ^ 64 := by
    obtain ⟨h', r', e1, e2, _⟩ := hshape
    rw [hsegs] at e1
    have hr : mid ++ [⟨0, filledSlots S 0 S, S + 1⟩] = r' := (List.cons.inj e1).2
    rw [hsegs, List.length_cons, hr, ← e2]
    have : s.segment_list_.count ≤ s.segment_list_.count * S := Nat.le_mul_of_pos_right _ hS
    omega
  obtain ⟨sl', _, hadd, _, _, _, _, head0, rest0, hsegs0, hcase⟩ :=
    SegmentList.Add_exact hS hS32 s.segment_list_ hshape hlen s.allocated 1 fuel
  have hadd' := hadd hfuel
  rw [hsegs] at hsegs0
  have hh : head = head0 := (List.cons.inj hsegs0).1
  have hr : mid ++ [⟨0, filledSlots S 0 S, S + 1⟩] = rest0 := (List.cons.inj hsegs0).2
  subst hh hr
  have hu64 : u64 (s.usage_ + 1) = S + 2 := by
    rw [hus]
    exact Nat.mod_eq_of_lt (by omega)
  have hev : ∃ sl, SegmentList.Evict sl' = .ok (some ⟨0, filledSlots S 0 S, S + 1⟩, sl) := by
    rcases hcase with ⟨_, hsl⟩ | ⟨_, hsl⟩
    · subst hsl
      exact Evict_last_segment (_ :: mid) rfl hcount
    · subst hsl
      exact Evict_last_segment (_ :: _ :: mid) rfl (show s.segment_list_.count + 1 > 4 by omega)
  obtain ⟨sl, hsl⟩ := hev
  refine ⟨⟨s.capacity_, S + 2, HashMap.add s.hash_map_ (S + 1) s.allocated,
    HashMap.add s.entries s.allocated
      ⟨S + 1, value, 1, 2, s.segment_list_.head_segment, 1⟩, s.allocated + 1, sl'⟩, sl,
    ?_, ?_, rfl, hcap, hsl, fun k hk => ?_, ?_, fun p hp1 hp2 => ?_⟩
  · intro f hf
    rw [Insert_new_unfold S fuel s (S + 1) value hnone]
    simp only [hadd', hu64, hf]
  · intro s3 hs3
    rw [Insert_new_unfold S fuel s (S + 1) value hnone]
    simp only [hadd', hu64, hs3]
  · show HashMap.find (HashMap.add s.hash_map_ (S + 1) s.allocated) k = _
    rw [HashMap.find_add, if_neg (by omega), hidx, if_pos hk]
  · show HashMap.find (HashMap.add s.entries s.allocated _) 0 = _
    rw [HashMap.find_add, if_neg (by omega)]
    exact he0
  · show HashMap.find (HashMap.add s.entries s.allocated _) p = _
    rw [HashMap.find_add, if_neg (by omega), hep p (by omega), if_pos hp2]

/-- `Insert(S + 1, value)` at capacity `S + 1` in the state of the run in
which the entry of key 0 has no reference left: its first `EvictOne` fails
the assertion `refs > 0`. -/
theorem Hot.hot_Insert_fault {S C fuel N : Nat} (hS : 1 ≤ S) (hS32 : S + 1 < 2 ^ 32)
    (hN : N < 2 ^ 63) (hN4 : 4 * S ≤ N) (hfuel : 2 ≤ fuel) (hC : C = S + 1)
    {s : SegmentCache Nat} (h : Hot S C N s) (hrefs : u32 (2 + N) = 0) (key : Nat)
    (hkey : key = S + 1) (value : Nat) :
    Insert S fuel s key value = .error .assertFailed := by
  subst hC hkey
  obtain ⟨fuel, rfl⟩ : ∃ m, fuel = m + 1 := ⟨fuel - 1, by omega⟩
  obtain ⟨x, sl, hins, _, hus, hcap, hev, _, he0, _⟩ :=
    h.hot_Insert hS hS32 hN hN4 hfuel value
  have hfault := EvictOne_refs_zero hS hev he0 hrefs
  apply hins
  simp only [evictLoop, hus, hcap, hfault, gt_iff_lt, Nat.lt_add_one, if_true]

/-- `Insert(S + 1, value)` at capacity `S + 1` in the state of the run in
which the wrapped counters leave the entry of key 0 one reference and the
version 0: the call returns, and it has freed the entry of key 0, which the
index still points to. -/
theorem Hot.hot_Insert_dangling {S C fuel N : Nat} (hS : 1 ≤ S) (hS32 : S + 1 < 2 ^ 32)
    (hN : N < 2 ^ 63) (hN4 : 4 * S ≤ N) (hfuel : 2 ≤ fuel) (hC : C = S + 1)
    {s : SegmentCache Nat} (h : Hot S C N s) (hrefs : u32 (2 + N) = 1)
    (hver : u32 (1 + N) = 0) (key : Nat) (hkey : key = S + 1) (value : Nat) :
    ∃ t, Insert S fuel s key value = .ok (true, t) ∧
      HashMap.find t.hash_map_ 0 = some 0 ∧ HashMap.find t.entries 0 = none := by
  subst hC hkey
  obtain ⟨fuel, rfl⟩ : ∃ m, fuel = m + 2 := ⟨fuel - 2, by omega⟩
  obtain ⟨x, sl, _, hins, hus, hcap, hev, hidx, he0, hep⟩ :=
    h.hot_Insert hS hS32 hN hN4 hfuel value
  obtain ⟨t, ht, a1, a2, a3, a4⟩ :=
    EvictOne_frees_indexed hS hev he0 hrefs (show u32 (1 + N) ≠ 1 by rw [hver]; decide) rfl
      (hidx 0 (by omega))
      (fun i hi1 hi2 => ⟨hep i hi1 (by omega), hidx i (by omega)⟩) (by omega) (by omega)
  refine ⟨t, ?_, a3, a4⟩
  apply hins
  have hle : t.usage_ ≤ t.capacity_ := by omega
  have hgt : x.usage_ > x.capacity_ := by omega
  rw [show evictLoop (fuel + 2) x = evictLoop (fuel + 1) t by
    simp only [evictLoop, hgt, if_true, ht]]
  exact evictLoop_of_le _ _ hle

/-- A call on a key whose index entry points to a freed entry dereferences
it. -/
theorem dangling_faults {S fuel : Nat} {t : SegmentCache Nat} {key p : Nat}
    (hidx : HashMap.find t.hash_map_ key = some p) (hfree : HashMap.find t.entries p = none)
    (value : Nat) :
    Erase t key = .error .useAfterFree ∧ Lookup S fuel t key value = .error .useAfterFree ∧
      Insert S fuel t key value = .error .useAfterFree := by
  refine ⟨?_, ?_, ?_⟩
  · simp only [Erase, hidx, TryFreeEntry, hfree]
  · simp only [Lookup, hidx, hfree]
  · simp only [Insert, hidx, hfree]

/-- In a state of the run the entry of key 0 points to the first segment, which
is not the head. -/
theorem Hot.hot_belong {S C N : Nat} {s : SegmentCache Nat} (h : Hot S C N s) :
    (some 0 : Option Nat) ≠ s.segment_list_.head_segment := by
  obtain ⟨_, _, _, _, _, _, ⟨head, mid, hsegs, _, hid1, _⟩, _⟩ := h
  rw [SegmentList.head_segment, hsegs]
  simp only [List.head?_cons, Option.map_some', ne_eq, Option.some.injEq]
  omega

/-- The run at the constants of the source: 65536 slots per segment, a shard
of capacity 65537. -/
theorem wrap_run (N : Nat) (hN : N < 2 ^ 63) :
    ∃ rs s, run 65536 2 (SegmentCache.new 65536 65537) (hotOps 65536 N) = .ok (rs, s) ∧
      Hot 65536 65537 N s := by
  obtain ⟨s, hrun, hhot⟩ :=
    @hot_run 65536 65537 2 (by decide) (by decide) (by decide) (by decide) (by decide) N hN
  exact ⟨_, s, hrun, hhot⟩

end SegmentCache

/-! ## The claims on the Segment shard, and the run that wraps the counters

Each of the theorems below has two parts. The first is the claim for the
states that a sequential execution of `n` calls reaches, `n` small enough
that no 32-bit counter can have wrapped. The second is a run on a shard with
the 65536 slots per segment of the source and the capacity 65537, in which
the claim fails: `hotOps 65536 N` inserts the keys `0, ..., 65536` and looks
key 0 up `N` times; every lookup increments `refs` and `version` of the entry
of key 0, which are `uint32_t`, and after `2 ^ 32 - 2` lookups `refs` is 0. -/

/-- C26. In every state `s` that a sequential execution of `n` calls
(`Insert`, `Lookup`, `Erase`, with the `EvictOne` passes they make) on a
Segment shard reaches, with `n + 2 < 2 ^ 32` so that no 32-bit counter has
wrapped: for every entry the index points to, exactly one slot of the segments
in the log points to it with `slot.version == entry.version`, and every slot
of the log that points to it has at most that version; every further call
returns a state with the same property, unless it runs out of fuel, and so
does `EvictOne`. In longer executions the property is not preserved: after
the inserts of the keys `0, ..., 65536` and `2 ^ 32 - 2` lookups of key 0 it
holds, the next `Lookup(0)` hits and wraps the version of the entry to 0,
and then the slot `(entry, 1)` that the insert wrote, still in the log, has
a larger version than the entry. -/
theorem segment_live_slot_invariant {V : Type} (S fuel C n : Nat) (hS : 1 ≤ S)
    (hS32 : S + 1 < 2 ^ 32) (hC : C < 2 ^ 64) (hn : n + 2 < 2 ^ 32)
    (s : SegmentCache V) (hs : SegmentCache.Reachable S fuel C n s) :
    (s.LiveSlots ∧
    (∀ op, (∃ r s', SegmentCache.step S fuel s op = .ok (r, s') ∧ s'.LiveSlots) ∨
      SegmentCache.step S fuel s op = .error .outOfFuel) ∧
    (∃ s', SegmentCache.EvictOne s = .ok s' ∧ s'.LiveSlots)) ∧
    (∃ rs t t', SegmentCache.run 65536 2 (SegmentCache.new 65536 65537)
        (SegmentCache.hotOps 65536 (2 ^ 32 - 2)) = .ok (rs, t) ∧ t.LiveSlots ∧
      SegmentCache.step 65536 2 t (.Lookup 0 0) = .ok (⟨true, some 0⟩, t') ∧
      HashMap.find t'.hash_map_ 0 = some 0 ∧
      HashMap.find t'.entries 0 = some ⟨0, 0, 0, 1, some 0, 1⟩ ∧
      (⟨some 0, 1⟩ : Slot) ∈ logSlots t'.segment_list_.segments ∧ ¬ t'.LiveSlots) := by
  refine ⟨?_, ?_⟩
  · have hex := hs.exact hS hS32 hC (by omega)
    refine ⟨hex.liveSlots, fun op => ?_, ?_⟩
    · rcases hex.exact_step fuel hS hS32 (by omega) op with ⟨r, s', hstep, hex'⟩ | hstep
      · exact Or.inl ⟨r, s', hstep, hex'.liveSlots⟩
      · exact Or.inr hstep
    · obtain ⟨s', hev, hex'⟩ := hex.exact_EvictOne_ok (by omega)
      exact ⟨s', hev, hex'.liveSlots⟩
  · obtain ⟨rs, t, hrun, hhot⟩ := SegmentCache.wrap_run (2 ^ 32 - 2) (by decide)
    obtain ⟨t', hlook, hhot'⟩ :=
      SegmentCache.hot_step (by decide) (by decide) (by decide) (Nat.le_refl 2) hhot 0
    obtain ⟨hidx, he0, _⟩ := hhot'.hot_find
    have h1 : u32 (1 + (2 ^ 32 - 2 + 1)) = 0 := by decide
    have h2 : u32 (2 + (2 ^ 32 - 2 + 1)) = 1 := by decide
    rw [h1, h2] at he0
    refine ⟨rs, t, t', hrun, hhot.hot_liveSlots (by decide), ?_, ?_, he0,
      hhot'.hot_first_slot (by decide), hhot'.hot_not_liveSlots (by decide) h1⟩
    · simp only [SegmentCache.step, hlook]
    · rw [hidx 0, if_pos (by decide)]

/-- C26 on the sample shard, and the run in which the property is lost. -/
theorem segment_live_slot_invariant_witness :
    SegmentCache.Reachable 1 2 10 6 SegmentCache.sampleLog ∧
    ((SegmentCache.sampleLog.LiveSlots ∧
    (∀ op, (∃ r s', SegmentCache.step 1 2 SegmentCache.sampleLog op = .ok (r, s') ∧
        s'.LiveSlots) ∨
      SegmentCache.step 1 2 SegmentCache.sampleLog op = .error .outOfFuel) ∧
    (∃ s', SegmentCache.EvictOne SegmentCache.sampleLog = .ok s' ∧ s'.LiveSlots)) ∧
    (∃ rs t t', SegmentCache.run 65536 2 (SegmentCache.new 65536 65537)
        (SegmentCache.hotOps 65536 (2 ^ 32 - 2)) = .ok (rs, t) ∧ t.LiveSlots ∧
      SegmentCache.step 65536 2 t (.Lookup 0 0) = .ok (⟨true, some 0⟩, t') ∧
      HashMap.find t'.hash_map_ 0 = some 0 ∧
      HashMap.find t'.entries 0 = some ⟨0, 0, 0, 1, some 0, 1⟩ ∧
      (⟨some 0, 1⟩ : Slot) ∈ logSlots t'.segment_list_.segments ∧ ¬ t'.LiveSlots)) :=
  ⟨SegmentCache.sampleLog_reachable,
    segment_live_slot_invariant 1 2 10 6 (by decide) (by decide) (by decide) (by decide) _
      SegmentCache.sampleLog_reachable⟩

/-- C27. In every state a sequential execution of `n` calls on a Segment shard
reaches (`n + 1 < 2 ^ 32`) with more than four segments behind the head,
`EvictOne` returns and detaches the tail segment; a key leaves the index
exactly when the index maps it to an entry that has a slot with the version
of the entry in the tail segment; every key that is still indexed afterwards
is mapped to the entry it was mapped to, with the value and the version it
had. In longer executions there are states with the live-slot property in
which `EvictOne` does none of this: after the inserts of the keys
`0, ..., 65536` and `2 ^ 32 - 2` lookups of key 0 the live-slot property
holds, the log has more than four segments behind the head, and `EvictOne`
fails the assertion `refs > 0` on the stale slot of key 0, whose entry has
`refs == 0`. One lookup later `EvictOne` returns, and the key 0, promoted
by every one of the lookups, has lost its entry: the stale slot gave up the
last reference, the entry is freed and the index still points to it. -/
theorem segment_evict_live_keys {V : Type} (S fuel C n : Nat) (hS : 1 ≤ S)
    (hS32 : S + 1 < 2 ^ 32) (hC : C < 2 ^ 64) (hn : n + 1 < 2 ^ 32)
    (s : SegmentCache V) (hs : SegmentCache.Reachable S fuel C n s)
    (hcount : s.segment_list_.count > 4) :
    (∃ s' pre t victim, s.segment_list_.segments = pre ++ [t, victim] ∧
      SegmentCache.EvictOne s = .ok s' ∧ s'.segment_list_.segments = pre ++ [t] ∧
      (∀ k, HashMap.find s'.hash_map_ k =
        if s.liveIn victim.slot_array k then none else HashMap.find s.hash_map_ k) ∧
      (∀ k p, HashMap.find s'.hash_map_ k = some p →
        HashMap.find s.hash_map_ k = some p ∧
        ∃ e e', HashMap.find s.entries p = some e ∧ HashMap.find s'.entries p = some e' ∧
          e'.value = e.value ∧ e'.version = e.version ∧ e'.key = k)) ∧
    (∃ rs t, SegmentCache.run 65536 2 (SegmentCache.new 65536 65537)
        (SegmentCache.hotOps 65536 (2 ^ 32 - 2)) = .ok (rs, t) ∧ t.LiveSlots ∧
      t.segment_list_.count > 4 ∧
      HashMap.find t.entries 0 = some ⟨0, 0, 2 ^ 32 - 1, 0, some 0, 1⟩ ∧
      SegmentCache.EvictOne t = .error .assertFailed) ∧
    (∃ rs t t', SegmentCache.run 65536 2 (SegmentCache.new 65536 65537)
        (SegmentCache.hotOps 65536 (2 ^ 32 - 1)) = .ok (rs, t) ∧
      HashMap.find t.entries 0 = some ⟨0, 0, 0, 1, some 0, 1⟩ ∧
      SegmentCache.EvictOne t = .ok t' ∧ HashMap.find t'.hash_map_ 0 = some 0 ∧
      HashMap.find t'.entries 0 = none ∧
      SegmentCache.Lookup 65536 2 t' 0 0 = .error .useAfterFree) := by
  refine ⟨?_, ?_, ?_⟩
  · have hex := hs.exact hS hS32 hC hn
    obtain ⟨s', pre, t, victim, hsegs, hev, hex', hsl, hidx, hent⟩ :=
      hex.exact_EvictOne (by omega) hcount
    refine ⟨s', pre, t, victim, hsegs, hev, by rw [hsl], hidx, fun k p hk => ?_⟩
    obtain ⟨e', he', hkey⟩ := hex'.1 k p hk
    refine ⟨?_, ?_⟩
    · have := hidx k
      rw [hk] at this
      by_cases hl : s.liveIn victim.slot_array k = true
      · rw [if_pos hl] at this
        cases this
      · rw [if_neg hl] at this
        exact this.symm
    · rcases hent p with hn | ⟨e, r, he, hr⟩
      · rw [hn] at he'
        cases he'
      · rw [hr] at he'
        have := Option.some.inj he'
        refine ⟨e, e', he, by rw [hr, this], ?_, ?_, hkey⟩
        · rw [← this]
        · rw [← this]
  · obtain ⟨rs, t, hrun, hhot⟩ := SegmentCache.wrap_run (2 ^ 32 - 2) (by decide)
    have he0 := hhot.hot_find.2.1
    have h1 : u32 (1 + (2 ^ 32 - 2)) = 2 ^ 32 - 1 := by decide
    have h2 : u32 (2 + (2 ^ 32 - 2)) = 0 := by decide
    rw [h1, h2] at he0
    exact ⟨rs, t, hrun, hhot.hot_liveSlots (by decide), hhot.hot_count (by decide), he0,
      hhot.hot_EvictOne_fault (by decide) (by decide) h2⟩
  · obtain ⟨rs, t, hrun, hhot⟩ := SegmentCache.wrap_run (2 ^ 32 - 1) (by decide)
    obtain ⟨hidx, he0, hep⟩ := hhot.hot_find
    have h1 : u32 (1 + (2 ^ 32 - 1)) = 0 := by decide
    have h2 : u32 (2 + (2 ^ 32 - 1)) = 1 := by decide
    rw [h1, h2] at he0
    obtain ⟨sl, hev⟩ := hhot.hot_Evict (by decide)
    obtain ⟨t', ht', _, _, a3, a4⟩ :=
      SegmentCache.EvictOne_frees_indexed (by decide) hev he0 rfl (by decide) rfl
        (by rw [hidx 0, if_pos (by decide)])
        (fun i hi1 hi2 => ⟨by rw [hep i (by omega), if_pos (by omega)],
          by rw [hidx i, if_pos (by omega)]⟩)
        (by rw [hhot.2.1]; decide) (by rw [hhot.2.1]; decide)
    exact ⟨rs, t, t', hrun, he0, ht', a3, a4,
      (SegmentCache.dangling_faults a3 a4 0).2.1⟩

/-- C27 on the sample shard, and the two runs in which `EvictOne` fails the
claim. -/
theorem segment_evict_live_keys_witness :
    SegmentCache.Reachable 1 2 10 6 SegmentCache.sampleLog ∧
    SegmentCache.sampleLog.segment_list_.count > 4 ∧
    ((∃ s' pre t victim, SegmentCache.sampleLog.segment_list_.segments = pre ++ [t, victim] ∧
      SegmentCache.EvictOne SegmentCache.sampleLog = .ok s' ∧
      s'.segment_list_.segments = pre ++ [t] ∧
      (∀ k, HashMap.find s'.hash_map_ k =
        if SegmentCache.sampleLog.liveIn victim.slot_array k then none
        else HashMap.find SegmentCache.sampleLog.hash_map_ k) ∧
      (∀ k p, HashMap.find s'.hash_map_ k = some p →
        HashMap.find SegmentCache.sampleLog.hash_map_ k = some p ∧
        ∃ e e', HashMap.find SegmentCache.sampleLog.entries p = some e ∧
          HashMap.find s'.entries p = some e' ∧
          e'.value = e.value ∧ e'.version = e.version ∧ e'.key = k)) ∧
    (∃ rs t, SegmentCache.run 65536 2 (SegmentCache.new 65536 65537)
        (SegmentCache.hotOps 65536 (2 ^ 32 - 2)) = .ok (rs, t) ∧ t.LiveSlots ∧
      t.segment_list_.count > 4 ∧
      HashMap.find t.entries 0 = some ⟨0, 0, 2 ^ 32 - 1, 0, some 0, 1⟩ ∧
      SegmentCache.EvictOne t = .error .assertFailed) ∧
    (∃ rs t t', SegmentCache.run 65536 2 (SegmentCache.new 65536 65537)
        (SegmentCache.hotOps 65536 (2 ^ 32 - 1)) = .ok (rs, t) ∧
      HashMap.find t.entries 0 = some ⟨0, 0, 0, 1, some 0, 1⟩ ∧
      SegmentCache.EvictOne t = .ok t' ∧ HashMap.find t'.hash_map_ 0 = some 0 ∧
      HashMap.find t'.entries 0 = none ∧
      SegmentCache.Lookup 65536 2 t' 0 0 = .error .useAfterFree)) :=
  ⟨SegmentCache.sampleLog_reachable, by decide,
    segment_evict_live_keys 1 2 10 6 (by decide) (by decide) (by decide) (by decide) _
      SegmentCache.sampleLog_reachable (by decide)⟩

/-- C28. In every state a sequential execution of `n` calls on a Segment shard
reaches (`n + 2 < 2 ^ 32`), a `Lookup` with at least 2 units of fuel that
finds the key in the index, mapped to the entry `e` named `p`, returns true
with the value of `e` and leaves the index as it is. When `e.belong` is the
head segment the whole state is unchanged. When it is not, `e.refs` and
`e.version` go up by one and the slot `(p, e.version + 1)` is written into
the log: into the first free slot of the head segment when the head segment
has one, else into the first slot of a new head segment; nothing else
changes. In longer executions `refs` does not always go up by one: after the
inserts of the keys `0, ..., 65536` and `2 ^ 32 - 3` lookups of key 0 the
entry of key 0 has `refs == 2 ^ 32 - 1` and does not point to the head
segment; `Lookup(0)` hits, and leaves the entry with `refs == 0`. -/
theorem segment_lookup_hit {V : Type} (S fuel C n : Nat) (hS : 1 ≤ S)
    (hS32 : S + 1 < 2 ^ 32) (hC : C < 2 ^ 64) (hn : n + 2 < 2 ^ 32) (hfuel : 2 ≤ fuel)
    (s : SegmentCache V) (hs : SegmentCache.Reachable S fuel C n s)
    (key p : Nat) (e : Entry V) (value : V)
    (hk : HashMap.find s.hash_map_ key = some p) (hent : HashMap.find s.entries p = some e) :
    ((e.belong = s.segment_list_.head_segment →
      SegmentCache.Lookup S fuel s key value = .ok (true, e.value, s)) ∧
    (e.belong ≠ s.segment_list_.head_segment →
      ∃ head rest sl', s.segment_list_.segments = head :: rest ∧
        SegmentCache.Lookup S fuel s key value = .ok (true, e.value,
          { s with
            entries := HashMap.update s.entries p
              { e with refs := e.refs + 1, version := e.version + 1 }
            segment_list_ := sl' }) ∧
        ((head.used < S ∧ sl' = { s.segment_list_ with segments :=
            { head with
              used := head.used + 1
              slot_array := head.slot_array.set head.used ⟨some p, e.version + 1⟩ } :: rest }) ∨
         (head.used = S ∧ sl' =
            { segments :=
                { id := s.segment_list_.allocated
                  slot_array :=
                    (List.replicate S (⟨none, 0⟩ : Slot)).set 0 ⟨some p, e.version + 1⟩
                  used := 1 } :: { head with used := S + 1 } :: rest
              count := s.segment_list_.count + 1
              allocated := s.segment_list_.allocated + 1 })))) ∧
    (∃ rs t t', SegmentCache.run 65536 2 (SegmentCache.new 65536 65537)
        (SegmentCache.hotOps 65536 (2 ^ 32 - 3)) = .ok (rs, t) ∧
      HashMap.find t.hash_map_ 0 = some 0 ∧
      HashMap.find t.entries 0 = some ⟨0, 0, 2 ^ 32 - 2, 2 ^ 32 - 1, some 0, 1⟩ ∧
      (some 0 : Option Nat) ≠ t.segment_list_.head_segment ∧
      SegmentCache.Lookup 65536 2 t 0 0 = .ok (true, 0, t') ∧
      HashMap.find t'.entries 0 = some ⟨0, 0, 2 ^ 32 - 1, 0, some 0, 1⟩) := by
  refine ⟨?_, ?_⟩
  · have hex := hs.exact hS hS32 hC (by omega)
    obtain ⟨_, _, b3, b4, _⟩ := hex.2.1 p e hent
    refine ⟨fun hbel => ?_, fun hbel => ?_⟩
    · unfold SegmentCache.Lookup
      simp only [hk, hent]
      rw [if_neg (fun hx => hx hbel)]
    · have hur : u32 (e.refs + 1) = e.refs + 1 := Nat.mod_eq_of_lt (by omega)
      have huv : u32 (e.version + 1) = e.version + 1 := Nat.mod_eq_of_lt (by omega)
      obtain ⟨sl', _, hadd, _, _, _, _, head, rest, hsegs, hdesc⟩ :=
        SegmentList.Add_exact hS hS32 s.segment_list_ hex.2.2.2.2.1 (by
          have := hex.2.2.2.2.2.1
          omega) p (e.version + 1) fuel
      refine ⟨head, rest, sl', hsegs, ?_, hdesc⟩
      unfold SegmentCache.Lookup
      simp only [hk, hent]
      rw [if_pos hbel]
      simp only [hur, huv, hadd hfuel]
  · obtain ⟨rs, t, hrun, hhot⟩ := SegmentCache.wrap_run (2 ^ 32 - 3) (by decide)
    obtain ⟨t', hlook, hhot'⟩ :=
      SegmentCache.hot_step (by decide) (by decide) (by decide) (Nat.le_refl 2) hhot 0
    obtain ⟨hidx, he0, _⟩ := hhot.hot_find
    have he0' := hhot'.hot_find.2.1
    have h1 : u32 (1 + (2 ^ 32 - 3)) = 2 ^ 32 - 2 := by decide
    have h2 : u32 (2 + (2 ^ 32 - 3)) = 2 ^ 32 - 1 := by decide
    have h3 : u32 (1 + (2 ^ 32 - 3 + 1)) = 2 ^ 32 - 1 := by decide
    have h4 : u32 (2 + (2 ^ 32 - 3 + 1)) = 0 := by decide
    rw [h1, h2] at he0
    rw [h3, h4] at he0'
    exact ⟨rs, t, t', hrun, by rw [hidx 0, if_pos (by decide)], he0, hhot.hot_belong, hlook,
      he0'⟩

/-- C28 on the sample shard, and the run in which `refs` wraps to 0. -/
theorem segment_lookup_hit_witness :
    SegmentCache.Reachable 1 2 10 6 SegmentCache.sampleLog ∧
    HashMap.find SegmentCache.sampleLog.hash_map_ 2 = some 1 ∧
    HashMap.find SegmentCache.sampleLog.entries 1 = some ⟨2, 20, 1, 2, some 0, 1⟩ ∧
    SegmentCache.Lookup 1 2 SegmentCache.sampleLog 2 0 = .ok (true, 20,
      { SegmentCache.sampleLog with
        entries := HashMap.update SegmentCache.sampleLog.entries 1 ⟨2, 20, 2, 3, some 0, 1⟩
        segment_list_ :=
          ⟨[⟨6, [⟨some 1, 2⟩], 1⟩, ⟨5, [⟨some 4, 1⟩], 2⟩, ⟨4, [⟨some 3, 1⟩], 2⟩,
            ⟨3, [⟨some 2, 1⟩], 2⟩, ⟨2, [⟨some 0, 2⟩], 2⟩, ⟨1, [⟨some 1, 1⟩], 2⟩,
            ⟨0, [⟨some 0, 1⟩], 2⟩], 6, 7⟩ }) ∧
    (∃ rs t t', SegmentCache.run 65536 2 (SegmentCache.new 65536 65537)
        (SegmentCache.hotOps 65536 (2 ^ 32 - 3)) = .ok (rs, t) ∧
      HashMap.find t.hash_map_ 0 = some 0 ∧
      HashMap.find t.entries 0 = some ⟨0, 0, 2 ^ 32 - 2, 2 ^ 32 - 1, some 0, 1⟩ ∧
      (some 0 : Option Nat) ≠ t.segment_list_.head_segment ∧
      SegmentCache.Lookup 65536 2 t 0 0 = .ok (true, 0, t') ∧
      HashMap.find t'.entries 0 = some ⟨0, 0, 2 ^ 32 - 1, 0, some 0, 1⟩) := by
  have h := segment_lookup_hit 1 2 10 6 (by decide) (by decide) (by decide) (by decide)
    (by decide) SegmentCache.sampleLog SegmentCache.sampleLog_reachable 2 1
    ⟨2, 20, 1, 2, some 0, 1⟩ 0 (by decide) (by decide)
  exact ⟨SegmentCache.sampleLog_reachable, by decide, by decide, by decide, h.2⟩

/-- C29. In every state `s` that a sequential execution of `n` calls on a
Segment shard reaches (`n + 2 < 2 ^ 32`): every entry that is not freed has
`refs` equal to 1 when the index maps its key to it, else 0, plus the number
of slots of the log that point to it, and this number is at least 1; no slot
of the log and no index entry points to a freed entry. Every further call
returns a state with the same property, unless it runs out of fuel, and so
does `EvictOne`; none of them frees an entry twice or uses a freed entry. In
longer executions the property is lost: after the inserts of the keys
`0, ..., 65536` and `2 ^ 32 - 2` lookups of key 0 the entry of key 0 has
`refs == 0` while the index and a slot of the log point to it; one lookup
later it has `refs == 1`, and `Erase(0)` frees it while the slot of the log
still points to it. -/
theorem segment_refcount_invariant {V : Type} (S fuel C n : Nat) (hS : 1 ≤ S)
    (hS32 : S + 1 < 2 ^ 32) (hC : C < 2 ^ 64) (hn : n + 2 < 2 ^ 32)
    (s : SegmentCache V) (hs : SegmentCache.Reachable S fuel C n s) :
    (s.RefsExact ∧
    (∀ op, (∃ r s', SegmentCache.step S fuel s op = .ok (r, s') ∧ s'.RefsExact) ∨
      SegmentCache.step S fuel s op = .error .outOfFuel) ∧
    (∃ s', SegmentCache.EvictOne s = .ok s' ∧ s'.RefsExact)) ∧
    (∃ rs t, SegmentCache.run 65536 2 (SegmentCache.new 65536 65537)
        (SegmentCache.hotOps 65536 (2 ^ 32 - 2)) = .ok (rs, t) ∧
      HashMap.find t.hash_map_ 0 = some 0 ∧
      HashMap.find t.entries 0 = some ⟨0, 0, 2 ^ 32 - 1, 0, some 0, 1⟩ ∧
      (⟨some 0, 1⟩ : Slot) ∈ logSlots t.segment_list_.segments ∧ ¬ t.RefsExact) ∧
    (∃ rs t t', SegmentCache.run 65536 2 (SegmentCache.new 65536 65537)
        (SegmentCache.hotOps 65536 (2 ^ 32 - 1)) = .ok (rs, t) ∧
      HashMap.find t.entries 0 = some ⟨0, 0, 0, 1, some 0, 1⟩ ∧
      SegmentCache.Erase t 0 = .ok (true, t') ∧ HashMap.find t'.entries 0 = none ∧
      (⟨some 0, 1⟩ : Slot) ∈ logSlots t'.segment_list_.segments ∧ ¬ t'.RefsExact) := by
  refine ⟨?_, ?_, ?_⟩
  · have hex := hs.exact hS hS32 hC (by omega)
    refine ⟨hex.refsExact, fun op => ?_, ?_⟩
    · rcases hex.exact_step fuel hS hS32 (by omega) op with ⟨r, s', hstep, hex'⟩ | hstep
      · exact Or.inl ⟨r, s', hstep, hex'.refsExact⟩
      · exact Or.inr hstep
    · obtain ⟨s', hev, hex'⟩ := hex.exact_EvictOne_ok (by omega)
      exact ⟨s', hev, hex'.refsExact⟩
  · obtain ⟨rs, t, hrun, hhot⟩ := SegmentCache.wrap_run (2 ^ 32 - 2) (by decide)
    obtain ⟨hidx, he0, _⟩ := hhot.hot_find
    have h1 : u32 (1 + (2 ^ 32 - 2)) = 2 ^ 32 - 1 := by decide
    have h2 : u32 (2 + (2 ^ 32 - 2)) = 0 := by decide
    rw [h1, h2] at he0
    exact ⟨rs, t, hrun, by rw [hidx 0, if_pos (by decide)], he0,
      hhot.hot_first_slot (by decide), hhot.hot_not_refsExact h2⟩
  · obtain ⟨rs, t, hrun, hhot⟩ := SegmentCache.wrap_run (2 ^ 32 - 1) (by decide)
    have he0 := hhot.hot_find.2.1
    have h1 : u32 (1 + (2 ^ 32 - 1)) = 0 := by decide
    have h2 : u32 (2 + (2 ^ 32 - 1)) = 1 := by decide
    rw [h1, h2] at he0
    obtain ⟨t', her, _, _, hsl, hnone, hrefs, _⟩ :=
      hhot.hot_Erase_frees (by decide) (by decide) h2
    have hmem : (⟨some 0, 1⟩ : Slot) ∈ logSlots t'.segment_list_.segments := by
      rw [hsl]
      exact hhot.hot_first_slot (by decide)
    refine ⟨rs, t, t', hrun, he0, her, hnone, hmem, fun hre => ?_⟩
    have := (hre.2 0 hnone).1
    omega

/-- C29 on the sample shard, and the two runs in which the reference count is
wrong. -/
theorem segment_refcount_invariant_witness :
    SegmentCache.Reachable 1 2 10 6 SegmentCache.sampleLog ∧
    ((SegmentCache.sampleLog.RefsExact ∧
    (∀ op, (∃ r s', SegmentCache.step 1 2 SegmentCache.sampleLog op = .ok (r, s') ∧
        s'.RefsExact) ∨
      SegmentCache.step 1 2 SegmentCache.sampleLog op = .error .outOfFuel) ∧
    (∃ s', SegmentCache.EvictOne SegmentCache.sampleLog = .ok s' ∧ s'.RefsExact)) ∧
    (∃ rs t, SegmentCache.run 65536 2 (SegmentCache.new 65536 65537)
        (SegmentCache.hotOps 65536 (2 ^ 32 - 2)) = .ok (rs, t) ∧
      HashMap.find t.hash_map_ 0 = some 0 ∧
      HashMap.find t.entries 0 = some ⟨0, 0, 2 ^ 32 - 1, 0, some 0, 1⟩ ∧
      (⟨some 0, 1⟩ : Slot) ∈ logSlots t.segment_list_.segments ∧ ¬ t.RefsExact) ∧
    (∃ rs t t', SegmentCache.run 65536 2 (SegmentCache.new 65536 65537)
        (SegmentCache.hotOps 65536 (2 ^ 32 - 1)) = .ok (rs, t) ∧
      HashMap.find t.entries 0 = some ⟨0, 0, 0, 1, some 0, 1⟩ ∧
      SegmentCache.Erase t 0 = .ok (true, t') ∧ HashMap.find t'.entries 0 = none ∧
      (⟨some 0, 1⟩ : Slot) ∈ logSlots t'.segment_list_.segments ∧ ¬ t'.RefsExact)) :=
  ⟨SegmentCache.sampleLog_reachable,
    segment_refcount_invariant 1 2 10 6 (by decide) (by decide) (by decide) (by decide) _
      SegmentCache.sampleLog_reachable⟩

/-- C31. In every state `s` that a sequential execution of `n` calls on a
Segment shard reaches (`n + 2 < 2 ^ 32`): `get_size()` is the number of the
entries that are allocated and not deleted, each with the charge 1, and these
are the entries that the index or at least one slot of the log points to.
Every further call returns a state with the same property, unless it runs out
of fuel, and so does `EvictOne`. `Erase` of a resident key returns true and
leaves `get_size()` as it is: the entry stays allocated, with a slot of the
log pointing to it, and is out of the index. In longer executions `Erase`
can change the size: after the inserts of the keys `0, ..., 65536` and
`2 ^ 32 - 1` lookups of key 0 the entry of key 0 has `refs == 1`, and
`Erase(0)` returns true, frees the entry and takes `get_size()` from 65537 to
65536 with the log unchanged, so that slots of the log point to an entry that
the size no longer counts. -/
theorem segment_size_counts_live_entries {V : Type} (S fuel C n : Nat) (hS : 1 ≤ S)
    (hS32 : S + 1 < 2 ^ 32) (hC : C < 2 ^ 64) (hn : n + 2 < 2 ^ 32)
    (s : SegmentCache V) (hs : SegmentCache.Reachable S fuel C n s) :
    (s.SizeExact ∧
    (∀ op, (∃ r s', SegmentCache.step S fuel s op = .ok (r, s') ∧ s'.SizeExact) ∨
      SegmentCache.step S fuel s op = .error .outOfFuel) ∧
    (∃ s', SegmentCache.EvictOne s = .ok s' ∧ s'.SizeExact) ∧
    (∀ key p, HashMap.find s.hash_map_ key = some p →
      ∃ s', SegmentCache.Erase s key = .ok (true, s') ∧ s'.get_size = s.get_size ∧
        (HashMap.find s'.entries p).isSome = true ∧ HashMap.find s'.hash_map_ key = none ∧
        1 ≤ slotRefs (logSlots s'.segment_list_.segments) p)) ∧
    (∃ rs t t', SegmentCache.run 65536 2 (SegmentCache.new 65536 65537)
        (SegmentCache.hotOps 65536 (2 ^ 32 - 1)) = .ok (rs, t) ∧
      HashMap.find t.hash_map_ 0 = some 0 ∧
      HashMap.find t.entries 0 = some ⟨0, 0, 0, 1, some 0, 1⟩ ∧
      SegmentCache.Erase t 0 = .ok (true, t') ∧ t.get_size = 65537 ∧ t'.get_size = 65536 ∧
      t'.segment_list_ = t.segment_list_ ∧ HashMap.find t'.entries 0 = none ∧
      1 ≤ slotRefs (logSlots t'.segment_list_.segments) 0 ∧ ¬ t'.SizeExact) := by
  refine ⟨?_, ?_⟩
  · have hex := hs.exact hS hS32 hC (by omega)
    have hcnt := (hs.counted (by omega)).1
    refine ⟨hcnt.sizeExact hex.refsExact, fun op => ?_, ?_, fun key p hk => ?_⟩
    · rcases hex.exact_step fuel hS hS32 (by omega) op with ⟨r, s', hstep, hex'⟩ | hstep
      · exact Or.inl ⟨r, s', hstep,
          (hcnt.counted_step (by omega) S fuel op hstep).sizeExact hex'.refsExact⟩
      · exact Or.inr hstep
    · obtain ⟨s', hev, hex'⟩ := hex.exact_EvictOne_ok (by omega)
      exact ⟨s', hev, (hcnt.counted_EvictOne (by omega) hev).sizeExact hex'.refsExact⟩
    · obtain ⟨e, hent, hkey⟩ := hex.1 key p hk
      obtain ⟨b1, b2, b3, b4, b5, b6⟩ := hex.2.1 p e hent
      rw [SegmentCache.heldSlots_nil] at b1 b6
      have hi : s.indexRef p e = 1 := by
        unfold SegmentCache.indexRef
        rw [if_pos (by rw [hkey]; exact hk)]
      have hlive := b6 hi
      have hle := slotLive_le_refs (logSlots s.segment_list_.segments) p e.version
      have hne : e.refs ≠ 1 := by omega
      refine ⟨{ s with
          entries := HashMap.update s.entries p { e with refs := u32 (2 ^ 32 - 1 + e.refs) }
          hash_map_ := HashMap.erase s.hash_map_ key }, ?_, rfl, ?_, ?_, ?_⟩
      · simp only [SegmentCache.Erase, SegmentCache.TryFreeEntry, hk, hent, hne, if_false]
      · show (HashMap.find (HashMap.update s.entries p _) p).isSome = true
        rw [HashMap.find_update, if_pos rfl, hent]
        rfl
      · show HashMap.find (HashMap.erase s.hash_map_ key) key = none
        rw [HashMap.find_erase, if_pos rfl]
      · show 1 ≤ slotRefs (logSlots s.segment_list_.segments) p
        omega
  · obtain ⟨rs, t, hrun, hhot⟩ := SegmentCache.wrap_run (2 ^ 32 - 1) (by decide)
    obtain ⟨hidx, he0, _⟩ := hhot.hot_find
    have h1 : u32 (1 + (2 ^ 32 - 1)) = 0 := by decide
    have h2 : u32 (2 + (2 ^ 32 - 1)) = 1 := by decide
    rw [h1, h2] at he0
    obtain ⟨t', her, hs1, hs2, hsl, hnone, hrefs, hsz⟩ :=
      hhot.hot_Erase_frees (by decide) (by decide) h2
    exact ⟨rs, t, t', hrun, by rw [hidx 0, if_pos (by decide)], he0, her, hs1, hs2, hsl, hnone,
      hrefs, hsz⟩

/-- C31 on the sample shard, and the run in which `Erase` changes the size. -/
theorem segment_size_counts_live_entries_witness :
    SegmentCache.Reachable 1 2 10 6 SegmentCache.sampleLog ∧
    ((SegmentCache.sampleLog.SizeExact ∧
    (∀ op, (∃ r s', SegmentCache.step 1 2 SegmentCache.sampleLog op = .ok (r, s') ∧
        s'.SizeExact) ∨
      SegmentCache.step 1 2 SegmentCache.sampleLog op = .error .outOfFuel) ∧
    (∃ s', SegmentCache.EvictOne SegmentCache.sampleLog = .ok s' ∧ s'.SizeExact) ∧
    (∀ key p, HashMap.find SegmentCache.sampleLog.hash_map_ key = some p →
      ∃ s', SegmentCache.Erase SegmentCache.sampleLog key = .ok (true, s') ∧
        s'.get_size = SegmentCache.sampleLog.get_size ∧
        (HashMap.find s'.entries p).isSome = true ∧ HashMap.find s'.hash_map_ key = none ∧
        1 ≤ slotRefs (logSlots s'.segment_list_.segments) p)) ∧
    (∃ rs t t', SegmentCache.run 65536 2 (SegmentCache.new 65536 65537)
        (SegmentCache.hotOps 65536 (2 ^ 32 - 1)) = .ok (rs, t) ∧
      HashMap.find t.hash_map_ 0 = some 0 ∧
      HashMap.find t.entries 0 = some ⟨0, 0, 0, 1, some 0, 1⟩ ∧
      SegmentCache.Erase t 0 = .ok (true, t') ∧ t.get_size = 65537 ∧ t'.get_size = 65536 ∧
      t'.segment_list_ = t.segment_list_ ∧ HashMap.find t'.entries 0 = none ∧
      1 ≤ slotRefs (logSlots t'.segment_list_.segments) 0 ∧ ¬ t'.SizeExact)) :=
  ⟨SegmentCache.sampleLog_reachable,
    segment_size_counts_live_entries 1 2 10 6 (by decide) (by decide) (by decide) (by decide) _
      SegmentCache.sampleLog_reachable⟩

/-- C32. In every state `s` that a sequential execution of `n` calls on a
Segment shard reaches (`n + 2 < 2 ^ 32`): a segment that `SegmentList::Evict`
returns is the last segment of the log and has a segment before it, so it is
not the head; it has `S` slots, and every one of them points to an entry that
is allocated and not deleted and has `refs > 0`. `EvictOne` returns: its loop
meets no null slot and no deleted entry, and its two assertions hold. Every
further call, with the `EvictOne` passes it makes, returns as well, unless it
runs out of fuel: it never faults. In longer executions the assertion
`refs > 0` fails: after the inserts of the keys `0, ..., 65536` and
`2 ^ 32 - 2` lookups of key 0, `Evict` returns the first segment, whose
first slot points to the entry of key 0, which has `refs == 0`; the next
call `Insert(65537, 0)` brings the size over the capacity, calls `EvictOne`
and fails the assertion. -/
theorem segment_evict_visits_live_entries {V : Type} (S fuel C n : Nat) (hS : 1 ≤ S)
    (hS32 : S + 1 < 2 ^ 32) (hC : C < 2 ^ 64) (hn : n + 2 < 2 ^ 32)
    (s : SegmentCache V) (hs : SegmentCache.Reachable S fuel C n s) :
    ((∀ victim sl, SegmentList.Evict s.segment_list_ = .ok (some victim, sl) →
      (∃ pre t, s.segment_list_.segments = pre ++ [t, victim]) ∧
        victim.slot_array.length = S ∧
        ∀ slot ∈ victim.slot_array, ∃ p e, slot.entry = some p ∧
          HashMap.find s.entries p = some e ∧ e.refs > 0) ∧
    (∃ s', SegmentCache.EvictOne s = .ok s') ∧
    (∀ op, (∃ r s', SegmentCache.step S fuel s op = .ok (r, s')) ∨
      SegmentCache.step S fuel s op = .error .outOfFuel)) ∧
    (∃ rs t victim sl, SegmentCache.run 65536 2 (SegmentCache.new 65536 65537)
        (SegmentCache.hotOps 65536 (2 ^ 32 - 2)) = .ok (rs, t) ∧
      SegmentList.Evict t.segment_list_ = .ok (some victim, sl) ∧
      victim.slot_array.head? = some ⟨some 0, 1⟩ ∧
      HashMap.find t.entries 0 = some ⟨0, 0, 2 ^ 32 - 1, 0, some 0, 1⟩ ∧
      SegmentCache.step 65536 2 t (.Insert 65537 0) = .error .assertFailed) ∧
    SegmentCache.run 65536 2 (SegmentCache.new 65536 65537)
      (SegmentCache.hotOps 65536 (2 ^ 32 - 2) ++ [.Insert 65537 0]) = .error .assertFailed := by
  have hfail : ∃ rs t victim sl, SegmentCache.run 65536 2 (SegmentCache.new 65536 65537)
        (SegmentCache.hotOps 65536 (2 ^ 32 - 2)) = .ok (rs, t) ∧
      SegmentList.Evict t.segment_list_ = .ok (some victim, sl) ∧
      victim.slot_array.head? = some ⟨some 0, 1⟩ ∧
      HashMap.find t.entries 0 = some ⟨0, 0, 2 ^ 32 - 1, 0, some 0, 1⟩ ∧
      SegmentCache.step 65536 2 t (.Insert 65537 0) = .error .assertFailed := by
    obtain ⟨rs, t, hrun, hhot⟩ := SegmentCache.wrap_run (2 ^ 32 - 2) (by decide)
    have he0 := hhot.hot_find.2.1
    have h1 : u32 (1 + (2 ^ 32 - 2)) = 2 ^ 32 - 1 := by decide
    have h2 : u32 (2 + (2 ^ 32 - 2)) = 0 := by decide
    rw [h1, h2] at he0
    obtain ⟨sl, hev⟩ := hhot.hot_Evict (by decide)
    have hins := hhot.hot_Insert_fault (by decide) (by decide) (by decide) (by decide)
      (Nat.le_refl 2) (by decide) h2 65537 (by decide) 0
    refine ⟨rs, t, _, sl, hrun, hev, ?_, he0, ?_⟩
    · show (filledSlots 65536 0 65536).head? = _
      rw [SegmentCache.filledSlots_first 65536 (by decide)]
      rfl
    · simp only [SegmentCache.step, hins]
  refine ⟨?_, hfail, ?_⟩
  · have hex := hs.exact hS hS32 hC (by omega)
    have hslots := (hs.counted (by omega)).2
    refine ⟨fun victim sl hev => ?_, ?_, fun op => ?_⟩
    · have hcount : s.segment_list_.count > 4 := by
        by_contra hc
        rw [SegmentList.Evict_none _ (by omega)] at hev
        cases hev
      obtain ⟨pre, t, victim', hsegs, hev', _, hnonnull, hlog⟩ :=
        hex.2.2.2.2.1.shape_evict (by have := hex.2.2.2.2.2.1; omega) hcount
      rw [hev'] at hev
      have hv : victim' = victim := by
        simp only [Except.ok.injEq, Prod.mk.injEq, Option.some.injEq] at hev
        exact hev.1
      subst hv
      refine ⟨⟨pre, t, hsegs⟩, hslots victim' (by rw [hsegs]; simp), fun slot hm => ?_⟩
      cases hp : slot.entry with
      | none => exact absurd hp (hnonnull slot hm)
      | some p =>
        have hpos : 1 ≤ slotRefs (logSlots s.segment_list_.segments) p := by
          unfold slotRefs
          rw [hlog]
          exact List.countP_pos_iff.mpr ⟨slot, List.mem_append.mpr (Or.inr hm), by simp [hp]⟩
        cases he : HashMap.find s.entries p with
        | none =>
          have := hex.2.2.1 p he
          rw [SegmentCache.heldSlots_nil] at this
          omega
        | some e =>
          exact ⟨p, e, rfl, he, (hex.2.1 p e he).2.1⟩
    · obtain ⟨s', hev, _⟩ := hex.exact_EvictOne_ok (by omega)
      exact ⟨s', hev⟩
    · rcases hex.exact_step fuel hS hS32 (by omega) op with ⟨r, s', hstep, _⟩ | hstep
      · exact Or.inl ⟨r, s', hstep⟩
      · exact Or.inr hstep
  · obtain ⟨rs, t, _, _, hrun, _, _, _, hstep⟩ := hfail
    exact SegmentCache.seg_run_append_error 65536 2 _ _ _ _ _ _ hrun hstep

/-- C32 on the sample shard, and the run in which `EvictOne` fails its
assertion. -/
theorem segment_evict_visits_live_entries_witness :
    SegmentCache.Reachable 1 2 10 6 SegmentCache.sampleLog ∧
    SegmentList.Evict SegmentCache.sampleLog.segment_list_ =
      .ok (some ⟨0, [⟨some 0, 1⟩], 2⟩,
        ⟨[⟨5, [⟨some 4, 1⟩], 1⟩, ⟨4, [⟨some 3, 1⟩], 2⟩, ⟨3, [⟨some 2, 1⟩], 2⟩,
          ⟨2, [⟨some 0, 2⟩], 2⟩, ⟨1, [⟨some 1, 1⟩], 2⟩], 4, 6⟩) ∧
    (((∀ victim sl,
      SegmentList.Evict SegmentCache.sampleLog.segment_list_ = .ok (some victim, sl) →
      (∃ pre t, SegmentCache.sampleLog.segment_list_.segments = pre ++ [t, victim]) ∧
        victim.slot_array.length = 1 ∧
        ∀ slot ∈ victim.slot_array, ∃ p e, slot.entry = some p ∧
          HashMap.find SegmentCache.sampleLog.entries p = some e ∧ e.refs > 0) ∧
    (∃ s', SegmentCache.EvictOne SegmentCache.sampleLog = .ok s') ∧
    (∀ op, (∃ r s', SegmentCache.step 1 2 SegmentCache.sampleLog op = .ok (r, s')) ∨
      SegmentCache.step 1 2 SegmentCache.sampleLog op = .error .outOfFuel)) ∧
    (∃ rs t victim sl, SegmentCache.run 65536 2 (SegmentCache.new 65536 65537)
        (SegmentCache.hotOps 65536 (2 ^ 32 - 2)) = .ok (rs, t) ∧
      SegmentList.Evict t.segment_list_ = .ok (some victim, sl) ∧
      victim.slot_array.head? = some ⟨some 0, 1⟩ ∧
      HashMap.find t.entries 0 = some ⟨0, 0, 2 ^ 32 - 1, 0, some 0, 1⟩ ∧
      SegmentCache.step 65536 2 t (.Insert 65537 0) = .error .assertFailed) ∧
    SegmentCache.run 65536 2 (SegmentCache.new 65536 65537)
      (SegmentCache.hotOps 65536 (2 ^ 32 - 2) ++ [.Insert 65537 0]) = .error .assertFailed) :=
  ⟨SegmentCache.sampleLog_reachable, by decide,
    segment_evict_visits_live_entries 1 2 10 6 (by decide) (by decide) (by decide) (by decide) _
      SegmentCache.sampleLog_reachable⟩

/-- C7. For each of the FIFO, LRU and Segment shards of capacity `C ≥ 1`, in
any state a sequential execution reaches (for the Segment shard an execution
of fewer than `2 ^ 32 - 1` calls, so that no 32-bit reference count has
wrapped): `Erase(k)` returns true exactly when `k` is resident; after it
`Lookup(k)` misses and every other key gives the same hit or miss, with the
same value, as before; `Erase` of a key that is not resident returns false
and changes nothing. In longer executions on a Segment shard `Erase` of a
resident key can fail to return: after the inserts of the keys
`0, ..., 65536`, `2 ^ 32 - 1` lookups of key 0, which all hit, and
`Insert(65537, 0)`, which returns true, the index still holds key 0 but the
eviction inside `Insert` has freed its entry, and `Erase(0)`, like
`Lookup(0)`, dereferences the freed entry. -/
theorem erase_spec {V : Type} (C : Nat) (hC : 1 ≤ C) (h64 : C < 2 ^ 64) (k : Nat) (value : V)
    (sf : FifoCache V) (hf : FifoCache.Reachable C sf)
    (sl : LruCache V) (hl : LruCache.Reachable C sl)
    (S fuel n : Nat) (hS : 1 ≤ S) (hn : n + 1 < 2 ^ 32)
    (ss : SegmentCache V) (hs : SegmentCache.Reachable S fuel C n ss) :
    ((∃ sf', FifoCache.Erase sf k = .ok ((FifoCache.Lookup sf k value).1, sf') ∧
      FifoCache.Lookup sf' k value = (false, value, sf') ∧
      (∀ k', k' ≠ k →
        (FifoCache.Lookup sf' k' value).1 = (FifoCache.Lookup sf k' value).1 ∧
        (FifoCache.Lookup sf' k' value).2.1 = (FifoCache.Lookup sf k' value).2.1) ∧
      ((FifoCache.Lookup sf k value).1 = false → sf' = sf)) ∧
    (∃ sl', LruCache.Erase sl k = .ok ((LruCache.Lookup sl k value true).1, sl') ∧
      (LruCache.Lookup sl' k value true).1 = false ∧
      (∀ k', k' ≠ k →
        (LruCache.Lookup sl' k' value true).1 = (LruCache.Lookup sl k' value true).1 ∧
        (LruCache.Lookup sl' k' value true).2.1 = (LruCache.Lookup sl k' value true).2.1) ∧
      ((LruCache.Lookup sl k value true).1 = false → sl' = sl)) ∧
    (∃ ss', SegmentCache.Erase ss k = .ok ((HashMap.find ss.hash_map_ k).isSome, ss') ∧
      SegmentCache.Lookup S fuel ss' k value = .ok (false, value, ss') ∧
      (∀ k' v t, k' ≠ k → SegmentCache.Lookup S fuel ss k' value = .ok (true, v, t) →
        ∃ t', SegmentCache.Lookup S fuel ss' k' value = .ok (true, v, t')) ∧
      (HashMap.find ss.hash_map_ k = none → ss' = ss))) ∧
    (∃ rs t, SegmentCache.run 65536 2 (SegmentCache.new 65536 65537)
        (SegmentCache.hotOps 65536 (2 ^ 32 - 1) ++ [.Insert 65537 0]) = .ok (rs, t) ∧
      rs.getLast? = some ⟨true, none⟩ ∧
      HashMap.find t.hash_map_ 0 = some 0 ∧ HashMap.find t.entries 0 = none ∧
      SegmentCache.Erase t 0 = .error .useAfterFree ∧
      SegmentCache.Lookup 65536 2 t 0 0 = .error .useAfterFree) := by
  refine ⟨⟨?_, ?_, ?_⟩, ?_⟩
  · obtain ⟨a, ha⟩ := hf.fifo_rep hC h64
    exact FifoCache.fifo_Erase_spec sf k value (fun k' h => (ha.mem_list k').2 h)
  · obtain ⟨a, ha⟩ := hl.lru_rep hC h64
    exact LruCache.lru_Erase_spec sl k value (fun k' h => (ha.mem_list k').2 h)
  · exact SegmentCache.segment_Erase_spec S fuel ss (hs.inv hS h64 hn).1 k value
  · obtain ⟨rs, s, hrun, hhot⟩ := SegmentCache.wrap_run (2 ^ 32 - 1) (by decide)
    obtain ⟨t, hins, a3, a4⟩ := hhot.hot_Insert_dangling (by decide) (by decide) (by decide)
      (by decide) (Nat.le_refl 2) (by decide) (by decide) (by decide) 65537 (by decide) 0
    have hfaults := @SegmentCache.dangling_faults 65536 2 t 0 0 a3 a4 0
    refine ⟨rs ++ [⟨true, none⟩], t, ?_, List.getLast?_concat _, a3, a4, hfaults.1,
      hfaults.2.1⟩
    refine SegmentCache.seg_run_append 65536 2 _ _ _ _ _ _ _ hrun ?_
    simp only [SegmentCache.run, SegmentCache.step, hins]

/-- C7 on the sample shards, and the run on the Segment shard after which
`Erase` of a resident key does not return. -/
theorem erase_spec_witness :
    1 ≤ 2 ∧ 2 < 2 ^ 64 ∧ FifoCache.Reachable 2 FifoCache.sample ∧
    LruCache.Reachable 2 LruCache.sample ∧ 1 ≤ 2 ∧ 1 + 1 < 2 ^ 32 ∧
    SegmentCache.Reachable 2 2 2 1 SegmentCache.sample ∧
    (((∃ sf', FifoCache.Erase FifoCache.sample 1
        = .ok ((FifoCache.Lookup FifoCache.sample 1 0).1, sf') ∧
      FifoCache.Lookup sf' 1 0 = (false, 0, sf') ∧
      (∀ k', k' ≠ 1 →
        (FifoCache.Lookup sf' k' 0).1 = (FifoCache.Lookup FifoCache.sample k' 0).1 ∧
        (FifoCache.Lookup sf' k' 0).2.1 = (FifoCache.Lookup FifoCache.sample k' 0).2.1) ∧
      ((FifoCache.Lookup FifoCache.sample 1 0).1 = false → sf' = FifoCache.sample)) ∧
    (∃ sl', LruCache.Erase LruCache.sample 1
        = .ok ((LruCache.Lookup LruCache.sample 1 0 true).1, sl') ∧
      (LruCache.Lookup sl' 1 0 true).1 = false ∧
      (∀ k', k' ≠ 1 →
        (LruCache.Lookup sl' k' 0 true).1 = (LruCache.Lookup LruCache.sample k' 0 true).1 ∧
        (LruCache.Lookup sl' k' 0 true).2.1
          = (LruCache.Lookup LruCache.sample k' 0 true).2.1) ∧
      ((LruCache.Lookup LruCache.sample 1 0 true).1 = false → sl' = LruCache.sample)) ∧
    (∃ ss', SegmentCache.Erase SegmentCache.sample 1
        = .ok ((HashMap.find SegmentCache.sample.hash_map_ 1).isSome, ss') ∧
      SegmentCache.Lookup 2 2 ss' 1 0 = .ok (false, 0, ss') ∧
      (∀ k' v t, k' ≠ 1 → SegmentCache.Lookup 2 2 SegmentCache.sample k' 0 = .ok (true, v, t) →
        ∃ t', SegmentCache.Lookup 2 2 ss' k' 0 = .ok (true, v, t')) ∧
      (HashMap.find SegmentCache.sample.hash_map_ 1 = none → ss' = SegmentCache.sample))) ∧
    (∃ rs t, SegmentCache.run 65536 2 (SegmentCache.new 65536 65537)
        (SegmentCache.hotOps 65536 (2 ^ 32 - 1) ++ [.Insert 65537 0]) = .ok (rs, t) ∧
      rs.getLast? = some ⟨true, none⟩ ∧
      HashMap.find t.hash_map_ 0 = some 0 ∧ HashMap.find t.entries 0 = none ∧
      SegmentCache.Erase t 0 = .error .useAfterFree ∧
      SegmentCache.Lookup 65536 2 t 0 0 = .error .useAfterFree)) :=
  ⟨by decide, by decide, FifoCache.fifo_sample_reachable, LruCache.lru_sample_reachable,
    by decide, by decide, SegmentCache.segment_sample_reachable,
    erase_spec 2 (by decide) (by decide) 1 0 _ FifoCache.fifo_sample_reachable _
      LruCache.lru_sample_reachable 2 2 1 (by decide) (by decide) _
      SegmentCache.segment_sample_reachable⟩

/-! ## Segment shard: `Insert` returns when the capacity is at least five segments -/

namespace SegmentCache

variable {V : Type}

/-- The method `TryFreeEntry` leaves the capacity as it is. -/
theorem TryFreeEntry_capacity {s s' : SegmentCache V} {p : Nat}
    (h : TryFreeEntry s p = .ok s') : s'.capacity_ = s.capacity_ := by
  unfold TryFreeEntry at h
  cases hp : HashMap.find s.entries p with
  | none => rw [hp] at h; cases h
  | some e =>
    rw [hp] at h
    simp only at h
    split at h <;> cases h <;> rfl

/-- One pass of the loop of `EvictOne` leaves the capacity as it is. -/
theorem evictSlot_capacity {s s' : SegmentCache V} {slot : Slot}
    (h : evictSlot s slot = .ok s') : s'.capacity_ = s.capacity_ := by
  unfold evictSlot at h
  cases hs : slot.entry with
  | none => rw [hs] at h; cases h
  | some p =>
    rw [hs] at h
    simp only at h
    cases hp : HashMap.find s.entries p with
    | none => rw [hp] at h; cases h
    | some e =>
      rw [hp] at h
      simp only at h
      repeat' split at h
      all_goals first
        | cases h
        | exact TryFreeEntry_capacity h
        | exact (TryFreeEntry_capacity h).trans rfl

/-- The loop of `EvictOne` leaves the capacity as it is. -/
theorem evictSlots_capacity (slots : List Slot) : ∀ {s s' : SegmentCache V},
    evictSlots s slots = .ok s' → s'.capacity_ = s.capacity_ := by
  induction slots with
  | nil => intro s s' h; cases h; rfl
  | cons slot slots ih =>
    intro s s' h
    unfold evictSlots at h
    cases h1 : evictSlot s slot with
    | error e => rw [h1] at h; cases h
    | ok s1 =>
      rw [h1] at h
      rw [ih h, evictSlot_capacity h1]

/-- The method `EvictOne` leaves the capacity as it is. -/
theorem EvictOne_capacity {s s' : SegmentCache V} (h : EvictOne s = .ok s') :
    s'.capacity_ = s.capacity_ := by
  unfold EvictOne at h
  cases h1 : SegmentList.Evict s.segment_list_ with
  | error e => rw [h1] at h; cases h
  | ok r =>
    obtain ⟨v, sl⟩ := r
    rw [h1] at h
    cases v with
    | none => cases h; rfl
    | some victim =>
      exact evictSlots_capacity victim.slot_array (s := { s with segment_list_ := sl }) h

/-- The number of the slots of a log whose segments have `S` slots each. -/
theorem logSlots_length {S : Nat} : ∀ segs : List Segment,
    (∀ seg ∈ segs, seg.slot_array.length = S) → (logSlots segs).length = segs.length * S := by
  intro segs
  induction segs with
  | nil => intro _; simp [logSlots]
  | cons seg segs ih =>
    intro h
    simp only [logSlots, List.length_append, List.length_cons]
    rw [ih (fun x hx => h x (List.mem_cons_of_mem _ hx)), h seg (List.mem_cons_self _ _),
      Nat.add_mul, Nat.one_mul]
    omega

/-- Every entry that is allocated holds a slot of the log, so the size is at
most the number of slots of the log. -/
theorem Exact.usage_le_slots {S N M : Nat} {s : SegmentCache V} (h : Exact S N s [])
    (hc : Counted M s) (hs : s.segment_list_.Slots S) :
    s.usage_ ≤ (s.segment_list_.count + 1) * S := by
  obtain ⟨c1, c2, _, _, _⟩ := hc
  obtain ⟨_, hb, _, _, hshape, _, _, _⟩ := h
  have hsub : (s.entries.map Prod.fst).map some ⊆
      (logSlots s.segment_list_.segments).map Slot.entry := by
    intro x hx
    obtain ⟨p, hp, rfl⟩ := List.mem_map.mp hx
    have hsome := (HashMap.find_isSome_iff s.entries p).mpr hp
    cases he : HashMap.find s.entries p with
    | none => rw [he] at hsome; cases hsome
    | some e =>
      obtain ⟨b1, b2, _, _, _, b6⟩ := hb p e he
      rw [heldSlots_nil] at b1 b6
      have hle := indexRef_le_one s p e
      have hpos : 0 < slotRefs (logSlots s.segment_list_.segments) p := by
        by_cases hi : s.indexRef p e = 1
        · have := b6 hi
          have := slotLive_le_refs (logSlots s.segment_list_.segments) p e.version
          omega
        · omega
      obtain ⟨slot, hm, hf⟩ := List.countP_pos_iff.mp hpos
      simp only [decide_eq_true_eq] at hf
      exact List.mem_map.mpr ⟨slot, hm, hf⟩
  have hnd : ((s.entries.map Prod.fst).map some).Nodup :=
    c2.map (fun a b hab => Option.some.inj hab)
  have hlen := (List.subperm_of_subset hnd hsub).length_le
  rw [List.length_map, List.length_map, List.length_map, logSlots_length _ hs] at hlen
  obtain ⟨head, rest, hsegs, hcount, _⟩ := hshape
  rw [hsegs, List.length_cons, ← hcount] at hlen
  omega

/-- The loop `while (usage_ > capacity_) EvictOne()` ends when the capacity is
at least five segments: while the size is over the capacity the log has more
than five segments, and every pass detaches one. -/
theorem Exact.evictLoop_returns {S N M : Nat} (hN : N < 2 ^ 32) (hM : M < 2 ^ 64) (fuel : Nat) :
    ∀ {s : SegmentCache V}, Exact S N s [] → Counted M s → s.segment_list_.Slots S →
      5 * S ≤ s.capacity_ → s.segment_list_.segments.length ≤ fuel + 5 →
      ∃ s', evictLoop fuel s = .ok s' := by
  induction fuel with
  | zero =>
    intro s h hc hs hcap hlen
    have hu := h.usage_le_slots hc hs
    obtain ⟨head, rest, hsegs, hcount, _⟩ := h.2.2.2.2.1
    rw [hsegs, List.length_cons, ← hcount] at hlen
    have : (s.segment_list_.count + 1) * S ≤ 5 * S := Nat.mul_le_mul_right S (by omega)
    exact ⟨s, evictLoop_of_le 0 s (by omega)⟩
  | succ fuel ih =>
    intro s h hc hs hcap hlen
    by_cases hle : s.usage_ ≤ s.capacity_
    · exact ⟨s, evictLoop_of_le _ s hle⟩
    · have hu := h.usage_le_slots hc hs
      have hcount : s.segment_list_.count > 4 := by
        by_contra hx
        have : (s.segment_list_.count + 1) * S ≤ 5 * S := Nat.mul_le_mul_right S (by omega)
        omega
      obtain ⟨s1, pre, t, victim, hsegs, hev, hex1, hsl1, _, _⟩ := h.exact_EvictOne hN hcount
      have hc1 := hc.counted_EvictOne hM hev
      have hs1 := EvictOne_slots hs hev
      have hcap1 := EvictOne_capacity hev
      have hlen1 : s1.segment_list_.segments.length ≤ fuel + 5 := by
        rw [hsl1]
        show (pre ++ [t]).length ≤ fuel + 5
        rw [hsegs] at hlen
        simp only [List.length_append, List.length_cons, List.length_nil] at hlen ⊢
        omega
      obtain ⟨s', hs'⟩ := ih hex1 hc1 hs1 (by rw [hcap1]; exact hcap) hlen1
      refine ⟨s', ?_⟩
      have hgt : s.usage_ > s.capacity_ := by omega
      simp only [evictLoop, hgt, if_true, hev]
      exact hs'

/-- `Insert` of a key that is not resident returns true when the capacity is at
least five segments and the loops get enough fuel. -/
theorem Exact.Insert_returns {S N M fuel : Nat} (hS : 1 ≤ S) (hS32 : S + 1 < 2 ^ 32)
    (hN : N + 1 < 2 ^ 32) (hM : M + 1 < 2 ^ 64) {s : SegmentCache V} (h : Exact S N s [])
    (hc : Counted M s) (hs : s.segment_list_.Slots S) (k : Nat) (v : V)
    (hk : HashMap.find s.hash_map_ k = none) (hcap : 5 * S ≤ s.capacity_)
    (hfuel : s.segment_list_.count + 2 ≤ fuel) :
    ∃ s', Insert S fuel s k v = .ok (true, s') := by
  have hf2 : 2 ≤ fuel := by omega
  obtain ⟨ha, hb, hcc, halc, hshape, hlen, hcap64, hpend⟩ := h
  obtain ⟨sl, _, hadd, _, hlen', _, _, _⟩ :=
    SegmentList.Add_exact hS hS32 s.segment_list_ hshape (by omega) s.allocated 1 fuel
  have hadd' := hadd hf2
  -- the same call on a shard with room
  have h0 : Exact S N { s with capacity_ := u64 (s.usage_ + 1) } [] :=
    ⟨ha, hb, hcc, halc, hshape, hlen, Nat.mod_lt _ (by decide), hpend⟩
  have hc0 : Counted M { s with capacity_ := u64 (s.usage_ + 1) } := hc
  have hs0 : ({ s with capacity_ := u64 (s.usage_ + 1) } : SegmentCache V).segment_list_.Slots S :=
    hs
  have hins0 : Insert S fuel { s with capacity_ := u64 (s.usage_ + 1) } k v =
      .ok (true, ⟨u64 (s.usage_ + 1), u64 (s.usage_ + 1), HashMap.add s.hash_map_ k s.allocated,
        HashMap.add s.entries s.allocated ⟨k, v, 1, 2, s.segment_list_.head_segment, 1⟩,
        s.allocated + 1, sl⟩) := by
    rw [Insert_new_unfold S fuel { s with capacity_ := u64 (s.usage_ + 1) } k v hk]
    simp only [hadd']
    rw [evictLoop_of_le _ _ (Nat.le_refl _)]
  have hstep0 : step S fuel { s with capacity_ := u64 (s.usage_ + 1) } (.Insert k v) =
      .ok (⟨true, none⟩, ⟨u64 (s.usage_ + 1), u64 (s.usage_ + 1),
        HashMap.add s.hash_map_ k s.allocated,
        HashMap.add s.entries s.allocated ⟨k, v, 1, 2, s.segment_list_.head_segment, 1⟩,
        s.allocated + 1, sl⟩) := by
    simp only [step, hins0]
  have hex1 : Exact S (N + 1) (⟨u64 (s.usage_ + 1), u64 (s.usage_ + 1),
      HashMap.add s.hash_map_ k s.allocated,
      HashMap.add s.entries s.allocated ⟨k, v, 1, 2, s.segment_list_.head_segment, 1⟩,
      s.allocated + 1, sl⟩ : SegmentCache V) [] := by
    rcases h0.exact_Insert fuel hS hS32 hN k v with ⟨b, s', hi, hex⟩ | hi
    · rw [hins0] at hi
      simp only [Except.ok.injEq, Prod.mk.injEq] at hi
      rw [hi.2]
      exact hex
    · rw [hins0] at hi
      cases hi
  have hc1 := hc0.counted_step hM S fuel (.Insert k v) hstep0
  have hs1 := step_slots hs0 (.Insert k v) hstep0
  -- the loop on the shard itself
  obtain ⟨a1, b1, c1, d1, e1, f1, _, g1⟩ := hex1
  have hex2 : Exact S (N + 1) (⟨s.capacity_, u64 (s.usage_ + 1),
      HashMap.add s.hash_map_ k s.allocated,
      HashMap.add s.entries s.allocated ⟨k, v, 1, 2, s.segment_list_.head_segment, 1⟩,
      s.allocated + 1, sl⟩ : SegmentCache V) [] :=
    ⟨a1, b1, c1, d1, e1, f1, hcap64, g1⟩
  have hlen2 : sl.segments.length ≤ fuel + 5 := by
    obtain ⟨head, rest, hsegs, hcount, _⟩ := hshape
    rw [hsegs, List.length_cons, ← hcount] at hlen'
    omega
  obtain ⟨s', hs'⟩ := hex2.evictLoop_returns (by omega) (by omega) fuel hc1 hs1 hcap hlen2
  refine ⟨s', ?_⟩
  rw [Insert_new_unfold S fuel s k v hk]
  simp only [hadd', hs']

end SegmentCache

namespace SegmentCache

variable {V : Type}

/-- The loop of `Insert` leaves the capacity as it is. -/
theorem evictLoop_capacity (fuel : Nat) : ∀ {s s' : SegmentCache V},
    evictLoop fuel s = .ok s' → s'.capacity_ = s.capacity_ := by
  induction fuel with
  | zero =>
    intro s s' h
    unfold evictLoop at h
    split at h
    · cases h
    · cases h; rfl
  | succ fuel ih =>
    intro s s' h
    unfold evictLoop at h
    split at h
    · cases h1 : EvictOne s with
      | error e => rw [h1] at h; cases h
      | ok s1 =>
        rw [h1] at h
        rw [ih h, EvictOne_capacity h1]
    · cases h; rfl

/-- A call leaves the capacity as it is. -/
theorem step_capacity {S fuel : Nat} {s s' : SegmentCache V} (op : Op V) {r : Ret V}
    (hr : step S fuel s op = .ok (r, s')) : s'.capacity_ = s.capacity_ := by
  cases op with
  | Insert key value =>
    unfold step at hr
    simp only at hr
    cases h1 : Insert S fuel s key value with
    | error e => rw [h1] at hr; cases hr
    | ok q =>
      rw [h1] at hr
      cases hr
      unfold Insert at h1
      cases hk : HashMap.find s.hash_map_ key with
      | some p =>
        rw [hk] at h1
        simp only at h1
        cases hp : HashMap.find s.entries p with
        | none => rw [hp] at h1; cases h1
        | some e =>
          rw [hp] at h1
          cases h1
          rfl
      | none =>
        rw [hk] at h1
        simp only at h1
        cases h2 : SegmentList.Add S fuel s.segment_list_ s.allocated 1 with
        | error e => rw [h2] at h1; cases h1
        | ok sl =>
          rw [h2] at h1
          simp only at h1
          split at h1
          · cases h1
          · rename_i s3 h3
            cases h1
            exact (evictLoop_capacity fuel h3).trans rfl
  | Lookup key value =>
    unfold step at hr
    simp only at hr
    cases h1 : Lookup S fuel s key value with
    | error e => rw [h1] at hr; cases hr
    | ok q =>
      rw [h1] at hr
      cases hr
      unfold Lookup at h1
      cases hk : HashMap.find s.hash_map_ key with
      | none =>
        rw [hk] at h1
        cases h1
        rfl
      | some p =>
        rw [hk] at h1
        simp only at h1
        cases hp : HashMap.find s.entries p with
        | none => rw [hp] at h1; cases h1
        | some e =>
          rw [hp] at h1
          simp only at h1
          split at h1
          · split at h1
            · cases h1
            · cases h1
              rfl
          · cases h1
            rfl
  | Erase key =>
    unfold step at hr
    simp only at hr
    cases h1 : Erase s key with
    | error e => rw [h1] at hr; cases hr
    | ok q =>
      rw [h1] at hr
      cases hr
      unfold Erase at h1
      cases hk : HashMap.find s.hash_map_ key with
      | none =>
        rw [hk] at h1
        cases h1
        rfl
      | some p =>
        rw [hk] at h1
        simp only at h1
        cases h2 : TryFreeEntry s p with
        | error e => rw [h2] at h1; cases h1
        | ok s1 =>
          rw [h2] at h1
          cases h1
          exact (TryFreeEntry_capacity h2 : s1.capacity_ = s.capacity_)

/-- A run leaves the capacity as it is. -/
theorem run_capacity {S fuel : Nat} (ops : List (Op V)) :
    ∀ {s s' : SegmentCache V} {rs : List (Ret V)},
      run S fuel s ops = .ok (rs, s') → s'.capacity_ = s.capacity_ := by
  induction ops with
  | nil =>
    intro s s' rs h
    simp only [run, Except.ok.injEq, Prod.mk.injEq] at h
    rw [← h.2]
  | cons op ops ih =>
    intro s s' rs h
    simp only [run] at h
    cases hstep : step S fuel s op with
    | error f => rw [hstep] at h; cases h
    | ok res =>
      obtain ⟨r, t⟩ := res
      rw [hstep] at h
      simp only at h
      cases hrest : run S fuel t ops with
      | error f => rw [hrest] at h; cases h
      | ok res2 =>
        obtain ⟨rs2, t2⟩ := res2
        rw [hrest] at h
        simp only [Except.ok.injEq, Prod.mk.injEq] at h
        rw [← h.2, ih hrest, step_capacity op hstep]

/-- The capacity of a shard is the one it was constructed with. -/
theorem Reachable.capacity {S fuel C n : Nat} {s : SegmentCache V}
    (h : Reachable S fuel C n s) : s.capacity_ = C := by
  obtain ⟨ops, rs, _, hrun⟩ := h
  exact run_capacity ops hrun

theorem sampleFull_reachable : Reachable 1 2 5 5 sampleFull :=
  ⟨[.Insert 1 10, .Insert 2 20, .Insert 3 30, .Insert 4 40, .Insert 5 50],
    [⟨true, none⟩, ⟨true, none⟩, ⟨true, none⟩, ⟨true, none⟩, ⟨true, none⟩], rfl, by decide⟩

end SegmentCache

/-! ## The claim on the result of `Insert` -/

/-- C8, as amended. For FIFO, LRU and Segment shards of capacity `C ≥ 1`, in
any state a sequential execution reaches (for the Segment shard an execution
of fewer than `2 ^ 32 - 2` calls): `Insert` of a resident key returns false and
changes only that key's stored value (the index keeps its keys and every other
value; the list or slot log, versions, reference counts and usage stay as
they are). `Insert` of a key that is not resident returns true on FIFO and LRU
shards. On a Segment shard it never returns false; it returns true when the
shard is not full; and it returns true when the capacity is at least five
segments (`5 * S ≤ C`), given fuel for one pass of its loop per segment of the
log. Whenever the first `Insert(k, v)` returns (on FIFO and LRU shards it
always does), the state after `Insert(k, v); Insert(k, v)` is the state after
one `Insert(k, v)`. -/
theorem insert_resident_or_new {V : Type} (C : Nat) (hC : 1 ≤ C) (h64 : C < 2 ^ 64)
    (k : Nat) (v : V)
    (sf : FifoCache V) (hf : FifoCache.Reachable C sf)
    (sl : LruCache V) (hl : LruCache.Reachable C sl)
    (S fuel n : Nat) (hS : 1 ≤ S) (hfuel : 2 ≤ fuel) (hn : n + 2 < 2 ^ 32)
    (ss : SegmentCache V) (hs : SegmentCache.Reachable S fuel C n ss) :
    -- the write through the accessor
    (∀ (m : HashMap V), (HashMap.update m k v).map Prod.fst = m.map Prod.fst ∧
      ∀ k', k' ≠ k → HashMap.find (HashMap.update m k v) k' = HashMap.find m k') ∧
    -- FIFO
    (((HashMap.find sf.m_map k).isSome = true →
        FifoCache.Insert sf k v = (false, { sf with m_map := HashMap.update sf.m_map k v })) ∧
      (HashMap.find sf.m_map k = none → (FifoCache.Insert sf k v).1 = true) ∧
      FifoCache.Insert (FifoCache.Insert sf k v).2 k v = (false, (FifoCache.Insert sf k v).2)) ∧
    -- LRU
    (((HashMap.find sl.hash_map_ k).isSome = true →
        LruCache.Insert sl k v
          = .ok (false, { sl with hash_map_ := HashMap.update sl.hash_map_ k v })) ∧
      ∃ b sl1, LruCache.Insert sl k v = .ok (b, sl1) ∧
        (HashMap.find sl.hash_map_ k = none → b = true) ∧
        LruCache.Insert sl1 k v = .ok (false, sl1)) ∧
    -- Segment
    (((HashMap.find ss.hash_map_ k).isSome = true →
        ∃ p e, HashMap.find ss.hash_map_ k = some p ∧ HashMap.find ss.entries p = some e ∧
          SegmentCache.Insert S fuel ss k v
            = .ok (false, { ss with
                entries := HashMap.update ss.entries p { e with value := v } })) ∧
      (HashMap.find ss.hash_map_ k = none →
        ∀ b s', SegmentCache.Insert S fuel ss k v = .ok (b, s') → b = true) ∧
      (HashMap.find ss.hash_map_ k = none → ss.usage_ < ss.capacity_ →
        ∃ s', SegmentCache.Insert S fuel ss k v = .ok (true, s')) ∧
      (HashMap.find ss.hash_map_ k = none → S + 1 < 2 ^ 32 → 5 * S ≤ C →
        ∀ fuel', ss.segment_list_.count + 2 ≤ fuel' →
          ∃ s', SegmentCache.Insert S fuel' ss k v = .ok (true, s')) ∧
      (∀ b s1, SegmentCache.Insert S fuel ss k v = .ok (b, s1) →
        SegmentCache.Insert S fuel s1 k v = .ok (false, s1))) := by
  have hinv : SegmentCache.Inv (1 + n) ss := hs.inv hS h64 (by omega)
  have hinv0 := hinv
  obtain ⟨hidx, _, _, hne, _, _, hcap⟩ := hinv0
  refine ⟨?_, ⟨?_, ?_, ?_⟩, ⟨?_, ?_⟩, ⟨?_, ?_, ?_, ?_, ?_⟩⟩
  · intro m
    refine ⟨HashMap.map_fst_update m k v, fun k' hk' => ?_⟩
    rw [HashMap.find_update, if_neg hk']
  · exact FifoCache.fifo_Insert_of_resident sf k v
  · exact FifoCache.Insert_of_new sf k v
  · obtain ⟨a, ha⟩ := hf.fifo_rep hC h64
    have hsim := (FifoCache.fifo_Insert_sim hC h64 ha k v).2
    have hfind := hsim.2.2.1 k
    rw [RecencyList.find_Insert_self] at hfind
    rw [FifoCache.fifo_Insert_of_resident _ k v (by rw [hfind]; rfl)]
    rw [HashMap.update_eq_self _ k v (FifoCache.fifo_Insert_values sf k v)]
  · exact LruCache.lru_Insert_of_resident sl k v
  · obtain ⟨a, ha⟩ := hl.lru_rep hC h64
    obtain ⟨sl1, he, hsim⟩ := LruCache.lru_Insert_sim hC h64 ha k v
    have hfind := hsim.2.2.1 k
    rw [RecencyList.find_Insert_self] at hfind
    refine ⟨_, sl1, he, ?_, ?_⟩
    · intro hnone
      have : HashMap.find a k = none := by rw [← ha.2.2.1 k]; exact hnone
      simp only [RecencyList.Insert, this]
    · rw [LruCache.lru_Insert_of_resident _ k v (by rw [hfind]; rfl)]
      rw [HashMap.update_eq_self _ k v (LruCache.lru_Insert_values sl sl1 k v _ he)]
  · intro hres
    cases hfind : HashMap.find ss.hash_map_ k with
    | none => rw [hfind] at hres; cases hres
    | some p =>
      obtain ⟨e, hent, _⟩ := hidx k p hfind
      exact ⟨p, e, rfl, hent, SegmentCache.Insert_resident S fuel ss k v p e hfind hent⟩
  · intro hk b s' h
    exact SegmentCache.Insert_new_ret ss k v hk h
  · intro hk hroom
    obtain ⟨_, _, _, h⟩ := SegmentCache.Insert_new_room hS hfuel ss k v hk hne hroom hcap
    exact ⟨_, h⟩
  · intro hk hS32 h5 fuel' hfuel'
    have hex := hs.exact hS hS32 h64 (by omega)
    obtain ⟨hcnt, hslots⟩ := hs.counted (show n < 2 ^ 64 by omega)
    exact hex.Insert_returns hS hS32 (by omega) (show n + 1 < 2 ^ 64 by omega) hcnt hslots k v hk
      (by rw [hs.capacity]; exact h5) hfuel'
  · intro b s1 h
    exact SegmentCache.Insert_twice hS (by omega) ss hinv k v b s1 h

/-- C8, the claim as stated fails. A Segment shard of capacity 1 (65536 slots
per segment) that holds key 1 never returns from `Insert(2, 20)`, whatever
fuel its loops get: the shard is over capacity and, with a single segment,
`EvictOne` evicts nothing. And in executions of `2 ^ 32` calls and more the
32-bit reference count of an entry wraps: on a shard of capacity 65537, after
the inserts of the keys `0, ..., 65536` and `2 ^ 32 - 2` lookups of key 0,
`Insert(65537, 0)` of a key that is not resident fails the assertion
`refs > 0` of `EvictOne`; after one lookup more it returns true and leaves the
index pointing to a freed entry, and then `Insert(0, 5)` of the resident
key 0 dereferences the freed entry. -/
theorem segment_insert_into_full_shard_never_returns :
    (∃ rs s, SegmentCache.run 65536 2 (SegmentCache.new 65536 1) [.Insert 1 10] = .ok (rs, s) ∧
      HashMap.find s.hash_map_ 2 = none ∧
      ∀ fuel, SegmentCache.Insert 65536 fuel s 2 20 = .error .outOfFuel) ∧
    (∃ rs s, SegmentCache.run 65536 2 (SegmentCache.new 65536 65537)
        (SegmentCache.hotOps 65536 (2 ^ 32 - 2)) = .ok (rs, s) ∧
      HashMap.find s.hash_map_ 65537 = none ∧
      SegmentCache.Insert 65536 2 s 65537 0 = .error .assertFailed) ∧
    (∃ rs s, SegmentCache.run 65536 2 (SegmentCache.new 65536 65537)
        (SegmentCache.hotOps 65536 (2 ^ 32 - 1) ++ [.Insert 65537 0]) = .ok (rs, s) ∧
      HashMap.find s.hash_map_ 0 = some 0 ∧
      SegmentCache.Insert 65536 2 s 0 5 = .error .useAfterFree) := by
  refine ⟨?_, ?_, ?_⟩
  · obtain ⟨s, hrun, hholds⟩ :=
      @SegmentCache.Holds.run_inserts Nat (fun _ => 10) 65536 1 2 (by decide) (by decide)
        (by decide) [1] [] (SegmentCache.new 65536 1)
        (SegmentCache.Holds.start (fun _ => 10) 65536 1) (by decide) (by decide)
    obtain ⟨hcap, hus, ⟨hne, hcnt⟩, hout, _⟩ := hholds
    have hk : HashMap.find s.hash_map_ 2 = none := hout 2 (by decide)
    refine ⟨_, s, hrun, hk, fun fuel => ?_⟩
    apply SegmentCache.Insert_new_stuck (by decide) s 2 20 hk hne
    · rw [hcap, hus]; decide
    · simp only [List.nil_append, List.length_singleton] at hcnt
      omega
  · obtain ⟨rs, s, hrun, hhot⟩ := SegmentCache.wrap_run (2 ^ 32 - 2) (by decide)
    refine ⟨rs, s, hrun, by rw [hhot.hot_find.1 65537, if_neg (by decide)], ?_⟩
    exact hhot.hot_Insert_fault (by decide) (by decide) (by decide) (by decide)
      (Nat.le_refl 2) (by decide) (by decide) 65537 (by decide) 0
  · obtain ⟨rs, s, hrun, hhot⟩ := SegmentCache.wrap_run (2 ^ 32 - 1) (by decide)
    obtain ⟨t, hins, a3, a4⟩ := hhot.hot_Insert_dangling (by decide) (by decide) (by decide)
      (by decide) (Nat.le_refl 2) (by decide) (by decide) (by decide) 65537 (by decide) 0
    refine ⟨rs ++ [⟨true, none⟩], t, ?_, a3,
      (@SegmentCache.dangling_faults 65536 2 t 0 0 a3 a4 5).2.2⟩
    refine SegmentCache.seg_run_append 65536 2 _ _ _ _ _ _ _ hrun ?_
    simp only [SegmentCache.run, SegmentCache.step, hins]

/-- C8 on the sample shards of capacity 2, and on the full Segment shard of
capacity 5 with one slot per segment, where `Insert(6, 60)` evicts and
returns true. -/
theorem insert_resident_or_new_witness :
    1 ≤ 2 ∧ 2 < 2 ^ 64 ∧ FifoCache.Reachable 2 FifoCache.sample ∧
    LruCache.Reachable 2 LruCache.sample ∧ 1 ≤ 2 ∧ 2 ≤ 2 ∧ 1 + 2 < 2 ^ 32 ∧
    SegmentCache.Reachable 2 2 2 1 SegmentCache.sample ∧
    SegmentCache.Reachable 1 2 5 5 SegmentCache.sampleFull ∧
    SegmentCache.sampleFull.usage_ = SegmentCache.sampleFull.capacity_ ∧
    (∃ s', SegmentCache.Insert 1 6 SegmentCache.sampleFull 6 60 = .ok (true, s')) ∧
    ((∀ (m : HashMap Nat), (HashMap.update m 1 11).map Prod.fst = m.map Prod.fst ∧
      ∀ k', k' ≠ 1 → HashMap.find (HashMap.update m 1 11) k' = HashMap.find m k') ∧
    (((HashMap.find FifoCache.sample.m_map 1).isSome = true →
        FifoCache.Insert FifoCache.sample 1 11
          = (false, { FifoCache.sample with
              m_map := HashMap.update FifoCache.sample.m_map 1 11 })) ∧
      (HashMap.find FifoCache.sample.m_map 1 = none →
        (FifoCache.Insert FifoCache.sample 1 11).1 = true) ∧
      FifoCache.Insert (FifoCache.Insert FifoCache.sample 1 11).2 1 11
        = (false, (FifoCache.Insert FifoCache.sample 1 11).2)) ∧
    (((HashMap.find LruCache.sample.hash_map_ 1).isSome = true →
        LruCache.Insert LruCache.sample 1 11
          = .ok (false, { LruCache.sample with
              hash_map_ := HashMap.update LruCache.sample.hash_map_ 1 11 })) ∧
      ∃ b sl1, LruCache.Insert LruCache.sample 1 11 = .ok (b, sl1) ∧
        (HashMap.find LruCache.sample.hash_map_ 1 = none → b = true) ∧
        LruCache.Insert sl1 1 11 = .ok (false, sl1)) ∧
    (((HashMap.find SegmentCache.sample.hash_map_ 1).isSome = true →
        ∃ p e, HashMap.find SegmentCache.sample.hash_map_ 1 = some p ∧
          HashMap.find SegmentCache.sample.entries p = some e ∧
          SegmentCache.Insert 2 2 SegmentCache.sample 1 11
            = .ok (false, { SegmentCache.sample with
                entries :=
                  HashMap.update SegmentCache.sample.entries p { e with value := 11 } })) ∧
      (HashMap.find SegmentCache.sample.hash_map_ 1 = none →
        ∀ b s', SegmentCache.Insert 2 2 SegmentCache.sample 1 11 = .ok (b, s') → b = true) ∧
      (HashMap.find SegmentCache.sample.hash_map_ 1 = none →
        SegmentCache.sample.usage_ < SegmentCache.sample.capacity_ →
        ∃ s', SegmentCache.Insert 2 2 SegmentCache.sample 1 11 = .ok (true, s')) ∧
      (HashMap.find SegmentCache.sample.hash_map_ 1 = none → 2 + 1 < 2 ^ 32 → 5 * 2 ≤ 2 →
        ∀ fuel', SegmentCache.sample.segment_list_.count + 2 ≤ fuel' →
          ∃ s', SegmentCache.Insert 2 fuel' SegmentCache.sample 1 11 = .ok (true, s')) ∧
      (∀ b s1, SegmentCache.Insert 2 2 SegmentCache.sample 1 11 = .ok (b, s1) →
        SegmentCache.Insert 2 2 s1 1 11 = .ok (false, s1)))) :=
  ⟨by decide, by decide, FifoCache.fifo_sample_reachable, LruCache.lru_sample_reachable,
    by decide, by decide, by decide, SegmentCache.segment_sample_reachable,
    SegmentCache.sampleFull_reachable, rfl,
    (insert_resident_or_new 5 (by decide) (by decide) 6 60 (FifoCache.new 5) ⟨[], [], rfl⟩
      (LruCache.new 5) ⟨[], [], rfl⟩ 1 2 5 (by decide) (by decide) (by decide) _
      SegmentCache.sampleFull_reachable).2.2.2.2.2.2.1 (by decide) (by decide) (by decide) 6
      (by decide),
    insert_resident_or_new 2 (by decide) (by decide) 1 11 _ FifoCache.fifo_sample_reachable _
      LruCache.lru_sample_reachable 2 2 1 (by decide) (by decide) (by decide) _
      SegmentCache.segment_sample_reachable⟩

/-! ## Curve profiling: `Insert` behind the marker -/

namespace FrozenHotCache

theorem profiling_sampleMarkerLast : Profiling sampleMarkerLast [1, 0] 2 [] := by
  refine ⟨by decide, by decide, rfl, rfl, rfl, rfl, rfl, rfl, by decide, fun i hi => ?_⟩
  show HashMap.find [(2, _), (1, _), (0, _)] i = none
  have hi' : 3 ≤ i := hi
  have h2 : (2 : Nat) ≠ i := by omega
  have h1 : (1 : Nat) ≠ i := by omega
  have h0 : (0 : Nat) ≠ i := by omega
  rw [show HashMap.find [(2, _), (1, _), (0, _)] i =
    if 2 = i then _ else HashMap.find [(1, _), (0, _)] i from HashMap.find_add _ _ _ _, if_neg h2]
  rw [show HashMap.find [(1, _), (0, _)] i = if 1 = i then _ else HashMap.find [(0, _)] i from
    HashMap.find_add _ _ _ _, if_neg h1]
  rw [show HashMap.find [(0, _)] i = if 0 = i then _ else HashMap.find [] i from
    HashMap.find_add _ _ _ _, if_neg h0]
  rfl

end FrozenHotCache

set_option maxRecDepth 100000 in
/-- C36. On a quiescent FrozenHot shard on which a curve is sampled, with the
marker node `mk` in the main list between the nodes `xs` and `ys`, `Insert`
of a key that is not resident, into a shard with room or into a full shard
whose last node carries an indexed key for `Evict` to take, returns true and
splices the new node right after the marker: its `m_prev` is the marker and
the `m_next` of the marker is the new node. It gives the new node the time of
the marker, so the node counts as not newer than the marker: the first
`Lookup` of the key after it returns true with the value, adds one to
`movement_counter` and moves the node to the head of the main list. A
`Lookup` of the key after that, when the first one read a clock later than
the time of the marker, changes nothing. The last part is the full shard
whose last node is the marker itself, which a run reaches: there `Evict`,
which has no test for the marker, unlinks the marker and evicts nothing;
`Insert(7, 70)` returns true, links the new node behind the unlinked marker,
out of the list that starts at the head, and leaves `m_size` at 3 with the
capacity 2. -/
theorem frozenhot_insert_after_marker_is_counted {V : Type} (fuel : Nat)
    (s : FrozenHotCache V) (xs ys : List Nat) (mk : Nat)
    (hp : FrozenHotCache.Profiling s xs mk ys) (hcan : FrozenHotCache.CanInsert fuel s ys)
    (key : Nat) (hkey : HashMap.find s.m_map key = none) (v value : V)
    (now now' now'' : Nat) (list_lock list_lock' : Bool) :
    (∃ s1 s2 nm,
      FrozenHotCache.Insert fuel s key v now = .ok (true, s1) ∧
      FrozenHotCache.MainList s1
        (xs ++ mk :: s.allocated :: FrozenHotCache.afterInsert s ys) ∧
      HashMap.find s.nodes mk = some nm ∧
      HashMap.find s1.nodes s.allocated =
        some { m_key := key, m_prev := .node mk,
               m_next := FrozenHotCache.firstPtr (FrozenHotCache.afterInsert s ys) .tail,
               m_time := nm.m_time } ∧
      (HashMap.find s1.nodes mk).map (fun n => (n.m_next, n.m_time)) =
        some (.node s.allocated, nm.m_time) ∧
      s1.movement_counter = s.movement_counter ∧
      FrozenHotCache.Lookup s1 key value list_lock now' = .ok (true, v, s2) ∧
      s2.movement_counter = u64 (s.movement_counter + 1) ∧
      FrozenHotCache.MainList s2
        (s.allocated :: (xs ++ mk :: FrozenHotCache.afterInsert s ys)) ∧
      (nm.m_time < now' →
        FrozenHotCache.Lookup s2 key value list_lock' now'' = .ok (true, v, s2))) ∧
    (FrozenHotCache.Profiling FrozenHotCache.sampleMarkerLast [1, 0] 2 [] ∧
      (match FrozenHotCache.run 3 (FrozenHotCache.new 2) [.Insert 5 50 0, .Insert 6 60 0] with
        | .ok r =>
          match FrozenHotCache.GetCurve_begin r.2 10 with
          | .ok s1 => FrozenHotCache.run 3 s1 [.Lookup 5 0 20, .Lookup 6 0 30]
          | .error e => .error e
        | .error e => .error e) =
        .ok ([⟨true, some 50⟩, ⟨true, some 60⟩], FrozenHotCache.sampleMarkerLast) ∧
      FrozenHotCache.sampleMarkerLast.m_size = FrozenHotCache.sampleMarkerLast.m_max_size ∧
      FrozenHotCache.sampleMarkerLast.m_tail.m_prev = FrozenHotCache.sampleMarkerLast.m_marker ∧
      (∀ fuel', ¬ FrozenHotCache.CanInsert fuel' FrozenHotCache.sampleMarkerLast []) ∧
      (match FrozenHotCache.Insert 3 FrozenHotCache.sampleMarkerLast 7 70 40 with
        | .ok r =>
          some (r.1, r.2.m_size, r.2.m_max_size, r.2.m_head.m_next, HashMap.find r.2.nodes 1,
            HashMap.find r.2.nodes 0, HashMap.find r.2.nodes 2, HashMap.find r.2.nodes 3,
            r.2.m_tail.m_prev)
        | .error _ => none) =
        some (true, 3, 2, .node 1, some ⟨6, .head, .node 0, 30⟩, some ⟨5, .node 1, .tail, 20⟩,
          some ⟨2, .marker, .node 3, 10⟩, some ⟨7, .node 2, .tail, 10⟩, .node 3)) := by
  refine ⟨?_, FrozenHotCache.profiling_sampleMarkerLast, by decide, rfl, rfl, ?_, by rfl⟩
  · obtain ⟨s1, nm, m', e1, hp1, hk1, hnm, hna, hmk1, hmt, hmn, hmv1⟩ :=
      FrozenHotCache.Insert_profiling hp hcan hkey v now
    obtain ⟨hm1, hnd1, hmark1, hcurve1, _, hready1, hfrozen1, hcons1, _, _⟩ := hp1
    have hlist : xs ++ mk :: s.allocated :: FrozenHotCache.afterInsert s ys =
        (xs ++ [mk]) ++ s.allocated :: FrozenHotCache.afterInsert s ys := by simp
    have hlist2 : s.allocated :: ((xs ++ [mk]) ++ FrozenHotCache.afterInsert s ys) =
        s.allocated :: (xs ++ mk :: FrozenHotCache.afterInsert s ys) := by simp
    have hm1' := hm1
    rw [hlist] at hm1' hnd1
    obtain ⟨s2, e2, hm2, hmv2, htime2, hmap2, hmark2, hcurve2, _, d2, hfr2⟩ :=
      FrozenHotCache.Lookup_older hm1' hnd1 hk1 rfl hready1 hfrozen1 hcons1 hcurve1 hmark1 hna hmk1
        (Nat.le_of_eq hmt.symm) value list_lock now'
    rw [hlist2] at hm2
    refine ⟨s1, s2, nm, e1, hm1, hnm, hna,
      by rw [hmk1]; simp only [Option.map_some', hmt, hmn], hmv1, e2,
      by rw [hmv2, hmv1], hm2, fun hlt => ?_⟩
    obtain ⟨n2, hn2, _, _⟩ := FrozenHotCache.Chain.find_first hm2.2.2
    obtain ⟨m2, hm2k⟩ := FrozenHotCache.Chain.find_mem hm2.2.2 (i := mk) (by simp)
    have ha_mk : mk ≠ s.allocated := by
      intro h
      exact (List.nodup_append.mp hnd1).2.2 (by simp : mk ∈ xs ++ [mk])
        (by rw [h]; exact List.mem_cons_self _ _)
    obtain ⟨nj, hnj, htj⟩ := hfr2 mk m2 ha_mk hm2k
    rw [hmk1] at hnj
    have hm2t : m2.m_time = nm.m_time := by
      rw [← htj, ← Option.some.inj hnj, hmt]
    have hn2t : n2.m_time = now' := by
      rw [hn2] at htime2
      simpa using htime2
    obtain ⟨_, _, _, _, _, y6, y7, y8, _, y10, _, _⟩ := d2
    exact FrozenHotCache.Lookup_newer (by rw [hmap2]; exact hk1) rfl (y6.trans hready1)
      (y7.trans hfrozen1) (y8.trans hcons1) (hcurve2.trans hcurve1) (hmark2.trans hmark1) hn2 hm2k
      (by rw [hm2t, hn2t]; exact hlt) value list_lock' now''
  · intro fuel' hcan'
    rcases hcan' with h | ⟨_, _, t, nt, hvt, hl, _⟩
    · exact absurd h (by decide)
    · cases hl

set_option maxRecDepth 100000 in
/-- C36 on the sample shard of capacity 3, and the run on the shard of capacity 2
in which `Evict` unlinks the marker. -/
theorem frozenhot_insert_after_marker_is_counted_witness :
    FrozenHotCache.Profiling FrozenHotCache.sampleCurve [] 2 [1, 0] ∧
    FrozenHotCache.CanInsert 2 FrozenHotCache.sampleCurve [1, 0] ∧
    HashMap.find FrozenHotCache.sampleCurve.m_map 7 = none ∧
    ((∃ s1 s2 nm,
      FrozenHotCache.Insert 2 FrozenHotCache.sampleCurve 7 70 20 = .ok (true, s1) ∧
      FrozenHotCache.MainList s1
        ([] ++ 2 :: FrozenHotCache.sampleCurve.allocated ::
          FrozenHotCache.afterInsert FrozenHotCache.sampleCurve [1, 0]) ∧
      HashMap.find FrozenHotCache.sampleCurve.nodes 2 = some nm ∧
      HashMap.find s1.nodes FrozenHotCache.sampleCurve.allocated =
        some { m_key := 7, m_prev := .node 2,
               m_next := FrozenHotCache.firstPtr
                (FrozenHotCache.afterInsert FrozenHotCache.sampleCurve [1, 0]) .tail,
               m_time := nm.m_time } ∧
      (HashMap.find s1.nodes 2).map (fun n => (n.m_next, n.m_time)) =
        some (.node FrozenHotCache.sampleCurve.allocated, nm.m_time) ∧
      s1.movement_counter = FrozenHotCache.sampleCurve.movement_counter ∧
      FrozenHotCache.Lookup s1 7 0 true 30 = .ok (true, 70, s2) ∧
      s2.movement_counter = u64 (FrozenHotCache.sampleCurve.movement_counter + 1) ∧
      FrozenHotCache.MainList s2
        (FrozenHotCache.sampleCurve.allocated ::
          ([] ++ 2 :: FrozenHotCache.afterInsert FrozenHotCache.sampleCurve [1, 0])) ∧
      (nm.m_time < 30 → FrozenHotCache.Lookup s2 7 0 true 40 = .ok (true, 70, s2))) ∧
    (FrozenHotCache.Profiling FrozenHotCache.sampleMarkerLast [1, 0] 2 [] ∧
      (match FrozenHotCache.run 3 (FrozenHotCache.new 2) [.Insert 5 50 0, .Insert 6 60 0] with
        | .ok r =>
          match FrozenHotCache.GetCurve_begin r.2 10 with
          | .ok s1 => FrozenHotCache.run 3 s1 [.Lookup 5 0 20, .Lookup 6 0 30]
          | .error e => .error e
        | .error e => .error e) =
        .ok ([⟨true, some 50⟩, ⟨true, some 60⟩], FrozenHotCache.sampleMarkerLast) ∧
      FrozenHotCache.sampleMarkerLast.m_size = FrozenHotCache.sampleMarkerLast.m_max_size ∧
      FrozenHotCache.sampleMarkerLast.m_tail.m_prev = FrozenHotCache.sampleMarkerLast.m_marker ∧
      (∀ fuel', ¬ FrozenHotCache.CanInsert fuel' FrozenHotCache.sampleMarkerLast []) ∧
      (match FrozenHotCache.Insert 3 FrozenHotCache.sampleMarkerLast 7 70 40 with
        | .ok r =>
          some (r.1, r.2.m_size, r.2.m_max_size, r.2.m_head.m_next, HashMap.find r.2.nodes 1,
            HashMap.find r.2.nodes 0, HashMap.find r.2.nodes 2, HashMap.find r.2.nodes 3,
            r.2.m_tail.m_prev)
        | .error _ => none) =
        some (true, 3, 2, .node 1, some ⟨6, .head, .node 0, 30⟩, some ⟨5, .node 1, .tail, 20⟩,
          some ⟨2, .marker, .node 3, 10⟩, some ⟨7, .node 2, .tail, 10⟩, .node 3))) :=
  ⟨FrozenHotCache.profiling_sampleCurve, Or.inl (by decide), by decide,
    frozenhot_insert_after_marker_is_counted 2 FrozenHotCache.sampleCurve [] [1, 0] 2
      FrozenHotCache.profiling_sampleCurve (Or.inl (by decide)) 7 (by decide) 70 0 20 30 40
      true true⟩


end kvcache
